import Mathlib

/-!
# Altai: hyper-set and phaser

A shallow embedding of `src/src/hyper_set.cc`, `src/lib/util/util.h`
(`consecutive_subset`) and `src/src/phaser.cc`, with the properties of the
hyper-set operations and of the allele splitter proved over it.

Conventions of the embedding.

* `std::vector<T>` is `List T`; `std::set<int>` is the list of its elements
  in ascending order; `std::map<K, V>` is the list of its `(key, value)`
  pairs in ascending key order, read with `map_find`.
* An `assert` that fails, and a read past the end of a vector, make the
  function return `none`.
* A loop that the source can run for ever takes a fuel argument; the function
  then returns an `outcome`, which tells a failed assertion from used-up fuel.
* `double` is `ℚ` (exact arithmetic), except for the product that decides the
  genotype of a fragment, which is rounded as a `double` is (`double.mul_int`).
* `int` is `ℤ`; the sums of counts and the increments that can leave the range
  of a 32-bit `int` are reduced to it by `int32`.
-/

namespace Altai

/-! ## Machine numbers -/

/-- The value of a 32-bit `int` (two's complement) after an operation whose exact
result is `x`: `x` reduced modulo `2 ^ 32` to the range `-2 ^ 31 .. 2 ^ 31 - 1`. -/
def int32 (x : Int) : Int :=
  (x + 2147483648) % 4294967296 - 2147483648

/-- A finite `double`: the number `mantissa * 2 ^ exponent`. -/
structure double where
  /-- The significand, with its sign. -/
  mantissa : Int
  /-- The power of two. -/
  exponent : Int
deriving DecidableEq, Repr

/-- The number that a `double` stands for. -/
def double.val (d : double) : ℚ :=
  (d.mantissa : ℚ) * (2 : ℚ) ^ d.exponent

/-- The natural number `n / 2 ^ k` rounded to the nearest natural number, a tie going
to the even one. -/
def round_shift (n k : Nat) : Nat :=
  if 2 * (n % 2 ^ k) < 2 ^ k then n / 2 ^ k
  else if 2 ^ k < 2 * (n % 2 ^ k) then n / 2 ^ k + 1
  else if (n / 2 ^ k) % 2 = 0 then n / 2 ^ k
  else n / 2 ^ k + 1

/-- The product `n * d` of an `int`, converted to `double`, and a `double`: the exact
product is rounded to 53 significant bits, to nearest and ties to even. -/
def double.mul_int (n : Int) (d : double) : double :=
  { mantissa := (n * d.mantissa).sign *
      (round_shift (n * d.mantissa).natAbs ((n * d.mantissa).natAbs.size - 53) : Int),
    exponent := d.exponent + (((n * d.mantissa).natAbs.size - 53 : Nat) : Int) }

/-! ## Containers -/

/-- Lookup `m.find(k)` in a `std::map`: the value of the first pair whose key is `k`. -/
def map_find {κ β : Type} [DecidableEq κ] : List (κ × β) → κ → Option β
  | [], _ => none
  | (k, v) :: m, a => if a = k then some v else map_find m a

/-- Store `v` under key `k` in a `std::map<int, _>`: the value is replaced when the
key is present and the pair is inserted at its place in key order otherwise. -/
def map_put {β : Type} : List (Int × β) → Int → β → List (Int × β)
  | [], a, b => [(a, b)]
  | (k, v) :: m, a, b =>
    if a = k then (k, b) :: m
    else if a < k then (a, b) :: (k, v) :: m
    else (k, v) :: map_put m a b

/-- Erase `m.erase(k)` of a key from a `std::map`. -/
def map_erase {κ β : Type} [DecidableEq κ] : List (κ × β) → κ → List (κ × β)
  | [], _ => []
  | (k, v) :: m, a => if k = a then map_erase m a else (k, v) :: map_erase m a

/-- Insertion `s.insert(i)` into a `std::set<int>`. -/
def set_insert (i : Nat) : List Nat → List Nat
  | [] => [i]
  | j :: s =>
    if i = j then j :: s
    else if i < j then i :: j :: s
    else j :: set_insert i s

/-- Erasure `s.erase(i)` from a `std::set<int>`. -/
def set_erase (i : Nat) : List Nat → List Nat
  | [] => []
  | j :: s => if j = i then set_erase i s else j :: set_erase i s

/-- The result of a function whose loops take fuel. -/
inductive outcome (α : Type) where
  /-- The function returned this value. -/
  | done (a : α)
  /-- An assertion failed, or a vector was read past its end. -/
  | abort
  /-- The fuel was used up before the loops ended. -/
  | out_of_fuel
deriving DecidableEq, Repr

/-! ## The hyper-set (`hyper_set.h`, `hyper_set.cc`) -/

/-- An edge descriptor of the graph library (a pointer in the source). -/
abbrev edge_descriptor := Nat

/-- The null pointer `null_edge`. -/
def null_edge : edge_descriptor := 0

/-- The data members of `class hyper_set`. -/
structure hyper_set where
  /-- The map `nodes` (`MVII`): node sequences with their counts, in key order. -/
  nodes : List (List Int × Int)
  /-- The rows `edges`: sequences of edge indices, `-1` being the gap. -/
  edges : List (List Int)
  /-- The counts `ecnts`, parallel to `edges`. -/
  ecnts : List Int
  /-- The index `e2s` (`MISI`): for an edge index, the set of rows holding it. -/
  e2s : List (Int × List Nat)
  /-- The rows `edges_to_transform` waiting for `transform`. -/
  edges_to_transform : List (List Int)
deriving DecidableEq, Repr

/-! ### `hyper_set::build_index` -/

/-- The statements `if(e2s.find(e) == e2s.end()) { set<int> s; s.insert(k);
e2s.insert(PISI(e, s)); } else { e2s[e].insert(k); }`, as written in `build_index`,
`replace` and `insert_between`. -/
def e2s_add (m : List (Int × List Nat)) (e : Int) (k : Nat) : List (Int × List Nat) :=
  match map_find m e with
  | none => map_put m e (set_insert k [])
  | some ss => map_put m e (set_insert k ss)

/-- The inner loop of `build_index` over the entries of row `i`. -/
def build_index_row (i : Nat) : List Int → List (Int × List Nat) → List (Int × List Nat)
  | [], m => m
  | e :: v, m =>
    if e = -1 then build_index_row i v m
    else build_index_row i v (e2s_add m e i)

/-- The outer loop of `build_index`, at row number `i`. -/
def build_index_loop : Nat → List (List Int) → List (Int × List Nat) → List (Int × List Nat)
  | _, [], m => m
  | i, v :: rows, m => build_index_loop (i + 1) rows (build_index_row i v m)

/-- The function `hyper_set::build_index`. -/
def build_index (hs : hyper_set) : hyper_set :=
  { hs with e2s := build_index_loop 0 hs.edges [] }


/-! ### The graph seen by the hyper-set -/

/-- Modelled from the spec: the graph library (`directed_graph`) is not among the
sources. A graph is the list of its edges, each a descriptor with its source and
target vertex ("Directed graph ... each edge carries an edge_info"). -/
structure directed_graph where
  /-- The edges: descriptor, source vertex, target vertex. -/
  edge_list : List (edge_descriptor × Int × Int)
deriving DecidableEq, Repr

/-- The call `gr.edge(s, t)`: the descriptor of an edge from `s` to `t` (the `PEB`
is `none` when its boolean is false). -/
def directed_graph.edge (gr : directed_graph) (s t : Int) : Option edge_descriptor :=
  match gr.edge_list.find? (fun p => decide (p.2.1 = s ∧ p.2.2 = t)) with
  | none => none
  | some p => some p.1

/-- The boolean of `gr.edge(e)`: `e` is the descriptor of an edge of the graph. -/
def directed_graph.has_edge (gr : directed_graph) (e : edge_descriptor) : Bool :=
  gr.edge_list.any (fun p => decide (p.1 = e))

/-! ### `hyper_set::transform` -/

/-- The loop `for(int k : vv)` of `transform`, with the state `(ve, keep_vv)`. -/
def transform_row (pgr : directed_graph) (i2e_old : List edge_descriptor)
    (x2y : List (edge_descriptor × edge_descriptor)) (e2i_new : List (edge_descriptor × Int)) :
    List Int → List Int × Bool → Option (List Int × Bool)
  | [], acc => some acc
  | k :: vv, (ve, keep_vv) =>
    if k = -1 then transform_row pgr i2e_old x2y e2i_new vv (ve ++ [-1], keep_vv)
    else if ¬ (0 ≤ k ∧ k < (i2e_old.length : Int)) then none
    else
      match i2e_old[k.toNat]? with
      | none => none
      | some e_old =>
        if e_old = null_edge then none
        else
          match map_find x2y e_old with
          | none => none
          | some e_new =>
            match map_find e2i_new e_new with
            | some idx =>
              if pgr.has_edge e_new = true then
                transform_row pgr i2e_old x2y e2i_new vv (ve ++ [idx], keep_vv)
              else transform_row pgr i2e_old x2y e2i_new vv (ve, false)
            | none => transform_row pgr i2e_old x2y e2i_new vv (ve, false)

/-- The loop over the rows of `edges_to_transform`, at row number `i`, with the
state `(edges, ecnts_transformed)`. -/
def transform_loop (pgr : directed_graph) (i2e_old : List edge_descriptor)
    (x2y : List (edge_descriptor × edge_descriptor)) (e2i_new : List (edge_descriptor × Int))
    (ecnts : List Int) :
    Nat → List (List Int) → List (List Int) × List Int → Option (List (List Int) × List Int)
  | _, [], acc => some acc
  | i, vv :: rows, (edges, ecnts_transformed) =>
    match transform_row pgr i2e_old x2y e2i_new vv ([], true) with
    | none => none
    | some (ve, keep_vv) =>
      if keep_vv = true then
        if vv.length ≠ ve.length then none
        else
          match ecnts[i]? with
          | none => none
          | some c =>
            transform_loop pgr i2e_old x2y e2i_new ecnts (i + 1) rows
              (edges ++ [ve], ecnts_transformed ++ [c])
      else
        transform_loop pgr i2e_old x2y e2i_new ecnts (i + 1) rows (edges, ecnts_transformed)

/-- The function `hyper_set::transform`. -/
def transform (pgr : directed_graph) (i2e_old : List edge_descriptor)
    (x2y : List (edge_descriptor × edge_descriptor)) (e2i_new : List (edge_descriptor × Int))
    (hs : hyper_set) : Option hyper_set :=
  if hs.nodes.length ≠ 0 then none
  else if hs.edges.length ≠ 0 then none
  else if hs.edges_to_transform.length ≠ hs.ecnts.length then none
  else
    match transform_loop pgr i2e_old x2y e2i_new hs.ecnts 0 hs.edges_to_transform (hs.edges, []) with
    | none => none
    | some (edges, ecnts_transformed) =>
      if edges.length ≠ ecnts_transformed.length then none
      else some { hs with edges := edges, ecnts := ecnts_transformed, edges_to_transform := [] }

/-! ### `hyper_set::build_edges` -/

/-- The read `e2i[p.first]` of `build_edges`: `operator[]` gives the stored index, and
`0` (which it then stores in `e2i`, a map of the caller) for an absent descriptor. -/
def e2i_at (e2i : List (edge_descriptor × Int)) (p : edge_descriptor) : Int :=
  match map_find e2i p with
  | none => 0
  | some i => i

/-- The loop `for(int k = 0; k < vv.size() - 1; k++)` of `build_edges` with `n` rounds
left, at index `k`, with the state `(ve, b)`. -/
def build_edges_row (gr : directed_graph) (e2i : List (edge_descriptor × Int)) (vv : List Int) :
    Nat → Nat → List Int × Bool → Option (List Int × Bool)
  | 0, _, acc => some acc
  | n + 1, k, (ve, b) =>
    match vv[k]?, vv[k + 1]? with
    | some s, some t =>
      match gr.edge s t with
      | none => build_edges_row gr e2i vv n (k + 1) (ve ++ [-1], false)
      | some p => build_edges_row gr e2i vv n (k + 1) (ve ++ [e2i_at e2i p], b)
    | _, _ => none

/-- The bound `vv.size() - 1` of that loop, computed in `size_t` (64 bits). -/
def build_edges_bound (vv : List Int) : Nat :=
  (2 ^ 64 - 1 + vv.length) % 2 ^ 64

/-- The loop of `build_edges` over `nodes`, with the state `(edges, ecnts)`. -/
def build_edges_loop (gr : directed_graph) (e2i : List (edge_descriptor × Int))
    (min_router_count : Int) :
    List (List Int × Int) → List (List Int) × List Int → Option (List (List Int) × List Int)
  | [], acc => some acc
  | (vv, c) :: nodes, (edges, ecnts) =>
    if c < min_router_count then build_edges_loop gr e2i min_router_count nodes (edges, ecnts)
    else
      match build_edges_row gr e2i vv (build_edges_bound vv) 0 ([], true) with
      | none => none
      | some (ve, b) =>
        if b = true ∧ 2 ≤ ve.length then
          build_edges_loop gr e2i min_router_count nodes (edges ++ [ve], ecnts ++ [c])
        else build_edges_loop gr e2i min_router_count nodes (edges, ecnts)

/-- The function `hyper_set::build_edges`; `min_router_count` is the configuration
constant of that name. -/
def build_edges (gr : directed_graph) (e2i : List (edge_descriptor × Int))
    (min_router_count : Int) (hs : hyper_set) : Option hyper_set :=
  if hs.edges.length ≠ 0 then none
  else
    match build_edges_loop gr e2i min_router_count hs.nodes ([], hs.ecnts) with
    | none => none
    | some (edges, ecnts) => some { hs with edges := edges, ecnts := ecnts }

/-! ### `consecutive_subset` (`util.h`) and `hyper_set::get_intersection` -/

/-- The loop over `j` of `consecutive_subset`, with `n` rounds left: the value of `b`. -/
def consecutive_subset_inner (ref x : List Int) (k : Nat) : Nat → Nat → Bool
  | 0, _ => true
  | n + 1, j => if x[j]? ≠ ref[j + k]? then false else consecutive_subset_inner ref x k n (j + 1)

/-- The loop over `i` of `consecutive_subset`, with `n` rounds left. -/
def consecutive_subset_outer (ref x : List Int) : Nat → Nat → List Nat → List Nat
  | 0, _, v => v
  | n + 1, i, v =>
    if ref[i]? ≠ x[0]? then consecutive_subset_outer ref x n (i + 1) v
    else if consecutive_subset_inner ref x i x.length 0 = false then
      consecutive_subset_outer ref x n (i + 1) v
    else consecutive_subset_outer ref x n (i + 1) (v ++ [i])

/-- The function `consecutive_subset(ref, x)`: the positions where `x` starts in `ref`. -/
def consecutive_subset (ref x : List Int) : List Nat :=
  if x.length = 0 then []
  else if ref.length = 0 then []
  else if x.length > ref.length then []
  else consecutive_subset_outer ref x (ref.length - x.length + 1) 0 []

/-- The loop `for(int i = 1; ...)` of `get_intersection`; `std::set_intersection` of two
sets keeps the elements of the first that are in the second. -/
def get_intersection_loop (e2s : List (Int × List Nat)) : List Int → List Nat → Option (List Nat)
  | [], ss => some ss
  | u :: v, ss =>
    if ¬ (0 ≤ u) then none
    else
      match map_find e2s u with
      | none => some []
      | some s => get_intersection_loop e2s v (ss.filter (fun i => decide (i ∈ s)))

/-- The function `hyper_set::get_intersection`. -/
def get_intersection (hs : hyper_set) : List Int → Option (List Nat)
  | [] => some []
  | v0 :: v =>
    if ¬ (0 ≤ v0) then none
    else
      match map_find hs.e2s v0 with
      | none => some []
      | some ss => get_intersection_loop hs.e2s v ss

/-! ### `hyper_set::replace` -/

/-- The first loop of `replace(v, e)`, over the rows of the intersection, with the
state `(edges, e2s, fb)`. -/
def replace_rows (v : List Int) (e : Int) :
    List Nat → List (List Int) × List (Int × List Nat) × List Nat →
    Option (List (List Int) × List (Int × List Nat) × List Nat)
  | [], st => some st
  | k :: s, (edges, e2s, fb) =>
    match edges[k]? with
    | none => none
    | some vv =>
      let bv := consecutive_subset vv v
      if bv.length ≤ 0 then replace_rows v e s (edges, e2s, fb)
      else if bv.length ≠ 1 then none
      else
        match bv[0]? with
        | none => none
        | some b =>
          let vv1 := vv.set b e
          let vv2 := vv1.take (b + 1) ++ vv1.drop (b + v.length)
          replace_rows v e s (edges.set k vv2, e2s_add e2s e k, fb ++ [k])

/-- The loop `for(k...) e2s[u].erase(fb[k])`. -/
def erase_all (fb : List Nat) (s : List Nat) : List Nat :=
  fb.foldl (fun s k => set_erase k s) s

/-- The second loop of `replace(v, e)`, over the elements of `v`. -/
def replace_unindex (fb : List Nat) : List Int → List (Int × List Nat) → List (Int × List Nat)
  | [], m => m
  | u :: v, m =>
    match map_find m u with
    | none => replace_unindex fb v m
    | some s =>
      if (erase_all fb s).length = 0 then replace_unindex fb v (map_erase m u)
      else replace_unindex fb v (map_put m u (erase_all fb s))

/-- The function `hyper_set::replace(const vector<int> &v, int e)`. -/
def replace (hs : hyper_set) (v : List Int) (e : Int) : Option hyper_set :=
  if v.length = 0 then some hs
  else
    match get_intersection hs v with
    | none => none
    | some s =>
      match replace_rows v e s (hs.edges, hs.e2s, []) with
      | none => none
      | some (edges, e2s, fb) => some { hs with edges := edges, e2s := replace_unindex fb v e2s }

/-! ### `hyper_set::remove` -/

/-- The loop over the entries of row `k` in `remove(e)`: the new row and `fb`. -/
def remove_scan (e : Int) (k : Nat) : List Int → List Nat → List Int × List Nat
  | [], fb => ([], fb)
  | a :: vv, fb =>
    if a ≠ e then ((a :: (remove_scan e k vv fb).1), (remove_scan e k vv fb).2)
    else (((-1) :: (remove_scan e k vv (fb ++ [k])).1), (remove_scan e k vv (fb ++ [k])).2)

/-- The loop of `remove(e)` over the rows listed under `e`, with the state `(edges, fb)`. -/
def remove_rows (e : Int) :
    List Nat → List (List Int) × List Nat → Option (List (List Int) × List Nat)
  | [], st => some st
  | k :: s, (edges, fb) =>
    match edges[k]? with
    | none => none
    | some vv =>
      if ¬ (1 ≤ vv.length) then none
      else remove_rows e s (edges.set k (remove_scan e k vv fb).1, (remove_scan e k vv fb).2)

/-- The function `hyper_set::remove(int e)`. -/
def remove (hs : hyper_set) (e : Int) : Option hyper_set :=
  match map_find hs.e2s e with
  | none => some hs
  | some s =>
    match remove_rows e s (hs.edges, []) with
    | none => none
    | some (edges, fb) =>
      some { hs with edges := edges, e2s := map_erase (map_put hs.e2s e (erase_all fb s)) e }

/-! ### `hyper_set::insert_between` and `hyper_set::remove_pair` -/

/-- The loop `for(int i = 0; i < vv.size(); i++)` of `insert_between` on row `k`, at
index `i`, with the state `(vv, e2s)`; `none` when the fuel is used up. -/
def insert_between_scan (x y e : Int) (k : Nat) :
    Nat → Nat → List Int × List (Int × List Nat) → Option (List Int × List (Int × List Nat))
  | 0, _, _ => none
  | fuel + 1, i, (vv, m) =>
    if i < vv.length then
      if i = vv.length - 1 then insert_between_scan x y e k fuel (i + 1) (vv, m)
      else if vv[i]? ≠ some x then insert_between_scan x y e k fuel (i + 1) (vv, m)
      else if vv[i + 1]? ≠ some y then insert_between_scan x y e k fuel (i + 1) (vv, m)
      else if e = -1 then insert_between_scan x y e k fuel (i + 1) (vv.take (i + 1) ++ e :: vv.drop (i + 1), m)
      else insert_between_scan x y e k fuel (i + 1) (vv.take (i + 1) ++ e :: vv.drop (i + 1), e2s_add m e k)
    else some (vv, m)

/-- The loop of `insert_between` over the rows listed under `x`, with the state
`(edges, e2s)`. -/
def insert_between_rows (x y e : Int) (fuel : Nat) :
    List Nat → List (List Int) × List (Int × List Nat) →
    outcome (List (List Int) × List (Int × List Nat))
  | [], st => outcome.done st
  | k :: s, (edges, m) =>
    match edges[k]? with
    | none => outcome.abort
    | some vv =>
      if ¬ (1 ≤ vv.length) then outcome.abort
      else
        match insert_between_scan x y e k fuel 0 (vv, m) with
        | none => outcome.out_of_fuel
        | some (vv1, m1) => insert_between_rows x y e fuel s (edges.set k vv1, m1)

/-- The function `hyper_set::insert_between`; `fuel` bounds the rounds of the scan of
one row. -/
def insert_between (fuel : Nat) (hs : hyper_set) (x y e : Int) : outcome hyper_set :=
  match map_find hs.e2s x with
  | none => outcome.done hs
  | some s =>
    match insert_between_rows x y e fuel s (hs.edges, hs.e2s) with
    | outcome.done (edges, m) => outcome.done { hs with edges := edges, e2s := m }
    | outcome.abort => outcome.abort
    | outcome.out_of_fuel => outcome.out_of_fuel

/-- The function `hyper_set::remove_pair` (the statements after its first `return`
are never run). -/
def remove_pair (fuel : Nat) (hs : hyper_set) (x y : Int) : outcome hyper_set :=
  insert_between fuel hs x y (-1)

/-! ### `hyper_set::get_successors` -/

/-- The loop of `get_successors(e)` over the entries of one row with count `c`; the
statement `s[k] += c` adds two `int`s. -/
def get_successors_scan (e c : Int) : List Int → List (Int × Int) → List (Int × Int)
  | [], s => s
  | [_], s => s
  | a :: k :: v, s =>
    if a ≠ e then get_successors_scan e c (k :: v) s
    else if k = -1 then get_successors_scan e c (k :: v) s
    else
      match map_find s k with
      | none => get_successors_scan e c (k :: v) (map_put s k c)
      | some c0 => get_successors_scan e c (k :: v) (map_put s k (int32 (c0 + c)))

/-- The loop of `get_successors(e)` over the rows listed under `e`. -/
def get_successors_rows (hs : hyper_set) (e : Int) :
    List Nat → List (Int × Int) → Option (List (Int × Int))
  | [], s => some s
  | k :: ss, s =>
    match hs.edges[k]?, hs.ecnts[k]? with
    | some v, some c => get_successors_rows hs e ss (get_successors_scan e c v s)
    | _, _ => none

/-- The function `hyper_set::get_successors`. -/
def get_successors (hs : hyper_set) (e : Int) : Option (List (Int × Int)) :=
  match map_find hs.e2s e with
  | none => some []
  | some ss => get_successors_rows hs e ss []

/-! ## The phaser (`phaser.h`, `phaser.cc`) -/

/-- The genotype of a vertex. -/
inductive genotype where
  | UNPHASED
  | ALLELE1
  | ALLELE2
  | NONSPECIFIC
deriving DecidableEq, Repr

/-- Modelled from the spec: the allelic position `as_pos32`, which is not among the
sources: "A reference coordinate extended with an allele tag: either the sentinel `$`
(non-allelic) or a nucleotide string naming the allele". A `std::string` is the list of
its characters. -/
structure as_pos32 where
  /-- The coordinate `p32`. -/
  p32 : Int
  /-- The allele tag `ale`. -/
  ale : List Char
deriving DecidableEq, Repr

/-- Modelled from the spec: `vertex_info` (`vertex_info.h` is not among the sources),
"lpos, rpos, length, genotype, coverage stddev, `type` (NORMAL/EMPTY_VERTEX), `as_type`
..., and a `regional` flag". Of `as_type` the value of `is_as_vertex()` is kept. -/
structure vertex_info where
  /-- The field `gt`. -/
  gt : genotype
  /-- The value of `is_as_vertex()`. -/
  as_vertex : Bool
  /-- The field `lpos`. -/
  lpos : as_pos32 := { p32 := 0, ale := ['$'] }
  /-- The field `rpos`. -/
  rpos : as_pos32 := { p32 := 0, ale := ['$'] }
  /-- The field `length`. -/
  length : Int := 0
  /-- The field `stddev`. -/
  stddev : ℚ := 0
  /-- The field `regional`. -/
  regional : Bool := false
  /-- The field `type`. -/
  type : Int := 0
deriving DecidableEq, Repr

/-- Modelled from the spec: `splice_graph` (the graph library) is not among the
sources. "Directed graph ... Internal vertex `i` carries a `vertex_info` ... Each edge
carries an `edge_info` with a weight": the vertices are `0 .. vinf.size() - 1`, an
edge descriptor is a position in `edge_ends`, and `vwrt` and `ewrt` hold the weights
(`ewrt` is the map `MED`, keyed by the descriptors below its length). Edges are
numbered in the order in which they were added, and an edge that is removed keeps its
number, which is then listed in `removed`. -/
structure splice_graph where
  /-- The vector `vinf`. -/
  vinf : List vertex_info
  /-- The vector `vwrt`. -/
  vwrt : List ℚ
  /-- Source and target of each edge. -/
  edge_ends : List (Nat × Nat)
  /-- The map `ewrt`. -/
  ewrt : List ℚ
  /-- The descriptors of the edges that have been removed from the graph. -/
  removed : List Nat := []
deriving DecidableEq

/-- The edges `gr.edges()`: the descriptors that have not been removed, in ascending
order. -/
def splice_graph.edges (gr : splice_graph) : List Nat :=
  (List.range gr.edge_ends.length).filter (fun d => decide (d ∉ gr.removed))

/-- The edges `gr.in_edges(i)`. -/
def splice_graph.in_edges (gr : splice_graph) (i : Nat) : List Nat :=
  gr.edges.filter (fun d => decide ((gr.edge_ends.getD d (0, 0)).2 = i))

/-- The edges `gr.out_edges(i)`. -/
def splice_graph.out_edges (gr : splice_graph) (i : Nat) : List Nat :=
  gr.edges.filter (fun d => decide ((gr.edge_ends.getD d (0, 0)).1 = i))

/-- The read `m[e]` of a weight map or vector: `operator[]` of a map gives `0` for an
absent key. -/
def wt (m : List ℚ) (d : Nat) : ℚ :=
  m.getD d 0

/-- The data members of `class phaser` that `init` and `assign_gt` write. -/
structure phaser where
  /-- The map `ewrt1`: edge weight in allele 1. -/
  ewrt1 : List ℚ
  /-- The map `ewrt2`: edge weight in allele 2. -/
  ewrt2 : List ℚ
  /-- The vector `vwrt1`. -/
  vwrt1 : List ℚ
  /-- The vector `vwrt2`. -/
  vwrt2 : List ℚ
  /-- The sum `vwrtbg1`. -/
  vwrtbg1 : ℚ
  /-- The sum `vwrtbg2`. -/
  vwrtbg2 : ℚ
  /-- The sum `ewrtbg1`. -/
  ewrtbg1 : ℚ
  /-- The sum `ewrtbg2`. -/
  ewrtbg2 : ℚ
  /-- The ratio `ewrtratiobg1`. -/
  ewrtratiobg1 : ℚ
  /-- The ratio `ewrtratiobg2`. -/
  ewrtratiobg2 : ℚ
deriving DecidableEq

/-- The member `epsilon = 0.01`. -/
def epsilon : ℚ := 1 / 100

/-- The function `phaser::normalize_epsilon`. -/
def normalize_epsilon (x y : ℚ) : Option (ℚ × ℚ) :=
  if ¬ (0 ≤ x) then none
  else if ¬ (0 ≤ y) then none
  else if x + y ≤ 0 then some (-1, -1)
  else if ¬ (0 < (x + epsilon) / (x + y + 2 * epsilon) ∧
      (x + epsilon) / (x + y + 2 * epsilon) < 1) then none
  else some ((x + epsilon) / (x + y + 2 * epsilon), 1 - (x + epsilon) / (x + y + 2 * epsilon))

/-- One of the four loops of `init` over the in- or out-edges of an allelic vertex:
the full weight goes to `ewrt1` when `allele1` is true, to `ewrt2` otherwise; the state
is `(ewrt1, ewrt2, ewrtbg)`. -/
def init_edges (gr : splice_graph) (allele1 : Bool) :
    List Nat → List ℚ × List ℚ × ℚ → Option (List ℚ × List ℚ × ℚ)
  | [], st => some st
  | d :: ds, (e1, e2, bg) =>
    match gr.ewrt[d]? with
    | none => none
    | some w =>
      if allele1 = true then init_edges gr allele1 ds (e1.set d w, e2.set d 0, bg + w)
      else init_edges gr allele1 ds (e1.set d 0, e2.set d w, bg + w)

/-- The body of the loop of `init` for an allelic vertex `i`: the loops over its
in-edges and its out-edges and the sum of vertex weights, written twice in the source,
for `ALLELE1` (`allele1` true) and for `ALLELE2`. -/
def init_vertex (gr : splice_graph) (i : Nat) (allele1 : Bool) (ph : phaser) : Option phaser :=
  match init_edges gr allele1 (gr.in_edges i)
      (ph.ewrt1, ph.ewrt2, if allele1 = true then ph.ewrtbg1 else ph.ewrtbg2) with
  | none => none
  | some st1 =>
    match init_edges gr allele1 (gr.out_edges i) st1 with
    | none => none
    | some (e1, e2, bg) =>
      if allele1 = true then
        some { ph with ewrt1 := e1, ewrt2 := e2, ewrtbg1 := bg,
                       vwrtbg1 := ph.vwrtbg1 + wt gr.vwrt i }
      else
        some { ph with ewrt1 := e1, ewrt2 := e2, ewrtbg2 := bg,
                       vwrtbg2 := ph.vwrtbg2 + wt gr.vwrt i }

/-- The loop `for(int i = 0; i < gr.vinf.size(); i++)` of `init`, at vertex `i`. -/
def init_loop (gr : splice_graph) : Nat → List vertex_info → phaser → Option phaser
  | _, [], ph => some ph
  | i, v :: vs, ph =>
    if v.gt = genotype.ALLELE1 then
      match init_vertex gr i true ph with
      | none => none
      | some ph1 => init_loop gr (i + 1) vs ph1
    else if v.gt = genotype.ALLELE2 then
      match init_vertex gr i false ph with
      | none => none
      | some ph1 => init_loop gr (i + 1) vs ph1
    else init_loop gr (i + 1) vs ph

/-- The state of the phaser before the loop of `init`: `-1` for every vertex and
every edge of `gr.ewrt`, and the four sums at `0`. -/
def init_state (gr : splice_graph) : phaser :=
  { ewrt1 := gr.ewrt.map (fun _ => -1), ewrt2 := gr.ewrt.map (fun _ => -1),
    vwrt1 := gr.vwrt.map (fun _ => -1), vwrt2 := gr.vwrt.map (fun _ => -1),
    vwrtbg1 := 0, vwrtbg2 := 0, ewrtbg1 := 0, ewrtbg2 := 0,
    ewrtratiobg1 := 0, ewrtratiobg2 := 0 }

/-- The function `phaser::init`. -/
def init (gr : splice_graph) : Option phaser :=
  match init_loop gr 0 gr.vinf (init_state gr) with
  | none => none
  | some ph =>
    match normalize_epsilon ph.ewrtbg1 ph.ewrtbg2 with
    | none => none
    | some r1r2 =>
      if ¬ (r1r2.1 + r1r2.2 < 1001 / 1000) then none
      else if ¬ (r1r2.1 + r1r2.2 > 999 / 1000) then none
      else if ¬ (0 ≤ r1r2.1) then none
      else if ¬ (0 ≤ r1r2.2) then none
      else some { ph with ewrtratiobg1 := r1r2.1, ewrtratiobg2 := r1r2.2 }

/-- The loops of `get_as_ratio` over the in- and out-edges: the sums `local1`, `local2`. -/
def local_sums (ph : phaser) : List Nat → ℚ × ℚ → ℚ × ℚ
  | [], acc => acc
  | d :: ds, (local1, local2) =>
    local_sums ph ds
      (if 0 < wt ph.ewrt1 d then local1 + wt ph.ewrt1 d else local1,
       if 0 < wt ph.ewrt2 d then local2 + wt ph.ewrt2 d else local2)

/-- The function `phaser::get_as_ratio`. -/
def get_as_ratio (gr : splice_graph) (ph : phaser) (i : Nat) : Option (ℚ × ℚ) :=
  match local_sums ph (gr.out_edges i) (local_sums ph (gr.in_edges i) (0, 0)) with
  | (local1, local2) =>
    if ¬ (0 ≤ local1) then none
    else if ¬ (0 ≤ local2) then none
    else if local1 + local2 ≤ 0 then some (-1, -1)
    else normalize_epsilon local1 local2

/-- The two loops of `split_by_ratio` over the in- and out-edges, with the state
`(ewrt1, ewrt2)`. -/
def split_edges (gr : splice_graph) (ratio_allele1 : ℚ) :
    List Nat → List ℚ × List ℚ → List ℚ × List ℚ
  | [], st => st
  | d :: ds, (e1, e2) =>
    split_edges gr ratio_allele1 ds
      (if wt e1 d < 0 then e1.set d (wt gr.ewrt d * ratio_allele1) else e1,
       if wt e2 d < 0 then e2.set d (wt gr.ewrt d * (1 - ratio_allele1)) else e2)

/-- The function `phaser::split_by_ratio`. -/
def split_by_ratio (gr : splice_graph) (ph : phaser) (v : Nat) (ratio_allele1 : ℚ) :
    Option (phaser × Bool) :=
  if ¬ (0 < ratio_allele1) then none
  else if ¬ (ratio_allele1 < 1) then none
  else if ¬ (v < ph.vwrt1.length ∧ v < ph.vwrt2.length ∧ v < gr.vwrt.length) then none
  else
    match split_edges gr ratio_allele1 (gr.out_edges v)
        (split_edges gr ratio_allele1 (gr.in_edges v) (ph.ewrt1, ph.ewrt2)) with
    | (e1, e2) =>
      some ({ ph with vwrt1 := ph.vwrt1.set v (wt gr.vwrt v * ratio_allele1),
                      vwrt2 := ph.vwrt2.set v (wt gr.vwrt v * (1 - ratio_allele1)),
                      ewrt1 := e1, ewrt2 := e2 }, true)

/-- The function `phaser::split_local` (with `strategy = "split_by_ratio"`, as `init`
sets it). -/
def split_local (gr : splice_graph) (ph : phaser) (i : Nat) : Option (phaser × Bool) :=
  match get_as_ratio gr ph i with
  | none => none
  | some (ratio1, ratio2) =>
    if ratio1 < 0 ∧ ¬ (ratio2 < 0) then none
    else if ratio2 < 0 ∧ ¬ (ratio1 < 0) then none
    else if ratio1 + ratio2 ≤ 0 then some (ph, false)
    else split_by_ratio gr ph i ratio1

/-- The function `phaser::split_global`. -/
def split_global (gr : splice_graph) (ph : phaser) (i : Nat) : Option (phaser × Bool) :=
  split_by_ratio gr ph i ph.ewrtratiobg1

/-- The first loop of `sort_nodes_by_currecnt_mae`: the pairs `(mae, i)` of the nodes
with `mae > 0`. -/
def nodes_mae (gr : splice_graph) (ph : phaser) : List Nat → Option (List (ℚ × Nat))
  | [] => some []
  | i :: s =>
    match get_as_ratio gr ph i, nodes_mae gr ph s with
    | some r1r2, some rest =>
      if max r1r2.1 r1r2.2 ≤ 0 then some rest else some ((max r1r2.1 r1r2.2, i) :: rest)
    | _, _ => none

/-- The order `operator<` of `pair<double, int>`, as `≤`. -/
def mae_le (a b : ℚ × Nat) : Prop :=
  a.1 < b.1 ∨ (a.1 = b.1 ∧ a.2 ≤ b.2)

instance mae_le_decidable : DecidableRel mae_le :=
  fun a b => inferInstanceAs (Decidable (a.1 < b.1 ∨ (a.1 = b.1 ∧ a.2 ≤ b.2)))

/-- The assertions of the second loop of `sort_nodes_by_currecnt_mae`, on the list in
descending order: `j->first <= i->first` for neighbours and `j->first > 0`. -/
def mae_descending_ok : List (ℚ × Nat) → Bool
  | [] => true
  | [a] => decide (0 < a.1)
  | a :: b :: rest => decide (b.1 ≤ a.1) && decide (0 < a.1) && mae_descending_ok (b :: rest)

/-- The function `phaser::sort_nodes_by_currecnt_mae`. -/
def sort_nodes_by_currecnt_mae (gr : splice_graph) (ph : phaser) (s : List Nat) :
    Option (List Nat) :=
  match nodes_mae gr ph s with
  | none => none
  | some l =>
    if mae_descending_ok (l.insertionSort mae_le).reverse = true then
      some ((l.insertionSort mae_le).reverse.map Prod.snd)
    else none

/-- The loops of `assign_gt` that sort the non-zero vertices into `asnodes` and
`nsnodes`. -/
def classify_nodes (gr : splice_graph) :
    List Nat → List Nat × List Nat → Option (List Nat × List Nat)
  | [], st => some st
  | i :: s, (asnodes, nsnodes) =>
    match gr.vinf[i]? with
    | none => none
    | some v =>
      if v.as_vertex = true then classify_nodes gr s (set_insert i asnodes, nsnodes)
      else classify_nodes gr s (asnodes, set_insert i nsnodes)

/-- The loop `for(int i : vi)` of the local pass, with the state `(phaser, nsnodes)`. -/
def local_for (gr : splice_graph) : List Nat → phaser × List Nat → Option (phaser × List Nat)
  | [], st => some st
  | i :: vi, (ph, nsnodes) =>
    match split_local gr ph i with
    | none => none
    | some (ph1, b) =>
      if b = true then
        if i ∈ nsnodes then local_for gr vi (ph1, set_erase i nsnodes) else none
      else some (ph, nsnodes)

/-- The loop `while(nsnodes.size() >= 1)` of the local pass. -/
def local_while (gr : splice_graph) : Nat → phaser × List Nat → outcome (phaser × List Nat)
  | 0, _ => outcome.out_of_fuel
  | fuel + 1, (ph, nsnodes) =>
    if 1 ≤ nsnodes.length then
      match sort_nodes_by_currecnt_mae gr ph nsnodes with
      | none => outcome.abort
      | some vi =>
        match local_for gr vi (ph, nsnodes) with
        | none => outcome.abort
        | some st => local_while gr fuel st
    else outcome.done (ph, nsnodes)

/-- The loop `for(int i : vi)` of the global pass. -/
def global_for (gr : splice_graph) : List Nat → phaser × List Nat → Option (phaser × List Nat)
  | [], st => some st
  | i :: vi, (ph, nsnodes) =>
    match split_global gr ph i with
    | none => none
    | some (ph1, _) =>
      if i ∈ nsnodes then global_for gr vi (ph1, set_erase i nsnodes) else none

/-- The loop `while(nsnodes.size() >= 1)` of the global pass. -/
def global_while (gr : splice_graph) : Nat → phaser × List Nat → outcome (phaser × List Nat)
  | 0, _ => outcome.out_of_fuel
  | fuel + 1, (ph, nsnodes) =>
    if 1 ≤ nsnodes.length then
      match sort_nodes_by_currecnt_mae gr ph nsnodes with
      | none => outcome.abort
      | some vi =>
        match global_for gr vi (ph, nsnodes) with
        | none => outcome.abort
        | some st => global_while gr fuel st
    else outcome.done (ph, nsnodes)

/-- The function `phaser::assign_gt`; `asnonzeroset` and `nsnonzeroset` are the sets of
`sc`, `max_num_exons` is the configuration constant, and `fuel` bounds the rounds of
each `while` loop. -/
def assign_gt (fuel : Nat) (gr : splice_graph) (asnonzeroset nsnonzeroset : List Nat)
    (max_num_exons : Nat) (ph : phaser) : outcome phaser :=
  match classify_nodes gr asnonzeroset ([], []) with
  | none => outcome.abort
  | some st0 =>
    match classify_nodes gr nsnonzeroset st0 with
    | none => outcome.abort
    | some (asnodes, nsnodes) =>
      if ¬ (1 ≤ asnodes.length) then outcome.abort
      else if ¬ (1 ≤ nsnodes.length) then outcome.abort
      else
        match (if nsnodes.length + asnodes.length < max_num_exons then
            local_while gr fuel (ph, nsnodes) else outcome.done (ph, nsnodes)) with
        | outcome.abort => outcome.abort
        | outcome.out_of_fuel => outcome.out_of_fuel
        | outcome.done st1 =>
          match global_while gr fuel st1 with
          | outcome.abort => outcome.abort
          | outcome.out_of_fuel => outcome.out_of_fuel
          | outcome.done (ph2, nsnodes2) =>
            if nsnodes2.length = 0 then outcome.done ph2 else outcome.abort

/-- The calls `init(); assign_gt();` of the constructor of `phaser`. -/
def init_assign_gt (fuel : Nat) (gr : splice_graph) (asnonzeroset nsnonzeroset : List Nat)
    (max_num_exons : Nat) : outcome phaser :=
  match init gr with
  | none => outcome.abort
  | some ph => assign_gt fuel gr asnonzeroset nsnonzeroset max_num_exons ph

/-! ## The refinement of the splice graph (`bundle.cc`) -/

/-- Modelled from the spec: `num_vertices()` of the graph library, which is not among
the sources ("source (index 0) and sink (index `n-1`)"). -/
def splice_graph.num_vertices (gr : splice_graph) : Nat :=
  gr.vinf.length

/-- Modelled from the spec: `in_degree(i)`, the number of edges into `i`. -/
def splice_graph.in_degree (gr : splice_graph) (i : Nat) : Nat :=
  (gr.in_edges i).length

/-- Modelled from the spec: `out_degree(i)`, the number of edges out of `i`. -/
def splice_graph.out_degree (gr : splice_graph) (i : Nat) : Nat :=
  (gr.out_edges i).length

/-- Modelled from the spec: `degree(i)`, the number of edges into and out of `i`. -/
def splice_graph.degree (gr : splice_graph) (i : Nat) : Nat :=
  gr.in_degree i + gr.out_degree i

/-- Modelled from the spec: `remove_edge(e)` takes the edge `e` out of the graph; the
vertices and the other edges stay. -/
def splice_graph.remove_edge (gr : splice_graph) (e : Nat) : splice_graph :=
  { gr with removed := e :: gr.removed }

/-- Modelled from the spec: `clear_vertex(i)` removes every edge into or out of `i`
("clearing any vertex ... vertices stay in the graph as isolated, never dropped"). -/
def splice_graph.clear_vertex (gr : splice_graph) (i : Nat) : splice_graph :=
  { gr with removed := gr.in_edges i ++ gr.out_edges i ++ gr.removed }

/-- The loop `for(int i = 1; i < gr.num_vertices() - 1; i++)` of `refine_splice_graph`
over the vertices still to visit, with the state `(gr, b)`. -/
def refine_for : List Nat → splice_graph × Bool → splice_graph × Bool
  | [], st => st
  | i :: rest, (gr, b) =>
    if gr.degree i = 0 then refine_for rest (gr, b)
    else if 1 ≤ gr.in_degree i ∧ 1 ≤ gr.out_degree i then refine_for rest (gr, b)
    else refine_for rest (gr.clear_vertex i, true)

/-- The internal vertices `1 .. num_vertices() - 2`, which that loop visits. -/
def internal_vertices (gr : splice_graph) : List Nat :=
  List.range' 1 (gr.num_vertices - 2)

/-- The loop `while(true)` of `refine_splice_graph`. -/
def refine_while : Nat → splice_graph → outcome splice_graph
  | 0, _ => outcome.out_of_fuel
  | fuel + 1, gr =>
    match refine_for (internal_vertices gr) (gr, false) with
    | (gr1, b) => if b = false then outcome.done gr1 else refine_while fuel gr1

/-- The function `bundle::refine_splice_graph`, on the graph `gr` of the bundle; `fuel`
bounds the rounds of the `while` loop. -/
def refine_splice_graph (fuel : Nat) (gr : splice_graph) : outcome splice_graph :=
  refine_while fuel gr

/-! ### `hyper_set::add_node_list` -/

/-- The order `operator<` of `vector<int>`, the key order of the map `nodes`: the
lexicographic order. -/
def vec_lt : List Int → List Int → Bool
  | _, [] => false
  | [], _ :: _ => true
  | a :: u, b :: v => if a < b then true else if b < a then false else vec_lt u v

/-- Store `c` under the key `v` in the map `nodes` (`MVII`): the count is replaced when
the key is present, and the pair is inserted at its place in key order otherwise. -/
def mvii_put : List (List Int × Int) → List Int → Int → List (List Int × Int)
  | [], v, c => [(v, c)]
  | (k, c0) :: m, v, c =>
    if v = k then (k, c) :: m
    else if vec_lt v k = true then (v, c) :: (k, c0) :: m
    else (k, c0) :: mvii_put m v c

/-- The vector `v` of `add_node_list` after `sort(v.begin(), v.end())` and the loop
`v[i]++` on its `int` elements. -/
def sorted_plus_one (s : List Int) : List Int :=
  (s.insertionSort (fun a b => a ≤ b)).map (fun i => int32 (i + 1))

/-- The function `hyper_set::add_node_list(const vector<int> &s, int c)`; the statement
`nodes[v] += c` adds two `int`s. -/
def add_node_list (hs : hyper_set) (s : List Int) (c : Int) : hyper_set :=
  match map_find hs.nodes (sorted_plus_one s) with
  | none => { hs with nodes := mvii_put hs.nodes (sorted_plus_one s) c }
  | some c0 => { hs with nodes := mvii_put hs.nodes (sorted_plus_one s) (int32 (c0 + c)) }

/-! ### `hyper_set::update_index` -/

/-- The loop `for(int i = 0; i < v.size(); i++)` of `update_index` over the row `v`,
with `n` rounds left at index `i`: whether the row is pushed to `fb2`. The loop ends
at the first entry equal to `e` (`break`). -/
def update_index_scan (e : Int) (v : List Int) : Nat → Nat → Bool
  | 0, _ => false
  | n + 1, i =>
    if v[i]? ≠ some e then update_index_scan e v n (i + 1)
    else decide ((i = 0 ∨ v[i - 1]? = some (-1)) ∧ (i = v.length - 1 ∨ v[i + 1]? = some (-1)))

/-- The loop of `update_index` over the set `ss` stored under `e`, collecting `fb2`. -/
def update_index_rows (edges : List (List Int)) (e : Int) :
    List Nat → List Nat → Option (List Nat)
  | [], fb2 => some fb2
  | k :: ss, fb2 =>
    match edges[k]? with
    | none => none
    | some v =>
      if update_index_scan e v v.length 0 = true then update_index_rows edges e ss (fb2 ++ [k])
      else update_index_rows edges e ss fb2

/-- The loop of `update_index` over the entries of `e2s`, with the state `(e2s, fb1)`:
the entries already visited, with their sets rewritten, and the keys to erase. -/
def update_index_loop (edges : List (List Int)) :
    List (Int × List Nat) → List (Int × List Nat) × List Int →
    Option (List (Int × List Nat) × List Int)
  | [], st => some st
  | (e, ss) :: rest, (visited, fb1) =>
    match update_index_rows edges e ss [] with
    | none => none
    | some fb2 =>
      if (erase_all fb2 ss).length = 0 then
        update_index_loop edges rest (visited ++ [(e, erase_all fb2 ss)], fb1 ++ [e])
      else update_index_loop edges rest (visited ++ [(e, erase_all fb2 ss)], fb1)

/-- The function `hyper_set::update_index`. -/
def update_index (hs : hyper_set) : Option hyper_set :=
  match update_index_loop hs.edges hs.e2s ([], []) with
  | none => none
  | some (m, fb1) => some { hs with e2s := fb1.foldl (fun m e => map_erase m e) m }

/-! ### `hyper_set::left_dominate` and `hyper_set::right_dominate` -/

/-- The order `operator<` of `PI` (`pair<int, int>`). -/
def pi_lt (a b : Int × Int) : Bool :=
  decide (a.1 < b.1 ∨ (a.1 = b.1 ∧ a.2 < b.2))

/-- Insertion `x.insert(p)` into a `set<PI>`. -/
def pi_insert (p : Int × Int) : List (Int × Int) → List (Int × Int)
  | [] => [p]
  | q :: s =>
    if p = q then q :: s
    else if pi_lt p q = true then p :: q :: s
    else q :: pi_insert p s

/-- The loop `for(int i = 0; i < vv.size() - 1; i++)` of `left_dominate` over the row
`vv`, with `n` rounds left at index `i` and the state `(x1, x2)`. -/
def left_dominate_scan (e : Int) (vv : List Int) :
    Nat → Nat → List (Int × Int) × List (Int × Int) → List (Int × Int) × List (Int × Int)
  | 0, _, st => st
  | n + 1, i, (x1, x2) =>
    match vv[i]?, vv[i + 1]? with
    | some a, some b =>
      if a ≠ e then left_dominate_scan e vv n (i + 1) (x1, x2)
      else if b = -1 then left_dominate_scan e vv n (i + 1) (x1, x2)
      else if i = 0 ∨ vv[i - 1]? = some (-1) then
        match vv[i + 2]? with
        | some c => left_dominate_scan e vv n (i + 1) (pi_insert (b, c) x1, x2)
        | none => left_dominate_scan e vv n (i + 1) (pi_insert (b, -1) x1, x2)
      else
        match vv[i + 2]? with
        | some c =>
          left_dominate_scan e vv n (i + 1) (x1, pi_insert (b, c) (pi_insert (b, -1) x2))
        | none => left_dominate_scan e vv n (i + 1) (x1, pi_insert (b, -1) x2)
    | _, _ => left_dominate_scan e vv n (i + 1) (x1, x2)

/-- The loop of `left_dominate` over the rows listed under `e`. -/
def left_dominate_rows (edges : List (List Int)) (e : Int) :
    List Nat → List (Int × Int) × List (Int × Int) →
    Option (List (Int × Int) × List (Int × Int))
  | [], st => some st
  | k :: s, st =>
    match edges[k]? with
    | none => none
    | some vv =>
      if ¬ (1 ≤ vv.length) then none
      else left_dominate_rows edges e s (left_dominate_scan e vv (vv.length - 1) 0 st)

/-- The function `hyper_set::left_dominate`. -/
def left_dominate (hs : hyper_set) (e : Int) : Option Bool :=
  match map_find hs.e2s e with
  | none => some true
  | some s =>
    match left_dominate_rows hs.edges e s ([], []) with
    | none => none
    | some (x1, x2) => some (x1.all (fun p => decide (p ∈ x2)))

/-- The loop `for(int i = 1; i < vv.size(); i++)` of `right_dominate` over the row
`vv`, with `n` rounds left at index `i` and the state `(x1, x2)`. -/
def right_dominate_scan (e : Int) (vv : List Int) :
    Nat → Nat → List (Int × Int) × List (Int × Int) → List (Int × Int) × List (Int × Int)
  | 0, _, st => st
  | n + 1, i, (x1, x2) =>
    match vv[i]?, vv[i - 1]? with
    | some a, some b =>
      if a ≠ e then right_dominate_scan e vv n (i + 1) (x1, x2)
      else if b = -1 then right_dominate_scan e vv n (i + 1) (x1, x2)
      else if i = vv.length - 1 ∨ vv[i + 1]? = some (-1) then
        if 2 ≤ i then
          right_dominate_scan e vv n (i + 1) (pi_insert (b, (vv[i - 2]?).getD 0) x1, x2)
        else right_dominate_scan e vv n (i + 1) (pi_insert (b, -1) x1, x2)
      else
        if 2 ≤ i then
          right_dominate_scan e vv n (i + 1)
            (x1, pi_insert (b, (vv[i - 2]?).getD 0) (pi_insert (b, -1) x2))
        else right_dominate_scan e vv n (i + 1) (x1, pi_insert (b, -1) x2)
    | _, _ => right_dominate_scan e vv n (i + 1) (x1, x2)

/-- The loop of `right_dominate` over the rows listed under `e`. -/
def right_dominate_rows (edges : List (List Int)) (e : Int) :
    List Nat → List (Int × Int) × List (Int × Int) →
    Option (List (Int × Int) × List (Int × Int))
  | [], st => some st
  | k :: s, st =>
    match edges[k]? with
    | none => none
    | some vv =>
      if ¬ (1 ≤ vv.length) then none
      else right_dominate_rows edges e s (right_dominate_scan e vv (vv.length - 1) 1 st)

/-- The function `hyper_set::right_dominate`. -/
def right_dominate (hs : hyper_set) (e : Int) : Option Bool :=
  match map_find hs.e2s e with
  | none => some true
  | some s =>
    match right_dominate_rows hs.edges e s ([], []) with
    | none => none
    | some (x1, x2) => some (x1.all (fun p => decide (p ∈ x2)))

/-! ### `phaser::split_hs` and `hyper_set::add_edge_list` -/

/-- The conversion `int(x)` of a `double`: the fraction is cut off (rounding toward
zero). -/
def double_to_int (q : ℚ) : Int :=
  q.num.tdiv q.den

/-- The function `hyper_set::add_edge_list(const MVII& s)`, called on the cleared
hyper-set: the keys of `s` in key order become the rows waiting for `transform`, with
their counts. -/
def add_edge_list (s : List (List Int × Int)) : hyper_set :=
  { nodes := [], edges := [], ecnts := s.map Prod.snd, e2s := [],
    edges_to_transform := s.map Prod.fst }

/-- The loop `for(int edge_idx : edge_idx_list)` of `split_hs`, with the state
`bottleneck`. The weight map is read with `operator[]`, which does not throw, so that
`is_removed` stays false. -/
def split_hs_bottleneck (i2e : List Nat) (ewrt_cur : List ℚ) : List Int → ℚ → Option ℚ
  | [], bottleneck => some bottleneck
  | edge_idx :: rest, bottleneck =>
    if edge_idx < 0 then none
    else
      match i2e[edge_idx.toNat]? with
      | none => none
      | some e =>
        if ¬ (0 ≤ wt ewrt_cur e) then none
        else if wt ewrt_cur e < bottleneck then
          split_hs_bottleneck i2e ewrt_cur rest (wt ewrt_cur e)
        else split_hs_bottleneck i2e ewrt_cur rest bottleneck

/-- The loop `for (int j = 0; j < sc.hs.edges.size(); j++)` of `split_hs`, at row `j`,
with the state `edges_w_count`. -/
def split_hs_rows (i2e : List Nat) (ewrt_cur : List ℚ) (ecnts : List Int) :
    Nat → List (List Int) → List (List Int × Int) → Option (List (List Int × Int))
  | _, [], edges_w_count => some edges_w_count
  | j, edge_idx_list :: rows, edges_w_count =>
    match ecnts[j]? with
    | none => none
    | some c =>
      match split_hs_bottleneck i2e ewrt_cur edge_idx_list (c : ℚ) with
      | none => none
      | some bottleneck =>
        if 1 ≤ double_to_int bottleneck then
          if (map_find edges_w_count edge_idx_list).isSome then none
          else
            split_hs_rows i2e ewrt_cur ecnts (j + 1) rows
              (mvii_put edges_w_count edge_idx_list (double_to_int bottleneck))
        else split_hs_rows i2e ewrt_cur ecnts (j + 1) rows edges_w_count

/-- The body of the loop `for (int i = 0; i < 2; i++)` of `split_hs` for one allele:
`hs0` is the hyper-set `sc.hs`, `i2e` the vector `sc.i2e` and `ewrt_cur` the weight map
of the allele; the result is the hyper-set `*phs`. -/
def split_hs_allele (hs0 : hyper_set) (i2e : List Nat) (ewrt_cur : List ℚ) :
    Option hyper_set :=
  match split_hs_rows i2e ewrt_cur hs0.ecnts 0 hs0.edges [] with
  | none => none
  | some edges_w_count => some (add_edge_list edges_w_count)

/-- The function `phaser::split_hs`: the hyper-sets `*phs1` and `*phs2`. -/
def split_hs (hs0 : hyper_set) (i2e : List Nat) (ph : phaser) : Option (hyper_set × hyper_set) :=
  match split_hs_allele hs0 i2e ph.ewrt1 with
  | none => none
  | some hs1 =>
    match split_hs_allele hs0 i2e ph.ewrt2 with
    | none => none
    | some hs2 => some (hs1, hs2)

/-! ### `phaser::split_gr` and `phaser::refine_allelic_graphs` -/

/-- The function `phaser::split_gr`: the graphs `*pgr1` and `*pgr2`. Modelled from the
spec where it calls the graph library (`copy`): "Copy `gr` twice (vertices and edges,
preserving topology). Install `vwrt1,ewrt1` on the first copy and `vwrt2,ewrt2` on the
second"; an edge of a copy has the number of the edge it is a copy of. -/
def split_gr (gr : splice_graph) (ph : phaser) : splice_graph × splice_graph :=
  ({ gr with vwrt := ph.vwrt1, ewrt := ph.ewrt1 }, { gr with vwrt := ph.vwrt2, ewrt := ph.ewrt2 })

/-- The loop `for (edge_descriptor e: edges_1)` of `refine_allelic_graphs` over the
edges collected beforehand; `get_edge_weight(e)` is read as `ewrt[e]`. -/
def remove_light_edges (min_guaranteed_edge_weight : ℚ) :
    List Nat → splice_graph → splice_graph
  | [], pgr => pgr
  | e :: edges_1, pgr =>
    if wt pgr.ewrt e < min_guaranteed_edge_weight then
      remove_light_edges min_guaranteed_edge_weight edges_1 (pgr.remove_edge e)
    else remove_light_edges min_guaranteed_edge_weight edges_1 pgr

/-- The body of the loop `for (splice_graph* pgr: gr_pointers)` of
`refine_allelic_graphs`: the light edges are removed, then the loop `while(true)`, which
is that of `refine_splice_graph`, clears the vertices. -/
def refine_allelic_graph (fuel : Nat) (min_guaranteed_edge_weight : ℚ) (pgr : splice_graph) :
    outcome splice_graph :=
  refine_while fuel (remove_light_edges min_guaranteed_edge_weight pgr.edges pgr)

/-- The function `phaser::refine_allelic_graphs` on the two graphs of `split_gr`;
`min_guaranteed_edge_weight` is the configuration constant. -/
def refine_allelic_graphs (fuel : Nat) (min_guaranteed_edge_weight : ℚ)
    (grs : splice_graph × splice_graph) : outcome (splice_graph × splice_graph) :=
  match refine_allelic_graph fuel min_guaranteed_edge_weight grs.1 with
  | outcome.abort => outcome.abort
  | outcome.out_of_fuel => outcome.out_of_fuel
  | outcome.done gr1 =>
    match refine_allelic_graph fuel min_guaranteed_edge_weight grs.2 with
    | outcome.abort => outcome.abort
    | outcome.out_of_fuel => outcome.out_of_fuel
    | outcome.done gr2 => outcome.done (gr1, gr2)

/-! ## The regions of a bundle (`bundle_bridge.cc`) -/

/-- Store `v` under the key `k` in a `std::map` whose keys are ordered by `<`: the
value is replaced when the key is present, and the pair is inserted at its place in key
order otherwise. -/
def omap_put {κ β : Type} [LinearOrder κ] : List (κ × β) → κ → β → List (κ × β)
  | [], a, b => [(a, b)]
  | (k, v) :: m, a, b =>
    if a = k then (k, b) :: m
    else if a < k then (a, b) :: (k, v) :: m
    else (k, v) :: omap_put m a b

/-- Insertion `s.insert(i)` into a `std::set<int>` of boundary types. -/
def iset_insert (i : Int) : List Int → List Int
  | [] => [i]
  | j :: s =>
    if i = j then j :: s
    else if i < j then i :: j :: s
    else j :: iset_insert i s

/-- What `build_regions` reads of an entry `p` of `h.apos`: `high32(p)`, `low32(p)` and
the allele string `p.ale`. -/
structure as_pos where
  /-- The coordinate `high32(p)`, where the variant starts. -/
  high32 : Int
  /-- The coordinate `low32(p)`, where the variant ends. -/
  low32 : Int
  /-- The allele string `p.ale` that the hit shows there. -/
  ale : List Char
deriving DecidableEq, Repr

/-- Modelled from the spec: the class `region`, which is not among the sources
("left/right allelic positions, boundary types ..., genotype"). The coverage fields,
which `evaluate_rectangle` and `assign_as_cov` fill, are left out. -/
structure region where
  /-- The left position `lpos`. -/
  lpos : as_pos32
  /-- The right position `rpos`. -/
  rpos : as_pos32
  /-- The boundary type `ltype`. -/
  ltype : Int
  /-- The boundary type `rtype`. -/
  rtype : Int
  /-- The genotype `gt`. -/
  gt : genotype
deriving DecidableEq, Repr

/-- The constants of the boundary types, which are not among the sources. -/
structure boundary_types where
  /-- The constant `START_BOUNDARY`. -/
  START_BOUNDARY : Int
  /-- The constant `END_BOUNDARY`. -/
  END_BOUNDARY : Int
  /-- The constant `LEFT_SPLICE`. -/
  LEFT_SPLICE : Int
  /-- The constant `RIGHT_SPLICE`. -/
  RIGHT_SPLICE : Int
  /-- The constant `ALLELIC_LEFT_SPLICE`. -/
  ALLELIC_LEFT_SPLICE : Int
  /-- The constant `ALLELIC_RIGHT_SPLICE`. -/
  ALLELIC_RIGHT_SPLICE : Int

/-- The function `bundle_bridge::splicetype_set_to_int`. -/
def splicetype_set_to_int (s : List Int) : Int :=
  s.foldl (fun ss i => ss + i) 0

/-- The statement `pos_splicetypes.insert({k, {t}})`: nothing is stored when the key
is present. -/
def pos_insert (m : List (Int × List Int)) (k t : Int) : List (Int × List Int) :=
  match map_find m k with
  | none => omap_put m k [t]
  | some _ => m

/-- The statement `pos_splicetypes[k].insert(t)`. -/
def pos_add (m : List (Int × List Int)) (k t : Int) : List (Int × List Int) :=
  match map_find m k with
  | none => omap_put m k (iset_insert t [])
  | some s => omap_put m k (iset_insert t s)

/-- The loop of `build_regions` over `junctions`, each given by the coordinates of its
two ends. -/
def add_junctions (bt : boundary_types) :
    List (Int × Int) → List (Int × List Int) → List (Int × List Int)
  | [], m => m
  | jc :: junctions, m =>
    add_junctions bt junctions (pos_add (pos_add m jc.1 bt.LEFT_SPLICE) jc.2 bt.RIGHT_SPLICE)

/-- The statement `poses_seqs[p_int][p.ale] += 1`; the key `pair<int, int>` is ordered
lexicographically. -/
def poses_seqs_add (m : List ((Int ×ₗ Int) × List (List Char × Int))) (p : as_pos) :
    List ((Int ×ₗ Int) × List (List Char × Int)) :=
  match map_find m (toLex (p.high32, p.low32)) with
  | none => omap_put m (toLex (p.high32, p.low32)) [(p.ale, 1)]
  | some seqs =>
    match map_find seqs p.ale with
    | none => omap_put m (toLex (p.high32, p.low32)) (omap_put seqs p.ale 1)
    | some c => omap_put m (toLex (p.high32, p.low32)) (omap_put seqs p.ale (c + 1))

/-- The loop `for (const hit& h: bb.hits)` of `build_regions`, each hit given by its
list `apos`. -/
def build_poses_seqs (hits : List (List as_pos)) :
    List ((Int ×ₗ Int) × List (List Char × Int)) :=
  hits.foldl (fun m h => h.foldl poses_seqs_add m) []

/-- The loop `for (auto&& a: poses_seqs)` that adds the ends of the variant loci. -/
def add_loci (bt : boundary_types) :
    List ((Int ×ₗ Int) × List (List Char × Int)) → List (Int × List Int) →
    List (Int × List Int)
  | [], m => m
  | a :: poses_seqs, m =>
    add_loci bt poses_seqs
      (pos_add (pos_add m (ofLex a.1).1 bt.ALLELIC_LEFT_SPLICE) (ofLex a.1).2
        bt.ALLELIC_RIGHT_SPLICE)

/-- The map `pos_splicetypes` of `build_regions`. -/
def build_pos_splicetypes (bt : boundary_types) (lpos rpos : Int) (junctions : List (Int × Int))
    (hits : List (List as_pos)) : List (Int × List Int) :=
  add_loci bt (build_poses_seqs hits)
    (add_junctions bt junctions
      (pos_insert (pos_insert [] lpos bt.START_BOUNDARY) rpos bt.END_BOUNDARY))

/-- The region of an interval without a variant: `l = l1; r = r1;` give the positions
the tag `$`. -/
def unphased_region (p1 p2 : Int × List Int) : region :=
  { lpos := { p32 := p1.1, ale := ['$'] }, rpos := { p32 := p2.1, ale := ['$'] },
    ltype := splicetype_set_to_int p1.2, rtype := splicetype_set_to_int p2.2,
    gt := genotype.UNPHASED }

/-- The loop `for (auto&& aa: i2->second)` over the allele strings of a locus;
`get_genotype` is `asp.get_genotype(bb.chrm, ·, ·)`, of the variant file. -/
def allele_regions (get_genotype : Int → List Char → genotype) (p1 p2 : Int × List Int)
    (l2 r2 : Int) : List (List Char × Int) → List region
  | [] => []
  | aa :: seqs =>
    { lpos := { p32 := l2, ale := aa.1 }, rpos := { p32 := r2, ale := aa.1 },
      ltype := splicetype_set_to_int p1.2, rtype := splicetype_set_to_int p2.2,
      gt := get_genotype l2 aa.1 } :: allele_regions get_genotype p1 p2 l2 r2 seqs

/-- The first loop `while (i1 != pos_splicetypes.end() && i2 != poses_seqs.end())` of
`build_regions` and the assertion after it, on what is left of the two maps, with the
state `regions`; the result is `regions` and what is left of `pos_splicetypes`. -/
def regions_first_loop (get_genotype : Int → List Char → genotype) :
    List (Int × List Int) → List ((Int ×ₗ Int) × List (List Char × Int)) → List region →
    Option (List region × List (Int × List Int))
  | i1, [], regions => some (regions, i1)
  | [], _ :: _, _ => none
  | [_], _ :: _, _ => none
  | p1 :: p2 :: rest, a :: i2, regions =>
    if ¬ ((ofLex a.1).1 ≥ p1.1) then none
    else if (ofLex a.1).1 ≥ p2.1 then
      regions_first_loop get_genotype (p2 :: rest) (a :: i2) (regions ++ [unphased_region p1 p2])
    else if p1.1 ≠ (ofLex a.1).1 then none
    else if p2.1 ≠ (ofLex a.1).2 then none
    else
      regions_first_loop get_genotype (p2 :: rest) i2
        (regions ++ allele_regions get_genotype p1 p2 (ofLex a.1).1 (ofLex a.1).2 a.2)

/-- The second loop `while (i1 != prev(pos_splicetypes.end()))` of `build_regions`. -/
def regions_second_loop : List (Int × List Int) → List region → Option (List region)
  | [], _ => none
  | [_], regions => some regions
  | p1 :: p2 :: rest, regions =>
    regions_second_loop (p2 :: rest) (regions ++ [unphased_region p1 p2])

/-- Modelled from the spec: the order of regions that `sort` uses (`operator<` of
`region` is not among the sources): "primary by integer coordinate", here of the left
position. -/
def region_le (a b : region) : Prop :=
  a.lpos.p32 ≤ b.lpos.p32

instance region_le_decidable : DecidableRel region_le :=
  fun a b => inferInstanceAs (Decidable (a.lpos.p32 ≤ b.lpos.p32))

/-- The function `bundle_bridge::build_regions`: the vector `regions`. The bundle is
given by `bb.lpos`, `bb.rpos`, the ends of its junctions and the lists `apos` of its
hits; regions that `sort` finds equal keep their order. -/
def build_regions (bt : boundary_types) (get_genotype : Int → List Char → genotype)
    (lpos rpos : Int) (junctions : List (Int × Int)) (hits : List (List as_pos)) :
    Option (List region) :=
  match regions_first_loop get_genotype (build_pos_splicetypes bt lpos rpos junctions hits)
      (build_poses_seqs hits) [] with
  | none => none
  | some (regions, i1) =>
    match regions_second_loop i1 regions with
    | none => none
    | some regions => some (regions.insertionSort region_le)

/-! ## The revision of the splice graph (`bundle.cc`) -/

/-- The constant `EMPTY_VERTEX` (`partial_exon.h`: "-9: EMPTY_VERTEX"). -/
def EMPTY_VERTEX : Int := -9

/-- Modelled from the spec: `gr.edge(s, t)` of the graph library, the pair of an edge
from `s` to `t` and whether there is one; here the first such edge, if any. -/
def splice_graph.edge (gr : splice_graph) (s t : Nat) : Option Nat :=
  (gr.out_edges s).find? (fun d => decide ((gr.edge_ends.getD d (0, 0)).2 = t))

/-- Modelled from the spec: `set_vertex_info(i, vi)`. -/
def splice_graph.set_vertex_info (gr : splice_graph) (i : Nat) (vi : vertex_info) :
    splice_graph :=
  { gr with vinf := gr.vinf.set i vi }

/-- The write `m[d] = w` into a weight map: the keys below `d` that the list does not
hold yet read as `0` before and after. -/
def put_wt (m : List ℚ) (d : Nat) (w : ℚ) : List ℚ :=
  (m ++ List.replicate (d + 1 - m.length) 0).set d w

/-- Modelled from the spec: `add_edge(s, t)` adds an edge from `s` to `t` and returns
its descriptor, the next number not yet used. -/
def splice_graph.add_edge (gr : splice_graph) (s t : Nat) : splice_graph × Nat :=
  ({ gr with edge_ends := gr.edge_ends ++ [(s, t)] }, gr.edge_ends.length)

/-- Modelled from the spec: `set_edge_weight(e, w)`. -/
def splice_graph.set_edge_weight (gr : splice_graph) (e : Nat) (w : ℚ) : splice_graph :=
  { gr with ewrt := put_wt gr.ewrt e w }

/-- The test `gr.get_vertex_info(s).rpos == p` against a coordinate `p` (an `int32_t`):
the coordinates are compared. -/
def splice_graph.rpos_is (gr : splice_graph) (s : Nat) (p : Int) : Bool :=
  match gr.vinf[s]? with
  | some v => decide (v.rpos.p32 = p)
  | none => false

/-- The test `gr.get_vertex_info(t).lpos == p` against a coordinate `p`. -/
def splice_graph.lpos_is (gr : splice_graph) (t : Nat) (p : Int) : Bool :=
  match gr.vinf[t]? with
  | some v => decide (v.lpos.p32 = p)
  | none => false

/-- The two loops of `remove_small_exons` that compute `b` for the vertex `i` with the
coordinates `p1`, `p2`: `b` stays true when no edge into `i` comes from an inner vertex
that ends at `p1` and no edge out of `i` goes to an inner vertex that begins at `p2`. -/
def small_exon_b (gr : splice_graph) (i : Nat) (p1 p2 : Int) : Bool :=
  (gr.in_edges i).all (fun e =>
    !(decide ((gr.edge_ends.getD e (0, 0)).1 ≠ 0) &&
      gr.rpos_is (gr.edge_ends.getD e (0, 0)).1 p1)) &&
  (gr.out_edges i).all (fun e =>
    !(decide ((gr.edge_ends.getD e (0, 0)).2 ≠ gr.num_vertices - 1) &&
      gr.lpos_is (gr.edge_ends.getD e (0, 0)).2 p2))

/-- The body of the loop `for(int i = 1; i < gr.num_vertices() - 1; i++)` of
`remove_small_exons` at the vertex `i`, on the state `(gr, flag)`; a `continue` leaves
the state as it is. -/
def remove_small_exons_body (min_exon_length : Int) (i : Nat) :
    splice_graph × Bool → splice_graph × Bool
  | (gr, flag) =>
    match gr.vinf[i]? with
    | none => (gr, flag)
    | some vi =>
      if vi.type = EMPTY_VERTEX then (gr, flag)
      else if vi.rpos.p32 - vi.lpos.p32 ≥ min_exon_length then (gr, flag)
      else if gr.degree i ≤ 0 then (gr, flag)
      else if small_exon_b gr i vi.lpos.p32 vi.rpos.p32 = false then (gr, flag)
      else if gr.edge 0 i = none ∧ gr.edge i (gr.num_vertices - 1) = none then (gr, flag)
      else (gr.set_vertex_info i { vi with type := EMPTY_VERTEX }, true)

/-- The function `bundle::remove_small_exons`: the graph after it and the value it
returns. The loop visits the vertices `1 .. num_vertices() - 2`, and its body does not
change the number of vertices. -/
def remove_small_exons (min_exon_length : Int) (gr : splice_graph) : splice_graph × Bool :=
  (internal_vertices gr).foldl (fun st i => remove_small_exons_body min_exon_length i st)
    (gr, false)

/-- The body of the loop of `remove_inner_boundaries` at the vertex `i`; `e1` and `e2`
are the only edge into `i` and the only edge out of it. -/
def remove_inner_boundaries_body (i : Nat) : splice_graph × Bool → splice_graph × Bool
  | (gr, flag) =>
    match gr.vinf[i]? with
    | none => (gr, flag)
    | some vi =>
      if vi.type = EMPTY_VERTEX then (gr, flag)
      else
        match gr.in_edges i, gr.out_edges i with
        | [e1], [e2] =>
          if (gr.edge_ends.getD e1 (0, 0)).1 ≠ 0 ∧
              (gr.edge_ends.getD e2 (0, 0)).2 ≠ gr.num_vertices - 1 then (gr, flag)
          else if (gr.edge_ends.getD e1 (0, 0)).1 ≠ 0 ∧
              gr.out_degree (gr.edge_ends.getD e1 (0, 0)).1 = 1 then (gr, flag)
          else if (gr.edge_ends.getD e2 (0, 0)).2 ≠ gr.num_vertices - 1 ∧
              gr.in_degree (gr.edge_ends.getD e2 (0, 0)).2 = 1 then (gr, flag)
          else if vi.stddev ≥ 1 / 100 then (gr, flag)
          else (gr.set_vertex_info i { vi with type := EMPTY_VERTEX }, true)
        | _, _ => (gr, flag)

/-- The function `bundle::remove_inner_boundaries`. -/
def remove_inner_boundaries (gr : splice_graph) : splice_graph × Bool :=
  (internal_vertices gr).foldl (fun st i => remove_inner_boundaries_body i st) (gr, false)

/-- The body of the loop of `remove_intron_contamination` at the vertex `i`; `!=` of
two allelic positions compares coordinate and allele tag. -/
def remove_intron_contamination_body (max_intron_contamination_coverage : ℚ) (i : Nat) :
    splice_graph × Bool → splice_graph × Bool
  | (gr, flag) =>
    match gr.vinf[i]? with
    | none => (gr, flag)
    | some vi =>
      if vi.type = EMPTY_VERTEX then (gr, flag)
      else
        match gr.in_edges i, gr.out_edges i with
        | [e1], [e2] =>
          if (gr.edge_ends.getD e1 (0, 0)).1 = 0 then (gr, flag)
          else if (gr.edge_ends.getD e2 (0, 0)).2 = gr.num_vertices - 1 then (gr, flag)
          else if (gr.vinf[(gr.edge_ends.getD e1 (0, 0)).1]?).map (fun v => v.rpos) ≠
              some vi.lpos then (gr, flag)
          else if (gr.vinf[(gr.edge_ends.getD e2 (0, 0)).2]?).map (fun v => v.lpos) ≠
              some vi.rpos then (gr, flag)
          else
            match gr.edge (gr.edge_ends.getD e1 (0, 0)).1 (gr.edge_ends.getD e2 (0, 0)).2 with
            | none => (gr, flag)
            | some ee =>
              if wt gr.vwrt i > wt gr.ewrt ee then (gr, flag)
              else if wt gr.vwrt i > max_intron_contamination_coverage then (gr, flag)
              else (gr.set_vertex_info i { vi with type := EMPTY_VERTEX }, true)
        | _, _ => (gr, flag)

/-- The function `bundle::remove_intron_contamination`; its loop
`for(int i = 1; i < gr.num_vertices(); i++)` visits the sink too. -/
def remove_intron_contamination (max_intron_contamination_coverage : ℚ) (gr : splice_graph) :
    splice_graph × Bool :=
  (List.range' 1 (gr.num_vertices - 1)).foldl
    (fun st i => remove_intron_contamination_body max_intron_contamination_coverage i st)
    (gr, false)

/-- The loop `we += gr.get_edge_weight(*it)` over a range of edges. -/
def sum_edge_weights (gr : splice_graph) (es : List Nat) : ℚ :=
  es.foldl (fun we e => we + wt gr.ewrt e) 0

/-- The body of the loop of `extend_start_boundaries` at the vertex `i`, on the state
`(gr, flag)`. -/
def extend_start_boundaries_body (i : Nat) : splice_graph × Bool → splice_graph × Bool
  | (gr, flag) =>
    match gr.edge 0 i with
    | some _ => (gr, flag)
    | none =>
      if wt gr.vwrt i < sum_edge_weights gr (gr.in_edges i) ∨
          wt gr.vwrt i <
            10 * sum_edge_weights gr (gr.in_edges i) * sum_edge_weights gr (gr.in_edges i) + 10
      then (gr, flag)
      else
        ((gr.add_edge 0 i).1.set_edge_weight (gr.add_edge 0 i).2
          (wt gr.vwrt i - sum_edge_weights gr (gr.in_edges i)), true)

/-- The function `bundle::extend_start_boundaries`: the graph after it and the value it
returns. -/
def extend_start_boundaries (gr : splice_graph) : splice_graph × Bool :=
  (internal_vertices gr).foldl (fun st i => extend_start_boundaries_body i st) (gr, false)

/-- The body of the loop of `extend_end_boundaries` at the vertex `i`. -/
def extend_end_boundaries_body (i : Nat) : splice_graph × Bool → splice_graph × Bool
  | (gr, flag) =>
    match gr.edge i (gr.num_vertices - 1) with
    | some _ => (gr, flag)
    | none =>
      if wt gr.vwrt i < sum_edge_weights gr (gr.out_edges i) ∨
          wt gr.vwrt i <
            10 * sum_edge_weights gr (gr.out_edges i) * sum_edge_weights gr (gr.out_edges i) +
              10
      then (gr, flag)
      else
        ((gr.add_edge i (gr.num_vertices - 1)).1.set_edge_weight
          (gr.add_edge i (gr.num_vertices - 1)).2
          (wt gr.vwrt i - sum_edge_weights gr (gr.out_edges i)), true)

/-- The function `bundle::extend_end_boundaries`. -/
def extend_end_boundaries (gr : splice_graph) : splice_graph × Bool :=
  (internal_vertices gr).foldl (fun st i => extend_end_boundaries_body i st) (gr, false)

/-- The loop of `remove_small_junctions` that computes `ws` for the vertex `i` with the
left coordinate `p1`: the largest weight of a vertex other than the source from which an
edge comes in and which ends at `p1`, and `0` when there is none. -/
def max_in_adjacent (gr : splice_graph) (p1 : Int) (es : List Nat) : ℚ :=
  es.foldl (fun ws e =>
    if (gr.edge_ends.getD e (0, 0)).1 = 0 then ws
    else if gr.rpos_is (gr.edge_ends.getD e (0, 0)).1 p1 = false then ws
    else if wt gr.vwrt (gr.edge_ends.getD e (0, 0)).1 < ws then ws
    else wt gr.vwrt (gr.edge_ends.getD e (0, 0)).1) 0

/-- The loop of `remove_small_junctions` that computes `wt` for the vertex `i` with the
right coordinate `p2`. -/
def max_out_adjacent (gr : splice_graph) (p2 : Int) (es : List Nat) : ℚ :=
  es.foldl (fun w0 e =>
    if (gr.edge_ends.getD e (0, 0)).2 = gr.num_vertices - 1 then w0
    else if gr.lpos_is (gr.edge_ends.getD e (0, 0)).2 p2 = false then w0
    else if wt gr.vwrt (gr.edge_ends.getD e (0, 0)).2 < w0 then w0
    else wt gr.vwrt (gr.edge_ends.getD e (0, 0)).2) 0

/-- The first loop "remove small in-junction" of `remove_small_junctions`, over the
edges into `i`, with the set `se`. -/
def small_in_junctions (gr : splice_graph) (p1 : Int) (ws wi : ℚ) (es : List Nat)
    (se : List Nat) : List Nat :=
  es.foldl (fun se e =>
    if (gr.edge_ends.getD e (0, 0)).1 = 0 then se
    else if gr.rpos_is (gr.edge_ends.getD e (0, 0)).1 p1 = true then se
    else if ws < 2 * wt gr.ewrt e * wt gr.ewrt e + 18 then se
    else if wi < 2 * wt gr.ewrt e * wt gr.ewrt e + 18 then se
    else set_insert e se) se

/-- The second loop "remove small in-junction" of `remove_small_junctions`, over the
edges out of `i`; the source tests `ws` here too, and `wt` is computed and not read. -/
def small_out_junctions (gr : splice_graph) (p2 : Int) (ws wi : ℚ) (es : List Nat)
    (se : List Nat) : List Nat :=
  es.foldl (fun se e =>
    if (gr.edge_ends.getD e (0, 0)).2 = gr.num_vertices - 1 then se
    else if gr.lpos_is (gr.edge_ends.getD e (0, 0)).2 p2 = true then se
    else if ws < 2 * wt gr.ewrt e * wt gr.ewrt e + 18 then se
    else if wi < 2 * wt gr.ewrt e * wt gr.ewrt e + 18 then se
    else set_insert e se) se

/-- The body of the first loop of `remove_small_junctions` at the vertex `i`, on the set
`se` of the edges to remove. -/
def remove_small_junctions_body (gr : splice_graph) (i : Nat) (se : List Nat) : List Nat :=
  if gr.degree i ≤ 0 then se
  else
    match gr.vinf[i]? with
    | none => se
    | some vi =>
      small_out_junctions gr vi.rpos.p32
        (max_in_adjacent gr vi.lpos.p32 (gr.in_edges i)) (wt gr.vwrt i) (gr.out_edges i)
        (small_in_junctions gr vi.lpos.p32
          (max_in_adjacent gr vi.lpos.p32 (gr.in_edges i)) (wt gr.vwrt i) (gr.in_edges i) se)

/-- The set `se` that the first loop of `remove_small_junctions` collects. -/
def small_junctions (gr : splice_graph) : List Nat :=
  (internal_vertices gr).foldl (fun se i => remove_small_junctions_body gr i se) []

/-- The function `bundle::remove_small_junctions`: the graph after it and the value it
returns. -/
def remove_small_junctions (gr : splice_graph) : splice_graph × Bool :=
  match small_junctions gr with
  | [] => (gr, false)
  | e :: se => ((e :: se).foldl (fun g d => g.remove_edge d) gr, true)

/-! ## The splice graph of a bundle (`bundle.cc`) -/

/-- The class `partial_exon` (`partial_exon.h`): the positions, the boundary types, the
genotype, the label `type`, the abundances, and the value of `is_allelic()`, which is
not among the sources. -/
structure partial_exon where
  /-- The field `lpos`. -/
  lpos : as_pos32
  /-- The field `rpos`. -/
  rpos : as_pos32
  /-- The field `ltype`. -/
  ltype : Int
  /-- The field `rtype`. -/
  rtype : Int
  /-- The field `gt`. -/
  gt : genotype
  /-- The field `type`. -/
  type : Int
  /-- The field `ave`. -/
  ave : ℚ
  /-- The field `max`. -/
  max : ℚ
  /-- The field `dev`. -/
  dev : ℚ
  /-- The value of `is_allelic()`. -/
  allelic : Bool
deriving DecidableEq

/-- Modelled from the spec: `gt_as`, which is not among the sources; the genotype is one
of the two alleles. -/
def gt_as (g : genotype) : Bool :=
  decide (g = genotype.ALLELE1 ∨ g = genotype.ALLELE2)

/-- The vertex weight that `build_splice_graph` sets for a partial exon: in mode 1 the
maximum and in mode 2 the average abundance, raised to `min_guaranteed_edge_weight`;
in another mode no weight is set. -/
def pexon_vertex_weight (mode : Int) (min_guaranteed_edge_weight : ℚ) (r : partial_exon) : ℚ :=
  if mode = 2 then
    (if r.ave < min_guaranteed_edge_weight then min_guaranteed_edge_weight else r.ave)
  else if mode = 1 then
    (if r.max < min_guaranteed_edge_weight then min_guaranteed_edge_weight else r.max)
  else 0

/-- The `vertex_info` that `build_splice_graph` sets for a partial exon; `as_type` is
`AS_DIPLOIDVAR`, for which `is_as_vertex()` holds, or `NS_NONVAR`. -/
def pexon_vertex_info (r : partial_exon) (regional : Bool) : vertex_info :=
  { gt := r.gt,
    as_vertex := gt_as r.gt || (r.allelic && decide (r.gt = genotype.UNPHASED)),
    lpos := r.lpos, rpos := r.rpos, length := r.rpos.p32 - r.lpos.p32,
    stddev := r.dev, regional := regional, type := r.type }

/-- The loop of `build_splice_graph` that adds a vertex for each partial exon, at the
exon `i`, with the state `gr`. -/
def add_pexon_vertices (mode : Int) (min_guaranteed_edge_weight : ℚ) (regional : List Bool) :
    Nat → List partial_exon → splice_graph → Option splice_graph
  | _, [], gr => some gr
  | i, r :: rest, gr =>
    if ¬ (r.rpos.p32 - r.lpos.p32 ≥ 1) then none
    else
      match regional[i]? with
      | none => none
      | some b =>
        add_pexon_vertices mode min_guaranteed_edge_weight regional (i + 1) rest
          { gr with vinf := gr.vinf ++ [pexon_vertex_info r b],
                    vwrt := gr.vwrt ++ [pexon_vertex_weight mode min_guaranteed_edge_weight r] }

/-- The loop `for(const auto& jset_item: jset)` of `build_splice_graph`: an edge of
weight `c` for each junction between two partial exons. The change of `as_type` from
`NS_NONVAR` to `AJ_NONVAR` that the loop makes leaves `is_as_vertex()` as it is. -/
def add_junction_edges (num_pexons : Nat) :
    List ((Int × Int) × (Int × Char)) → splice_graph → Option splice_graph
  | [], gr => some gr
  | ((lpid, rpid), (c, _)) :: jset, gr =>
    if lpid < 0 ∨ rpid < 0 then add_junction_edges num_pexons jset gr
    else if ¬ (lpid.toNat < num_pexons ∧ rpid.toNat < num_pexons) then none
    else if ¬ (c ≥ 1) then none
    else
      add_junction_edges num_pexons jset
        ((gr.add_edge (lpid.toNat + 1) (rpid.toNat + 1)).1.set_edge_weight
          (gr.add_edge (lpid.toNat + 1) (rpid.toNat + 1)).2 c)

/-- The weight `w` of the edge from the source to the partial exon `r`, which follows
the partial exon `prev` when there is one. -/
def start_edge_weight (mode : Int) (min_guaranteed_edge_weight : ℚ) (prev : Option partial_exon)
    (r : partial_exon) : ℚ :=
  let w0 := if mode = 2 then r.ave else if mode = 1 then r.max else min_guaranteed_edge_weight
  let w1 :=
    match prev with
    | some p =>
      if mode = 1 ∧ p.rpos.p32 = r.lpos.p32 then w0 - p.max
      else if mode = 2 ∧ p.rpos.p32 = r.lpos.p32 then w0 - p.ave
      else w0
    | none => w0
  if w1 < min_guaranteed_edge_weight then min_guaranteed_edge_weight else w1

/-- The weight `w` of the edge from the partial exon `r` to the sink; `next` is the
partial exon after `r` when there is one. -/
def end_edge_weight (mode : Int) (min_guaranteed_edge_weight : ℚ) (next : Option partial_exon)
    (r : partial_exon) : ℚ :=
  let w0 := if mode = 2 then r.ave else if mode = 1 then r.max else min_guaranteed_edge_weight
  let w1 :=
    match next with
    | some p =>
      if mode = 1 ∧ p.lpos.p32 = r.rpos.p32 then w0 - p.max
      else if mode = 2 ∧ p.lpos.p32 = r.rpos.p32 then w0 - p.ave
      else w0
    | none => w0
  if w1 < min_guaranteed_edge_weight then min_guaranteed_edge_weight else w1

/-- The body of the loop "edges: connecting start/end and pexons" of
`build_splice_graph` for the partial exon `i`. -/
def add_boundary_edges_body (bt : boundary_types) (mode : Int)
    (min_guaranteed_edge_weight : ℚ) (pexons : List partial_exon) (gr : splice_graph)
    (i : Nat) : splice_graph :=
  match pexons[i]? with
  | none => gr
  | some r =>
    let gr1 :=
      if r.ltype = bt.START_BOUNDARY then
        (gr.add_edge 0 (i + 1)).1.set_edge_weight (gr.add_edge 0 (i + 1)).2
          (start_edge_weight mode min_guaranteed_edge_weight
            (if 1 ≤ i then pexons[i - 1]? else none) r)
      else gr
    if r.rtype = bt.END_BOUNDARY then
      (gr1.add_edge (i + 1) (pexons.length + 1)).1.set_edge_weight
        (gr1.add_edge (i + 1) (pexons.length + 1)).2
        (end_edge_weight mode min_guaranteed_edge_weight pexons[i + 1]? r)
    else gr1

/-- The function `bundle::build_splice_graph`: the graph `gr` it builds from the ends
`lpos` and `rpos` of the bundle, the partial exons, the vector `regional` and the map
`jset`; the strand and the `edge_info` of the edges are left out. -/
def build_splice_graph (bt : boundary_types) (mode : Int) (min_guaranteed_edge_weight : ℚ)
    (lpos rpos : Int) (pexons : List partial_exon) (regional : List Bool)
    (jset : List ((Int × Int) × (Int × Char))) : Option splice_graph :=
  match add_pexon_vertices mode min_guaranteed_edge_weight regional 0 pexons
      { vinf := [{ gt := genotype.UNPHASED, as_vertex := false,
                   lpos := { p32 := lpos, ale := ['$'] },
                   rpos := { p32 := lpos, ale := ['$'] } }],
        vwrt := [0], edge_ends := [], ewrt := [] } with
  | none => none
  | some gr1 =>
    match add_junction_edges pexons.length jset
        { gr1 with vinf := gr1.vinf ++ [{ gt := genotype.UNPHASED, as_vertex := false,
                                          lpos := { p32 := rpos, ale := ['$'] },
                                          rpos := { p32 := rpos, ale := ['$'] } }],
                   vwrt := gr1.vwrt ++ [0] } with
    | none => none
    | some gr2 =>
      some ((List.range pexons.length).foldl
        (add_boundary_edges_body bt mode min_guaranteed_edge_weight pexons) gr2)

/-! ## The junctions of a bundle (`bundle_bridge.cc`) and the hits of the assembler -/

/-- Modelled from the spec: what the functions below read of a `hit` (`hit.h` is not
among the sources). A packed splice position of `spos` is given by its two halves
`(high32, low32)`; the order of the packed integers is the order of such pairs by the
first half and then by the second. -/
structure hit where
  /-- The field `tid`. -/
  tid : Int := 0
  /-- The field `pos`. -/
  pos : Int := 0
  /-- The field `rpos`. -/
  rpos : Int := 0
  /-- The field `strand`. -/
  strand : Char := '.'
  /-- The field `xs`. -/
  xs : Char := '.'
  /-- The field `nh`. -/
  nh : Int := 1
  /-- The field `nm`. -/
  nm : Int := 0
  /-- The vector `spos` of the splice positions. -/
  spos : List (Int ×ₗ Int) := []
  /-- The vector `apos` of the variants. -/
  apos : List as_pos := []
deriving DecidableEq

/-- Modelled from the spec: a `junction`, built by `junction jc(position, count)` and
given its `strand`. -/
structure junction where
  /-- The packed position, the left and the right end of the junction. -/
  pos : Int ×ₗ Int
  /-- The field `count`. -/
  count : Nat
  /-- The field `strand`. -/
  strand : Char
deriving DecidableEq

/-- The body of the inner loop of `build_junctions`: the hit index `i` is put at the
end of the vector of the position `p`, which is created when the map does not have it. -/
def junction_map_add (m : List ((Int ×ₗ Int) × List Nat)) (i : Nat) (p : Int ×ₗ Int) :
    List ((Int ×ₗ Int) × List Nat) :=
  match map_find m p with
  | none => omap_put m p [i]
  | some hv => omap_put m p (hv ++ [i])

/-- The first loop of `build_junctions`, over the hits with their indices: the map `m`
from each splice position to the hits that show it. -/
def build_junction_map (hits : List hit) : List ((Int ×ₗ Int) × List Nat) :=
  hits.enum.foldl (fun m ih => ih.2.spos.foldl (fun m p => junction_map_add m ih.1 p) m) []

/-- The strand that `build_junctions` gives a junction whose supporting hits are `v`:
`s1` and `s2` count the hits with `xs` equal to `+` and to `-`. -/
def junction_strand (hits : List hit) (v : List Nat) : Char :=
  if v.countP (fun k => decide ((hits[k]?).map (fun h => h.xs) = some '+')) = 0 ∧
      v.countP (fun k => decide ((hits[k]?).map (fun h => h.xs) = some '-')) = 0 then '.'
  else if v.countP (fun k => decide ((hits[k]?).map (fun h => h.xs) = some '+')) ≥ 1 ∧
      v.countP (fun k => decide ((hits[k]?).map (fun h => h.xs) = some '-')) ≥ 1 then '.'
  else if v.countP (fun k => decide ((hits[k]?).map (fun h => h.xs) = some '+')) >
      v.countP (fun k => decide ((hits[k]?).map (fun h => h.xs) = some '-')) then '+'
  else '-'

/-- The second loop of `build_junctions`, over the entries of the map in the order of
their keys. -/
def emit_junctions (min_splice_boundary_hits : Nat) (hits : List hit) :
    List ((Int ×ₗ Int) × List Nat) → List junction
  | [] => []
  | (p, v) :: m =>
    if v.length < min_splice_boundary_hits then
      emit_junctions min_splice_boundary_hits hits m
    else
      { pos := p, count := v.length, strand := junction_strand hits v } ::
        emit_junctions min_splice_boundary_hits hits m

/-- Modelled from the spec: the order `operator<` of junctions that `sort` uses, which
is not among the sources: the order of their positions. -/
def junction_le (a b : junction) : Prop :=
  a.pos ≤ b.pos

instance junction_le_decidable : DecidableRel junction_le :=
  fun a b => inferInstanceAs (Decidable (a.pos ≤ b.pos))

/-- The function `bundle_bridge::build_junctions`: the vector `junctions`, from the
hits of the bundle. -/
def build_junctions (min_splice_boundary_hits : Nat) (hits : List hit) : List junction :=
  (emit_junctions min_splice_boundary_hits hits (build_junction_map hits)).insertionSort
    junction_le

/-- Modelled from the spec: the data members of `bundle_base` that `add_hit` writes
(`bundle_base.h` is not among the sources), with the values that the constructor gives
them; the interval maps `mmap`, `imap` and `nammap` are left out. -/
structure bundle_base where
  /-- The field `tid`. -/
  tid : Int := -1
  /-- The field `lpos`. -/
  lpos : Int := 2 ^ 30
  /-- The field `rpos`. -/
  rpos : Int := 0
  /-- The field `strand`. -/
  strand : Char := '.'
  /-- The vector `hits`. -/
  hits : List hit := []
  /-- The field `is_allelic`. -/
  is_allelic : Bool := false
deriving DecidableEq

/-- The function `bundle_base::add_hit`, up to the interval maps: the hit is stored, the
boundaries, `tid`, `strand` and `is_allelic` are set, and the two assertions on `tid`
and `strand` are checked. -/
def bundle_base.add_hit (bb : bundle_base) (ht : hit) : Option bundle_base :=
  if ¬ ((if bb.tid = -1 then ht.tid else bb.tid) = ht.tid) then none
  else if ¬ ((if bb.hits.length + 1 ≤ 1 then ht.strand else bb.strand) = ht.strand) then none
  else
    some { tid := if bb.tid = -1 then ht.tid else bb.tid,
           lpos := if ht.pos < bb.lpos then ht.pos else bb.lpos,
           rpos := if ht.rpos > bb.rpos then ht.rpos else bb.rpos,
           strand := if bb.hits.length + 1 ≤ 1 then ht.strand else bb.strand,
           hits := bb.hits ++ [ht],
           is_allelic := if ht.apos.length ≠ 0 then true else bb.is_allelic }

/-- A statement `if(c) bb.add_hit(ht);`. -/
def add_hit_if (c : Bool) (bb : bundle_base) (ht : hit) : Option bundle_base :=
  if c = true then bb.add_hit ht else some bb

/-- The statements "add hit" of the loop of `assembler::assemble` (`assembler.cc`, lines
96 to 105) for the hit `ht`, on the bundles `bb1` and `bb2`; a `continue` leaves both as
they are. `UNSTRANDED` is the constant of that name. -/
def assemble_add_hit (library_type UNSTRANDED : Int) (uniquely_mapped_only : Bool) (ht : hit)
    (bb1 bb2 : bundle_base) : Option (bundle_base × bundle_base) :=
  if uniquely_mapped_only = true ∧ ht.nh ≠ 1 then some (bb1, bb2)
  else if library_type ≠ UNSTRANDED ∧ ht.strand = '+' ∧ ht.xs = '-' then some (bb1, bb2)
  else if library_type ≠ UNSTRANDED ∧ ht.strand = '-' ∧ ht.xs = '+' then some (bb1, bb2)
  else
    let ht1 : hit :=
      if library_type ≠ UNSTRANDED ∧ ht.strand = '.' ∧ ht.xs ≠ '.' then
        { ht with strand := ht.xs }
      else ht
    (add_hit_if (decide (library_type ≠ UNSTRANDED ∧ ht1.strand = '+')) bb1 ht1).bind
      fun a1 =>
    (add_hit_if (decide (library_type ≠ UNSTRANDED ∧ ht1.strand = '-')) bb2 ht1).bind
      fun a2 =>
    (add_hit_if (decide (library_type = UNSTRANDED ∧ ht1.xs = '.')) a1 ht1).bind fun b1 =>
    (add_hit_if (decide (library_type = UNSTRANDED ∧ ht1.xs = '.')) a2 ht1).bind fun b2 =>
    (add_hit_if (decide (library_type = UNSTRANDED ∧ ht1.xs = '+')) b1 ht1).bind fun c1 =>
    (add_hit_if (decide (library_type = UNSTRANDED ∧ ht1.xs = '-')) b2 ht1).bind fun c2 =>
    some (c1, c2)

/-! ## The genotype of a fragment (`bundle_bridge.cc`) -/

/-- The set `vv` of `build_fragments`: the region indices of both mates. -/
def fragment_region_set (v1 v2 : List Nat) : List Nat :=
  (v1 ++ v2).foldl (fun vv x => set_insert x vv) []

/-- The genotypes `regions[_v].gt` of the regions of `vv`. -/
def region_gts (regions : List region) : List Nat → Option (List genotype)
  | [] => some []
  | v :: vv =>
    match regions[v]?, region_gts regions vv with
    | some r, some gts => some (r.gt :: gts)
    | _, _ => none

/-- The statements of `build_fragments` that choose `fr.gt` from the counts
`mm[ALLELE1]` and `mm[ALLELE2]`: the `int` sum `mm[ALLELE2] + mm[ALLELE1]` is
converted to `double` and multiplied by the `double` `major_gt_threshold`, and each count
is compared with the rounded product. -/
def fragment_gt_of (a1 a2 : Nat) (major_gt_threshold : double) : genotype :=
  if a1 = 0 ∧ a2 = 0 then genotype.UNPHASED
  else if (a1 : ℚ) > (double.mul_int ((a2 : Int) + (a1 : Int)) major_gt_threshold).val then
    genotype.ALLELE1
  else if (a2 : ℚ) > (double.mul_int ((a2 : Int) + (a1 : Int)) major_gt_threshold).val then
    genotype.ALLELE2
  else genotype.UNPHASED

/-- The part "assign GT for fragments" of `bundle_bridge::build_fragments`: the genotype
of a fragment whose mates span the regions `v1` and `v2`. -/
def fragment_gt (regions : List region) (v1 v2 : List Nat) (major_gt_threshold : double) :
    Option genotype :=
  match region_gts regions (fragment_region_set v1 v2) with
  | none => none
  | some gts =>
    some (fragment_gt_of (gts.count genotype.ALLELE1) (gts.count genotype.ALLELE2)
      major_gt_threshold)

/-! ## The transcripts of a gene (`lib/gtf/gene.cc`) -/

/-- Modelled from the spec: what `gene` reads of a `transcript` (`transcript.h` is not
among the sources), its `transcript_id`, and its `coverage` to stand for the rest of
its data. -/
structure transcript where
  /-- The field `transcript_id`. -/
  transcript_id : List Char
  /-- The field `coverage`. -/
  coverage : ℚ := 0
deriving DecidableEq

/-- The class `gene` (`gene.h`): the vector `transcripts` and the map `t2i`. -/
structure gene where
  /-- The vector `transcripts`. -/
  transcripts : List transcript := []
  /-- The map `t2i`, from a transcript id to an index. -/
  t2i : List (List Char × Int) := []
deriving DecidableEq

/-- The function `gene::add_transcript(const transcript &t)`. -/
def gene.add_transcript (g : gene) (t : transcript) : Option gene :=
  if ¬ (map_find g.t2i t.transcript_id = none) then none
  else
    some { transcripts := g.transcripts ++ [t],
           t2i := omap_put g.t2i t.transcript_id (g.t2i.length : Int) }

/-- The loop of `gene::assign` over the transcripts still to add. -/
def add_transcripts : List transcript → gene → Option gene
  | [], g => some g
  | t :: v, g =>
    match g.add_transcript t with
    | none => none
    | some g1 => add_transcripts v g1

/-- The function `gene::assign`: `clear()` and then `add_transcript` for each element
of `v`. -/
def gene.assign (_ : gene) (v : List transcript) : Option gene :=
  add_transcripts v { transcripts := [], t2i := [] }

/-! ## The cleanliness flags of a fragment (`bundle_bridge.cc`) -/

/-- The local `max_misalignment1 = 20` of `build_fragments`. -/
def max_misalignment1 : Int := 20

/-- The local `max_misalignment2 = 10` of `build_fragments`. -/
def max_misalignment2 : Int := 10

/-- The statements of `build_fragments` that set `fr.b1`, for the first mate `h1` with
the region indices `v1`; `none` when `regions[v1.back()]` is not a region. -/
def fragment_b1 (regions : List region) (v1 : List Nat) (h1 : hit) : Option Bool :=
  if v1.length ≤ 1 then some false
  else if v1.length ≥ 2 ∧
      ((v1.getD (v1.length - 2) 0 : Nat) : Int) = ((v1.getD (v1.length - 1) 0 : Nat) : Int) - 1 then
    match regions[v1.getD (v1.length - 1) 0]? with
    | none => none
    | some r => some (decide (¬ (h1.rpos - r.lpos.p32 > max_misalignment1 + h1.nm)))
  else if v1.length ≥ 2 ∧
      ((v1.getD (v1.length - 2) 0 : Nat) : Int) ≠ ((v1.getD (v1.length - 1) 0 : Nat) : Int) - 1 then
    match regions[v1.getD (v1.length - 1) 0]? with
    | none => none
    | some r => some (decide (¬ (h1.rpos - r.lpos.p32 > max_misalignment2 + h1.nm)))
  else some true

/-- The statements of `build_fragments` that set `fr.b2`, for the second mate `h2` with
the region indices `v2`; `none` when `regions[v2.front()]` is not a region. -/
def fragment_b2 (regions : List region) (v2 : List Nat) (h2 : hit) : Option Bool :=
  if v2.length ≤ 1 then some false
  else if v2.length ≥ 2 ∨ v2.getD 1 0 = v2.getD 0 0 + 1 then
    match regions[v2.getD 0 0]? with
    | none => none
    | some r => some (decide (¬ (r.rpos.p32 - h2.pos > max_misalignment1 + h2.nm)))
  else if v2.length ≥ 2 ∨ v2.getD 1 0 ≠ v2.getD 0 0 + 1 then
    match regions[v2.getD 0 0]? with
    | none => none
    | some r => some (decide (¬ (r.rpos.p32 - h2.pos > max_misalignment2 + h2.nm)))
  else some true

/-! ## The build of a bundle (`bundle.cc`) -/

/-- The function `hyper_set::clear`. -/
def hyper_set.clear (_ : hyper_set) : hyper_set :=
  { nodes := [], edges := [], ecnts := [], e2s := [], edges_to_transform := [] }

/-- The end of `bundle::build_hyper_set`: `hs.clear()` and the loop that adds the keys
of the map `m` with two vertices or more. The map `m` of vertex lists and counts is
what the loops before it collect from the fragments and hits of the bundle with
`align_fragment` and `align_hit`, which read the regions and their partial exons and
not the graph `gr`. -/
def build_hyper_set (m : List (List Int × Int)) (hs : hyper_set) : hyper_set :=
  m.foldl (fun hs p => if p.1.length ≥ 2 then add_node_list hs p.1 p.2 else hs) hs.clear

set_option linter.unusedVariables false in
/-- The function `bundle::build(int mode, bool revise)`: `build_splice_graph(mode)`,
`refine_splice_graph()` and `build_hyper_set()` (the call of `revise_splice_graph` is a
comment); the result is the pair of `gr` and `hs`. -/
def build (fuel : Nat) (bt : boundary_types) (min_guaranteed_edge_weight : ℚ)
    (lpos rpos : Int) (pexons : List partial_exon) (regional : List Bool)
    (jset : List ((Int × Int) × (Int × Char))) (m : List (List Int × Int)) (hs : hyper_set)
    (mode : Int) (revise : Bool) : outcome (splice_graph × hyper_set) :=
  match build_splice_graph bt mode min_guaranteed_edge_weight lpos rpos pexons regional jset with
  | none => outcome.abort
  | some gr =>
    match refine_splice_graph fuel gr with
    | outcome.done gr1 => outcome.done (gr1, build_hyper_set m hs)
    | outcome.abort => outcome.abort
    | outcome.out_of_fuel => outcome.out_of_fuel

/-! ### `hyper_set::get_predecessors` -/

/-- The loop of `get_predecessors(e)` over the entries of one row with count `c`: the
entry `a = v[i]` is looked at with the entry `k = v[i - 1]` before it; the statement
`s[k] += c` adds two `int`s. -/
def get_predecessors_scan (e c : Int) : List Int → List (Int × Int) → List (Int × Int)
  | [], s => s
  | [_], s => s
  | k :: a :: v, s =>
    if a ≠ e then get_predecessors_scan e c (a :: v) s
    else if k = -1 then get_predecessors_scan e c (a :: v) s
    else
      match map_find s k with
      | none => get_predecessors_scan e c (a :: v) (map_put s k c)
      | some c0 => get_predecessors_scan e c (a :: v) (map_put s k (int32 (c0 + c)))

/-- The loop of `get_predecessors(e)` over the rows listed under `e`. -/
def get_predecessors_rows (hs : hyper_set) (e : Int) :
    List Nat → List (Int × Int) → Option (List (Int × Int))
  | [], s => some s
  | k :: ss, s =>
    match hs.edges[k]?, hs.ecnts[k]? with
    | some v, some c => get_predecessors_rows hs e ss (get_predecessors_scan e c v s)
    | _, _ => none

/-- The function `hyper_set::get_predecessors`. -/
def get_predecessors (hs : hyper_set) (e : Int) : Option (List (Int × Int)) :=
  match map_find hs.e2s e with
  | none => some []
  | some ss => get_predecessors_rows hs e ss []

/-! ## The region of a position (`bundle_bridge.cc`) -/

/-- Modelled from the spec: `is_allelic()` of a region, which is not among the sources:
the tag of its position is "a nucleotide string naming the allele" and not `$`. -/
def region.is_allelic (r : region) : Bool :=
  decide (r.lpos.ale ≠ ['$'])

/-- The statements of `build_partial_exons` that choose `ltype` for the allelic region
`r = regions[i]`; `m1` holds the left ends of the junctions and `rpexons[k]` is
`regions[k].pexons`. -/
def as_pexon_ltype (bt : boundary_types) (m1 : List Int) (regions : List region)
    (rpexons : List (List partial_exon)) (i : Nat) (r : region) : Int :=
  if r.lpos.p32 ∈ m1 then r.ltype
  else if i ≥ 1 ∧ (regions[i - 1]?).map region.is_allelic = some true then r.ltype
  else if i ≥ 1 ∧ (rpexons[i - 1]?).map List.length = some 0 then bt.START_BOUNDARY
  else if i ≥ 1 ∧ ((rpexons[i - 1]?).bind List.getLast?).map
      (fun pe => decide (pe.type ≠ EMPTY_VERTEX)) = some true then r.ltype
  else bt.START_BOUNDARY

/-- The statements of `build_partial_exons` that choose `rtype` for the allelic region
`r = regions[i]`; `m2` holds the right ends of the junctions. -/
def as_pexon_rtype (bt : boundary_types) (m2 : List Int) (regions : List region)
    (rpexons : List (List partial_exon)) (i : Nat) (r : region) : Int :=
  if r.rpos.p32 ∈ m2 then r.rtype
  else if i + 1 < regions.length ∧ (regions[i + 1]?).map region.is_allelic = some true then
    r.rtype
  else if i + 1 < regions.length ∧ (rpexons[i + 1]?).map List.length = some 0 then
    bt.END_BOUNDARY
  else if i + 1 < regions.length ∧ ((rpexons[i + 1]?).bind List.head?).map
      (fun pe => decide (pe.type ≠ EMPTY_VERTEX)) = some true then r.rtype
  else bt.END_BOUNDARY

/-- The partial exon `pe` that `build_partial_exons` makes for the allelic region
`r = regions[i]`, whose abundances are `c = (r.ave, r.max, r.dev)`. -/
def as_pexon (bt : boundary_types) (m1 m2 : List Int) (regions : List region)
    (rpexons : List (List partial_exon)) (i : Nat) (r : region) (c : ℚ × ℚ × ℚ) :
    partial_exon :=
  { lpos := r.lpos, rpos := r.rpos,
    ltype := as_pexon_ltype bt m1 regions rpexons i r,
    rtype := as_pexon_rtype bt m2 regions rpexons i r,
    gt := r.gt, type := 0, ave := c.1, max := c.2.1, dev := c.2.2, allelic := true }

/-- The body of the loop "add AS pexons directly" of `build_partial_exons` for the
region `i`, with the state `(rpexons, pexons)`: the lists `regions[k].pexons` and the
vector `pexons` of the bundle; `cov[k]` holds `(ave, max, dev)` of `regions[k]`. -/
def add_as_pexon (bt : boundary_types) (m1 m2 : List Int) (regions : List region)
    (cov : List (ℚ × ℚ × ℚ)) (i : Nat)
    (st : List (List partial_exon) × List partial_exon) :
    Option (List (List partial_exon) × List partial_exon) :=
  match regions[i]?, st.1[i]?, cov[i]? with
  | some r, some ps, some c =>
    if r.is_allelic = true then
      if ¬ (ps.length = 0) then none
      else if as_pexon_ltype bt m1 regions st.1 i r = -1 then none
      else if as_pexon_rtype bt m2 regions st.1 i r = -1 then none
      else if c.1 = 0 then none
      else
        some (st.1.set i [as_pexon bt m1 m2 regions st.1 i r c],
          st.2 ++ [as_pexon bt m1 m2 regions st.1 i r c])
    else some st
  | _, _, _ => none

/-- The loop "add AS pexons directly" of `build_partial_exons` over the regions still
to visit. -/
def add_as_pexons (bt : boundary_types) (m1 m2 : List Int) (regions : List region)
    (cov : List (ℚ × ℚ × ℚ)) :
    List Nat → List (List partial_exon) × List partial_exon →
    Option (List (List partial_exon) × List partial_exon)
  | [], st => some st
  | i :: rest, st =>
    match add_as_pexon bt m1 m2 regions cov i st with
    | none => none
    | some st1 => add_as_pexons bt m1 m2 regions cov rest st1

/-- The part of `bundle::build_partial_exons` for the allelic regions: the sets `m1` and
`m2` of the ends of the junctions and the second loop over the regions. The state
before it is that after the first loop, which fills `regions[k].pexons` for the regions
without a variant with `rebuild`, of the class `region`. -/
def build_as_pexons (bt : boundary_types) (junctions : List junction) (regions : List region)
    (cov : List (ℚ × ℚ × ℚ)) (st : List (List partial_exon) × List partial_exon) :
    Option (List (List partial_exon) × List partial_exon) :=
  add_as_pexons bt (junctions.map (fun j => (ofLex j.pos).1))
    (junctions.map (fun j => (ofLex j.pos).2)) regions cov (List.range regions.length) st

/-! ## Keeping the surviving edges (`bundle.cc`) -/

/-- The heaviest edge of a list of edges, `none` for the empty list. -/
def heaviest_edge (gr : splice_graph) : List Nat → Option Nat
  | [] => none
  | d :: rest =>
    match heaviest_edge gr rest with
    | none => some d
    | some d1 => if wt gr.ewrt d < wt gr.ewrt d1 then some d1 else some d

/-- Modelled from the spec: `max_in_edge(v)` of the graph library, which is not among
the sources; the patch-up re-includes the "heaviest incident edge" of a vertex: the
heaviest edge into `v`, and `none` (`null_edge`) when no edge comes in. -/
def splice_graph.max_in_edge (gr : splice_graph) (v : Nat) : Option Nat :=
  heaviest_edge gr (gr.in_edges v)

/-- Modelled from the spec: `max_out_edge(v)` of the graph library: the heaviest edge
out of `v`, and `none` (`null_edge`) when no edge goes out. -/
def splice_graph.max_out_edge (gr : splice_graph) (v : Nat) : Option Nat :=
  heaviest_edge gr (gr.out_edges v)

/-- The order of `sort` on the pairs `PDE` of a weight and an edge: by weight, then by
edge. -/
def pde_le (a b : ℚ × Nat) : Prop :=
  a.1 < b.1 ∨ (a.1 = b.1 ∧ a.2 ≤ b.2)

instance pde_le_decidable : DecidableRel pde_le :=
  fun a b => inferInstanceAs (Decidable (a.1 < b.1 ∨ (a.1 = b.1 ∧ a.2 ≤ b.2)))

/-- The first loop of `compute_maximal_edges`: the pairs pushed on `ve`, one for each
edge that neither leaves the source nor enters the sink. -/
def maximal_edges_pairs (gr : splice_graph) : List (ℚ × Nat) :=
  (gr.edges.filter (fun e => decide ((gr.edge_ends.getD e (0, 0)).1 ≠ 0 ∧
    (gr.edge_ends.getD e (0, 0)).2 ≠ gr.num_vertices - 1))).map (fun e => (wt gr.ewrt e, e))

/-- The loop `for(int i = 1; i < ve.size(); i++) assert(ve[i - 1].first <= ve[i].first)`. -/
def weights_ascending : List (ℚ × Nat) → Bool
  | [] => true
  | [_] => true
  | a :: b :: rest => decide (a.1 ≤ b.1) && weights_ascending (b :: rest)

/-- The last loop of `compute_maximal_edges`, over `ve` from its end, with the state
`(x, sc)`; `vv` is the vector of component numbers, and `none` stands for a failed
assertion or a read past the end of `vv`. -/
def maximal_edges_loop (gr : splice_graph) (vv : List Nat) :
    List (ℚ × Nat) → List Nat × List Nat → Option (List Nat)
  | [], (x, _) => some x
  | (_, e) :: rest, (x, sc) =>
    if wt gr.ewrt e < 3 / 2 then some x
    else if (gr.edge_ends.getD e (0, 0)).1 = 0 then maximal_edges_loop gr vv rest (x, sc)
    else if (gr.edge_ends.getD e (0, 0)).2 = gr.num_vertices then
      maximal_edges_loop gr vv rest (x, sc)
    else
      match vv[(gr.edge_ends.getD e (0, 0)).1]?, vv[(gr.edge_ends.getD e (0, 0)).2]? with
      | some c1, some c2 =>
        if c1 ≠ c2 then none
        else if c1 ∈ sc then maximal_edges_loop gr vv rest (x, sc)
        else maximal_edges_loop gr vv rest (x ++ [e], set_insert c1 sc)
      | _, _ => none

/-- The function `bundle::compute_maximal_edges`. Modelled from the spec: the undirected
graph library is not among the sources, and the vector `vv` that
`assign_connected_components` returns, the number of the component of each vertex, is
an argument here. -/
def compute_maximal_edges (gr : splice_graph) (vv : List Nat) : Option (List Nat) :=
  if weights_ascending ((maximal_edges_pairs gr).insertionSort pde_le) = false then none
  else maximal_edges_loop gr vv ((maximal_edges_pairs gr).insertionSort pde_le).reverse ([], [])

/-- The first loop of `keep_surviving_edges`, over `gr.edges()`, with the state
`(se, sv1, sv2)`; the set `se` of edges is kept in the order of the edge numbers. -/
def surviving_edges (gr : splice_graph) (min_surviving_edge_weight : ℚ) :
    List Nat → List Nat × List Nat × List Nat → List Nat × List Nat × List Nat
  | [], st => st
  | e :: rest, (se, sv1, sv2) =>
    if wt gr.ewrt e < min_surviving_edge_weight then
      surviving_edges gr min_surviving_edge_weight rest (se, sv1, sv2)
    else
      surviving_edges gr min_surviving_edge_weight rest
        (set_insert e se, set_insert (gr.edge_ends.getD e (0, 0)).2 sv1,
          set_insert (gr.edge_ends.getD e (0, 0)).1 sv2)

/-- The loop `for(int i = 0; i < me.size(); i++)` of `keep_surviving_edges`. -/
def add_maximal_edges (gr : splice_graph) :
    List Nat → List Nat × List Nat × List Nat → List Nat × List Nat × List Nat
  | [], st => st
  | ee :: me, (se, sv1, sv2) =>
    add_maximal_edges gr me
      (set_insert ee se, set_insert (gr.edge_ends.getD ee (0, 0)).2 sv1,
        set_insert (gr.edge_ends.getD ee (0, 0)).1 sv2)

/-- The first `if` of the body of the loop over `se`, for the source `s` of the edge,
with the state `(se, sv1, sv2, b)`; `none` stands for a failed assertion. -/
def patch_in (gr : splice_graph) (s : Nat) :
    List Nat × List Nat × List Nat × Bool → Option (List Nat × List Nat × List Nat × Bool)
  | (se, sv1, sv2, b) =>
    if s ∉ sv1 ∧ s ≠ 0 then
      match gr.max_in_edge s with
      | none => none
      | some ee =>
        if ee ∈ se then none
        else some (set_insert ee se, set_insert s sv1,
          set_insert (gr.edge_ends.getD ee (0, 0)).1 sv2, true)
    else some (se, sv1, sv2, b)

/-- The second `if` of the body of the loop over `se`, for the target `t` of the edge. -/
def patch_out (gr : splice_graph) (t : Nat) :
    List Nat × List Nat × List Nat × Bool → Option (List Nat × List Nat × List Nat × Bool)
  | (se, sv1, sv2, b) =>
    if t ∉ sv2 ∧ t ≠ gr.num_vertices - 1 then
      match gr.max_out_edge t with
      | none => none
      | some ee =>
        if ee ∈ se then none
        else some (set_insert ee se, set_insert (gr.edge_ends.getD ee (0, 0)).2 sv1,
          set_insert t sv2, true)
    else some (se, sv1, sv2, b)

/-- The body of the loop over `se` for the edge `e`, up to the test `if(b == true) break`. -/
def patch_body (gr : splice_graph) (e : Nat) (st : List Nat × List Nat × List Nat × Bool) :
    Option (List Nat × List Nat × List Nat × Bool) :=
  match patch_in gr (gr.edge_ends.getD e (0, 0)).1 st with
  | none => none
  | some st1 => patch_out gr (gr.edge_ends.getD e (0, 0)).2 st1

/-- The loop `for(SE::iterator it = se.begin(); ...)` over the edges of `se` still to
visit; it is left as soon as `b` is set. -/
def patch_for (gr : splice_graph) :
    List Nat → List Nat × List Nat × List Nat × Bool →
    Option (List Nat × List Nat × List Nat × Bool)
  | [], st => some st
  | e :: rest, st =>
    match patch_body gr e st with
    | none => none
    | some (se, sv1, sv2, b) =>
      if b = true then some (se, sv1, sv2, b) else patch_for gr rest (se, sv1, sv2, b)

/-- The loop `while(true)` of `keep_surviving_edges`; `fuel` bounds its rounds. -/
def patch_while (gr : splice_graph) :
    Nat → List Nat × List Nat × List Nat → outcome (List Nat × List Nat × List Nat)
  | 0, _ => outcome.out_of_fuel
  | fuel + 1, (se, sv1, sv2) =>
    match patch_for gr se (se, sv1, sv2, false) with
    | none => outcome.abort
    | some (se1, sv11, sv21, b) =>
      if b = false then outcome.done (se1, sv11, sv21)
      else patch_while gr fuel (se1, sv11, sv21)

/-- The function `bundle::keep_surviving_edges`, on the graph `gr` of the bundle, with
the graph after it and the value it returns; `min_surviving_edge_weight` is the
configuration constant and `vv` the vector of component numbers. -/
def keep_surviving_edges (fuel : Nat) (min_surviving_edge_weight : ℚ) (vv : List Nat)
    (gr : splice_graph) : outcome (splice_graph × Bool) :=
  match compute_maximal_edges gr vv with
  | none => outcome.abort
  | some me =>
    match patch_while gr fuel
      (add_maximal_edges gr me
        (surviving_edges gr min_surviving_edge_weight gr.edges ([], [], []))) with
    | outcome.done (se, _, _) =>
      outcome.done
        ((gr.edges.filter (fun e => decide (e ∉ se))).foldl (fun g e => g.remove_edge e) gr,
          decide (1 ≤ (gr.edges.filter (fun e => decide (e ∉ se))).length))
    | outcome.abort => outcome.abort
    | outcome.out_of_fuel => outcome.out_of_fuel

/-! ### Words of the specification -/

/-- Row `i` is listed under edge `e` in the index `m`. -/
def e2s_mem (m : List (Int × List Nat)) (e : Int) (i : Nat) : Prop :=
  ∃ s, map_find m e = some s ∧ i ∈ s

/-- The keys of an index are edges and none of its sets is empty. -/
def e2s_keys_ok (m : List (Int × List Nat)) : Prop :=
  map_find m (-1) = none ∧ ∀ e s, map_find m e = some s → s ≠ []

/-- The new index of the entry `k` of a row, in the words of the specification: a gap
stays a gap, and any other entry goes from its old index to the old descriptor
(`i2e_old`), to the new descriptor (`x2y`), to the new index (`e2i_new`); there is none
when the new descriptor is not an edge of the target graph or has no index. -/
def transform_entry (pgr : directed_graph) (i2e_old : List edge_descriptor)
    (x2y : List (edge_descriptor × edge_descriptor)) (e2i_new : List (edge_descriptor × Int))
    (k : Int) : Option Int :=
  if k = -1 then some (-1)
  else if k < 0 then none
  else
    match i2e_old[k.toNat]? with
    | none => none
    | some e_old =>
      match map_find x2y e_old with
      | none => none
      | some e_new => if pgr.has_edge e_new = true then map_find e2i_new e_new else none

/-- The rows with their counts after `transform`, in the words of the specification:
the rows all of whose entries have a new index, rewritten entry by entry, in their
order and with their counts. -/
def transform_rows_spec (pgr : directed_graph) (i2e_old : List edge_descriptor)
    (x2y : List (edge_descriptor × edge_descriptor)) (e2i_new : List (edge_descriptor × Int))
    (rows : List (List Int × Int)) : List (List Int × Int) :=
  (rows.filter (fun p => p.1.all (fun k => (transform_entry pgr i2e_old x2y e2i_new k).isSome))).map
    (fun p => (p.1.map (fun k => (transform_entry pgr i2e_old x2y e2i_new k).getD (-1)), p.2))

/-- The assertions of `transform` on the entry `k` of a row hold: a gap, or an index
into `i2e_old` of a descriptor that is not null and has an image under `x2y`. -/
def transform_entry_valid (i2e_old : List edge_descriptor)
    (x2y : List (edge_descriptor × edge_descriptor)) (k : Int) : Prop :=
  k = -1 ∨ (0 ≤ k ∧ k < (i2e_old.length : Int) ∧
    ∃ e_old, i2e_old[k.toNat]? = some e_old ∧ e_old ≠ null_edge ∧
      ∃ e_new, map_find x2y e_old = some e_new)

/-- The entry of a row of `build_edges` for the adjacent pair `(s, t)` of a node
sequence, in the words of the specification: the index of the edge `(s, t)`, and `-1`
where the graph has no such edge. -/
def build_edges_entry (gr : directed_graph) (e2i : List (edge_descriptor × Int))
    (st : Int × Int) : Int :=
  match gr.edge st.1 st.2 with
  | none => -1
  | some p => e2i_at e2i p

/-- The edge-index vector of the node sequence `vv`: one entry for each adjacent pair. -/
def build_edges_row_spec (gr : directed_graph) (e2i : List (edge_descriptor × Int))
    (vv : List Int) : List Int :=
  (vv.zip vv.tail).map (build_edges_entry gr e2i)

/-- Every adjacent pair of the node sequence `vv` is an edge of the graph. -/
def all_pairs_edges (gr : directed_graph) (vv : List Int) : Bool :=
  (vv.zip vv.tail).all (fun st => (gr.edge st.1 st.2).isSome)

/-- The node sequences for which `build_edges` emits a row: count at least
`min_router_count`, at least three vertices, every adjacent pair an edge. -/
def build_edges_kept (gr : directed_graph) (min_router_count : Int)
    (nodes : List (List Int × Int)) : List (List Int × Int) :=
  nodes.filter (fun p =>
    decide (min_router_count ≤ p.2) && decide (3 ≤ p.1.length) && all_pairs_edges gr p.1)

/-- The index `e2s` lists, for each edge, the rows containing it: row `i` is in the
set stored under `e` exactly when `e` is not the gap `-1` and occurs in `edges[i]`;
the stored sets, being `std::set`s, are in ascending order. -/
def index_lists_rows (hs : hyper_set) : Prop :=
  (∀ e s, map_find hs.e2s e = some s → s.Pairwise (fun a b => a < b)) ∧
  ∀ e i, e2s_mem hs.e2s e i ↔ (e ≠ -1 ∧ ∃ row, hs.edges[i]? = some row ∧ e ∈ row)

/-- A row after `remove(e)`, in the words of the specification: every occurrence of
`e` replaced by `-1`. -/
def remove_row_spec (e : Int) (row : List Int) : List Int :=
  row.map (fun a => if a = e then -1 else a)

/-- A row after `insert_between(x, y, e)`, in the words of the specification: `e` is
inserted at each place where `x` is immediately followed by `y`. -/
def insert_between_row_spec (x y e : Int) : List Int → List Int
  | [] => []
  | [a] => [a]
  | a :: b :: rest =>
    if a = x ∧ b = y then a :: e :: insert_between_row_spec x y e (b :: rest)
    else a :: insert_between_row_spec x y e (b :: rest)

/-- The number of places of a row where `x` is immediately followed by `y`. -/
def count_pairs (x y : Int) : List Int → Nat
  | [] => 0
  | [_] => 0
  | a :: b :: rest =>
    if a = x ∧ b = y then count_pairs x y (b :: rest) + 1 else count_pairs x y (b :: rest)

/-- The row contains `x` immediately followed by `y`. -/
def has_pair (x y : Int) (row : List Int) : Prop :=
  (x, y) ∈ row.zip row.tail

/-- The row indices listed under `x` in the index are rows of `edges`, none empty (what
the loops over `e2s[x]` read and assert). -/
def listed_rows_exist (hs : hyper_set) (x : Int) : Prop :=
  ∀ s, map_find hs.e2s x = some s →
    s.Pairwise (fun a b => a < b) ∧ ∀ k ∈ s, ∃ row, hs.edges[k]? = some row ∧ row ≠ []

/-- Every set stored in the index is in ascending order, as a `std::set` is. -/
def e2s_sorted (m : List (Int × List Nat)) : Prop :=
  ∀ e s, map_find m e = some s → s.Pairwise (fun a b => a < b)

/-- A row after `replace(v, e)`, as the loop body computes it: at the first position
`b` where `v` starts, `vv[b] = e` and the entries `b + 1 .. b + v.size() - 1` are
erased; a row without such a position is left as it is. -/
def replace_row (v : List Int) (e : Int) (row : List Int) : List Int :=
  match consecutive_subset row v with
  | [] => row
  | b :: _ => (row.set b e).take (b + 1) ++ (row.set b e).drop (b + v.length)

/-- The row contains `seq` as a consecutive sub-sequence at most once. -/
def at_most_once (seq row : List Int) : Prop :=
  ∀ pre post pre' post' : List Int,
    row = pre ++ seq ++ post → row = pre' ++ seq ++ post' → pre.length = pre'.length

/-- Edge `d` is incident to vertex `v`: it is among `in_edges(v)` or `out_edges(v)`. -/
def incident (gr : splice_graph) (d v : Nat) : Prop :=
  d ∈ gr.in_edges v ∨ d ∈ gr.out_edges v

instance incident_decidable (gr : splice_graph) (d v : Nat) : Decidable (incident gr d v) :=
  inferInstanceAs (Decidable (d ∈ gr.in_edges v ∨ d ∈ gr.out_edges v))

/-- Vertex `v` has genotype `a`. -/
def has_gt (gr : splice_graph) (v : Nat) (a : genotype) : Prop :=
  ∃ vi, gr.vinf[v]? = some vi ∧ vi.gt = a

/-- Vertex `v` is a non-allelic vertex of the non-zero sets: what `assign_gt` puts in
`nsnodes`. -/
def ns_vertex (gr : splice_graph) (asnonzeroset nsnonzeroset : List Nat) (v : Nat) : Prop :=
  (v ∈ asnonzeroset ∨ v ∈ nsnonzeroset) ∧ ∃ vi, gr.vinf[v]? = some vi ∧ vi.as_vertex = false

/-- Edge `d` has been assigned in the state `ph`: both allele weights are at least `0`
and they sum to the weight of the edge. -/
def edge_assigned (gr : splice_graph) (ph : phaser) (d : Nat) : Prop :=
  0 ≤ wt ph.ewrt1 d ∧ 0 ≤ wt ph.ewrt2 d ∧
    wt ph.ewrt1 d + wt ph.ewrt2 d = wt gr.ewrt d

/-- Edge `d` is either unassigned (`-1` in both maps) or assigned. -/
def edge_state_ok (gr : splice_graph) (ph : phaser) (d : Nat) : Prop :=
  (wt ph.ewrt1 d = -1 ∧ wt ph.ewrt2 d = -1) ∨ edge_assigned gr ph d

/-- The genotype `ALLELE1` (for `true`) or `ALLELE2` (for `false`). -/
def allele_gt (a : Bool) : genotype :=
  if a = true then genotype.ALLELE1 else genotype.ALLELE2

/-- Edge `d` carries its full weight on allele 1 and zero on allele 2 (for `a` true),
or the other way round (for `a` false). -/
def allele_full (gr : splice_graph) (ph : phaser) (d : Nat) (a : Bool) : Prop :=
  wt ph.ewrt1 d = (if a = true then wt gr.ewrt d else 0) ∧
    wt ph.ewrt2 d = (if a = true then 0 else wt gr.ewrt d)

/-- From the state `ph` to the state `ph'` no weight that was at least `0` has changed,
and an edge that was unassigned or assigned is still one or the other. -/
def keeps (gr : splice_graph) (ph ph' : phaser) : Prop :=
  ∀ d, (0 ≤ wt ph.ewrt1 d → wt ph'.ewrt1 d = wt ph.ewrt1 d) ∧
    (0 ≤ wt ph.ewrt2 d → wt ph'.ewrt2 d = wt ph.ewrt2 d) ∧
    (edge_state_ok gr ph d → edge_state_ok gr ph' d)

/-- From `(ph, ns)` to `(ph', ns')` the state has been kept (`keeps`) and every vertex
that left `nsnodes` has had its edges assigned. -/
def splits (gr : splice_graph) (ph : phaser) (ns : List Nat) (ph' : phaser) (ns' : List Nat) :
    Prop :=
  keeps gr ph ph' ∧
    ∀ v, v ∈ ns → v ∉ ns' → ∀ d, incident gr d v → edge_state_ok gr ph d → edge_assigned gr ph' d

/-- The degree property of the refined graph: every internal vertex with an edge has an
edge in and an edge out. -/
def degree_ok (gr : splice_graph) : Prop :=
  ∀ i, 0 < i → i + 1 < gr.num_vertices → 0 < gr.degree i →
    1 ≤ gr.in_degree i ∧ 1 ≤ gr.out_degree i

/-- The graph `gr'` is `gr` with some edges removed: the vertices, their data, and the
ends and weights of the edges are the same, and every edge of `gr'` is an edge of `gr`. -/
def edges_removed_only (gr gr' : splice_graph) : Prop :=
  gr'.vinf = gr.vinf ∧ gr'.vwrt = gr.vwrt ∧ gr'.edge_ends = gr.edge_ends ∧
    gr'.ewrt = gr.ewrt ∧ ∀ d, d ∈ gr'.edges → d ∈ gr.edges

/-- The key of a node sequence in the words of the specification: `v` is `s` sorted
ascending with `1` added to every element. -/
def is_node_key (s v : List Int) : Prop :=
  ∃ u : List Int, u.Sorted (fun a b => a ≤ b) ∧ u.Perm s ∧ v = u.map (fun i => i + 1)

/-- The count stored under the key `v`, and `0` when the key is absent. -/
def node_count (hs : hyper_set) (v : List Int) : Int :=
  (map_find hs.nodes v).getD 0

/-- The number `x` lies in the range of a 32-bit `int`. -/
def int_range (x : Int) : Prop :=
  -2147483648 ≤ x ∧ x < 2147483648

instance int_range_decidable (x : Int) : Decidable (int_range x) :=
  inferInstanceAs (Decidable (-2147483648 ≤ x ∧ x < 2147483648))

/-- The count of a key of `nodes` after `add_node_list` has added `c` to it: `c` for a
key that was absent, the `int` sum for a key that held `c0`. -/
def added_count (o : Option Int) (c : Int) : Int :=
  match o with
  | none => c
  | some c0 => int32 (c0 + c)

/-- Position `j` is the first occurrence of `e` in the row. -/
def first_occurrence (e : Int) (row : List Int) (j : Nat) : Prop :=
  row[j]? = some e ∧ ∀ j', j' < j → row[j']? ≠ some e

/-- The entry at position `j` of the row has a neighbour that is not a gap: a left
neighbour that exists and is not `-1`, or a right neighbour that exists and is not `-1`. -/
def has_neighbour (row : List Int) (j : Nat) : Prop :=
  (0 < j ∧ row[j - 1]? ≠ some (-1)) ∨ (j + 1 < row.length ∧ row[j + 1]? ≠ some (-1))

/-- The entry `e` occurs in the row between two neighbours that are not gaps: at a
position whose left neighbour and right neighbour both exist and both differ from `-1`. -/
def between_neighbours (e : Int) (row : List Int) : Prop :=
  ∃ j, 0 < j ∧ row[j]? = some e ∧ (∃ a, row[j - 1]? = some a ∧ a ≠ -1) ∧
    ∃ b, row[j + 1]? = some b ∧ b ≠ -1

/-- The keys of a map are in ascending order, as in a `std::map`. -/
def map_sorted {β : Type} (m : List (Int × β)) : Prop :=
  (m.map Prod.fst).Pairwise (fun a b => a < b)

/-- The rows of the set `ss` that `update_index` takes out of the set stored under `e`. -/
def isolated_rows (edges : List (List Int)) (e : Int) (ss : List Nat) : List Nat :=
  ss.filter (fun k =>
    match edges[k]? with
    | none => false
    | some v => update_index_scan e v v.length 0)

/-- The entry of `e2s` for `e` after the inner loops of `update_index`. -/
def update_index_entry (edges : List (List Int)) (p : Int × List Nat) : Int × List Nat :=
  (p.1, erase_all (isolated_rows edges p.1 p.2) p.2)

/-- The pair `p` is seen to the right of the boundary occurrence of `e` at position
`i` of the row: `row[i] = e`, `i` is not last, `row[i+1] ≠ -1`, and `i = 0` or
`row[i-1] = -1`; the pair is `(row[i+1], row[i+2])`, with `-1` in the place of
`row[i+2]` when `i + 2` is past the end. -/
def boundary_pair_at (e : Int) (row : List Int) (i : Nat) (p : Int × Int) : Prop :=
  ∃ b, row[i]? = some e ∧ row[i + 1]? = some b ∧ b ≠ -1 ∧
    (i = 0 ∨ row[i - 1]? = some (-1)) ∧ p = (b, (row[i + 2]?).getD (-1))

/-- The pair `p` is seen to the right of the non-boundary occurrence of `e` at position
`i` of the row: `row[i] = e`, `i` is not last, `row[i+1] ≠ -1`, `i ≠ 0` and
`row[i-1] ≠ -1`; the pair is `(row[i+1], -1)` or, when `i + 2` exists,
`(row[i+1], row[i+2])`. -/
def inner_pair_at (e : Int) (row : List Int) (i : Nat) (p : Int × Int) : Prop :=
  ∃ b, row[i]? = some e ∧ row[i + 1]? = some b ∧ b ≠ -1 ∧
    ¬ (i = 0 ∨ row[i - 1]? = some (-1)) ∧
    (p = (b, -1) ∨ ∃ c, row[i + 2]? = some c ∧ p = (b, c))

/-- The pair `p` is in the set `B` of the rows listed under `e`: it is seen to the
right of a boundary occurrence of `e` in one of them. -/
def in_boundary_set (hs : hyper_set) (e : Int) (p : Int × Int) : Prop :=
  ∃ s k row i, map_find hs.e2s e = some s ∧ k ∈ s ∧ hs.edges[k]? = some row ∧
    boundary_pair_at e row i p

/-- The pair `p` is in the set `N` of the rows listed under `e`: it is seen to the
right of a non-boundary occurrence of `e` in one of them. -/
def in_inner_set (hs : hyper_set) (e : Int) (p : Int × Int) : Prop :=
  ∃ s k row i, map_find hs.e2s e = some s ∧ k ∈ s ∧ hs.edges[k]? = some row ∧
    inner_pair_at e row i p

/-- The mirror image of `boundary_pair_at`: the pair `p` is seen to the left of the
occurrence of `e` at position `i`, which has no entry or a gap to its right. -/
def left_boundary_pair_at (e : Int) (row : List Int) (i : Nat) (p : Int × Int) : Prop :=
  ∃ b, 1 ≤ i ∧ row[i]? = some e ∧ row[i - 1]? = some b ∧ b ≠ -1 ∧
    (i = row.length - 1 ∨ row[i + 1]? = some (-1)) ∧
    p = (b, if 2 ≤ i then (row[i - 2]?).getD 0 else -1)

/-- The mirror image of `inner_pair_at`. -/
def left_inner_pair_at (e : Int) (row : List Int) (i : Nat) (p : Int × Int) : Prop :=
  ∃ b, 1 ≤ i ∧ row[i]? = some e ∧ row[i - 1]? = some b ∧ b ≠ -1 ∧
    ¬ (i = row.length - 1 ∨ row[i + 1]? = some (-1)) ∧
    (p = (b, -1) ∨ (2 ≤ i ∧ p = (b, (row[i - 2]?).getD 0)))

/-- The hyper-set with every row reversed: left and right exchanged. -/
def mirror (hs : hyper_set) : hyper_set :=
  { hs with edges := hs.edges.map List.reverse }

/-- The bottleneck of a row with count `c`, as `split_hs` computes it: the minimum of
`c` and of the weights of the edges of the row. -/
def row_bottleneck (i2e : List Nat) (ewrt_cur : List ℚ) (c : Int) (row : List Int) : ℚ :=
  (row.map (fun k => wt ewrt_cur ((i2e[k.toNat]?).getD 0))).foldl min (c : ℚ)

/-- The minimum of the weights of the edges of a row `k :: rest`: the bottleneck in the
words of the specification. -/
def min_edge_weight (i2e : List Nat) (ewrt_cur : List ℚ) (k : Int) (rest : List Int) : ℚ :=
  (rest.map (fun k => wt ewrt_cur ((i2e[k.toNat]?).getD 0))).foldl min
    (wt ewrt_cur ((i2e[k.toNat]?).getD 0))

/-- Every entry of the row is an index into `i2e` of an edge whose weight is at least
`0`: what `split_hs` reads and asserts. -/
def valid_row (i2e : List Nat) (ewrt_cur : List ℚ) (row : List Int) : Prop :=
  ∀ k ∈ row, 0 ≤ k ∧ ∃ e, i2e[k.toNat]? = some e ∧ 0 ≤ wt ewrt_cur e

/-- The hyper-set holds the row `row` with the count `c`, waiting for `transform`. -/
def holds_row (hs : hyper_set) (row : List Int) (c : Int) : Prop :=
  ∃ i : Nat, hs.edges_to_transform[i]? = some row ∧ hs.ecnts[i]? = some c

/-- From the state `ph` to the state `ph'` no edge weight that was at least `0` has
changed. -/
def weights_kept (ph ph' : phaser) : Prop :=
  ∀ d, (0 ≤ wt ph.ewrt1 d → wt ph'.ewrt1 d = wt ph.ewrt1 d) ∧
    (0 ≤ wt ph.ewrt2 d → wt ph'.ewrt2 d = wt ph.ewrt2 d)

/-- Vertex `v` has been split by the ratio `r` in the state `ph`: `0 < r < 1`, and its
weight is divided into `vwrt1[v] = weight · r` and `vwrt2[v] = weight · (1 - r)`. -/
def split_with (gr : splice_graph) (ph : phaser) (v : Nat) (r : ℚ) : Prop :=
  0 < r ∧ r < 1 ∧ wt ph.vwrt1 v = wt gr.vwrt v * r ∧ wt ph.vwrt2 v = wt gr.vwrt v * (1 - r)

/-- Vertex `v` has been split by its local ratio on the way from the state `ph` to the
state `ph'`: in a state `ph_mid` between the two, `v` has an incident edge with a
positive weight on an allele, `get_as_ratio(v)` is the pair `(r, 1 - r)`, and `v` is
split by `r` in `ph'`. -/
def split_by_local_ratio (gr : splice_graph) (ph ph' : phaser) (v : Nat) : Prop :=
  ∃ (r : ℚ) (ph_mid : phaser), weights_kept ph ph_mid ∧ weights_kept ph_mid ph' ∧
    (∃ d, incident gr d v ∧ (0 < wt ph_mid.ewrt1 d ∨ 0 < wt ph_mid.ewrt2 d)) ∧
    get_as_ratio gr ph_mid v = some (r, 1 - r) ∧ split_with gr ph' v r

/-- On the way from `(ph0, ns0)` to `(ph, ns)` every vertex that has left `nsnodes` has
been split by its local ratio. -/
def locally_split (gr : splice_graph) (ph0 : phaser) (ns0 : List Nat) (ph : phaser)
    (ns : List Nat) : Prop :=
  weights_kept ph0 ph ∧ ∀ v, v ∈ ns0 → v ∉ ns → split_by_local_ratio gr ph0 ph v

/-- On the way from `(ph0, ns0)` to `(ph, ns)` every vertex that has left `nsnodes` has
been split by the background ratio. -/
def globally_split (gr : splice_graph) (ph0 : phaser) (ns0 : List Nat) (ph : phaser)
    (ns : List Nat) : Prop :=
  ph.ewrtratiobg1 = ph0.ewrtratiobg1 ∧
    ∀ v, v ∈ ns0 → v ∉ ns → split_with gr ph v ph0.ewrtratiobg1

/-- The source of edge `d`. -/
def edge_source (gr : splice_graph) (d : Nat) : Nat :=
  (gr.edge_ends.getD d (0, 0)).1

/-- The target of edge `d`. -/
def edge_target (gr : splice_graph) (d : Nat) : Nat :=
  (gr.edge_ends.getD d (0, 0)).2

/-- Every edge of the graph goes from a lower to a higher vertex index, and ends at a
vertex of the graph. -/
def edges_ascend (gr : splice_graph) : Prop :=
  ∀ d, d ∈ gr.edges → edge_source gr d < edge_target gr d ∧ edge_target gr d < gr.num_vertices

/-- No edge of the graph `g` has an end at the vertex `u`, so that no path of `g`
passes through `u`. -/
def avoids (g : splice_graph) (u : Nat) : Prop :=
  ∀ d, d ∈ g.edges → edge_source g d ≠ u ∧ edge_target g d ≠ u

/-- A boundary position of a bundle: an end of the bundle, an end of one of its
junctions, or an end of a variant that one of its hits shows. -/
def is_boundary_position (lpos rpos : Int) (junctions : List (Int × Int))
    (hits : List (List as_pos)) (k : Int) : Prop :=
  k = lpos ∨ k = rpos ∨ (∃ jc ∈ junctions, k = jc.1 ∨ k = jc.2) ∨
    ∃ h ∈ hits, ∃ p ∈ h, k = p.high32 ∨ k = p.low32

/-- The positions `l` and `r` stand next to each other, in this order, in the list `ks`. -/
def consecutive_positions (ks : List Int) (l r : Int) : Prop :=
  ∃ i : Nat, ks[i]? = some l ∧ ks[i + 1]? = some r

/-- Some hit shows the allele string `a` at the variant locus `[l, r)`. -/
def observed_allele (hits : List (List as_pos)) (l r : Int) (a : List Char) : Prop :=
  ∃ h ∈ hits, ∃ p ∈ h, p.high32 = l ∧ p.low32 = r ∧ p.ale = a

/-- The interval `[l, r)` is a variant locus: some hit shows a variant there. -/
def variant_locus (hits : List (List as_pos)) (l r : Int) : Prop :=
  ∃ a, observed_allele hits l r a

/-- Two regions are adjacent: the coordinate where the first ends is the one where the
second begins. -/
def region_adjacent (a b : region) : Prop :=
  a.rpos.p32 = b.lpos.p32

/-- Two regions are parallel: same coordinates on both sides, different allele tags. -/
def region_parallel (a b : region) : Prop :=
  a.lpos.p32 = b.lpos.p32 ∧ a.rpos.p32 = b.rpos.p32 ∧ a.lpos.ale ≠ b.lpos.ale

/-- The regions of a list that begin at the coordinate `l`, in the order of the list. -/
def regions_at (regions : List region) (l : Int) : List region :=
  regions.filter (fun g => decide (g.lpos.p32 = l))

/-- The regions between two successive entries of `pos_splicetypes`: one for each
allele string that `poses_seqs` holds for the interval, and one region without a
genotype when it holds none. -/
def interval_regions (get_genotype : Int → List Char → genotype)
    (poses_seqs : List ((Int ×ₗ Int) × List (List Char × Int))) (p1 p2 : Int × List Int) :
    List region :=
  match map_find poses_seqs (toLex (p1.1, p2.1)) with
  | some seqs => allele_regions get_genotype p1 p2 p1.1 p2.1 seqs
  | none => [unphased_region p1 p2]

/-- The regions of all intervals between successive entries of `pos_splicetypes`, from
left to right. -/
def all_interval_regions (get_genotype : Int → List Char → genotype)
    (poses_seqs : List ((Int ×ₗ Int) × List (List Char × Int))) :
    List (Int × List Int) → List region
  | [] => []
  | [_] => []
  | p1 :: p2 :: rest =>
    interval_regions get_genotype poses_seqs p1 p2 ++
      all_interval_regions get_genotype poses_seqs (p2 :: rest)

/-- What the loops over the hits keep true of `poses_seqs`, for the variants `obs` read
so far: the keys ascend, a locus is a key when a variant was read there, and the allele
strings stored for a locus ascend and are those read there. -/
def poses_seqs_inv (m : List ((Int ×ₗ Int) × List (List Char × Int))) (obs : as_pos → Prop) :
    Prop :=
  (m.map Prod.fst).Pairwise (fun x y => x < y) ∧
  (∀ key, map_find m key = none → ∀ p, obs p → toLex (p.high32, p.low32) ≠ key) ∧
  ∀ key seqs, map_find m key = some seqs →
    seqs ≠ [] ∧ (seqs.map Prod.fst).Pairwise (fun x y => x < y) ∧
    ∀ a, a ∈ seqs.map Prod.fst ↔ ∃ p, obs p ∧ toLex (p.high32, p.low32) = key ∧ p.ale = a

/-- The vertex `i` is marked between `gr` and `gr'`: its `type` is not `EMPTY_VERTEX` in
`gr`, and in `gr'` it has the same data with the `type` set to `EMPTY_VERTEX`. -/
def marked (gr gr' : splice_graph) (i : Nat) : Prop :=
  ∃ vi, gr.vinf[i]? = some vi ∧ vi.type ≠ EMPTY_VERTEX ∧
    gr'.vinf[i]? = some { vi with type := EMPTY_VERTEX }

/-- The graph `gr'` is `gr` except that some vertices that satisfy `P` are marked: the
number of vertices, the vertex weights, the edges and their weights are the same, and
the data of every vertex is the same unless the vertex is marked. -/
def marks_only_where (P : Nat → Prop) (gr gr' : splice_graph) : Prop :=
  gr'.vinf.length = gr.vinf.length ∧ gr'.vwrt = gr.vwrt ∧ gr'.edge_ends = gr.edge_ends ∧
    gr'.ewrt = gr.ewrt ∧ gr'.removed = gr.removed ∧
    ∀ i, gr'.vinf[i]? = gr.vinf[i]? ∨ (P i ∧ marked gr gr' i)

/-- The graph `gr'` is `gr` except that some internal vertices are marked. -/
def marks_only (gr gr' : splice_graph) : Prop :=
  marks_only_where (fun i => 0 < i ∧ i + 1 < gr.num_vertices) gr gr'

/-- The state `(gr, flag)` of a marking loop that started on `gr0`: `gr` is `gr0` with
marks, and `flag` tells whether there is one. -/
def marks_inv (P : Nat → Prop) (gr0 : splice_graph) (st : splice_graph × Bool) : Prop :=
  marks_only_where P gr0 st.1 ∧ (st.2 = true ↔ ∃ i, marked gr0 st.1 i)

/-- The condition of the claim on a vertex `v`: it is not `EMPTY_VERTEX`, has exactly
one edge in, from `s`, and exactly one edge out, to `t`, there is an edge from `s` to
`t`, and the weight of `v` is at most the weight of that edge and at most
`max_intron_contamination_coverage`. -/
def passed_over (max_intron_contamination_coverage : ℚ) (gr : splice_graph) (v : Nat) : Prop :=
  ∃ vi e1 e2 ee, gr.vinf[v]? = some vi ∧ vi.type ≠ EMPTY_VERTEX ∧
    gr.in_edges v = [e1] ∧ gr.out_edges v = [e2] ∧
    gr.edge (edge_source gr e1) (edge_target gr e2) = some ee ∧
    wt gr.vwrt v ≤ wt gr.ewrt ee ∧ wt gr.vwrt v ≤ max_intron_contamination_coverage

/-- The condition that `remove_intron_contamination` tests on a vertex `v`: that of the
claim, and moreover `s` is not the source, `t` is not the sink, `s` ends at the allelic
position where `v` begins, and `t` begins at the one where `v` ends. -/
def intron_contaminated (max_intron_contamination_coverage : ℚ) (gr : splice_graph)
    (v : Nat) : Prop :=
  ∃ vi e1 e2 ee, gr.vinf[v]? = some vi ∧ vi.type ≠ EMPTY_VERTEX ∧
    gr.in_edges v = [e1] ∧ gr.out_edges v = [e2] ∧
    edge_source gr e1 ≠ 0 ∧ edge_target gr e2 ≠ gr.num_vertices - 1 ∧
    (gr.vinf[edge_source gr e1]?).map (fun s => s.rpos) = some vi.lpos ∧
    (gr.vinf[edge_target gr e2]?).map (fun t => t.lpos) = some vi.rpos ∧
    gr.edge (edge_source gr e1) (edge_target gr e2) = some ee ∧
    wt gr.vwrt v ≤ wt gr.ewrt ee ∧ wt gr.vwrt v ≤ max_intron_contamination_coverage

/-- The graph `gr'` is `gr` with some edges added: the vertices, their data and weights
and the removed edges are the same, and the edges of `gr` keep their ends. -/
def edges_added_only (gr gr' : splice_graph) : Prop :=
  gr'.vinf = gr.vinf ∧ gr'.vwrt = gr.vwrt ∧ gr'.removed = gr.removed ∧
    ∃ extra, gr'.edge_ends = gr.edge_ends ++ extra

/-- The edges between the partial exon `i` and the source and the sink, in the words of
the code: one from the source when the left type is `START_BOUNDARY`, one to the sink
when the right type is `END_BOUNDARY`. -/
def boundary_edges_at (bt : boundary_types) (pexons : List partial_exon) (i : Nat) :
    List (Nat × Nat) :=
  match pexons[i]? with
  | none => []
  | some r =>
    (if r.ltype = bt.START_BOUNDARY then [(0, i + 1)] else []) ++
      (if r.rtype = bt.END_BOUNDARY then [(i + 1, pexons.length + 1)] else [])

/-- What `build_splice_graph` asks of its input: every partial exon has a length of at
least 1, `regional` has an entry for each partial exon, and every entry of `jset` either
has a negative index, and is skipped, or names two partial exons and has a count of at
least 1. -/
def splice_graph_input_ok (pexons : List partial_exon) (regional : List Bool)
    (jset : List ((Int × Int) × (Int × Char))) : Prop :=
  (∀ r ∈ pexons, 1 ≤ r.rpos.p32 - r.lpos.p32) ∧ pexons.length ≤ regional.length ∧
    ∀ x ∈ jset, (x.1.1 < 0 ∨ x.1.2 < 0) ∨
      (x.1.1.toNat < pexons.length ∧ x.1.2.toNat < pexons.length ∧ 1 ≤ x.2.1)

/-- The hits that support the splice position `p`: those that have it in `spos`. -/
def supporting_hits (hits : List hit) (p : Int ×ₗ Int) : List hit :=
  hits.filter (fun h => decide (p ∈ h.spos))

/-- The splice positions of the hits in the order in which `build_junctions` reads
them, each with the index of its hit. -/
def splice_pairs (hits : List hit) : List (Nat × (Int ×ₗ Int)) :=
  hits.enum.flatMap (fun ih => ih.2.spos.map (fun p => (ih.1, p)))

/-- The hit indices that a list of pairs gives for the position `p`, in order. -/
def occurrences (ps : List (Nat × (Int ×ₗ Int))) (p : Int ×ₗ Int) : List Nat :=
  (ps.filter (fun ip => decide (ip.2 = p))).map (fun ip => ip.1)

/-- The number of distinct regions spanned by either mate whose genotype is `g`. -/
def spanned_with_gt (regions : List region) (v1 v2 : List Nat) (g : genotype) : Nat :=
  ((v1 ++ v2).dedup.filter
    (fun v => decide ((regions[v]?).map (fun r => r.gt) = some g))).length

/-- The map `t2i` of a gene has exactly one key for each transcript and maps the id of
the transcript at position `i` to `i`. -/
def gene_indexed (g : gene) : Prop :=
  g.t2i.length = g.transcripts.length ∧
    (g.t2i.map Prod.fst).Pairwise (fun x y => x < y) ∧
    (∀ (i : Nat) (t : transcript), g.transcripts[i]? = some t →
      map_find g.t2i t.transcript_id = some (i : Int)) ∧
    ∀ key, key ∈ g.t2i.map Prod.fst → ∃ t ∈ g.transcripts, t.transcript_id = key

/-- The flag `b2` in the words of the specification, for a second mate whose first
region is `r`: `false` for at most one region; with the first two regions consecutive,
`false` exactly when `r.rpos - h2.pos > max_misalignment1 + h2.nm`; otherwise `false`
exactly when `r.rpos - h2.pos > max_misalignment2 + h2.nm`. -/
def fragment_b2_spec (r : region) (v2 : List Nat) (h2 : hit) : Bool :=
  if v2.length ≤ 1 then false
  else if v2.getD 1 0 = v2.getD 0 0 + 1 then
    decide (¬ (r.rpos.p32 - h2.pos > max_misalignment1 + h2.nm))
  else decide (¬ (r.rpos.p32 - h2.pos > max_misalignment2 + h2.nm))

/-- The set `E` of edges of `gr` has the degree property: every internal vertex of `gr`
with an edge of `E` incident has an edge of `E` coming in and an edge of `E` going out. -/
def degree_closed (gr : splice_graph) (E : List Nat) : Prop :=
  (∀ d ∈ E, d ∈ gr.edges) ∧
    ∀ i, 0 < i → i + 1 < gr.num_vertices →
      (∃ d ∈ E, edge_source gr d = i ∨ edge_target gr d = i) →
      (∃ d ∈ E, edge_target gr d = i) ∧ (∃ d ∈ E, edge_source gr d = i)

/-- The graphs that are reached from `gr` by clearing, one after another and in any
order, internal vertices that have an edge and lack an edge in or an edge out. -/
inductive cleared_from (gr : splice_graph) : splice_graph → Prop
  | start : cleared_from gr gr
  | step (h : splice_graph) (i : Nat) : cleared_from gr h → 0 < i → i + 1 < h.num_vertices →
      h.degree i ≠ 0 → ¬ (1 ≤ h.in_degree i ∧ 1 ≤ h.out_degree i) →
      cleared_from gr (h.clear_vertex i)

/-- The number of places, in the rows with the indices `ss`, where `a` is immediately
followed by `b`. -/
def pair_count (hs : hyper_set) (a b : Int) (ss : List Nat) : Nat :=
  (ss.map (fun i => count_pairs a b (hs.edges.getD i []))).sum

/-- The sum, over the rows with the indices `ss`, of the count of the row times the
number of its places where `a` is immediately followed by `b`. -/
def pair_weight (hs : hyper_set) (a b : Int) (ss : List Nat) : Int :=
  (ss.map (fun i => hs.ecnts.getD i 0 * (count_pairs a b (hs.edges.getD i []) : Int))).sum

/-- What a map of `int` counts holds under a key that had the value `o` and to which
`t` was then added, in `n` steps: the key is there when it was there before or `n` is
not `0`. -/
def accumulated (o : Option Int) (n : Nat) (t : Int) : Option Int :=
  if n = 0 then o else some (int32 (o.getD 0 + t))

/-- The lists `rpexons` differ from the lists `rpexons0` at allelic regions only. -/
def pexons_agree (regions : List region) (rpexons0 rpexons : List (List partial_exon)) :
    Prop :=
  ∀ k : Nat, (regions[k]?).map region.is_allelic ≠ some true → rpexons[k]? = rpexons0[k]?

/-- The region before `regions[i]` is a region without a variant that has no partial
exon or whose last partial exon is an `EMPTY_VERTEX`. -/
def empty_on_left (regions : List region) (rpexons : List (List partial_exon)) (i : Nat) :
    Prop :=
  ∃ p, 1 ≤ i ∧ regions[i - 1]? = some p ∧ p.is_allelic = false ∧
    (rpexons[i - 1]? = some [] ∨
      ∃ ps pe, rpexons[i - 1]? = some ps ∧ ps.getLast? = some pe ∧ pe.type = EMPTY_VERTEX)

/-- The region after `regions[i]` is a region without a variant that has no partial
exon or whose first partial exon is an `EMPTY_VERTEX`. -/
def empty_on_right (regions : List region) (rpexons : List (List partial_exon)) (i : Nat) :
    Prop :=
  ∃ p, regions[i + 1]? = some p ∧ p.is_allelic = false ∧
    (rpexons[i + 1]? = some [] ∨
      ∃ ps pe, rpexons[i + 1]? = some ps ∧ ps.head? = some pe ∧ pe.type = EMPTY_VERTEX)

/-- The hyper-set is index-consistent: `e2s` equals what `build_index` computes from
the current rows. -/
def index_consistent (hs : hyper_set) : Prop :=
  hs.e2s = (build_index hs).e2s

/-- No set stored in the index is empty. -/
def e2s_nonempty (m : List (Int × List Nat)) : Prop :=
  ∀ e s, map_find m e = some s → s ≠ []

/-- No element of `seq` occurs in a row outside an occurrence of `seq` in that row. -/
def only_in_match (seq row : List Int) : Prop :=
  ∀ pre post : List Int, row = pre ++ seq ++ post → ∀ u ∈ seq, u ∉ pre ∧ u ∉ post

/-- Every edge of the graph joins two vertices of the graph. -/
def ends_are_vertices (gr : splice_graph) : Prop :=
  ∀ d ∈ gr.edges, edge_source gr d < gr.num_vertices ∧ edge_target gr d < gr.num_vertices

/-- The vector `vv` numbers the components of the undirected graph that
`compute_maximal_edges` builds: it has one number for each vertex, and the two ends of
an edge that neither leaves the source nor enters the sink have the same number. -/
def numbers_components (gr : splice_graph) (vv : List Nat) : Prop :=
  vv.length = gr.num_vertices ∧
    ∀ d ∈ gr.edges, edge_source gr d ≠ 0 → edge_target gr d ≠ gr.num_vertices - 1 →
      vv[edge_source gr d]? = vv[edge_target gr d]?

/-- The state `(se, sv1, sv2)` of `keep_surviving_edges` is in step: `se` holds edges
of the graph, `sv1` their targets and `sv2` their sources. -/
def survivors_ok (gr : splice_graph) (st : List Nat × List Nat × List Nat) : Prop :=
  (∀ d ∈ st.1, d ∈ gr.edges) ∧
    (∀ v, v ∈ st.2.1 ↔ ∃ d ∈ st.1, edge_target gr d = v) ∧
    ∀ v, v ∈ st.2.2 ↔ ∃ d ∈ st.1, edge_source gr d = v

/-- The edge `e` needs no patch: its source is the source of the graph or the target of
a kept edge, and its target is the sink or the source of a kept edge. -/
def patched (gr : splice_graph) (sv1 sv2 : List Nat) (e : Nat) : Prop :=
  (edge_source gr e ∈ sv1 ∨ edge_source gr e = 0) ∧
    (edge_target gr e ∈ sv2 ∨ edge_target gr e = gr.num_vertices - 1)

/-- The number of edges of the graph that are not in `se`. -/
def edges_left (gr : splice_graph) (se : List Nat) : Nat :=
  (gr.edges.filter (fun d => decide (d ∉ se))).length

/-! ### Example inputs -/

/-- A hyper-set with three rows and no index yet. -/
def example_rows : hyper_set :=
  { nodes := [], edges := [[1, 2, 3], [1, 4], [2, 3, 2, 3]], ecnts := [7, 3, 2], e2s := [],
    edges_to_transform := [] }

/-- Two rows that hold the edge `1` followed by the edge `2`, the first with the largest
count an `int` can hold. -/
def example_heavy_rows : hyper_set :=
  { nodes := [], edges := [[1, 2], [1, 2]], ecnts := [2147483647, 1], e2s := [],
    edges_to_transform := [] }

/-- A splice graph with an `ALLELE1` vertex `1` after the non-allelic vertex `0`, and
two variant vertices `2` and `3` of genotype `UNPHASED` joined by an edge. -/
def example_graph : splice_graph :=
  { vinf := [{ gt := genotype.UNPHASED, as_vertex := false },
             { gt := genotype.ALLELE1, as_vertex := true },
             { gt := genotype.UNPHASED, as_vertex := true },
             { gt := genotype.UNPHASED, as_vertex := true }],
    vwrt := [2, 2, 5, 5],
    edge_ends := [(0, 1), (2, 3)],
    ewrt := [2, 5] }

/-- The state of the phaser after `init` on `example_graph`. -/
def example_init : phaser :=
  { ewrt1 := [2, -1], ewrt2 := [0, -1], vwrt1 := [-1, -1, -1, -1], vwrt2 := [-1, -1, -1, -1],
    vwrtbg1 := 2, vwrtbg2 := 0, ewrtbg1 := 2, ewrtbg2 := 0,
    ewrtratiobg1 := 201 / 202, ewrtratiobg2 := 1 / 202 }

/-- The state of the phaser after `assign_gt` on `example_graph`. -/
def example_assigned : phaser :=
  { example_init with vwrt1 := [201 / 101, -1, -1, -1], vwrt2 := [1 / 101, -1, -1, -1] }

/-- A splice graph with an edge from the `ALLELE1` vertex `1` to the `ALLELE2` vertex
`2`. -/
def example_cross : splice_graph :=
  { vinf := [{ gt := genotype.UNPHASED, as_vertex := false },
             { gt := genotype.ALLELE1, as_vertex := true },
             { gt := genotype.ALLELE2, as_vertex := true }],
    vwrt := [2, 3, 3],
    edge_ends := [(0, 1), (1, 2)],
    ewrt := [2, 3] }

/-- The state of the phaser after `init` on `example_cross`. -/
def example_cross_init : phaser :=
  { ewrt1 := [2, 0], ewrt2 := [0, 3], vwrt1 := [-1, -1, -1], vwrt2 := [-1, -1, -1],
    vwrtbg1 := 3, vwrtbg2 := 3, ewrtbg1 := 5, ewrtbg2 := 3,
    ewrtratiobg1 := 501 / 802, ewrtratiobg2 := 301 / 802 }

/-- The state of the phaser after `assign_gt` on `example_cross`. -/
def example_cross_assigned : phaser :=
  { example_cross_init with vwrt1 := [201 / 101, -1, -1], vwrt2 := [1 / 101, -1, -1] }

/-- A splice graph with source `0` and sink `5` in which the chain `1 → 2 → 3` ends at
vertex `3`, which has no edge out. -/
def example_dangling : splice_graph :=
  { vinf := List.replicate 6 { gt := genotype.UNPHASED, as_vertex := false },
    vwrt := [1, 1, 1, 1, 1, 1],
    edge_ends := [(0, 1), (1, 2), (2, 3), (0, 4), (4, 5)],
    ewrt := [1, 1, 1, 1, 1] }

/-- A hyper-set with a row in which `1` has a right neighbour only, and a row in which
the first occurrence of `1` stands alone and a later one stands between `2` and `3`. -/
def example_neighbours : hyper_set :=
  { nodes := [], edges := [[1, 2], [1, -1, 2, 1, 3]], ecnts := [1, 1], e2s := [],
    edges_to_transform := [] }

/-- A hyper-set in which edge `1` begins the rows `0` and `2` and is inside row `1`. -/
def example_dominate : hyper_set :=
  { nodes := [], edges := [[1, 2, 3], [4, 1, 2, 3], [1, 5]], ecnts := [1, 1, 1], e2s := [],
    edges_to_transform := [] }

/-- A hyper-set with the rows `[0, 1]` (count `2`) and `[1]` (count `9`). -/
def example_split : hyper_set :=
  { nodes := [], edges := [[0, 1], [1]], ecnts := [2, 9], e2s := [], edges_to_transform := [] }

/-- The graph `example_graph` with its vertex `3` non-allelic: the only edge of vertex
`3` comes from the variant vertex `2`, of genotype `UNPHASED`. -/
def example_stuck : splice_graph :=
  { vinf := [{ gt := genotype.UNPHASED, as_vertex := false },
             { gt := genotype.ALLELE1, as_vertex := true },
             { gt := genotype.UNPHASED, as_vertex := true },
             { gt := genotype.UNPHASED, as_vertex := false }],
    vwrt := [2, 2, 5, 5],
    edge_ends := [(0, 1), (2, 3)],
    ewrt := [2, 5] }

/-- The state of the phaser after `assign_gt` on `example_cross` with
`max_num_exons = 0`: vertex `0` is split by the background ratio `501/802`. -/
def example_cross_global : phaser :=
  { example_cross_init with vwrt1 := [501 / 401, -1, -1], vwrt2 := [301 / 401, -1, -1] }

/-- Values for the constants of the boundary types, one bit each. -/
def example_boundary_types : boundary_types :=
  { START_BOUNDARY := 1, END_BOUNDARY := 2, LEFT_SPLICE := 4, RIGHT_SPLICE := 8,
    ALLELIC_LEFT_SPLICE := 16, ALLELIC_RIGHT_SPLICE := 32 }

/-- A variant file that gives the allele string `A` to the first allele and every other
string to the second. -/
def example_get_genotype (_ : Int) (a : List Char) : genotype :=
  if a = ['A'] then genotype.ALLELE1 else genotype.ALLELE2

/-- Three hits over the variant locus `[130, 131)`: two show `C`, one shows `A`. -/
def example_variant_hits : List (List as_pos) :=
  [[{ high32 := 130, low32 := 131, ale := ['C'] }],
   [{ high32 := 130, low32 := 131, ale := ['A'] }],
   [{ high32 := 130, low32 := 131, ale := ['C'] }]]

/-- A graph with the source `0`, the sink `4` and three exons `[100, 200)`, `[200, 300)`
and `[300, 400)` in a row; an edge of weight 5 from the first exon to the third passes
over the second, which has the weight 1. -/
def example_intron : splice_graph :=
  { vinf := [{ gt := genotype.UNPHASED, as_vertex := false },
             { gt := genotype.UNPHASED, as_vertex := false,
               lpos := { p32 := 100, ale := ['$'] }, rpos := { p32 := 200, ale := ['$'] } },
             { gt := genotype.UNPHASED, as_vertex := false,
               lpos := { p32 := 200, ale := ['$'] }, rpos := { p32 := 300, ale := ['$'] } },
             { gt := genotype.UNPHASED, as_vertex := false,
               lpos := { p32 := 300, ale := ['$'] }, rpos := { p32 := 400, ale := ['$'] } },
             { gt := genotype.UNPHASED, as_vertex := false }],
    vwrt := [0, 5, 1, 5, 0],
    edge_ends := [(0, 1), (1, 2), (2, 3), (1, 3), (3, 4)],
    ewrt := [5, 1, 1, 5, 5] }

/-- A graph with the source `0`, the sink `3` and two exons; the first exon has the
weight 1 and lies between the source and the second exon, which the source reaches by
an edge of weight 5 too. -/
def example_first_exon : splice_graph :=
  { vinf := [{ gt := genotype.UNPHASED, as_vertex := false },
             { gt := genotype.UNPHASED, as_vertex := false,
               lpos := { p32 := 100, ale := ['$'] }, rpos := { p32 := 200, ale := ['$'] } },
             { gt := genotype.UNPHASED, as_vertex := false,
               lpos := { p32 := 200, ale := ['$'] }, rpos := { p32 := 300, ale := ['$'] } },
             { gt := genotype.UNPHASED, as_vertex := false }],
    vwrt := [0, 1, 5, 0],
    edge_ends := [(0, 1), (1, 2), (0, 2), (2, 3)],
    ewrt := [5, 1, 5, 5] }

/-- A graph with the source `0`, the sink `2` and one exon of weight 10 without edges. -/
def example_isolated : splice_graph :=
  { vinf := [{ gt := genotype.UNPHASED, as_vertex := false },
             { gt := genotype.UNPHASED, as_vertex := false },
             { gt := genotype.UNPHASED, as_vertex := false }],
    vwrt := [0, 10, 0],
    edge_ends := [],
    ewrt := [] }

/-- A graph with the source `0`, the sink `4` and three exons `[100, 200)`, `[200, 300)`
and `[400, 500)` of weight 200: the first exon is continued by the second, and a junction
of weight 2 (edge 2) leads from the first exon to the third. -/
def example_junction : splice_graph :=
  { vinf := [{ gt := genotype.UNPHASED, as_vertex := false },
             { gt := genotype.UNPHASED, as_vertex := false,
               lpos := { p32 := 100, ale := ['$'] }, rpos := { p32 := 200, ale := ['$'] } },
             { gt := genotype.UNPHASED, as_vertex := false,
               lpos := { p32 := 200, ale := ['$'] }, rpos := { p32 := 300, ale := ['$'] } },
             { gt := genotype.UNPHASED, as_vertex := false,
               lpos := { p32 := 400, ale := ['$'] }, rpos := { p32 := 500, ale := ['$'] } },
             { gt := genotype.UNPHASED, as_vertex := false }],
    vwrt := [0, 200, 200, 200, 0],
    edge_ends := [(0, 1), (1, 2), (1, 3), (2, 4), (3, 4)],
    ewrt := [200, 200, 2, 200, 200] }

/-- Two partial exons `[100, 200)` and `[300, 400)` joined by a junction: the first
begins the bundle, the second ends it and has the left type `START_BOUNDARY +
ALLELIC_LEFT_SPLICE = 17` of `example_boundary_types`. -/
def example_pexons : List partial_exon :=
  [{ lpos := { p32 := 100, ale := ['$'] }, rpos := { p32 := 200, ale := ['$'] },
     ltype := 1, rtype := 4, gt := genotype.UNPHASED, type := 0,
     ave := 8, max := 10, dev := 1, allelic := false },
   { lpos := { p32 := 300, ale := ['$'] }, rpos := { p32 := 400, ale := ['$'] },
     ltype := 17, rtype := 2, gt := genotype.UNPHASED, type := 0,
     ave := 8, max := 10, dev := 1, allelic := false }]

/-- Ten hits over `[100, 150)` and `[250, 300)`, each spliced from 150 to 250. -/
def example_spliced_hits : List hit :=
  List.replicate 10 { pos := 100, rpos := 300, xs := '+', spos := [toLex (150, 250)] }

/-- Two parallel regions of a variant locus `[130, 131)`, one of each allele. -/
def example_allele_regions : List region :=
  [{ lpos := { p32 := 130, ale := ['A'] }, rpos := { p32 := 131, ale := ['A'] },
     ltype := 16, rtype := 32, gt := genotype.ALLELE1 },
   { lpos := { p32 := 130, ale := ['C'] }, rpos := { p32 := 131, ale := ['C'] },
     ltype := 16, rtype := 32, gt := genotype.ALLELE2 }]

/-- The regions of five variant loci that a fragment spans: three of `ALLELE1` and two
of `ALLELE2`. -/
def example_five_loci : List region :=
  [{ lpos := { p32 := 110, ale := ['A'] }, rpos := { p32 := 111, ale := ['A'] },
     ltype := 16, rtype := 32, gt := genotype.ALLELE1 },
   { lpos := { p32 := 120, ale := ['A'] }, rpos := { p32 := 121, ale := ['A'] },
     ltype := 16, rtype := 32, gt := genotype.ALLELE1 },
   { lpos := { p32 := 130, ale := ['A'] }, rpos := { p32 := 131, ale := ['A'] },
     ltype := 16, rtype := 32, gt := genotype.ALLELE1 },
   { lpos := { p32 := 140, ale := ['C'] }, rpos := { p32 := 141, ale := ['C'] },
     ltype := 16, rtype := 32, gt := genotype.ALLELE2 },
   { lpos := { p32 := 150, ale := ['C'] }, rpos := { p32 := 151, ale := ['C'] },
     ltype := 16, rtype := 32, gt := genotype.ALLELE2 }]

/-- The `double` nearest to `0.6`: `5404319552844595 / 2 ^ 53`. -/
def example_threshold : double :=
  { mantissa := 5404319552844595, exponent := -53 }

/-- A hyper-set without rows that holds one count. -/
def example_stray_count : hyper_set :=
  { nodes := [], edges := [], ecnts := [1], e2s := [], edges_to_transform := [] }

/-- Three transcripts with different ids. -/
def example_transcripts : List transcript :=
  [{ transcript_id := ['b'], coverage := 3 }, { transcript_id := ['a'], coverage := 1 },
   { transcript_id := ['c'], coverage := 2 }]

/-- Three regions `[100, 200)`, `[200, 300)`, `[300, 400)` without a variant. -/
def example_plain_regions : List region :=
  [{ lpos := { p32 := 100, ale := ['$'] }, rpos := { p32 := 200, ale := ['$'] },
     ltype := 1, rtype := 4, gt := genotype.UNPHASED },
   { lpos := { p32 := 200, ale := ['$'] }, rpos := { p32 := 300, ale := ['$'] },
     ltype := 4, rtype := 8, gt := genotype.UNPHASED },
   { lpos := { p32 := 300, ale := ['$'] }, rpos := { p32 := 400, ale := ['$'] },
     ltype := 8, rtype := 2, gt := genotype.UNPHASED }]

/-- A second mate that starts at `185`, fifteen bases before the end of the first
region, and is spliced to the third region. -/
def example_spliced_mate : hit :=
  { pos := 185, rpos := 350, nm := 0, spos := [toLex (200, 300)] }

/-- A region `[100, 130)` without a variant. -/
def example_region_left : region :=
  { lpos := { p32 := 100, ale := ['$'] }, rpos := { p32 := 130, ale := ['$'] },
    ltype := 1, rtype := 32, gt := genotype.UNPHASED }

/-- The region `[130, 131)` of the allele `A`. -/
def example_region_a : region :=
  { lpos := { p32 := 130, ale := ['A'] }, rpos := { p32 := 131, ale := ['A'] },
    ltype := 16, rtype := 32, gt := genotype.ALLELE1 }

/-- The region `[130, 131)` of the allele `C`. -/
def example_region_c : region :=
  { lpos := { p32 := 130, ale := ['C'] }, rpos := { p32 := 131, ale := ['C'] },
    ltype := 16, rtype := 32, gt := genotype.ALLELE2 }

/-- A region `[131, 200)` without a variant. -/
def example_region_right : region :=
  { lpos := { p32 := 131, ale := ['$'] }, rpos := { p32 := 200, ale := ['$'] },
    ltype := 16, rtype := 2, gt := genotype.UNPHASED }

/-- The regions of a locus `[130, 131)` with the alleles `A` and `C`, between two
regions without a variant. -/
def example_locus_regions : List region :=
  [example_region_left, example_region_a, example_region_c, example_region_right]

/-- The partial exon of the second region of `example_locus_regions`, of allele `A`. -/
def example_pexon_a : partial_exon :=
  { lpos := { p32 := 130, ale := ['A'] }, rpos := { p32 := 131, ale := ['A'] },
    ltype := 1, rtype := 32, gt := genotype.ALLELE1, type := 0, ave := 5, max := 5, dev := 1,
    allelic := true }

/-- The partial exon of the third region of `example_locus_regions`, of allele `C`. -/
def example_pexon_c : partial_exon :=
  { lpos := { p32 := 130, ale := ['C'] }, rpos := { p32 := 131, ale := ['C'] },
    ltype := 16, rtype := 2, gt := genotype.ALLELE2, type := 0, ave := 5, max := 5, dev := 1,
    allelic := true }

/-! ## Theorems -/

theorem map_find_put {β : Type} (m : List (Int × β)) (a : Int) (b : β) (k : Int) :
    map_find (map_put m a b) k = if k = a then some b else map_find m k := by
  induction m with
  | nil => simp [map_put, map_find]
  | cons p m ih =>
    obtain ⟨k0, v0⟩ := p
    unfold map_put
    by_cases h1 : a = k0
    · subst h1
      by_cases h2 : k = a <;> simp [map_find, h2]
    · by_cases h2 : a < k0
      · simp only [h1, h2, if_true, if_false]
        by_cases h3 : k = a
        · simp [map_find, h3]
        · simp [map_find, h3]
      · simp only [h1, h2, if_false]
        by_cases h3 : k = k0
        · subst h3
          have : ¬ k = a := fun h => h1 h.symm
          simp [map_find, this]
        · simp [map_find, h3, ih]

theorem mem_set_insert (i j : Nat) (s : List Nat) :
    j ∈ set_insert i s ↔ j = i ∨ j ∈ s := by
  induction s with
  | nil => simp [set_insert]
  | cons a s ih =>
    unfold set_insert
    by_cases h1 : i = a
    · subst h1; simp
    · by_cases h2 : i < a
      · simp [h1, h2]
      · simp only [h1, h2, if_false, List.mem_cons, ih]
        tauto


theorem map_find_e2s_add (m : List (Int × List Nat)) (a : Int) (k : Nat) (e : Int) :
    map_find (e2s_add m a k) e =
      if e = a then some (set_insert k ((map_find m a).getD [])) else map_find m e := by
  unfold e2s_add
  cases h : map_find m a with
  | none => simp [map_find_put]
  | some ss => simp [map_find_put]

theorem e2s_mem_add (m : List (Int × List Nat)) (a : Int) (k : Nat) (e : Int) (j : Nat) :
    e2s_mem (e2s_add m a k) e j ↔ e2s_mem m e j ∨ (e = a ∧ j = k) := by
  unfold e2s_mem
  rw [map_find_e2s_add]
  by_cases h : e = a
  · subst h
    cases h2 : map_find m e with
    | none => simp [mem_set_insert]
    | some ss =>
      simp only [if_true, Option.getD_some, Option.some.injEq, exists_eq_left', mem_set_insert,
        true_and]
      tauto
  · simp [h]

theorem set_insert_ne_nil (i : Nat) (s : List Nat) : set_insert i s ≠ [] := by
  cases s with
  | nil => simp [set_insert]
  | cons a s =>
    unfold set_insert
    by_cases h1 : i = a
    · simp [h1]
    · by_cases h2 : i < a <;> simp [h1, h2]

theorem e2s_keys_ok_add (m : List (Int × List Nat)) (a : Int) (k : Nat) (ha : a ≠ -1)
    (h : e2s_keys_ok m) : e2s_keys_ok (e2s_add m a k) := by
  refine ⟨?_, ?_⟩
  · rw [map_find_e2s_add]
    have : ¬ ((-1 : Int) = a) := fun h => ha h.symm
    simp [this, h.1]
  · intro e s hs
    rw [map_find_e2s_add] at hs
    by_cases he : e = a
    · simp only [he, if_true, Option.some.injEq] at hs
      rw [← hs]
      exact set_insert_ne_nil _ _
    · simp only [he, if_false] at hs
      exact h.2 e s hs

theorem e2s_mem_build_index_row (i : Nat) (v : List Int) (m : List (Int × List Nat))
    (e : Int) (j : Nat) :
    e2s_mem (build_index_row i v m) e j ↔ e2s_mem m e j ∨ (j = i ∧ e ≠ -1 ∧ e ∈ v) := by
  induction v generalizing m with
  | nil => simp [build_index_row]
  | cons a v ih =>
    unfold build_index_row
    by_cases ha : a = -1
    · simp only [ha, if_true, ih, List.mem_cons]
      constructor
      · rintro (h | ⟨h1, h2, h3⟩)
        · exact Or.inl h
        · exact Or.inr ⟨h1, h2, Or.inr h3⟩
      · rintro (h | ⟨h1, h2, h3 | h3⟩)
        · exact Or.inl h
        · exact absurd h3 h2
        · exact Or.inr ⟨h1, h2, h3⟩
    · simp only [ha, if_false, ih, e2s_mem_add, List.mem_cons]
      constructor
      · rintro ((h | ⟨h1, h2⟩) | ⟨h1, h2, h3⟩)
        · exact Or.inl h
        · exact Or.inr ⟨h2, h1 ▸ ha, Or.inl h1⟩
        · exact Or.inr ⟨h1, h2, Or.inr h3⟩
      · rintro (h | ⟨h1, h2, h3 | h3⟩)
        · exact Or.inl (Or.inl h)
        · exact Or.inl (Or.inr ⟨h3, h1⟩)
        · exact Or.inr ⟨h1, h2, h3⟩

theorem e2s_keys_ok_build_index_row (i : Nat) (v : List Int) (m : List (Int × List Nat))
    (h : e2s_keys_ok m) : e2s_keys_ok (build_index_row i v m) := by
  induction v generalizing m with
  | nil => simpa [build_index_row] using h
  | cons a v ih =>
    unfold build_index_row
    by_cases ha : a = -1
    · simp only [ha, if_true]
      exact ih m h
    · simp only [ha, if_false]
      exact ih _ (e2s_keys_ok_add m a i ha h)

theorem e2s_mem_build_index_loop (rows : List (List Int)) (i : Nat) (m : List (Int × List Nat))
    (e : Int) (j : Nat) :
    e2s_mem (build_index_loop i rows m) e j ↔
      e2s_mem m e j ∨ (e ≠ -1 ∧ i ≤ j ∧ ∃ row, rows[j - i]? = some row ∧ e ∈ row) := by
  induction rows generalizing i m with
  | nil => simp [build_index_loop]
  | cons v rows ih =>
    unfold build_index_loop
    rw [ih, e2s_mem_build_index_row]
    constructor
    · rintro ((h | ⟨h1, h2, h3⟩) | ⟨h1, h2, row, h3, h4⟩)
      · exact Or.inl h
      · refine Or.inr ⟨h2, by omega, v, ?_, h3⟩
        simp [h1]
      · refine Or.inr ⟨h1, by omega, row, ?_, h4⟩
        have : j - i = (j - (i + 1)) + 1 := by omega
        rw [this]
        simpa using h3
    · rintro (h | ⟨h1, h2, row, h3, h4⟩)
      · exact Or.inl (Or.inl h)
      · by_cases hji : j = i
        · subst hji
          simp only [Nat.sub_self, List.getElem?_cons_zero, Option.some.injEq] at h3
          subst h3
          exact Or.inl (Or.inr ⟨rfl, h1, h4⟩)
        · refine Or.inr ⟨h1, by omega, row, ?_, h4⟩
          have : j - i = (j - (i + 1)) + 1 := by omega
          rw [this] at h3
          simpa using h3

theorem e2s_keys_ok_build_index_loop (rows : List (List Int)) (i : Nat)
    (m : List (Int × List Nat)) (h : e2s_keys_ok m) : e2s_keys_ok (build_index_loop i rows m) := by
  induction rows generalizing i m with
  | nil => simpa [build_index_loop] using h
  | cons v rows ih =>
    unfold build_index_loop
    exact ih _ _ (e2s_keys_ok_build_index_row i v m h)

theorem set_insert_sorted (i : Nat) (s : List Nat) (h : s.Pairwise (fun a b => a < b)) :
    (set_insert i s).Pairwise (fun a b => a < b) := by
  induction s with
  | nil => simp [set_insert]
  | cons j s ih =>
    unfold set_insert
    by_cases h1 : i = j
    · simpa [h1] using h
    · by_cases h2 : i < j
      · simp only [h1, h2, if_true, if_false]
        refine List.pairwise_cons.mpr ⟨?_, h⟩
        intro b hb
        rcases List.mem_cons.mp hb with hb | hb
        · omega
        · have := (List.pairwise_cons.mp h).1 b hb
          omega
      · simp only [h1, h2, if_false]
        refine List.pairwise_cons.mpr ⟨?_, ih (List.pairwise_cons.mp h).2⟩
        intro b hb
        rcases (mem_set_insert i b s).mp hb with hb | hb
        · omega
        · exact (List.pairwise_cons.mp h).1 b hb

theorem e2s_sorted_add (m : List (Int × List Nat)) (a : Int) (k : Nat)
    (h : ∀ e s, map_find m e = some s → s.Pairwise (fun a b => a < b)) :
    ∀ e s, map_find (e2s_add m a k) e = some s → s.Pairwise (fun a b => a < b) := by
  intro e s hs
  rw [map_find_e2s_add] at hs
  by_cases he : e = a
  · simp only [he, if_true, Option.some.injEq] at hs
    rw [← hs]
    apply set_insert_sorted
    cases hm : map_find m a with
    | none => simp
    | some ss => simpa using h a ss hm
  · simp only [he, if_false] at hs
    exact h e s hs

theorem e2s_sorted_build_index_row (i : Nat) (v : List Int) (m : List (Int × List Nat))
    (h : ∀ e s, map_find m e = some s → s.Pairwise (fun a b => a < b)) :
    ∀ e s, map_find (build_index_row i v m) e = some s → s.Pairwise (fun a b => a < b) := by
  induction v generalizing m with
  | nil => simpa [build_index_row] using h
  | cons a v ih =>
    unfold build_index_row
    by_cases ha : a = -1
    · simp only [ha, if_true]
      exact ih m h
    · simp only [ha, if_false]
      exact ih _ (e2s_sorted_add m a i h)

theorem e2s_sorted_build_index_loop (rows : List (List Int)) (i : Nat)
    (m : List (Int × List Nat))
    (h : ∀ e s, map_find m e = some s → s.Pairwise (fun a b => a < b)) :
    ∀ e s, map_find (build_index_loop i rows m) e = some s → s.Pairwise (fun a b => a < b) := by
  induction rows generalizing i m with
  | nil => simpa [build_index_loop] using h
  | cons v rows ih =>
    unfold build_index_loop
    exact ih _ _ (e2s_sorted_build_index_row i v m h)

theorem index_lists_rows_build_index (hs : hyper_set) : index_lists_rows (build_index hs) := by
  refine ⟨e2s_sorted_build_index_loop hs.edges 0 [] (by simp [map_find]), ?_⟩
  intro e i
  show e2s_mem (build_index_loop 0 hs.edges []) e i ↔ _
  rw [e2s_mem_build_index_loop]
  simp [e2s_mem, map_find, build_index]

/-- Claim C6. After `build_index`, for every edge index `e` other than `-1` and every
row index `i`, `i` is in `e2s[e]` exactly when `e` occurs in `edges[i]`; `e2s` has no
key `-1` and no key whose set is empty. -/
theorem build_index_lists_rows (hs : hyper_set) :
    (∀ e i, e ≠ -1 →
      (e2s_mem (build_index hs).e2s e i ↔
        ∃ row, (build_index hs).edges[i]? = some row ∧ e ∈ row)) ∧
    map_find (build_index hs).e2s (-1) = none ∧
    ∀ e s, map_find (build_index hs).e2s e = some s → s ≠ [] := by
  have hk : e2s_keys_ok (build_index hs).e2s :=
    e2s_keys_ok_build_index_loop hs.edges 0 [] ⟨rfl, by simp [map_find]⟩
  refine ⟨?_, hk.1, hk.2⟩
  intro e i he
  show e2s_mem (build_index_loop 0 hs.edges []) e i ↔ _
  rw [e2s_mem_build_index_loop]
  simp [e2s_mem, map_find, he, build_index]

theorem getElem?_append_cons {α : Type} (pre : List α) (c : α) (cs : List α) :
    (pre ++ c :: cs)[pre.length]? = some c := by
  induction pre with
  | nil => simp
  | cons a pre ih => simpa using ih

theorem transform_row_eq (pgr : directed_graph) (i2e_old : List edge_descriptor)
    (x2y : List (edge_descriptor × edge_descriptor)) (e2i_new : List (edge_descriptor × Int))
    (vv : List Int) (hv : ∀ k ∈ vv, transform_entry_valid i2e_old x2y k)
    (ve : List Int) (keep : Bool) :
    ∃ ve', transform_row pgr i2e_old x2y e2i_new vv (ve, keep) =
        some (ve', keep && vv.all (fun k => (transform_entry pgr i2e_old x2y e2i_new k).isSome)) ∧
      ((keep && vv.all (fun k => (transform_entry pgr i2e_old x2y e2i_new k).isSome)) = true →
        ve' = ve ++ vv.map (fun k => (transform_entry pgr i2e_old x2y e2i_new k).getD (-1))) := by
  induction vv generalizing ve keep with
  | nil => exact ⟨ve, by simp [transform_row], by simp⟩
  | cons k vv ih =>
    have hk := hv k (List.mem_cons_self _ _)
    have hv' : ∀ k ∈ vv, transform_entry_valid i2e_old x2y k :=
      fun a ha => hv a (List.mem_cons_of_mem _ ha)
    unfold transform_row
    by_cases h1 : k = -1
    · subst h1
      obtain ⟨ve', h2, h3⟩ := ih hv' (ve ++ [-1]) keep
      have hent : transform_entry pgr i2e_old x2y e2i_new (-1) = some (-1) := by
        simp [transform_entry]
      refine ⟨ve', ?_, ?_⟩
      · simp [h2, hent]
      · intro h4
        simp only [List.all_cons, hent, Option.isSome_some, Bool.true_and,
          List.map_cons, Option.getD_some] at h4 ⊢
        rw [h3 h4]
        simp
    · rcases hk with hk | ⟨hk0, hk1, e_old, hk2, hk3, e_new, hk4⟩
      · exact absurd hk h1
      · have hneg : ¬ k < 0 := by omega
        have hent : transform_entry pgr i2e_old x2y e2i_new k =
            if pgr.has_edge e_new = true then map_find e2i_new e_new else none := by
          simp [transform_entry, h1, hneg, hk2, hk4]
        simp only [h1, if_false, hk0, hk1, and_self, not_true_eq_false, hk2, hk3, hk4]
        cases h5 : map_find e2i_new e_new with
        | none =>
          obtain ⟨ve', h2, h3⟩ := ih hv' ve false
          refine ⟨ve', ?_, ?_⟩
          · simp [h2, hent, h5]
          · simp [hent, h5]
        | some idx =>
          by_cases h6 : pgr.has_edge e_new = true
          · obtain ⟨ve', h2, h3⟩ := ih hv' (ve ++ [idx]) keep
            refine ⟨ve', ?_, ?_⟩
            · simp [h2, hent, h5, h6]
            · intro h4
              simp only [List.all_cons, hent, h5, h6, if_true, Option.isSome_some, Bool.true_and,
                List.map_cons, Option.getD_some] at h4 ⊢
              rw [h3 h4]
              simp
          · obtain ⟨ve', h2, h3⟩ := ih hv' ve false
            refine ⟨ve', ?_, ?_⟩
            · simp [h2, hent, h6]
            · simp [hent, h6]

theorem transform_loop_eq (pgr : directed_graph) (i2e_old : List edge_descriptor)
    (x2y : List (edge_descriptor × edge_descriptor)) (e2i_new : List (edge_descriptor × Int))
    (ecnts : List Int) (rows : List (List Int))
    (hv : ∀ row ∈ rows, ∀ k ∈ row, transform_entry_valid i2e_old x2y k)
    (pre cs : List Int) (hcs : cs.length = rows.length) (hecnts : ecnts = pre ++ cs)
    (edges : List (List Int)) (ect : List Int) :
    transform_loop pgr i2e_old x2y e2i_new ecnts pre.length rows (edges, ect) =
      some (edges ++ (transform_rows_spec pgr i2e_old x2y e2i_new (rows.zip cs)).map Prod.fst,
        ect ++ (transform_rows_spec pgr i2e_old x2y e2i_new (rows.zip cs)).map Prod.snd) := by
  induction rows generalizing pre cs edges ect with
  | nil => simp [transform_loop, transform_rows_spec]
  | cons vv rows ih =>
    cases cs with
    | nil => simp at hcs
    | cons c cs =>
      have hv' : ∀ row ∈ rows, ∀ k ∈ row, transform_entry_valid i2e_old x2y k :=
        fun row hrow => hv row (List.mem_cons_of_mem _ hrow)
      have hnext := ih hv' (pre ++ [c]) cs (by simpa using hcs) (by simp [hecnts])
      have hlen : (pre ++ [c]).length = pre.length + 1 := by simp
      rw [hlen] at hnext
      have hget : ecnts[pre.length]? = some c := by
        rw [hecnts]
        exact getElem?_append_cons pre c cs
      obtain ⟨ve', h2, h3⟩ :=
        transform_row_eq pgr i2e_old x2y e2i_new vv (hv vv (List.mem_cons_self _ _)) [] true
      unfold transform_loop
      rw [h2]
      simp only [Bool.true_and] at h3 ⊢
      by_cases hall : vv.all (fun k => (transform_entry pgr i2e_old x2y e2i_new k).isSome) = true
      · have hve := h3 hall
        simp only [List.nil_append] at hve
        simp only [hall, if_true, hve, List.length_map, ne_eq, not_true_eq_false, if_false, hget,
          hnext]
        simp [transform_rows_spec, hall]
      · simp only [hall, Bool.false_eq_true, if_false, hnext]
        simp [transform_rows_spec, hall]

/-- Claim C3. When its assertions hold (`nodes` and `edges` empty, as many counts as
rows, every non-gap entry an index of a non-null descriptor with an image under
`x2y`), `transform` returns; the rows of `edges` with their counts are then the rows
of `edges_to_transform` all of whose entries have a new index (`transform_entry`),
each entry replaced by its new index and each gap left in place, in their original
order and with their original counts; there are at most as many rows as before, as
many counts as rows, and `edges_to_transform` is empty. -/
theorem transform_keeps_mapped_rows (pgr : directed_graph) (i2e_old : List edge_descriptor)
    (x2y : List (edge_descriptor × edge_descriptor)) (e2i_new : List (edge_descriptor × Int))
    (hs : hyper_set) (hnodes : hs.nodes = []) (hedges : hs.edges = [])
    (hlen : hs.edges_to_transform.length = hs.ecnts.length)
    (hv : ∀ row ∈ hs.edges_to_transform, ∀ k ∈ row, transform_entry_valid i2e_old x2y k) :
    ∃ hs', transform pgr i2e_old x2y e2i_new hs = some hs' ∧
      hs'.edges.zip hs'.ecnts =
        transform_rows_spec pgr i2e_old x2y e2i_new (hs.edges_to_transform.zip hs.ecnts) ∧
      hs'.edges.length = hs'.ecnts.length ∧
      hs'.edges.length ≤ hs.edges_to_transform.length ∧
      hs'.edges_to_transform = [] := by
  have hloop := transform_loop_eq pgr i2e_old x2y e2i_new hs.ecnts hs.edges_to_transform hv
    [] hs.ecnts hlen.symm rfl hs.edges []
  simp only [List.length_nil, hedges, List.nil_append] at hloop
  refine ⟨{ hs with
      edges := (transform_rows_spec pgr i2e_old x2y e2i_new
        (hs.edges_to_transform.zip hs.ecnts)).map Prod.fst,
      ecnts := (transform_rows_spec pgr i2e_old x2y e2i_new
        (hs.edges_to_transform.zip hs.ecnts)).map Prod.snd,
      edges_to_transform := [] }, ?_, ?_, ?_, ?_, rfl⟩
  · unfold transform
    simp [hnodes, hedges, hlen, hloop]
  · simp only
    rw [← List.unzip_fst, ← List.unzip_snd, List.zip_unzip]
  · simp
  · simp only [List.length_map, transform_rows_spec]
    calc (List.filter _ (hs.edges_to_transform.zip hs.ecnts)).length
        ≤ (hs.edges_to_transform.zip hs.ecnts).length := List.length_filter_le _ _
      _ ≤ hs.edges_to_transform.length := by simp [List.length_zip]

/-- Scenario S6 of the specification, as an instance of `transform_keeps_mapped_rows`:
rows `[e1, e2, e3]` and `[e1, e4]`, with `e4` absent from the target graph. -/
theorem transform_keeps_mapped_rows_witness :
    ∃ hs', transform { edge_list := [(21, 1, 2), (22, 2, 3), (23, 3, 4)] } [11, 12, 13, 14]
        [(11, 21), (12, 22), (13, 23), (14, 24)] [(21, 0), (22, 1), (23, 2)]
        { nodes := [], edges := [], ecnts := [7, 3], e2s := [],
          edges_to_transform := [[0, 1, 2], [0, 3]] } = some hs' ∧
      hs'.edges.zip hs'.ecnts = [([0, 1, 2], 7)] ∧
      hs'.edges.length = hs'.ecnts.length ∧
      hs'.edges.length ≤ 2 ∧
      hs'.edges_to_transform = [] :=
  transform_keeps_mapped_rows { edge_list := [(21, 1, 2), (22, 2, 3), (23, 3, 4)] }
    [11, 12, 13, 14] [(11, 21), (12, 22), (13, 23), (14, 24)] [(21, 0), (22, 1), (23, 2)]
    { nodes := [], edges := [], ecnts := [7, 3], e2s := [],
      edges_to_transform := [[0, 1, 2], [0, 3]] } rfl rfl rfl (by
        intro row hrow k hk
        simp only [List.mem_cons, List.mem_singleton, List.not_mem_nil, or_false] at hrow
        rcases hrow with rfl | rfl <;>
          simp only [List.mem_cons, List.mem_singleton, List.not_mem_nil, or_false] at hk <;>
          rcases hk with rfl | rfl | rfl <;>
          exact Or.inr ⟨by decide, by decide, _, rfl, by decide, _, rfl⟩)

theorem build_edges_bound_eq (vv : List Int) (h1 : vv ≠ []) (h2 : vv.length < 2 ^ 64) :
    build_edges_bound vv = vv.length - 1 := by
  have h3 : 0 < vv.length := List.length_pos.mpr h1
  unfold build_edges_bound
  have h4 : 2 ^ 64 - 1 + vv.length = (vv.length - 1) + 2 ^ 64 := by omega
  rw [h4, Nat.add_mod_right]
  exact Nat.mod_eq_of_lt (by omega)

theorem build_edges_row_eq (gr : directed_graph) (e2i : List (edge_descriptor × Int))
    (vv suf : List Int) (hsuf : suf ≠ []) (pre : List Int) (hvv : vv = pre ++ suf)
    (ve : List Int) (b : Bool) :
    build_edges_row gr e2i vv (suf.length - 1) pre.length (ve, b) =
      some (ve ++ build_edges_row_spec gr e2i suf, b && all_pairs_edges gr suf) := by
  induction suf generalizing pre ve b with
  | nil => exact absurd rfl hsuf
  | cons a suf ih =>
    cases suf with
    | nil => simp [build_edges_row, build_edges_row_spec, all_pairs_edges]
    | cons a' rest =>
      have hnext := ih (by simp) (pre ++ [a]) (by simp [hvv])
      have hlen : (pre ++ [a]).length = pre.length + 1 := by simp
      rw [hlen] at hnext
      have hg1 : vv[pre.length]? = some a := by
        rw [hvv]
        exact getElem?_append_cons pre a (a' :: rest)
      have hg2 : vv[pre.length + 1]? = some a' := by
        have : vv = (pre ++ [a]) ++ a' :: rest := by simp [hvv]
        rw [this, ← hlen]
        exact getElem?_append_cons (pre ++ [a]) a' rest
      have hn : (a :: a' :: rest).length - 1 = ((a' :: rest).length - 1) + 1 := by simp
      rw [hn]
      unfold build_edges_row
      simp only [hg1, hg2]
      cases hedge : gr.edge a a' with
      | none =>
        simp only [hnext]
        simp [build_edges_row_spec, all_pairs_edges, build_edges_entry, hedge]
      | some p =>
        simp only [hnext]
        simp [build_edges_row_spec, all_pairs_edges, build_edges_entry, hedge]

theorem length_build_edges_row_spec (gr : directed_graph) (e2i : List (edge_descriptor × Int))
    (vv : List Int) : (build_edges_row_spec gr e2i vv).length = vv.length - 1 := by
  simp [build_edges_row_spec, List.length_zip]

theorem build_edges_loop_eq (gr : directed_graph) (e2i : List (edge_descriptor × Int))
    (min_router_count : Int) (nodes : List (List Int × Int))
    (hne : ∀ p ∈ nodes, min_router_count ≤ p.2 → p.1 ≠ [])
    (hlen : ∀ p ∈ nodes, p.1.length < 2 ^ 64)
    (edges : List (List Int)) (ecnts : List Int) :
    build_edges_loop gr e2i min_router_count nodes (edges, ecnts) =
      some (edges ++ (build_edges_kept gr min_router_count nodes).map
              (fun p => build_edges_row_spec gr e2i p.1),
        ecnts ++ (build_edges_kept gr min_router_count nodes).map Prod.snd) := by
  induction nodes generalizing edges ecnts with
  | nil => simp [build_edges_loop, build_edges_kept]
  | cons p nodes ih =>
    obtain ⟨vv, c⟩ := p
    have hne' : ∀ p ∈ nodes, min_router_count ≤ p.2 → p.1 ≠ [] :=
      fun p hp => hne p (List.mem_cons_of_mem _ hp)
    have hlen' : ∀ p ∈ nodes, p.1.length < 2 ^ 64 :=
      fun p hp => hlen p (List.mem_cons_of_mem _ hp)
    unfold build_edges_loop
    by_cases hc : c < min_router_count
    · have hc' : ¬ min_router_count ≤ c := by omega
      simp only [hc, if_true, ih hne' hlen']
      simp [build_edges_kept, List.filter_cons, hc']
    · have hc' : min_router_count ≤ c := by omega
      have hvv : vv ≠ [] := hne (vv, c) (List.mem_cons_self _ _) hc'
      have hrow := build_edges_row_eq gr e2i vv vv hvv [] rfl [] true
      rw [← build_edges_bound_eq vv hvv (hlen (vv, c) (List.mem_cons_self _ _))] at hrow
      simp only [List.length_nil, List.nil_append, Bool.true_and] at hrow
      simp only [hc, if_false, hrow, length_build_edges_row_spec]
      by_cases hkeep : all_pairs_edges gr vv = true ∧ 2 ≤ vv.length - 1
      · have h3 : 3 ≤ vv.length := by omega
        simp only [hkeep, and_self, if_true, ih hne' hlen']
        simp [build_edges_kept, List.filter_cons, hc', h3, hkeep.1]
      · simp only [hkeep, if_false, ih hne' hlen']
        have : ¬ (3 ≤ vv.length ∧ all_pairs_edges gr vv = true) := by
          rintro ⟨h3, h4⟩
          exact hkeep ⟨h4, by omega⟩
        by_cases h3 : 3 ≤ vv.length
        · have h4 : all_pairs_edges gr vv = false := by
            cases h : all_pairs_edges gr vv with
            | false => rfl
            | true => exact absurd ⟨h3, h⟩ this
          simp [build_edges_kept, List.filter_cons, hc', h4]
        · simp [build_edges_kept, List.filter_cons, hc', h3]

theorem build_edges_eq (gr : directed_graph) (e2i : List (edge_descriptor × Int))
    (min_router_count : Int) (hs : hyper_set) (hedges : hs.edges = [])
    (hne : ∀ p ∈ hs.nodes, min_router_count ≤ p.2 → p.1 ≠ [])
    (hlen : ∀ p ∈ hs.nodes, p.1.length < 2 ^ 64) :
    build_edges gr e2i min_router_count hs =
      some { hs with
        edges := (build_edges_kept gr min_router_count hs.nodes).map
          (fun p => build_edges_row_spec gr e2i p.1),
        ecnts := hs.ecnts ++ (build_edges_kept gr min_router_count hs.nodes).map Prod.snd } := by
  unfold build_edges
  simp [hedges, build_edges_loop_eq gr e2i min_router_count hs.nodes hne hlen]

theorem has_edge_of_edge (gr : directed_graph) (s t : Int) (e : edge_descriptor)
    (h : gr.edge s t = some e) : gr.has_edge e = true := by
  unfold directed_graph.edge at h
  split at h
  · exact absurd h (by simp)
  · rename_i p hf
    simp only [Option.some.injEq] at h
    have hmem : p ∈ gr.edge_list := List.mem_of_find?_eq_some hf
    unfold directed_graph.has_edge
    exact List.any_eq_true.mpr ⟨p, hmem, by simp [h]⟩

theorem getElem?_zip_tail (vv : List Int) (k : Nat) (s t : Int)
    (hs : vv[k]? = some s) (ht : vv[k + 1]? = some t) :
    (vv.zip vv.tail)[k]? = some (s, t) := by
  induction vv generalizing k with
  | nil => simp at hs
  | cons a vv ih =>
    cases vv with
    | nil => simp at ht
    | cons a' rest =>
      cases k with
      | zero =>
        simp only [List.getElem?_cons_zero, Option.some.injEq, zero_add,
          List.getElem?_cons_succ] at hs ht
        simp [hs, ht]
      | succ k =>
        rw [List.getElem?_cons_succ] at hs ht
        have := ih k hs ht
        simpa using this

/-- Claim C4, as the code has it. Called with `edges` empty and no counted node
sequence empty, `build_edges` emits one row for each stored node sequence `v` whose
count is at least `min_router_count`, which has at least three vertices and whose
adjacent pairs `(v[k], v[k+1])` are all edges of the graph, and no row for any other
sequence; the `k`-th entry of that row is the index `e2i` of the edge
`(v[k], v[k+1])`, and the count of `v` is appended to `ecnts`. When every stored count
is below `min_router_count` there is no row. -/
theorem build_edges_emits_full_rows (gr : directed_graph) (e2i : List (edge_descriptor × Int))
    (min_router_count : Int) (hs : hyper_set) (hedges : hs.edges = [])
    (hne : ∀ p ∈ hs.nodes, min_router_count ≤ p.2 → p.1 ≠ [])
    (hlen : ∀ p ∈ hs.nodes, p.1.length < 2 ^ 64) :
    ∃ hs', build_edges gr e2i min_router_count hs = some hs' ∧
      hs'.edges = (build_edges_kept gr min_router_count hs.nodes).map
        (fun p => build_edges_row_spec gr e2i p.1) ∧
      hs'.ecnts = hs.ecnts ++ (build_edges_kept gr min_router_count hs.nodes).map Prod.snd ∧
      (∀ p ∈ build_edges_kept gr min_router_count hs.nodes, ∀ k s t,
        p.1[k]? = some s → p.1[k + 1]? = some t →
          ∃ e, gr.edge s t = some e ∧
            (build_edges_row_spec gr e2i p.1)[k]? = some (e2i_at e2i e)) ∧
      ((∀ p ∈ hs.nodes, p.2 < min_router_count) → hs'.edges = []) := by
  refine ⟨_, build_edges_eq gr e2i min_router_count hs hedges hne hlen, rfl, rfl, ?_, ?_⟩
  · intro p hp k s t hks hkt
    have hall : all_pairs_edges gr p.1 = true := by
      unfold build_edges_kept at hp
      have := (List.mem_filter.mp hp).2
      simp only [Bool.and_eq_true] at this
      exact this.2
    have hz := getElem?_zip_tail p.1 k s t hks hkt
    have hmem : (s, t) ∈ p.1.zip p.1.tail := List.getElem?_mem hz
    have hsome := List.all_eq_true.mp hall (s, t) hmem
    obtain ⟨e, he⟩ := Option.isSome_iff_exists.mp hsome
    refine ⟨e, he, ?_⟩
    unfold build_edges_row_spec
    rw [List.getElem?_map, hz]
    simp [build_edges_entry] at he ⊢
    simp [he]
  · intro hall
    have : build_edges_kept gr min_router_count hs.nodes = [] := by
      unfold build_edges_kept
      apply List.filter_eq_nil_iff.mpr
      intro p hp
      have := hall p hp
      have h2 : ¬ min_router_count ≤ p.2 := by omega
      simp [h2]
    simp [this]

/-- An instance of `build_edges_emits_full_rows`: of five stored sequences, two give
a row. -/
theorem build_edges_emits_full_rows_witness :
    ∃ hs', build_edges { edge_list := [(11, 1, 2), (12, 2, 3), (13, 3, 5)] }
        [(11, 0), (12, 1), (13, 2)] 1
        { nodes := [([1, 2, 3], 5), ([1, 2, 3, 4], 5), ([1, 2], 4), ([1, 2, 3, 5], 0),
            ([2, 3, 5], 1)],
          edges := [], ecnts := [], e2s := [], edges_to_transform := [] } = some hs' ∧
      hs'.edges = [[0, 1], [1, 2]] ∧ hs'.ecnts = [5, 1] :=
  (build_edges_emits_full_rows { edge_list := [(11, 1, 2), (12, 2, 3), (13, 3, 5)] }
    [(11, 0), (12, 1), (13, 2)] 1
    { nodes := [([1, 2, 3], 5), ([1, 2, 3, 4], 5), ([1, 2], 4), ([1, 2, 3, 5], 0),
        ([2, 3, 5], 1)],
      edges := [], ecnts := [], e2s := [], edges_to_transform := [] }
    rfl (by decide) (by decide)).elim
    (fun hs' h => ⟨hs', h.1, h.2.1, h.2.2.1⟩)

/-- Claim C4 as stated fails: the stored sequence `[1, 2, 3]` has count `5`, at least
`min_router_count = 1`, and three vertices, the graph has the edge `(1, 2)` and no
edge `(2, 3)`; the claim asks for the row `[0, -1]`, and `build_edges` emits no row. -/
theorem build_edges_drops_row_with_missing_edge :
    (1 : Int) ≤ 5 ∧ 3 ≤ [(1 : Int), 2, 3].length ∧
    build_edges_row_spec { edge_list := [(11, 1, 2)] } [(11, 0)] [1, 2, 3] = [0, -1] ∧
    build_edges { edge_list := [(11, 1, 2)] } [(11, 0)] 1
      { nodes := [([1, 2, 3], 5)], edges := [], ecnts := [], e2s := [],
        edges_to_transform := [] } =
      some { nodes := [([1, 2, 3], 5)], edges := [], ecnts := [], e2s := [],
             edges_to_transform := [] } := by
  refine ⟨by decide, by decide, by decide, by decide⟩

/-- Claim C5. After `build_edges`, called with `edges` and `ecnts` empty, non-empty
node sequences and an `e2i` that indexes every edge of the graph, every row of `edges`
has length at least two, every entry of every row is `-1` or the index of an edge of
the graph, and `edges` and `ecnts` have the same length. -/
theorem build_edges_rows_valid (gr : directed_graph) (e2i : List (edge_descriptor × Int))
    (min_router_count : Int) (hs : hyper_set) (hedges : hs.edges = []) (hecnts : hs.ecnts = [])
    (hne : ∀ p ∈ hs.nodes, p.1 ≠ [])
    (hlen : ∀ p ∈ hs.nodes, p.1.length < 2 ^ 64)
    (he2i : ∀ e, gr.has_edge e = true → ∃ i, map_find e2i e = some i) :
    ∃ hs', build_edges gr e2i min_router_count hs = some hs' ∧
      (∀ row ∈ hs'.edges, 2 ≤ row.length ∧
        ∀ a ∈ row, a = -1 ∨ ∃ e, gr.has_edge e = true ∧ map_find e2i e = some a) ∧
      hs'.edges.length = hs'.ecnts.length := by
  refine ⟨_, build_edges_eq gr e2i min_router_count hs hedges (fun p hp _ => hne p hp) hlen,
    ?_, ?_⟩
  · intro row hrow
    simp only [List.mem_map] at hrow
    obtain ⟨p, hp, rfl⟩ := hrow
    unfold build_edges_kept at hp
    have hp2 := (List.mem_filter.mp hp).2
    simp only [Bool.and_eq_true, decide_eq_true_eq] at hp2
    refine ⟨?_, ?_⟩
    · rw [length_build_edges_row_spec]
      omega
    · intro a ha
      unfold build_edges_row_spec at ha
      obtain ⟨st, hst, rfl⟩ := List.mem_map.mp ha
      have hsome := List.all_eq_true.mp hp2.2 st hst
      obtain ⟨e, he⟩ := Option.isSome_iff_exists.mp hsome
      obtain ⟨i, hi⟩ := he2i e (has_edge_of_edge gr st.1 st.2 e he)
      exact Or.inr ⟨e, has_edge_of_edge gr st.1 st.2 e he, by
        simp [build_edges_entry, he, e2i_at, hi]⟩
  · simp [hecnts]

/-- An instance of `build_edges_rows_valid`. -/
theorem build_edges_rows_valid_witness :
    ∃ hs', build_edges { edge_list := [(11, 1, 2), (12, 2, 3), (13, 3, 5)] }
        [(11, 0), (12, 1), (13, 2)] 1
        { nodes := [([1, 2, 3], 5), ([1, 2, 3, 4], 5), ([1, 2], 4), ([2, 3, 5], 1)],
          edges := [], ecnts := [], e2s := [], edges_to_transform := [] } = some hs' ∧
      (∀ row ∈ hs'.edges, 2 ≤ row.length ∧
        ∀ a ∈ row, a = -1 ∨ ∃ e,
          directed_graph.has_edge { edge_list := [(11, 1, 2), (12, 2, 3), (13, 3, 5)] } e = true ∧
            map_find [(11, 0), (12, 1), (13, 2)] e = some a) ∧
      hs'.edges.length = hs'.ecnts.length :=
  build_edges_rows_valid { edge_list := [(11, 1, 2), (12, 2, 3), (13, 3, 5)] }
    [(11, 0), (12, 1), (13, 2)] 1
    { nodes := [([1, 2, 3], 5), ([1, 2, 3, 4], 5), ([1, 2], 4), ([2, 3, 5], 1)],
      edges := [], ecnts := [], e2s := [], edges_to_transform := [] }
    rfl rfl (by decide) (by decide) (by
      intro e he
      have h : 11 = e ∨ 12 = e ∨ 13 = e := by
        simpa [directed_graph.has_edge] using he
      rcases h with h | h | h
      · exact ⟨0, by rw [← h]; rfl⟩
      · exact ⟨1, by rw [← h]; rfl⟩
      · exact ⟨2, by rw [← h]; rfl⟩)

theorem map_find_erase {β : Type} (m : List (Int × β)) (a k : Int) :
    map_find (map_erase m a) k = if k = a then none else map_find m k := by
  induction m with
  | nil => simp [map_erase, map_find]
  | cons p m ih =>
    obtain ⟨k0, v0⟩ := p
    unfold map_erase
    by_cases h1 : k0 = a
    · subst h1
      by_cases h2 : k = k0
      · simpa [h2] using ih
      · simp only [h2, if_false, if_true] at ih ⊢
        simp [map_find, h2, ih]
    · by_cases h2 : k = a
      · subst h2
        have h3 : ¬ k = k0 := fun h => h1 h.symm
        simp only [if_true] at ih ⊢
        simp [h1, map_find, h3, ih]
      · simp only [h2, if_false] at ih ⊢
        by_cases h3 : k = k0
        · simp [h1, map_find, h3]
        · simp [h1, map_find, h3, ih]

theorem remove_scan_fst (e : Int) (k : Nat) (vv : List Int) (fb : List Nat) :
    (remove_scan e k vv fb).1 = remove_row_spec e vv := by
  induction vv generalizing fb with
  | nil => simp [remove_scan, remove_row_spec]
  | cons a vv ih =>
    unfold remove_scan
    by_cases h : a = e
    · simp [h, ih, remove_row_spec]
    · simp [h, ih, remove_row_spec]

theorem remove_row_spec_idem (e : Int) (row : List Int) :
    remove_row_spec e (remove_row_spec e row) = remove_row_spec e row := by
  unfold remove_row_spec
  rw [List.map_map]
  apply List.map_congr_left
  intro a _
  by_cases h : a = e
  · simp [h]
  · simp [h]

theorem remove_row_spec_of_not_mem (e : Int) (row : List Int) (h : e ∉ row ∨ e = -1) :
    remove_row_spec e row = row := by
  unfold remove_row_spec
  conv_rhs => rw [← List.map_id row]
  apply List.map_congr_left
  intro a ha
  by_cases hae : a = e
  · rcases h with h | h
    · exact absurd (hae ▸ ha) h
    · simp [hae, h]
  · simp [hae]

theorem remove_rows_eq (e : Int) (s : List Nat) (edges : List (List Int)) (fb : List Nat)
    (hs : ∀ k ∈ s, ∃ row, edges[k]? = some row ∧ row ≠ []) :
    ∃ edges' fb', remove_rows e s (edges, fb) = some (edges', fb') ∧
      edges'.length = edges.length ∧
      ∀ i, edges'[i]? =
        (edges[i]?).map (fun row => if i ∈ s then remove_row_spec e row else row) := by
  induction s generalizing edges fb with
  | nil => exact ⟨edges, fb, rfl, rfl, by intro i; cases edges[i]? <;> simp⟩
  | cons k s ih =>
    obtain ⟨vv, hvv, hne⟩ := hs k (List.mem_cons_self _ _)
    have hk : k < edges.length := (List.getElem?_eq_some.mp hvv).1
    have hs' : ∀ k' ∈ s, ∃ row,
        (edges.set k (remove_scan e k vv fb).1)[k']? = some row ∧ row ≠ [] := by
      intro k' hk'
      obtain ⟨row, hrow, hrne⟩ := hs k' (List.mem_cons_of_mem _ hk')
      by_cases hkk : k = k'
      · subst hkk
        refine ⟨(remove_scan e k vv fb).1, by simp [hk], ?_⟩
        rw [remove_scan_fst]
        intro h
        apply hne
        simpa [remove_row_spec] using h
      · exact ⟨row, by rw [List.getElem?_set_ne hkk]; exact hrow, hrne⟩
    obtain ⟨edges', fb', h1, h2, h3⟩ :=
      ih (edges.set k (remove_scan e k vv fb).1) (remove_scan e k vv fb).2 hs'
    refine ⟨edges', fb', ?_, ?_, ?_⟩
    · unfold remove_rows
      have hpos : 1 ≤ vv.length := List.length_pos.mpr hne
      simp only [hvv, hpos, not_true_eq_false, if_false]
      exact h1
    · simpa using h2
    · intro i
      rw [h3 i]
      by_cases hki : k = i
      · subst hki
        simp only [List.getElem?_set_self hk, hvv, Option.map_some', List.mem_cons, true_or,
          if_true, remove_scan_fst, remove_row_spec_idem, ite_self]
      · rw [List.getElem?_set_ne hki]
        have : (i ∈ k :: s) ↔ i ∈ s := by
          simp only [List.mem_cons]
          constructor
          · rintro (h | h)
            · exact absurd h.symm hki
            · exact h
          · exact Or.inr
        simp only [this]

/-- Claim C8. For every hyper-set whose index lists, for each edge, the rows containing
it, and every `e`: `remove(e)` returns; every occurrence of `e` in every row has then
been replaced by `-1` and no other entry, no row length and no count has changed;
`e2s` has no key `e`, and what is stored under every other key is unchanged. -/
theorem remove_replaces_by_gap (hs : hyper_set) (e : Int) (hidx : index_lists_rows hs) :
    ∃ hs', remove hs e = some hs' ∧
      hs'.edges = hs.edges.map (remove_row_spec e) ∧
      (∀ (i : Nat) (row : List Int), hs.edges[i]? = some row →
        ∃ row', hs'.edges[i]? = some row' ∧ row'.length = row.length ∧
          ∀ (j : Nat) (a : Int), row[j]? = some a →
            row'[j]? = some (if a = e then -1 else a)) ∧
      hs'.ecnts = hs.ecnts ∧
      map_find hs'.e2s e = none ∧
      ∀ e', e' ≠ e → map_find hs'.e2s e' = map_find hs.e2s e' := by
  have hpoint : ∀ (edges' : List (List Int)), edges' = hs.edges.map (remove_row_spec e) →
      ∀ (i : Nat) (row : List Int), hs.edges[i]? = some row →
        ∃ row', edges'[i]? = some row' ∧ row'.length = row.length ∧
          ∀ (j : Nat) (a : Int), row[j]? = some a →
            row'[j]? = some (if a = e then -1 else a) := by
    intro edges' hedges' i row hrow
    refine ⟨remove_row_spec e row, by simp [hedges', hrow], by simp [remove_row_spec], ?_⟩
    intro j a hj
    simp [remove_row_spec, hj]
  cases hfind : map_find hs.e2s e with
  | none =>
    have hrows : hs.edges = hs.edges.map (remove_row_spec e) := by
      conv_lhs => rw [← List.map_id hs.edges]
      apply List.map_congr_left
      intro row hrow
      symm
      apply remove_row_spec_of_not_mem
      by_cases he : e = -1
      · exact Or.inr he
      · left
        intro hmem
        obtain ⟨i, hi, hget⟩ := List.mem_iff_getElem.mp hrow
        have : e2s_mem hs.e2s e i :=
          (hidx.2 e i).mpr ⟨he, row, by simp [hi, hget], hmem⟩
        obtain ⟨s, hs1, _⟩ := this
        rw [hfind] at hs1
        exact absurd hs1 (by simp)
    refine ⟨hs, by simp [remove, hfind], hrows, hpoint _ hrows, rfl, hfind, fun _ _ => rfl⟩
  | some s =>
    have hvalid : ∀ k ∈ s, ∃ row, hs.edges[k]? = some row ∧ row ≠ [] := by
      intro k hk
      obtain ⟨_, row, hrow, hmem⟩ := (hidx.2 e k).mp ⟨s, hfind, hk⟩
      exact ⟨row, hrow, List.ne_nil_of_mem hmem⟩
    obtain ⟨edges', fb', h1, h2, h3⟩ := remove_rows_eq e s hs.edges [] hvalid
    have hrows : edges' = hs.edges.map (remove_row_spec e) := by
      apply List.ext_getElem?
      intro i
      rw [h3 i, List.getElem?_map]
      cases hrow : hs.edges[i]? with
      | none => rfl
      | some row =>
        by_cases hi : i ∈ s
        · simp [hi]
        · simp only [Option.map_some', hi, if_false, Option.some.injEq]
          symm
          apply remove_row_spec_of_not_mem
          by_cases he : e = -1
          · exact Or.inr he
          · left
            intro hmem
            obtain ⟨s', hs1, hs2⟩ := (hidx.2 e i).mpr ⟨he, row, hrow, hmem⟩
            rw [hfind] at hs1
            simp only [Option.some.injEq] at hs1
            exact hi (hs1 ▸ hs2)
    refine ⟨{ hs with edges := edges',
                      e2s := map_erase (map_put hs.e2s e (erase_all fb' s)) e }, ?_, hrows,
      hpoint _ hrows, rfl, ?_, ?_⟩
    · simp [remove, hfind, h1]
    · simp [map_find_erase]
    · intro e' he'
      simp [map_find_erase, map_find_put, he']

/-- An instance of `remove_replaces_by_gap`, on the index built by `build_index`. -/
theorem remove_replaces_by_gap_witness :
    ∃ hs', remove (build_index example_rows) 2 = some hs' ∧
      hs'.edges = [[1, -1, 3], [1, 4], [-1, 3, -1, 3]] ∧
      hs'.ecnts = [7, 3, 2] ∧
      map_find hs'.e2s 2 = none :=
  (remove_replaces_by_gap (build_index example_rows) 2
    (index_lists_rows_build_index example_rows)).elim
    (fun hs' h => ⟨hs', h.1, h.2.1, h.2.2.2.1, h.2.2.2.2.1⟩)

theorem has_pair_cons_cons (x y a b : Int) (rest : List Int) :
    has_pair x y (a :: b :: rest) ↔ (a = x ∧ b = y) ∨ has_pair x y (b :: rest) := by
  unfold has_pair
  simp only [List.tail_cons, List.zip_cons_cons, List.mem_cons, Prod.mk.injEq]
  constructor
  · rintro (⟨h1, h2⟩ | h)
    · exact Or.inl ⟨h1.symm, h2.symm⟩
    · exact Or.inr h
  · rintro (⟨h1, h2⟩ | h)
    · exact Or.inl ⟨h1.symm, h2.symm⟩
    · exact Or.inr h

theorem count_pairs_cons_cons (x y a b : Int) (rest : List Int) :
    count_pairs x y (a :: b :: rest) =
      if a = x ∧ b = y then count_pairs x y (b :: rest) + 1 else count_pairs x y (b :: rest) :=
  rfl

theorem insert_between_row_spec_cons_cons (x y e a b : Int) (rest : List Int) :
    insert_between_row_spec x y e (a :: b :: rest) =
      if a = x ∧ b = y then a :: e :: insert_between_row_spec x y e (b :: rest)
      else a :: insert_between_row_spec x y e (b :: rest) :=
  rfl

theorem insert_between_row_spec_head (x y e b : Int) (rest : List Int) :
    ∃ rest', insert_between_row_spec x y e (b :: rest) = b :: rest' := by
  cases rest with
  | nil => exact ⟨[], rfl⟩
  | cons c rest2 =>
    rw [insert_between_row_spec_cons_cons]
    by_cases h3 : b = x ∧ c = y
    · exact ⟨_, if_pos h3⟩
    · exact ⟨_, if_neg h3⟩

theorem count_pairs_pos_iff (x y : Int) (row : List Int) :
    0 < count_pairs x y row ↔ has_pair x y row := by
  induction row with
  | nil => simp [count_pairs, has_pair]
  | cons a row ih =>
    cases row with
    | nil => simp [count_pairs, has_pair]
    | cons b rest =>
      rw [has_pair_cons_cons, ← ih, count_pairs_cons_cons]
      by_cases h : a = x ∧ b = y
      · rw [if_pos h]
        exact ⟨fun _ => Or.inl h, fun _ => Nat.succ_pos _⟩
      · rw [if_neg h]
        exact ⟨fun h1 => Or.inr h1, fun h1 => h1.resolve_left h⟩

theorem insert_between_row_spec_of_no_pair (x y e : Int) (row : List Int)
    (h : ¬ has_pair x y row) : insert_between_row_spec x y e row = row := by
  induction row with
  | nil => rfl
  | cons a row ih =>
    cases row with
    | nil => rfl
    | cons b rest =>
      rw [has_pair_cons_cons] at h
      have h1 : ¬ (a = x ∧ b = y) := fun hh => h (Or.inl hh)
      have h2 : ¬ has_pair x y (b :: rest) := fun hh => h (Or.inr hh)
      rw [insert_between_row_spec_cons_cons, if_neg h1, ih h2]

theorem length_insert_between_row_spec (x y e : Int) (row : List Int) :
    (insert_between_row_spec x y e row).length = row.length + count_pairs x y row := by
  induction row with
  | nil => rfl
  | cons a row ih =>
    cases row with
    | nil => rfl
    | cons b rest =>
      rw [insert_between_row_spec_cons_cons, count_pairs_cons_cons]
      by_cases h : a = x ∧ b = y
      · rw [if_pos h, if_pos h]
        simp only [List.length_cons] at ih ⊢
        omega
      · rw [if_neg h, if_neg h]
        simp only [List.length_cons] at ih ⊢
        omega

theorem sublist_insert_between_row_spec (x y e : Int) (row : List Int) :
    row.Sublist (insert_between_row_spec x y e row) := by
  induction row with
  | nil => exact List.Sublist.refl _
  | cons a row ih =>
    cases row with
    | nil => exact List.Sublist.refl _
    | cons b rest =>
      rw [insert_between_row_spec_cons_cons]
      by_cases h : a = x ∧ b = y
      · rw [if_pos h]
        exact List.Sublist.cons₂ _ (List.Sublist.cons _ ih)
      · rw [if_neg h]
        exact List.Sublist.cons₂ _ ih

theorem insert_between_row_spec_ne_nil (x y e : Int) (row : List Int) (h : row ≠ []) :
    insert_between_row_spec x y e row ≠ [] := by
  intro h0
  have := length_insert_between_row_spec x y e row
  rw [h0] at this
  have hpos : 0 < row.length := List.length_pos.mpr h
  simp only [List.length_nil] at this
  omega

theorem no_pair_insert_between_row_spec (x y e : Int) (row : List Int) (hx : e ≠ x)
    (hy : e ≠ y) : ¬ has_pair x y (insert_between_row_spec x y e row) := by
  induction row with
  | nil => simp [insert_between_row_spec, has_pair]
  | cons a row ih =>
    cases row with
    | nil => simp [insert_between_row_spec, has_pair]
    | cons b rest =>
      obtain ⟨rest', h3⟩ := insert_between_row_spec_head x y e b rest
      rw [h3] at ih
      rw [insert_between_row_spec_cons_cons, h3]
      by_cases h : a = x ∧ b = y
      · rw [if_pos h, has_pair_cons_cons, has_pair_cons_cons]
        rintro (⟨_, h2⟩ | ⟨h2, _⟩ | h2)
        · exact hy h2
        · exact hx h2
        · exact ih h2
      · rw [if_neg h, has_pair_cons_cons]
        rintro (h4 | h4)
        · exact h h4
        · exact ih h4

theorem insert_between_scan_eq (x y e : Int) (k : Nat) (hx : e ≠ x) (suf : List Int) :
    ∀ (pre : List Int) (m : List (Int × List Nat)) (fuel : Nat), 2 * suf.length + 1 ≤ fuel →
      insert_between_scan x y e k fuel pre.length (pre ++ suf, m) =
        some (pre ++ insert_between_row_spec x y e suf,
          (fun m => e2s_add m e k)^[if e = -1 then 0 else count_pairs x y suf] m) := by
  induction suf with
  | nil =>
    intro pre m fuel hfuel
    obtain ⟨f, rfl⟩ : ∃ f, fuel = f + 1 := ⟨fuel - 1, by omega⟩
    simp [insert_between_scan, insert_between_row_spec, count_pairs]
  | cons a suf ih =>
    intro pre m fuel hfuel
    obtain ⟨f, rfl⟩ : ∃ f, fuel = f + 1 := ⟨fuel - 1, by omega⟩
    have hpre1 : (pre ++ [a]).length = pre.length + 1 := by simp
    cases suf with
    | nil =>
      have hnext := ih (pre ++ [a]) m f (by simp at hfuel ⊢; omega)
      rw [hpre1] at hnext
      simp only [List.append_nil] at hnext
      rw [insert_between_scan]
      simp only [List.length_append, List.length_singleton, Nat.lt_add_one, if_true,
        Nat.add_sub_cancel, hnext]
      simp [insert_between_row_spec, count_pairs]
    | cons b rest =>
      have hlen : (pre ++ a :: b :: rest).length = pre.length + rest.length + 2 := by
        simp only [List.length_append, List.length_cons]
        omega
      have hg1 : (pre ++ a :: b :: rest)[pre.length]? = some a :=
        getElem?_append_cons pre a (b :: rest)
      have hg2 : (pre ++ a :: b :: rest)[pre.length + 1]? = some b := by
        have : pre ++ a :: b :: rest = (pre ++ [a]) ++ b :: rest := by simp
        rw [this, ← hpre1]
        exact getElem?_append_cons (pre ++ [a]) b rest
      have hsplit : pre ++ a :: b :: rest = (pre ++ [a]) ++ b :: rest := by simp
      have hlt : pre.length < (pre ++ a :: b :: rest).length := by omega
      have hne : ¬ pre.length = (pre ++ a :: b :: rest).length - 1 := by omega
      rw [insert_between_scan]
      simp only [hlt, if_true, hne, if_false, hg1, hg2, ne_eq, Option.some.injEq]
      rw [insert_between_row_spec_cons_cons, count_pairs_cons_cons]
      by_cases hax : a = x
      · by_cases hby : b = y
        · have hab : a = x ∧ b = y := ⟨hax, hby⟩
          simp only [hax, hby, not_true_eq_false, if_false, and_self, if_true]
          subst hax hby
          have htake : List.take (pre.length + 1) (pre ++ a :: b :: rest) = pre ++ [a] := by
            rw [hsplit, ← hpre1, List.take_left']
            rfl
          have hdrop : List.drop (pre.length + 1) (pre ++ a :: b :: rest) = b :: rest := by
            rw [hsplit, ← hpre1, List.drop_left']
            rfl
          rw [htake, hdrop]
          obtain ⟨f', rfl⟩ : ∃ f', f = f' + 1 := ⟨f - 1, by
            simp only [List.length_cons] at hfuel
            omega⟩
          have hvv : pre ++ [a] ++ e :: b :: rest = (pre ++ [a]) ++ e :: b :: rest := rfl
          have hlen2 : (pre ++ [a] ++ e :: b :: rest).length = pre.length + rest.length + 3 := by
            simp only [List.length_append, List.length_cons, List.length_nil]
            omega
          have hge : (pre ++ [a] ++ e :: b :: rest)[pre.length + 1]? = some e := by
            rw [← hpre1]
            exact getElem?_append_cons (pre ++ [a]) e (b :: rest)
          have hlt2 : pre.length + 1 < (pre ++ [a] ++ e :: b :: rest).length := by omega
          have hne2 : ¬ pre.length + 1 = (pre ++ [a] ++ e :: b :: rest).length - 1 := by omega
          have hpre2 : (pre ++ [a, e]).length = pre.length + 1 + 1 := by simp
          have hvv2 : pre ++ [a] ++ e :: b :: rest = (pre ++ [a, e]) ++ b :: rest := by simp
          have hstep : ∀ m', insert_between_scan a b e k (f' + 1) (pre.length + 1)
              (pre ++ [a] ++ e :: b :: rest, m') =
              some (pre ++ [a, e] ++ insert_between_row_spec a b e (b :: rest),
                (fun m => e2s_add m e k)^[if e = -1 then 0 else count_pairs a b (b :: rest)]
                  m') := by
            intro m'
            rw [insert_between_scan]
            simp only [hlt2, if_true, hne2, if_false, hge, ne_eq, Option.some.injEq, hx,
              not_false_eq_true]
            have hnext := ih (pre ++ [a, e]) m' f' (by
              simp only [List.length_cons] at hfuel ⊢
              omega)
            rw [hpre2, ← hvv2] at hnext
            exact hnext
          by_cases he : e = -1
          · simp only [he, if_true] at hstep ⊢
            rw [hstep]
            simp
          · simp only [he, if_false] at hstep ⊢
            rw [hstep, Function.iterate_succ_apply]
            simp
        · have hab : ¬ (a = x ∧ b = y) := fun h => hby h.2
          subst hax
          simp only [hby, not_true_eq_false, not_false_eq_true, if_true, if_false,
            and_false]
          have hnext := ih (pre ++ [a]) m f (by
            simp only [List.length_cons] at hfuel ⊢
            omega)
          rw [hpre1, ← hsplit] at hnext
          rw [hnext]
          simp
      · have hab : ¬ (a = x ∧ b = y) := fun h => hax h.1
        simp only [hax, not_false_eq_true, if_true, false_and, if_false]
        have hnext := ih (pre ++ [a]) m f (by
          simp only [List.length_cons] at hfuel ⊢
          omega)
        rw [hpre1, ← hsplit] at hnext
        rw [hnext]
        simp

theorem map_find_iterate_add (e : Int) (k n : Nat) (m : List (Int × List Nat)) (e' : Int)
    (h : e' ≠ e) : map_find ((fun m => e2s_add m e k)^[n] m) e' = map_find m e' := by
  induction n generalizing m with
  | zero => rfl
  | succ n ih =>
    rw [Function.iterate_succ_apply, ih, map_find_e2s_add, if_neg h]

theorem e2s_mem_iterate_add (e : Int) (k n : Nat) (m : List (Int × List Nat)) (e' : Int)
    (j : Nat) :
    e2s_mem ((fun m => e2s_add m e k)^[n] m) e' j ↔
      e2s_mem m e' j ∨ (0 < n ∧ e' = e ∧ j = k) := by
  induction n generalizing m with
  | zero => simp
  | succ n ih =>
    rw [Function.iterate_succ_apply, ih, e2s_mem_add]
    constructor
    · rintro ((h | h) | ⟨_, h⟩)
      · exact Or.inl h
      · exact Or.inr ⟨Nat.succ_pos _, h⟩
      · exact Or.inr ⟨Nat.succ_pos _, h⟩
    · rintro (h | ⟨_, h⟩)
      · exact Or.inl (Or.inl h)
      · exact Or.inl (Or.inr h)

theorem e2s_sorted_iterate_add (e : Int) (k n : Nat) (m : List (Int × List Nat))
    (h : e2s_sorted m) : e2s_sorted ((fun m => e2s_add m e k)^[n] m) := by
  induction n generalizing m with
  | zero => exact h
  | succ n ih =>
    rw [Function.iterate_succ_apply]
    exact ih _ (e2s_sorted_add m e k h)

theorem insert_between_rows_eq (x y e : Int) (hx : e ≠ x) (fuel : Nat) (s : List Nat)
    (hnd : s.Nodup) :
    ∀ (edges : List (List Int)) (m : List (Int × List Nat)),
      (∀ k ∈ s, ∃ row, edges[k]? = some row ∧ row ≠ [] ∧ 2 * row.length + 1 ≤ fuel) →
      ∃ edges' m', insert_between_rows x y e fuel s (edges, m) = outcome.done (edges', m') ∧
        edges'.length = edges.length ∧
        (∀ i, edges'[i]? = (edges[i]?).map
          (fun row => if i ∈ s then insert_between_row_spec x y e row else row)) ∧
        (e = -1 → m' = m) ∧
        (∀ e', e' ≠ e → map_find m' e' = map_find m e') ∧
        (∀ e' j, e2s_mem m' e' j ↔
          e2s_mem m e' j ∨
            (e' = e ∧ e ≠ -1 ∧ j ∈ s ∧ ∃ row, edges[j]? = some row ∧ has_pair x y row)) ∧
        (e2s_sorted m → e2s_sorted m') := by
  induction s with
  | nil =>
    intro edges m _
    refine ⟨edges, m, rfl, rfl, ?_, fun _ => rfl, fun _ _ => rfl, ?_, fun h => h⟩
    · intro i
      cases edges[i]? <;> simp
    · intro e' j
      simp
  | cons k s ih =>
    intro edges m hrows
    have hk : k ∉ s := (List.nodup_cons.mp hnd).1
    obtain ⟨vv, hvv, hne, hfuel⟩ := hrows k (List.mem_cons_self _ _)
    have hklt : k < edges.length := (List.getElem?_eq_some.mp hvv).1
    have hscan := insert_between_scan_eq x y e k hx vv [] m fuel hfuel
    simp only [List.length_nil, List.nil_append] at hscan
    have hrows' : ∀ k' ∈ s, ∃ row,
        (edges.set k (insert_between_row_spec x y e vv))[k']? = some row ∧ row ≠ [] ∧
          2 * row.length + 1 ≤ fuel := by
      intro k' hk'
      have hkk : k ≠ k' := fun h => hk (h ▸ hk')
      rw [List.getElem?_set_ne hkk]
      exact hrows k' (List.mem_cons_of_mem _ hk')
    obtain ⟨edges', m', h1, h2, h3, h4, h5, h6, h7⟩ :=
      ih (List.nodup_cons.mp hnd).2 (edges.set k (insert_between_row_spec x y e vv))
        ((fun m => e2s_add m e k)^[if e = -1 then 0 else count_pairs x y vv] m) hrows'
    refine ⟨edges', m', ?_, ?_, ?_, ?_, ?_, ?_, ?_⟩
    · rw [insert_between_rows]
      have hpos : 1 ≤ vv.length := List.length_pos.mpr hne
      simp only [hvv, hpos, not_true_eq_false, if_false, hscan]
      exact h1
    · simpa using h2
    · intro i
      rw [h3 i]
      by_cases hki : k = i
      · subst hki
        simp [List.getElem?_set_self hklt, hvv, hk]
      · rw [List.getElem?_set_ne hki]
        have : (i ∈ k :: s) ↔ i ∈ s := by
          simp only [List.mem_cons]
          exact ⟨fun h => h.resolve_left (fun h' => hki h'.symm), Or.inr⟩
        simp only [this]
    · intro he
      rw [h4 he]
      simp [he]
    · intro e' he'
      rw [h5 e' he', map_find_iterate_add e k _ m e' he']
    · intro e' j
      rw [h6 e' j, e2s_mem_iterate_add]
      constructor
      · rintro ((h | ⟨hn, he', hj⟩) | ⟨he', he, hj, row, hrow, hp⟩)
        · exact Or.inl h
        · right
          have he : e ≠ -1 := by
            intro he
            simp [he] at hn
          simp only [he, if_false] at hn
          exact ⟨he', he, hj ▸ List.mem_cons_self _ _, vv, hj ▸ hvv,
            (count_pairs_pos_iff x y vv).mp hn⟩
        · right
          have hkj : k ≠ j := fun h => hk (h ▸ hj)
          rw [List.getElem?_set_ne hkj] at hrow
          exact ⟨he', he, List.mem_cons_of_mem _ hj, row, hrow, hp⟩
      · rintro (h | ⟨he', he, hj, row, hrow, hp⟩)
        · exact Or.inl (Or.inl h)
        · rcases List.mem_cons.mp hj with hj | hj
          · left
            right
            subst hj
            rw [hvv] at hrow
            simp only [Option.some.injEq] at hrow
            subst hrow
            rw [if_neg he]
            exact ⟨(count_pairs_pos_iff x y vv).mpr hp, he', rfl⟩
          · right
            have hkj : k ≠ j := fun h => hk (h ▸ hj)
            exact ⟨he', he, hj, row, by rw [List.getElem?_set_ne hkj]; exact hrow, hp⟩
    · intro hsorted
      exact h7 (e2s_sorted_iterate_add e k _ m hsorted)

theorem get_successors_scan_cons_cons (e c a k : Int) (v : List Int) (s : List (Int × Int)) :
    get_successors_scan e c (a :: k :: v) s =
      if a ≠ e then get_successors_scan e c (k :: v) s
      else if k = -1 then get_successors_scan e c (k :: v) s
      else
        match map_find s k with
        | none => get_successors_scan e c (k :: v) (map_put s k c)
        | some c0 => get_successors_scan e c (k :: v) (map_put s k (int32 (c0 + c))) :=
  rfl

theorem map_find_get_successors_scan (e c y : Int) (v : List Int) :
    ∀ (s : List (Int × Int)), map_find s y = none → ¬ has_pair e y v →
      map_find (get_successors_scan e c v s) y = none := by
  induction v with
  | nil => intro s hs _; simpa [get_successors_scan] using hs
  | cons a v ih =>
    cases v with
    | nil => intro s hs _; simpa [get_successors_scan] using hs
    | cons k rest =>
      intro s hs hp
      rw [has_pair_cons_cons] at hp
      have hp1 : ¬ (a = e ∧ k = y) := fun h => hp (Or.inl h)
      have hp2 : ¬ has_pair e y (k :: rest) := fun h => hp (Or.inr h)
      rw [get_successors_scan_cons_cons]
      by_cases hae : a = e
      · have hky : ¬ y = k := fun h => hp1 ⟨hae, h.symm⟩
        simp only [hae, ne_eq, not_true_eq_false, if_false]
        by_cases hk : k = -1
        · simp only [hk, if_true]
          rw [hk] at hp2 ih
          exact ih s hs hp2
        · simp only [hk, if_false]
          cases hm : map_find s k with
          | none =>
            simp only
            exact ih _ (by rw [map_find_put, if_neg hky]; exact hs) hp2
          | some c0 =>
            simp only
            exact ih _ (by rw [map_find_put, if_neg hky]; exact hs) hp2
      · simp only [ne_eq, hae, not_false_eq_true, if_true]
        exact ih s hs hp2

theorem map_find_get_successors_rows (hs : hyper_set) (e y : Int) (ss : List Nat) :
    ∀ (s succ : List (Int × Int)), get_successors_rows hs e ss s = some succ →
      map_find s y = none → (∀ k ∈ ss, ∀ v, hs.edges[k]? = some v → ¬ has_pair e y v) →
      map_find succ y = none := by
  induction ss with
  | nil =>
    intro s succ h hnone _
    simp only [get_successors_rows, Option.some.injEq] at h
    rw [← h]
    exact hnone
  | cons k ss ih =>
    intro s succ h hnone hrows
    rw [get_successors_rows] at h
    cases hv : hs.edges[k]? with
    | none => simp [hv] at h
    | some v =>
      cases hc : hs.ecnts[k]? with
      | none => simp [hv, hc] at h
      | some c =>
        simp only [hv, hc] at h
        exact ih _ succ h
          (map_find_get_successors_scan e c y v s hnone
            (hrows k (List.mem_cons_self _ _) v hv))
          (fun k' hk' => hrows k' (List.mem_cons_of_mem _ hk'))

theorem get_successors_rows_some (hs : hyper_set) (e : Int) (ss : List Nat)
    (h : ∀ k ∈ ss, k < hs.edges.length ∧ k < hs.ecnts.length) :
    ∀ s : List (Int × Int), ∃ succ, get_successors_rows hs e ss s = some succ := by
  induction ss with
  | nil => exact fun s => ⟨s, rfl⟩
  | cons k ss ih =>
    intro s
    obtain ⟨h1, h2⟩ := h k (List.mem_cons_self _ _)
    rw [get_successors_rows, List.getElem?_eq_getElem h1, List.getElem?_eq_getElem h2]
    exact ih (fun k' hk' => h k' (List.mem_cons_of_mem _ hk')) _

theorem insert_between_eq (fuel : Nat) (hs : hyper_set) (x y e : Int) (hx : e ≠ x)
    (hlisted : listed_rows_exist hs x) (hfuel : ∀ row ∈ hs.edges, 2 * row.length + 1 ≤ fuel) :
    ∃ hs', insert_between fuel hs x y e = outcome.done hs' ∧
      hs'.edges.length = hs.edges.length ∧
      (∀ (i : Nat) (row : List Int), hs.edges[i]? = some row →
        (e2s_mem hs.e2s x i → hs'.edges[i]? = some (insert_between_row_spec x y e row)) ∧
        (¬ e2s_mem hs.e2s x i → hs'.edges[i]? = some row)) ∧
      hs'.ecnts = hs.ecnts ∧
      (e = -1 → hs'.e2s = hs.e2s) ∧
      (∀ e', e' ≠ e → map_find hs'.e2s e' = map_find hs.e2s e') ∧
      (∀ e' i, e2s_mem hs'.e2s e' i ↔
        e2s_mem hs.e2s e' i ∨
          (e' = e ∧ e ≠ -1 ∧ e2s_mem hs.e2s x i ∧
            ∃ row, hs.edges[i]? = some row ∧ has_pair x y row)) ∧
      (e2s_sorted hs.e2s → e2s_sorted hs'.e2s) := by
  cases hfind : map_find hs.e2s x with
  | none =>
    have hno : ∀ i, ¬ e2s_mem hs.e2s x i := by
      rintro i ⟨s, h1, _⟩
      rw [hfind] at h1
      exact absurd h1 (by simp)
    refine ⟨hs, by simp [insert_between, hfind], rfl, ?_, rfl, fun _ => rfl, fun _ _ => rfl, ?_,
      fun h => h⟩
    · intro i row hrow
      exact ⟨fun h => absurd h (hno i), fun _ => hrow⟩
    · intro e' i
      constructor
      · exact Or.inl
      · rintro (h | ⟨_, _, h, _⟩)
        · exact h
        · exact absurd h (hno i)
  | some s =>
    obtain ⟨hsorted, hrows⟩ := hlisted s hfind
    have hnd : s.Nodup := hsorted.imp (fun h => Nat.ne_of_lt h)
    have hmem : ∀ i, e2s_mem hs.e2s x i ↔ i ∈ s := by
      intro i
      constructor
      · rintro ⟨s', h1, h2⟩
        rw [hfind] at h1
        simp only [Option.some.injEq] at h1
        exact h1 ▸ h2
      · exact fun h => ⟨s, hfind, h⟩
    obtain ⟨edges', m', h1, h2, h3, h4, h5, h6, h7⟩ :=
      insert_between_rows_eq x y e hx fuel s hnd hs.edges hs.e2s (by
        intro k hk
        obtain ⟨row, hrow, hne⟩ := hrows k hk
        exact ⟨row, hrow, hne, hfuel row (List.getElem?_mem hrow)⟩)
    refine ⟨{ hs with edges := edges', e2s := m' }, ?_, h2, ?_, rfl, h4, h5, ?_, h7⟩
    · simp [insert_between, hfind, h1]
    · intro i row hrow
      have := h3 i
      rw [hrow] at this
      simp only [Option.map_some'] at this
      constructor
      · intro hi
        rw [this, if_pos ((hmem i).mp hi)]
      · intro hi
        rw [this, if_neg (fun h => hi ((hmem i).mpr h))]
    · intro e' i
      rw [h6 e' i, hmem i]

/-- Claim C10. For all `x`, `y` and every `e` with `e ≠ x`, when the rows listed in
`e2s[x]` exist and are not empty, `insert_between(x, y, e)` returns (the scan of a row
of length `n` takes at most `2 n + 1` rounds); in every row listed in `e2s[x]` it has
inserted `e` at each place where `x` is immediately followed by `y`, the row keeping
its other entries in their order; rows not listed under `x` are unchanged; counts are
unchanged; when `e ≠ -1` exactly the listed rows that had such a place are added to
`e2s[e]`, and nothing else in the index changes. -/
theorem insert_between_inserts (fuel : Nat) (hs : hyper_set) (x y e : Int) (hx : e ≠ x)
    (hlisted : listed_rows_exist hs x) (hfuel : ∀ row ∈ hs.edges, 2 * row.length + 1 ≤ fuel) :
    ∃ hs', insert_between fuel hs x y e = outcome.done hs' ∧
      hs'.edges.length = hs.edges.length ∧
      (∀ (i : Nat) (row : List Int), hs.edges[i]? = some row →
        (e2s_mem hs.e2s x i → hs'.edges[i]? = some (insert_between_row_spec x y e row)) ∧
        (¬ e2s_mem hs.e2s x i → hs'.edges[i]? = some row)) ∧
      (∀ row : List Int, row.Sublist (insert_between_row_spec x y e row) ∧
        (insert_between_row_spec x y e row).length = row.length + count_pairs x y row) ∧
      hs'.ecnts = hs.ecnts ∧
      (e = -1 → hs'.e2s = hs.e2s) ∧
      (∀ e', e' ≠ e → map_find hs'.e2s e' = map_find hs.e2s e') ∧
      (∀ i, e2s_mem hs'.e2s e i ↔
        e2s_mem hs.e2s e i ∨
          (e ≠ -1 ∧ e2s_mem hs.e2s x i ∧
            ∃ row, hs.edges[i]? = some row ∧ has_pair x y row)) := by
  obtain ⟨hs', h1, h2, h3, h4, h5, h6, h7, _⟩ := insert_between_eq fuel hs x y e hx hlisted hfuel
  refine ⟨hs', h1, h2, h3, ?_, h4, h5, h6, ?_⟩
  · exact fun row => ⟨sublist_insert_between_row_spec x y e row,
      length_insert_between_row_spec x y e row⟩
  · intro i
    rw [h7 e i]
    constructor
    · rintro (h | ⟨_, h⟩)
      · exact Or.inl h
      · exact Or.inr h
    · rintro (h | h)
      · exact Or.inl h
      · exact Or.inr ⟨rfl, h⟩

theorem listed_rows_exist_of_index (hs : hyper_set) (x : Int) (hidx : index_lists_rows hs) :
    listed_rows_exist hs x := by
  intro s hfind
  refine ⟨hidx.1 x s hfind, ?_⟩
  intro k hk
  obtain ⟨_, row, hrow, hmem⟩ := (hidx.2 x k).mp ⟨s, hfind, hk⟩
  exact ⟨row, hrow, List.ne_nil_of_mem hmem⟩

theorem mem_of_has_pair (x y : Int) (row : List Int) (h : has_pair x y row) : x ∈ row :=
  (List.of_mem_zip h).1

/-- An instance of `insert_between_inserts`: `8` is inserted between `2` and `3`. -/
theorem insert_between_inserts_witness :
    ∃ hs', insert_between 100 (build_index example_rows) 2 3 8 = outcome.done hs' ∧
      hs'.edges.length = 3 ∧ hs'.edges[2]? = some [2, 8, 3, 2, 8, 3] ∧
      hs'.edges[1]? = some [1, 4] ∧ hs'.ecnts = [7, 3, 2] :=
  (insert_between_inserts 100 (build_index example_rows) 2 3 8 (by decide)
    (listed_rows_exist_of_index _ 2 (index_lists_rows_build_index example_rows))
    (by decide)).elim
    (fun hs' h => ⟨hs', h.1, h.2.1,
      (h.2.2.1 2 [2, 3, 2, 3] rfl).1 ⟨[0, 2], rfl, by decide⟩,
      (h.2.2.1 1 [1, 4] rfl).2 (by
        rintro ⟨s, h1, h2⟩
        have h3 : map_find (build_index example_rows).e2s 2 = some [0, 2] := rfl
        rw [h3] at h1
        simp only [Option.some.injEq] at h1
        rw [← h1] at h2
        exact absurd h2 (by decide)),
      h.2.2.2.2.1⟩)

/-- Claim C9. For every hyper-set whose index lists, for each edge, the rows containing
it, and all `x, y ≥ 0`: `remove_pair(x, y)` returns; afterwards no row contains `x`
immediately followed by `y`, so that `get_successors(x)`, which returns when there are
as many counts as rows, has no key `y`; every row is the old row with one `-1`
inserted between each formerly adjacent pair `(x, y)`, so the old row is what is left
when the inserted entries are deleted, and the row has grown by the number of those
pairs; `e2s` and all counts are unchanged. -/
theorem remove_pair_severs (fuel : Nat) (hs : hyper_set) (x y : Int)
    (hidx : index_lists_rows hs) (hx : 0 ≤ x) (hy : 0 ≤ y)
    (hfuel : ∀ row ∈ hs.edges, 2 * row.length + 1 ≤ fuel) :
    ∃ hs', remove_pair fuel hs x y = outcome.done hs' ∧
      (∀ row' ∈ hs'.edges, ¬ has_pair x y row') ∧
      (∀ succ, get_successors hs' x = some succ → map_find succ y = none) ∧
      (hs.ecnts.length = hs.edges.length → ∃ succ, get_successors hs' x = some succ) ∧
      hs'.edges = hs.edges.map (insert_between_row_spec x y (-1)) ∧
      (∀ row ∈ hs.edges, row.Sublist (insert_between_row_spec x y (-1) row) ∧
        (insert_between_row_spec x y (-1) row).length = row.length + count_pairs x y row) ∧
      hs'.e2s = hs.e2s ∧
      hs'.ecnts = hs.ecnts := by
  have hex : (-1 : Int) ≠ x := by omega
  have hey : (-1 : Int) ≠ y := by omega
  obtain ⟨hs', h1, h2, h3, h4, h5, _, _, _⟩ :=
    insert_between_eq fuel hs x y (-1) hex (listed_rows_exist_of_index hs x hidx) hfuel
  have hedges : hs'.edges = hs.edges.map (insert_between_row_spec x y (-1)) := by
    apply List.ext_getElem?
    intro i
    rw [List.getElem?_map]
    cases hrow : hs.edges[i]? with
    | none =>
      have : hs.edges.length ≤ i := List.getElem?_eq_none_iff.mp hrow
      simp only [Option.map_none']
      exact List.getElem?_eq_none_iff.mpr (by omega)
    | some row =>
      simp only [Option.map_some']
      by_cases hi : e2s_mem hs.e2s x i
      · exact (h3 i row hrow).1 hi
      · rw [(h3 i row hrow).2 hi]
        have hnp : ¬ has_pair x y row := by
          intro hp
          exact hi ((hidx.2 x i).mpr ⟨fun h => hex h.symm, row, hrow, mem_of_has_pair x y row hp⟩)
        rw [insert_between_row_spec_of_no_pair x y (-1) row hnp]
  have hnopair : ∀ row' ∈ hs'.edges, ¬ has_pair x y row' := by
    intro row' hrow'
    rw [hedges] at hrow'
    obtain ⟨row, _, rfl⟩ := List.mem_map.mp hrow'
    exact no_pair_insert_between_row_spec x y (-1) row hex hey
  refine ⟨hs', h1, hnopair, ?_, ?_, hedges, ?_, h5 rfl, h4⟩
  · intro succ hsucc
    unfold get_successors at hsucc
    cases hfind : map_find hs'.e2s x with
    | none =>
      simp only [hfind, Option.some.injEq] at hsucc
      rw [← hsucc]
      rfl
    | some ss =>
      simp only [hfind] at hsucc
      exact map_find_get_successors_rows hs' x y ss [] succ hsucc rfl
        (fun k _ v hv => hnopair v (List.getElem?_mem hv))
  · intro hlen
    unfold get_successors
    cases hfind : map_find hs'.e2s x with
    | none => exact ⟨[], rfl⟩
    | some ss =>
      simp only
      apply get_successors_rows_some
      intro k hk
      rw [h5 rfl] at hfind
      obtain ⟨_, row, hrow, _⟩ := (hidx.2 x k).mp ⟨ss, hfind, hk⟩
      have hk1 : k < hs.edges.length := (List.getElem?_eq_some.mp hrow).1
      rw [h2, h4]
      exact ⟨hk1, by omega⟩
  · exact fun row _ => ⟨sublist_insert_between_row_spec x y (-1) row,
      length_insert_between_row_spec x y (-1) row⟩

/-- An instance of `remove_pair_severs`: the pair `(2, 3)` is severed in two rows. -/
theorem remove_pair_severs_witness :
    ∃ hs', remove_pair 100 (build_index example_rows) 2 3 = outcome.done hs' ∧
      hs'.edges = [[1, 2, -1, 3], [1, 4], [2, -1, 3, 2, -1, 3]] ∧
      hs'.e2s = (build_index example_rows).e2s ∧
      hs'.ecnts = [7, 3, 2] :=
  (remove_pair_severs 100 (build_index example_rows) 2 3
    (index_lists_rows_build_index example_rows) (by decide) (by decide) (by decide)).elim
    (fun hs' h => ⟨hs', h.1, h.2.2.2.2.1, h.2.2.2.2.2.2.1, h.2.2.2.2.2.2.2⟩)

/-- An instance of `build_index_lists_rows`: row `2` is listed under edge `2`. -/
theorem build_index_lists_rows_witness :
    (2 : Int) ≠ -1 ∧
    (e2s_mem (build_index example_rows).e2s 2 2 ↔
      ∃ row, (build_index example_rows).edges[2]? = some row ∧ (2 : Int) ∈ row) :=
  ⟨by decide, (build_index_lists_rows example_rows).1 2 2 (by decide)⟩

theorem consecutive_subset_inner_iff (ref x : List Int) (k n : Nat) :
    ∀ j, consecutive_subset_inner ref x k n j = true ↔
      ∀ j', j ≤ j' → j' < j + n → x[j']? = ref[j' + k]? := by
  induction n with
  | zero =>
    intro j
    simp only [consecutive_subset_inner, true_iff]
    intro j' h1 h2
    omega
  | succ n ih =>
    intro j
    rw [consecutive_subset_inner]
    by_cases h : x[j]? = ref[j + k]?
    · simp only [ne_eq, h, not_true_eq_false, if_false, ih (j + 1)]
      constructor
      · intro h1 j' h2 h3
        by_cases hj : j' = j
        · rw [hj]; exact h
        · exact h1 j' (by omega) (by omega)
      · intro h1 j' h2 h3
        exact h1 j' (by omega) (by omega)
    · simp only [ne_eq, h, not_false_eq_true, if_true, Bool.false_eq_true, false_iff]
      intro h1
      exact h (h1 j (Nat.le_refl _) (by omega))

theorem consecutive_subset_outer_eq (ref x : List Int) (n : Nat) :
    ∀ (i : Nat) (v : List Nat), consecutive_subset_outer ref x n i v =
      v ++ (List.range' i n).filter
        (fun i => decide (ref[i]? = x[0]?) && consecutive_subset_inner ref x i x.length 0) := by
  induction n with
  | zero => intro i v; simp [consecutive_subset_outer]
  | succ n ih =>
    intro i v
    rw [consecutive_subset_outer, List.range'_succ]
    by_cases h1 : ref[i]? = x[0]?
    · by_cases h2 : consecutive_subset_inner ref x i x.length 0 = true
      · simp [h1, h2, ih, List.filter_cons]
      · simp only [Bool.not_eq_true] at h2
        simp [h1, h2, ih, List.filter_cons]
    · simp [h1, ih, List.filter_cons]

theorem mem_consecutive_subset (ref x : List Int) (b : Nat) :
    b ∈ consecutive_subset ref x ↔
      x ≠ [] ∧ b + x.length ≤ ref.length ∧ ∀ j, j < x.length → x[j]? = ref[j + b]? := by
  unfold consecutive_subset
  by_cases h1 : x.length = 0
  · have : x = [] := List.length_eq_zero.mp h1
    simp [this]
  · have hx : x ≠ [] := fun h => h1 (by simp [h])
    by_cases h2 : ref.length = 0
    · simp only [h1, if_false, h2, if_true, List.not_mem_nil, false_iff]
      rintro ⟨_, h, _⟩
      omega
    · by_cases h3 : x.length > ref.length
      · simp only [h1, if_false, h2, h3, if_true, List.not_mem_nil, false_iff]
        rintro ⟨_, h, _⟩
        omega
      · simp only [h1, if_false, h2, h3, consecutive_subset_outer_eq, List.nil_append,
          List.mem_filter, List.mem_range'_1, Bool.and_eq_true, decide_eq_true_eq,
          consecutive_subset_inner_iff]
        constructor
        · rintro ⟨⟨_, h4⟩, _, h5⟩
          exact ⟨hx, by omega, fun j hj => h5 j (Nat.zero_le _) (by omega)⟩
        · rintro ⟨_, h4, h5⟩
          refine ⟨⟨Nat.zero_le _, by omega⟩, ?_, fun j _ hj => h5 j (by omega)⟩
          have := h5 0 (by omega)
          simpa using this.symm

theorem nodup_consecutive_subset (ref x : List Int) : (consecutive_subset ref x).Nodup := by
  unfold consecutive_subset
  by_cases h1 : x.length = 0
  · simp [h1]
  · by_cases h2 : ref.length = 0
    · simp [h1, h2]
    · by_cases h3 : x.length > ref.length
      · simp [h1, h2, h3]
      · simp only [h1, if_false, h2, h3, consecutive_subset_outer_eq, List.nil_append]
        exact (List.nodup_range' 0 _).filter _

theorem mem_consecutive_subset_of_append (x pre post : List Int) (hx : x ≠ []) :
    pre.length ∈ consecutive_subset (pre ++ x ++ post) x := by
  rw [mem_consecutive_subset]
  refine ⟨hx, by simp only [List.length_append]; omega, ?_⟩
  intro j hj
  rw [List.append_assoc, List.getElem?_append_right (by omega)]
  have : j + pre.length - pre.length = j := by omega
  rw [this, List.getElem?_append_left hj]

theorem append_of_mem_consecutive_subset (ref x : List Int) (b : Nat)
    (h : b ∈ consecutive_subset ref x) :
    ref = ref.take b ++ x ++ ref.drop (b + x.length) := by
  obtain ⟨_, h1, h2⟩ := (mem_consecutive_subset ref x b).mp h
  have hx : (ref.drop b).take x.length = x := by
    apply List.ext_getElem?
    intro j
    by_cases hj : j < x.length
    · rw [List.getElem?_take_of_lt hj, List.getElem?_drop, h2 j hj]
      congr 1
      omega
    · rw [List.getElem?_take_eq_none (by omega)]
      symm
      exact List.getElem?_eq_none_iff.mpr (by omega)
  calc ref = ref.take b ++ ref.drop b := (List.take_append_drop b ref).symm
    _ = ref.take b ++ ((ref.drop b).take x.length ++ (ref.drop b).drop x.length) := by
      rw [List.take_append_drop x.length (ref.drop b)]
    _ = ref.take b ++ x ++ ref.drop (b + x.length) := by
      rw [hx, List.drop_drop, List.append_assoc]

theorem replace_row_of_append (v : List Int) (e : Int) (pre post : List Int) (hv : v ≠ [])
    (hone : (consecutive_subset (pre ++ v ++ post) v).length ≤ 1) :
    replace_row v e (pre ++ v ++ post) = pre ++ e :: post := by
  have hmem := mem_consecutive_subset_of_append v pre post hv
  have hbv : consecutive_subset (pre ++ v ++ post) v = [pre.length] := by
    cases hc : consecutive_subset (pre ++ v ++ post) v with
    | nil => rw [hc] at hmem; exact absurd hmem (List.not_mem_nil _)
    | cons b rest =>
      rw [hc] at hmem hone
      cases rest with
      | nil =>
        simp only [List.mem_singleton] at hmem
        rw [hmem]
      | cons c rest' =>
        simp only [List.length_cons] at hone
        omega
  unfold replace_row
  rw [hbv]
  simp only
  obtain ⟨a, v', rfl⟩ := List.exists_cons_of_ne_nil hv
  have hset : (pre ++ a :: v' ++ post).set pre.length e = pre ++ e :: v' ++ post := by
    rw [List.append_assoc, List.set_append_right _ _ (Nat.le_refl _)]
    simp
  rw [hset]
  have htake : List.take (pre.length + 1) (pre ++ e :: v' ++ post) = pre ++ [e] := by
    have : pre ++ e :: v' ++ post = (pre ++ [e]) ++ (v' ++ post) := by simp
    rw [this, List.take_left' (by simp)]
  have hdrop : List.drop (pre.length + (a :: v').length) (pre ++ e :: v' ++ post) = post := by
    have : pre ++ e :: v' ++ post = (pre ++ e :: v') ++ post := by simp
    rw [this, List.drop_left' (by simp)]
  rw [htake, hdrop]
  simp

theorem replace_row_of_not_infix (v : List Int) (e : Int) (row : List Int)
    (h : ¬ v <:+: row) : replace_row v e row = row := by
  unfold replace_row
  cases hc : consecutive_subset row v with
  | nil => rfl
  | cons b rest =>
    exfalso
    apply h
    have hmem : b ∈ consecutive_subset row v := by
      rw [hc]
      exact List.mem_cons_self _ _
    exact ⟨row.take b, row.drop (b + v.length),
      (append_of_mem_consecutive_subset row v b hmem).symm⟩

theorem length_consecutive_subset_le_one (seq row : List Int) (h : at_most_once seq row) :
    (consecutive_subset row seq).length ≤ 1 := by
  have hnd := nodup_consecutive_subset row seq
  cases hc : consecutive_subset row seq with
  | nil => simp
  | cons b rest =>
    cases rest with
    | nil => simp
    | cons c rest' =>
      exfalso
      rw [hc] at hnd
      have hb : b ∈ consecutive_subset row seq := by rw [hc]; simp
      have hcm : c ∈ consecutive_subset row seq := by rw [hc]; simp
      have hb1 := (mem_consecutive_subset row seq b).mp hb
      have hc1 := (mem_consecutive_subset row seq c).mp hcm
      have h1 := h _ _ _ _ (append_of_mem_consecutive_subset row seq b hb)
        (append_of_mem_consecutive_subset row seq c hcm)
      rw [List.length_take, List.length_take] at h1
      have hbc : b = c := by
        have := hb1.2.1
        have := hc1.2.1
        omega
      rw [hbc] at hnd
      simp at hnd

theorem replace_rows_eq (v : List Int) (e : Int) (s : List Nat) (hnd : s.Nodup) :
    ∀ (edges : List (List Int)) (m : List (Int × List Nat)) (fb : List Nat),
      (∀ k ∈ s, ∃ row, edges[k]? = some row ∧ (consecutive_subset row v).length ≤ 1) →
      ∃ edges' m' fb', replace_rows v e s (edges, m, fb) = some (edges', m', fb') ∧
        edges'.length = edges.length ∧
        ∀ i, edges'[i]? =
          (edges[i]?).map (fun row => if i ∈ s then replace_row v e row else row) := by
  induction s with
  | nil =>
    intro edges m fb _
    refine ⟨edges, m, fb, rfl, rfl, ?_⟩
    intro i
    cases edges[i]? <;> simp
  | cons k s ih =>
    intro edges m fb hrows
    have hk : k ∉ s := (List.nodup_cons.mp hnd).1
    obtain ⟨vv, hvv, hone⟩ := hrows k (List.mem_cons_self _ _)
    have hklt : k < edges.length := (List.getElem?_eq_some.mp hvv).1
    have hmemk : ∀ i, k ≠ i → ((i ∈ k :: s) ↔ i ∈ s) := by
      intro i hki
      simp only [List.mem_cons]
      exact ⟨fun h => h.resolve_left (fun h' => hki h'.symm), Or.inr⟩
    rw [replace_rows]
    simp only [hvv]
    cases hbv : consecutive_subset vv v with
    | nil =>
      obtain ⟨edges', m', fb', h1, h2, h3⟩ := ih (List.nodup_cons.mp hnd).2 edges m fb
        (fun k' hk' => hrows k' (List.mem_cons_of_mem _ hk'))
      refine ⟨edges', m', fb', by simpa using h1, h2, ?_⟩
      intro i
      rw [h3 i]
      by_cases hki : k = i
      · subst hki
        simp [hvv, hk, replace_row, hbv]
      · simp only [hmemk i hki]
    | cons b rest =>
      rw [hbv] at hone
      have hrest : rest = [] := by
        cases rest with
        | nil => rfl
        | cons c rest' =>
          simp only [List.length_cons] at hone
          omega
      subst hrest
      have hrows' : ∀ k' ∈ s, ∃ row,
          (edges.set k ((vv.set b e).take (b + 1) ++ (vv.set b e).drop (b + v.length)))[k']? =
            some row ∧ (consecutive_subset row v).length ≤ 1 := by
        intro k' hk'
        have hkk : k ≠ k' := fun h => hk (h ▸ hk')
        rw [List.getElem?_set_ne hkk]
        exact hrows k' (List.mem_cons_of_mem _ hk')
      obtain ⟨edges', m', fb', h1, h2, h3⟩ := ih (List.nodup_cons.mp hnd).2
        (edges.set k ((vv.set b e).take (b + 1) ++ (vv.set b e).drop (b + v.length)))
        (e2s_add m e k) (fb ++ [k]) hrows'
      refine ⟨edges', m', fb', by simpa using h1, by simpa using h2, ?_⟩
      intro i
      rw [h3 i]
      by_cases hki : k = i
      · subst hki
        simp [List.getElem?_set_self hklt, hvv, hk, replace_row, hbv]
      · rw [List.getElem?_set_ne hki]
        simp only [hmemk i hki]

theorem get_intersection_loop_eq (e2s : List (Int × List Nat)) (v : List Int)
    (hv : ∀ u ∈ v, 0 ≤ u) :
    ∀ ss, ∃ s, get_intersection_loop e2s v ss = some s ∧ s.Sublist ss ∧
      ∀ i, i ∈ ss → (∀ u ∈ v, e2s_mem e2s u i) → i ∈ s := by
  induction v with
  | nil => exact fun ss => ⟨ss, rfl, List.Sublist.refl _, fun i hi _ => hi⟩
  | cons u v ih =>
    intro ss
    have hu : 0 ≤ u := hv u (List.mem_cons_self _ _)
    rw [get_intersection_loop]
    simp only [hu, not_true_eq_false, if_false]
    cases hfind : map_find e2s u with
    | none =>
      refine ⟨[], rfl, List.nil_sublist _, ?_⟩
      intro i _ hall
      obtain ⟨s0, h1, _⟩ := hall u (List.mem_cons_self _ _)
      rw [hfind] at h1
      exact absurd h1 (by simp)
    | some s0 =>
      obtain ⟨s, h1, h2, h3⟩ := ih (fun u' hu' => hv u' (List.mem_cons_of_mem _ hu'))
        (ss.filter (fun i => decide (i ∈ s0)))
      refine ⟨s, h1, h2.trans (List.filter_sublist _), ?_⟩
      intro i hi hall
      apply h3 i
      · obtain ⟨s1, h4, h5⟩ := hall u (List.mem_cons_self _ _)
        rw [hfind] at h4
        simp only [Option.some.injEq] at h4
        subst h4
        exact List.mem_filter.mpr ⟨hi, by simpa using h5⟩
      · exact fun u' hu' => hall u' (List.mem_cons_of_mem _ hu')

theorem get_intersection_eq (hs : hyper_set) (v : List Int) (hne : v ≠ [])
    (hv : ∀ u ∈ v, 0 ≤ u) (hsorted : e2s_sorted hs.e2s) :
    ∃ s, get_intersection hs v = some s ∧ s.Nodup ∧
      (∀ i ∈ s, ∃ u ∈ v, e2s_mem hs.e2s u i) ∧
      ∀ i, (∀ u ∈ v, e2s_mem hs.e2s u i) → i ∈ s := by
  obtain ⟨v0, rest, rfl⟩ := List.exists_cons_of_ne_nil hne
  have hv0 : 0 ≤ v0 := hv v0 (List.mem_cons_self _ _)
  rw [get_intersection]
  simp only [hv0, not_true_eq_false, if_false]
  cases hfind : map_find hs.e2s v0 with
  | none =>
    refine ⟨[], rfl, List.nodup_nil, fun i hi => absurd hi (List.not_mem_nil _), ?_⟩
    intro i hall
    obtain ⟨s0, h1, _⟩ := hall v0 (List.mem_cons_self _ _)
    rw [hfind] at h1
    exact absurd h1 (by simp)
  | some ss =>
    obtain ⟨s, h1, h2, h3⟩ := get_intersection_loop_eq hs.e2s rest
      (fun u' hu' => hv u' (List.mem_cons_of_mem _ hu')) ss
    have hnd : ss.Nodup := (hsorted v0 ss hfind).imp (fun h => Nat.ne_of_lt h)
    refine ⟨s, h1, hnd.sublist h2, ?_, ?_⟩
    · intro i hi
      exact ⟨v0, List.mem_cons_self _ _, ss, hfind, h2.subset hi⟩
    · intro i hall
      apply h3 i
      · obtain ⟨s1, h4, h5⟩ := hall v0 (List.mem_cons_self _ _)
        rw [hfind] at h4
        simp only [Option.some.injEq] at h4
        exact h4 ▸ h5
      · exact fun u' hu' => hall u' (List.mem_cons_of_mem _ hu')

/-- Claim C7. For every hyper-set whose index lists, for each edge, the rows containing
it, every non-empty sequence `seq` of non-negative edge indices and every `e`, when no
row contains `seq` consecutively more than once: `replace(seq, e)` returns; each row
that contained `seq` as a consecutive sub-sequence is the old row with that occurrence
collapsed to the single entry `e`, every row that did not contain `seq` consecutively
is unchanged, and the number of rows and all counts are unchanged. -/
theorem replace_collapses (hs : hyper_set) (seq : List Int) (e : Int)
    (hidx : index_lists_rows hs) (hne : seq ≠ []) (hnonneg : ∀ u ∈ seq, 0 ≤ u)
    (honce : ∀ row ∈ hs.edges, at_most_once seq row) :
    ∃ hs', replace hs seq e = some hs' ∧
      hs'.edges.length = hs.edges.length ∧
      (∀ (i : Nat) (row : List Int), hs.edges[i]? = some row →
        (∀ pre post : List Int, row = pre ++ seq ++ post →
          hs'.edges[i]? = some (pre ++ e :: post) ∧
          (pre ++ e :: post).length + (seq.length - 1) = row.length) ∧
        (¬ seq <:+: row → hs'.edges[i]? = some row)) ∧
      hs'.ecnts = hs.ecnts := by
  obtain ⟨s, hs1, hs2, hs3, hs4⟩ := get_intersection_eq hs seq hne hnonneg hidx.1
  have hrows : ∀ k ∈ s, ∃ row, hs.edges[k]? = some row ∧
      (consecutive_subset row seq).length ≤ 1 := by
    intro k hk
    obtain ⟨u, _, hmem⟩ := hs3 k hk
    obtain ⟨_, row, hrow, _⟩ := (hidx.2 u k).mp hmem
    exact ⟨row, hrow, length_consecutive_subset_le_one seq row
      (honce row (List.getElem?_mem hrow))⟩
  obtain ⟨edges', m', fb', h1, h2, h3⟩ := replace_rows_eq seq e s hs2 hs.edges hs.e2s [] hrows
  have hlen : ¬ seq.length = 0 := fun h => hne (List.length_eq_zero.mp h)
  refine ⟨{ hs with edges := edges', e2s := replace_unindex fb' seq m' }, ?_, h2, ?_, rfl⟩
  · simp [replace, hlen, hs1, h1]
  · intro i row hrow
    have hi := h3 i
    rw [hrow] at hi
    simp only [Option.map_some'] at hi
    constructor
    · intro pre post hdec
      have hin : i ∈ s := by
        apply hs4
        intro u hu
        refine (hidx.2 u i).mpr ⟨?_, row, hrow, ?_⟩
        · have := hnonneg u hu
          omega
        · rw [hdec]
          simp [hu]
      have hone := length_consecutive_subset_le_one seq row (honce row (List.getElem?_mem hrow))
      refine ⟨?_, ?_⟩
      · show edges'[i]? = _
        rw [hi, if_pos hin]
        rw [hdec] at hone ⊢
        rw [replace_row_of_append seq e pre post hne hone]
      · rw [hdec]
        have : 0 < seq.length := List.length_pos.mpr hne
        simp only [List.length_append, List.length_cons]
        omega
    · intro hni
      show edges'[i]? = _
      rw [hi, replace_row_of_not_infix seq e row hni]
      simp

/-- An instance of `replace_collapses`: the sequence `[1, 2]` is collapsed to `9` in
the one row that contains it. -/
theorem replace_collapses_witness :
    ∃ hs', replace (build_index example_rows) [1, 2] 9 = some hs' ∧
      hs'.edges.length = 3 ∧ hs'.edges[0]? = some [9, 3] ∧ hs'.ecnts = [7, 3, 2] :=
  (replace_collapses (build_index example_rows) [1, 2] 9
    (index_lists_rows_build_index example_rows) (by decide) (by decide) (by
      intro row hrow
      have hrow' : row = [1, 2, 3] ∨ row = [1, 4] ∨ row = [2, 3, 2, 3] := by
        simpa [build_index, example_rows] using hrow
      have hkey : ∀ r : List Int, (consecutive_subset r [1, 2]).length ≤ 1 →
          at_most_once [1, 2] r := by
        intro r hr pre post pre' post' h1 h2
        have hm1 : pre.length ∈ consecutive_subset r [1, 2] := by
          rw [h1]
          exact mem_consecutive_subset_of_append [1, 2] pre post (by decide)
        have hm2 : pre'.length ∈ consecutive_subset r [1, 2] := by
          rw [h2]
          exact mem_consecutive_subset_of_append [1, 2] pre' post' (by decide)
        cases hc : consecutive_subset r [1, 2] with
        | nil => rw [hc] at hm1; exact absurd hm1 (List.not_mem_nil _)
        | cons b rest =>
          rw [hc] at hm1 hm2 hr
          cases rest with
          | nil =>
            simp only [List.mem_singleton] at hm1 hm2
            omega
          | cons c rest' =>
            simp only [List.length_cons] at hr
            omega
      rcases hrow' with rfl | rfl | rfl <;> exact hkey _ (by decide))).elim
    (fun hs' h => ⟨hs', h.1, h.2.1,
      ((h.2.2.1 0 [1, 2, 3] rfl).1 [] [3] rfl).1, h.2.2.2⟩)

theorem wt_set (l : List ℚ) (i j : Nat) (a : ℚ) :
    wt (l.set i a) j = if i = j ∧ i < l.length then a else wt l j := by
  unfold wt
  by_cases hij : i = j
  · subst hij
    by_cases hi : i < l.length
    · simp [List.getD_eq_getElem?_getD, List.getElem?_set_self hi, hi]
    · have h1 : l.set i a = l := by
        apply List.ext_getElem?
        intro k
        by_cases hk : i = k
        · subst hk
          rw [List.getElem?_eq_none_iff.mpr (by simpa using hi),
            List.getElem?_eq_none_iff.mpr (by simpa using hi)]
        · rw [List.getElem?_set_ne hk]
      simp [h1, hi]
  · simp [List.getD_eq_getElem?_getD, List.getElem?_set_ne hij, hij]

theorem lt_length_of_wt_ne_zero (l : List ℚ) (d : Nat) (h : wt l d ≠ 0) : d < l.length := by
  by_contra hge
  apply h
  unfold wt
  exact List.getD_eq_default _ _ (by omega)

theorem wt_set_if_neg (l : List ℚ) (a d : Nat) (c : ℚ) :
    wt (if wt l a < 0 then l.set a c else l) d =
      if a = d ∧ wt l a < 0 then c else wt l d := by
  by_cases h : wt l a < 0
  · rw [if_pos h, wt_set]
    have hlt : a < l.length := lt_length_of_wt_ne_zero l a (ne_of_lt h)
    by_cases had : a = d
    · rw [if_pos ⟨had, hlt⟩, if_pos ⟨had, h⟩]
    · rw [if_neg (fun hh => had hh.1), if_neg (fun hh => had hh.1)]
  · rw [if_neg h, if_neg (fun hh => h hh.2)]

theorem split_edges_wt (gr : splice_graph) (r : ℚ) (ds : List Nat) :
    ∀ (e1 e2 : List ℚ) (d : Nat),
      wt (split_edges gr r ds (e1, e2)).1 d =
        (if d ∈ ds ∧ wt e1 d < 0 then wt gr.ewrt d * r else wt e1 d) ∧
      wt (split_edges gr r ds (e1, e2)).2 d =
        (if d ∈ ds ∧ wt e2 d < 0 then wt gr.ewrt d * (1 - r) else wt e2 d) := by
  induction ds with
  | nil => intro e1 e2 d; simp [split_edges]
  | cons a ds ih =>
    intro e1 e2 d
    rw [split_edges]
    constructor
    · rw [(ih _ _ d).1, wt_set_if_neg]
      by_cases had : a = d
      · subst had
        by_cases h : wt e1 a < 0
        · simp [h]
        · simp [h]
      · have had' : ¬ d = a := fun h => had h.symm
        simp [had, had']
    · rw [(ih _ _ d).2, wt_set_if_neg]
      by_cases had : a = d
      · subst had
        by_cases h : wt e2 a < 0
        · simp [h]
        · simp [h]
      · have had' : ¬ d = a := fun h => had h.symm
        simp [had, had']

theorem split_by_ratio_wt (gr : splice_graph) (ph ph' : phaser) (v : Nat) (r : ℚ) (b : Bool)
    (h : split_by_ratio gr ph v r = some (ph', b)) :
    0 < r ∧ r < 1 ∧ ∀ d,
      wt ph'.ewrt1 d =
        (if incident gr d v ∧ wt ph.ewrt1 d < 0 then wt gr.ewrt d * r else wt ph.ewrt1 d) ∧
      wt ph'.ewrt2 d =
        (if incident gr d v ∧ wt ph.ewrt2 d < 0 then wt gr.ewrt d * (1 - r)
          else wt ph.ewrt2 d) := by
  unfold split_by_ratio at h
  by_cases h1 : 0 < r
  · by_cases h2 : r < 1
    · by_cases h3 : v < ph.vwrt1.length ∧ v < ph.vwrt2.length ∧ v < gr.vwrt.length
      · simp only [h1, h2, h3, not_true_eq_false, if_false, and_self, Option.some.injEq,
          Prod.mk.injEq] at h
        obtain ⟨h4, _⟩ := h
        refine ⟨h1, h2, ?_⟩
        intro d
        have hin := split_edges_wt gr r (gr.in_edges v) ph.ewrt1 ph.ewrt2 d
        have hout := split_edges_wt gr r (gr.out_edges v)
          (split_edges gr r (gr.in_edges v) (ph.ewrt1, ph.ewrt2)).1
          (split_edges gr r (gr.in_edges v) (ph.ewrt1, ph.ewrt2)).2 d
        rw [← h4]
        simp only [Prod.mk.eta] at hout
        simp only
        rw [hout.1, hout.2, hin.1, hin.2]
        unfold incident
        constructor
        · by_cases ha : d ∈ gr.in_edges v
          · by_cases hb : wt ph.ewrt1 d < 0
            · simp [ha, hb]
            · simp [ha, hb]
          · simp [ha]
        · by_cases ha : d ∈ gr.in_edges v
          · by_cases hb : wt ph.ewrt2 d < 0
            · simp [ha, hb]
            · simp [ha, hb]
          · simp [ha]
      · simp [h1, h2, h3] at h
    · simp [h1, h2] at h
  · simp [h1] at h

theorem wt_eq_of_getElem? (l : List ℚ) (d : Nat) (w : ℚ) (h : l[d]? = some w) : wt l d = w := by
  unfold wt
  simp [List.getD_eq_getElem?_getD, h]

theorem init_edges_wt (gr : splice_graph) (a : Bool) (ds : List Nat) :
    ∀ (e1 e2 : List ℚ) (bg : ℚ) (e1' e2' : List ℚ) (bg' : ℚ),
      init_edges gr a ds (e1, e2, bg) = some (e1', e2', bg') →
      e1.length = gr.ewrt.length → e2.length = gr.ewrt.length →
      e1'.length = gr.ewrt.length ∧ e2'.length = gr.ewrt.length ∧
      ∀ d, (d ∈ ds → wt e1' d = (if a = true then wt gr.ewrt d else 0) ∧
                      wt e2' d = (if a = true then 0 else wt gr.ewrt d)) ∧
           (d ∉ ds → wt e1' d = wt e1 d ∧ wt e2' d = wt e2 d) := by
  induction ds with
  | nil =>
    intro e1 e2 bg e1' e2' bg' h h1 h2
    simp only [init_edges, Option.some.injEq, Prod.mk.injEq] at h
    obtain ⟨rfl, rfl, _⟩ := h
    exact ⟨h1, h2, fun d => ⟨fun hd => absurd hd (List.not_mem_nil _), fun _ => ⟨rfl, rfl⟩⟩⟩
  | cons d0 ds ih =>
    intro e1 e2 bg e1' e2' bg' h h1 h2
    rw [init_edges] at h
    cases hw : gr.ewrt[d0]? with
    | none => simp [hw] at h
    | some w =>
      have hd0 : d0 < gr.ewrt.length := (List.getElem?_eq_some.mp hw).1
      have hwt : wt gr.ewrt d0 = w := wt_eq_of_getElem? _ _ _ hw
      simp only [hw] at h
      cases a with
      | true =>
        simp only [if_true] at h
        obtain ⟨h3, h4, h5⟩ := ih _ _ _ _ _ _ h (by simpa using h1) (by simpa using h2)
        refine ⟨h3, h4, ?_⟩
        intro d
        by_cases hd : d ∈ ds
        · exact ⟨fun _ => (h5 d).1 hd, fun hn => absurd (List.mem_cons_of_mem _ hd) hn⟩
        · have hun := (h5 d).2 hd
          rw [wt_set, wt_set] at hun
          by_cases hdd : d0 = d
          · subst hdd
            refine ⟨fun _ => ?_, fun hn => absurd (List.mem_cons_self _ _) hn⟩
            have hl1 : d0 < e1.length := by omega
            have hl2 : d0 < e2.length := by omega
            simp only [hl1, hl2, and_self, if_true] at hun
            rw [hun.1, hun.2, hwt]
            simp
          · rw [if_neg (fun hh => hdd hh.1), if_neg (fun hh => hdd hh.1)] at hun
            refine ⟨fun hm => ?_, fun _ => hun⟩
            rcases List.mem_cons.mp hm with hm | hm
            · exact absurd hm.symm hdd
            · exact absurd hm hd
      | false =>
        simp only [Bool.false_eq_true, if_false] at h
        obtain ⟨h3, h4, h5⟩ := ih _ _ _ _ _ _ h (by simpa using h1) (by simpa using h2)
        refine ⟨h3, h4, ?_⟩
        intro d
        by_cases hd : d ∈ ds
        · exact ⟨fun _ => (h5 d).1 hd, fun hn => absurd (List.mem_cons_of_mem _ hd) hn⟩
        · have hun := (h5 d).2 hd
          rw [wt_set, wt_set] at hun
          by_cases hdd : d0 = d
          · subst hdd
            refine ⟨fun _ => ?_, fun hn => absurd (List.mem_cons_self _ _) hn⟩
            have hl1 : d0 < e1.length := by omega
            have hl2 : d0 < e2.length := by omega
            simp only [hl1, hl2, and_self, if_true] at hun
            rw [hun.1, hun.2, hwt]
            simp
          · rw [if_neg (fun hh => hdd hh.1), if_neg (fun hh => hdd hh.1)] at hun
            refine ⟨fun hm => ?_, fun _ => hun⟩
            rcases List.mem_cons.mp hm with hm | hm
            · exact absurd hm.symm hdd
            · exact absurd hm hd

theorem init_vertex_wt (gr : splice_graph) (i : Nat) (a : Bool) (ph ph1 : phaser)
    (h : init_vertex gr i a ph = some ph1)
    (h1 : ph.ewrt1.length = gr.ewrt.length) (h2 : ph.ewrt2.length = gr.ewrt.length) :
    ph1.ewrt1.length = gr.ewrt.length ∧ ph1.ewrt2.length = gr.ewrt.length ∧
    ∀ d, (incident gr d i → allele_full gr ph1 d a) ∧
      (¬ incident gr d i → wt ph1.ewrt1 d = wt ph.ewrt1 d ∧ wt ph1.ewrt2 d = wt ph.ewrt2 d) := by
  unfold init_vertex at h
  cases hin : init_edges gr a (gr.in_edges i)
      (ph.ewrt1, ph.ewrt2, if a = true then ph.ewrtbg1 else ph.ewrtbg2) with
  | none => simp [hin] at h
  | some st1 =>
    obtain ⟨e1a, e2a, bga⟩ := st1
    simp only [hin] at h
    cases hout : init_edges gr a (gr.out_edges i) (e1a, e2a, bga) with
    | none => simp [hout] at h
    | some st2 =>
      obtain ⟨e1b, e2b, bgb⟩ := st2
      simp only [hout] at h
      obtain ⟨ha1, ha2, ha3⟩ := init_edges_wt gr a _ _ _ _ _ _ _ hin h1 h2
      obtain ⟨hb1, hb2, hb3⟩ := init_edges_wt gr a _ _ _ _ _ _ _ hout ha1 ha2
      have hph : ph1.ewrt1 = e1b ∧ ph1.ewrt2 = e2b := by
        cases a with
        | true =>
          simp only [if_true, Option.some.injEq] at h
          rw [← h]
          exact ⟨rfl, rfl⟩
        | false =>
          simp only [Bool.false_eq_true, if_false, Option.some.injEq] at h
          rw [← h]
          exact ⟨rfl, rfl⟩
      rw [hph.1, hph.2]
      refine ⟨hb1, hb2, ?_⟩
      intro d
      unfold incident allele_full
      rw [hph.1, hph.2]
      by_cases ho : d ∈ gr.out_edges i
      · exact ⟨fun _ => (hb3 d).1 ho, fun hn => absurd (Or.inr ho) hn⟩
      · have hun := (hb3 d).2 ho
        rw [hun.1, hun.2]
        by_cases hi : d ∈ gr.in_edges i
        · exact ⟨fun _ => (ha3 d).1 hi, fun hn => absurd (Or.inl hi) hn⟩
        · refine ⟨fun hm => ?_, fun _ => (ha3 d).2 hi⟩
          rcases hm with hm | hm
          · exact absurd hm hi
          · exact absurd hm ho

theorem init_loop_wt (gr : splice_graph) (vs : List vertex_info) :
    ∀ (i : Nat) (ph ph' : phaser), init_loop gr i vs ph = some ph' →
      ph.ewrt1.length = gr.ewrt.length → ph.ewrt2.length = gr.ewrt.length →
      ph'.ewrt1.length = gr.ewrt.length ∧ ph'.ewrt2.length = gr.ewrt.length ∧
      ∀ d,
        ((∃ j v, vs[j]? = some v ∧
            (v.gt = genotype.ALLELE1 ∨ v.gt = genotype.ALLELE2) ∧ incident gr d (i + j)) →
          ∃ a j v, vs[j]? = some v ∧ v.gt = allele_gt a ∧ incident gr d (i + j) ∧
            allele_full gr ph' d a) ∧
        (¬ (∃ j v, vs[j]? = some v ∧
            (v.gt = genotype.ALLELE1 ∨ v.gt = genotype.ALLELE2) ∧ incident gr d (i + j)) →
          wt ph'.ewrt1 d = wt ph.ewrt1 d ∧ wt ph'.ewrt2 d = wt ph.ewrt2 d) := by
  induction vs with
  | nil =>
    intro i ph ph' h h1 h2
    simp only [init_loop, Option.some.injEq] at h
    subst h
    refine ⟨h1, h2, fun d => ⟨?_, fun _ => ⟨rfl, rfl⟩⟩⟩
    rintro ⟨j, v, hj, _⟩
    simp at hj
  | cons v vs ih =>
    intro i ph ph' h h1 h2
    have hstep : ∃ ph1, init_loop gr (i + 1) vs ph1 = some ph' ∧
        ph1.ewrt1.length = gr.ewrt.length ∧ ph1.ewrt2.length = gr.ewrt.length ∧
        ∀ d, ((v.gt = genotype.ALLELE1 ∨ v.gt = genotype.ALLELE2) ∧ incident gr d i →
            ∃ a, v.gt = allele_gt a ∧ allele_full gr ph1 d a) ∧
          (¬ ((v.gt = genotype.ALLELE1 ∨ v.gt = genotype.ALLELE2) ∧ incident gr d i) →
            wt ph1.ewrt1 d = wt ph.ewrt1 d ∧ wt ph1.ewrt2 d = wt ph.ewrt2 d) := by
      rw [init_loop] at h
      by_cases hg1 : v.gt = genotype.ALLELE1
      · simp only [hg1, if_true] at h
        cases hv : init_vertex gr i true ph with
        | none => simp [hv] at h
        | some ph1 =>
          simp only [hv] at h
          obtain ⟨h3, h4, h5⟩ := init_vertex_wt gr i true ph ph1 hv h1 h2
          refine ⟨ph1, h, h3, h4, fun d => ⟨?_, ?_⟩⟩
          · rintro ⟨_, hinc⟩
            exact ⟨true, by simp [allele_gt, hg1], (h5 d).1 hinc⟩
          · intro hn
            exact (h5 d).2 (fun hinc => hn ⟨Or.inl hg1, hinc⟩)
      · by_cases hg2 : v.gt = genotype.ALLELE2
        · simp only [hg2, if_true] at h
          have hne : ¬ genotype.ALLELE2 = genotype.ALLELE1 := by decide
          simp only [hne, if_false] at h
          cases hv : init_vertex gr i false ph with
          | none => simp [hv] at h
          | some ph1 =>
            simp only [hv] at h
            obtain ⟨h3, h4, h5⟩ := init_vertex_wt gr i false ph ph1 hv h1 h2
            refine ⟨ph1, h, h3, h4, fun d => ⟨?_, ?_⟩⟩
            · rintro ⟨_, hinc⟩
              exact ⟨false, by simp [allele_gt, hg2], (h5 d).1 hinc⟩
            · intro hn
              exact (h5 d).2 (fun hinc => hn ⟨Or.inr hg2, hinc⟩)
        · simp only [hg1, hg2, if_false] at h
          refine ⟨ph, h, h1, h2, fun d => ⟨?_, fun _ => ⟨rfl, rfl⟩⟩⟩
          rintro ⟨hg | hg, _⟩
          · exact absurd hg hg1
          · exact absurd hg hg2
    obtain ⟨ph1, hrec, hl1, hl2, hd1⟩ := hstep
    obtain ⟨h3, h4, h5⟩ := ih (i + 1) ph1 ph' hrec hl1 hl2
    refine ⟨h3, h4, fun d => ?_⟩
    by_cases htail : ∃ j v', vs[j]? = some v' ∧
        (v'.gt = genotype.ALLELE1 ∨ v'.gt = genotype.ALLELE2) ∧ incident gr d (i + 1 + j)
    · constructor
      · intro _
        obtain ⟨a, j, v', hj, hg, hinc, hfull⟩ := (h5 d).1 htail
        refine ⟨a, j + 1, v', by simpa using hj, hg, ?_, hfull⟩
        have : i + (j + 1) = i + 1 + j := by omega
        rw [this]
        exact hinc
      · intro hn
        exfalso
        apply hn
        obtain ⟨j, v', hj, hg, hinc⟩ := htail
        refine ⟨j + 1, v', by simpa using hj, hg, ?_⟩
        have : i + (j + 1) = i + 1 + j := by omega
        rw [this]
        exact hinc
    · have hsame := (h5 d).2 htail
      by_cases hhead : (v.gt = genotype.ALLELE1 ∨ v.gt = genotype.ALLELE2) ∧ incident gr d i
      · constructor
        · intro _
          obtain ⟨a, hg, hfull⟩ := (hd1 d).1 hhead
          refine ⟨a, 0, v, by simp, hg, by simpa using hhead.2, ?_⟩
          unfold allele_full at hfull ⊢
          rw [hsame.1, hsame.2]
          exact hfull
        · intro hn
          exfalso
          exact hn ⟨0, v, by simp, hhead.1, by simpa using hhead.2⟩
      · constructor
        · rintro ⟨j, v', hj, hg, hinc⟩
          exfalso
          cases j with
          | zero =>
            simp only [List.getElem?_cons_zero, Option.some.injEq] at hj
            subst hj
            exact hhead ⟨hg, by simpa using hinc⟩
          | succ j =>
            apply htail
            refine ⟨j, v', by simpa using hj, hg, ?_⟩
            have : i + 1 + j = i + (j + 1) := by omega
            rw [this]
            exact hinc
        · intro _
          have := (hd1 d).2 hhead
          rw [hsame.1, hsame.2]
          exact this

theorem wt_map_const (l : List ℚ) (c : ℚ) (d : Nat) (h : d < l.length) :
    wt (l.map (fun _ => c)) d = c := by
  unfold wt
  rw [List.getD_eq_getElem?_getD, List.getElem?_map, List.getElem?_eq_getElem h]
  rfl

theorem init_wt (gr : splice_graph) (ph0 : phaser) (h : init gr = some ph0) :
    ∀ d,
      ((∃ v, (has_gt gr v genotype.ALLELE1 ∨ has_gt gr v genotype.ALLELE2) ∧ incident gr d v) →
        ∃ a v, has_gt gr v (allele_gt a) ∧ incident gr d v ∧ allele_full gr ph0 d a) ∧
      (¬ (∃ v, (has_gt gr v genotype.ALLELE1 ∨ has_gt gr v genotype.ALLELE2) ∧
            incident gr d v) →
        d < gr.ewrt.length → wt ph0.ewrt1 d = -1 ∧ wt ph0.ewrt2 d = -1) := by
  unfold init at h
  cases hloop : init_loop gr 0 gr.vinf (init_state gr) with
  | none => rw [hloop] at h; exact absurd h (by simp)
  | some ph =>
    rw [hloop] at h
    simp only at h
    have hph : ph0.ewrt1 = ph.ewrt1 ∧ ph0.ewrt2 = ph.ewrt2 := by
      cases hn : normalize_epsilon ph.ewrtbg1 ph.ewrtbg2 with
      | none => simp [hn] at h
      | some r1r2 =>
        simp only [hn] at h
        split_ifs at h
        simp only [Option.some.injEq] at h
        rw [← h]
        exact ⟨rfl, rfl⟩
    obtain ⟨_, _, h5⟩ := init_loop_wt gr gr.vinf 0 _ ph hloop
      (by simp [init_state]) (by simp [init_state])
    intro d
    have hiff : (∃ j v, gr.vinf[j]? = some v ∧
          (v.gt = genotype.ALLELE1 ∨ v.gt = genotype.ALLELE2) ∧ incident gr d (0 + j)) ↔
        ∃ v, (has_gt gr v genotype.ALLELE1 ∨ has_gt gr v genotype.ALLELE2) ∧ incident gr d v := by
      constructor
      · rintro ⟨j, v, hj, hg, hinc⟩
        rw [Nat.zero_add] at hinc
        rcases hg with hg | hg
        · exact ⟨j, Or.inl ⟨v, hj, hg⟩, hinc⟩
        · exact ⟨j, Or.inr ⟨v, hj, hg⟩, hinc⟩
      · rintro ⟨j, hg, hinc⟩
        rcases hg with ⟨v, hj, hg⟩ | ⟨v, hj, hg⟩
        · exact ⟨j, v, hj, Or.inl hg, by rw [Nat.zero_add]; exact hinc⟩
        · exact ⟨j, v, hj, Or.inr hg, by rw [Nat.zero_add]; exact hinc⟩
    constructor
    · intro ht
      obtain ⟨a, j, v, hj, hg, hinc, hfull⟩ := (h5 d).1 (hiff.mpr ht)
      rw [Nat.zero_add] at hinc
      refine ⟨a, j, ⟨v, hj, hg⟩, hinc, ?_⟩
      unfold allele_full at hfull ⊢
      rw [hph.1, hph.2]
      exact hfull
    · intro hnt hd
      have := (h5 d).2 (fun hh => hnt (hiff.mp hh))
      rw [hph.1, hph.2, this.1, this.2]
      exact ⟨wt_map_const gr.ewrt (-1) d hd, wt_map_const gr.ewrt (-1) d hd⟩

theorem wt_nonneg_of_forall (l : List ℚ) (h : ∀ w ∈ l, 0 ≤ w) (d : Nat) : 0 ≤ wt l d := by
  unfold wt
  by_cases hd : d < l.length
  · rw [List.getD_eq_getElem _ _ hd]
    exact h _ (List.getElem_mem hd)
  · rw [List.getD_eq_default _ _ (by omega)]

theorem keeps_refl (gr : splice_graph) (ph : phaser) : keeps gr ph ph :=
  fun _ => ⟨fun _ => rfl, fun _ => rfl, fun h => h⟩

theorem keeps_trans (gr : splice_graph) (ph ph1 ph2 : phaser) (h1 : keeps gr ph ph1)
    (h2 : keeps gr ph1 ph2) : keeps gr ph ph2 := by
  intro d
  refine ⟨fun h => ?_, fun h => ?_, fun h => (h2 d).2.2 ((h1 d).2.2 h)⟩
  · have e1 := (h1 d).1 h
    rw [(h2 d).1 (by rw [e1]; exact h), e1]
  · have e1 := (h1 d).2.1 h
    rw [(h2 d).2.1 (by rw [e1]; exact h), e1]

theorem keeps_assigned (gr : splice_graph) (ph ph' : phaser) (h : keeps gr ph ph') (d : Nat)
    (ha : edge_assigned gr ph d) : edge_assigned gr ph' d := by
  unfold edge_assigned at ha ⊢
  rw [(h d).1 ha.1, (h d).2.1 ha.2.1]
  exact ha

theorem splits_refl (gr : splice_graph) (ph : phaser) (ns : List Nat) : splits gr ph ns ph ns :=
  ⟨keeps_refl gr ph, fun _ h1 h2 => absurd h1 h2⟩

theorem splits_trans (gr : splice_graph) (ph ph1 ph2 : phaser) (ns ns1 ns2 : List Nat)
    (h1 : splits gr ph ns ph1 ns1) (h2 : splits gr ph1 ns1 ph2 ns2) :
    splits gr ph ns ph2 ns2 := by
  refine ⟨keeps_trans gr ph ph1 ph2 h1.1 h2.1, ?_⟩
  intro v hv hv2 d hinc hok
  by_cases hv1 : v ∈ ns1
  · exact h2.2 v hv1 hv2 d hinc ((h1.1 d).2.2 hok)
  · exact keeps_assigned gr ph1 ph2 h2.1 d (h1.2 v hv hv1 d hinc hok)

theorem mem_set_erase (i v : Nat) (s : List Nat) : v ∈ set_erase i s ↔ v ∈ s ∧ v ≠ i := by
  induction s with
  | nil => simp [set_erase]
  | cons j s ih =>
    unfold set_erase
    by_cases h : j = i
    · simp only [h, if_true, ih, List.mem_cons]
      constructor
      · rintro ⟨h1, h2⟩
        exact ⟨Or.inr h1, h2⟩
      · rintro ⟨h1 | h1, h2⟩
        · exact absurd h1 h2
        · exact ⟨h1, h2⟩
    · simp only [h, if_false, List.mem_cons, ih]
      constructor
      · rintro (h1 | ⟨h1, h2⟩)
        · exact ⟨Or.inl h1, by rw [h1]; exact h⟩
        · exact ⟨Or.inr h1, h2⟩
      · rintro ⟨h1 | h1, h2⟩
        · exact Or.inl h1
        · exact Or.inr ⟨h1, h2⟩

theorem split_by_ratio_splits (gr : splice_graph) (hw : ∀ d, 0 ≤ wt gr.ewrt d)
    (ph ph' : phaser) (v : Nat) (r : ℚ) (b : Bool)
    (h : split_by_ratio gr ph v r = some (ph', b)) (ns : List Nat) :
    splits gr ph ns ph' (set_erase v ns) := by
  obtain ⟨hr0, hr1, hwt⟩ := split_by_ratio_wt gr ph ph' v r b h
  have hk1 : ∀ d, 0 ≤ wt ph.ewrt1 d → wt ph'.ewrt1 d = wt ph.ewrt1 d := by
    intro d hd
    rw [(hwt d).1, if_neg (fun hh => absurd hd (not_le.mpr hh.2))]
  have hk2 : ∀ d, 0 ≤ wt ph.ewrt2 d → wt ph'.ewrt2 d = wt ph.ewrt2 d := by
    intro d hd
    rw [(hwt d).2, if_neg (fun hh => absurd hd (not_le.mpr hh.2))]
  have hassigned : ∀ d, edge_assigned gr ph d → edge_assigned gr ph' d := by
    intro d ha
    unfold edge_assigned at ha ⊢
    rw [hk1 d ha.1, hk2 d ha.2.1]
    exact ha
  have hinc : ∀ d, incident gr d v → edge_state_ok gr ph d → edge_assigned gr ph' d := by
    intro d hi hok
    rcases hok with ⟨h1, h2⟩ | ha
    · unfold edge_assigned
      rw [(hwt d).1, (hwt d).2, if_pos ⟨hi, by rw [h1]; norm_num⟩,
        if_pos ⟨hi, by rw [h2]; norm_num⟩]
      have hwd := hw d
      refine ⟨mul_nonneg hwd (le_of_lt hr0), mul_nonneg hwd (by linarith), by ring⟩
    · exact hassigned d ha
  refine ⟨fun d => ⟨hk1 d, hk2 d, ?_⟩, ?_⟩
  · intro hok
    by_cases hi : incident gr d v
    · exact Or.inr (hinc d hi hok)
    · rcases hok with ⟨h1, h2⟩ | ha
      · left
        rw [(hwt d).1, (hwt d).2, if_neg (fun hh => hi hh.1), if_neg (fun hh => hi hh.1)]
        exact ⟨h1, h2⟩
      · exact Or.inr (hassigned d ha)
  · intro u hu hu2 d hi hok
    have huv : u = v := by
      by_contra hne
      exact hu2 ((mem_set_erase v u ns).mpr ⟨hu, hne⟩)
    subst huv
    exact hinc d hi hok

theorem split_local_cases (gr : splice_graph) (ph ph1 : phaser) (i : Nat) (b : Bool)
    (h : split_local gr ph i = some (ph1, b)) :
    (b = false ∧ ph1 = ph) ∨ ∃ r, split_by_ratio gr ph i r = some (ph1, b) ∧ b = true := by
  unfold split_local at h
  cases hr : get_as_ratio gr ph i with
  | none => simp [hr] at h
  | some r =>
    obtain ⟨r1, r2⟩ := r
    simp only [hr] at h
    split_ifs at h
    · simp only [Option.some.injEq, Prod.mk.injEq] at h
      exact Or.inl ⟨h.2.symm, h.1.symm⟩
    · right
      refine ⟨r1, h, ?_⟩
      unfold split_by_ratio at h
      split_ifs at h
      simp only [Option.some.injEq, Prod.mk.injEq] at h
      exact h.2.symm

theorem local_for_splits (gr : splice_graph) (hw : ∀ d, 0 ≤ wt gr.ewrt d) (vi : List Nat) :
    ∀ (ph : phaser) (ns : List Nat) (ph' : phaser) (ns' : List Nat),
      local_for gr vi (ph, ns) = some (ph', ns') → splits gr ph ns ph' ns' := by
  induction vi with
  | nil =>
    intro ph ns ph' ns' h
    simp only [local_for, Option.some.injEq, Prod.mk.injEq] at h
    obtain ⟨rfl, rfl⟩ := h
    exact splits_refl gr ph ns
  | cons i vi ih =>
    intro ph ns ph' ns' h
    rw [local_for] at h
    cases hs : split_local gr ph i with
    | none => simp [hs] at h
    | some res =>
      obtain ⟨ph1, b⟩ := res
      simp only [hs] at h
      rcases split_local_cases gr ph ph1 i b hs with ⟨hb, _⟩ | ⟨r, hr, hb⟩
      · subst hb
        simp only [Bool.false_eq_true, if_false, Option.some.injEq, Prod.mk.injEq] at h
        obtain ⟨rfl, rfl⟩ := h
        exact splits_refl gr ph ns
      · subst hb
        simp only [if_true] at h
        by_cases hi : i ∈ ns
        · simp only [hi, if_true] at h
          exact splits_trans gr ph ph1 ph' ns (set_erase i ns) ns'
            (split_by_ratio_splits gr hw ph ph1 i r true hr ns) (ih _ _ _ _ h)
        · simp [hi] at h

theorem local_while_splits (gr : splice_graph) (hw : ∀ d, 0 ≤ wt gr.ewrt d) (fuel : Nat) :
    ∀ (ph : phaser) (ns : List Nat) (ph' : phaser) (ns' : List Nat),
      local_while gr fuel (ph, ns) = outcome.done (ph', ns') →
      splits gr ph ns ph' ns' ∧ ns' = [] := by
  induction fuel with
  | zero =>
    intro ph ns ph' ns' h
    simp [local_while] at h
  | succ fuel ih =>
    intro ph ns ph' ns' h
    rw [local_while] at h
    by_cases hn : 1 ≤ ns.length
    · simp only [hn, if_true] at h
      cases hv : sort_nodes_by_currecnt_mae gr ph ns with
      | none => simp [hv] at h
      | some vi =>
        simp only [hv] at h
        cases hf : local_for gr vi (ph, ns) with
        | none => simp [hf] at h
        | some st =>
          obtain ⟨ph1, ns1⟩ := st
          simp only [hf] at h
          obtain ⟨h1, h2⟩ := ih _ _ _ _ h
          exact ⟨splits_trans gr ph ph1 ph' ns ns1 ns'
            (local_for_splits gr hw vi _ _ _ _ hf) h1, h2⟩
    · simp only [hn, if_false, outcome.done.injEq, Prod.mk.injEq] at h
      obtain ⟨rfl, rfl⟩ := h
      refine ⟨splits_refl gr ph ns, ?_⟩
      apply List.length_eq_zero.mp
      omega

theorem global_for_splits (gr : splice_graph) (hw : ∀ d, 0 ≤ wt gr.ewrt d) (vi : List Nat) :
    ∀ (ph : phaser) (ns : List Nat) (ph' : phaser) (ns' : List Nat),
      global_for gr vi (ph, ns) = some (ph', ns') → splits gr ph ns ph' ns' := by
  induction vi with
  | nil =>
    intro ph ns ph' ns' h
    simp only [global_for, Option.some.injEq, Prod.mk.injEq] at h
    obtain ⟨rfl, rfl⟩ := h
    exact splits_refl gr ph ns
  | cons i vi ih =>
    intro ph ns ph' ns' h
    rw [global_for] at h
    cases hs : split_global gr ph i with
    | none => simp [hs] at h
    | some res =>
      obtain ⟨ph1, b⟩ := res
      simp only [hs] at h
      by_cases hi : i ∈ ns
      · simp only [hi, if_true] at h
        exact splits_trans gr ph ph1 ph' ns (set_erase i ns) ns'
          (split_by_ratio_splits gr hw ph ph1 i ph.ewrtratiobg1 b hs ns) (ih _ _ _ _ h)
      · simp [hi] at h

theorem global_while_splits (gr : splice_graph) (hw : ∀ d, 0 ≤ wt gr.ewrt d) (fuel : Nat) :
    ∀ (ph : phaser) (ns : List Nat) (ph' : phaser) (ns' : List Nat),
      global_while gr fuel (ph, ns) = outcome.done (ph', ns') →
      splits gr ph ns ph' ns' ∧ ns' = [] := by
  induction fuel with
  | zero =>
    intro ph ns ph' ns' h
    simp [global_while] at h
  | succ fuel ih =>
    intro ph ns ph' ns' h
    rw [global_while] at h
    by_cases hn : 1 ≤ ns.length
    · simp only [hn, if_true] at h
      cases hv : sort_nodes_by_currecnt_mae gr ph ns with
      | none => simp [hv] at h
      | some vi =>
        simp only [hv] at h
        cases hf : global_for gr vi (ph, ns) with
        | none => simp [hf] at h
        | some st =>
          obtain ⟨ph1, ns1⟩ := st
          simp only [hf] at h
          obtain ⟨h1, h2⟩ := ih _ _ _ _ h
          exact ⟨splits_trans gr ph ph1 ph' ns ns1 ns'
            (global_for_splits gr hw vi _ _ _ _ hf) h1, h2⟩
    · simp only [hn, if_false, outcome.done.injEq, Prod.mk.injEq] at h
      obtain ⟨rfl, rfl⟩ := h
      refine ⟨splits_refl gr ph ns, ?_⟩
      apply List.length_eq_zero.mp
      omega

theorem mem_classify_nodes (gr : splice_graph) (s : List Nat) :
    ∀ (A N A' N' : List Nat), classify_nodes gr s (A, N) = some (A', N') →
      ∀ v, v ∈ N' ↔ v ∈ N ∨ (v ∈ s ∧ ∃ vi, gr.vinf[v]? = some vi ∧ vi.as_vertex = false) := by
  induction s with
  | nil =>
    intro A N A' N' h v
    simp only [classify_nodes, Option.some.injEq, Prod.mk.injEq] at h
    obtain ⟨_, rfl⟩ := h
    simp
  | cons i s ih =>
    intro A N A' N' h v
    rw [classify_nodes] at h
    cases hv : gr.vinf[i]? with
    | none => simp [hv] at h
    | some vi =>
      simp only [hv] at h
      by_cases has : vi.as_vertex = true
      · simp only [has, if_true] at h
        rw [ih _ _ _ _ h v]
        constructor
        · rintro (h1 | ⟨h1, h2⟩)
          · exact Or.inl h1
          · exact Or.inr ⟨List.mem_cons_of_mem _ h1, h2⟩
        · rintro (h1 | ⟨h1, vi', h2, h3⟩)
          · exact Or.inl h1
          · rcases List.mem_cons.mp h1 with h1 | h1
            · subst h1
              rw [hv] at h2
              simp only [Option.some.injEq] at h2
              subst h2
              rw [has] at h3
              exact absurd h3 (by decide)
            · exact Or.inr ⟨h1, vi', h2, h3⟩
      · simp only [has, if_false] at h
        rw [ih _ _ _ _ h v, mem_set_insert]
        constructor
        · rintro ((h1 | h1) | ⟨h1, h2⟩)
          · subst h1
            exact Or.inr ⟨List.mem_cons_self _ _, vi, hv, by simpa using has⟩
          · exact Or.inl h1
          · exact Or.inr ⟨List.mem_cons_of_mem _ h1, h2⟩
        · rintro (h1 | ⟨h1, h2⟩)
          · exact Or.inl (Or.inr h1)
          · rcases List.mem_cons.mp h1 with h1 | h1
            · exact Or.inl (Or.inl h1)
            · exact Or.inr ⟨h1, h2⟩

theorem assign_gt_splits (fuel : Nat) (gr : splice_graph) (hw : ∀ d, 0 ≤ wt gr.ewrt d)
    (asnonzeroset nsnonzeroset : List Nat) (max_num_exons : Nat) (ph ph' : phaser)
    (h : assign_gt fuel gr asnonzeroset nsnonzeroset max_num_exons ph = outcome.done ph') :
    keeps gr ph ph' ∧
      ∀ v, ns_vertex gr asnonzeroset nsnonzeroset v →
        ∀ d, incident gr d v → edge_state_ok gr ph d → edge_assigned gr ph' d := by
  unfold assign_gt at h
  cases hc1 : classify_nodes gr asnonzeroset ([], []) with
  | none => simp [hc1] at h
  | some st0 =>
    obtain ⟨A0, N0⟩ := st0
    simp only [hc1] at h
    cases hc2 : classify_nodes gr nsnonzeroset (A0, N0) with
    | none => simp [hc2] at h
    | some st1 =>
      obtain ⟨asnodes, nsnodes⟩ := st1
      simp only [hc2] at h
      have hmem : ∀ v, ns_vertex gr asnonzeroset nsnonzeroset v → v ∈ nsnodes := by
        rintro v ⟨hv | hv, hvi⟩
        · exact (mem_classify_nodes gr _ _ _ _ _ hc2 v).mpr
            (Or.inl ((mem_classify_nodes gr _ _ _ _ _ hc1 v).mpr (Or.inr ⟨hv, hvi⟩)))
        · exact (mem_classify_nodes gr _ _ _ _ _ hc2 v).mpr (Or.inr ⟨hv, hvi⟩)
      by_cases ha : 1 ≤ asnodes.length
      · by_cases hn : 1 ≤ nsnodes.length
        · simp only [ha, hn, not_true_eq_false, if_false] at h
          have hlocal : ∃ ph1 ns1,
              (if nsnodes.length + asnodes.length < max_num_exons then
                local_while gr fuel (ph, nsnodes) else outcome.done (ph, nsnodes)) =
                outcome.done (ph1, ns1) ∧ splits gr ph nsnodes ph1 ns1 ∧
              ∃ ns2, global_while gr fuel (ph1, ns1) = outcome.done (ph', ns2) := by
            cases hl : (if nsnodes.length + asnodes.length < max_num_exons then
                local_while gr fuel (ph, nsnodes) else outcome.done (ph, nsnodes)) with
            | abort => simp [hl] at h
            | out_of_fuel => simp [hl] at h
            | done st =>
              obtain ⟨ph1, ns1⟩ := st
              simp only [hl] at h
              refine ⟨ph1, ns1, rfl, ?_, ?_⟩
              · by_cases hmax : nsnodes.length + asnodes.length < max_num_exons
                · simp only [hmax, if_true] at hl
                  exact (local_while_splits gr hw fuel _ _ _ _ hl).1
                · simp only [hmax, if_false, outcome.done.injEq, Prod.mk.injEq] at hl
                  obtain ⟨rfl, rfl⟩ := hl
                  exact splits_refl gr ph nsnodes
              · cases hg : global_while gr fuel (ph1, ns1) with
                | abort => simp [hg] at h
                | out_of_fuel => simp [hg] at h
                | done st2 =>
                  obtain ⟨ph2, ns2⟩ := st2
                  simp only [hg] at h
                  split_ifs at h
                  simp only [outcome.done.injEq] at h
                  subst h
                  exact ⟨ns2, rfl⟩
          obtain ⟨ph1, ns1, _, hs1, ns2, hg⟩ := hlocal
          obtain ⟨hs2, hnil⟩ := global_while_splits gr hw fuel _ _ _ _ hg
          have hs := splits_trans gr ph ph1 ph' nsnodes ns1 ns2 hs1 hs2
          refine ⟨hs.1, ?_⟩
          intro v hv d hinc hok
          exact hs.2 v (hmem v hv) (by rw [hnil]; exact List.not_mem_nil _) d hinc hok
        · simp [ha, hn] at h
      · simp [ha] at h

theorem edge_assigned_of_allele_full (gr : splice_graph) (hw : ∀ d, 0 ≤ wt gr.ewrt d)
    (ph : phaser) (d : Nat) (a : Bool) (h : allele_full gr ph d a) : edge_assigned gr ph d := by
  unfold allele_full at h
  unfold edge_assigned
  rw [h.1, h.2]
  cases a with
  | true => simpa using hw d
  | false => simpa using hw d

theorem init_assign_gt_cases (fuel : Nat) (gr : splice_graph)
    (asnonzeroset nsnonzeroset : List Nat) (max_num_exons : Nat) (ph : phaser)
    (h : init_assign_gt fuel gr asnonzeroset nsnonzeroset max_num_exons = outcome.done ph) :
    ∃ ph0, init gr = some ph0 ∧
      assign_gt fuel gr asnonzeroset nsnonzeroset max_num_exons ph0 = outcome.done ph := by
  unfold init_assign_gt at h
  cases hi : init gr with
  | none => simp [hi] at h
  | some ph0 =>
    simp only [hi] at h
    exact ⟨ph0, rfl, h⟩

/-- Claim C1, as the code has it. In a splice graph with non-negative edge weights,
when `init` and `assign_gt` return, every edge `d` of `gr.ewrt` that is incident to a
vertex with `gt = ALLELE1` or `gt = ALLELE2`, or to a non-allelic vertex of the
non-zero sets, has `ewrt1[d] + ewrt2[d] = gr.ewrt[d]` (exact arithmetic). -/
theorem ewrt_sum_of_split_edges (fuel : Nat) (gr : splice_graph)
    (asnonzeroset nsnonzeroset : List Nat) (max_num_exons : Nat) (ph : phaser)
    (hw : ∀ w ∈ gr.ewrt, 0 ≤ w)
    (h : init_assign_gt fuel gr asnonzeroset nsnonzeroset max_num_exons = outcome.done ph)
    (d v : Nat) (hd : d < gr.ewrt.length) (hinc : incident gr d v)
    (hv : has_gt gr v genotype.ALLELE1 ∨ has_gt gr v genotype.ALLELE2 ∨
      ns_vertex gr asnonzeroset nsnonzeroset v) :
    wt ph.ewrt1 d + wt ph.ewrt2 d = wt gr.ewrt d := by
  have hw' : ∀ d, 0 ≤ wt gr.ewrt d := wt_nonneg_of_forall gr.ewrt hw
  obtain ⟨ph0, h0, h1⟩ := init_assign_gt_cases fuel gr _ _ _ ph h
  obtain ⟨hkeep, hsplit⟩ := assign_gt_splits fuel gr hw' _ _ _ ph0 ph h1
  have hinit := init_wt gr ph0 h0 d
  have hfin : edge_assigned gr ph d := by
    by_cases ht : ∃ u, (has_gt gr u genotype.ALLELE1 ∨ has_gt gr u genotype.ALLELE2) ∧
        incident gr d u
    · obtain ⟨a, _, _, _, hfull⟩ := hinit.1 ht
      exact keeps_assigned gr ph0 ph hkeep d (edge_assigned_of_allele_full gr hw' ph0 d a hfull)
    · have hun := hinit.2 ht hd
      rcases hv with hv | hv | hv
      · exact absurd ⟨v, Or.inl hv, hinc⟩ ht
      · exact absurd ⟨v, Or.inr hv, hinc⟩ ht
      · exact hsplit v hv d hinc (Or.inl hun)
  exact hfin.2.2

theorem allele_full_after (fuel : Nat) (gr : splice_graph)
    (asnonzeroset nsnonzeroset : List Nat) (max_num_exons : Nat) (ph0 ph : phaser)
    (hw : ∀ w ∈ gr.ewrt, 0 ≤ w) (h0 : init gr = some ph0)
    (h : assign_gt fuel gr asnonzeroset nsnonzeroset max_num_exons ph0 = outcome.done ph)
    (a : Bool) (d v : Nat) (hinc : incident gr d v) (hv : has_gt gr v (allele_gt a))
    (hother : ∀ u, incident gr d u → ¬ has_gt gr u (allele_gt (!a))) :
    allele_full gr ph0 d a ∧ allele_full gr ph d a := by
  have hw' : ∀ d, 0 ≤ wt gr.ewrt d := wt_nonneg_of_forall gr.ewrt hw
  obtain ⟨hkeep, _⟩ := assign_gt_splits fuel gr hw' _ _ _ ph0 ph h
  have ht : ∃ u, (has_gt gr u genotype.ALLELE1 ∨ has_gt gr u genotype.ALLELE2) ∧
      incident gr d u := by
    refine ⟨v, ?_, hinc⟩
    cases a with
    | true => exact Or.inl hv
    | false => exact Or.inr hv
  obtain ⟨a', u, hu, hincu, hfull⟩ := (init_wt gr ph0 h0 d).1 ht
  have haa : a' = a := by
    by_contra hne
    apply hother u hincu
    have : a' = !a := by
      cases a <;> cases a' <;> simp_all
    rw [← this]
    exact hu
  subst haa
  refine ⟨hfull, ?_⟩
  have hass := edge_assigned_of_allele_full gr hw' ph0 d a' hfull
  unfold allele_full at hfull ⊢
  rw [(hkeep d).1 hass.1, (hkeep d).2.1 hass.2.1]
  exact hfull

/-- Claim C2, as the code has it. In a splice graph with non-negative edge weights,
after `init` and after `assign_gt`, for every vertex `v` with `gt = ALLELE1` and every
edge `d` incident to `v` (in or out) that is incident to no vertex with
`gt = ALLELE2`, `ewrt1[d] = gr.ewrt[d]` and `ewrt2[d] = 0`; symmetrically for a vertex
with `gt = ALLELE2` and an edge incident to no vertex with `gt = ALLELE1`. -/
theorem allele_edges_full_weight (fuel : Nat) (gr : splice_graph)
    (asnonzeroset nsnonzeroset : List Nat) (max_num_exons : Nat) (ph0 ph : phaser)
    (hw : ∀ w ∈ gr.ewrt, 0 ≤ w) (h0 : init gr = some ph0)
    (h : assign_gt fuel gr asnonzeroset nsnonzeroset max_num_exons ph0 = outcome.done ph)
    (d v : Nat) (hinc : incident gr d v) :
    (has_gt gr v genotype.ALLELE1 →
      (∀ u, incident gr d u → ¬ has_gt gr u genotype.ALLELE2) →
      (wt ph0.ewrt1 d = wt gr.ewrt d ∧ wt ph0.ewrt2 d = 0) ∧
      (wt ph.ewrt1 d = wt gr.ewrt d ∧ wt ph.ewrt2 d = 0)) ∧
    (has_gt gr v genotype.ALLELE2 →
      (∀ u, incident gr d u → ¬ has_gt gr u genotype.ALLELE1) →
      (wt ph0.ewrt2 d = wt gr.ewrt d ∧ wt ph0.ewrt1 d = 0) ∧
      (wt ph.ewrt2 d = wt gr.ewrt d ∧ wt ph.ewrt1 d = 0)) := by
  constructor
  · intro hv hother
    have := allele_full_after fuel gr _ _ _ ph0 ph hw h0 h true d v hinc hv hother
    simpa [allele_full] using this
  · intro hv hother
    have := allele_full_after fuel gr _ _ _ ph0 ph hw h0 h false d v hinc hv hother
    simp only [allele_full, Bool.false_eq_true, if_false] at this
    exact ⟨⟨this.1.2, this.1.1⟩, ⟨this.2.2, this.2.1⟩⟩

theorem example_graph_edges :
    example_graph.in_edges 0 = [] ∧ example_graph.out_edges 0 = [0] ∧
    example_graph.in_edges 1 = [0] ∧ example_graph.out_edges 1 = [] := by
  decide

theorem init_example_graph : init example_graph = some example_init := by
  simp [init, init_state, init_loop, init_vertex, init_edges, example_graph, normalize_epsilon,
    epsilon, example_init, splice_graph.in_edges, splice_graph.out_edges, List.range,
    List.range.loop, wt]
  norm_num

theorem ratio_example_graph :
    get_as_ratio example_graph example_init 0 = some (201 / 202, 1 / 202) := by
  simp [get_as_ratio, example_graph_edges, local_sums, example_init, normalize_epsilon, epsilon,
    wt]
  norm_num

theorem mae_descending_ok_single : mae_descending_ok [((201 : ℚ) / 202, 0)] = true := by
  simp [mae_descending_ok]

theorem sort_example_graph :
    sort_nodes_by_currecnt_mae example_graph example_init [0] = some [0] := by
  simp [sort_nodes_by_currecnt_mae, nodes_mae, ratio_example_graph]
  norm_num [mae_descending_ok_single]

theorem split_example_graph :
    split_local example_graph example_init 0 = some (example_assigned, true) := by
  simp only [split_local, ratio_example_graph, split_by_ratio, example_graph_edges, split_edges]
  norm_num [example_init, example_assigned, example_graph, wt]

theorem assign_example_graph :
    assign_gt 3 example_graph [1, 2, 3] [0] 1000 example_init =
      outcome.done example_assigned := by
  have h1 : classify_nodes example_graph [1, 2, 3] ([], []) = some ([1, 2, 3], []) := by decide
  have h2 : classify_nodes example_graph [0] ([1, 2, 3], []) = some ([1, 2, 3], [0]) := by
    decide
  simp [assign_gt, h1, h2, local_while, sort_example_graph, local_for, split_example_graph,
    set_erase, global_while]

theorem run_example_graph :
    init_assign_gt 3 example_graph [1, 2, 3] [0] 1000 = outcome.done example_assigned := by
  simp [init_assign_gt, init_example_graph, assign_example_graph]

theorem example_graph_weights : ∀ w ∈ example_graph.ewrt, 0 ≤ w := by
  intro w hw
  simp only [example_graph, List.mem_cons, List.mem_singleton, List.not_mem_nil, or_false] at hw
  rcases hw with rfl | rfl <;> norm_num

theorem example_graph_no_allele2 :
    ∀ u, incident example_graph 0 u → ¬ has_gt example_graph u genotype.ALLELE2 := by
  rintro u _ ⟨vi, hvi, hgt⟩
  have hall : ∀ vi ∈ example_graph.vinf, vi.gt ≠ genotype.ALLELE2 := by decide
  exact hall vi (List.getElem?_mem hvi) hgt

theorem example_cross_edges :
    example_cross.in_edges 0 = [] ∧ example_cross.out_edges 0 = [0] ∧
    example_cross.in_edges 1 = [0] ∧ example_cross.out_edges 1 = [1] ∧
    example_cross.in_edges 2 = [1] ∧ example_cross.out_edges 2 = [] := by
  decide

theorem init_example_cross : init example_cross = some example_cross_init := by
  simp [init, init_state, init_loop, init_vertex, init_edges, example_cross, normalize_epsilon,
    epsilon, example_cross_init, splice_graph.in_edges, splice_graph.out_edges, List.range,
    List.range.loop, wt]
  norm_num

theorem ratio_example_cross :
    get_as_ratio example_cross example_cross_init 0 = some (201 / 202, 1 / 202) := by
  simp [get_as_ratio, example_cross_edges, local_sums, example_cross_init, normalize_epsilon,
    epsilon, wt]
  norm_num

theorem sort_example_cross :
    sort_nodes_by_currecnt_mae example_cross example_cross_init [0] = some [0] := by
  simp [sort_nodes_by_currecnt_mae, nodes_mae, ratio_example_cross]
  norm_num [mae_descending_ok_single]

theorem split_example_cross :
    split_local example_cross example_cross_init 0 = some (example_cross_assigned, true) := by
  simp only [split_local, ratio_example_cross, split_by_ratio, example_cross_edges, split_edges]
  norm_num [example_cross_init, example_cross_assigned, example_cross, wt]

theorem assign_example_cross :
    assign_gt 3 example_cross [1, 2] [0] 1000 example_cross_init =
      outcome.done example_cross_assigned := by
  have h1 : classify_nodes example_cross [1, 2] ([], []) = some ([1, 2], []) := by decide
  have h2 : classify_nodes example_cross [0] ([1, 2], []) = some ([1, 2], [0]) := by decide
  simp [assign_gt, h1, h2, local_while, sort_example_cross, local_for, split_example_cross,
    set_erase, global_while]

/-- An instance of `ewrt_sum_of_split_edges`: the edge `0` of `example_graph`, incident
to the `ALLELE1` vertex `1`. -/
theorem ewrt_sum_of_split_edges_witness :
    wt example_assigned.ewrt1 0 + wt example_assigned.ewrt2 0 = wt example_graph.ewrt 0 :=
  ewrt_sum_of_split_edges 3 example_graph [1, 2, 3] [0] 1000 example_assigned
    example_graph_weights run_example_graph 0 1 (by decide) (by decide)
    (Or.inl ⟨_, rfl, rfl⟩)

/-- Claim C1 as stated fails: in `example_graph` the edge `1`, from vertex `2` to vertex
`3` (two variant vertices of the non-zero sets with genotype `UNPHASED`), is assigned
neither by `init` nor by `assign_gt`; `ewrt1 + ewrt2` is `-2` and the weight is `5`. -/
theorem ewrt_sum_fails_on_unassigned_edge :
    init_assign_gt 3 example_graph [1, 2, 3] [0] 1000 = outcome.done example_assigned ∧
    example_graph.edge_ends[1]? = some (2, 3) ∧
    wt example_assigned.ewrt1 1 + wt example_assigned.ewrt2 1 = -2 ∧
    wt example_graph.ewrt 1 = 5 ∧
    wt example_assigned.ewrt1 1 + wt example_assigned.ewrt2 1 ≠ wt example_graph.ewrt 1 := by
  refine ⟨run_example_graph, rfl, ?_, ?_, ?_⟩
  · norm_num [wt, example_assigned, example_init]
  · norm_num [wt, example_graph]
  · norm_num [wt, example_assigned, example_init, example_graph]

/-- An instance of `allele_edges_full_weight`: the edge `0` of `example_graph` into the
`ALLELE1` vertex `1`. -/
theorem allele_edges_full_weight_witness :
    (wt example_init.ewrt1 0 = wt example_graph.ewrt 0 ∧ wt example_init.ewrt2 0 = 0) ∧
    (wt example_assigned.ewrt1 0 = wt example_graph.ewrt 0 ∧
      wt example_assigned.ewrt2 0 = 0) :=
  (allele_edges_full_weight 3 example_graph [1, 2, 3] [0] 1000 example_init example_assigned
    example_graph_weights init_example_graph assign_example_graph 0 1 (by decide)).1
    ⟨_, rfl, rfl⟩ example_graph_no_allele2

/-- Claim C2 as stated fails: in `example_cross` the edge `1` goes from the `ALLELE1`
vertex `1` to the `ALLELE2` vertex `2`; `init` writes it for vertex `1` and then for
vertex `2`, so that after `init` and after `assign_gt` `ewrt1` is `0`, not the weight
`3`. -/
theorem allele1_edge_overwritten_by_allele2 :
    init example_cross = some example_cross_init ∧
    assign_gt 3 example_cross [1, 2] [0] 1000 example_cross_init =
      outcome.done example_cross_assigned ∧
    has_gt example_cross 1 genotype.ALLELE1 ∧ incident example_cross 1 1 ∧
    wt example_cross.ewrt 1 = 3 ∧
    wt example_cross_init.ewrt1 1 = 0 ∧ wt example_cross_assigned.ewrt1 1 = 0 ∧
    wt example_cross_init.ewrt1 1 ≠ wt example_cross.ewrt 1 ∧
    wt example_cross_assigned.ewrt1 1 ≠ wt example_cross.ewrt 1 := by
  refine ⟨init_example_cross, assign_example_cross, ⟨_, rfl, rfl⟩, by decide, ?_, ?_, ?_, ?_,
    ?_⟩
  · norm_num [wt, example_cross]
  · norm_num [wt, example_cross_init]
  · norm_num [wt, example_cross_assigned, example_cross_init]
  · norm_num [wt, example_cross_init, example_cross]
  · norm_num [wt, example_cross_assigned, example_cross_init, example_cross]

/-! ### The refinement of the splice graph -/

theorem mem_edges (gr : splice_graph) (d : Nat) :
    d ∈ gr.edges ↔ d < gr.edge_ends.length ∧ d ∉ gr.removed := by
  simp [splice_graph.edges]

theorem mem_in_edges (gr : splice_graph) (i d : Nat) :
    d ∈ gr.in_edges i ↔ d ∈ gr.edges ∧ (gr.edge_ends.getD d (0, 0)).2 = i := by
  simp [splice_graph.in_edges]

theorem mem_out_edges (gr : splice_graph) (i d : Nat) :
    d ∈ gr.out_edges i ↔ d ∈ gr.edges ∧ (gr.edge_ends.getD d (0, 0)).1 = i := by
  simp [splice_graph.out_edges]

theorem edges_clear_vertex (gr : splice_graph) (i : Nat) :
    (gr.clear_vertex i).edges = gr.edges.filter (fun d =>
      decide ((gr.edge_ends.getD d (0, 0)).1 ≠ i ∧ (gr.edge_ends.getD d (0, 0)).2 ≠ i)) := by
  have h : (gr.clear_vertex i).edges = (List.range gr.edge_ends.length).filter
      (fun d => decide (d ∉ gr.in_edges i ++ gr.out_edges i ++ gr.removed)) := rfl
  rw [h, splice_graph.edges, List.filter_filter]
  apply List.filter_congr
  intro d hd
  have hlt : d < gr.edge_ends.length := List.mem_range.mp hd
  simp only [List.mem_append, mem_in_edges, mem_out_edges, mem_edges, Bool.and_eq_true,
    decide_eq_true_eq, decide_eq_decide]
  by_cases hr : d ∈ gr.removed
  · simp [hr]
  · simp only [hlt, hr, not_false_eq_true, and_self, true_and, or_false, and_true,
      decide_True, Bool.and_true, decide_eq_decide]
    tauto

theorem mem_edges_clear_vertex (gr : splice_graph) (i d : Nat) :
    d ∈ (gr.clear_vertex i).edges ↔ d ∈ gr.edges ∧
      (gr.edge_ends.getD d (0, 0)).1 ≠ i ∧ (gr.edge_ends.getD d (0, 0)).2 ≠ i := by
  rw [edges_clear_vertex]
  simp

theorem degree_eq_zero_iff (gr : splice_graph) (i : Nat) :
    gr.degree i = 0 ↔ ∀ d ∈ gr.edges,
      (gr.edge_ends.getD d (0, 0)).1 ≠ i ∧ (gr.edge_ends.getD d (0, 0)).2 ≠ i := by
  simp only [splice_graph.degree, splice_graph.in_degree, splice_graph.out_degree,
    Nat.add_eq_zero_iff, List.length_eq_zero, List.eq_nil_iff_forall_not_mem, mem_in_edges,
    mem_out_edges]
  constructor
  · intro h d hd
    exact ⟨fun h1 => h.2 d ⟨hd, h1⟩, fun h2 => h.1 d ⟨hd, h2⟩⟩
  · intro h
    exact ⟨fun d hd => (h d hd.1).2 hd.2, fun d hd => (h d hd.1).1 hd.2⟩

theorem length_edges_clear_vertex_le (gr : splice_graph) (i : Nat) :
    (gr.clear_vertex i).edges.length ≤ gr.edges.length := by
  rw [edges_clear_vertex]
  exact List.length_filter_le _ _

theorem length_edges_clear_vertex_lt (gr : splice_graph) (i : Nat) (h : gr.degree i ≠ 0) :
    (gr.clear_vertex i).edges.length < gr.edges.length := by
  rw [edges_clear_vertex]
  rw [Ne, degree_eq_zero_iff] at h
  push_neg at h
  obtain ⟨d, hd, hne⟩ := h
  apply List.length_filter_lt_length_iff_exists.mpr
  refine ⟨d, hd, ?_⟩
  simp only [decide_eq_true_eq, not_and, not_not]
  intro h1
  exact hne h1

theorem edges_removed_only_refl (gr : splice_graph) : edges_removed_only gr gr :=
  ⟨rfl, rfl, rfl, rfl, fun _ h => h⟩

theorem edges_removed_only_trans {a b c : splice_graph} (h1 : edges_removed_only a b)
    (h2 : edges_removed_only b c) : edges_removed_only a c :=
  ⟨h2.1.trans h1.1, h2.2.1.trans h1.2.1, h2.2.2.1.trans h1.2.2.1, h2.2.2.2.1.trans h1.2.2.2.1,
    fun d h => h1.2.2.2.2 d (h2.2.2.2.2 d h)⟩

theorem edges_removed_only_clear_vertex (gr : splice_graph) (i : Nat) :
    edges_removed_only gr (gr.clear_vertex i) :=
  ⟨rfl, rfl, rfl, rfl, fun d h => ((mem_edges_clear_vertex gr i d).mp h).1⟩

theorem refine_for_true (l : List Nat) (gr : splice_graph) :
    (refine_for l (gr, true)).2 = true := by
  induction l generalizing gr with
  | nil => rfl
  | cons i l ih =>
    simp only [refine_for]
    split
    · exact ih gr
    · split
      · exact ih gr
      · exact ih _

theorem refine_for_shrinks (l : List Nat) (gr : splice_graph) (b : Bool) :
    edges_removed_only gr (refine_for l (gr, b)).1 ∧
      (refine_for l (gr, b)).1.edges.length ≤ gr.edges.length ∧
      ((refine_for l (gr, b)).2 = true →
        b = true ∨ (refine_for l (gr, b)).1.edges.length < gr.edges.length) := by
  induction l generalizing gr b with
  | nil => exact ⟨edges_removed_only_refl gr, le_refl _, fun h => Or.inl h⟩
  | cons i l ih =>
    simp only [refine_for]
    split
    · exact ih gr b
    · rename_i hdeg
      split
      · exact ih gr b
      · have h := ih (gr.clear_vertex i) true
        have hlt := length_edges_clear_vertex_lt gr i hdeg
        exact ⟨edges_removed_only_trans (edges_removed_only_clear_vertex gr i) h.1,
          by omega, fun _ => Or.inr (by omega)⟩

theorem refine_for_false (l : List Nat) (gr gr1 : splice_graph)
    (h : refine_for l (gr, false) = (gr1, false)) :
    gr1 = gr ∧ ∀ i ∈ l, gr.degree i = 0 ∨ (1 ≤ gr.in_degree i ∧ 1 ≤ gr.out_degree i) := by
  induction l with
  | nil =>
    simp only [refine_for, Prod.mk.injEq, and_true] at h
    exact ⟨h.symm, fun i hi => absurd hi (List.not_mem_nil i)⟩
  | cons i l ih =>
    simp only [refine_for] at h
    split at h
    · rename_i h0
      obtain ⟨h1, h2⟩ := ih h
      refine ⟨h1, fun j hj => ?_⟩
      rcases List.mem_cons.mp hj with rfl | hj
      · exact Or.inl h0
      · exact h2 j hj
    · split at h
      · rename_i h0
        obtain ⟨h1, h2⟩ := ih h
        refine ⟨h1, fun j hj => ?_⟩
        rcases List.mem_cons.mp hj with rfl | hj
        · exact Or.inr h0
        · exact h2 j hj
      · have := refine_for_true l (gr.clear_vertex i)
        rw [h] at this
        simp at this

theorem refine_for_of_ok (l : List Nat) (gr : splice_graph) (b : Bool)
    (h : ∀ i ∈ l, gr.degree i = 0 ∨ (1 ≤ gr.in_degree i ∧ 1 ≤ gr.out_degree i)) :
    refine_for l (gr, b) = (gr, b) := by
  induction l with
  | nil => rfl
  | cons i l ih =>
    have hl := ih (fun j hj => h j (List.mem_cons_of_mem i hj))
    simp only [refine_for]
    rcases h i (List.mem_cons_self i l) with h0 | h1
    · rw [if_pos h0]
      exact hl
    · simp only [h1, and_self, if_true, ite_self]
      exact hl

theorem mem_internal_vertices (gr : splice_graph) (i : Nat) :
    i ∈ internal_vertices gr ↔ 0 < i ∧ i + 1 < gr.num_vertices := by
  simp only [internal_vertices, List.mem_range'_1]
  omega

theorem degree_ok_iff (gr : splice_graph) :
    degree_ok gr ↔ ∀ i ∈ internal_vertices gr,
      gr.degree i = 0 ∨ (1 ≤ gr.in_degree i ∧ 1 ≤ gr.out_degree i) := by
  simp only [degree_ok, mem_internal_vertices]
  constructor
  · intro h i hi
    by_cases h0 : gr.degree i = 0
    · exact Or.inl h0
    · exact Or.inr (h i hi.1 hi.2 (by omega))
  · intro h i h1 h2 h3
    rcases h i ⟨h1, h2⟩ with h0 | h0
    · omega
    · exact h0

theorem refine_while_done (fuel : Nat) (gr : splice_graph) (h : gr.edges.length < fuel) :
    ∃ gr', refine_while fuel gr = outcome.done gr' ∧ edges_removed_only gr gr' ∧
      gr'.edges.length ≤ gr.edges.length ∧
      refine_for (internal_vertices gr') (gr', false) = (gr', false) := by
  induction fuel generalizing gr with
  | zero => omega
  | succ fuel ih =>
    have hs := refine_for_shrinks (internal_vertices gr) gr false
    cases hfor : refine_for (internal_vertices gr) (gr, false) with
    | mk gr1 b =>
      rw [hfor] at hs
      simp only [refine_while, hfor]
      cases b with
      | false =>
        obtain ⟨h1, -⟩ := refine_for_false _ gr gr1 hfor
        subst h1
        exact ⟨gr1, by simp, edges_removed_only_refl gr1, le_refl _, hfor⟩
      | true =>
        have hlt : gr1.edges.length < gr.edges.length := by
          rcases hs.2.2 rfl with h0 | h0
          · simp at h0
          · exact h0
        obtain ⟨gr', h1, h2, h3, h4⟩ := ih gr1 (by omega)
        exact ⟨gr', by simpa using h1, edges_removed_only_trans hs.1 h2, by omega, h4⟩

theorem refine_while_mono (fuel : Nat) (gr gr' : splice_graph)
    (h : refine_while fuel gr = outcome.done gr') (fuel' : Nat) (hle : fuel ≤ fuel') :
    refine_while fuel' gr = outcome.done gr' := by
  induction fuel generalizing gr fuel' with
  | zero => simp [refine_while] at h
  | succ fuel ih =>
    obtain ⟨k, rfl⟩ : ∃ k, fuel' = k + 1 := ⟨fuel' - 1, by omega⟩
    cases hfor : refine_for (internal_vertices gr) (gr, false) with
    | mk gr1 b =>
      simp only [refine_while, hfor] at h ⊢
      cases b with
      | false => simpa using h
      | true =>
        simp only [Bool.true_eq_false, if_false] at h ⊢
        exact ih gr1 h k (by omega)

theorem refine_while_of_ok (fuel : Nat) (gr : splice_graph) (hfuel : 0 < fuel)
    (h : degree_ok gr) : refine_while fuel gr = outcome.done gr := by
  obtain ⟨k, rfl⟩ : ∃ k, fuel = k + 1 := ⟨fuel - 1, by omega⟩
  have hfor := refine_for_of_ok (internal_vertices gr) gr false ((degree_ok_iff gr).mp h)
  simp [refine_while, hfor]

theorem degree_ok_of_fixed (gr : splice_graph)
    (h : refine_for (internal_vertices gr) (gr, false) = (gr, false)) : degree_ok gr :=
  (degree_ok_iff gr).mpr (refine_for_false _ gr gr h).2

/-- C11: `bundle::refine_splice_graph` terminates on every splice graph (the `while`
loop ends within as many rounds as the graph has edges, plus one), it removes edges
only (the vertices, the vertex data and the remaining edges are unchanged), and on
return every internal vertex `i` (`0 < i < n - 1`) with degree `> 0` has an edge in and
an edge out. -/
theorem refine_splice_graph_terminates (gr : splice_graph) (hn : 0 < gr.num_vertices) :
    ∃ gr', (∀ fuel, gr.edges.length < fuel → refine_splice_graph fuel gr = outcome.done gr') ∧
      gr'.num_vertices = gr.num_vertices ∧ 0 < gr'.num_vertices ∧
      edges_removed_only gr gr' ∧ degree_ok gr' := by
  obtain ⟨gr', h1, h2, -, h4⟩ := refine_while_done (gr.edges.length + 1) gr (by omega)
  refine ⟨gr', fun fuel hfuel => ?_, ?_, ?_, h2, degree_ok_of_fixed gr' h4⟩
  · exact refine_while_mono _ gr gr' h1 fuel (by omega)
  · simp only [splice_graph.num_vertices, h2.1]
  · simpa only [splice_graph.num_vertices, h2.1] using hn

theorem refine_splice_graph_terminates_witness :
    0 < example_dangling.num_vertices ∧
      ∃ gr', (∀ fuel, example_dangling.edges.length < fuel →
          refine_splice_graph fuel example_dangling = outcome.done gr') ∧
        gr'.num_vertices = example_dangling.num_vertices ∧ 0 < gr'.num_vertices ∧
        edges_removed_only example_dangling gr' ∧ degree_ok gr' :=
  ⟨by decide, refine_splice_graph_terminates example_dangling (by decide)⟩

/-- C12: `bundle::refine_splice_graph` is idempotent: a second call on the graph that
a first call returns gives that graph back, and on a graph in which every internal
vertex with degree `> 0` already has an edge in and an edge out, the function changes
nothing. -/
theorem refine_splice_graph_idempotent (gr : splice_graph) (hn : 0 < gr.num_vertices) :
    (∃ gr', (∀ fuel, gr.edges.length < fuel →
          refine_splice_graph fuel gr = outcome.done gr') ∧ 0 < gr'.num_vertices ∧
        ∀ fuel, 0 < fuel → refine_splice_graph fuel gr' = outcome.done gr') ∧
      (degree_ok gr → ∀ fuel, 0 < fuel → refine_splice_graph fuel gr = outcome.done gr) := by
  constructor
  · obtain ⟨gr', h1, h2, -, h4⟩ := refine_while_done (gr.edges.length + 1) gr (by omega)
    refine ⟨gr', fun fuel hfuel => refine_while_mono _ gr gr' h1 fuel (by omega), ?_, ?_⟩
    · simpa only [splice_graph.num_vertices, h2.1] using hn
    intro fuel hfuel
    exact refine_while_of_ok fuel gr' hfuel (degree_ok_of_fixed gr' h4)
  · intro hok fuel hfuel
    exact refine_while_of_ok fuel gr hfuel hok

theorem refine_example_dangling :
    refine_splice_graph 6 example_dangling =
      outcome.done { example_dangling with removed := [0, 1, 2] } := by
  decide

theorem refine_splice_graph_idempotent_witness :
    0 < example_dangling.num_vertices ∧
      refine_splice_graph 6 example_dangling =
        outcome.done { example_dangling with removed := [0, 1, 2] } ∧
      refine_splice_graph 1 { example_dangling with removed := [0, 1, 2] } =
        outcome.done { example_dangling with removed := [0, 1, 2] } := by
  have h := refine_splice_graph_idempotent example_dangling (by decide)
  obtain ⟨gr', h1, -, h2⟩ := h.1
  have h6 := h1 6 (by decide)
  rw [refine_example_dangling] at h6
  have hgr : gr' = { example_dangling with removed := [0, 1, 2] } := by
    injection h6 with h6
    exact h6.symm
  subst hgr
  exact ⟨by decide, refine_example_dangling, h2 1 (by decide)⟩

/-! ### `phaser::normalize_epsilon` -/

theorem normalize_epsilon_ratio_bounds (x y : ℚ) (hx : 0 ≤ x) (hy : 0 ≤ y) :
    0 < (x + epsilon) / (x + y + 2 * epsilon) ∧ (x + epsilon) / (x + y + 2 * epsilon) < 1 := by
  have he : (0 : ℚ) < epsilon := by norm_num [epsilon]
  have hd : 0 < x + y + 2 * epsilon := by linarith
  exact ⟨div_pos (by linarith) hd, (div_lt_one hd).mpr (by linarith)⟩

theorem normalize_epsilon_of_pos (x y : ℚ) (hx : 0 ≤ x) (hy : 0 ≤ y) (hxy : 0 < x + y) :
    normalize_epsilon x y =
      some ((x + epsilon) / (x + y + 2 * epsilon), 1 - (x + epsilon) / (x + y + 2 * epsilon)) := by
  have hb := normalize_epsilon_ratio_bounds x y hx hy
  simp only [normalize_epsilon, hx, hy, not_true_eq_false, if_false, not_le.mpr hxy, hb,
    and_self]

/-- C14 (amended): for all `x ≥ 0` and `y ≥ 0` with `x + y > 0`,
`phaser::normalize_epsilon(x, y)` returns the pair `(z, 1 - z)` with
`z = (x + ε)/(x + y + 2ε)` and `ε = 0.01`, both components lie strictly between `0` and
`1` and they sum to `1`; for `x = y = 0` it returns the pair `(-1, -1)`. -/
theorem normalize_epsilon_smooths (x y : ℚ) (hx : 0 ≤ x) (hy : 0 ≤ y) :
    (0 < x + y → ∃ z : ℚ, z = (x + epsilon) / (x + y + 2 * epsilon) ∧ epsilon = 1 / 100 ∧
        normalize_epsilon x y = some (z, 1 - z) ∧
        0 < z ∧ z < 1 ∧ 0 < 1 - z ∧ 1 - z < 1 ∧ z + (1 - z) = 1) ∧
      (x + y = 0 → normalize_epsilon x y = some (-1, -1)) := by
  constructor
  · intro hxy
    have hb := normalize_epsilon_ratio_bounds x y hx hy
    refine ⟨_, rfl, rfl, normalize_epsilon_of_pos x y hx hy hxy, hb.1, hb.2, ?_, ?_, ?_⟩
    · linarith [hb.2]
    · linarith [hb.1]
    · ring
  · intro hxy
    simp only [normalize_epsilon, hx, hy, not_true_eq_false, if_false, hxy, le_refl, if_true]

theorem normalize_epsilon_smooths_witness :
    (0 : ℚ) ≤ 3 ∧ (0 : ℚ) ≤ 1 ∧
      ((0 : ℚ) < 3 + 1 → ∃ z : ℚ, z = (3 + epsilon) / (3 + 1 + 2 * epsilon) ∧
        epsilon = 1 / 100 ∧ normalize_epsilon 3 1 = some (z, 1 - z) ∧
        0 < z ∧ z < 1 ∧ 0 < 1 - z ∧ 1 - z < 1 ∧ z + (1 - z) = 1) ∧
      ((3 : ℚ) + 1 = 0 → normalize_epsilon 3 1 = some (-1, -1)) :=
  ⟨by norm_num, by norm_num, normalize_epsilon_smooths 3 1 (by norm_num) (by norm_num)⟩

/-- C14 (counterexample): at `x = y = 0` the function returns `(-1, -1)`, not the equal
split `(1/2, 1/2)` that `(x + ε)/(x + y + 2ε)` would give, and its components are not
between `0` and `1`. -/
theorem normalize_epsilon_zero_zero :
    normalize_epsilon 0 0 = some (-1, -1) ∧
      ((0 : ℚ) + epsilon) / (0 + 0 + 2 * epsilon) = 1 / 2 ∧
      normalize_epsilon 0 0 ≠ some (1 / 2, 1 - 1 / 2) ∧
      ¬ ∀ x y : ℚ, 0 ≤ x → 0 ≤ y → ∃ z : ℚ, normalize_epsilon x y = some (z, 1 - z) ∧
        0 < z ∧ z < 1 := by
  have h0 : normalize_epsilon 0 0 = some (-1, -1) := by
    simp [normalize_epsilon]
  refine ⟨h0, by norm_num [epsilon], ?_, ?_⟩
  · rw [h0]
    norm_num
  · intro h
    obtain ⟨z, hz, hpos, -⟩ := h 0 0 (le_refl 0) (le_refl 0)
    rw [h0] at hz
    have hz1 : (-1 : ℚ) = z := by
      have := congrArg (fun o => (o.getD (0, 0)).1) hz
      simpa using this
    linarith

/-! ### `hyper_set::add_node_list` -/

theorem map_find_mvii_put (m : List (List Int × Int)) (v : List Int) (c : Int) (k : List Int) :
    map_find (mvii_put m v c) k = if k = v then some c else map_find m k := by
  induction m with
  | nil => simp [mvii_put, map_find]
  | cons p m ih =>
    obtain ⟨k0, c0⟩ := p
    simp only [mvii_put]
    by_cases h1 : v = k0
    · subst h1
      simp only [if_true, map_find]
      by_cases hk : k = v <;> simp [hk]
    · simp only [h1, if_false]
      by_cases h2 : vec_lt v k0 = true
      · simp only [h2, if_true, map_find]
      · simp only [h2, if_false, map_find, ih]
        by_cases h3 : k = k0
        · subst h3
          have : ¬ k = v := fun h => h1 h.symm
          simp [this]
        · simp [h3]

theorem mvii_put_put (m : List (List Int × Int)) (v : List Int) (a b : Int) :
    mvii_put (mvii_put m v a) v b = mvii_put m v b := by
  induction m with
  | nil => simp [mvii_put]
  | cons p m ih =>
    obtain ⟨k0, c0⟩ := p
    simp only [mvii_put]
    by_cases h1 : v = k0
    · subst h1
      simp [mvii_put]
    · by_cases h2 : vec_lt v k0 = true
      · simp [h1, h2, mvii_put]
      · simp [h1, h2, mvii_put, ih]

theorem insertionSort_eq_of_perm (s t : List Int) (h : s.Perm t) :
    s.insertionSort (fun a b => a ≤ b) = t.insertionSort (fun a b => a ≤ b) := by
  apply List.eq_of_perm_of_sorted (r := fun a b : Int => a ≤ b)
  · exact ((List.perm_insertionSort _ s).trans h).trans (List.perm_insertionSort _ t).symm
  · exact List.sorted_insertionSort _ s
  · exact List.sorted_insertionSort _ t

theorem int32_of_range (x : Int) (h : int_range x) : int32 x = x := by
  unfold int_range at h
  unfold int32
  omega

theorem int_range_int32 (x : Int) : int_range (int32 x) := by
  unfold int_range int32
  omega

theorem int32_add_int32 (x y : Int) : int32 (int32 x + y) = int32 (x + y) := by
  unfold int32
  omega

theorem int32_add_int32_right (x y : Int) : int32 (x + int32 y) = int32 (x + y) := by
  unfold int32
  omega

theorem add_node_list_nodes (hs : hyper_set) (s : List Int) (c : Int) :
    (add_node_list hs s c).nodes = mvii_put hs.nodes
      (sorted_plus_one s)
      (added_count (map_find hs.nodes (sorted_plus_one s)) c) := by
  unfold add_node_list added_count
  cases h : map_find hs.nodes (sorted_plus_one s) with
  | none => simp
  | some c0 => simp

theorem sorted_plus_one_of_perm (s s' : List Int) (hp : s'.Perm s) :
    sorted_plus_one s' = sorted_plus_one s := by
  unfold sorted_plus_one
  rw [insertionSort_eq_of_perm s' s hp]

theorem sorted_plus_one_of_range (s : List Int) (h : ∀ i ∈ s, int_range (i + 1)) :
    sorted_plus_one s = (s.insertionSort (fun a b => a ≤ b)).map (fun i => i + 1) := by
  unfold sorted_plus_one
  apply List.map_congr_left
  intro i hi
  exact int32_of_range _ (h i (((List.perm_insertionSort _ s).mem_iff).mp hi))

theorem added_count_added (o : Option Int) (c1 c2 : Int) :
    added_count (some (added_count o c1)) c2 = added_count o (int32 (c1 + c2)) := by
  cases o with
  | none => rfl
  | some c0 =>
    simp only [added_count]
    rw [int32_add_int32, int32_add_int32_right, Int.add_assoc]

theorem add_node_list_fields (hs : hyper_set) (s : List Int) (c : Int) :
    (add_node_list hs s c).edges = hs.edges ∧ (add_node_list hs s c).ecnts = hs.ecnts ∧
      (add_node_list hs s c).e2s = hs.e2s ∧
      (add_node_list hs s c).edges_to_transform = hs.edges_to_transform := by
  unfold add_node_list
  cases h : map_find hs.nodes (sorted_plus_one s) with
  | none => exact ⟨rfl, rfl, rfl, rfl⟩
  | some c0 => exact ⟨rfl, rfl, rfl, rfl⟩

theorem hyper_set_ext (a b : hyper_set) (h1 : a.nodes = b.nodes) (h2 : a.edges = b.edges)
    (h3 : a.ecnts = b.ecnts) (h4 : a.e2s = b.e2s)
    (h5 : a.edges_to_transform = b.edges_to_transform) : a = b := by
  cases a
  cases b
  simp only [hyper_set.mk.injEq]
  exact ⟨h1, h2, h3, h4, h5⟩

/-- Claim C18 (what the code does). For every node sequence `s` and count `c`,
`hyper_set::add_node_list(s, c)` stores under the key `v`, which is `s` sorted ascending
with `1` added to every element as an `int`: the count `c` when the key was absent, and
the `int` sum of the old count and `c` when it was present, which is their sum whenever
that lies in the range of `int`; `v` is `s` sorted with `1` added to every element when
no element is `INT_MAX`. All other keys and counts, and the rest of the hyper-set, are
unchanged; two sequences that are permutations of one another update the same key, and
adding `s` with `c1` and then a permutation of `s` with `c2` leaves the same state as
adding `s` once with the `int` sum of `c1` and `c2`. -/
theorem add_node_list_merges (hs : hyper_set) (s : List Int) (c : Int) :
    (map_find (add_node_list hs s c).nodes (sorted_plus_one s) =
        some (added_count (map_find hs.nodes (sorted_plus_one s)) c) ∧
      (int_range (node_count hs (sorted_plus_one s) + c) →
        map_find (add_node_list hs s c).nodes (sorted_plus_one s) =
          some (node_count hs (sorted_plus_one s) + c)) ∧
      ((∀ i ∈ s, int_range (i + 1)) → is_node_key s (sorted_plus_one s)) ∧
      (∀ k, k ≠ sorted_plus_one s →
        map_find (add_node_list hs s c).nodes k = map_find hs.nodes k) ∧
      (add_node_list hs s c).edges = hs.edges ∧ (add_node_list hs s c).ecnts = hs.ecnts ∧
      (add_node_list hs s c).e2s = hs.e2s ∧
      (add_node_list hs s c).edges_to_transform = hs.edges_to_transform ∧
      ∀ s' : List Int, s'.Perm s → sorted_plus_one s' = sorted_plus_one s) ∧
    (∀ s' : List Int, s'.Perm s → add_node_list hs s' c = add_node_list hs s c) ∧
    ∀ (s' : List Int) (c1 c2 : Int), s'.Perm s →
      add_node_list (add_node_list hs s c1) s' c2 = add_node_list hs s (int32 (c1 + c2)) ∧
      (int_range (c1 + c2) →
        add_node_list (add_node_list hs s c1) s' c2 = add_node_list hs s (c1 + c2)) := by
  have hperm : ∀ s' : List Int, s'.Perm s → add_node_list hs s' c = add_node_list hs s c := by
    intro s' hp
    unfold add_node_list
    rw [sorted_plus_one_of_perm s s' hp]
  have hfind : map_find (add_node_list hs s c).nodes (sorted_plus_one s) =
      some (added_count (map_find hs.nodes (sorted_plus_one s)) c) := by
    rw [add_node_list_nodes, map_find_mvii_put, if_pos rfl]
  have hmerge : ∀ (s' : List Int) (c1 c2 : Int), s'.Perm s →
      add_node_list (add_node_list hs s c1) s' c2 = add_node_list hs s (int32 (c1 + c2)) := by
    intro s' c1 c2 hp
    have hs' : ∀ h0 : hyper_set, add_node_list h0 s' c2 = add_node_list h0 s c2 := by
      intro h0
      unfold add_node_list
      rw [sorted_plus_one_of_perm s s' hp]
    rw [hs']
    obtain ⟨h1, h2, h3, h4⟩ := add_node_list_fields hs s c1
    obtain ⟨g1, g2, g3, g4⟩ := add_node_list_fields (add_node_list hs s c1) s c2
    obtain ⟨f1, f2, f3, f4⟩ := add_node_list_fields hs s (int32 (c1 + c2))
    apply hyper_set_ext
    · rw [add_node_list_nodes, add_node_list_nodes hs s (int32 (c1 + c2)),
        add_node_list_nodes hs s c1, mvii_put_put, map_find_mvii_put, if_pos rfl,
        added_count_added]
    · rw [g1, h1, f1]
    · rw [g2, h2, f2]
    · rw [g3, h3, f3]
    · rw [g4, h4, f4]
  refine ⟨⟨hfind, ?_, ?_, ?_, ?_⟩, hperm, ?_⟩
  · intro hr
    rw [hfind]
    unfold node_count at hr
    unfold node_count added_count
    cases h : map_find hs.nodes (sorted_plus_one s) with
    | none => simp
    | some c0 =>
      rw [h] at hr
      simp only [Option.getD_some] at hr ⊢
      rw [int32_of_range _ hr]
  · intro hr
    exact ⟨_, List.sorted_insertionSort _ s, List.perm_insertionSort _ s,
      sorted_plus_one_of_range s hr⟩
  · intro k hk
    rw [add_node_list_nodes, map_find_mvii_put, if_neg hk]
  · obtain ⟨h1, h2, h3, h4⟩ := add_node_list_fields hs s c
    exact ⟨h1, h2, h3, h4, fun s' hp => sorted_plus_one_of_perm s s' hp⟩
  · intro s' c1 c2 hp
    refine ⟨hmerge s' c1 c2 hp, fun hr => ?_⟩
    rw [hmerge s' c1 c2 hp, int32_of_range _ hr]

/-- An instance of `add_node_list_merges`: `[3, 1, 2]` with count 4 and then its
permutation `[2, 3, 1]` with count 5 leave the key `[2, 3, 4]` with count 9. -/
theorem add_node_list_merges_witness :
    List.Perm [2, 3, 1] ([3, 1, 2] : List Int) ∧
      add_node_list (add_node_list example_rows [3, 1, 2] 4) [2, 3, 1] 5 =
        add_node_list example_rows [3, 1, 2] (4 + 5) ∧
      (add_node_list example_rows [3, 1, 2] (4 + 5)).nodes = [([2, 3, 4], 9)] :=
  ⟨by decide,
    ((add_node_list_merges example_rows [3, 1, 2] 4).2.2 [2, 3, 1] 4 5 (by decide)).2
      (by decide),
    by decide⟩

/-- With the count `2147483647` stored under the key `[2]`, `add_node_list([1], 1)`
leaves `-2147483648` there, which is not the sum `2147483648`. -/
theorem add_node_list_wraps :
    map_find (add_node_list { example_rows with nodes := [([2], 2147483647)] } [1] 1).nodes
        [2] = some (-2147483648) ∧
      node_count { example_rows with nodes := [([2], 2147483647)] } [2] + 1 = 2147483648 := by
  decide

/-! ### `hyper_set::update_index` -/

theorem mem_keys_map_put {β : Type} (m : List (Int × β)) (a : Int) (b : β) (k : Int) :
    k ∈ (map_put m a b).map Prod.fst ↔ k = a ∨ k ∈ m.map Prod.fst := by
  induction m with
  | nil => simp [map_put]
  | cons p m ih =>
    obtain ⟨k0, v0⟩ := p
    simp only [map_put]
    by_cases h1 : a = k0
    · subst h1
      simp
    · by_cases h2 : a < k0
      · simp [h1, h2]
      · simp only [h1, h2, if_false, List.map_cons, List.mem_cons, ih]
        tauto

theorem map_sorted_put {β : Type} (m : List (Int × β)) (a : Int) (b : β) (h : map_sorted m) :
    map_sorted (map_put m a b) := by
  induction m with
  | nil => simp [map_put, map_sorted]
  | cons p m ih =>
    obtain ⟨k0, v0⟩ := p
    unfold map_sorted at h ih ⊢
    simp only [List.map_cons, List.pairwise_cons] at h
    simp only [map_put]
    by_cases h1 : a = k0
    · subst h1
      simp only [if_true, List.map_cons, List.pairwise_cons]
      exact h
    · by_cases h2 : a < k0
      · simp only [h1, h2, if_false, if_true, List.map_cons, List.pairwise_cons, List.mem_cons]
        refine ⟨?_, h⟩
        intro k hk
        rcases hk with rfl | hk
        · exact h2
        · exact lt_trans h2 (h.1 k hk)
      · simp only [h1, h2, if_false, List.map_cons, List.pairwise_cons]
        refine ⟨?_, ih h.2⟩
        intro k hk
        rcases (mem_keys_map_put m a b k).mp hk with rfl | hk
        · omega
        · exact h.1 k hk

theorem map_sorted_e2s_add (m : List (Int × List Nat)) (e : Int) (k : Nat) (h : map_sorted m) :
    map_sorted (e2s_add m e k) := by
  unfold e2s_add
  cases map_find m e <;> exact map_sorted_put m e _ h

theorem map_sorted_build_index_row (i : Nat) (v : List Int) (m : List (Int × List Nat))
    (h : map_sorted m) : map_sorted (build_index_row i v m) := by
  induction v generalizing m with
  | nil => exact h
  | cons e v ih =>
    simp only [build_index_row]
    split
    · exact ih m h
    · exact ih _ (map_sorted_e2s_add m e i h)

theorem map_sorted_build_index_loop (rows : List (List Int)) (i : Nat)
    (m : List (Int × List Nat)) (h : map_sorted m) : map_sorted (build_index_loop i rows m) := by
  induction rows generalizing i m with
  | nil => exact h
  | cons v rows ih =>
    simp only [build_index_loop]
    exact ih (i + 1) _ (map_sorted_build_index_row i v m h)

theorem map_find_of_mem_sorted {β : Type} (m : List (Int × β)) (h : map_sorted m) (k : Int)
    (v : β) (hmem : (k, v) ∈ m) : map_find m k = some v := by
  induction m with
  | nil => simp at hmem
  | cons p m ih =>
    obtain ⟨k0, v0⟩ := p
    unfold map_sorted at h ih
    simp only [List.map_cons, List.pairwise_cons] at h
    simp only [map_find]
    rcases List.mem_cons.mp hmem with heq | hm
    · simp only [Prod.mk.injEq] at heq
      simp [heq.1, heq.2]
    · have hk : k0 < k := h.1 k (List.mem_map.mpr ⟨(k, v), hm, rfl⟩)
      rw [if_neg (by omega)]
      exact ih h.2 hm

theorem mem_of_map_find {κ β : Type} [DecidableEq κ] (m : List (κ × β)) (k : κ) (v : β)
    (h : map_find m k = some v) : (k, v) ∈ m := by
  induction m with
  | nil => simp [map_find] at h
  | cons p m ih =>
    obtain ⟨k0, v0⟩ := p
    simp only [map_find] at h
    split at h
    · rename_i hk
      simp only [Option.some.injEq] at h
      simp [hk, h]
    · exact List.mem_cons_of_mem _ (ih h)

theorem mem_erase_all (fb s : List Nat) (i : Nat) : i ∈ erase_all fb s ↔ i ∈ s ∧ i ∉ fb := by
  unfold erase_all
  induction fb generalizing s with
  | nil => simp
  | cons k fb ih =>
    simp only [List.foldl_cons, ih, mem_set_erase, List.mem_cons, not_or]
    tauto

theorem update_index_scan_first (e : Int) (v : List Int) (j : Nat)
    (hj : first_occurrence e v j) (n i : Nat) (hi : i ≤ j) (hn : j < i + n) :
    update_index_scan e v n i =
      decide ((j = 0 ∨ v[j - 1]? = some (-1)) ∧ (j = v.length - 1 ∨ v[j + 1]? = some (-1))) := by
  induction n generalizing i with
  | zero => omega
  | succ n ih =>
    simp only [update_index_scan]
    by_cases h : v[i]? = some e
    · have hij : i = j := by
        by_contra hne
        exact hj.2 i (by omega) h
      subst hij
      simp [h]
    · have hij : i ≠ j := fun h0 => h (h0 ▸ hj.1)
      simp only [ne_eq, h, not_false_eq_true, if_true]
      exact ih (i + 1) (by omega) (by omega)

theorem update_index_scan_none (e : Int) (v : List Int) (h : e ∉ v) (n i : Nat) :
    update_index_scan e v n i = false := by
  induction n generalizing i with
  | zero => rfl
  | succ n ih =>
    simp only [update_index_scan]
    have hne : v[i]? ≠ some e := fun h0 => h (List.getElem?_mem h0)
    simp only [ne_eq, hne, not_false_eq_true, if_true]
    exact ih (i + 1)

theorem exists_first_occurrence (e : Int) (v : List Int) (h : e ∈ v) :
    ∃ j, first_occurrence e v j := by
  classical
  have hex : ∃ j : Nat, v[j]? = some e := by
    obtain ⟨j, hj, hje⟩ := List.getElem_of_mem h
    exact ⟨j, by simp [List.getElem?_eq_getElem hj, hje]⟩
  exact ⟨Nat.find hex, Nat.find_spec hex, fun j' hj' => Nat.find_min hex hj'⟩

theorem first_occurrence_lt (e : Int) (v : List Int) (j : Nat) (h : first_occurrence e v j) :
    j < v.length := by
  by_contra hge
  have := h.1
  rw [List.getElem?_eq_none (by omega)] at this
  simp at this

theorem first_occurrence_unique (e : Int) (v : List Int) (j j' : Nat)
    (h : first_occurrence e v j) (h' : first_occurrence e v j') : j = j' := by
  by_contra hne
  rcases Nat.lt_or_gt_of_ne hne with hlt | hgt
  · exact h'.2 j hlt h.1
  · exact h.2 j' hgt h'.1

theorem update_index_scan_false_iff (e : Int) (v : List Int) (he : e ∈ v) :
    update_index_scan e v v.length 0 = false ↔
      ∃ j, first_occurrence e v j ∧ has_neighbour v j := by
  obtain ⟨j, hj⟩ := exists_first_occurrence e v he
  have hlt := first_occurrence_lt e v j hj
  have hscan := update_index_scan_first e v j hj v.length 0 (by omega) (by omega)
  have hiff : has_neighbour v j ↔
      ¬ ((j = 0 ∨ v[j - 1]? = some (-1)) ∧ (j = v.length - 1 ∨ v[j + 1]? = some (-1))) := by
    unfold has_neighbour
    constructor
    · rintro (⟨h1, h2⟩ | ⟨h1, h2⟩) ⟨h3, h4⟩
      · rcases h3 with h3 | h3
        · omega
        · exact h2 h3
      · rcases h4 with h4 | h4
        · omega
        · exact h2 h4
    · intro h
      by_cases h1 : 0 < j ∧ v[j - 1]? ≠ some (-1)
      · exact Or.inl h1
      · right
        have h3 : j = 0 ∨ v[j - 1]? = some (-1) := by
          by_contra hc
          push_neg at hc
          exact h1 ⟨by omega, hc.2⟩
        constructor
        · by_contra hc
          exact h ⟨h3, Or.inl (by omega)⟩
        · intro hc
          exact h ⟨h3, Or.inr hc⟩
  rw [hscan]
  constructor
  · intro h
    refine ⟨j, hj, hiff.mpr ?_⟩
    simpa using h
  · rintro ⟨j', hj', hn⟩
    have : j' = j := first_occurrence_unique e v j' j hj' hj
    subst this
    have := hiff.mp hn
    simpa using this

theorem update_index_rows_eq (edges : List (List Int)) (e : Int) (ss fb2 : List Nat)
    (h : ∀ k ∈ ss, k < edges.length) :
    update_index_rows edges e ss fb2 = some (fb2 ++ isolated_rows edges e ss) := by
  induction ss generalizing fb2 with
  | nil => simp [update_index_rows, isolated_rows]
  | cons k ss ih =>
    have hk : k < edges.length := h k (List.mem_cons_self k ss)
    have hss : ∀ k ∈ ss, k < edges.length := fun j hj => h j (List.mem_cons_of_mem k hj)
    have hget : edges[k]? = some edges[k] := List.getElem?_eq_getElem hk
    simp only [update_index_rows, hget]
    by_cases hscan : update_index_scan e edges[k] edges[k].length 0 = true
    · rw [if_pos hscan, ih _ hss]
      simp only [isolated_rows, List.filter_cons, hget, hscan, if_true, List.append_assoc,
        List.singleton_append]
    · rw [if_neg hscan, ih _ hss]
      simp only [isolated_rows, List.filter_cons, hget, hscan, Bool.false_eq_true, if_false]

theorem update_index_loop_eq (edges : List (List Int)) (m : List (Int × List Nat))
    (visited : List (Int × List Nat)) (fb1 : List Int)
    (h : ∀ p ∈ m, ∀ k ∈ p.2, k < edges.length) :
    update_index_loop edges m (visited, fb1) =
      some (visited ++ m.map (update_index_entry edges),
        fb1 ++ (m.filter (fun p => decide ((update_index_entry edges p).2 = []))).map Prod.fst) := by
  induction m generalizing visited fb1 with
  | nil => simp [update_index_loop]
  | cons p m ih =>
    obtain ⟨e, ss⟩ := p
    have hss : ∀ k ∈ ss, k < edges.length := h (e, ss) (List.mem_cons_self _ m)
    have hm : ∀ p ∈ m, ∀ k ∈ p.2, k < edges.length :=
      fun q hq => h q (List.mem_cons_of_mem _ hq)
    simp only [update_index_loop, update_index_rows_eq edges e ss [] hss, List.nil_append,
      List.length_eq_zero]
    by_cases hemp : erase_all (isolated_rows edges e ss) ss = []
    · rw [if_pos hemp, ih _ _ hm]
      simp [update_index_entry, hemp]
    · rw [if_neg hemp, ih _ _ hm]
      simp [update_index_entry, hemp]

theorem map_find_update_index_entry (edges : List (List Int)) (m : List (Int × List Nat))
    (k : Int) :
    map_find (m.map (update_index_entry edges)) k =
      (map_find m k).map (fun ss => erase_all (isolated_rows edges k ss) ss) := by
  induction m with
  | nil => simp [map_find]
  | cons p m ih =>
    obtain ⟨k0, v0⟩ := p
    simp only [List.map_cons, update_index_entry, map_find]
    by_cases hk : k = k0
    · subst hk
      simp
    · simp only [hk, if_false]
      exact ih

theorem map_find_foldl_erase (fb1 : List Int) (m : List (Int × List Nat)) (k : Int) :
    map_find (fb1.foldl (fun m e => map_erase m e) m) k =
      if k ∈ fb1 then none else map_find m k := by
  induction fb1 generalizing m with
  | nil => simp
  | cons a fb1 ih =>
    simp only [List.foldl_cons, ih, map_find_erase, List.mem_cons]
    by_cases h1 : k = a
    · simp [h1]
    · simp [h1]

theorem e2s_mem_update_index (hs : hyper_set) (hsorted : map_sorted hs.e2s)
    (hrows : ∀ p ∈ hs.e2s, ∀ k ∈ p.2, k < hs.edges.length) :
    ∃ hs', update_index hs = some hs' ∧ hs'.edges = hs.edges ∧ hs'.ecnts = hs.ecnts ∧
      hs'.nodes = hs.nodes ∧
      ∀ e i, e2s_mem hs'.e2s e i ↔
        (e2s_mem hs.e2s e i ∧
          ∀ v, hs.edges[i]? = some v → update_index_scan e v v.length 0 = false) := by
  have hloop := update_index_loop_eq hs.edges hs.e2s [] [] hrows
  obtain ⟨m', hm'⟩ : ∃ m', m' = List.foldl (fun m e => map_erase m e)
      (hs.e2s.map (update_index_entry hs.edges))
      ((hs.e2s.filter (fun p => decide ((update_index_entry hs.edges p).2 = []))).map
        Prod.fst) := ⟨_, rfl⟩
  have hrun : update_index hs = some { hs with e2s := m' } := by
    simp only [update_index, hloop, List.nil_append, hm']
  refine ⟨_, hrun, rfl, rfl, rfl, ?_⟩
  intro e i
  simp only [e2s_mem, hm', map_find_foldl_erase, map_find_update_index_entry]
  have hiso : ∀ ss : List Nat, i ∈ erase_all (isolated_rows hs.edges e ss) ss ↔
      i ∈ ss ∧ ∀ v, hs.edges[i]? = some v → update_index_scan e v v.length 0 = false := by
    intro ss
    rw [mem_erase_all]
    simp only [isolated_rows, List.mem_filter, not_and]
    constructor
    · rintro ⟨h1, h2⟩
      refine ⟨h1, fun v hv => ?_⟩
      have := h2 h1
      rw [hv] at this
      simpa using this
    · rintro ⟨h1, h2⟩
      refine ⟨h1, fun _ => ?_⟩
      cases hv : hs.edges[i]? with
      | none => simp
      | some v => simp [h2 v hv]
  constructor
  · rintro ⟨s, hs1, hs2⟩
    split at hs1
    · simp at hs1
    · cases hfind : map_find hs.e2s e with
      | none => simp [hfind] at hs1
      | some ss =>
        simp only [hfind, Option.map_some', Option.some.injEq] at hs1
        subst hs1
        exact ⟨⟨ss, rfl, ((hiso ss).mp hs2).1⟩, ((hiso ss).mp hs2).2⟩
  · rintro ⟨⟨ss, hfind, hmem⟩, hscan⟩
    have hin : i ∈ erase_all (isolated_rows hs.edges e ss) ss := (hiso ss).mpr ⟨hmem, hscan⟩
    refine ⟨erase_all (isolated_rows hs.edges e ss) ss, ?_, hin⟩
    have hnot : e ∉ (hs.e2s.filter
        (fun p => decide ((update_index_entry hs.edges p).2 = []))).map Prod.fst := by
      intro hc
      obtain ⟨p, hp, hpe⟩ := List.mem_map.mp hc
      obtain ⟨hp1, hp2⟩ := List.mem_filter.mp hp
      obtain ⟨k0, s0⟩ := p
      simp only at hpe
      subst hpe
      have hf := map_find_of_mem_sorted hs.e2s hsorted k0 s0 hp1
      rw [hfind] at hf
      simp only [Option.some.injEq] at hf
      subst hf
      simp only [update_index_entry, decide_eq_true_eq] at hp2
      rw [hp2] at hin
      simp at hin
    rw [if_neg hnot, hfind]
    rfl

/-- C20 (amended): after `hyper_set::build_index` followed by
`hyper_set::update_index`, for every edge `e` and every row index `i`: `i` is in
`e2s[e]` if and only if `e` (not the gap `-1`) occurs in row `i` and, at its first
occurrence there, has a left neighbour or a right neighbour that exists and is
different from `-1`. The rows and the counts are unchanged. -/
theorem update_index_keeps_used (hs : hyper_set) :
    ∃ hs', update_index (build_index hs) = some hs' ∧ hs'.edges = hs.edges ∧
      hs'.ecnts = hs.ecnts ∧
      ∀ e i, e2s_mem hs'.e2s e i ↔
        (e ≠ -1 ∧ ∃ row j, hs.edges[i]? = some row ∧ first_occurrence e row j ∧
          has_neighbour row j) := by
  have hidx := index_lists_rows_build_index hs
  have hsorted : map_sorted (build_index hs).e2s :=
    map_sorted_build_index_loop hs.edges 0 [] (by simp [map_sorted])
  have hrows : ∀ p ∈ (build_index hs).e2s, ∀ k ∈ p.2, k < (build_index hs).edges.length := by
    intro p hp k hk
    have hfind := map_find_of_mem_sorted _ hsorted p.1 p.2 hp
    obtain ⟨-, row, hrow, -⟩ := (hidx.2 p.1 k).mp ⟨p.2, hfind, hk⟩
    by_contra hge
    rw [List.getElem?_eq_none (by omega)] at hrow
    simp at hrow
  obtain ⟨hs', h1, h2, h3, -, h5⟩ := e2s_mem_update_index (build_index hs) hsorted hrows
  refine ⟨hs', h1, h2, h3, ?_⟩
  intro e i
  rw [h5, hidx.2]
  have hedges : (build_index hs).edges = hs.edges := rfl
  rw [hedges]
  constructor
  · rintro ⟨⟨hne, row, hrow, hmem⟩, hscan⟩
    obtain ⟨j, hj1, hj2⟩ := (update_index_scan_false_iff e row hmem).mp (hscan row hrow)
    exact ⟨hne, row, j, hrow, hj1, hj2⟩
  · rintro ⟨hne, row, j, hrow, hj1, hj2⟩
    have hmem : e ∈ row := List.getElem?_mem hj1.1
    refine ⟨⟨hne, row, hrow, hmem⟩, fun v hv => ?_⟩
    rw [hrow] at hv
    simp only [Option.some.injEq] at hv
    subst hv
    exact (update_index_scan_false_iff e row hmem).mpr ⟨j, hj1, hj2⟩

/-- C20 (counterexample): in the hyper-set with the rows `[1, 2]` and
`[1, -1, 2, 1, 3]`, after `build_index` and `update_index` row `0` is listed under
edge `1`, which has no left neighbour there, and row `1` is not listed under edge `1`,
which stands between `2` and `3` there. -/
theorem update_index_keeps_one_sided :
    (∃ hs', update_index (build_index example_neighbours) = some hs' ∧
      hs'.e2s = [(1, [0]), (2, [0, 1]), (3, [1])]) ∧
      ¬ between_neighbours 1 [1, 2] ∧ between_neighbours 1 [1, -1, 2, 1, 3] ∧
      ¬ ∀ hs', update_index (build_index example_neighbours) = some hs' →
        ∀ e i, e2s_mem hs'.e2s e i ↔
          ∃ row, example_neighbours.edges[i]? = some row ∧ between_neighbours e row := by
  have hrun : update_index (build_index example_neighbours) = some
      { example_neighbours with e2s := [(1, [0]), (2, [0, 1]), (3, [1])] } := by decide
  have hnot : ¬ between_neighbours 1 [1, 2] := by
    rintro ⟨j, hj0, hj1, -, b, hb, -⟩
    match j, hj0 with
    | 1, _ => simp at hj1
    | j + 2, _ => simp at hj1
  refine ⟨⟨_, hrun, rfl⟩, hnot, ⟨3, by decide, by decide, ⟨2, by decide, by decide⟩,
    ⟨3, by decide, by decide⟩⟩, ?_⟩
  intro h
  have h10 := (h _ hrun 1 0).mp ⟨[0], by decide, by decide⟩
  obtain ⟨row, hrow, hbet⟩ := h10
  have : row = [1, 2] := by
    have h0 : example_neighbours.edges[0]? = some [1, 2] := by decide
    rw [h0] at hrow
    simpa using hrow.symm
  subst this
  exact hnot hbet

/-! ### `hyper_set::left_dominate` and `hyper_set::right_dominate` -/

theorem mem_pi_insert (p q : Int × Int) (s : List (Int × Int)) :
    q ∈ pi_insert p s ↔ q = p ∨ q ∈ s := by
  induction s with
  | nil => simp [pi_insert]
  | cons a s ih =>
    simp only [pi_insert]
    by_cases h1 : p = a
    · subst h1
      simp
    · by_cases h2 : pi_lt p a = true
      · simp [h1, h2]
      · have h2' : pi_lt p a = false := by simpa using h2
        simp only [h1, h2', if_false, Bool.false_eq_true, List.mem_cons, ih]
        tauto

theorem left_dominate_scan_step (e : Int) (vv : List Int) (n i : Nat)
    (x1 x2 : List (Int × Int)) :
    ∃ y1 y2, left_dominate_scan e vv (n + 1) i (x1, x2) =
        left_dominate_scan e vv n (i + 1) (y1, y2) ∧
      (∀ q, q ∈ y1 ↔ q ∈ x1 ∨ boundary_pair_at e vv i q) ∧
      (∀ q, q ∈ y2 ↔ q ∈ x2 ∨ inner_pair_at e vv i q) := by
  simp only [left_dominate_scan, boundary_pair_at, inner_pair_at]
  cases ha : vv[i]? with
  | none => exact ⟨x1, x2, rfl, by simp, by simp⟩
  | some a =>
    cases hb : vv[i + 1]? with
    | none => exact ⟨x1, x2, rfl, by simp, by simp⟩
    | some b =>
      simp only []
      by_cases hae : a = e
      · subst hae
        by_cases hb1 : b = -1
        · subst hb1
          exact ⟨x1, x2, by simp, by simp, by simp⟩
        · by_cases hbd : i = 0 ∨ vv[i - 1]? = some (-1)
          · cases hc : vv[i + 2]? with
            | none =>
              refine ⟨pi_insert (b, -1) x1, x2, by simp [hb1, hbd], ?_, by simp [hbd]⟩
              intro q
              simp [mem_pi_insert, hb1, hbd]
              tauto
            | some c =>
              refine ⟨pi_insert (b, c) x1, x2, by simp [hb1, hbd], ?_, by simp [hbd]⟩
              intro q
              simp [mem_pi_insert, hb1, hbd]
              tauto
          · cases hc : vv[i + 2]? with
            | none =>
              refine ⟨x1, pi_insert (b, -1) x2, by simp [hb1, hbd], by simp [hbd], ?_⟩
              intro q
              simp [mem_pi_insert, hb1, hbd]
              tauto
            | some c =>
              refine ⟨x1, pi_insert (b, c) (pi_insert (b, -1) x2), by simp [hb1, hbd],
                by simp [hbd], ?_⟩
              intro q
              simp [mem_pi_insert, hb1, hbd]
              tauto
      · refine ⟨x1, x2, by simp [hae], ?_, ?_⟩
        · intro q
          simp [hae]
        · intro q
          simp [hae]

theorem left_dominate_scan_mem (e : Int) (vv : List Int) (n i : Nat)
    (x1 x2 : List (Int × Int)) (hn : vv.length ≤ i + n + 1) :
    (∀ q, q ∈ (left_dominate_scan e vv n i (x1, x2)).1 ↔
        q ∈ x1 ∨ ∃ j, i ≤ j ∧ boundary_pair_at e vv j q) ∧
      (∀ q, q ∈ (left_dominate_scan e vv n i (x1, x2)).2 ↔
        q ∈ x2 ∨ ∃ j, i ≤ j ∧ inner_pair_at e vv j q) := by
  induction n generalizing i x1 x2 with
  | zero =>
    have hnone : ∀ j, i ≤ j → vv[j + 1]? = none := fun j hj =>
      List.getElem?_eq_none (by omega)
    simp only [left_dominate_scan]
    constructor
    · intro q
      constructor
      · exact fun h => Or.inl h
      · rintro (h | ⟨j, hj, b, -, hb, -⟩)
        · exact h
        · rw [hnone j hj] at hb
          simp at hb
    · intro q
      constructor
      · exact fun h => Or.inl h
      · rintro (h | ⟨j, hj, b, -, hb, -⟩)
        · exact h
        · rw [hnone j hj] at hb
          simp at hb
  | succ n ih =>
    obtain ⟨y1, y2, hstep, h1, h2⟩ := left_dominate_scan_step e vv n i x1 x2
    rw [hstep]
    obtain ⟨g1, g2⟩ := ih (i + 1) y1 y2 (by omega)
    constructor
    · intro q
      rw [g1, h1]
      constructor
      · rintro ((h | h) | ⟨j, hj, h⟩)
        · exact Or.inl h
        · exact Or.inr ⟨i, le_refl i, h⟩
        · exact Or.inr ⟨j, by omega, h⟩
      · rintro (h | ⟨j, hj, h⟩)
        · exact Or.inl (Or.inl h)
        · rcases Nat.eq_or_lt_of_le hj with rfl | hlt
          · exact Or.inl (Or.inr h)
          · exact Or.inr ⟨j, hlt, h⟩
    · intro q
      rw [g2, h2]
      constructor
      · rintro ((h | h) | ⟨j, hj, h⟩)
        · exact Or.inl h
        · exact Or.inr ⟨i, le_refl i, h⟩
        · exact Or.inr ⟨j, by omega, h⟩
      · rintro (h | ⟨j, hj, h⟩)
        · exact Or.inl (Or.inl h)
        · rcases Nat.eq_or_lt_of_le hj with rfl | hlt
          · exact Or.inl (Or.inr h)
          · exact Or.inr ⟨j, hlt, h⟩

theorem right_dominate_scan_step (e : Int) (vv : List Int) (n i : Nat) (hi : 1 ≤ i)
    (x1 x2 : List (Int × Int)) :
    ∃ y1 y2, right_dominate_scan e vv (n + 1) i (x1, x2) =
        right_dominate_scan e vv n (i + 1) (y1, y2) ∧
      (∀ q, q ∈ y1 ↔ q ∈ x1 ∨ left_boundary_pair_at e vv i q) ∧
      (∀ q, q ∈ y2 ↔ q ∈ x2 ∨ left_inner_pair_at e vv i q) := by
  simp only [right_dominate_scan, left_boundary_pair_at, left_inner_pair_at]
  cases ha : vv[i]? with
  | none => exact ⟨x1, x2, rfl, by simp, by simp⟩
  | some a =>
    cases hb : vv[i - 1]? with
    | none => exact ⟨x1, x2, rfl, by simp, by simp⟩
    | some b =>
      simp only []
      by_cases hae : a = e
      · subst hae
        by_cases hb1 : b = -1
        · subst hb1
          exact ⟨x1, x2, by simp, by simp, by simp⟩
        · by_cases hbd : i = vv.length - 1 ∨ vv[i + 1]? = some (-1)
          · by_cases h2 : 2 ≤ i
            · refine ⟨pi_insert (b, (vv[i - 2]?).getD 0) x1, x2, by simp [hb1, hbd, h2], ?_,
                by simp [hbd]⟩
              intro q
              simp [mem_pi_insert, hb1, hbd, h2, hi]
              tauto
            · refine ⟨pi_insert (b, -1) x1, x2, by simp [hb1, hbd, h2], ?_, by simp [hbd]⟩
              intro q
              simp [mem_pi_insert, hb1, hbd, h2, hi]
              tauto
          · by_cases h2 : 2 ≤ i
            · refine ⟨x1, pi_insert (b, (vv[i - 2]?).getD 0) (pi_insert (b, -1) x2),
                by simp [hb1, hbd, h2], by simp [hbd], ?_⟩
              intro q
              simp [mem_pi_insert, hb1, hbd, h2, hi]
              tauto
            · refine ⟨x1, pi_insert (b, -1) x2, by simp [hb1, hbd, h2], by simp [hbd], ?_⟩
              intro q
              simp [mem_pi_insert, hb1, hbd, h2, hi]
              tauto
      · refine ⟨x1, x2, by simp [hae], ?_, ?_⟩
        · intro q
          simp [hae]
        · intro q
          simp [hae]

theorem right_dominate_scan_mem (e : Int) (vv : List Int) (n i : Nat) (hi : 1 ≤ i)
    (x1 x2 : List (Int × Int)) (hn : vv.length ≤ i + n) :
    (∀ q, q ∈ (right_dominate_scan e vv n i (x1, x2)).1 ↔
        q ∈ x1 ∨ ∃ j, i ≤ j ∧ left_boundary_pair_at e vv j q) ∧
      (∀ q, q ∈ (right_dominate_scan e vv n i (x1, x2)).2 ↔
        q ∈ x2 ∨ ∃ j, i ≤ j ∧ left_inner_pair_at e vv j q) := by
  induction n generalizing i x1 x2 with
  | zero =>
    have hnone : ∀ j, i ≤ j → vv[j]? = none := fun j hj =>
      List.getElem?_eq_none (by omega)
    simp only [right_dominate_scan]
    constructor
    · intro q
      constructor
      · exact fun h => Or.inl h
      · rintro (h | ⟨j, hj, b, -, hb, -⟩)
        · exact h
        · rw [hnone j hj] at hb
          simp at hb
    · intro q
      constructor
      · exact fun h => Or.inl h
      · rintro (h | ⟨j, hj, b, -, hb, -⟩)
        · exact h
        · rw [hnone j hj] at hb
          simp at hb
  | succ n ih =>
    obtain ⟨y1, y2, hstep, h1, h2⟩ := right_dominate_scan_step e vv n i hi x1 x2
    rw [hstep]
    obtain ⟨g1, g2⟩ := ih (i + 1) (by omega) y1 y2 (by omega)
    constructor
    · intro q
      rw [g1, h1]
      constructor
      · rintro ((h | h) | ⟨j, hj, h⟩)
        · exact Or.inl h
        · exact Or.inr ⟨i, le_refl i, h⟩
        · exact Or.inr ⟨j, by omega, h⟩
      · rintro (h | ⟨j, hj, h⟩)
        · exact Or.inl (Or.inl h)
        · rcases Nat.eq_or_lt_of_le hj with rfl | hlt
          · exact Or.inl (Or.inr h)
          · exact Or.inr ⟨j, hlt, h⟩
    · intro q
      rw [g2, h2]
      constructor
      · rintro ((h | h) | ⟨j, hj, h⟩)
        · exact Or.inl h
        · exact Or.inr ⟨i, le_refl i, h⟩
        · exact Or.inr ⟨j, by omega, h⟩
      · rintro (h | ⟨j, hj, h⟩)
        · exact Or.inl (Or.inl h)
        · rcases Nat.eq_or_lt_of_le hj with rfl | hlt
          · exact Or.inl (Or.inr h)
          · exact Or.inr ⟨j, hlt, h⟩

theorem left_dominate_rows_mem (edges : List (List Int)) (e : Int) (s : List Nat)
    (x1 x2 : List (Int × Int))
    (h : ∀ k ∈ s, ∃ row, edges[k]? = some row ∧ row ≠ []) :
    ∃ y1 y2, left_dominate_rows edges e s (x1, x2) = some (y1, y2) ∧
      (∀ q, q ∈ y1 ↔ q ∈ x1 ∨
        ∃ k row i, k ∈ s ∧ edges[k]? = some row ∧ boundary_pair_at e row i q) ∧
      (∀ q, q ∈ y2 ↔ q ∈ x2 ∨
        ∃ k row i, k ∈ s ∧ edges[k]? = some row ∧ inner_pair_at e row i q) := by
  induction s generalizing x1 x2 with
  | nil => exact ⟨x1, x2, rfl, by simp, by simp⟩
  | cons k s ih =>
    obtain ⟨row, hrow, hne⟩ := h k (List.mem_cons_self k s)
    have hlen : 1 ≤ row.length := by
      cases row with
      | nil => exact absurd rfl hne
      | cons a r => simp
    obtain ⟨g1, g2⟩ := left_dominate_scan_mem e row (row.length - 1) 0 x1 x2 (by omega)
    cases hscan : left_dominate_scan e row (row.length - 1) 0 (x1, x2) with
    | mk z1 z2 =>
      rw [hscan] at g1 g2
      obtain ⟨y1, y2, hrun, h1, h2⟩ := ih z1 z2 (fun j hj => h j (List.mem_cons_of_mem k hj))
      refine ⟨y1, y2, ?_, ?_, ?_⟩
      · simp only [left_dominate_rows, hrow, hlen, not_true_eq_false, if_false, hscan, hrun]
      · intro q
        rw [h1, g1]
        constructor
        · rintro ((hq | ⟨j, -, hj⟩) | ⟨k', row', i, hk', hrow', hi⟩)
          · exact Or.inl hq
          · exact Or.inr ⟨k, row, j, List.mem_cons_self k s, hrow, hj⟩
          · exact Or.inr ⟨k', row', i, List.mem_cons_of_mem k hk', hrow', hi⟩
        · rintro (hq | ⟨k', row', i, hk', hrow', hi⟩)
          · exact Or.inl (Or.inl hq)
          · rcases List.mem_cons.mp hk' with rfl | hk'
            · rw [hrow] at hrow'
              simp only [Option.some.injEq] at hrow'
              subst hrow'
              exact Or.inl (Or.inr ⟨i, Nat.zero_le i, hi⟩)
            · exact Or.inr ⟨k', row', i, hk', hrow', hi⟩
      · intro q
        rw [h2, g2]
        constructor
        · rintro ((hq | ⟨j, -, hj⟩) | ⟨k', row', i, hk', hrow', hi⟩)
          · exact Or.inl hq
          · exact Or.inr ⟨k, row, j, List.mem_cons_self k s, hrow, hj⟩
          · exact Or.inr ⟨k', row', i, List.mem_cons_of_mem k hk', hrow', hi⟩
        · rintro (hq | ⟨k', row', i, hk', hrow', hi⟩)
          · exact Or.inl (Or.inl hq)
          · rcases List.mem_cons.mp hk' with rfl | hk'
            · rw [hrow] at hrow'
              simp only [Option.some.injEq] at hrow'
              subst hrow'
              exact Or.inl (Or.inr ⟨i, Nat.zero_le i, hi⟩)
            · exact Or.inr ⟨k', row', i, hk', hrow', hi⟩

theorem right_dominate_rows_mem (edges : List (List Int)) (e : Int) (s : List Nat)
    (x1 x2 : List (Int × Int))
    (h : ∀ k ∈ s, ∃ row, edges[k]? = some row ∧ row ≠ []) :
    ∃ y1 y2, right_dominate_rows edges e s (x1, x2) = some (y1, y2) ∧
      (∀ q, q ∈ y1 ↔ q ∈ x1 ∨
        ∃ k row i, k ∈ s ∧ edges[k]? = some row ∧ left_boundary_pair_at e row i q) ∧
      (∀ q, q ∈ y2 ↔ q ∈ x2 ∨
        ∃ k row i, k ∈ s ∧ edges[k]? = some row ∧ left_inner_pair_at e row i q) := by
  induction s generalizing x1 x2 with
  | nil => exact ⟨x1, x2, rfl, by simp, by simp⟩
  | cons k s ih =>
    obtain ⟨row, hrow, hne⟩ := h k (List.mem_cons_self k s)
    have hlen : 1 ≤ row.length := by
      cases row with
      | nil => exact absurd rfl hne
      | cons a r => simp
    obtain ⟨g1, g2⟩ := right_dominate_scan_mem e row (row.length - 1) 1 (le_refl 1) x1 x2
      (by omega)
    cases hscan : right_dominate_scan e row (row.length - 1) 1 (x1, x2) with
    | mk z1 z2 =>
      rw [hscan] at g1 g2
      obtain ⟨y1, y2, hrun, h1, h2⟩ := ih z1 z2 (fun j hj => h j (List.mem_cons_of_mem k hj))
      refine ⟨y1, y2, ?_, ?_, ?_⟩
      · simp only [right_dominate_rows, hrow, hlen, not_true_eq_false, if_false, hscan, hrun]
      · intro q
        rw [h1, g1]
        constructor
        · rintro ((hq | ⟨j, -, hj⟩) | ⟨k', row', i, hk', hrow', hi⟩)
          · exact Or.inl hq
          · exact Or.inr ⟨k, row, j, List.mem_cons_self k s, hrow, hj⟩
          · exact Or.inr ⟨k', row', i, List.mem_cons_of_mem k hk', hrow', hi⟩
        · rintro (hq | ⟨k', row', i, hk', hrow', hi⟩)
          · exact Or.inl (Or.inl hq)
          · rcases List.mem_cons.mp hk' with rfl | hk'
            · rw [hrow] at hrow'
              simp only [Option.some.injEq] at hrow'
              subst hrow'
              obtain ⟨b, hi1, hrest⟩ := hi
              exact Or.inl (Or.inr ⟨i, hi1, b, hi1, hrest⟩)
            · exact Or.inr ⟨k', row', i, hk', hrow', hi⟩
      · intro q
        rw [h2, g2]
        constructor
        · rintro ((hq | ⟨j, -, hj⟩) | ⟨k', row', i, hk', hrow', hi⟩)
          · exact Or.inl hq
          · exact Or.inr ⟨k, row, j, List.mem_cons_self k s, hrow, hj⟩
          · exact Or.inr ⟨k', row', i, List.mem_cons_of_mem k hk', hrow', hi⟩
        · rintro (hq | ⟨k', row', i, hk', hrow', hi⟩)
          · exact Or.inl (Or.inl hq)
          · rcases List.mem_cons.mp hk' with rfl | hk'
            · rw [hrow] at hrow'
              simp only [Option.some.injEq] at hrow'
              subst hrow'
              obtain ⟨b, hi1, hrest⟩ := hi
              exact Or.inl (Or.inr ⟨i, hi1, b, hi1, hrest⟩)
            · exact Or.inr ⟨k', row', i, hk', hrow', hi⟩

theorem getElem?_reverse_of_add (row : List Int) (a b : Nat) (h : a + b + 1 = row.length) :
    row.reverse[a]? = row[b]? := by
  rw [List.getElem?_reverse (by omega)]
  congr 1
  omega

theorem getElem?_reverse_none (row : List Int) (a : Nat) (h : row.length ≤ a) :
    row.reverse[a]? = none :=
  List.getElem?_eq_none (by simpa using h)

theorem left_boundary_pair_at_mirror (e : Int) (row : List Int) (i i' : Nat)
    (h : i + i' + 1 = row.length) (q : Int × Int) :
    left_boundary_pair_at e row i q ↔ boundary_pair_at e row.reverse i' q := by
  have hA : row.reverse[i']? = row[i]? := getElem?_reverse_of_add row i' i (by omega)
  unfold left_boundary_pair_at boundary_pair_at
  by_cases hi : 1 ≤ i
  · have hB : row.reverse[i' + 1]? = row[i - 1]? :=
      getElem?_reverse_of_add row (i' + 1) (i - 1) (by omega)
    have hC : (i = row.length - 1 ∨ row[i + 1]? = some (-1)) ↔
        (i' = 0 ∨ row.reverse[i' - 1]? = some (-1)) := by
      by_cases h0 : i' = 0
      · simp only [h0, true_or, iff_true]
        exact Or.inl (by omega)
      · rw [getElem?_reverse_of_add row (i' - 1) (i + 1) (by omega)]
        simp only [h0, false_or]
        constructor
        · rintro (h1 | h1)
          · omega
          · exact h1
        · exact fun h1 => Or.inr h1
    have hD : (if 2 ≤ i then (row[i - 2]?).getD 0 else -1) = (row.reverse[i' + 2]?).getD (-1) := by
      by_cases h2 : 2 ≤ i
      · rw [if_pos h2, getElem?_reverse_of_add row (i' + 2) (i - 2) (by omega)]
        rw [List.getElem?_eq_getElem (by omega)]
        rfl
      · rw [if_neg h2, getElem?_reverse_none row (i' + 2) (by omega)]
        rfl
    simp only [hA, hB, hC, hD, hi, true_and]
  · have hB : row.reverse[i' + 1]? = none := getElem?_reverse_none row (i' + 1) (by omega)
    simp [hi, hB]

theorem left_inner_pair_at_mirror (e : Int) (row : List Int) (i i' : Nat)
    (h : i + i' + 1 = row.length) (q : Int × Int) :
    left_inner_pair_at e row i q ↔ inner_pair_at e row.reverse i' q := by
  have hA : row.reverse[i']? = row[i]? := getElem?_reverse_of_add row i' i (by omega)
  unfold left_inner_pair_at inner_pair_at
  by_cases hi : 1 ≤ i
  · have hB : row.reverse[i' + 1]? = row[i - 1]? :=
      getElem?_reverse_of_add row (i' + 1) (i - 1) (by omega)
    have hC : (i = row.length - 1 ∨ row[i + 1]? = some (-1)) ↔
        (i' = 0 ∨ row.reverse[i' - 1]? = some (-1)) := by
      by_cases h0 : i' = 0
      · simp only [h0, true_or, iff_true]
        exact Or.inl (by omega)
      · rw [getElem?_reverse_of_add row (i' - 1) (i + 1) (by omega)]
        simp only [h0, false_or]
        constructor
        · rintro (h1 | h1)
          · omega
          · exact h1
        · exact fun h1 => Or.inr h1
    have hD : ∀ b : Int, (2 ≤ i ∧ q = (b, (row[i - 2]?).getD 0)) ↔
        ∃ c, row.reverse[i' + 2]? = some c ∧ q = (b, c) := by
      intro b
      by_cases h2 : 2 ≤ i
      · rw [getElem?_reverse_of_add row (i' + 2) (i - 2) (by omega)]
        rw [List.getElem?_eq_getElem (by omega)]
        simp [h2]
      · rw [getElem?_reverse_none row (i' + 2) (by omega)]
        simp [h2]
    simp only [hA, hB, hC, hD, hi, true_and]
  · have hB : row.reverse[i' + 1]? = none := getElem?_reverse_none row (i' + 1) (by omega)
    simp [hi, hB]

theorem exists_left_boundary_pair_at_iff (e : Int) (row : List Int) (q : Int × Int) :
    (∃ i, left_boundary_pair_at e row i q) ↔ ∃ i, boundary_pair_at e row.reverse i q := by
  constructor
  · rintro ⟨i, hi⟩
    have hlt : i < row.length := by
      obtain ⟨b, -, hget, -⟩ := hi
      by_contra hge
      rw [List.getElem?_eq_none (by omega)] at hget
      simp at hget
    exact ⟨row.length - 1 - i,
      (left_boundary_pair_at_mirror e row i _ (by omega) q).mp hi⟩
  · rintro ⟨i', hi'⟩
    have hlt : i' < row.length := by
      obtain ⟨b, hget, -⟩ := hi'
      by_contra hge
      rw [getElem?_reverse_none row i' (by omega)] at hget
      simp at hget
    exact ⟨row.length - 1 - i',
      (left_boundary_pair_at_mirror e row _ i' (by omega) q).mpr hi'⟩

theorem exists_left_inner_pair_at_iff (e : Int) (row : List Int) (q : Int × Int) :
    (∃ i, left_inner_pair_at e row i q) ↔ ∃ i, inner_pair_at e row.reverse i q := by
  constructor
  · rintro ⟨i, hi⟩
    have hlt : i < row.length := by
      obtain ⟨b, -, hget, -⟩ := hi
      by_contra hge
      rw [List.getElem?_eq_none (by omega)] at hget
      simp at hget
    exact ⟨row.length - 1 - i,
      (left_inner_pair_at_mirror e row i _ (by omega) q).mp hi⟩
  · rintro ⟨i', hi'⟩
    have hlt : i' < row.length := by
      obtain ⟨b, hget, -⟩ := hi'
      by_contra hge
      rw [getElem?_reverse_none row i' (by omega)] at hget
      simp at hget
    exact ⟨row.length - 1 - i',
      (left_inner_pair_at_mirror e row _ i' (by omega) q).mpr hi'⟩

theorem in_boundary_set_iff (hs : hyper_set) (e : Int) (s : List Nat)
    (hfind : map_find hs.e2s e = some s) (p : Int × Int) :
    in_boundary_set hs e p ↔
      ∃ k row i, k ∈ s ∧ hs.edges[k]? = some row ∧ boundary_pair_at e row i p := by
  unfold in_boundary_set
  rw [hfind]
  constructor
  · rintro ⟨s', k, row, i, hs', hk, hrow, hp⟩
    simp only [Option.some.injEq] at hs'
    subst hs'
    exact ⟨k, row, i, hk, hrow, hp⟩
  · rintro ⟨k, row, i, hk, hrow, hp⟩
    exact ⟨s, k, row, i, rfl, hk, hrow, hp⟩

theorem in_inner_set_iff (hs : hyper_set) (e : Int) (s : List Nat)
    (hfind : map_find hs.e2s e = some s) (p : Int × Int) :
    in_inner_set hs e p ↔
      ∃ k row i, k ∈ s ∧ hs.edges[k]? = some row ∧ inner_pair_at e row i p := by
  unfold in_inner_set
  rw [hfind]
  constructor
  · rintro ⟨s', k, row, i, hs', hk, hrow, hp⟩
    simp only [Option.some.injEq] at hs'
    subst hs'
    exact ⟨k, row, i, hk, hrow, hp⟩
  · rintro ⟨k, row, i, hk, hrow, hp⟩
    exact ⟨s, k, row, i, rfl, hk, hrow, hp⟩

theorem left_dominate_eq (hs : hyper_set) (e : Int) (h : listed_rows_exist hs e) :
    ∃ b, left_dominate hs e = some b ∧
      (b = true ↔
        (map_find hs.e2s e = none ∨ ∀ p, in_boundary_set hs e p → in_inner_set hs e p)) := by
  unfold left_dominate
  cases hfind : map_find hs.e2s e with
  | none => exact ⟨true, rfl, by simp⟩
  | some s =>
    obtain ⟨y1, y2, hrun, h1, h2⟩ := left_dominate_rows_mem hs.edges e s [] [] (h s hfind).2
    refine ⟨y1.all (fun p => decide (p ∈ y2)), by simp only [hrun], ?_⟩
    simp only [List.all_eq_true, decide_eq_true_eq, false_or, reduceCtorEq,
      in_boundary_set_iff hs e s hfind, in_inner_set_iff hs e s hfind]
    constructor
    · intro hall p hp
      exact ((h2 p).mp (hall p ((h1 p).mpr (Or.inr hp)))).resolve_left (by simp)
    · intro hall p hp
      exact (h2 p).mpr (Or.inr (hall p (((h1 p).mp hp).resolve_left (by simp))))

theorem right_dominate_eq (hs : hyper_set) (e : Int) (h : listed_rows_exist hs e) :
    ∃ b, right_dominate hs e = some b ∧
      (b = true ↔
        (map_find hs.e2s e = none ∨
          ∀ p, in_boundary_set (mirror hs) e p → in_inner_set (mirror hs) e p)) := by
  unfold right_dominate
  cases hfind : map_find hs.e2s e with
  | none => exact ⟨true, rfl, by simp⟩
  | some s =>
    obtain ⟨y1, y2, hrun, h1, h2⟩ := right_dominate_rows_mem hs.edges e s [] [] (h s hfind).2
    refine ⟨y1.all (fun p => decide (p ∈ y2)), by simp only [hrun], ?_⟩
    have hfind' : map_find (mirror hs).e2s e = some s := hfind
    have hget : ∀ (k : Nat) (row : List Int), (mirror hs).edges[k]? = some row ↔
        ∃ r : List Int, hs.edges[k]? = some r ∧ row = r.reverse := by
      intro k row
      show (hs.edges.map List.reverse)[k]? = some row ↔ _
      rw [List.getElem?_map]
      cases hs.edges[k]? with
      | none => simp
      | some r => simp [eq_comm]
    simp only [List.all_eq_true, decide_eq_true_eq, false_or, reduceCtorEq,
      in_boundary_set_iff (mirror hs) e s hfind', in_inner_set_iff (mirror hs) e s hfind']
    constructor
    · rintro hall p ⟨k, row, i, hk, hrow, hp⟩
      obtain ⟨r, hr, rfl⟩ := (hget k row).mp hrow
      obtain ⟨j, hj⟩ := (exists_left_boundary_pair_at_iff e r p).mpr ⟨i, hp⟩
      obtain ⟨k', row', i', hk', hrow', hp'⟩ :=
        ((h2 p).mp (hall p ((h1 p).mpr (Or.inr ⟨k, r, j, hk, hr, hj⟩)))).resolve_left (by simp)
      obtain ⟨j', hj'⟩ := (exists_left_inner_pair_at_iff e row' p).mp ⟨i', hp'⟩
      exact ⟨k', row'.reverse, j', hk', (hget k' _).mpr ⟨row', hrow', rfl⟩, hj'⟩
    · intro hall p hp
      obtain ⟨k, row, i, hk, hrow, hpi⟩ := ((h1 p).mp hp).resolve_left (by simp)
      obtain ⟨j, hj⟩ := (exists_left_boundary_pair_at_iff e row p).mp ⟨i, hpi⟩
      obtain ⟨k', row', i', hk', hrow', hp'⟩ :=
        hall p ⟨k, row.reverse, j, hk, (hget k _).mpr ⟨row, hrow, rfl⟩, hj⟩
      obtain ⟨r, hr, rfl⟩ := (hget k' row').mp hrow'
      obtain ⟨j', hj'⟩ := (exists_left_inner_pair_at_iff e r p).mpr ⟨i', hp'⟩
      exact (h2 p).mpr (Or.inr ⟨k', r, j', hk', hr, hj'⟩)

theorem listed_rows_exist_mirror (hs : hyper_set) (e : Int) (h : listed_rows_exist hs e) :
    listed_rows_exist (mirror hs) e := by
  intro s hfind
  obtain ⟨h1, h2⟩ := h s hfind
  refine ⟨h1, fun k hk => ?_⟩
  obtain ⟨row, hrow, hne⟩ := h2 k hk
  refine ⟨row.reverse, ?_, by simpa using hne⟩
  show (hs.edges.map List.reverse)[k]? = some row.reverse
  rw [List.getElem?_map, hrow]
  rfl

/-- C19: `hyper_set::left_dominate(e)` (the rows listed under `e` being rows of
`edges`, none empty, as the function asserts) returns true if and only if `e` has no
entry in `e2s` or `B ⊆ N`, where `B` is the set of pairs seen to the right of the
boundary occurrences of `e` and `N` the set of pairs seen to the right of its
non-boundary occurrences; `hyper_set::right_dominate(e)` is the mirror image: it
returns what `left_dominate(e)` returns on the hyper-set with every row reversed. -/
theorem left_dominate_iff_subset (hs : hyper_set) (e : Int) (h : listed_rows_exist hs e) :
    (∃ b, left_dominate hs e = some b ∧
      (b = true ↔
        (map_find hs.e2s e = none ∨ ∀ p, in_boundary_set hs e p → in_inner_set hs e p))) ∧
      (∃ b, right_dominate hs e = some b ∧
        (b = true ↔
          (map_find hs.e2s e = none ∨
            ∀ p, in_boundary_set (mirror hs) e p → in_inner_set (mirror hs) e p))) ∧
      right_dominate hs e = left_dominate (mirror hs) e := by
  refine ⟨left_dominate_eq hs e h, right_dominate_eq hs e h, ?_⟩
  obtain ⟨b, hb, hiff⟩ := right_dominate_eq hs e h
  obtain ⟨b', hb', hiff'⟩ := left_dominate_eq (mirror hs) e (listed_rows_exist_mirror hs e h)
  have hme : (mirror hs).e2s = hs.e2s := rfl
  rw [hme] at hiff'
  rw [hb, hb']
  congr 1
  rw [Bool.eq_iff_iff, hiff, hiff']

/-- An instance of `left_dominate_iff_subset`: the pair `(5, -1)` is seen after the
boundary occurrence of `1` in the row `[1, 5]` and after no other occurrence. -/
theorem left_dominate_iff_subset_witness :
    listed_rows_exist (build_index example_dominate) 1 ∧
      left_dominate (build_index example_dominate) 1 = some false ∧
      left_dominate (build_index example_dominate) 2 = some true ∧
      right_dominate (build_index example_dominate) 1 =
        left_dominate (mirror (build_index example_dominate)) 1 ∧
      right_dominate (build_index example_dominate) 1 = some true :=
  ⟨listed_rows_exist_of_index _ 1 (index_lists_rows_build_index example_dominate),
    by decide, by decide,
    (left_dominate_iff_subset (build_index example_dominate) 1
      (listed_rows_exist_of_index _ 1 (index_lists_rows_build_index example_dominate))).2.2,
    by decide⟩

/-! ### `phaser::split_hs` -/

theorem double_to_int_of_nonneg (q : ℚ) (h : 0 ≤ q) : double_to_int q = ⌊q⌋ := by
  rw [Rat.floor_def, double_to_int]
  exact Int.tdiv_eq_ediv (Rat.num_nonneg.mpr h) (Int.ofNat_nonneg _)

theorem double_to_int_of_neg (q : ℚ) (h : q < 0) : double_to_int q ≤ 0 := by
  have hnum : q.num < 0 := Rat.num_neg.mpr h
  have h1 : 0 ≤ (-q.num).tdiv (q.den : Int) :=
    Int.tdiv_nonneg (by omega) (Int.ofNat_nonneg _)
  rw [Int.neg_tdiv] at h1
  unfold double_to_int
  omega

theorem one_le_double_to_int_iff (q : ℚ) : 1 ≤ double_to_int q ↔ 1 ≤ q := by
  by_cases h : 0 ≤ q
  · rw [double_to_int_of_nonneg q h, Int.le_floor]
    simp
  · have h1 := double_to_int_of_neg q (not_le.mp h)
    constructor
    · intro h2
      omega
    · intro h2
      linarith

theorem split_hs_bottleneck_eq (i2e : List Nat) (ewrt_cur : List ℚ) (row : List Int) (b : ℚ)
    (h : valid_row i2e ewrt_cur row) :
    split_hs_bottleneck i2e ewrt_cur row b =
      some ((row.map (fun k => wt ewrt_cur ((i2e[k.toNat]?).getD 0))).foldl min b) := by
  induction row generalizing b with
  | nil => rfl
  | cons k row ih =>
    obtain ⟨hk, e, he, hw⟩ := h k (List.mem_cons_self k row)
    have hrow : valid_row i2e ewrt_cur row := fun j hj => h j (List.mem_cons_of_mem k hj)
    simp only [split_hs_bottleneck, not_lt.mpr hk, if_false, he, hw, not_true_eq_false,
      List.map_cons, List.foldl_cons, Option.getD_some]
    by_cases hlt : wt ewrt_cur e < b
    · rw [if_pos hlt, ih _ hrow, min_eq_right (le_of_lt hlt)]
    · rw [if_neg hlt, ih _ hrow, min_eq_left (not_lt.mp hlt)]

theorem split_hs_bottleneck_neg (i2e : List Nat) (ewrt_cur : List ℚ) (row : List Int) (b : ℚ)
    (k : Int) (e : Nat) (hk : k ∈ row) (he : i2e[k.toNat]? = some e) (hw : wt ewrt_cur e < 0) :
    split_hs_bottleneck i2e ewrt_cur row b = none := by
  induction row generalizing b with
  | nil => simp at hk
  | cons a row ih =>
    simp only [split_hs_bottleneck]
    rcases List.mem_cons.mp hk with rfl | hk'
    · split
      · rfl
      · simp [he, not_le.mpr hw]
    · split
      · rfl
      · split
        · rfl
        · split
          · rfl
          · split
            · exact ih _ hk'
            · exact ih _ hk'

theorem mem_mvii_put (m : List (List Int × Int)) (v : List Int) (c : Int) (p : List Int × Int)
    (h : p ∈ mvii_put m v c) : p = (v, c) ∨ p ∈ m := by
  induction m with
  | nil =>
    simp only [mvii_put, List.mem_singleton] at h
    exact Or.inl h
  | cons q m ih =>
    obtain ⟨k0, c0⟩ := q
    simp only [mvii_put] at h
    split at h
    · rename_i hv
      rcases List.mem_cons.mp h with h1 | h1
      · exact Or.inl (by rw [h1, hv])
      · exact Or.inr (List.mem_cons_of_mem _ h1)
    · split at h
      · rcases List.mem_cons.mp h with h1 | h1
        · exact Or.inl h1
        · exact Or.inr h1
      · rcases List.mem_cons.mp h with h1 | h1
        · exact Or.inr (by rw [h1]; exact List.mem_cons_self _ _)
        · rcases ih h1 with h2 | h2
          · exact Or.inl h2
          · exact Or.inr (List.mem_cons_of_mem _ h2)

theorem split_hs_rows_spec (i2e : List Nat) (ewrt_cur : List ℚ) (ecnts : List Int)
    (rows : List (List Int)) (j : Nat) (m : List (List Int × Int))
    (hnodup : rows.Nodup) (hfresh : ∀ row ∈ rows, map_find m row = none)
    (hvalid : ∀ row ∈ rows, valid_row i2e ewrt_cur row)
    (hlen : j + rows.length ≤ ecnts.length) :
    ∃ m', split_hs_rows i2e ewrt_cur ecnts j rows m = some m' ∧
      (∀ p ∈ m', p ∈ m ∨ ∃ i c, rows[i]? = some p.1 ∧ ecnts[j + i]? = some c ∧
        1 ≤ row_bottleneck i2e ewrt_cur c p.1 ∧
        p.2 = double_to_int (row_bottleneck i2e ewrt_cur c p.1)) ∧
      (∀ row c', map_find m row = some c' → map_find m' row = some c') ∧
      (∀ row, row ∉ rows → map_find m row = none → map_find m' row = none) ∧
      ∀ i row c, rows[i]? = some row → ecnts[j + i]? = some c →
        1 ≤ row_bottleneck i2e ewrt_cur c row →
        map_find m' row = some (double_to_int (row_bottleneck i2e ewrt_cur c row)) := by
  induction rows generalizing j m with
  | nil =>
    refine ⟨m, rfl, fun p hp => Or.inl hp, fun _ _ h => h, fun _ _ h => h, ?_⟩
    intro i row c hrow
    simp at hrow
  | cons r rows ih =>
    have hj : j < ecnts.length := by simp at hlen; omega
    have hc : ecnts[j]? = some ecnts[j] := List.getElem?_eq_getElem hj
    have hbn := split_hs_bottleneck_eq i2e ewrt_cur r (ecnts[j] : ℚ)
      (hvalid r (List.mem_cons_self r rows))
    have hnd := List.nodup_cons.mp hnodup
    have hvalid' : ∀ row ∈ rows, valid_row i2e ewrt_cur row :=
      fun row hrow => hvalid row (List.mem_cons_of_mem r hrow)
    have hlen' : j + 1 + rows.length ≤ ecnts.length := by simp at hlen; omega
    simp only [split_hs_rows, hc, hbn]
    change ∃ m', (if 1 ≤ double_to_int (row_bottleneck i2e ewrt_cur ecnts[j] r) then _ else _) =
      some m' ∧ _
    by_cases hkeep : 1 ≤ double_to_int (row_bottleneck i2e ewrt_cur ecnts[j] r)
    · have hone : 1 ≤ row_bottleneck i2e ewrt_cur ecnts[j] r :=
        (one_le_double_to_int_iff _).mp hkeep
      rw [if_pos hkeep]
      have hf : map_find m r = none := hfresh r (List.mem_cons_self r rows)
      simp only [hf, Option.isSome_none, Bool.false_eq_true, if_false]
      have hfresh' : ∀ row ∈ rows, map_find (mvii_put m r
          (double_to_int (row_bottleneck i2e ewrt_cur ecnts[j] r))) row = none := by
        intro row hrow
        rw [map_find_mvii_put, if_neg (fun h : row = r => hnd.1 (h ▸ hrow))]
        exact hfresh row (List.mem_cons_of_mem r hrow)
      obtain ⟨m', hrun, h1, h2, h3, h4⟩ := ih (j + 1) _ hnd.2 hfresh' hvalid' hlen'
      refine ⟨m', hrun, ?_, ?_, ?_, ?_⟩
      · intro p hp
        rcases h1 p hp with hp1 | ⟨i, c, hi, hci, hcond⟩
        · rcases mem_mvii_put m r _ p hp1 with rfl | hp2
          · exact Or.inr ⟨0, ecnts[j], by simp, by simp [hc], hone, rfl⟩
          · exact Or.inl hp2
        · exact Or.inr ⟨i + 1, c, by simpa using hi,
            by rw [← hci]; congr 1; omega, hcond⟩
      · intro row c' hrow
        apply h2
        rw [map_find_mvii_put]
        by_cases hr : row = r
        · rw [hr, hf] at hrow
          simp at hrow
        · rw [if_neg hr]
          exact hrow
      · intro row hrow hnone
        apply h3 row (fun h => hrow (List.mem_cons_of_mem r h))
        rw [map_find_mvii_put, if_neg (fun h : row = r => hrow (h ▸ List.mem_cons_self r rows))]
        exact hnone
      · intro i row c hrow hci hcond
        cases i with
        | zero =>
          simp only [List.getElem?_cons_zero, Option.some.injEq] at hrow
          subst hrow
          rw [Nat.add_zero, hc] at hci
          simp only [Option.some.injEq] at hci
          subst hci
          apply h2
          rw [map_find_mvii_put, if_pos rfl]
        | succ i =>
          simp only [List.getElem?_cons_succ] at hrow
          exact h4 i row c hrow (by rw [← hci]; congr 1; omega) hcond
    · rw [if_neg hkeep]
      have hfresh' : ∀ row ∈ rows, map_find m row = none :=
        fun row hrow => hfresh row (List.mem_cons_of_mem r hrow)
      obtain ⟨m', hrun, h1, h2, h3, h4⟩ := ih (j + 1) m hnd.2 hfresh' hvalid' hlen'
      refine ⟨m', hrun, ?_, h2, ?_, ?_⟩
      · intro p hp
        rcases h1 p hp with hp1 | ⟨i, c, hi, hci, hcond⟩
        · exact Or.inl hp1
        · exact Or.inr ⟨i + 1, c, by simpa using hi,
            by rw [← hci]; congr 1; omega, hcond⟩
      · intro row hrow hnone
        exact h3 row (fun h => hrow (List.mem_cons_of_mem r h)) hnone
      · intro i row c hrow hci hcond
        cases i with
        | zero =>
          simp only [List.getElem?_cons_zero, Option.some.injEq] at hrow
          subst hrow
          rw [Nat.add_zero, hc] at hci
          simp only [Option.some.injEq] at hci
          subst hci
          exact absurd ((one_le_double_to_int_iff _).mpr hcond) hkeep
        | succ i =>
          simp only [List.getElem?_cons_succ] at hrow
          exact h4 i row c hrow (by rw [← hci]; congr 1; omega) hcond

theorem split_hs_rows_none (i2e : List Nat) (ewrt_cur : List ℚ) (ecnts : List Int)
    (rows : List (List Int)) (j : Nat) (m : List (List Int × Int)) (row : List Int)
    (hrow : row ∈ rows) (hbad : ∀ b, split_hs_bottleneck i2e ewrt_cur row b = none) :
    split_hs_rows i2e ewrt_cur ecnts j rows m = none := by
  induction rows generalizing j m with
  | nil => simp at hrow
  | cons r rows ih =>
    simp only [split_hs_rows]
    cases hc : ecnts[j]? with
    | none => rfl
    | some c =>
      simp only []
      rcases List.mem_cons.mp hrow with rfl | hrow'
      · rw [hbad]
      · cases hb : split_hs_bottleneck i2e ewrt_cur r (c : ℚ) with
        | none => rfl
        | some b =>
          simp only []
          split
          · split
            · rfl
            · exact ih _ _ hrow'
          · exact ih _ _ hrow'

theorem holds_row_add_edge_list (m : List (List Int × Int)) (row : List Int) (c : Int) :
    holds_row (add_edge_list m) row c ↔ (row, c) ∈ m := by
  unfold holds_row add_edge_list
  simp only [List.getElem?_map]
  constructor
  · rintro ⟨i, h1, h2⟩
    cases hp : m[i]? with
    | none => simp [hp] at h1
    | some p =>
      simp only [hp, Option.map_some', Option.some.injEq] at h1 h2
      have : p = (row, c) := Prod.ext h1 h2
      rw [← this]
      exact List.getElem?_mem hp
  · intro h
    obtain ⟨i, hi⟩ := List.mem_iff_getElem?.mp h
    exact ⟨i, by simp [hi], by simp [hi]⟩

/-- C15 (amended): in `phaser::split_hs`, for each allele `a` (weight map `ewrt_cur`)
and the rows of the original hyper-set (distinct, each with a count, every entry an
index into `i2e` of an edge whose weight on allele `a` is at least `0`): with the
bottleneck of a row the minimum of its count and of the weights of its edges, the row
is dropped when the bottleneck is `< 1` and otherwise kept in the allele-`a` hyper-set
(among the rows waiting for `transform`) with count `floor(bottleneck)`; when some edge
of a row has a weight `< 0` on allele `a` (it was never assigned), `split_hs` fails. -/
theorem split_hs_keeps_by_bottleneck (hs0 : hyper_set) (i2e : List Nat) (ewrt_cur : List ℚ) :
    ((hs0.edges.length ≤ hs0.ecnts.length ∧ hs0.edges.Nodup ∧
        ∀ row ∈ hs0.edges, valid_row i2e ewrt_cur row) →
      ∃ hs', split_hs_allele hs0 i2e ewrt_cur = some hs' ∧
        hs'.nodes = [] ∧ hs'.edges = [] ∧ hs'.e2s = [] ∧
        hs'.edges_to_transform.length = hs'.ecnts.length ∧
        ∀ row c', holds_row hs' row c' ↔
          ∃ (j : Nat) (c : Int), hs0.edges[j]? = some row ∧ hs0.ecnts[j]? = some c ∧
            1 ≤ row_bottleneck i2e ewrt_cur c row ∧
            c' = ⌊row_bottleneck i2e ewrt_cur c row⌋) ∧
      ∀ row k e, row ∈ hs0.edges → k ∈ row → i2e[k.toNat]? = some e → wt ewrt_cur e < 0 →
        split_hs_allele hs0 i2e ewrt_cur = none := by
  constructor
  · rintro ⟨hlen, hnodup, hvalid⟩
    obtain ⟨m', hrun, h1, -, -, h4⟩ := split_hs_rows_spec i2e ewrt_cur hs0.ecnts hs0.edges 0 []
      hnodup (fun _ _ => rfl) hvalid (by omega)
    refine ⟨add_edge_list m', by simp only [split_hs_allele, hrun], rfl, rfl, rfl,
      by simp [add_edge_list], ?_⟩
    intro row c'
    rw [holds_row_add_edge_list]
    constructor
    · intro hmem
      rcases h1 (row, c') hmem with hnil | ⟨i, c, hi, hci, hone, hc'⟩
      · simp at hnil
      · simp only at hi hone hc'
        refine ⟨i, c, hi, by simpa using hci, hone, ?_⟩
        rw [hc', double_to_int_of_nonneg _ (by linarith)]
    · rintro ⟨j, c, hj, hcj, hone, hc'⟩
      have := h4 j row c hj (by simpa using hcj) hone
      rw [double_to_int_of_nonneg _ (by linarith), ← hc'] at this
      exact mem_of_map_find m' row c' this
  · intro row k e hrow hk he hw
    have hbad : ∀ b, split_hs_bottleneck i2e ewrt_cur row b = none :=
      fun b => split_hs_bottleneck_neg i2e ewrt_cur row b k e hk he hw
    simp only [split_hs_allele, split_hs_rows_none i2e ewrt_cur hs0.ecnts hs0.edges 0 [] row
      hrow hbad]

theorem valid_row_example_split :
    ∀ row ∈ example_split.edges, valid_row [0, 1] [11 / 2, 15 / 4] row := by
  intro row hrow k hk
  simp only [example_split, List.mem_cons, List.mem_singleton, List.not_mem_nil, or_false]
    at hrow
  rcases hrow with rfl | rfl
  · simp only [List.mem_cons, List.mem_singleton, List.not_mem_nil, or_false] at hk
    rcases hk with rfl | rfl
    · exact ⟨le_refl _, 0, by decide, by norm_num [wt]⟩
    · exact ⟨by decide, 1, by decide, by norm_num [wt]⟩
  · simp only [List.mem_singleton] at hk
    subst hk
    exact ⟨by decide, 1, by decide, by norm_num [wt]⟩

/-- An instance of `split_hs_keeps_by_bottleneck`: rows `[0, 1]` (count `2`) and `[1]`
(count `9`) with the edge weights `11/2` and `15/4`. -/
theorem split_hs_keeps_by_bottleneck_witness :
    (example_split.edges.length ≤ example_split.ecnts.length ∧ example_split.edges.Nodup ∧
        ∀ row ∈ example_split.edges, valid_row [0, 1] [11 / 2, 15 / 4] row) ∧
      ∃ hs', split_hs_allele example_split [0, 1] [11 / 2, 15 / 4] = some hs' ∧
        hs'.nodes = [] ∧ hs'.edges = [] ∧ hs'.e2s = [] ∧
        hs'.edges_to_transform.length = hs'.ecnts.length ∧
        ∀ row c', holds_row hs' row c' ↔
          ∃ (j : Nat) (c : Int), example_split.edges[j]? = some row ∧
            example_split.ecnts[j]? = some c ∧
            1 ≤ row_bottleneck [0, 1] [11 / 2, 15 / 4] c row ∧
            c' = ⌊row_bottleneck [0, 1] [11 / 2, 15 / 4] c row⌋ :=
  ⟨⟨by decide, by decide, valid_row_example_split⟩,
    (split_hs_keeps_by_bottleneck example_split [0, 1] [11 / 2, 15 / 4]).1
      ⟨by decide, by decide, valid_row_example_split⟩⟩

theorem split_hs_example_split :
    split_hs_allele example_split [0, 1] [11 / 2, 15 / 4] =
      some (add_edge_list [([0, 1], 2), ([1], 3)]) := by
  have h1 : Int.tdiv 15 4 = 3 := by decide
  simp [split_hs_allele, split_hs_rows, split_hs_bottleneck, example_split, wt, double_to_int,
    map_find, mvii_put]
  norm_num [double_to_int, mvii_put, vec_lt, h1]

/-- C15 (counterexample): with the rows `[0, 1]` (count `2`) and `[1]` (count `9`),
`split_hs` fails when edge `1` has the weight `-1` of an edge that was never assigned,
instead of dropping the rows; and with the weights `11/2` and `15/4` the row `[0, 1]`
is kept with its own count `2`, not with `floor(15/4) = 3`, the floor of the minimum
of its edge weights. -/
theorem split_hs_fails_on_unassigned_edge :
    split_hs_allele example_split [0, 1] [11 / 2, -1] = none ∧
      wt [11 / 2, -1] 1 = -1 ∧
      split_hs_allele example_split [0, 1] [11 / 2, 15 / 4] =
        some (add_edge_list [([0, 1], 2), ([1], 3)]) ∧
      holds_row (add_edge_list [([0, 1], 2), ([1], 3)]) [0, 1] 2 ∧
      min_edge_weight [0, 1] [11 / 2, 15 / 4] 0 [1] = 15 / 4 ∧
      ⌊(15 / 4 : ℚ)⌋ = 3 := by
  refine ⟨?_, by norm_num [wt], split_hs_example_split, ⟨0, by decide, by decide⟩, ?_, ?_⟩
  · simp [split_hs_allele, split_hs_rows, split_hs_bottleneck, example_split, wt]
  · norm_num [min_edge_weight, wt]
  · rw [Int.floor_eq_iff]
    norm_num

/-! ### `phaser::assign_gt`: the vertex weights -/

theorem weights_kept_refl (ph : phaser) : weights_kept ph ph :=
  fun _ => ⟨fun _ => rfl, fun _ => rfl⟩

theorem weights_kept_trans (ph ph1 ph2 : phaser) (h1 : weights_kept ph ph1)
    (h2 : weights_kept ph1 ph2) : weights_kept ph ph2 := by
  intro d
  constructor
  · intro hd
    have e1 := (h1 d).1 hd
    rw [(h2 d).1 (by rw [e1]; exact hd), e1]
  · intro hd
    have e1 := (h1 d).2 hd
    rw [(h2 d).2 (by rw [e1]; exact hd), e1]

theorem split_by_ratio_vwrt (gr : splice_graph) (ph ph' : phaser) (v : Nat) (r : ℚ) (b : Bool)
    (h : split_by_ratio gr ph v r = some (ph', b)) :
    weights_kept ph ph' ∧ split_with gr ph' v r ∧ ph'.ewrtratiobg1 = ph.ewrtratiobg1 ∧
      ∀ u, u ≠ v → wt ph'.vwrt1 u = wt ph.vwrt1 u ∧ wt ph'.vwrt2 u = wt ph.vwrt2 u := by
  obtain ⟨hr0, hr1, hwt⟩ := split_by_ratio_wt gr ph ph' v r b h
  have hkept : weights_kept ph ph' := by
    intro d
    constructor
    · intro hd
      rw [(hwt d).1, if_neg (fun hh => absurd hd (not_le.mpr hh.2))]
    · intro hd
      rw [(hwt d).2, if_neg (fun hh => absurd hd (not_le.mpr hh.2))]
  unfold split_by_ratio at h
  by_cases h3 : v < ph.vwrt1.length ∧ v < ph.vwrt2.length ∧ v < gr.vwrt.length
  · simp only [hr0, hr1, h3, not_true_eq_false, if_false, and_self, Option.some.injEq,
      Prod.mk.injEq] at h
    obtain ⟨hph, -⟩ := h
    subst hph
    refine ⟨hkept, ⟨hr0, hr1, ?_, ?_⟩, rfl, ?_⟩
    · simp only [wt_set, h3.1, and_self, if_true]
    · simp only [wt_set, h3.2.1, and_self, if_true]
    · intro u hu
      have hvu : ¬ v = u := fun hh => hu hh.symm
      simp only [wt_set, hvu, false_and, if_false, and_self]
  · simp [hr0, hr1, h3] at h

theorem local_sums_of_no_pos (ph : phaser) (ds : List Nat) (a b : ℚ)
    (h : ∀ d ∈ ds, ¬ (0 < wt ph.ewrt1 d) ∧ ¬ (0 < wt ph.ewrt2 d)) :
    local_sums ph ds (a, b) = (a, b) := by
  induction ds generalizing a b with
  | nil => rfl
  | cons d ds ih =>
    obtain ⟨h1, h2⟩ := h d (List.mem_cons_self d ds)
    simp only [local_sums, h1, h2, if_false]
    exact ih a b (fun d' hd' => h d' (List.mem_cons_of_mem d hd'))

theorem get_as_ratio_cases (gr : splice_graph) (ph : phaser) (v : Nat) (r1 r2 : ℚ)
    (h : get_as_ratio gr ph v = some (r1, r2)) :
    (r1 = -1 ∧ r2 = -1) ∨
      (r2 = 1 - r1 ∧ 0 < r1 ∧ r1 < 1 ∧
        ∃ d, incident gr d v ∧ (0 < wt ph.ewrt1 d ∨ 0 < wt ph.ewrt2 d)) := by
  unfold get_as_ratio at h
  cases hs : local_sums ph (gr.out_edges v) (local_sums ph (gr.in_edges v) (0, 0)) with
  | mk l1 l2 =>
    simp only [hs] at h
    by_cases h1 : 0 ≤ l1
    · by_cases h2 : 0 ≤ l2
      · by_cases h3 : l1 + l2 ≤ 0
        · simp only [h1, h2, h3, not_true_eq_false, if_false, if_true, Option.some.injEq,
            Prod.mk.injEq] at h
          exact Or.inl ⟨h.1.symm, h.2.symm⟩
        · right
          simp only [h1, h2, h3, not_true_eq_false, if_false] at h
          rw [normalize_epsilon_of_pos l1 l2 h1 h2 (not_le.mp h3)] at h
          simp only [Option.some.injEq, Prod.mk.injEq] at h
          obtain ⟨hr1, hr2⟩ := h
          have hb := normalize_epsilon_ratio_bounds l1 l2 h1 h2
          rw [hr1] at hb hr2
          refine ⟨hr2.symm, hb.1, hb.2, ?_⟩
          by_contra hno
          push_neg at hno
          have hin : local_sums ph (gr.in_edges v) (0, 0) = (0, 0) :=
            local_sums_of_no_pos ph _ 0 0 (fun d hd =>
              ⟨not_lt.mpr (hno d (Or.inl hd)).1, not_lt.mpr (hno d (Or.inl hd)).2⟩)
          have hout : local_sums ph (gr.out_edges v) (0, 0) = (0, 0) :=
            local_sums_of_no_pos ph _ 0 0 (fun d hd =>
              ⟨not_lt.mpr (hno d (Or.inr hd)).1, not_lt.mpr (hno d (Or.inr hd)).2⟩)
          rw [hin, hout] at hs
          simp only [Prod.mk.injEq] at hs
          rw [← hs.1, ← hs.2] at h3
          norm_num at h3
      · simp [h1, h2] at h
    · simp [h1] at h

theorem split_local_true (gr : splice_graph) (ph ph1 : phaser) (i : Nat)
    (h : split_local gr ph i = some (ph1, true)) :
    ∃ r, get_as_ratio gr ph i = some (r, 1 - r) ∧
      (∃ d, incident gr d i ∧ (0 < wt ph.ewrt1 d ∨ 0 < wt ph.ewrt2 d)) ∧
      split_by_ratio gr ph i r = some (ph1, true) := by
  unfold split_local at h
  cases hr : get_as_ratio gr ph i with
  | none => simp [hr] at h
  | some r =>
    obtain ⟨r1, r2⟩ := r
    simp only [hr] at h
    rcases get_as_ratio_cases gr ph i r1 r2 hr with ⟨h1, h2⟩ | ⟨h2, h0, h1, hd⟩
    · subst h1 h2
      norm_num at h
    · subst h2
      have e1 : ¬ (r1 < 0 ∧ ¬ (1 - r1 < 0)) := fun hh => absurd hh.1 (not_lt.mpr (le_of_lt h0))
      have e2 : ¬ (1 - r1 < 0 ∧ ¬ (r1 < 0)) := fun hh => by linarith [hh.1]
      have e3 : ¬ (r1 + (1 - r1) ≤ 0) := by norm_num
      simp only [e1, e2, e3, if_false] at h
      exact ⟨r1, rfl, hd, h⟩

theorem locally_split_step (gr : splice_graph) (ph0 : phaser) (ns0 : List Nat)
    (ph ph1 : phaser) (ns : List Nat) (i : Nat) (hinv : locally_split gr ph0 ns0 ph ns)
    (hi : i ∈ ns) (h : split_local gr ph i = some (ph1, true)) :
    locally_split gr ph0 ns0 ph1 (set_erase i ns) := by
  obtain ⟨r, hratio, hpos, hsplit⟩ := split_local_true gr ph ph1 i h
  obtain ⟨hkept, hwith, -, hother⟩ := split_by_ratio_vwrt gr ph ph1 i r true hsplit
  refine ⟨weights_kept_trans ph0 ph ph1 hinv.1 hkept, ?_⟩
  intro v hv0 hv
  by_cases hvi : v = i
  · subst hvi
    exact ⟨r, ph, hinv.1, hkept, hpos, hratio, hwith⟩
  · have hvns : v ∉ ns := fun hh => hv ((mem_set_erase i v ns).mpr ⟨hh, hvi⟩)
    obtain ⟨r', ph_mid, k1, k2, hp, hr, hw0, hw1, hw2, hw3⟩ := hinv.2 v hv0 hvns
    refine ⟨r', ph_mid, k1, weights_kept_trans ph_mid ph ph1 k2 hkept, hp, hr, hw0, hw1, ?_, ?_⟩
    · rw [(hother v hvi).1, hw2]
    · rw [(hother v hvi).2, hw3]

theorem local_for_vertices (gr : splice_graph) (ph0 : phaser) (ns0 : List Nat)
    (vi : List Nat) :
    ∀ (ph : phaser) (ns : List Nat) (ph' : phaser) (ns' : List Nat),
      local_for gr vi (ph, ns) = some (ph', ns') → locally_split gr ph0 ns0 ph ns →
      locally_split gr ph0 ns0 ph' ns' := by
  induction vi with
  | nil =>
    intro ph ns ph' ns' h hinv
    simp only [local_for, Option.some.injEq, Prod.mk.injEq] at h
    obtain ⟨rfl, rfl⟩ := h
    exact hinv
  | cons i vi ih =>
    intro ph ns ph' ns' h hinv
    rw [local_for] at h
    cases hs : split_local gr ph i with
    | none => simp [hs] at h
    | some st =>
      obtain ⟨ph1, b⟩ := st
      simp only [hs] at h
      cases b with
      | false =>
        simp only [Bool.false_eq_true, if_false, Option.some.injEq, Prod.mk.injEq] at h
        obtain ⟨rfl, rfl⟩ := h
        exact hinv
      | true =>
        simp only [if_true] at h
        by_cases hi : i ∈ ns
        · simp only [hi, if_true] at h
          exact ih _ _ _ _ h (locally_split_step gr ph0 ns0 ph ph1 ns i hinv hi hs)
        · simp [hi] at h

theorem local_while_vertices (gr : splice_graph) (ph0 : phaser) (ns0 : List Nat)
    (fuel : Nat) :
    ∀ (ph : phaser) (ns : List Nat) (ph' : phaser) (ns' : List Nat),
      local_while gr fuel (ph, ns) = outcome.done (ph', ns') →
      locally_split gr ph0 ns0 ph ns → locally_split gr ph0 ns0 ph' ns' ∧ ns' = [] := by
  induction fuel with
  | zero =>
    intro ph ns ph' ns' h
    simp [local_while] at h
  | succ fuel ih =>
    intro ph ns ph' ns' h hinv
    rw [local_while] at h
    by_cases hn : 1 ≤ ns.length
    · simp only [hn, if_true] at h
      cases hv : sort_nodes_by_currecnt_mae gr ph ns with
      | none => simp [hv] at h
      | some vi =>
        simp only [hv] at h
        cases hf : local_for gr vi (ph, ns) with
        | none => simp [hf] at h
        | some st =>
          obtain ⟨ph1, ns1⟩ := st
          simp only [hf] at h
          exact ih _ _ _ _ h (local_for_vertices gr ph0 ns0 vi _ _ _ _ hf hinv)
    · simp only [hn, if_false, outcome.done.injEq, Prod.mk.injEq] at h
      obtain ⟨rfl, rfl⟩ := h
      exact ⟨hinv, List.length_eq_zero.mp (by omega)⟩

theorem globally_split_step (gr : splice_graph) (ph0 : phaser) (ns0 : List Nat)
    (ph ph1 : phaser) (ns : List Nat) (i : Nat) (b : Bool)
    (hinv : globally_split gr ph0 ns0 ph ns)
    (hi : i ∈ ns) (h : split_global gr ph i = some (ph1, b)) :
    globally_split gr ph0 ns0 ph1 (set_erase i ns) := by
  unfold split_global at h
  obtain ⟨-, hwith, hbg, hother⟩ := split_by_ratio_vwrt gr ph ph1 i _ b h
  refine ⟨hbg.trans hinv.1, ?_⟩
  intro v hv0 hv
  by_cases hvi : v = i
  · subst hvi
    rw [← hinv.1]
    exact hwith
  · have hvns : v ∉ ns := fun hh => hv ((mem_set_erase i v ns).mpr ⟨hh, hvi⟩)
    obtain ⟨hw0, hw1, hw2, hw3⟩ := hinv.2 v hv0 hvns
    refine ⟨hw0, hw1, ?_, ?_⟩
    · rw [(hother v hvi).1, hw2]
    · rw [(hother v hvi).2, hw3]

theorem global_for_vertices (gr : splice_graph) (ph0 : phaser) (ns0 : List Nat)
    (vi : List Nat) :
    ∀ (ph : phaser) (ns : List Nat) (ph' : phaser) (ns' : List Nat),
      global_for gr vi (ph, ns) = some (ph', ns') → globally_split gr ph0 ns0 ph ns →
      globally_split gr ph0 ns0 ph' ns' := by
  induction vi with
  | nil =>
    intro ph ns ph' ns' h hinv
    simp only [global_for, Option.some.injEq, Prod.mk.injEq] at h
    obtain ⟨rfl, rfl⟩ := h
    exact hinv
  | cons i vi ih =>
    intro ph ns ph' ns' h hinv
    rw [global_for] at h
    cases hs : split_global gr ph i with
    | none => simp [hs] at h
    | some st =>
      obtain ⟨ph1, b⟩ := st
      simp only [hs] at h
      by_cases hi : i ∈ ns
      · simp only [hi, if_true] at h
        exact ih _ _ _ _ h (globally_split_step gr ph0 ns0 ph ph1 ns i b hinv hi hs)
      · simp [hi] at h

theorem global_while_vertices (gr : splice_graph) (ph0 : phaser) (ns0 : List Nat)
    (fuel : Nat) :
    ∀ (ph : phaser) (ns : List Nat) (ph' : phaser) (ns' : List Nat),
      global_while gr fuel (ph, ns) = outcome.done (ph', ns') →
      globally_split gr ph0 ns0 ph ns → globally_split gr ph0 ns0 ph' ns' ∧ ns' = [] := by
  induction fuel with
  | zero =>
    intro ph ns ph' ns' h
    simp [global_while] at h
  | succ fuel ih =>
    intro ph ns ph' ns' h hinv
    rw [global_while] at h
    by_cases hn : 1 ≤ ns.length
    · simp only [hn, if_true] at h
      cases hv : sort_nodes_by_currecnt_mae gr ph ns with
      | none => simp [hv] at h
      | some vi =>
        simp only [hv] at h
        cases hf : global_for gr vi (ph, ns) with
        | none => simp [hf] at h
        | some st =>
          obtain ⟨ph1, ns1⟩ := st
          simp only [hf] at h
          exact ih _ _ _ _ h (global_for_vertices gr ph0 ns0 vi _ _ _ _ hf hinv)
    · simp only [hn, if_false, outcome.done.injEq, Prod.mk.injEq] at h
      obtain ⟨rfl, rfl⟩ := h
      exact ⟨hinv, List.length_eq_zero.mp (by omega)⟩

theorem global_while_nil (gr : splice_graph) (fuel : Nat) (ph ph' : phaser) (ns' : List Nat)
    (h : global_while gr fuel (ph, []) = outcome.done (ph', ns')) : ph' = ph := by
  cases fuel with
  | zero => simp [global_while] at h
  | succ fuel =>
    have h10 : ¬ (1 ≤ 0) := by omega
    simp only [global_while, List.length_nil, h10, if_false, outcome.done.injEq,
      Prod.mk.injEq] at h
    exact h.1.symm

/-- What `phaser::assign_gt` has done when it returns: for every phaser input, every
non-allelic vertex `v` of the non-zero sets has been split, `vwrt1[v] = weight · r`
and `vwrt2[v] = weight · (1 - r)` with `0 < r < 1` (both at least `0` when the weight
is): with fewer than `max_num_exons` vertices, `r` is the local ratio of `v`, which
`get_as_ratio` computed when `v` was split, `v` having then an incident edge with a
positive assigned weight; otherwise `r` is the background ratio `ratiobg1`, whether or
not `v` has an assigned incident edge. -/
theorem assign_gt_splits_vertices (fuel : Nat) (gr : splice_graph)
    (asnonzeroset nsnonzeroset : List Nat) (max_num_exons : Nat) (ph ph' : phaser)
    (h : assign_gt fuel gr asnonzeroset nsnonzeroset max_num_exons ph = outcome.done ph') :
    ∃ asnodes nsnodes,
      (classify_nodes gr asnonzeroset ([], [])).bind (classify_nodes gr nsnonzeroset) =
        some (asnodes, nsnodes) ∧
      (nsnodes.length + asnodes.length < max_num_exons →
        ∀ v, ns_vertex gr asnonzeroset nsnonzeroset v → split_by_local_ratio gr ph ph' v) ∧
      (¬ nsnodes.length + asnodes.length < max_num_exons →
        ∀ v, ns_vertex gr asnonzeroset nsnonzeroset v →
          split_with gr ph' v ph.ewrtratiobg1) ∧
      ∀ v, ns_vertex gr asnonzeroset nsnonzeroset v → 0 ≤ wt gr.vwrt v →
        0 ≤ wt ph'.vwrt1 v ∧ 0 ≤ wt ph'.vwrt2 v := by
  unfold assign_gt at h
  cases hc1 : classify_nodes gr asnonzeroset ([], []) with
  | none => simp [hc1] at h
  | some st0 =>
    obtain ⟨A0, N0⟩ := st0
    simp only [hc1] at h
    cases hc2 : classify_nodes gr nsnonzeroset (A0, N0) with
    | none => simp [hc2] at h
    | some st1 =>
      obtain ⟨asnodes, nsnodes⟩ := st1
      simp only [hc2] at h
      have hmem : ∀ v, ns_vertex gr asnonzeroset nsnonzeroset v → v ∈ nsnodes := by
        rintro v ⟨hv | hv, hvi⟩
        · exact (mem_classify_nodes gr _ _ _ _ _ hc2 v).mpr
            (Or.inl ((mem_classify_nodes gr _ _ _ _ _ hc1 v).mpr (Or.inr ⟨hv, hvi⟩)))
        · exact (mem_classify_nodes gr _ _ _ _ _ hc2 v).mpr (Or.inr ⟨hv, hvi⟩)
      have hnonneg : ∀ (v : Nat) (r : ℚ), split_with gr ph' v r → 0 ≤ wt gr.vwrt v →
          0 ≤ wt ph'.vwrt1 v ∧ 0 ≤ wt ph'.vwrt2 v := by
        rintro v r ⟨h0, h1, h2, h3⟩ hw
        rw [h2, h3]
        exact ⟨mul_nonneg hw (le_of_lt h0), mul_nonneg hw (by linarith)⟩
      by_cases ha : 1 ≤ asnodes.length
      · by_cases hn : 1 ≤ nsnodes.length
        · simp only [ha, hn, not_true_eq_false, if_false] at h
          by_cases hmax : nsnodes.length + asnodes.length < max_num_exons
          · simp only [hmax, if_true] at h
            cases hl : local_while gr fuel (ph, nsnodes) with
            | abort => simp [hl] at h
            | out_of_fuel => simp [hl] at h
            | done st =>
              obtain ⟨ph1, ns1⟩ := st
              simp only [hl] at h
              obtain ⟨hinv, hnil⟩ := local_while_vertices gr ph nsnodes fuel _ _ _ _ hl
                ⟨weights_kept_refl ph, fun v hv hv' => absurd hv hv'⟩
              subst hnil
              cases hg : global_while gr fuel (ph1, []) with
              | abort => simp [hg] at h
              | out_of_fuel => simp [hg] at h
              | done st2 =>
                obtain ⟨ph2, ns2⟩ := st2
                simp only [hg] at h
                have hph2 : ph2 = ph1 := global_while_nil gr fuel ph1 ph2 ns2 hg
                split_ifs at h
                simp only [outcome.done.injEq] at h
                subst h hph2
                have hall : ∀ v, ns_vertex gr asnonzeroset nsnonzeroset v →
                    split_by_local_ratio gr ph ph2 v :=
                  fun v hv => hinv.2 v (hmem v hv) (List.not_mem_nil v)
                refine ⟨asnodes, nsnodes, by simp [hc1, hc2], fun _ => hall,
                  fun hno => absurd hmax hno, ?_⟩
                intro v hv hw
                obtain ⟨r, -, -, -, -, -, hwith⟩ := hall v hv
                exact hnonneg v r hwith hw
          · simp only [hmax, if_false] at h
            cases hg : global_while gr fuel (ph, nsnodes) with
            | abort => simp [hg] at h
            | out_of_fuel => simp [hg] at h
            | done st2 =>
              obtain ⟨ph2, ns2⟩ := st2
              simp only [hg] at h
              obtain ⟨hinv, hnil⟩ := global_while_vertices gr ph nsnodes fuel _ _ _ _ hg
                ⟨rfl, fun v hv hv' => absurd hv hv'⟩
              subst hnil
              simp only [List.length_nil, if_true, outcome.done.injEq] at h
              subst h
              have hall : ∀ v, ns_vertex gr asnonzeroset nsnonzeroset v →
                  split_with gr ph2 v ph.ewrtratiobg1 :=
                fun v hv => hinv.2 v (hmem v hv) (List.not_mem_nil v)
              refine ⟨asnodes, nsnodes, by simp [hc1, hc2], fun hyes => absurd hyes hmax,
                fun _ => hall, ?_⟩
              intro v hv hw
              exact hnonneg v _ (hall v hv) hw
        · simp [ha, hn] at h
      · simp [ha] at h

/-- An instance of `assign_gt_splits_vertices`: on `example_cross` with
`max_num_exons = 1000` the non-allelic vertex `0` is split by its local ratio. -/
theorem assign_gt_splits_vertices_witness :
    assign_gt 3 example_cross [1, 2] [0] 1000 example_cross_init =
        outcome.done example_cross_assigned ∧
      ∃ asnodes nsnodes,
        (classify_nodes example_cross [1, 2] ([], [])).bind (classify_nodes example_cross [0]) =
          some (asnodes, nsnodes) ∧
        (nsnodes.length + asnodes.length < 1000 →
          ∀ v, ns_vertex example_cross [1, 2] [0] v →
            split_by_local_ratio example_cross example_cross_init example_cross_assigned v) ∧
        (¬ nsnodes.length + asnodes.length < 1000 →
          ∀ v, ns_vertex example_cross [1, 2] [0] v →
            split_with example_cross example_cross_assigned v
              example_cross_init.ewrtratiobg1) ∧
        ∀ v, ns_vertex example_cross [1, 2] [0] v → 0 ≤ wt example_cross.vwrt v →
          0 ≤ wt example_cross_assigned.vwrt1 v ∧ 0 ≤ wt example_cross_assigned.vwrt2 v :=
  ⟨assign_example_cross,
    assign_gt_splits_vertices 3 example_cross [1, 2] [0] 1000 example_cross_init
      example_cross_assigned assign_example_cross⟩

theorem example_stuck_edges :
    example_stuck.in_edges 0 = [] ∧ example_stuck.out_edges 0 = [0] ∧
    example_stuck.in_edges 3 = [1] ∧ example_stuck.out_edges 3 = [] := by
  decide

theorem init_example_stuck : init example_stuck = some example_init := by
  simp [init, init_state, init_loop, init_vertex, init_edges, example_stuck, normalize_epsilon,
    epsilon, example_init, splice_graph.in_edges, splice_graph.out_edges, splice_graph.edges,
    List.range, List.range.loop, wt]
  norm_num

theorem ratio_example_stuck :
    get_as_ratio example_stuck example_init 0 = some (201 / 202, 1 / 202) ∧
      get_as_ratio example_stuck example_init 3 = some (-1, -1) ∧
      get_as_ratio example_stuck example_assigned 3 = some (-1, -1) := by
  refine ⟨?_, ?_, ?_⟩
  · simp [get_as_ratio, example_stuck_edges, local_sums, example_init, normalize_epsilon,
      epsilon, wt]
    norm_num
  · simp [get_as_ratio, example_stuck_edges, local_sums, example_init, wt]
    norm_num
  · simp [get_as_ratio, example_stuck_edges, local_sums, example_init, example_assigned, wt]
    norm_num

theorem sort_example_stuck :
    sort_nodes_by_currecnt_mae example_stuck example_init [0, 3] = some [0] ∧
      sort_nodes_by_currecnt_mae example_stuck example_assigned [3] = some [] := by
  constructor
  · simp [sort_nodes_by_currecnt_mae, nodes_mae, ratio_example_stuck]
    norm_num [mae_descending_ok_single]
  · simp [sort_nodes_by_currecnt_mae, nodes_mae, ratio_example_stuck, mae_descending_ok]

theorem split_example_stuck :
    split_local example_stuck example_init 0 = some (example_assigned, true) := by
  simp only [split_local, ratio_example_stuck, split_by_ratio, example_stuck_edges, split_edges]
  norm_num [example_init, example_assigned, example_stuck, wt]

theorem local_while_example_stuck (fuel : Nat) :
    local_while example_stuck fuel (example_assigned, [3]) = outcome.out_of_fuel := by
  induction fuel with
  | zero => rfl
  | succ fuel ih =>
    simp only [local_while, List.length_singleton, le_refl, if_true, sort_example_stuck.2,
      local_for]
    exact ih

theorem assign_example_stuck (fuel : Nat) :
    assign_gt fuel example_stuck [1, 2] [0, 3] 1000 example_init = outcome.out_of_fuel := by
  have h1 : classify_nodes example_stuck [1, 2] ([], []) = some ([1, 2], []) := by decide
  have h2 : classify_nodes example_stuck [0, 3] ([1, 2], []) = some ([1, 2], [0, 3]) := by
    decide
  cases fuel with
  | zero => simp [assign_gt, h1, h2, local_while]
  | succ fuel =>
    simp [assign_gt, h1, h2, local_while, sort_example_stuck.1, local_for, split_example_stuck,
      set_erase, local_while_example_stuck]

theorem split_global_example_cross :
    split_global example_cross example_cross_init 0 = some (example_cross_global, true) := by
  simp only [split_global, split_by_ratio, example_cross_edges, split_edges]
  norm_num [example_cross_init, example_cross_global, example_cross, wt]

theorem assign_example_cross_global :
    assign_gt 2 example_cross [1, 2] [0] 0 example_cross_init =
      outcome.done example_cross_global := by
  have h1 : classify_nodes example_cross [1, 2] ([], []) = some ([1, 2], []) := by decide
  have h2 : classify_nodes example_cross [0] ([1, 2], []) = some ([1, 2], [0]) := by decide
  simp [assign_gt, h1, h2, global_while, sort_example_cross, global_for,
    split_global_example_cross, set_erase]

/-- Claim C13 (what the code does on the failing input): on `example_stuck`, where the
non-allelic vertex `3` of the non-zero sets has no assigned incident edge, `assign_gt`
(after `init`, with `max_num_exons = 1000`) uses up every amount of fuel: it does not
terminate, and vertex `3` is not split by the background ratio; and on `example_cross` with
`max_num_exons = 0` the vertex `0`, whose edge to the `ALLELE1` vertex `1` is assigned
and whose local ratio is `201/202`, is split by the background ratio `501/802`. -/
theorem assign_gt_loops_on_unreached_vertex :
    init example_stuck = some example_init ∧
      ns_vertex example_stuck [1, 2] [0, 3] 3 ∧
      (∀ fuel, assign_gt fuel example_stuck [1, 2] [0, 3] 1000 example_init =
        outcome.out_of_fuel) ∧
      init example_cross = some example_cross_init ∧
      assign_gt 2 example_cross [1, 2] [0] 0 example_cross_init =
        outcome.done example_cross_global ∧
      get_as_ratio example_cross example_cross_init 0 = some (201 / 202, 1 / 202) ∧
      wt example_cross_global.vwrt1 0 = wt example_cross.vwrt 0 * (501 / 802) ∧
      wt example_cross_global.vwrt1 0 ≠ wt example_cross.vwrt 0 * (201 / 202) := by
  refine ⟨init_example_stuck, ⟨Or.inr (by decide), { gt := genotype.UNPHASED, as_vertex := false }, by decide, rfl⟩, assign_example_stuck,
    init_example_cross, assign_example_cross_global, ratio_example_cross, ?_, ?_⟩
  · norm_num [example_cross_global, example_cross, wt]
  · norm_num [example_cross_global, example_cross, wt]

/-! ### `phaser::init`: the vertex that writes an edge last -/

theorem init_loop_cons (gr : splice_graph) (i : Nat) (v0 : vertex_info) (vs : List vertex_info)
    (ph ph' : phaser) (h : init_loop gr i (v0 :: vs) ph = some ph')
    (h1 : ph.ewrt1.length = gr.ewrt.length) (h2 : ph.ewrt2.length = gr.ewrt.length) :
    ∃ ph1, init_loop gr (i + 1) vs ph1 = some ph' ∧
      ph1.ewrt1.length = gr.ewrt.length ∧ ph1.ewrt2.length = gr.ewrt.length ∧
      (∀ a, v0.gt = allele_gt a → ∀ d, incident gr d i → allele_full gr ph1 d a) ∧
      ((v0.gt ≠ genotype.ALLELE1 ∧ v0.gt ≠ genotype.ALLELE2) → ph1 = ph) := by
  rw [init_loop] at h
  by_cases g1 : v0.gt = genotype.ALLELE1
  · simp only [g1, if_true] at h
    cases hv : init_vertex gr i true ph with
    | none => simp [hv] at h
    | some ph1 =>
      simp only [hv] at h
      obtain ⟨l1, l2, hd⟩ := init_vertex_wt gr i true ph ph1 hv h1 h2
      refine ⟨ph1, h, l1, l2, ?_, fun hh => absurd g1 hh.1⟩
      intro a ha d hinc
      have : a = true := by
        cases a with
        | true => rfl
        | false => rw [g1] at ha; simp [allele_gt] at ha
      subst this
      exact (hd d).1 hinc
  · by_cases g2 : v0.gt = genotype.ALLELE2
    · simp only [g1, g2, if_true, if_false] at h
      cases hv : init_vertex gr i false ph with
      | none => simp [hv] at h
      | some ph1 =>
        simp only [hv] at h
        obtain ⟨l1, l2, hd⟩ := init_vertex_wt gr i false ph ph1 hv h1 h2
        refine ⟨ph1, h, l1, l2, ?_, fun hh => absurd g2 hh.2⟩
        intro a ha d hinc
        have : a = false := by
          cases a with
          | false => rfl
          | true => rw [g2] at ha; simp [allele_gt] at ha
        subst this
        exact (hd d).1 hinc
    · simp only [g1, g2, if_false] at h
      refine ⟨ph, h, h1, h2, ?_, fun _ => rfl⟩
      intro a ha
      cases a with
      | true => exact absurd ha g1
      | false => exact absurd ha g2

theorem init_loop_last (gr : splice_graph) (vs : List vertex_info) :
    ∀ (i : Nat) (ph ph' : phaser), init_loop gr i vs ph = some ph' →
      ph.ewrt1.length = gr.ewrt.length → ph.ewrt2.length = gr.ewrt.length →
      ∀ (d j : Nat) (v : vertex_info) (a : Bool), vs[j]? = some v → v.gt = allele_gt a →
        incident gr d (i + j) →
        (∀ (j' : Nat) (v' : vertex_info), j < j' → vs[j']? = some v' →
          (v'.gt = genotype.ALLELE1 ∨ v'.gt = genotype.ALLELE2) → ¬ incident gr d (i + j')) →
        allele_full gr ph' d a := by
  induction vs with
  | nil =>
    intro i ph ph' _ _ _ d j v a hv
    simp at hv
  | cons v0 vs ih =>
    intro i ph ph' h h1 h2 d j v a hv hgt hinc hlast
    obtain ⟨ph1, hrest, l1, l2, hfull, -⟩ := init_loop_cons gr i v0 vs ph ph' h h1 h2
    cases j with
    | zero =>
      simp only [List.getElem?_cons_zero, Option.some.injEq] at hv
      subst hv
      have hf1 : allele_full gr ph1 d a := hfull a hgt d (by simpa using hinc)
      obtain ⟨-, -, hwt⟩ := init_loop_wt gr vs (i + 1) ph1 ph' hrest l1 l2
      have hnone : ¬ (∃ j v, vs[j]? = some v ∧
          (v.gt = genotype.ALLELE1 ∨ v.gt = genotype.ALLELE2) ∧ incident gr d (i + 1 + j)) := by
        rintro ⟨j', v', hv', hg', hinc'⟩
        refine hlast (j' + 1) v' (by omega) (by simpa using hv') hg' ?_
        rw [show i + (j' + 1) = i + 1 + j' by omega]
        exact hinc'
      obtain ⟨e1, e2⟩ := (hwt d).2 hnone
      unfold allele_full at hf1 ⊢
      rw [e1, e2]
      exact hf1
    | succ j =>
      simp only [List.getElem?_cons_succ] at hv
      refine ih (i + 1) ph1 ph' hrest l1 l2 d j v a hv hgt ?_ ?_
      · rw [show i + 1 + j = i + (j + 1) by omega]
        exact hinc
      · intro j' v' hj' hv' hg'
        rw [show i + 1 + j' = i + (j' + 1) by omega]
        exact hlast (j' + 1) v' (by omega) (by simpa using hv') hg'

theorem init_last_writer (gr : splice_graph) (ph : phaser) (h : init gr = some ph)
    (d u : Nat) (a : Bool) (hu : has_gt gr u (allele_gt a)) (hinc : incident gr d u)
    (hlast : ∀ u', u < u' → ¬ incident gr d u') : allele_full gr ph d a := by
  unfold init at h
  cases hloop : init_loop gr 0 gr.vinf (init_state gr) with
  | none => rw [hloop] at h; exact absurd h (by simp)
  | some ph0 =>
    rw [hloop] at h
    obtain ⟨vi, hvi, hgt⟩ := hu
    have hfull := init_loop_last gr gr.vinf 0 (init_state gr) ph0 hloop
      (by simp [init_state]) (by simp [init_state]) d u vi a hvi hgt (by simpa using hinc)
      (fun j' v' hj' _ _ => by simpa using hlast j' hj')
    cases hn : normalize_epsilon ph0.ewrtbg1 ph0.ewrtbg2 with
    | none => simp [hn] at h
    | some r =>
      simp only [hn] at h
      split_ifs at h
      simp only [Option.some.injEq] at h
      subst h
      exact hfull

/-! ### `phaser::refine_allelic_graphs` -/

theorem global_for_kept (gr : splice_graph) (vi : List Nat) :
    ∀ (ph : phaser) (ns : List Nat) (ph' : phaser) (ns' : List Nat),
      global_for gr vi (ph, ns) = some (ph', ns') → weights_kept ph ph' := by
  induction vi with
  | nil =>
    intro ph ns ph' ns' h
    simp only [global_for, Option.some.injEq, Prod.mk.injEq] at h
    obtain ⟨rfl, rfl⟩ := h
    exact weights_kept_refl ph
  | cons i vi ih =>
    intro ph ns ph' ns' h
    rw [global_for] at h
    cases hs : split_global gr ph i with
    | none => simp [hs] at h
    | some st =>
      obtain ⟨ph1, b⟩ := st
      simp only [hs] at h
      by_cases hi : i ∈ ns
      · simp only [hi, if_true] at h
        unfold split_global at hs
        exact weights_kept_trans ph ph1 ph' (split_by_ratio_vwrt gr ph ph1 i _ b hs).1
          (ih _ _ _ _ h)
      · simp [hi] at h

theorem global_while_kept (gr : splice_graph) (fuel : Nat) :
    ∀ (ph : phaser) (ns : List Nat) (ph' : phaser) (ns' : List Nat),
      global_while gr fuel (ph, ns) = outcome.done (ph', ns') → weights_kept ph ph' := by
  induction fuel with
  | zero =>
    intro ph ns ph' ns' h
    simp [global_while] at h
  | succ fuel ih =>
    intro ph ns ph' ns' h
    rw [global_while] at h
    by_cases hn : 1 ≤ ns.length
    · simp only [hn, if_true] at h
      cases hv : sort_nodes_by_currecnt_mae gr ph ns with
      | none => simp [hv] at h
      | some vi =>
        simp only [hv] at h
        cases hf : global_for gr vi (ph, ns) with
        | none => simp [hf] at h
        | some st =>
          obtain ⟨ph1, ns1⟩ := st
          simp only [hf] at h
          exact weights_kept_trans ph ph1 ph' (global_for_kept gr vi _ _ _ _ hf) (ih _ _ _ _ h)
    · simp only [hn, if_false, outcome.done.injEq, Prod.mk.injEq] at h
      obtain ⟨rfl, rfl⟩ := h
      exact weights_kept_refl ph

theorem assign_gt_weights_kept (fuel : Nat) (gr : splice_graph)
    (asnonzeroset nsnonzeroset : List Nat) (max_num_exons : Nat) (ph ph' : phaser)
    (h : assign_gt fuel gr asnonzeroset nsnonzeroset max_num_exons ph = outcome.done ph') :
    weights_kept ph ph' := by
  unfold assign_gt at h
  cases hc1 : classify_nodes gr asnonzeroset ([], []) with
  | none => simp [hc1] at h
  | some st0 =>
    simp only [hc1] at h
    cases hc2 : classify_nodes gr nsnonzeroset st0 with
    | none => simp [hc2] at h
    | some st1 =>
      obtain ⟨asnodes, nsnodes⟩ := st1
      simp only [hc2] at h
      split_ifs at h with ha hn hmax
      · cases hl : local_while gr fuel (ph, nsnodes) with
        | abort => simp [hl] at h
        | out_of_fuel => simp [hl] at h
        | done st =>
          obtain ⟨ph1, ns1⟩ := st
          simp only [hl] at h
          have k1 : weights_kept ph ph1 :=
            (local_while_vertices gr ph [] fuel _ _ _ _ hl
              ⟨weights_kept_refl ph, fun v hv => absurd hv (List.not_mem_nil v)⟩).1.1
          cases hg : global_while gr fuel (ph1, ns1) with
          | abort => simp [hg] at h
          | out_of_fuel => simp [hg] at h
          | done st2 =>
            obtain ⟨ph2, ns2⟩ := st2
            simp only [hg] at h
            split_ifs at h
            simp only [outcome.done.injEq] at h
            subst h
            exact weights_kept_trans ph ph1 ph2 k1 (global_while_kept gr fuel _ _ _ _ hg)
      · cases hg : global_while gr fuel (ph, nsnodes) with
        | abort => simp [hg] at h
        | out_of_fuel => simp [hg] at h
        | done st2 =>
          obtain ⟨ph2, ns2⟩ := st2
          simp only [hg] at h
          split_ifs at h
          simp only [outcome.done.injEq] at h
          subst h
          exact global_while_kept gr fuel _ _ _ _ hg

theorem remove_light_edges_fields (m : ℚ) (es : List Nat) (g : splice_graph) :
    (remove_light_edges m es g).vinf = g.vinf ∧ (remove_light_edges m es g).vwrt = g.vwrt ∧
      (remove_light_edges m es g).edge_ends = g.edge_ends ∧
      (remove_light_edges m es g).ewrt = g.ewrt ∧
      ∀ d, d ∈ (remove_light_edges m es g).removed ↔
        d ∈ g.removed ∨ (d ∈ es ∧ wt g.ewrt d < m) := by
  induction es generalizing g with
  | nil => exact ⟨rfl, rfl, rfl, rfl, by simp [remove_light_edges]⟩
  | cons e es ih =>
    simp only [remove_light_edges]
    by_cases hlt : wt g.ewrt e < m
    · rw [if_pos hlt]
      obtain ⟨h1, h2, h3, h4, h5⟩ := ih (g.remove_edge e)
      refine ⟨h1, h2, h3, h4, ?_⟩
      intro d
      rw [h5]
      simp only [splice_graph.remove_edge, List.mem_cons]
      constructor
      · rintro ((rfl | h) | ⟨h, hw⟩)
        · exact Or.inr ⟨Or.inl rfl, hlt⟩
        · exact Or.inl h
        · exact Or.inr ⟨Or.inr h, hw⟩
      · rintro (h | ⟨rfl | h, hw⟩)
        · exact Or.inl (Or.inr h)
        · exact Or.inl (Or.inl rfl)
        · exact Or.inr ⟨h, hw⟩
    · rw [if_neg hlt]
      obtain ⟨h1, h2, h3, h4, h5⟩ := ih g
      refine ⟨h1, h2, h3, h4, ?_⟩
      intro d
      rw [h5]
      simp only [List.mem_cons]
      constructor
      · rintro (h | ⟨h, hw⟩)
        · exact Or.inl h
        · exact Or.inr ⟨Or.inr h, hw⟩
      · rintro (h | ⟨rfl | h, hw⟩)
        · exact Or.inl h
        · exact absurd hw hlt
        · exact Or.inr ⟨h, hw⟩

theorem mem_edges_remove_light_edges (m : ℚ) (g : splice_graph) (d : Nat) :
    d ∈ (remove_light_edges m g.edges g).edges ↔ d ∈ g.edges ∧ ¬ wt g.ewrt d < m := by
  obtain ⟨-, -, h3, -, h5⟩ := remove_light_edges_fields m g.edges g
  rw [mem_edges, h3, h5, mem_edges]
  constructor
  · rintro ⟨h1, h2⟩
    push_neg at h2
    refine ⟨⟨h1, h2.1⟩, fun hw => ?_⟩
    exact absurd hw (not_lt.mpr (h2.2 ⟨h1, h2.1⟩))
  · rintro ⟨⟨h1, h2⟩, hw⟩
    refine ⟨h1, ?_⟩
    rintro (h | ⟨-, h⟩)
    · exact h2 h
    · exact hw h

theorem edges_removed_only_remove_light_edges (m : ℚ) (g : splice_graph) :
    edges_removed_only g (remove_light_edges m g.edges g) := by
  obtain ⟨h1, h2, h3, h4, -⟩ := remove_light_edges_fields m g.edges g
  exact ⟨h1, h2, h3, h4, fun d hd => ((mem_edges_remove_light_edges m g d).mp hd).1⟩

theorem length_edges_le_of_removed_only (g g' : splice_graph) (h : edges_removed_only g g') :
    g'.edges.length ≤ g.edges.length := by
  have hnodup : g'.edges.Nodup := (List.nodup_range _).filter _
  exact (hnodup.subperm (fun d hd => h.2.2.2.2 d hd)).length_le

theorem in_degree_eq_zero_iff (g : splice_graph) (u : Nat) :
    g.in_degree u = 0 ↔ ∀ d ∈ g.edges, edge_target g d ≠ u := by
  simp only [splice_graph.in_degree, List.length_eq_zero, List.eq_nil_iff_forall_not_mem,
    mem_in_edges, edge_target, not_and]

theorem avoids_iff_degree (g : splice_graph) (u : Nat) : avoids g u ↔ g.degree u = 0 := by
  rw [degree_eq_zero_iff]
  rfl

theorem in_degree_zero_mono (g g' : splice_graph) (h : edges_removed_only g g') (u : Nat)
    (h0 : g.in_degree u = 0) : g'.in_degree u = 0 := by
  rw [in_degree_eq_zero_iff] at h0 ⊢
  intro d hd
  have := h0 d (h.2.2.2.2 d hd)
  simpa only [edge_target, h.2.2.1] using this

theorem degree_zero_mono (g g' : splice_graph) (h : edges_removed_only g g') (u : Nat)
    (h0 : g.degree u = 0) : g'.degree u = 0 := by
  rw [degree_eq_zero_iff] at h0 ⊢
  intro d hd
  have := h0 d (h.2.2.2.2 d hd)
  simpa only [h.2.2.1] using this

theorem degree_clear_vertex (g : splice_graph) (u : Nat) : (g.clear_vertex u).degree u = 0 := by
  rw [degree_eq_zero_iff]
  intro d hd
  exact ((mem_edges_clear_vertex g u d).mp hd).2

theorem refine_for_clears (l : List Nat) (g : splice_graph) (b : Bool) (u : Nat) (hu : u ∈ l)
    (h0 : g.in_degree u = 0) : (refine_for l (g, b)).1.degree u = 0 := by
  induction l generalizing g b with
  | nil => simp at hu
  | cons i l ih =>
    simp only [refine_for]
    by_cases hiu : i = u
    · subst hiu
      split
      · rename_i hd
        exact degree_zero_mono g _ (refine_for_shrinks l g b).1 i hd
      · split
        · rename_i hd
          omega
        · exact degree_zero_mono _ _ (refine_for_shrinks l (g.clear_vertex i) true).1 i
            (degree_clear_vertex g i)
    · have hul : u ∈ l := by
        rcases List.mem_cons.mp hu with h | h
        · exact absurd h.symm hiu
        · exact h
      split
      · exact ih g b hul h0
      · split
        · exact ih g b hul h0
        · exact ih _ true hul
            (in_degree_zero_mono g _ (edges_removed_only_clear_vertex g i) u h0)

theorem refine_while_removed_only (fuel : Nat) (g g' : splice_graph)
    (h : refine_while fuel g = outcome.done g') : edges_removed_only g g' := by
  induction fuel generalizing g with
  | zero => simp [refine_while] at h
  | succ fuel ih =>
    have hs := refine_for_shrinks (internal_vertices g) g false
    cases hfor : refine_for (internal_vertices g) (g, false) with
    | mk g1 b =>
      rw [hfor] at hs
      simp only [refine_while, hfor] at h
      cases b with
      | false =>
        simp only [if_true, outcome.done.injEq] at h
        subst h
        exact hs.1
      | true =>
        simp only [Bool.true_eq_false, if_false] at h
        exact edges_removed_only_trans hs.1 (ih g1 h)

theorem refine_while_clears (fuel : Nat) (g g' : splice_graph)
    (h : refine_while fuel g = outcome.done g') (u : Nat) (hu : u ∈ internal_vertices g)
    (h0 : g.in_degree u = 0) : g'.degree u = 0 := by
  cases fuel with
  | zero => simp [refine_while] at h
  | succ fuel =>
    have hc := refine_for_clears (internal_vertices g) g false u hu h0
    cases hfor : refine_for (internal_vertices g) (g, false) with
    | mk g1 b =>
      rw [hfor] at hc
      simp only [refine_while, hfor] at h
      cases b with
      | false =>
        simp only [if_true, outcome.done.injEq] at h
        subst h
        exact hc
      | true =>
        simp only [Bool.true_eq_false, if_false] at h
        exact degree_zero_mono g1 g' (refine_while_removed_only fuel g1 g' h) u hc

theorem allele_graph_avoids (gr : splice_graph) (vw e : List ℚ) (m : ℚ) (hm : 0 < m)
    (hasc : edges_ascend gr) (u : Nat) (hu0 : 0 < u) (hun : u < gr.num_vertices)
    (hzero : ∀ d, d ∈ gr.in_edges u → wt e d = 0) (fuel : Nat) (g' : splice_graph)
    (h : refine_allelic_graph fuel m { gr with vwrt := vw, ewrt := e } = outcome.done g') :
    avoids g' u := by
  obtain ⟨g0, hg0⟩ : ∃ g0 : splice_graph, g0 = { gr with vwrt := vw, ewrt := e } := ⟨_, rfl⟩
  rw [← hg0] at h
  have hedges : g0.edges = gr.edges := by rw [hg0]; rfl
  have hends : g0.edge_ends = gr.edge_ends := by rw [hg0]
  have hewrt : g0.ewrt = e := by rw [hg0]
  have hnum : g0.num_vertices = gr.num_vertices := by rw [hg0]; rfl
  unfold refine_allelic_graph at h
  have hro := edges_removed_only_remove_light_edges m g0
  have hin : (remove_light_edges m g0.edges g0).in_degree u = 0 := by
    rw [in_degree_eq_zero_iff]
    intro d hd htarget
    obtain ⟨hd0, hw⟩ := (mem_edges_remove_light_edges m g0 d).mp hd
    have hdin : d ∈ gr.in_edges u := by
      rw [mem_in_edges, ← hedges]
      refine ⟨hd0, ?_⟩
      simpa only [edge_target, hro.2.2.1, hends] using htarget
    rw [hewrt, hzero d hdin] at hw
    exact hw hm
  rw [avoids_iff_degree]
  by_cases hint : u + 1 < gr.num_vertices
  · refine refine_while_clears fuel _ g' h u ?_ hin
    rw [mem_internal_vertices]
    refine ⟨hu0, ?_⟩
    have hv : (remove_light_edges m g0.edges g0).num_vertices = gr.num_vertices := by
      simp only [splice_graph.num_vertices, hro.1]
      rw [hg0]
    rw [hv]
    exact hint
  · refine degree_zero_mono _ g' (refine_while_removed_only fuel _ g' h) u ?_
    rw [degree_eq_zero_iff]
    intro d hd
    obtain ⟨hd0, -⟩ := (mem_edges_remove_light_edges m g0 d).mp hd
    rw [hedges] at hd0
    obtain ⟨h1, h2⟩ := hasc d hd0
    rw [in_degree_eq_zero_iff] at hin
    have ht := hin d hd
    simp only [edge_target, hro.2.2.1, hends] at ht
    simp only [hro.2.2.1, hends]
    refine ⟨?_, ht⟩
    intro hsrc
    simp only [edge_source, edge_target] at h1 h2
    omega

theorem refine_allelic_graph_done (gr : splice_graph) (vw e : List ℚ) (m : ℚ) :
    ∃ g', ∀ fuel, gr.edges.length < fuel →
      refine_allelic_graph fuel m { gr with vwrt := vw, ewrt := e } = outcome.done g' := by
  obtain ⟨g0, hg0⟩ : ∃ g0 : splice_graph, g0 = { gr with vwrt := vw, ewrt := e } := ⟨_, rfl⟩
  rw [← hg0]
  have hedges : g0.edges = gr.edges := by rw [hg0]; rfl
  have hlen := length_edges_le_of_removed_only g0 _ (edges_removed_only_remove_light_edges m g0)
  rw [hedges] at hlen
  obtain ⟨g', h1, -⟩ := refine_while_done (gr.edges.length + 1)
    (remove_light_edges m g0.edges g0) (by rw [hedges]; omega)
  exact ⟨g', fun fuel hfuel => refine_while_mono _ _ g' h1 fuel (by omega)⟩

theorem in_edge_zero_on_other_allele (fuel : Nat) (gr : splice_graph)
    (asnonzeroset nsnonzeroset : List Nat) (max_num_exons : Nat) (ph ph' : phaser)
    (hasc : edges_ascend gr) (hinit : init gr = some ph)
    (hassign : assign_gt fuel gr asnonzeroset nsnonzeroset max_num_exons ph = outcome.done ph')
    (a : Bool) (u : Nat) (hu : has_gt gr u (allele_gt a)) (d : Nat) (hd : d ∈ gr.in_edges u) :
    (a = false → wt ph'.ewrt1 d = 0) ∧ (a = true → wt ph'.ewrt2 d = 0) := by
  obtain ⟨hde, htarget⟩ := (mem_in_edges gr u d).mp hd
  obtain ⟨hlt, -⟩ := hasc d hde
  simp only [edge_source, edge_target] at hlt
  have hlast : ∀ u', u < u' → ¬ incident gr d u' := by
    rintro u' hu' (h | h)
    · have := ((mem_in_edges gr u' d).mp h).2
      omega
    · have := ((mem_out_edges gr u' d).mp h).2
      omega
  have hfull := init_last_writer gr ph hinit d u a hu (Or.inl hd) hlast
  have hkept := assign_gt_weights_kept fuel gr asnonzeroset nsnonzeroset max_num_exons ph ph'
    hassign
  unfold allele_full at hfull
  constructor
  · intro ha
    subst ha
    simp only [Bool.false_eq_true, if_false] at hfull
    rw [(hkept d).1 (by rw [hfull.1]), hfull.1]
  · intro ha
    subst ha
    simp only [if_true] at hfull
    rw [(hkept d).2 (by rw [hfull.2]), hfull.2]

/-- C16: for every splice graph whose edges all go from a lower to a higher vertex
index (the source, vertex `0`, carrying no allele), with
`min_guaranteed_edge_weight > 0`: after `init`, `assign_gt`, `split_gr` and
`refine_allelic_graphs` (which returns, its loops ending within as many rounds as the
graph has edges, plus one), the allele-1 graph has no edge with an end at a vertex of
genotype `ALLELE2` and the allele-2 graph has no edge with an end at a vertex of
genotype `ALLELE1`, so that no path of an allele graph passes through a vertex of the
other allele. -/
theorem allele_graphs_avoid_other_allele (fuel : Nat) (gr : splice_graph)
    (asnonzeroset nsnonzeroset : List Nat) (max_num_exons : Nat)
    (min_guaranteed_edge_weight : ℚ) (ph ph' : phaser)
    (hasc : edges_ascend gr) (hmin : 0 < min_guaranteed_edge_weight)
    (hsrc : ¬ has_gt gr 0 genotype.ALLELE1 ∧ ¬ has_gt gr 0 genotype.ALLELE2)
    (hinit : init gr = some ph)
    (hassign : assign_gt fuel gr asnonzeroset nsnonzeroset max_num_exons ph = outcome.done ph') :
    ∃ gr1 gr2,
      (∀ fuel', gr.edges.length < fuel' →
        refine_allelic_graphs fuel' min_guaranteed_edge_weight (split_gr gr ph') =
          outcome.done (gr1, gr2)) ∧
      (∀ u, has_gt gr u genotype.ALLELE2 → avoids gr1 u) ∧
      (∀ u, has_gt gr u genotype.ALLELE1 → avoids gr2 u) := by
  obtain ⟨gr1, h1⟩ := refine_allelic_graph_done gr ph'.vwrt1 ph'.ewrt1 min_guaranteed_edge_weight
  obtain ⟨gr2, h2⟩ := refine_allelic_graph_done gr ph'.vwrt2 ph'.ewrt2 min_guaranteed_edge_weight
  have hpos : ∀ (u : Nat) (a : genotype), has_gt gr u a → ¬ has_gt gr 0 a →
      0 < u ∧ u < gr.num_vertices := by
    intro u a hu h0
    constructor
    · rcases Nat.eq_zero_or_pos u with rfl | hp
      · exact absurd hu h0
      · exact hp
    · obtain ⟨vi, hvi, -⟩ := hu
      by_contra hge
      rw [List.getElem?_eq_none (by simpa [splice_graph.num_vertices] using hge)] at hvi
      simp at hvi
  refine ⟨gr1, gr2, ?_, ?_, ?_⟩
  · intro fuel' hfuel
    have e1 := h1 fuel' hfuel
    have e2 := h2 fuel' hfuel
    simp only [refine_allelic_graphs, split_gr, e1, e2]
  · intro u hu
    obtain ⟨hu0, hun⟩ := hpos u _ hu hsrc.2
    refine allele_graph_avoids gr ph'.vwrt1 ph'.ewrt1 min_guaranteed_edge_weight hmin hasc u
      hu0 hun ?_ (gr.edges.length + 1) gr1 (h1 _ (by omega))
    intro d hd
    exact (in_edge_zero_on_other_allele fuel gr asnonzeroset nsnonzeroset max_num_exons ph ph'
      hasc hinit hassign false u hu d hd).1 rfl
  · intro u hu
    obtain ⟨hu0, hun⟩ := hpos u _ hu hsrc.1
    refine allele_graph_avoids gr ph'.vwrt2 ph'.ewrt2 min_guaranteed_edge_weight hmin hasc u
      hu0 hun ?_ (gr.edges.length + 1) gr2 (h2 _ (by omega))
    intro d hd
    exact (in_edge_zero_on_other_allele fuel gr asnonzeroset nsnonzeroset max_num_exons ph ph'
      hasc hinit hassign true u hu d hd).2 rfl

theorem example_cross_source :
    ¬ has_gt example_cross 0 genotype.ALLELE1 ∧ ¬ has_gt example_cross 0 genotype.ALLELE2 := by
  constructor
  · rintro ⟨vi, hvi, hgt⟩
    simp only [example_cross, List.getElem?_cons_zero, Option.some.injEq] at hvi
    subst hvi
    simp at hgt
  · rintro ⟨vi, hvi, hgt⟩
    simp only [example_cross, List.getElem?_cons_zero, Option.some.injEq] at hvi
    subst hvi
    simp at hgt

theorem example_cross_ascends : edges_ascend example_cross := by
  unfold edges_ascend
  decide

/-- An instance of `allele_graphs_avoid_other_allele`: `example_cross`, whose edge from
the `ALLELE1` vertex `1` to the `ALLELE2` vertex `2` is in neither allele graph after
the refinement. -/
theorem allele_graphs_avoid_other_allele_witness :
    (edges_ascend example_cross ∧ (0 : ℚ) < 1 ∧
      (¬ has_gt example_cross 0 genotype.ALLELE1 ∧ ¬ has_gt example_cross 0 genotype.ALLELE2) ∧
      init example_cross = some example_cross_init ∧
      assign_gt 3 example_cross [1, 2] [0] 1000 example_cross_init =
        outcome.done example_cross_assigned) ∧
    ∃ gr1 gr2,
      (∀ fuel', example_cross.edges.length < fuel' →
        refine_allelic_graphs fuel' 1 (split_gr example_cross example_cross_assigned) =
          outcome.done (gr1, gr2)) ∧
      (∀ u, has_gt example_cross u genotype.ALLELE2 → avoids gr1 u) ∧
      (∀ u, has_gt example_cross u genotype.ALLELE1 → avoids gr2 u) :=
  ⟨⟨example_cross_ascends, by norm_num, example_cross_source, init_example_cross,
      assign_example_cross⟩,
    allele_graphs_avoid_other_allele 3 example_cross [1, 2] [0] 1000 1 example_cross_init
      example_cross_assigned example_cross_ascends (by norm_num) example_cross_source
      init_example_cross assign_example_cross⟩

/-! ### `bundle_bridge::build_regions` -/

theorem omap_find_put {κ β : Type} [DecidableEq κ] [LinearOrder κ] (m : List (κ × β)) (a : κ)
    (b : β) (k : κ) :
    map_find (omap_put m a b) k = if k = a then some b else map_find m k := by
  induction m with
  | nil => simp [omap_put, map_find]
  | cons p m ih =>
    obtain ⟨k0, v0⟩ := p
    unfold omap_put
    by_cases h1 : a = k0
    · subst h1
      rw [if_pos rfl]
      by_cases h2 : k = a
      · simp [map_find, h2]
      · simp [map_find, h2]
    · rw [if_neg h1]
      by_cases h2 : a < k0
      · rw [if_pos h2]
        by_cases h3 : k = a
        · simp [map_find, h3]
        · simp [map_find, h3]
      · rw [if_neg h2]
        by_cases h3 : k = a
        · subst h3
          simp [map_find, h1, ih]
        · by_cases h4 : k = k0
          · subst h4
            simp [map_find, h3]
          · simp [map_find, h4, h3, ih]

theorem mem_keys_omap_put {κ β : Type} [LinearOrder κ] (m : List (κ × β)) (a : κ) (b : β)
    (k : κ) : k ∈ (omap_put m a b).map Prod.fst ↔ k = a ∨ k ∈ m.map Prod.fst := by
  induction m with
  | nil => simp [omap_put]
  | cons p m ih =>
    obtain ⟨k0, v0⟩ := p
    unfold omap_put
    by_cases h1 : a = k0
    · subst h1
      rw [if_pos rfl]
      simp
    · rw [if_neg h1]
      by_cases h2 : a < k0
      · rw [if_pos h2]
        simp
      · rw [if_neg h2]
        simp only [List.map_cons, List.mem_cons, ih]
        tauto

/-- The keys of a map stand in ascending order, each once. -/
theorem omap_sorted_put {κ β : Type} [LinearOrder κ] (m : List (κ × β)) (a : κ) (b : β)
    (h : (m.map Prod.fst).Pairwise (fun x y => x < y)) :
    ((omap_put m a b).map Prod.fst).Pairwise (fun x y => x < y) := by
  induction m with
  | nil => simp [omap_put]
  | cons p m ih =>
    obtain ⟨k0, v0⟩ := p
    simp only [List.map_cons, List.pairwise_cons] at h
    unfold omap_put
    by_cases h1 : a = k0
    · subst h1
      rw [if_pos rfl]
      simp only [List.map_cons, List.pairwise_cons]
      exact h
    · rw [if_neg h1]
      by_cases h2 : a < k0
      · rw [if_pos h2]
        simp only [List.map_cons, List.pairwise_cons, List.mem_cons]
        refine ⟨?_, h⟩
        intro k hk
        rcases hk with rfl | hk
        · exact h2
        · exact lt_trans h2 (h.1 k hk)
      · rw [if_neg h2]
        simp only [List.map_cons, List.pairwise_cons]
        refine ⟨?_, ih h.2⟩
        intro k hk
        rcases (mem_keys_omap_put m a b k).mp hk with rfl | hk
        · exact lt_of_le_of_ne (not_lt.mp h2) (fun h => h1 h.symm)
        · exact h.1 k hk

theorem omap_find_of_mem {κ β : Type} [DecidableEq κ] [LinearOrder κ] (m : List (κ × β))
    (h : (m.map Prod.fst).Pairwise (fun x y => x < y)) (k : κ) (v : β) (hmem : (k, v) ∈ m) :
    map_find m k = some v := by
  induction m with
  | nil => simp at hmem
  | cons p m ih =>
    obtain ⟨k0, v0⟩ := p
    simp only [List.map_cons, List.pairwise_cons] at h
    simp only [map_find]
    rcases List.mem_cons.mp hmem with heq | hm
    · simp only [Prod.mk.injEq] at heq
      simp [heq.1, heq.2]
    · have hk : k0 < k := h.1 k (List.mem_map.mpr ⟨(k, v), hm, rfl⟩)
      rw [if_neg (ne_of_gt hk)]
      exact ih h.2 hm

theorem map_find_none_iff {κ β : Type} [DecidableEq κ] (m : List (κ × β)) (k : κ) :
    map_find m k = none ↔ k ∉ m.map Prod.fst := by
  induction m with
  | nil => simp [map_find]
  | cons p m ih =>
    obtain ⟨k0, v0⟩ := p
    simp only [map_find, List.map_cons, List.mem_cons, not_or]
    by_cases h : k = k0
    · simp [h]
    · simp [h, ih]

theorem map_find_some_of_mem_keys {κ β : Type} [DecidableEq κ] (m : List (κ × β)) (k : κ)
    (h : k ∈ m.map Prod.fst) : ∃ v, map_find m k = some v := by
  cases hf : map_find m k with
  | none => exact absurd h ((map_find_none_iff m k).mp hf)
  | some v => exact ⟨v, rfl⟩

theorem poses_seqs_inv_congr (m : List ((Int ×ₗ Int) × List (List Char × Int)))
    (obs obs' : as_pos → Prop) (h : ∀ p, obs p ↔ obs' p) (hinv : poses_seqs_inv m obs) :
    poses_seqs_inv m obs' := by
  have : obs = obs' := funext (fun p => propext (h p))
  rw [← this]
  exact hinv

theorem poses_seqs_inv_nil : poses_seqs_inv [] (fun _ => False) := by
  refine ⟨by simp, ?_, ?_⟩
  · intro key _ p hp
    exact hp.elim
  · intro key seqs h
    simp [map_find] at h

theorem poses_seqs_add_eq (m : List ((Int ×ₗ Int) × List (List Char × Int))) (p : as_pos) :
    ∃ seqs, poses_seqs_add m p = omap_put m (toLex (p.high32, p.low32)) seqs ∧
      ((map_find m (toLex (p.high32, p.low32)) = none ∧ seqs = [(p.ale, 1)]) ∨
        ∃ seqs0 c, map_find m (toLex (p.high32, p.low32)) = some seqs0 ∧
          seqs = omap_put seqs0 p.ale c) := by
  unfold poses_seqs_add
  cases h1 : map_find m (toLex (p.high32, p.low32)) with
  | none => exact ⟨_, rfl, Or.inl ⟨rfl, rfl⟩⟩
  | some seqs0 =>
    cases h2 : map_find seqs0 p.ale with
    | none =>
      simp only [h2]
      exact ⟨omap_put seqs0 p.ale 1, rfl, Or.inr ⟨seqs0, 1, rfl, rfl⟩⟩
    | some c =>
      simp only [h2]
      exact ⟨omap_put seqs0 p.ale (c + 1), rfl, Or.inr ⟨seqs0, c + 1, rfl, rfl⟩⟩

theorem poses_seqs_inv_add (m : List ((Int ×ₗ Int) × List (List Char × Int)))
    (obs : as_pos → Prop) (p : as_pos) (hinv : poses_seqs_inv m obs) :
    poses_seqs_inv (poses_seqs_add m p) (fun x => obs x ∨ x = p) := by
  obtain ⟨hs, hnone, hsome⟩ := hinv
  obtain ⟨seqs1, heq, hcase⟩ := poses_seqs_add_eq m p
  rw [heq]
  refine ⟨omap_sorted_put m _ _ hs, ?_, ?_⟩
  · intro key hkey x hx
    rw [omap_find_put] at hkey
    by_cases hk : key = toLex (p.high32, p.low32)
    · rw [if_pos hk] at hkey
      exact absurd hkey (by simp)
    · rw [if_neg hk] at hkey
      rcases hx with hx | hx
      · exact hnone key hkey x hx
      · subst hx
        exact fun h => hk h.symm
  · intro key seqs hkey
    rw [omap_find_put] at hkey
    by_cases hk : key = toLex (p.high32, p.low32)
    · rw [if_pos hk] at hkey
      have hseqs : seqs1 = seqs := Option.some.inj hkey
      subst hseqs
      subst hk
      rcases hcase with ⟨hn, hone⟩ | ⟨seqs0, c, hsm, hput⟩
      · subst hone
        refine ⟨by simp, by simp, ?_⟩
        intro a
        simp only [List.map_cons, List.map_nil, List.mem_singleton]
        constructor
        · intro ha
          exact ⟨p, Or.inr rfl, rfl, ha.symm⟩
        · rintro ⟨x, hx | hx, hxk, hxa⟩
          · exact absurd hxk (hnone _ hn x hx)
          · subst hx
            exact hxa.symm
      · subst hput
        obtain ⟨_, hs0, hmem0⟩ := hsome _ seqs0 hsm
        refine ⟨?_, omap_sorted_put seqs0 _ _ hs0, ?_⟩
        · intro hnil
          have := (mem_keys_omap_put seqs0 p.ale c p.ale).mpr (Or.inl rfl)
          rw [hnil] at this
          simp at this
        · intro a
          rw [mem_keys_omap_put, hmem0]
          constructor
          · rintro (ha | ⟨x, hx, hxk, hxa⟩)
            · exact ⟨p, Or.inr rfl, rfl, ha.symm⟩
            · exact ⟨x, Or.inl hx, hxk, hxa⟩
          · rintro ⟨x, hx | hx, hxk, hxa⟩
            · exact Or.inr ⟨x, hx, hxk, hxa⟩
            · subst hx
              exact Or.inl hxa.symm
    · rw [if_neg hk] at hkey
      obtain ⟨hne, hs0, hmem0⟩ := hsome key seqs hkey
      refine ⟨hne, hs0, ?_⟩
      intro a
      rw [hmem0]
      constructor
      · rintro ⟨x, hx, hxk, hxa⟩
        exact ⟨x, Or.inl hx, hxk, hxa⟩
      · rintro ⟨x, hx | hx, hxk, hxa⟩
        · exact ⟨x, hx, hxk, hxa⟩
        · subst hx
          exact absurd hxk.symm hk

theorem poses_seqs_inv_foldl (l : List as_pos) (m : List ((Int ×ₗ Int) × List (List Char × Int)))
    (obs : as_pos → Prop) (hinv : poses_seqs_inv m obs) :
    poses_seqs_inv (l.foldl poses_seqs_add m) (fun x => obs x ∨ x ∈ l) := by
  induction l generalizing m obs with
  | nil =>
    refine poses_seqs_inv_congr m obs _ ?_ hinv
    intro p
    simp
  | cons p l ih =>
    simp only [List.foldl_cons]
    refine poses_seqs_inv_congr _ _ _ ?_ (ih _ _ (poses_seqs_inv_add m obs p hinv))
    intro x
    simp only [List.mem_cons]
    tauto

theorem poses_seqs_inv_hits (hits : List (List as_pos))
    (m : List ((Int ×ₗ Int) × List (List Char × Int))) (obs : as_pos → Prop)
    (hinv : poses_seqs_inv m obs) :
    poses_seqs_inv (hits.foldl (fun m h => h.foldl poses_seqs_add m) m)
      (fun x => obs x ∨ ∃ h ∈ hits, x ∈ h) := by
  induction hits generalizing m obs with
  | nil =>
    refine poses_seqs_inv_congr m obs _ ?_ hinv
    intro p
    simp
  | cons h hits ih =>
    simp only [List.foldl_cons]
    refine poses_seqs_inv_congr _ _ _ ?_ (ih _ _ (poses_seqs_inv_foldl h m obs hinv))
    intro x
    simp only [List.mem_cons, exists_eq_or_imp]
    tauto

theorem poses_seqs_inv_build (hits : List (List as_pos)) :
    poses_seqs_inv (build_poses_seqs hits) (fun x => ∃ h ∈ hits, x ∈ h) := by
  refine poses_seqs_inv_congr _ _ _ ?_ (poses_seqs_inv_hits hits [] _ poses_seqs_inv_nil)
  intro p
  simp

theorem mem_keys_pos_add (m : List (Int × List Int)) (k t k' : Int) :
    k' ∈ (pos_add m k t).map Prod.fst ↔ k' = k ∨ k' ∈ m.map Prod.fst := by
  unfold pos_add
  cases map_find m k <;> exact mem_keys_omap_put m k _ k'

theorem sorted_pos_add (m : List (Int × List Int)) (k t : Int)
    (h : (m.map Prod.fst).Pairwise (fun x y => x < y)) :
    ((pos_add m k t).map Prod.fst).Pairwise (fun x y => x < y) := by
  unfold pos_add
  cases map_find m k <;> exact omap_sorted_put m k _ h

theorem mem_keys_pos_insert (m : List (Int × List Int)) (k t k' : Int) :
    k' ∈ (pos_insert m k t).map Prod.fst ↔ k' = k ∨ k' ∈ m.map Prod.fst := by
  unfold pos_insert
  cases h : map_find m k with
  | none => exact mem_keys_omap_put m k _ k'
  | some s =>
    have hk : k ∈ m.map Prod.fst := List.mem_map.mpr ⟨(k, s), mem_of_map_find m k s h, rfl⟩
    constructor
    · exact Or.inr
    · rintro (rfl | h')
      · exact hk
      · exact h'

theorem sorted_pos_insert (m : List (Int × List Int)) (k t : Int)
    (h : (m.map Prod.fst).Pairwise (fun x y => x < y)) :
    ((pos_insert m k t).map Prod.fst).Pairwise (fun x y => x < y) := by
  unfold pos_insert
  cases map_find m k with
  | none => exact omap_sorted_put m k _ h
  | some s => exact h

theorem mem_keys_add_junctions (bt : boundary_types) (junctions : List (Int × Int))
    (m : List (Int × List Int)) (k : Int) :
    k ∈ (add_junctions bt junctions m).map Prod.fst ↔
      k ∈ m.map Prod.fst ∨ ∃ jc ∈ junctions, k = jc.1 ∨ k = jc.2 := by
  induction junctions generalizing m with
  | nil => simp [add_junctions]
  | cons jc junctions ih =>
    simp only [add_junctions, ih, mem_keys_pos_add, List.mem_cons, exists_eq_or_imp]
    generalize (∃ jc ∈ junctions, k = jc.1 ∨ k = jc.2) = E
    tauto

theorem sorted_add_junctions (bt : boundary_types) (junctions : List (Int × Int))
    (m : List (Int × List Int)) (h : (m.map Prod.fst).Pairwise (fun x y => x < y)) :
    ((add_junctions bt junctions m).map Prod.fst).Pairwise (fun x y => x < y) := by
  induction junctions generalizing m with
  | nil => exact h
  | cons jc junctions ih =>
    simp only [add_junctions]
    exact ih _ (sorted_pos_add _ _ _ (sorted_pos_add _ _ _ h))

theorem mem_keys_add_loci (bt : boundary_types)
    (poses_seqs : List ((Int ×ₗ Int) × List (List Char × Int))) (m : List (Int × List Int))
    (k : Int) :
    k ∈ (add_loci bt poses_seqs m).map Prod.fst ↔
      k ∈ m.map Prod.fst ∨ ∃ a ∈ poses_seqs, k = (ofLex a.1).1 ∨ k = (ofLex a.1).2 := by
  induction poses_seqs generalizing m with
  | nil => simp [add_loci]
  | cons a poses_seqs ih =>
    simp only [add_loci, ih, mem_keys_pos_add, List.mem_cons, exists_eq_or_imp]
    generalize (∃ a ∈ poses_seqs, k = (ofLex a.1).1 ∨ k = (ofLex a.1).2) = E
    tauto

theorem sorted_add_loci (bt : boundary_types)
    (poses_seqs : List ((Int ×ₗ Int) × List (List Char × Int))) (m : List (Int × List Int))
    (h : (m.map Prod.fst).Pairwise (fun x y => x < y)) :
    ((add_loci bt poses_seqs m).map Prod.fst).Pairwise (fun x y => x < y) := by
  induction poses_seqs generalizing m with
  | nil => exact h
  | cons a poses_seqs ih =>
    simp only [add_loci]
    exact ih _ (sorted_pos_add _ _ _ (sorted_pos_add _ _ _ h))

/-- A locus is a key of `poses_seqs` exactly when a variant was read there. -/
theorem mem_keys_of_poses_seqs_inv (m : List ((Int ×ₗ Int) × List (List Char × Int)))
    (obs : as_pos → Prop) (hinv : poses_seqs_inv m obs) (key : Int ×ₗ Int) :
    key ∈ m.map Prod.fst ↔ ∃ p, obs p ∧ toLex (p.high32, p.low32) = key := by
  obtain ⟨_, hnone, hsome⟩ := hinv
  constructor
  · intro hk
    obtain ⟨seqs, hf⟩ := map_find_some_of_mem_keys m key hk
    obtain ⟨hne, _, hmem⟩ := hsome key seqs hf
    obtain ⟨a, ha⟩ := List.exists_mem_of_ne_nil seqs hne
    obtain ⟨p, hp, hpk, _⟩ := (hmem a.1).mp (List.mem_map.mpr ⟨a, ha, rfl⟩)
    exact ⟨p, hp, hpk⟩
  · rintro ⟨p, hp, hpk⟩
    by_contra hk
    exact hnone key ((map_find_none_iff m key).mpr hk) p hp hpk

theorem sorted_build_pos_splicetypes (bt : boundary_types) (lpos rpos : Int)
    (junctions : List (Int × Int)) (hits : List (List as_pos)) :
    ((build_pos_splicetypes bt lpos rpos junctions hits).map Prod.fst).Pairwise
      (fun x y => x < y) := by
  unfold build_pos_splicetypes
  refine sorted_add_loci _ _ _ (sorted_add_junctions _ _ _ (sorted_pos_insert _ _ _
    (sorted_pos_insert _ _ _ ?_)))
  simp

theorem mem_keys_build_pos_splicetypes (bt : boundary_types) (lpos rpos : Int)
    (junctions : List (Int × Int)) (hits : List (List as_pos)) (k : Int) :
    k ∈ (build_pos_splicetypes bt lpos rpos junctions hits).map Prod.fst ↔
      is_boundary_position lpos rpos junctions hits k := by
  unfold build_pos_splicetypes is_boundary_position
  rw [mem_keys_add_loci, mem_keys_add_junctions, mem_keys_pos_insert, mem_keys_pos_insert]
  have hloc : (∃ a ∈ build_poses_seqs hits, k = (ofLex a.1).1 ∨ k = (ofLex a.1).2) ↔
      ∃ h ∈ hits, ∃ p ∈ h, k = p.high32 ∨ k = p.low32 := by
    constructor
    · rintro ⟨a, ha, hk⟩
      obtain ⟨p, ⟨h, hh, hp⟩, hpk⟩ :=
        (mem_keys_of_poses_seqs_inv _ _ (poses_seqs_inv_build hits) a.1).mp
          (List.mem_map.mpr ⟨a, ha, rfl⟩)
      refine ⟨h, hh, p, hp, ?_⟩
      rw [← hpk] at hk
      exact hk
    · rintro ⟨h, hh, p, hp, hk⟩
      obtain ⟨a, ha, hak⟩ := List.mem_map.mp
        ((mem_keys_of_poses_seqs_inv _ _ (poses_seqs_inv_build hits)
          (toLex (p.high32, p.low32))).mpr ⟨p, ⟨h, hh, hp⟩, rfl⟩)
      refine ⟨a, ha, ?_⟩
      rw [hak]
      exact hk
  rw [hloc]
  simp only [List.map_nil, List.not_mem_nil, or_false]
  generalize (∃ h ∈ hits, ∃ p ∈ h, k = p.high32 ∨ k = p.low32) = E
  generalize (∃ jc ∈ junctions, k = jc.1 ∨ k = jc.2) = F
  tauto

theorem consecutive_positions_cons (k1 k2 : Int) (rest : List Int) (l r : Int) :
    consecutive_positions (k1 :: k2 :: rest) l r ↔
      (l = k1 ∧ r = k2) ∨ consecutive_positions (k2 :: rest) l r := by
  constructor
  · rintro ⟨i, h1, h2⟩
    cases i with
    | zero =>
      simp only [List.getElem?_cons_zero, Option.some.injEq, zero_add,
        List.getElem?_cons_succ] at h1 h2
      exact Or.inl ⟨h1.symm, h2.symm⟩
    | succ j =>
      exact Or.inr ⟨j, by simpa using h1, by simpa using h2⟩
  · rintro (⟨h1, h2⟩ | ⟨j, h1, h2⟩)
    · exact ⟨0, by simp [h1], by simp [h2]⟩
    · exact ⟨j + 1, by simpa using h1, by simpa using h2⟩

theorem consecutive_positions_single (k l r : Int) : ¬ consecutive_positions [k] l r := by
  rintro ⟨i, _, h2⟩
  simp at h2

theorem consecutive_positions_mem (ks : List Int) (l r : Int)
    (h : consecutive_positions ks l r) : l ∈ ks ∧ r ∈ ks := by
  obtain ⟨i, h1, h2⟩ := h
  exact ⟨List.mem_iff_getElem?.mpr ⟨i, h1⟩, List.mem_iff_getElem?.mpr ⟨i + 1, h2⟩⟩

theorem regions_second_loop_eq (get_genotype : Int → List Char → genotype)
    (P : List (Int × List Int)) (regs : List region) (hP : P ≠ []) :
    regions_second_loop P regs = some (regs ++ all_interval_regions get_genotype [] P) := by
  induction P generalizing regs with
  | nil => exact absurd rfl hP
  | cons p1 P ih =>
    cases P with
    | nil => simp [regions_second_loop, all_interval_regions]
    | cons p2 rest =>
      simp only [regions_second_loop]
      rw [ih _ (by simp)]
      simp [all_interval_regions, interval_regions, map_find]

theorem all_interval_regions_cons (get_genotype : Int → List Char → genotype)
    (a : (Int ×ₗ Int) × List (List Char × Int))
    (Q : List ((Int ×ₗ Int) × List (List Char × Int))) (P : List (Int × List Int))
    (h : ∀ k ∈ P.map Prod.fst, (ofLex a.1).1 < k) :
    all_interval_regions get_genotype (a :: Q) P = all_interval_regions get_genotype Q P := by
  induction P with
  | nil => rfl
  | cons p1 P ih =>
    cases P with
    | nil => rfl
    | cons p2 rest =>
      simp only [all_interval_regions]
      rw [ih (fun k hk => h k (List.mem_cons_of_mem _ hk))]
      congr 1
      unfold interval_regions
      obtain ⟨ka, va⟩ := a
      have hne : toLex (p1.1, p2.1) ≠ ka := by
        intro heq
        have := h p1.1 (by simp)
        rw [← heq] at this
        simp at this
      simp only [map_find, if_neg hne]

theorem lex_fst_le (a q : Int ×ₗ Int) (h : a < q) : (ofLex a).1 ≤ (ofLex q).1 := by
  rcases (Prod.Lex.lt_iff a q).mp h with h1 | ⟨h1, _⟩
  · exact le_of_lt h1
  · exact le_of_eq h1

/-- The two loops of `build_regions` run through and leave the regions of all intervals,
when every locus of `poses_seqs` lies between two successive positions. -/
theorem regions_loops_eq (get_genotype : Int → List Char → genotype)
    (P : List (Int × List Int)) (Q : List ((Int ×ₗ Int) × List (List Char × Int)))
    (regs : List region) (hP : P ≠ [])
    (hPs : (P.map Prod.fst).Pairwise (fun x y => x < y))
    (hQs : (Q.map Prod.fst).Pairwise (fun x y => x < y))
    (hQ : ∀ a ∈ Q, consecutive_positions (P.map Prod.fst) (ofLex a.1).1 (ofLex a.1).2) :
    ∃ regs1 i1, regions_first_loop get_genotype P Q regs = some (regs1, i1) ∧
      regions_second_loop i1 regs1 = some (regs ++ all_interval_regions get_genotype Q P) := by
  induction P generalizing Q regs with
  | nil => exact absurd rfl hP
  | cons p1 P ih =>
    cases Q with
    | nil =>
      refine ⟨regs, p1 :: P, ?_, regions_second_loop_eq get_genotype _ regs hP⟩
      cases P <;> rfl
    | cons a i2 =>
      cases P with
      | nil =>
        exact absurd (hQ a (List.mem_cons_self _ _)) (consecutive_positions_single _ _ _)
      | cons p2 rest =>
        simp only [List.map_cons, List.pairwise_cons, List.mem_cons, forall_eq_or_imp] at hPs hQs
        obtain ⟨⟨h12, h1r⟩, h2r, hrs⟩ := hPs
        obtain ⟨haq, hi2s⟩ := hQs
        have hPs' : (List.map Prod.fst (p2 :: rest)).Pairwise (fun x y => x < y) := by
          simp only [List.map_cons, List.pairwise_cons]
          exact ⟨h2r, hrs⟩
        have hkeys : ∀ k ∈ List.map Prod.fst (p2 :: rest), p2.1 ≤ k := by
          intro k hk
          simp only [List.map_cons, List.mem_cons] at hk
          rcases hk with rfl | hk
          · exact le_refl _
          · exact le_of_lt (h2r k hk)
        have hle : ∀ q ∈ i2, (ofLex a.1).1 ≤ (ofLex q.1).1 := fun q hq =>
          lex_fst_le a.1 q.1 (haq q.1 (List.mem_map.mpr ⟨q, hq, rfl⟩))
        have ha := hQ a (List.mem_cons_self _ _)
        simp only [List.map_cons] at ha hQ
        rw [consecutive_positions_cons] at ha
        rcases ha with ⟨hl, hr⟩ | hat
        · -- the locus is the interval at hand
          have hQ' : ∀ q ∈ i2, consecutive_positions (List.map Prod.fst (p2 :: rest))
              (ofLex q.1).1 (ofLex q.1).2 := by
            intro q hq
            have hq' := hQ q (List.mem_cons_of_mem _ hq)
            rw [consecutive_positions_cons] at hq'
            rcases hq' with ⟨hql, hqr⟩ | hq'
            · have hlt := haq q.1 (List.mem_map.mpr ⟨q, hq, rfl⟩)
              rcases (Prod.Lex.lt_iff a.1 q.1).mp hlt with h1 | ⟨_, h2⟩
              · exact absurd h1 (by change ¬ (ofLex a.1).1 < (ofLex q.1).1; omega)
              · exact absurd h2 (by change ¬ (ofLex a.1).2 < (ofLex q.1).2; omega)
            · exact hq'
          obtain ⟨regs1, i1, hf, hs⟩ := ih i2
            (regs ++ allele_regions get_genotype p1 p2 (ofLex a.1).1 (ofLex a.1).2 a.2)
            (by simp) hPs' hi2s hQ'
          refine ⟨regs1, i1, ?_, ?_⟩
          · rw [regions_first_loop, if_neg (by omega), if_neg (by omega), if_neg (by omega),
              if_neg (by omega)]
            exact hf
          · rw [hs, all_interval_regions, all_interval_regions_cons get_genotype a i2 _
              (fun k hk => by have := hkeys k hk; omega)]
            have hkey : toLex (p1.1, p2.1) = a.1 := by
              rw [← hl, ← hr]
              rfl
            obtain ⟨ka, va⟩ := a
            simp only at hkey
            simp only [interval_regions, map_find, if_pos hkey, List.append_assoc, hl, hr]
        · -- the locus lies further right
          have hl2 : p2.1 ≤ (ofLex a.1).1 :=
            hkeys _ (consecutive_positions_mem _ _ _ hat).1
          have hQ' : ∀ q ∈ a :: i2, consecutive_positions (List.map Prod.fst (p2 :: rest))
              (ofLex q.1).1 (ofLex q.1).2 := by
            intro q hq
            rcases List.mem_cons.mp hq with rfl | hq2
            · exact hat
            · have hq' := hQ q hq
              rw [consecutive_positions_cons] at hq'
              rcases hq' with ⟨hql, _⟩ | hq'
              · have := hle q hq2
                omega
              · exact hq'
          obtain ⟨regs1, i1, hf, hs⟩ := ih (a :: i2) (regs ++ [unphased_region p1 p2])
            (by simp) hPs' (by
              simp only [List.map_cons, List.pairwise_cons]
              exact ⟨haq, hi2s⟩) hQ'
          refine ⟨regs1, i1, ?_, ?_⟩
          · rw [regions_first_loop, if_neg (by omega), if_pos (by omega)]
            exact hf
          · rw [hs, all_interval_regions]
            have hnone : map_find (a :: i2) (toLex (p1.1, p2.1)) = none := by
              rw [map_find_none_iff]
              intro hmem
              obtain ⟨q, hq, hqk⟩ := List.mem_map.mp hmem
              have hq1 : (ofLex q.1).1 = p1.1 := by rw [hqk]; rfl
              rcases List.mem_cons.mp hq with rfl | hq2
              · omega
              · have := hle q hq2
                omega
            simp only [interval_regions, hnone, List.append_assoc]

theorem allele_regions_eq_map (get_genotype : Int → List Char → genotype)
    (p1 p2 : Int × List Int) (l2 r2 : Int) (seqs : List (List Char × Int)) :
    allele_regions get_genotype p1 p2 l2 r2 seqs =
      seqs.map (fun aa =>
        ({ lpos := { p32 := l2, ale := aa.1 }, rpos := { p32 := r2, ale := aa.1 },
           ltype := splicetype_set_to_int p1.2, rtype := splicetype_set_to_int p2.2,
           gt := get_genotype l2 aa.1 } : region)) := by
  induction seqs with
  | nil => rfl
  | cons aa seqs ih => simp only [allele_regions, ih, List.map_cons]

theorem interval_regions_coordinates (get_genotype : Int → List Char → genotype)
    (Q : List ((Int ×ₗ Int) × List (List Char × Int))) (p1 p2 : Int × List Int) (g : region)
    (hg : g ∈ interval_regions get_genotype Q p1 p2) :
    g.lpos.p32 = p1.1 ∧ g.rpos.p32 = p2.1 := by
  unfold interval_regions at hg
  cases hf : map_find Q (toLex (p1.1, p2.1)) with
  | none =>
    simp only [hf, List.mem_singleton] at hg
    subst hg
    exact ⟨rfl, rfl⟩
  | some seqs =>
    simp only [hf, allele_regions_eq_map, List.mem_map] at hg
    obtain ⟨aa, _, rfl⟩ := hg
    exact ⟨rfl, rfl⟩

theorem interval_regions_ne_nil (get_genotype : Int → List Char → genotype)
    (Q : List ((Int ×ₗ Int) × List (List Char × Int))) (p1 p2 : Int × List Int)
    (hQ : ∀ key seqs, map_find Q key = some seqs → seqs ≠ []) :
    interval_regions get_genotype Q p1 p2 ≠ [] := by
  unfold interval_regions
  cases hf : map_find Q (toLex (p1.1, p2.1)) with
  | none => simp
  | some seqs =>
    simp only [allele_regions_eq_map, ne_eq, List.map_eq_nil_iff]
    exact hQ _ seqs hf

theorem interval_regions_pairwise (get_genotype : Int → List Char → genotype)
    (Q : List ((Int ×ₗ Int) × List (List Char × Int))) (p1 p2 : Int × List Int)
    (hQ : ∀ key seqs, map_find Q key = some seqs →
      (seqs.map Prod.fst).Pairwise (fun x y => x < y)) :
    (interval_regions get_genotype Q p1 p2).Pairwise (fun a b => region_parallel a b) := by
  unfold interval_regions
  cases hf : map_find Q (toLex (p1.1, p2.1)) with
  | none => simp
  | some seqs =>
    simp only [allele_regions_eq_map]
    rw [List.pairwise_map]
    have h := hQ _ seqs hf
    rw [List.pairwise_map] at h
    refine h.imp ?_
    intro a b hab
    exact ⟨rfl, rfl, ne_of_lt hab⟩

theorem all_interval_regions_consecutive (get_genotype : Int → List Char → genotype)
    (Q : List ((Int ×ₗ Int) × List (List Char × Int))) (P : List (Int × List Int)) (g : region)
    (hg : g ∈ all_interval_regions get_genotype Q P) :
    consecutive_positions (P.map Prod.fst) g.lpos.p32 g.rpos.p32 := by
  induction P with
  | nil => simp [all_interval_regions] at hg
  | cons p1 P ih =>
    cases P with
    | nil => simp [all_interval_regions] at hg
    | cons p2 rest =>
      simp only [all_interval_regions, List.mem_append] at hg
      simp only [List.map_cons]
      rw [consecutive_positions_cons]
      rcases hg with hg | hg
      · exact Or.inl (interval_regions_coordinates get_genotype Q p1 p2 g hg)
      · exact Or.inr (ih hg)

theorem all_interval_regions_sorted (get_genotype : Int → List Char → genotype)
    (Q : List ((Int ×ₗ Int) × List (List Char × Int))) (P : List (Int × List Int))
    (hPs : (P.map Prod.fst).Pairwise (fun x y => x < y)) :
    (all_interval_regions get_genotype Q P).Pairwise region_le := by
  induction P with
  | nil => simp [all_interval_regions]
  | cons p1 P ih =>
    cases P with
    | nil => simp [all_interval_regions]
    | cons p2 rest =>
      simp only [List.map_cons, List.pairwise_cons, List.mem_cons, forall_eq_or_imp] at hPs
      obtain ⟨⟨h12, h1r⟩, h2r, hrs⟩ := hPs
      simp only [all_interval_regions]
      rw [List.pairwise_append]
      refine ⟨?_, ih (by
        simp only [List.map_cons, List.pairwise_cons]
        exact ⟨h2r, hrs⟩), ?_⟩
      · rw [List.pairwise_iff_forall_sublist]
        intro a b hab
        have ha := interval_regions_coordinates get_genotype Q p1 p2 a
          (hab.subset (List.mem_cons_self _ _))
        have hb := interval_regions_coordinates get_genotype Q p1 p2 b
          (hab.subset (List.mem_cons_of_mem _ (List.mem_cons_self _ _)))
        unfold region_le
        omega
      · intro a ha b hb
        have ha' := interval_regions_coordinates get_genotype Q p1 p2 a ha
        have hb' := (consecutive_positions_mem _ _ _
          (all_interval_regions_consecutive get_genotype Q _ b hb)).1
        simp only [List.map_cons, List.mem_cons] at hb'
        unfold region_le
        rcases hb' with hb' | hb'
        · omega
        · have := h1r _ hb'
          omega

theorem all_interval_regions_head (get_genotype : Int → List Char → genotype)
    (Q : List ((Int ×ₗ Int) × List (List Char × Int))) (p1 : Int × List Int)
    (P : List (Int × List Int)) (hQ : ∀ key seqs, map_find Q key = some seqs → seqs ≠ [])
    (g : region) (hg : (all_interval_regions get_genotype Q (p1 :: P)).head? = some g) :
    g.lpos.p32 = p1.1 := by
  cases P with
  | nil => simp [all_interval_regions] at hg
  | cons p2 rest =>
    simp only [all_interval_regions] at hg
    have hne := interval_regions_ne_nil get_genotype Q p1 p2 hQ
    cases hG : interval_regions get_genotype Q p1 p2 with
    | nil => exact absurd hG hne
    | cons x xs =>
      rw [hG] at hg
      simp only [List.cons_append, List.head?_cons, Option.some.injEq] at hg
      subst hg
      exact (interval_regions_coordinates get_genotype Q p1 p2 x (by simp [hG])).1

theorem all_interval_regions_ne_nil (get_genotype : Int → List Char → genotype)
    (Q : List ((Int ×ₗ Int) × List (List Char × Int))) (p1 p2 : Int × List Int)
    (rest : List (Int × List Int)) (hQ : ∀ key seqs, map_find Q key = some seqs → seqs ≠ []) :
    all_interval_regions get_genotype Q (p1 :: p2 :: rest) ≠ [] := by
  simp only [all_interval_regions, ne_eq, List.append_eq_nil, not_and]
  intro h
  exact absurd h (interval_regions_ne_nil get_genotype Q p1 p2 hQ)

theorem all_interval_regions_last (get_genotype : Int → List Char → genotype)
    (Q : List ((Int ×ₗ Int) × List (List Char × Int))) (P : List (Int × List Int))
    (hQ : ∀ key seqs, map_find Q key = some seqs → seqs ≠ [])
    (g : region) (hg : (all_interval_regions get_genotype Q P).getLast? = some g) :
    (P.map Prod.fst).getLast? = some g.rpos.p32 := by
  induction P with
  | nil => simp [all_interval_regions] at hg
  | cons p1 P ih =>
    cases P with
    | nil => simp [all_interval_regions] at hg
    | cons p2 rest =>
      cases rest with
      | nil =>
        simp only [all_interval_regions, List.append_nil] at hg
        have hmem : g ∈ interval_regions get_genotype Q p1 p2 := List.mem_of_mem_getLast? hg
        simp [(interval_regions_coordinates get_genotype Q p1 p2 g hmem).2]
      | cons p3 rest =>
        have hne := all_interval_regions_ne_nil get_genotype Q p2 p3 rest hQ
        rw [all_interval_regions, List.getLast?_append_of_ne_nil _ hne] at hg
        have := ih hg
        simpa using this

theorem all_interval_regions_chain (get_genotype : Int → List Char → genotype)
    (Q : List ((Int ×ₗ Int) × List (List Char × Int))) (P : List (Int × List Int))
    (hQ : ∀ key seqs, map_find Q key = some seqs →
      seqs ≠ [] ∧ (seqs.map Prod.fst).Pairwise (fun x y => x < y)) :
    (all_interval_regions get_genotype Q P).Chain'
      (fun a b => region_adjacent a b ∨ region_parallel a b) := by
  induction P with
  | nil => simp [all_interval_regions]
  | cons p1 P ih =>
    cases P with
    | nil => simp [all_interval_regions]
    | cons p2 rest =>
      simp only [all_interval_regions]
      refine List.Chain'.append ?_ ih ?_
      · exact ((interval_regions_pairwise get_genotype Q p1 p2
          (fun key seqs h => (hQ key seqs h).2)).imp (fun h => Or.inr h)).chain'
      · intro x hx y hy
        left
        unfold region_adjacent
        rw [(interval_regions_coordinates get_genotype Q p1 p2 x (List.mem_of_mem_getLast? hx)).2,
          all_interval_regions_head get_genotype Q p2 rest (fun key seqs h => (hQ key seqs h).1)
            y hy]

theorem regions_at_interval (get_genotype : Int → List Char → genotype)
    (Q : List ((Int ×ₗ Int) × List (List Char × Int))) (P : List (Int × List Int))
    (hPs : (P.map Prod.fst).Pairwise (fun x y => x < y)) (l r : Int)
    (h : consecutive_positions (P.map Prod.fst) l r) :
    ∃ p1 p2, p1.1 = l ∧ p2.1 = r ∧
      regions_at (all_interval_regions get_genotype Q P) l =
        interval_regions get_genotype Q p1 p2 := by
  induction P with
  | nil =>
    obtain ⟨i, h1, _⟩ := h
    simp at h1
  | cons p1 P ih =>
    cases P with
    | nil => exact absurd h (consecutive_positions_single _ _ _)
    | cons p2 rest =>
      simp only [List.map_cons, List.pairwise_cons, List.mem_cons, forall_eq_or_imp] at hPs
      obtain ⟨⟨h12, h1r⟩, h2r, hrs⟩ := hPs
      have hPs' : (List.map Prod.fst (p2 :: rest)).Pairwise (fun x y => x < y) := by
        simp only [List.map_cons, List.pairwise_cons]
        exact ⟨h2r, hrs⟩
      have hright : ∀ g ∈ all_interval_regions get_genotype Q (p2 :: rest),
          p1.1 < g.lpos.p32 := by
        intro g hg
        have hg' := (consecutive_positions_mem _ _ _
          (all_interval_regions_consecutive get_genotype Q _ g hg)).1
        simp only [List.map_cons, List.mem_cons] at hg'
        rcases hg' with hg' | hg'
        · omega
        · have := h1r _ hg'
          omega
      simp only [List.map_cons] at h
      rw [consecutive_positions_cons] at h
      simp only [all_interval_regions, regions_at, List.filter_append]
      rcases h with ⟨hl, hr⟩ | h
      · refine ⟨p1, p2, hl.symm, hr.symm, ?_⟩
        have h1 : (interval_regions get_genotype Q p1 p2).filter
            (fun g => decide (g.lpos.p32 = l)) = interval_regions get_genotype Q p1 p2 := by
          rw [List.filter_eq_self]
          intro g hg
          simp [(interval_regions_coordinates get_genotype Q p1 p2 g hg).1, hl]
        have h2 : (all_interval_regions get_genotype Q (p2 :: rest)).filter
            (fun g => decide (g.lpos.p32 = l)) = [] := by
          rw [List.filter_eq_nil_iff]
          intro g hg
          have := hright g hg
          simp only [decide_eq_true_eq]
          omega
        rw [h1, h2, List.append_nil]
      · obtain ⟨q1, q2, hq1, hq2, heq⟩ := ih hPs' h
        refine ⟨q1, q2, hq1, hq2, ?_⟩
        have hl : p1.1 < l := by
          have hm := (consecutive_positions_mem _ _ _ h).1
          simp only [List.map_cons, List.mem_cons] at hm
          rcases hm with hm | hm
          · omega
          · have := h1r _ hm
            omega
        have h1 : (interval_regions get_genotype Q p1 p2).filter
            (fun g => decide (g.lpos.p32 = l)) = [] := by
          rw [List.filter_eq_nil_iff]
          intro g hg
          have := (interval_regions_coordinates get_genotype Q p1 p2 g hg).1
          simp only [decide_eq_true_eq]
          omega
        rw [h1, List.nil_append]
        exact heq

theorem sorted_keys_unique (xs ys : List Int) (hx : xs.Pairwise (fun a b => a < b))
    (hy : ys.Pairwise (fun a b => a < b)) (h : ∀ k, k ∈ xs ↔ k ∈ ys) : xs = ys := by
  have hxn : xs.Nodup := hx.imp (fun h => ne_of_lt h)
  have hyn : ys.Nodup := hy.imp (fun h => ne_of_lt h)
  have hperm : xs.Perm ys := (List.perm_ext_iff_of_nodup hxn hyn).mpr h
  exact List.eq_of_perm_of_sorted hperm (hx.imp (fun h => le_of_lt h))
    (hy.imp (fun h => le_of_lt h))

theorem sorted_keys_last (xs : List Int) (hx : xs.Pairwise (fun a b => a < b)) (m : Int)
    (hm : m ∈ xs) (hmax : ∀ k ∈ xs, k ≤ m) : xs.getLast? = some m := by
  cases hl : xs.getLast? with
  | none =>
    rw [List.getLast?_eq_none_iff] at hl
    rw [hl] at hm
    simp at hm
  | some a =>
    obtain ⟨ys, rfl⟩ := List.getLast?_eq_some_iff.mp hl
    rw [List.pairwise_append] at hx
    have ha := hmax a (by simp)
    rcases List.mem_append.mp hm with hm | hm
    · have := hx.2.2 m hm a (by simp)
      omega
    · simp only [List.mem_singleton] at hm
      rw [hm]

/-- The result of `build_regions` on a bundle whose variant loci lie between successive
boundary positions: the regions of all intervals, from left to right. -/
theorem build_regions_eq (bt : boundary_types) (get_genotype : Int → List Char → genotype)
    (lpos rpos : Int) (junctions : List (Int × Int)) (hits : List (List as_pos))
    (hloci : ∀ l r, variant_locus hits l r → consecutive_positions
      ((build_pos_splicetypes bt lpos rpos junctions hits).map Prod.fst) l r) :
    build_regions bt get_genotype lpos rpos junctions hits =
      some (all_interval_regions get_genotype (build_poses_seqs hits)
        (build_pos_splicetypes bt lpos rpos junctions hits)) := by
  have hinv := poses_seqs_inv_build hits
  have hPs := sorted_build_pos_splicetypes bt lpos rpos junctions hits
  have hP : build_pos_splicetypes bt lpos rpos junctions hits ≠ [] := by
    intro h
    have := (mem_keys_build_pos_splicetypes bt lpos rpos junctions hits lpos).mpr (Or.inl rfl)
    rw [h] at this
    simp at this
  have hQ : ∀ a ∈ build_poses_seqs hits, consecutive_positions
      ((build_pos_splicetypes bt lpos rpos junctions hits).map Prod.fst)
      (ofLex a.1).1 (ofLex a.1).2 := by
    intro a ha
    obtain ⟨p, ⟨h, hh, hp⟩, hpk⟩ := (mem_keys_of_poses_seqs_inv _ _ hinv a.1).mp
      (List.mem_map.mpr ⟨a, ha, rfl⟩)
    rw [← hpk]
    exact hloci p.high32 p.low32 ⟨p.ale, h, hh, p, hp, rfl, rfl, rfl⟩
  obtain ⟨regs1, i1, hf, hs⟩ := regions_loops_eq get_genotype _ _ [] hP hPs hinv.1 hQ
  unfold build_regions
  simp only [hf, hs, List.nil_append]
  rw [List.Sorted.insertionSort_eq]
  exact all_interval_regions_sorted get_genotype _ _ hPs

/-- C17: on a bundle with `lpos < rpos` whose boundary positions `ps` (the ends of the
bundle, of its junctions and of the variants its hits show, in ascending order) all lie
in `[lpos, rpos]` and in which every variant locus `[l, r)` is a pair of consecutive
boundary positions, `build_regions` returns a region list that is sorted by left
coordinate, begins with a region starting at `lpos`, ends with a region ending at
`rpos`, has every two successive regions adjacent or parallel, holds only regions
between consecutive boundary positions, and holds at a variant locus one region per
observed allele string and at every other interval exactly one region, of genotype
`UNPHASED`. -/
theorem build_regions_adjacent_or_parallel (bt : boundary_types)
    (get_genotype : Int → List Char → genotype) (lpos rpos : Int)
    (junctions : List (Int × Int)) (hits : List (List as_pos)) (ps : List Int)
    (hlr : lpos < rpos)
    (hrange : ∀ k, is_boundary_position lpos rpos junctions hits k → lpos ≤ k ∧ k ≤ rpos)
    (hsorted : ps.Pairwise (fun x y => x < y))
    (hps : ∀ k, k ∈ ps ↔ is_boundary_position lpos rpos junctions hits k)
    (hloci : ∀ l r, variant_locus hits l r → consecutive_positions ps l r) :
    ∃ regions, build_regions bt get_genotype lpos rpos junctions hits = some regions ∧
      regions.Pairwise region_le ∧
      (∃ g, regions.head? = some g ∧ g.lpos.p32 = lpos) ∧
      (∃ g, regions.getLast? = some g ∧ g.rpos.p32 = rpos) ∧
      regions.Chain' (fun a b => region_adjacent a b ∨ region_parallel a b) ∧
      (∀ g ∈ regions, consecutive_positions ps g.lpos.p32 g.rpos.p32) ∧
      ∀ l r, consecutive_positions ps l r →
        (variant_locus hits l r →
          ((regions_at regions l).map (fun g => g.lpos.ale)).Nodup ∧
          (∀ a, a ∈ (regions_at regions l).map (fun g => g.lpos.ale) ↔
            observed_allele hits l r a) ∧
          ∀ g ∈ regions_at regions l,
            g.rpos = { p32 := r, ale := g.lpos.ale } ∧ g.gt = get_genotype l g.lpos.ale) ∧
        (¬ variant_locus hits l r →
          ∃ g, regions_at regions l = [g] ∧ g.lpos.p32 = l ∧ g.rpos.p32 = r ∧
            g.gt = genotype.UNPHASED) := by
  have hinv := poses_seqs_inv_build hits
  have hPs := sorted_build_pos_splicetypes bt lpos rpos junctions hits
  have hkeys : (build_pos_splicetypes bt lpos rpos junctions hits).map Prod.fst = ps :=
    sorted_keys_unique _ _ hPs hsorted (fun k =>
      (mem_keys_build_pos_splicetypes bt lpos rpos junctions hits k).trans (hps k).symm)
  have hQne : ∀ key seqs, map_find (build_poses_seqs hits) key = some seqs → seqs ≠ [] :=
    fun key seqs h => (hinv.2.2 key seqs h).1
  have hQok : ∀ key seqs, map_find (build_poses_seqs hits) key = some seqs →
      seqs ≠ [] ∧ (seqs.map Prod.fst).Pairwise (fun x y => x < y) :=
    fun key seqs h => ⟨(hinv.2.2 key seqs h).1, (hinv.2.2 key seqs h).2.1⟩
  refine ⟨_, build_regions_eq bt get_genotype lpos rpos junctions hits (by
    rw [hkeys]
    exact hloci), all_interval_regions_sorted get_genotype _ _ hPs, ?_, ?_,
    all_interval_regions_chain get_genotype _ _ hQok, ?_, ?_⟩
  · -- the first region
    cases hP : build_pos_splicetypes bt lpos rpos junctions hits with
    | nil =>
      rw [hP] at hkeys
      have := (hps lpos).mpr (Or.inl rfl)
      rw [← hkeys] at this
      simp at this
    | cons p1 P =>
      cases P with
      | nil =>
        rw [hP] at hkeys
        have h1 := (hps lpos).mpr (Or.inl rfl)
        have h2 := (hps rpos).mpr (Or.inr (Or.inl rfl))
        rw [← hkeys] at h1 h2
        simp only [List.map_cons, List.map_nil, List.mem_singleton] at h1 h2
        omega
      | cons p2 rest =>
        have hne := all_interval_regions_ne_nil get_genotype (build_poses_seqs hits) p1 p2 rest
          hQne
        cases hL : all_interval_regions get_genotype (build_poses_seqs hits)
            (p1 :: p2 :: rest) with
        | nil => exact absurd hL hne
        | cons g L =>
          refine ⟨g, rfl, ?_⟩
          have hg := all_interval_regions_head get_genotype (build_poses_seqs hits) p1
            (p2 :: rest) hQne g (by rw [hL]; rfl)
          rw [hg]
          rw [hP] at hkeys hPs
          have h1 := (hps lpos).mpr (Or.inl rfl)
          rw [← hkeys] at h1
          have h2 := (hrange p1.1 ((hps p1.1).mp (by rw [← hkeys]; simp))).1
          simp only [List.map_cons, List.mem_cons] at h1
          simp only [List.map_cons, List.pairwise_cons, List.mem_cons, forall_eq_or_imp] at hPs
          rcases h1 with h1 | h1 | h1
          · exact h1.symm
          · omega
          · have := hPs.1.2 _ h1
            omega
  · -- the last region
    have hlast : ((build_pos_splicetypes bt lpos rpos junctions hits).map
        Prod.fst).getLast? = some rpos := by
      rw [hkeys]
      exact sorted_keys_last ps hsorted rpos ((hps rpos).mpr (Or.inr (Or.inl rfl)))
        (fun k hk => (hrange k ((hps k).mp hk)).2)
    cases hl : (all_interval_regions get_genotype (build_poses_seqs hits)
        (build_pos_splicetypes bt lpos rpos junctions hits)).getLast? with
    | none =>
      exfalso
      rw [List.getLast?_eq_none_iff] at hl
      cases hP : build_pos_splicetypes bt lpos rpos junctions hits with
      | nil =>
        rw [hP] at hlast
        simp at hlast
      | cons p1 P =>
        cases P with
        | nil =>
          rw [hP] at hkeys
          have h1 := (hps lpos).mpr (Or.inl rfl)
          have h2 := (hps rpos).mpr (Or.inr (Or.inl rfl))
          rw [← hkeys] at h1 h2
          simp only [List.map_cons, List.map_nil, List.mem_singleton] at h1 h2
          omega
        | cons p2 rest =>
          rw [hP] at hl
          exact all_interval_regions_ne_nil get_genotype (build_poses_seqs hits) p1 p2 rest
            hQne hl
    | some g =>
      refine ⟨g, rfl, ?_⟩
      have := all_interval_regions_last get_genotype _ _ hQne g hl
      rw [hlast] at this
      exact (Option.some.inj this).symm
  · intro g hg
    rw [← hkeys]
    exact all_interval_regions_consecutive get_genotype _ _ g hg
  · intro l r hlr'
    rw [← hkeys] at hlr'
    obtain ⟨p1, p2, hp1, hp2, heq⟩ := regions_at_interval get_genotype
      (build_poses_seqs hits) _ hPs l r hlr'
    rw [heq]
    unfold interval_regions
    rw [hp1, hp2]
    constructor
    · rintro ⟨a0, h0, hh0, p0, hp0, hl0, hr0, ha0⟩
      cases hf : map_find (build_poses_seqs hits) (toLex (l, r)) with
      | none =>
        exfalso
        refine hinv.2.1 _ hf p0 ⟨h0, hh0, hp0⟩ ?_
        rw [hl0, hr0]
      | some seqs =>
        obtain ⟨_, hss, hmem⟩ := hinv.2.2 _ seqs hf
        simp only [allele_regions_eq_map, List.map_map]
        have hmap : (fun g : region => g.lpos.ale) ∘ (fun aa : List Char × Int =>
            ({ lpos := { p32 := l, ale := aa.1 }, rpos := { p32 := r, ale := aa.1 },
               ltype := splicetype_set_to_int p1.2, rtype := splicetype_set_to_int p2.2,
               gt := get_genotype l aa.1 } : region)) = Prod.fst := rfl
        rw [hmap]
        refine ⟨hss.imp (fun h => ne_of_lt h), ?_, ?_⟩
        · intro a
          rw [hmem]
          constructor
          · rintro ⟨p, ⟨h, hh, hp⟩, hk, ha⟩
            have hk' : (p.high32, p.low32) = (l, r) := toLex.injective hk
            simp only [Prod.mk.injEq] at hk'
            exact ⟨h, hh, p, hp, hk'.1, hk'.2, ha⟩
          · rintro ⟨h, hh, p, hp, hl1, hr1, ha⟩
            exact ⟨p, ⟨h, hh, hp⟩, by rw [hl1, hr1], ha⟩
        · intro g hg
          obtain ⟨aa, _, rfl⟩ := List.mem_map.mp hg
          exact ⟨rfl, rfl⟩
    · intro hno
      cases hf : map_find (build_poses_seqs hits) (toLex (l, r)) with
      | none =>
        exact ⟨unphased_region p1 p2, rfl, hp1, hp2, rfl⟩
      | some seqs =>
        exfalso
        obtain ⟨hne, _, hmem⟩ := hinv.2.2 _ seqs hf
        obtain ⟨aa, haa⟩ := List.exists_mem_of_ne_nil seqs hne
        obtain ⟨p, ⟨h, hh, hp⟩, hk, ha⟩ := (hmem aa.1).mp (List.mem_map.mpr ⟨aa, haa, rfl⟩)
        have hk' : (p.high32, p.low32) = (l, r) := toLex.injective hk
        simp only [Prod.mk.injEq] at hk'
        exact hno ⟨aa.1, h, hh, p, hp, hk'.1, hk'.2, ha⟩

theorem example_variant_hits_range (k : Int)
    (h : is_boundary_position 100 200 [(120, 150)] example_variant_hits k) :
    100 ≤ k ∧ k ≤ 200 := by
  simp only [is_boundary_position, example_variant_hits, List.mem_cons, List.mem_singleton,
    List.not_mem_nil, or_false, exists_eq_or_imp, exists_eq_left] at h
  omega

theorem example_variant_hits_positions (k : Int) :
    k ∈ ([100, 120, 130, 131, 150, 200] : List Int) ↔
      is_boundary_position 100 200 [(120, 150)] example_variant_hits k := by
  simp only [is_boundary_position, example_variant_hits, List.mem_cons, List.mem_singleton,
    List.not_mem_nil, or_false, exists_eq_or_imp, exists_eq_left]
  omega

theorem example_variant_hits_loci (l r : Int) (h : variant_locus example_variant_hits l r) :
    consecutive_positions [100, 120, 130, 131, 150, 200] l r := by
  obtain ⟨a, h0, hh0, p, hp, hl, hr, _⟩ := h
  simp only [example_variant_hits, List.mem_cons, List.mem_singleton, List.not_mem_nil,
    or_false] at hh0
  have hp' : p.high32 = 130 ∧ p.low32 = 131 := by
    rcases hh0 with rfl | rfl | rfl <;>
    · simp only [List.mem_singleton] at hp
      subst hp
      exact ⟨rfl, rfl⟩
  rw [← hl, ← hr, hp'.1, hp'.2]
  exact ⟨2, rfl, rfl⟩

theorem build_regions_adjacent_or_parallel_witness :
    ((100 : Int) < 200 ∧
      (∀ k, is_boundary_position 100 200 [(120, 150)] example_variant_hits k →
        100 ≤ k ∧ k ≤ 200) ∧
      ([100, 120, 130, 131, 150, 200] : List Int).Pairwise (fun x y => x < y) ∧
      (∀ k, k ∈ ([100, 120, 130, 131, 150, 200] : List Int) ↔
        is_boundary_position 100 200 [(120, 150)] example_variant_hits k) ∧
      ∀ l r, variant_locus example_variant_hits l r →
        consecutive_positions [100, 120, 130, 131, 150, 200] l r) ∧
    ∃ regions,
      build_regions example_boundary_types example_get_genotype 100 200 [(120, 150)]
        example_variant_hits = some regions ∧
      regions.Pairwise region_le ∧
      (∃ g, regions.head? = some g ∧ g.lpos.p32 = 100) ∧
      (∃ g, regions.getLast? = some g ∧ g.rpos.p32 = 200) ∧
      regions.Chain' (fun a b => region_adjacent a b ∨ region_parallel a b) ∧
      regions.map (fun g => (g.lpos.p32, g.lpos.ale, g.rpos.p32, g.gt)) =
        [(100, ['$'], 120, genotype.UNPHASED), (120, ['$'], 130, genotype.UNPHASED),
         (130, ['A'], 131, genotype.ALLELE1), (130, ['C'], 131, genotype.ALLELE2),
         (131, ['$'], 150, genotype.UNPHASED), (150, ['$'], 200, genotype.UNPHASED)] :=
  ⟨⟨by decide, example_variant_hits_range, by decide, example_variant_hits_positions,
      example_variant_hits_loci⟩,
    match build_regions_adjacent_or_parallel example_boundary_types example_get_genotype 100
      200 [(120, 150)] example_variant_hits [100, 120, 130, 131, 150, 200] (by decide)
      example_variant_hits_range (by decide) example_variant_hits_positions
      example_variant_hits_loci with
    | ⟨regions, h1, h2, h3, h4, h5, _⟩ =>
      ⟨regions, h1, h2, h3, h4, h5, by
        have h : build_regions example_boundary_types example_get_genotype 100 200
            [(120, 150)] example_variant_hits =
          some [⟨⟨100, ['$']⟩, ⟨120, ['$']⟩, 1, 4, genotype.UNPHASED⟩,
            ⟨⟨120, ['$']⟩, ⟨130, ['$']⟩, 4, 16, genotype.UNPHASED⟩,
            ⟨⟨130, ['A']⟩, ⟨131, ['A']⟩, 16, 32, genotype.ALLELE1⟩,
            ⟨⟨130, ['C']⟩, ⟨131, ['C']⟩, 16, 32, genotype.ALLELE2⟩,
            ⟨⟨131, ['$']⟩, ⟨150, ['$']⟩, 32, 8, genotype.UNPHASED⟩,
            ⟨⟨150, ['$']⟩, ⟨200, ['$']⟩, 8, 2, genotype.UNPHASED⟩] := by decide
        rw [h] at h1
        rw [← Option.some.inj h1]
        rfl⟩⟩

/-! ### The marking functions of `revise_splice_graph` -/

theorem marks_inv_refl (P : Nat → Prop) (gr : splice_graph) : marks_inv P gr (gr, false) := by
  refine ⟨⟨rfl, rfl, rfl, rfl, rfl, fun i => Or.inl rfl⟩, ?_⟩
  constructor
  · intro h
    exact absurd h (by simp)
  · rintro ⟨i, vi, h1, h2, h3⟩
    rw [h1] at h3
    have := Option.some.inj h3
    rw [this] at h2
    exact absurd rfl h2

theorem marks_inv_mark (P : Nat → Prop) (gr0 gr : splice_graph) (flag : Bool) (i : Nat)
    (vi : vertex_info) (hinv : marks_inv P gr0 (gr, flag)) (hvi : gr.vinf[i]? = some vi)
    (hty : vi.type ≠ EMPTY_VERTEX) (hP : P i) :
    marks_inv P gr0 (gr.set_vertex_info i { vi with type := EMPTY_VERTEX }, true) := by
  obtain ⟨⟨hlen, hv, he, hw, hr, hall⟩, hflag⟩ := hinv
  simp only at hlen hv he hw hr hall hflag
  have hi0 : gr0.vinf[i]? = some vi := by
    rcases hall i with h | ⟨_, v0, _, _, h3⟩
    · rw [← h]
      exact hvi
    · rw [hvi] at h3
      have := Option.some.inj h3
      rw [this] at hty
      exact absurd rfl hty
  have hilt : i < gr.vinf.length := by
    by_contra hge
    rw [List.getElem?_eq_none (by omega)] at hvi
    simp at hvi
  have hmark : marked gr0 (gr.set_vertex_info i { vi with type := EMPTY_VERTEX }) i := by
    refine ⟨vi, hi0, hty, ?_⟩
    simp only [splice_graph.set_vertex_info]
    rw [List.getElem?_set_self hilt]
  refine ⟨⟨?_, hv, he, hw, hr, ?_⟩, ?_⟩
  · simp only [splice_graph.set_vertex_info, List.length_set]
    exact hlen
  · intro j
    by_cases hj : j = i
    · subst hj
      exact Or.inr ⟨hP, hmark⟩
    · have hset : (gr.set_vertex_info i { vi with type := EMPTY_VERTEX }).vinf[j]? =
          gr.vinf[j]? := by
        simp only [splice_graph.set_vertex_info]
        rw [List.getElem?_set_ne (fun h => hj h.symm)]
      rcases hall j with h | ⟨hPj, v0, h1, h2, h3⟩
      · exact Or.inl (hset.trans h)
      · exact Or.inr ⟨hPj, v0, h1, h2, hset.trans h3⟩
  · simp only [true_iff]
    exact ⟨i, hmark⟩

/-- A loop whose body either leaves the state as it is or marks the vertex it visits,
which then satisfies `P`, keeps the invariant of marking loops. -/
theorem marks_inv_foldl (P : Nat → Prop) (gr0 : splice_graph)
    (step : Nat → splice_graph × Bool → splice_graph × Bool) (l : List Nat)
    (hstep : ∀ i ∈ l, ∀ gr flag, gr.vinf.length = gr0.vinf.length →
      gr.edge_ends = gr0.edge_ends → gr.removed = gr0.removed →
      step i (gr, flag) = (gr, flag) ∨
        ∃ vi, gr.vinf[i]? = some vi ∧ vi.type ≠ EMPTY_VERTEX ∧ P i ∧
          step i (gr, flag) = (gr.set_vertex_info i { vi with type := EMPTY_VERTEX }, true))
    (st : splice_graph × Bool) (hinv : marks_inv P gr0 st) :
    marks_inv P gr0 (l.foldl (fun st i => step i st) st) := by
  induction l generalizing st with
  | nil => exact hinv
  | cons i l ih =>
    simp only [List.foldl_cons]
    refine ih (fun j hj => hstep j (List.mem_cons_of_mem _ hj)) _ ?_
    obtain ⟨gr, flag⟩ := st
    rcases hstep i (List.mem_cons_self _ _) gr flag hinv.1.1 hinv.1.2.2.1 hinv.1.2.2.2.2.1 with
      h | ⟨vi, h1, h2, h3, h4⟩
    · rw [h]
      exact hinv
    · rw [h4]
      exact marks_inv_mark P gr0 gr flag i vi hinv h1 h2 h3

theorem remove_small_exons_body_cases (min_exon_length : Int) (i : Nat) (gr : splice_graph)
    (flag : Bool) :
    remove_small_exons_body min_exon_length i (gr, flag) = (gr, flag) ∨
      ∃ vi, gr.vinf[i]? = some vi ∧ vi.type ≠ EMPTY_VERTEX ∧
        remove_small_exons_body min_exon_length i (gr, flag) =
          (gr.set_vertex_info i { vi with type := EMPTY_VERTEX }, true) := by
  simp only [remove_small_exons_body]
  cases hvi : gr.vinf[i]? with
  | none => exact Or.inl rfl
  | some vi =>
    simp only
    split_ifs with h1 h2 h3 h4 h5
    · exact Or.inl rfl
    · exact Or.inl rfl
    · exact Or.inl rfl
    · exact Or.inl rfl
    · exact Or.inl rfl
    · exact Or.inr ⟨vi, rfl, h1, rfl⟩

theorem remove_inner_boundaries_body_cases (i : Nat) (gr : splice_graph) (flag : Bool) :
    remove_inner_boundaries_body i (gr, flag) = (gr, flag) ∨
      ∃ vi, gr.vinf[i]? = some vi ∧ vi.type ≠ EMPTY_VERTEX ∧
        remove_inner_boundaries_body i (gr, flag) =
          (gr.set_vertex_info i { vi with type := EMPTY_VERTEX }, true) := by
  simp only [remove_inner_boundaries_body]
  cases hvi : gr.vinf[i]? with
  | none => exact Or.inl rfl
  | some vi =>
    simp only
    by_cases h1 : vi.type = EMPTY_VERTEX
    · rw [if_pos h1]
      exact Or.inl rfl
    · rw [if_neg h1]
      split
      · split_ifs
        · exact Or.inl rfl
        · exact Or.inl rfl
        · exact Or.inl rfl
        · exact Or.inl rfl
        · exact Or.inr ⟨vi, rfl, h1, rfl⟩
      · exact Or.inl rfl

theorem remove_intron_contamination_body_cases (max_intron_contamination_coverage : ℚ)
    (i : Nat) (gr : splice_graph) (flag : Bool) :
    remove_intron_contamination_body max_intron_contamination_coverage i (gr, flag) =
        (gr, flag) ∨
      ∃ vi, gr.vinf[i]? = some vi ∧ vi.type ≠ EMPTY_VERTEX ∧ gr.out_edges i ≠ [] ∧
        remove_intron_contamination_body max_intron_contamination_coverage i (gr, flag) =
          (gr.set_vertex_info i { vi with type := EMPTY_VERTEX }, true) := by
  simp only [remove_intron_contamination_body]
  cases hvi : gr.vinf[i]? with
  | none => exact Or.inl rfl
  | some vi =>
    simp only
    by_cases h1 : vi.type = EMPTY_VERTEX
    · rw [if_pos h1]
      exact Or.inl rfl
    · rw [if_neg h1]
      split
      · rename_i e1 e2 hin hout
        by_cases c1 : (gr.edge_ends.getD e1 (0, 0)).1 = 0
        · rw [if_pos c1]
          exact Or.inl rfl
        rw [if_neg c1]
        by_cases c2 : (gr.edge_ends.getD e2 (0, 0)).2 = gr.num_vertices - 1
        · rw [if_pos c2]
          exact Or.inl rfl
        rw [if_neg c2]
        by_cases c3 : (gr.vinf[(gr.edge_ends.getD e1 (0, 0)).1]?).map (fun v => v.rpos) ≠
            some vi.lpos
        · rw [if_pos c3]
          exact Or.inl rfl
        rw [if_neg c3]
        by_cases c4 : (gr.vinf[(gr.edge_ends.getD e2 (0, 0)).2]?).map (fun v => v.lpos) ≠
            some vi.rpos
        · rw [if_pos c4]
          exact Or.inl rfl
        rw [if_neg c4]
        cases hee : gr.edge (gr.edge_ends.getD e1 (0, 0)).1 (gr.edge_ends.getD e2 (0, 0)).2 with
        | none => exact Or.inl rfl
        | some ee =>
          simp only
          by_cases c5 : wt gr.vwrt i > wt gr.ewrt ee
          · rw [if_pos c5]
            exact Or.inl rfl
          rw [if_neg c5]
          by_cases c6 : wt gr.vwrt i > max_intron_contamination_coverage
          · rw [if_pos c6]
            exact Or.inl rfl
          rw [if_neg c6]
          refine Or.inr ⟨vi, rfl, h1, ?_, rfl⟩
          rw [hout]
          simp
      · exact Or.inl rfl

theorem out_edges_congr (gr gr0 : splice_graph) (he : gr.edge_ends = gr0.edge_ends)
    (hr : gr.removed = gr0.removed) (i : Nat) : gr.out_edges i = gr0.out_edges i := by
  simp only [splice_graph.out_edges, splice_graph.edges, he, hr]

theorem in_edges_congr (gr gr0 : splice_graph) (he : gr.edge_ends = gr0.edge_ends)
    (hr : gr.removed = gr0.removed) (i : Nat) : gr.in_edges i = gr0.in_edges i := by
  simp only [splice_graph.in_edges, splice_graph.edges, he, hr]

theorem marks_inv_remove_small_exons (min_exon_length : Int) (gr : splice_graph) :
    marks_inv (fun i => 0 < i ∧ i + 1 < gr.num_vertices) gr
      (remove_small_exons min_exon_length gr) := by
  refine marks_inv_foldl _ gr (remove_small_exons_body min_exon_length) _ ?_ _
    (marks_inv_refl _ gr)
  intro i hi g flag _ _ _
  rcases remove_small_exons_body_cases min_exon_length i g flag with h | ⟨vi, h1, h2, h3⟩
  · exact Or.inl h
  · exact Or.inr ⟨vi, h1, h2, (mem_internal_vertices gr i).mp hi, h3⟩

theorem marks_inv_remove_inner_boundaries (gr : splice_graph) :
    marks_inv (fun i => 0 < i ∧ i + 1 < gr.num_vertices) gr (remove_inner_boundaries gr) := by
  refine marks_inv_foldl _ gr remove_inner_boundaries_body _ ?_ _ (marks_inv_refl _ gr)
  intro i hi g flag _ _ _
  rcases remove_inner_boundaries_body_cases i g flag with h | ⟨vi, h1, h2, h3⟩
  · exact Or.inl h
  · exact Or.inr ⟨vi, h1, h2, (mem_internal_vertices gr i).mp hi, h3⟩

theorem marks_inv_remove_intron_contamination (max_intron_contamination_coverage : ℚ)
    (gr : splice_graph) (hsink : gr.out_edges (gr.num_vertices - 1) = []) :
    marks_inv (fun i => 0 < i ∧ i + 1 < gr.num_vertices) gr
      (remove_intron_contamination max_intron_contamination_coverage gr) := by
  refine marks_inv_foldl _ gr
    (remove_intron_contamination_body max_intron_contamination_coverage) _ ?_ _
    (marks_inv_refl _ gr)
  intro i hi g flag _ he hr
  rcases remove_intron_contamination_body_cases max_intron_contamination_coverage i g flag
    with h | ⟨vi, h1, h2, hout, h3⟩
  · exact Or.inl h
  · refine Or.inr ⟨vi, h1, h2, ?_, h3⟩
    rw [out_edges_congr g gr he hr] at hout
    simp only [List.mem_range'_1] at hi
    refine ⟨by omega, ?_⟩
    by_contra hge
    have : i = gr.num_vertices - 1 := by omega
    rw [this] at hout
    exact hout hsink

/-- C26: on a graph whose sink has no edge going out, each of `remove_small_exons`,
`remove_inner_boundaries` and `remove_intron_contamination` leaves the number of
vertices, the vertex weights, the edges and the edge weights as they are, and leaves the
data of every vertex as it is unless the vertex is internal, had a `type` other than
`EMPTY_VERTEX`, and has afterwards the same data with the `type` `EMPTY_VERTEX`; each
returns true exactly when there is such a vertex. -/
theorem remove_functions_mark_only (min_exon_length : Int)
    (max_intron_contamination_coverage : ℚ) (gr : splice_graph)
    (hsink : gr.out_edges (gr.num_vertices - 1) = []) :
    (marks_only gr (remove_small_exons min_exon_length gr).1 ∧
      ((remove_small_exons min_exon_length gr).2 = true ↔
        ∃ i, marked gr (remove_small_exons min_exon_length gr).1 i)) ∧
    (marks_only gr (remove_inner_boundaries gr).1 ∧
      ((remove_inner_boundaries gr).2 = true ↔
        ∃ i, marked gr (remove_inner_boundaries gr).1 i)) ∧
    (marks_only gr (remove_intron_contamination max_intron_contamination_coverage gr).1 ∧
      ((remove_intron_contamination max_intron_contamination_coverage gr).2 = true ↔
        ∃ i, marked gr
          (remove_intron_contamination max_intron_contamination_coverage gr).1 i)) := by
  refine ⟨?_, ?_, ?_⟩
  · exact marks_inv_remove_small_exons min_exon_length gr
  · exact marks_inv_remove_inner_boundaries gr
  · exact marks_inv_remove_intron_contamination max_intron_contamination_coverage gr hsink

theorem remove_functions_mark_only_witness :
    example_intron.out_edges (example_intron.num_vertices - 1) = [] ∧
    (marks_only example_intron (remove_small_exons 23 example_intron).1 ∧
      ((remove_small_exons 23 example_intron).2 = true ↔
        ∃ i, marked example_intron (remove_small_exons 23 example_intron).1 i)) ∧
    (marks_only example_intron (remove_inner_boundaries example_intron).1 ∧
      ((remove_inner_boundaries example_intron).2 = true ↔
        ∃ i, marked example_intron (remove_inner_boundaries example_intron).1 i)) ∧
    (marks_only example_intron (remove_intron_contamination 2 example_intron).1 ∧
      ((remove_intron_contamination 2 example_intron).2 = true ↔
        ∃ i, marked example_intron (remove_intron_contamination 2 example_intron).1 i)) :=
  ⟨by decide, remove_functions_mark_only 23 2 example_intron (by decide)⟩

/-! ### `bundle::remove_intron_contamination` -/

theorem remove_intron_contamination_body_of (max_intron_contamination_coverage : ℚ)
    (i : Nat) (gr : splice_graph) (flag : Bool)
    (h : intron_contaminated max_intron_contamination_coverage gr i) :
    ∃ vi, gr.vinf[i]? = some vi ∧ vi.type ≠ EMPTY_VERTEX ∧
      remove_intron_contamination_body max_intron_contamination_coverage i (gr, flag) =
        (gr.set_vertex_info i { vi with type := EMPTY_VERTEX }, true) := by
  obtain ⟨vi, e1, e2, ee, hvi, hty, hin, hout, hs, ht, hl, hr, hee, hw1, hw2⟩ := h
  refine ⟨vi, hvi, hty, ?_⟩
  unfold edge_source at hs hl hee
  unfold edge_target at ht hr hee
  simp only [remove_intron_contamination_body, hvi, if_neg hty, hin, hout, if_neg hs,
    if_neg ht, hl, hr, ne_eq, not_true_eq_false, if_false, hee, gt_iff_lt,
    if_neg (not_lt.mpr hw1), if_neg (not_lt.mpr hw2)]

theorem remove_intron_contamination_body_marks (max_intron_contamination_coverage : ℚ)
    (i : Nat) (gr : splice_graph) (flag : Bool) :
    remove_intron_contamination_body max_intron_contamination_coverage i (gr, flag) =
        (gr, flag) ∨
      (intron_contaminated max_intron_contamination_coverage gr i ∧
        ∃ vi, gr.vinf[i]? = some vi ∧ vi.type ≠ EMPTY_VERTEX ∧
          remove_intron_contamination_body max_intron_contamination_coverage i (gr, flag) =
            (gr.set_vertex_info i { vi with type := EMPTY_VERTEX }, true)) := by
  simp only [remove_intron_contamination_body]
  cases hvi : gr.vinf[i]? with
  | none => exact Or.inl rfl
  | some vi =>
    simp only
    by_cases h1 : vi.type = EMPTY_VERTEX
    · rw [if_pos h1]
      exact Or.inl rfl
    · rw [if_neg h1]
      split
      · rename_i e1 e2 hin hout
        by_cases c1 : (gr.edge_ends.getD e1 (0, 0)).1 = 0
        · rw [if_pos c1]
          exact Or.inl rfl
        rw [if_neg c1]
        by_cases c2 : (gr.edge_ends.getD e2 (0, 0)).2 = gr.num_vertices - 1
        · rw [if_pos c2]
          exact Or.inl rfl
        rw [if_neg c2]
        by_cases c3 : (gr.vinf[(gr.edge_ends.getD e1 (0, 0)).1]?).map (fun v => v.rpos) ≠
            some vi.lpos
        · rw [if_pos c3]
          exact Or.inl rfl
        rw [if_neg c3]
        by_cases c4 : (gr.vinf[(gr.edge_ends.getD e2 (0, 0)).2]?).map (fun v => v.lpos) ≠
            some vi.rpos
        · rw [if_pos c4]
          exact Or.inl rfl
        rw [if_neg c4]
        cases hee : gr.edge (gr.edge_ends.getD e1 (0, 0)).1 (gr.edge_ends.getD e2 (0, 0)).2 with
        | none => exact Or.inl rfl
        | some ee =>
          simp only
          by_cases c5 : wt gr.vwrt i > wt gr.ewrt ee
          · rw [if_pos c5]
            exact Or.inl rfl
          rw [if_neg c5]
          by_cases c6 : wt gr.vwrt i > max_intron_contamination_coverage
          · rw [if_pos c6]
            exact Or.inl rfl
          rw [if_neg c6]
          refine Or.inr ⟨⟨vi, e1, e2, ee, hvi, h1, hin, hout, c1, c2, ?_, ?_, hee, ?_, ?_⟩,
            vi, rfl, h1, rfl⟩
          · exact not_not.mp c3
          · exact not_not.mp c4
          · exact not_lt.mp c5
          · exact not_lt.mp c6
      · exact Or.inl rfl

theorem marks_only_where_mono (P Q : Nat → Prop) (gr gr' : splice_graph)
    (hPQ : ∀ i, P i → Q i) (h : marks_only_where P gr gr') : marks_only_where Q gr gr' := by
  obtain ⟨h1, h2, h3, h4, h5, h6⟩ := h
  refine ⟨h1, h2, h3, h4, h5, fun i => ?_⟩
  rcases h6 i with h | ⟨hP, hm⟩
  · exact Or.inl h
  · exact Or.inr ⟨hPQ i hP, hm⟩

/-- Marking keeps the positions of every vertex. -/
theorem marks_only_where_positions (P : Nat → Prop) (gr gr' : splice_graph)
    (h : marks_only_where P gr gr') (j : Nat) :
    (gr'.vinf[j]?).map (fun v => v.rpos) = (gr.vinf[j]?).map (fun v => v.rpos) ∧
      (gr'.vinf[j]?).map (fun v => v.lpos) = (gr.vinf[j]?).map (fun v => v.lpos) := by
  rcases h.2.2.2.2.2 j with h | ⟨_, vi, h1, _, h3⟩
  · rw [h]
    exact ⟨rfl, rfl⟩
  · rw [h1, h3]
    exact ⟨rfl, rfl⟩

theorem edge_congr (gr gr0 : splice_graph) (he : gr.edge_ends = gr0.edge_ends)
    (hr : gr.removed = gr0.removed) (s t : Nat) : gr.edge s t = gr0.edge s t := by
  simp only [splice_graph.edge, out_edges_congr gr gr0 he hr, he]

/-- The test of `remove_intron_contamination` on a vertex gives the same on a graph
with marks as on the graph without them, when the vertex itself is not marked. -/
theorem intron_contaminated_congr (max_intron_contamination_coverage : ℚ) (P : Nat → Prop)
    (gr0 gr : splice_graph) (h : marks_only_where P gr0 gr) (i : Nat)
    (hi : gr.vinf[i]? = gr0.vinf[i]?) :
    intron_contaminated max_intron_contamination_coverage gr i ↔
      intron_contaminated max_intron_contamination_coverage gr0 i := by
  have hpos := marks_only_where_positions P gr0 gr h
  obtain ⟨hlen, hv, he, hw, hr, _⟩ := h
  have hn : gr.num_vertices = gr0.num_vertices := hlen
  simp only [intron_contaminated, edge_source, edge_target, hi, he, hv, hw,
    in_edges_congr gr gr0 he hr, out_edges_congr gr gr0 he hr, edge_congr gr gr0 he hr, hn,
    (hpos _).1, (hpos _).2]

theorem marked_of_set (gr0 gr : splice_graph) (i : Nat) (vi : vertex_info)
    (h0 : gr0.vinf[i]? = some vi) (hi : gr.vinf[i]? = some vi) (hty : vi.type ≠ EMPTY_VERTEX) :
    marked gr0 (gr.set_vertex_info i { vi with type := EMPTY_VERTEX }) i := by
  have hilt : i < gr.vinf.length := by
    by_contra hge
    rw [List.getElem?_eq_none (by omega)] at hi
    simp at hi
  refine ⟨vi, h0, hty, ?_⟩
  simp only [splice_graph.set_vertex_info]
  rw [List.getElem?_set_self hilt]

theorem marked_set_of_ne (gr0 gr : splice_graph) (i v : Nat) (vi : vertex_info) (hv : v ≠ i)
    (h : marked gr0 gr v) : marked gr0 (gr.set_vertex_info i vi) v := by
  obtain ⟨v0, h1, h2, h3⟩ := h
  refine ⟨v0, h1, h2, ?_⟩
  simp only [splice_graph.set_vertex_info]
  rw [List.getElem?_set_ne (fun h => hv h.symm)]
  exact h3

theorem not_marked_of_same (gr0 gr : splice_graph) (v : Nat)
    (h : gr.vinf[v]? = gr0.vinf[v]?) : ¬ marked gr0 gr v := by
  rintro ⟨v0, h1, h2, h3⟩
  rw [h, h1] at h3
  have := Option.some.inj h3
  rw [this] at h2
  exact h2 rfl

/-- The loop of `remove_intron_contamination` over the vertices `l`, which are among
those of `L` and each listed once: when the vertices of `L` visited before are marked
exactly where the test holds on the graph `gr0` from which the loop started, then so
are all vertices of `L` in the end. -/
theorem remove_intron_contamination_foldl (max_intron_contamination_coverage : ℚ)
    (gr0 : splice_graph) (L l : List Nat) (st : splice_graph × Bool) (hnd : l.Nodup)
    (hL : ∀ v ∈ l, v ∈ L)
    (hinv : marks_inv (fun v => intron_contaminated max_intron_contamination_coverage gr0 v ∧
      v ∉ l ∧ v ∈ L) gr0 st)
    (hdone : ∀ v ∈ L, v ∉ l → intron_contaminated max_intron_contamination_coverage gr0 v →
      marked gr0 st.1 v) :
    marks_inv (fun v => intron_contaminated max_intron_contamination_coverage gr0 v ∧ v ∈ L)
        gr0 (l.foldl (fun st i =>
          remove_intron_contamination_body max_intron_contamination_coverage i st) st) ∧
      ∀ v ∈ L, intron_contaminated max_intron_contamination_coverage gr0 v →
        marked gr0 (l.foldl (fun st i =>
          remove_intron_contamination_body max_intron_contamination_coverage i st) st).1 v := by
  induction l generalizing st with
  | nil =>
    refine ⟨⟨marks_only_where_mono _ _ _ _ (fun v hv => ⟨hv.1, hv.2.2⟩) hinv.1, hinv.2⟩, ?_⟩
    intro v hv hc
    exact hdone v hv (by simp) hc
  | cons i rest ih =>
    obtain ⟨gr, flag⟩ := st
    simp only [List.foldl_cons]
    have hi : gr.vinf[i]? = gr0.vinf[i]? := by
      rcases hinv.1.2.2.2.2.2 i with h | ⟨⟨_, hni, _⟩, _⟩
      · exact h
      · exact absurd (List.mem_cons_self _ _) hni
    have hcongr := intron_contaminated_congr max_intron_contamination_coverage _ gr0 gr
      hinv.1 i hi
    have hmono : marks_inv (fun v =>
        intron_contaminated max_intron_contamination_coverage gr0 v ∧ v ∉ rest ∧ v ∈ L) gr0
        (gr, flag) :=
      ⟨marks_only_where_mono _ _ _ _
        (fun v hv => ⟨hv.1, fun hr => hv.2.1 (List.mem_cons_of_mem _ hr), hv.2.2⟩) hinv.1,
        hinv.2⟩
    have hnd' := List.nodup_cons.mp hnd
    by_cases hc : intron_contaminated max_intron_contamination_coverage gr i
    · obtain ⟨vi, hvi, hty, hbody⟩ :=
        remove_intron_contamination_body_of max_intron_contamination_coverage i gr flag hc
      rw [hbody]
      refine ih _ hnd'.2 (fun v hv => hL v (List.mem_cons_of_mem _ hv)) ?_ ?_
      · exact marks_inv_mark _ gr0 gr flag i vi hmono hvi hty
          ⟨hcongr.mp hc, hnd'.1, hL i (List.mem_cons_self _ _)⟩
      · intro v hv hvr hcv
        by_cases hvi' : v = i
        · subst hvi'
          exact marked_of_set gr0 gr v vi (hi ▸ hvi) hvi hty
        · refine marked_set_of_ne gr0 gr i v _ hvi' (hdone v hv ?_ hcv)
          simp only [List.mem_cons, not_or]
          exact ⟨hvi', hvr⟩
    · have hbody : remove_intron_contamination_body max_intron_contamination_coverage i
          (gr, flag) = (gr, flag) := by
        rcases remove_intron_contamination_body_marks max_intron_contamination_coverage i gr
          flag with h | ⟨h, _⟩
        · exact h
        · exact absurd h hc
      rw [hbody]
      refine ih _ hnd'.2 (fun v hv => hL v (List.mem_cons_of_mem _ hv)) hmono ?_
      intro v hv hvr hcv
      by_cases hvi' : v = i
      · subst hvi'
        exact absurd (hcongr.mpr hcv) hc
      · refine hdone v hv ?_ hcv
        simp only [List.mem_cons, not_or]
        exact ⟨hvi', hvr⟩

theorem remove_intron_contamination_marks (max_intron_contamination_coverage : ℚ)
    (gr : splice_graph) :
    (∀ v, marked gr (remove_intron_contamination max_intron_contamination_coverage gr).1 v ↔
      0 < v ∧ intron_contaminated max_intron_contamination_coverage gr v) ∧
    (∀ v, ¬ marked gr (remove_intron_contamination max_intron_contamination_coverage gr).1 v →
      (remove_intron_contamination max_intron_contamination_coverage gr).1.vinf[v]? =
        gr.vinf[v]?) ∧
    ((remove_intron_contamination max_intron_contamination_coverage gr).2 = true ↔
      ∃ v, 0 < v ∧ intron_contaminated max_intron_contamination_coverage gr v) := by
  obtain ⟨hinv, hall⟩ := remove_intron_contamination_foldl max_intron_contamination_coverage
    gr (List.range' 1 (gr.num_vertices - 1)) (List.range' 1 (gr.num_vertices - 1)) (gr, false)
    (List.nodup_range' 1 (gr.num_vertices - 1))
    (fun v hv => hv) (marks_inv_refl _ gr)
    (fun v hv hnv _ => absurd hv hnv)
  have hiff : ∀ v, marked gr
      (remove_intron_contamination max_intron_contamination_coverage gr).1 v ↔
      0 < v ∧ intron_contaminated max_intron_contamination_coverage gr v := by
    intro v
    constructor
    · intro hm
      rcases hinv.1.2.2.2.2.2 v with h | ⟨⟨hc, hv⟩, _⟩
      · exact absurd hm (not_marked_of_same gr _ v h)
      · simp only [List.mem_range'_1] at hv
        exact ⟨by omega, hc⟩
    · rintro ⟨hpos, hc⟩
      refine hall v ?_ hc
      obtain ⟨vi, _, _, _, hvi, _⟩ := hc
      have hlt : v < gr.vinf.length := by
        by_contra hge
        rw [List.getElem?_eq_none (by omega)] at hvi
        simp at hvi
      simp only [List.mem_range'_1, splice_graph.num_vertices]
      omega
  refine ⟨hiff, ?_, ?_⟩
  · intro v hv
    rcases hinv.1.2.2.2.2.2 v with h | ⟨_, hm⟩
    · exact h
    · exact absurd hm hv
  · rw [show (remove_intron_contamination max_intron_contamination_coverage gr).2 = true ↔
        ∃ i, marked gr (remove_intron_contamination max_intron_contamination_coverage gr).1 i
      from hinv.2]
    constructor
    · rintro ⟨v, hv⟩
      exact ⟨v, (hiff v).mp hv⟩
    · rintro ⟨v, hv⟩
      exact ⟨v, (hiff v).mpr hv⟩

/-- C29: `remove_intron_contamination` marks as `EMPTY_VERTEX` exactly the vertices `v`
other than the source that are not `EMPTY_VERTEX`, have exactly one edge in, from a
vertex `s` other than the source, and exactly one edge out, to a vertex `t` other than
the sink, with `s` ending where `v` begins and `t` beginning where `v` ends, such that
there is an edge from `s` to `t`, and the weight of `v` is at most the weight of that
edge and at most `max_intron_contamination_coverage`; the data of every other vertex
stays as it is, and the function returns true exactly when there is such a vertex. -/
theorem remove_intron_contamination_marks_exactly (max_intron_contamination_coverage : ℚ)
    (gr : splice_graph) :
    (∀ v, marked gr (remove_intron_contamination max_intron_contamination_coverage gr).1 v ↔
      0 < v ∧ intron_contaminated max_intron_contamination_coverage gr v) ∧
    (∀ v, ¬ marked gr (remove_intron_contamination max_intron_contamination_coverage gr).1 v →
      (remove_intron_contamination max_intron_contamination_coverage gr).1.vinf[v]? =
        gr.vinf[v]?) ∧
    ((remove_intron_contamination max_intron_contamination_coverage gr).2 = true ↔
      ∃ v, 0 < v ∧ intron_contaminated max_intron_contamination_coverage gr v) := by
  obtain ⟨h1, h2, h3⟩ := remove_intron_contamination_marks max_intron_contamination_coverage gr
  exact ⟨h1, h2, h3⟩

/-- The first exon of `example_first_exon` has one edge in, from the source, and one
edge out, to the second exon, which the source reaches by an edge of weight 5; its
weight 1 is at most 5 and at most the bound 2: the condition of the claim holds, and
`remove_intron_contamination` does not mark the vertex, since its edge in comes from
the source. -/
theorem remove_intron_contamination_skips_first_exon :
    passed_over 2 example_first_exon 1 ∧
      ¬ marked example_first_exon (remove_intron_contamination 2 example_first_exon).1 1 := by
  constructor
  · refine ⟨{ gt := genotype.UNPHASED, as_vertex := false,
              lpos := { p32 := 100, ale := ['$'] }, rpos := { p32 := 200, ale := ['$'] } },
      0, 1, 2, by decide, by decide, by decide, by decide, by decide, ?_, ?_⟩
    · simp only [wt, example_first_exon]
      norm_num
    · simp only [wt, example_first_exon]
      norm_num
  · intro hm
    obtain ⟨_, vi, e1, e2, ee, _, _, hin, _, hs, _⟩ :=
      ((remove_intron_contamination_marks 2 example_first_exon).1 1).mp hm
    have h1 : example_first_exon.in_edges 1 = [0] := by decide
    rw [h1] at hin
    have h2 : e1 = 0 := by
      simp only [List.cons.injEq, and_true] at hin
      exact hin.symm
    subst h2
    exact hs (by decide)

/-! ### `bundle::extend_start_boundaries` and `bundle::extend_end_boundaries` -/

theorem edges_added_only_refl (gr : splice_graph) : edges_added_only gr gr :=
  ⟨rfl, rfl, rfl, [], by simp⟩

theorem edges_added_only_trans (g1 g2 g3 : splice_graph) (h12 : edges_added_only g1 g2)
    (h23 : edges_added_only g2 g3) : edges_added_only g1 g3 := by
  obtain ⟨a1, a2, a3, x, a4⟩ := h12
  obtain ⟨b1, b2, b3, y, b4⟩ := h23
  refine ⟨b1.trans a1, b2.trans a2, b3.trans a3, x ++ y, ?_⟩
  rw [b4, a4, List.append_assoc]

theorem edges_added_only_add_edge (gr : splice_graph) (s t : Nat) (w : ℚ) :
    edges_added_only gr ((gr.add_edge s t).1.set_edge_weight (gr.add_edge s t).2 w) :=
  ⟨rfl, rfl, rfl, [(s, t)], rfl⟩

theorem edges_of_added (gr gr' : splice_graph) (h : edges_added_only gr gr') :
    ∃ X, gr'.edges = gr.edges ++ X := by
  obtain ⟨_, _, hr, extra, he⟩ := h
  refine ⟨(List.range' gr.edge_ends.length extra.length).filter
    (fun d => decide (d ∉ gr.removed)), ?_⟩
  simp only [splice_graph.edges, he, hr, List.length_append]
  rw [← List.filter_append]
  congr 1
  rw [List.range_eq_range', List.range_eq_range']
  have := List.range'_append_1 0 gr.edge_ends.length extra.length
  simp only [zero_add] at this
  rw [this, Nat.add_comm]

theorem in_degree_le_of_added (gr gr' : splice_graph) (h : edges_added_only gr gr') (j : Nat) :
    gr.in_degree j ≤ gr'.in_degree j := by
  obtain ⟨X, hX⟩ := edges_of_added gr gr' h
  obtain ⟨_, _, _, extra, he⟩ := h
  simp only [splice_graph.in_degree, splice_graph.in_edges, hX, List.filter_append,
    List.length_append]
  have : gr.edges.filter (fun d => decide ((gr'.edge_ends.getD d (0, 0)).2 = j)) =
      gr.edges.filter (fun d => decide ((gr.edge_ends.getD d (0, 0)).2 = j)) := by
    apply List.filter_congr
    intro d hd
    have hlt := ((mem_edges gr d).mp hd).1
    rw [he, List.getD_append _ _ _ _ hlt]
  rw [this]
  omega

theorem out_degree_le_of_added (gr gr' : splice_graph) (h : edges_added_only gr gr')
    (j : Nat) : gr.out_degree j ≤ gr'.out_degree j := by
  obtain ⟨X, hX⟩ := edges_of_added gr gr' h
  obtain ⟨_, _, _, extra, he⟩ := h
  simp only [splice_graph.out_degree, splice_graph.out_edges, hX, List.filter_append,
    List.length_append]
  have : gr.edges.filter (fun d => decide ((gr'.edge_ends.getD d (0, 0)).1 = j)) =
      gr.edges.filter (fun d => decide ((gr.edge_ends.getD d (0, 0)).1 = j)) := by
    apply List.filter_congr
    intro d hd
    have hlt := ((mem_edges gr d).mp hd).1
    rw [he, List.getD_append _ _ _ _ hlt]
  rw [this]
  omega

theorem extend_start_boundaries_body_added (i : Nat) (gr : splice_graph) (flag : Bool) :
    edges_added_only gr (extend_start_boundaries_body i (gr, flag)).1 := by
  simp only [extend_start_boundaries_body]
  split
  · exact edges_added_only_refl gr
  · split
    · exact edges_added_only_refl gr
    · exact edges_added_only_add_edge gr 0 i _

theorem extend_end_boundaries_body_added (i : Nat) (gr : splice_graph) (flag : Bool) :
    edges_added_only gr (extend_end_boundaries_body i (gr, flag)).1 := by
  simp only [extend_end_boundaries_body]
  split
  · exact edges_added_only_refl gr
  · split
    · exact edges_added_only_refl gr
    · exact edges_added_only_add_edge gr i _ _

theorem edges_added_only_foldl (step : Nat → splice_graph × Bool → splice_graph × Bool)
    (hstep : ∀ i gr flag, edges_added_only gr (step i (gr, flag)).1) (l : List Nat)
    (st : splice_graph × Bool) :
    edges_added_only st.1 (l.foldl (fun st i => step i st) st).1 := by
  induction l generalizing st with
  | nil => exact edges_added_only_refl _
  | cons i l ih =>
    simp only [List.foldl_cons]
    exact edges_added_only_trans _ _ _ (hstep i st.1 st.2) (ih _)

theorem extend_start_boundaries_added (gr : splice_graph) :
    edges_added_only gr (extend_start_boundaries gr).1 :=
  edges_added_only_foldl extend_start_boundaries_body extend_start_boundaries_body_added _
    (gr, false)

theorem extend_end_boundaries_added (gr : splice_graph) :
    edges_added_only gr (extend_end_boundaries gr).1 :=
  edges_added_only_foldl extend_end_boundaries_body extend_end_boundaries_body_added _
    (gr, false)

theorem extend_start_boundaries_example_isolated :
    extend_start_boundaries example_isolated =
      ({ example_isolated with edge_ends := [(0, 1)], ewrt := [10] }, true) := by
  have h1 : internal_vertices example_isolated = [1] := by decide
  have h2 : example_isolated.edge 0 1 = none := by decide
  have h3 : example_isolated.in_edges 1 = [] := by decide
  simp only [extend_start_boundaries, h1, List.foldl_cons, List.foldl_nil,
    extend_start_boundaries_body, h2, h3, sum_edge_weights]
  have h4 : wt example_isolated.vwrt 1 = 10 := by
    simp [wt, example_isolated]
  rw [h4]
  norm_num
  simp [splice_graph.add_edge, splice_graph.set_edge_weight, put_wt, example_isolated]

/-! ### A vertex without edges under `extend_start_boundaries` and `extend_end_boundaries` -/

theorem edges_add_edge_weighted (gr : splice_graph) (s t : Nat) (w : ℚ)
    (hrem : ∀ d ∈ gr.removed, d < gr.edge_ends.length) :
    ((gr.add_edge s t).1.set_edge_weight (gr.add_edge s t).2 w).edges =
      gr.edges ++ [gr.edge_ends.length] := by
  have hnot : gr.edge_ends.length ∉ gr.removed := fun h => absurd (hrem _ h) (lt_irrefl _)
  simp only [splice_graph.edges, splice_graph.add_edge, splice_graph.set_edge_weight,
    List.length_append, List.length_singleton, List.range_succ, List.filter_append]
  congr 1
  simp [hnot]

theorem in_edges_add_edge_weighted (gr : splice_graph) (s t i : Nat) (w : ℚ)
    (hrem : ∀ d ∈ gr.removed, d < gr.edge_ends.length) :
    ((gr.add_edge s t).1.set_edge_weight (gr.add_edge s t).2 w).in_edges i =
      gr.in_edges i ++ (if t = i then [gr.edge_ends.length] else []) := by
  unfold splice_graph.in_edges
  rw [edges_add_edge_weighted gr s t w hrem, List.filter_append]
  congr 1
  · apply List.filter_congr
    intro d hd
    have hlt := ((mem_edges gr d).mp hd).1
    have e : (gr.edge_ends ++ [(s, t)]).getD d (0, 0) = gr.edge_ends.getD d (0, 0) :=
      List.getD_append _ _ _ _ hlt
    simp only [splice_graph.add_edge, splice_graph.set_edge_weight, e]
  · have e2 : (gr.edge_ends ++ [(s, t)]).getD gr.edge_ends.length (0, 0) = (s, t) := by
      rw [List.getD_append_right _ _ _ _ (le_refl _)]
      simp
    simp only [splice_graph.add_edge, splice_graph.set_edge_weight, List.filter_cons, e2,
      List.filter_nil]
    by_cases h : t = i
    · simp [h]
    · simp [h]

theorem out_edges_add_edge_weighted (gr : splice_graph) (s t i : Nat) (w : ℚ)
    (hrem : ∀ d ∈ gr.removed, d < gr.edge_ends.length) :
    ((gr.add_edge s t).1.set_edge_weight (gr.add_edge s t).2 w).out_edges i =
      gr.out_edges i ++ (if s = i then [gr.edge_ends.length] else []) := by
  unfold splice_graph.out_edges
  rw [edges_add_edge_weighted gr s t w hrem, List.filter_append]
  congr 1
  · apply List.filter_congr
    intro d hd
    have hlt := ((mem_edges gr d).mp hd).1
    have e : (gr.edge_ends ++ [(s, t)]).getD d (0, 0) = gr.edge_ends.getD d (0, 0) :=
      List.getD_append _ _ _ _ hlt
    simp only [splice_graph.add_edge, splice_graph.set_edge_weight, e]
  · have e2 : (gr.edge_ends ++ [(s, t)]).getD gr.edge_ends.length (0, 0) = (s, t) := by
      rw [List.getD_append_right _ _ _ _ (le_refl _)]
      simp
    simp only [splice_graph.add_edge, splice_graph.set_edge_weight, List.filter_cons, e2,
      List.filter_nil]
    by_cases h : s = i
    · simp [h]
    · simp [h]

theorem removed_add_edge_weighted (gr : splice_graph) (s t : Nat) (w : ℚ)
    (hrem : ∀ d ∈ gr.removed, d < gr.edge_ends.length) :
    ∀ d ∈ ((gr.add_edge s t).1.set_edge_weight (gr.add_edge s t).2 w).removed,
      d < ((gr.add_edge s t).1.set_edge_weight (gr.add_edge s t).2 w).edge_ends.length := by
  intro d hd
  have := hrem d hd
  simp only [splice_graph.add_edge, splice_graph.set_edge_weight, List.length_append,
    List.length_singleton]
  omega

/-- A round of `extend_start_boundaries` at another vertex leaves the edges of the
vertex `i` as they are. -/
theorem extend_start_boundaries_body_other (i j : Nat) (hij : j ≠ i) (hi : 0 < i)
    (g : splice_graph) (flag : Bool) (hrem : ∀ d ∈ g.removed, d < g.edge_ends.length) :
    (∀ d ∈ (extend_start_boundaries_body j (g, flag)).1.removed,
        d < (extend_start_boundaries_body j (g, flag)).1.edge_ends.length) ∧
      (extend_start_boundaries_body j (g, flag)).1.in_edges i = g.in_edges i ∧
      (extend_start_boundaries_body j (g, flag)).1.out_edges i = g.out_edges i ∧
      (extend_start_boundaries_body j (g, flag)).1.vwrt = g.vwrt ∧
      (extend_start_boundaries_body j (g, flag)).1.vinf = g.vinf := by
  simp only [extend_start_boundaries_body]
  split
  · exact ⟨hrem, rfl, rfl, rfl, rfl⟩
  · split
    · exact ⟨hrem, rfl, rfl, rfl, rfl⟩
    · refine ⟨removed_add_edge_weighted g 0 j _ hrem, ?_, ?_, rfl, rfl⟩
      · rw [in_edges_add_edge_weighted g 0 j i _ hrem, if_neg hij, List.append_nil]
      · rw [out_edges_add_edge_weighted g 0 j i _ hrem, if_neg (by omega), List.append_nil]

/-- The round of `extend_start_boundaries` at a vertex without edges and with a weight of
at least 10 gives it an edge from the source. -/
theorem extend_start_boundaries_body_isolated (i : Nat) (g : splice_graph) (flag : Bool)
    (hi : 0 < i) (hrem : ∀ d ∈ g.removed, d < g.edge_ends.length)
    (hin : g.in_edges i = []) (hout : g.out_edges i = []) (hw : 10 ≤ wt g.vwrt i) :
    (∀ d ∈ (extend_start_boundaries_body i (g, flag)).1.removed,
        d < (extend_start_boundaries_body i (g, flag)).1.edge_ends.length) ∧
      (extend_start_boundaries_body i (g, flag)).1.in_edges i = [g.edge_ends.length] ∧
      (extend_start_boundaries_body i (g, flag)).1.out_edges i = [] ∧
      (extend_start_boundaries_body i (g, flag)).1.edge_ends = g.edge_ends ++ [(0, i)] := by
  have hedge : g.edge 0 i = none := by
    unfold splice_graph.edge
    rw [List.find?_eq_none]
    intro d hd hcon
    have h1 := ((mem_out_edges g 0 d).mp hd).1
    have h2 : d ∈ g.in_edges i :=
      (mem_in_edges g i d).mpr ⟨h1, by simpa using hcon⟩
    rw [hin] at h2
    exact absurd h2 (List.not_mem_nil _)
  have hsum : sum_edge_weights g (g.in_edges i) = 0 := by
    rw [hin]
    rfl
  have hcond : ¬ (wt g.vwrt i < 0 ∨ wt g.vwrt i < 10 * 0 * 0 + 10) := by
    intro h
    rcases h with h | h
    · linarith
    · norm_num at h
      linarith
  simp only [extend_start_boundaries_body, hedge, hsum, hcond, if_false]
  refine ⟨removed_add_edge_weighted g 0 i _ hrem, ?_, ?_, rfl⟩
  · rw [in_edges_add_edge_weighted g 0 i i _ hrem, if_pos rfl, hin, List.nil_append]
  · rw [out_edges_add_edge_weighted g 0 i i _ hrem, if_neg (by omega), hout, List.append_nil]

theorem extend_start_boundaries_isolated_foldl (i : Nat) (hi : 0 < i)
    (l : List Nat) (hnd : l.Nodup) :
    ∀ (g : splice_graph) (flag : Bool), (∀ d ∈ g.removed, d < g.edge_ends.length) →
      (i ∈ l → g.in_edges i = [] ∧ g.out_edges i = [] ∧ 10 ≤ wt g.vwrt i) →
      (i ∉ l → g.in_degree i = 1 ∧ g.out_degree i = 0 ∧
        ∃ d, g.in_edges i = [d] ∧ g.edge_ends[d]? = some (0, i)) →
      (∀ d ∈ (l.foldl (fun st j => extend_start_boundaries_body j st) (g, flag)).1.removed,
        d < (l.foldl (fun st j => extend_start_boundaries_body j st)
          (g, flag)).1.edge_ends.length) ∧
      (l.foldl (fun st j => extend_start_boundaries_body j st) (g, flag)).1.in_degree i = 1 ∧
      (l.foldl (fun st j => extend_start_boundaries_body j st) (g, flag)).1.out_degree i = 0 ∧
      ∃ d, (l.foldl (fun st j => extend_start_boundaries_body j st) (g, flag)).1.in_edges i =
          [d] ∧
        (l.foldl (fun st j => extend_start_boundaries_body j st)
          (g, flag)).1.edge_ends[d]? = some (0, i) := by
  induction l with
  | nil =>
    intro g flag hrem _ hB
    exact ⟨hrem, hB (List.not_mem_nil _)⟩
  | cons j l ih =>
    intro g flag hrem hA hB
    have hnd' := (List.nodup_cons.mp hnd).2
    have hjl := (List.nodup_cons.mp hnd).1
    rw [List.foldl_cons]
    have hadded := extend_start_boundaries_body_added j g flag
    obtain ⟨-, -, -, extra, hextra⟩ := hadded
    by_cases hji : j = i
    · subst hji
      obtain ⟨a1, a2, a3⟩ := hA (List.mem_cons_self _ _)
      obtain ⟨b1, b2, b3, b4⟩ := extend_start_boundaries_body_isolated j g flag hi hrem a1 a2 a3
      have hres := ih hnd' (extend_start_boundaries_body j (g, flag)).1
        (extend_start_boundaries_body j (g, flag)).2 b1
        (fun h => absurd h hjl)
        (fun _ => ⟨by simp [splice_graph.in_degree, b2], by simp [splice_graph.out_degree, b3],
          g.edge_ends.length, b2, by rw [b4]; simp⟩)
      exact hres
    · obtain ⟨b1, b2, b3, b4, b5⟩ := extend_start_boundaries_body_other i j hji hi g flag hrem
      have hmem : i ∈ j :: l ↔ i ∈ l := by
        simp only [List.mem_cons]
        exact ⟨fun h => h.resolve_left (fun h' => hji h'.symm), Or.inr⟩
      have hres := ih hnd' (extend_start_boundaries_body j (g, flag)).1
        (extend_start_boundaries_body j (g, flag)).2 b1
        (fun h => by
          obtain ⟨a1, a2, a3⟩ := hA (hmem.mpr h)
          exact ⟨by rw [b2, a1], by rw [b3, a2], by rw [b4]; exact a3⟩)
        (fun h => by
          obtain ⟨a1, a2, d, a3, a4⟩ := hB (fun h' => h (hmem.mp h'))
          refine ⟨by simpa [splice_graph.in_degree, b2] using a1,
            by simpa [splice_graph.out_degree, b3] using a2, d, by rw [b2, a3], ?_⟩
          rw [hextra]
          have hlt := (List.getElem?_eq_some.mp a4).1
          rw [List.getElem?_append_left hlt]
          exact a4)
      exact hres

/-- After `extend_start_boundaries`, an internal vertex that had no edge and has a weight
of at least 10 has one edge, which comes from the source. -/
theorem extend_start_boundaries_isolated (gr : splice_graph)
    (hrem : ∀ d ∈ gr.removed, d < gr.edge_ends.length) (i : Nat) (hi : 0 < i)
    (hn : i + 1 < gr.num_vertices) (hdeg : gr.degree i = 0) (hw : 10 ≤ wt gr.vwrt i) :
    (extend_start_boundaries gr).1.in_degree i = 1 ∧
      (extend_start_boundaries gr).1.out_degree i = 0 ∧
      ∃ d, (extend_start_boundaries gr).1.in_edges i = [d] ∧
        (extend_start_boundaries gr).1.edge_ends[d]? = some (0, i) := by
  have hin : gr.in_edges i = [] := by
    have : gr.in_degree i = 0 := by unfold splice_graph.degree at hdeg; omega
    exact List.length_eq_zero.mp this
  have hout : gr.out_edges i = [] := by
    have : gr.out_degree i = 0 := by unfold splice_graph.degree at hdeg; omega
    exact List.length_eq_zero.mp this
  have hmem : i ∈ internal_vertices gr := (mem_internal_vertices gr i).mpr ⟨hi, hn⟩
  have h := extend_start_boundaries_isolated_foldl i hi (internal_vertices gr)
    (List.nodup_range' 1 _) gr false hrem (fun _ => ⟨hin, hout, hw⟩)
    (fun h' => absurd hmem h')
  exact h.2

/-- A round of `extend_end_boundaries` at another vertex leaves the edges of the internal
vertex `i` as they are. -/
theorem extend_end_boundaries_body_other (i j : Nat) (hij : j ≠ i) (g : splice_graph)
    (hn : i + 1 < g.num_vertices) (flag : Bool)
    (hrem : ∀ d ∈ g.removed, d < g.edge_ends.length) :
    (∀ d ∈ (extend_end_boundaries_body j (g, flag)).1.removed,
        d < (extend_end_boundaries_body j (g, flag)).1.edge_ends.length) ∧
      (extend_end_boundaries_body j (g, flag)).1.in_edges i = g.in_edges i ∧
      (extend_end_boundaries_body j (g, flag)).1.out_edges i = g.out_edges i ∧
      (extend_end_boundaries_body j (g, flag)).1.vwrt = g.vwrt ∧
      (extend_end_boundaries_body j (g, flag)).1.vinf = g.vinf := by
  simp only [extend_end_boundaries_body]
  split
  · exact ⟨hrem, rfl, rfl, rfl, rfl⟩
  · split
    · exact ⟨hrem, rfl, rfl, rfl, rfl⟩
    · refine ⟨removed_add_edge_weighted g j _ _ hrem, ?_, ?_, rfl, rfl⟩
      · rw [in_edges_add_edge_weighted g j _ i _ hrem, if_neg (by omega), List.append_nil]
      · rw [out_edges_add_edge_weighted g j _ i _ hrem, if_neg hij, List.append_nil]

/-- The round of `extend_end_boundaries` at a vertex without edges and with a weight of
at least 10 gives it an edge to the sink. -/
theorem extend_end_boundaries_body_isolated (i : Nat) (g : splice_graph) (flag : Bool)
    (hn : i + 1 < g.num_vertices) (hrem : ∀ d ∈ g.removed, d < g.edge_ends.length)
    (hin : g.in_edges i = []) (hout : g.out_edges i = []) (hw : 10 ≤ wt g.vwrt i) :
    (∀ d ∈ (extend_end_boundaries_body i (g, flag)).1.removed,
        d < (extend_end_boundaries_body i (g, flag)).1.edge_ends.length) ∧
      (extend_end_boundaries_body i (g, flag)).1.out_edges i = [g.edge_ends.length] ∧
      (extend_end_boundaries_body i (g, flag)).1.in_edges i = [] ∧
      (extend_end_boundaries_body i (g, flag)).1.edge_ends =
        g.edge_ends ++ [(i, g.num_vertices - 1)] ∧
      (extend_end_boundaries_body i (g, flag)).1.vinf = g.vinf := by
  have hedge : g.edge i (g.num_vertices - 1) = none := by
    unfold splice_graph.edge
    rw [hout]
    rfl
  have hsum : sum_edge_weights g (g.out_edges i) = 0 := by
    rw [hout]
    rfl
  have hcond : ¬ (wt g.vwrt i < 0 ∨ wt g.vwrt i < 10 * 0 * 0 + 10) := by
    intro h
    rcases h with h | h
    · linarith
    · norm_num at h
      linarith
  simp only [extend_end_boundaries_body, hedge, hsum, hcond, if_false]
  refine ⟨removed_add_edge_weighted g i _ _ hrem, ?_, ?_, rfl, rfl⟩
  · rw [out_edges_add_edge_weighted g i _ i _ hrem, if_pos rfl, hout, List.nil_append]
  · rw [in_edges_add_edge_weighted g i _ i _ hrem, if_neg (by omega), hin, List.append_nil]

theorem extend_end_boundaries_isolated_foldl (N i : Nat) (hn : i + 1 < N)
    (l : List Nat) (hnd : l.Nodup) :
    ∀ (g : splice_graph) (flag : Bool), g.num_vertices = N →
      (∀ d ∈ g.removed, d < g.edge_ends.length) →
      (i ∈ l → g.in_edges i = [] ∧ g.out_edges i = [] ∧ 10 ≤ wt g.vwrt i) →
      (i ∉ l → g.out_degree i = 1 ∧ g.in_degree i = 0 ∧
        ∃ d, g.out_edges i = [d] ∧ g.edge_ends[d]? = some (i, N - 1)) →
      (l.foldl (fun st j => extend_end_boundaries_body j st) (g, flag)).1.out_degree i = 1 ∧
      (l.foldl (fun st j => extend_end_boundaries_body j st) (g, flag)).1.in_degree i = 0 ∧
      ∃ d, (l.foldl (fun st j => extend_end_boundaries_body j st) (g, flag)).1.out_edges i =
          [d] ∧
        (l.foldl (fun st j => extend_end_boundaries_body j st)
          (g, flag)).1.edge_ends[d]? = some (i, N - 1) := by
  induction l with
  | nil =>
    intro g flag _ _ _ hB
    exact hB (List.not_mem_nil _)
  | cons j l ih =>
    intro g flag hN hrem hA hB
    have hnd' := (List.nodup_cons.mp hnd).2
    have hjl := (List.nodup_cons.mp hnd).1
    rw [List.foldl_cons]
    obtain ⟨-, -, -, extra, hextra⟩ := extend_end_boundaries_body_added j g flag
    by_cases hji : j = i
    · subst hji
      obtain ⟨a1, a2, a3⟩ := hA (List.mem_cons_self _ _)
      obtain ⟨b1, b2, b3, b4, b5⟩ := extend_end_boundaries_body_isolated j g flag
        (by omega) hrem a1 a2 a3
      exact ih hnd' (extend_end_boundaries_body j (g, flag)).1
        (extend_end_boundaries_body j (g, flag)).2
        (by unfold splice_graph.num_vertices at hN ⊢; rw [b5]; exact hN) b1
        (fun h => absurd h hjl)
        (fun _ => ⟨by simp [splice_graph.out_degree, b2], by simp [splice_graph.in_degree, b3],
          g.edge_ends.length, b2, by rw [b4, hN]; simp⟩)
    · obtain ⟨b1, b2, b3, b4, b5⟩ := extend_end_boundaries_body_other i j hji g (by omega)
        flag hrem
      have hmem : i ∈ j :: l ↔ i ∈ l := by
        simp only [List.mem_cons]
        exact ⟨fun h => h.resolve_left (fun h' => hji h'.symm), Or.inr⟩
      exact ih hnd' (extend_end_boundaries_body j (g, flag)).1
        (extend_end_boundaries_body j (g, flag)).2
        (by unfold splice_graph.num_vertices at hN ⊢; rw [b5]; exact hN) b1
        (fun h => by
          obtain ⟨a1, a2, a3⟩ := hA (hmem.mpr h)
          exact ⟨by rw [b2, a1], by rw [b3, a2], by rw [b4]; exact a3⟩)
        (fun h => by
          obtain ⟨a1, a2, d, a3, a4⟩ := hB (fun h' => h (hmem.mp h'))
          refine ⟨by simpa [splice_graph.out_degree, b3] using a1,
            by simpa [splice_graph.in_degree, b2] using a2, d, by rw [b3, a3], ?_⟩
          rw [hextra]
          have hlt := (List.getElem?_eq_some.mp a4).1
          rw [List.getElem?_append_left hlt]
          exact a4)

/-- After `extend_end_boundaries`, an internal vertex that had no edge and has a weight of
at least 10 has one edge, which goes to the sink. -/
theorem extend_end_boundaries_isolated (gr : splice_graph)
    (hrem : ∀ d ∈ gr.removed, d < gr.edge_ends.length) (i : Nat) (hi : 0 < i)
    (hn : i + 1 < gr.num_vertices) (hdeg : gr.degree i = 0) (hw : 10 ≤ wt gr.vwrt i) :
    (extend_end_boundaries gr).1.out_degree i = 1 ∧
      (extend_end_boundaries gr).1.in_degree i = 0 ∧
      ∃ d, (extend_end_boundaries gr).1.out_edges i = [d] ∧
        (extend_end_boundaries gr).1.edge_ends[d]? = some (i, gr.num_vertices - 1) := by
  have hin : gr.in_edges i = [] := by
    have : gr.in_degree i = 0 := by unfold splice_graph.degree at hdeg; omega
    exact List.length_eq_zero.mp this
  have hout : gr.out_edges i = [] := by
    have : gr.out_degree i = 0 := by unfold splice_graph.degree at hdeg; omega
    exact List.length_eq_zero.mp this
  have hmem : i ∈ internal_vertices gr := (mem_internal_vertices gr i).mpr ⟨hi, hn⟩
  exact extend_end_boundaries_isolated_foldl gr.num_vertices i hn (internal_vertices gr)
    (List.nodup_range' 1 _) gr false rfl hrem (fun _ => ⟨hin, hout, hw⟩)
    (fun h' => absurd hmem h')

/-- Claim C30 (what the code does). When every internal vertex with an edge has an edge in
and an edge out, then after `extend_start_boundaries`, and likewise after
`extend_end_boundaries`, every internal vertex that had an edge before the call has an
edge in and an edge out; both functions leave the vertices and the edges of the graph
as they are and only add edges. An internal vertex that had no edge and has a weight of
at least 10 has exactly one edge after `extend_start_boundaries`, from the source, and
exactly one edge after `extend_end_boundaries`, to the sink (in a graph whose removed
edges are edges it had). -/
theorem extend_boundaries_keep_connected_vertices (gr : splice_graph) (hok : degree_ok gr) :
    (edges_added_only gr (extend_start_boundaries gr).1 ∧
      ∀ i, 0 < i → i + 1 < gr.num_vertices → 0 < gr.degree i →
        1 ≤ (extend_start_boundaries gr).1.in_degree i ∧
          1 ≤ (extend_start_boundaries gr).1.out_degree i) ∧
    (edges_added_only gr (extend_end_boundaries gr).1 ∧
      ∀ i, 0 < i → i + 1 < gr.num_vertices → 0 < gr.degree i →
        1 ≤ (extend_end_boundaries gr).1.in_degree i ∧
          1 ≤ (extend_end_boundaries gr).1.out_degree i) ∧
    ((∀ d ∈ gr.removed, d < gr.edge_ends.length) →
      ∀ i, 0 < i → i + 1 < gr.num_vertices → gr.degree i = 0 → 10 ≤ wt gr.vwrt i →
        ((extend_start_boundaries gr).1.in_degree i = 1 ∧
          (extend_start_boundaries gr).1.out_degree i = 0 ∧
          ∃ d, (extend_start_boundaries gr).1.in_edges i = [d] ∧
            (extend_start_boundaries gr).1.edge_ends[d]? = some (0, i)) ∧
        ((extend_end_boundaries gr).1.out_degree i = 1 ∧
          (extend_end_boundaries gr).1.in_degree i = 0 ∧
          ∃ d, (extend_end_boundaries gr).1.out_edges i = [d] ∧
            (extend_end_boundaries gr).1.edge_ends[d]? = some (i, gr.num_vertices - 1))) := by
  have hs := extend_start_boundaries_added gr
  have he := extend_end_boundaries_added gr
  refine ⟨⟨hs, ?_⟩, ⟨he, ?_⟩, ?_⟩
  · intro i h1 h2 h3
    obtain ⟨hin, hout⟩ := hok i h1 h2 h3
    exact ⟨le_trans hin (in_degree_le_of_added _ _ hs i),
      le_trans hout (out_degree_le_of_added _ _ hs i)⟩
  · intro i h1 h2 h3
    obtain ⟨hin, hout⟩ := hok i h1 h2 h3
    exact ⟨le_trans hin (in_degree_le_of_added _ _ he i),
      le_trans hout (out_degree_le_of_added _ _ he i)⟩
  · intro hrem i h1 h2 h3 h4
    exact ⟨extend_start_boundaries_isolated gr hrem i h1 h2 h3 h4,
      extend_end_boundaries_isolated gr hrem i h1 h2 h3 h4⟩

/-- An instance of `extend_boundaries_keep_connected_vertices`: `example_intron` has the
degree property, and its three exons keep an edge in and an edge out; in
`example_isolated` the exon of weight 10 without edges has one edge in and none out
after `extend_start_boundaries`, and one edge out and none in after
`extend_end_boundaries`. -/
theorem extend_boundaries_keep_connected_vertices_witness :
    degree_ok example_intron ∧
    (edges_added_only example_intron (extend_start_boundaries example_intron).1 ∧
      ∀ i, 0 < i → i + 1 < example_intron.num_vertices → 0 < example_intron.degree i →
        1 ≤ (extend_start_boundaries example_intron).1.in_degree i ∧
          1 ≤ (extend_start_boundaries example_intron).1.out_degree i) ∧
    (edges_added_only example_intron (extend_end_boundaries example_intron).1 ∧
      ∀ i, 0 < i → i + 1 < example_intron.num_vertices → 0 < example_intron.degree i →
        1 ≤ (extend_end_boundaries example_intron).1.in_degree i ∧
          1 ≤ (extend_end_boundaries example_intron).1.out_degree i) ∧
    degree_ok example_isolated ∧
    (extend_start_boundaries example_isolated).1.in_degree 1 = 1 ∧
    (extend_start_boundaries example_isolated).1.out_degree 1 = 0 ∧
    (extend_end_boundaries example_isolated).1.out_degree 1 = 1 ∧
    (extend_end_boundaries example_isolated).1.in_degree 1 = 0 :=
  ⟨(degree_ok_iff example_intron).mpr (by decide),
    (extend_boundaries_keep_connected_vertices example_intron
      ((degree_ok_iff example_intron).mpr (by decide))).1,
    (extend_boundaries_keep_connected_vertices example_intron
      ((degree_ok_iff example_intron).mpr (by decide))).2.1,
    (degree_ok_iff example_isolated).mpr (by decide),
    ((extend_boundaries_keep_connected_vertices example_isolated
      ((degree_ok_iff example_isolated).mpr (by decide))).2.2 (by decide) 1 (by decide)
      (by decide) (by decide) (by decide)).1.1,
    ((extend_boundaries_keep_connected_vertices example_isolated
      ((degree_ok_iff example_isolated).mpr (by decide))).2.2 (by decide) 1 (by decide)
      (by decide) (by decide) (by decide)).1.2.1,
    ((extend_boundaries_keep_connected_vertices example_isolated
      ((degree_ok_iff example_isolated).mpr (by decide))).2.2 (by decide) 1 (by decide)
      (by decide) (by decide) (by decide)).2.1,
    ((extend_boundaries_keep_connected_vertices example_isolated
      ((degree_ok_iff example_isolated).mpr (by decide))).2.2 (by decide) 1 (by decide)
      (by decide) (by decide) (by decide)).2.2.1⟩

/-- In `example_isolated` the only internal vertex has no edge, so the degree property
holds; its weight is 10, so `extend_start_boundaries` gives it an edge from the source,
and the vertex then has an edge in and no edge out. -/
theorem extend_start_boundaries_breaks_degree_property :
    degree_ok example_isolated ∧ ¬ degree_ok (extend_start_boundaries example_isolated).1 := by
  constructor
  · exact (degree_ok_iff example_isolated).mpr (by decide)
  · rw [extend_start_boundaries_example_isolated]
    intro h
    have := (h 1 (by decide) (by decide) (by decide)).2
    exact absurd this (by decide)

/-! ### `bundle::remove_small_junctions` -/

theorem example_junction_body_one : remove_small_junctions_body example_junction 1 [] = [] := by
  have h1 : example_junction.in_edges 1 = [0] := by decide
  have h2 : example_junction.out_edges 1 = [1, 2] := by decide
  have h3 : ¬ example_junction.degree 1 ≤ 0 := by decide
  have h4 : example_junction.vinf[1]? = some
      { gt := genotype.UNPHASED, as_vertex := false,
        lpos := { p32 := 100, ale := ['$'] }, rpos := { p32 := 200, ale := ['$'] } } := by
    decide
  have h5 : example_junction.lpos_is 2 200 = true := by decide
  have h6 : example_junction.lpos_is 3 200 = false := by decide
  have h7 : example_junction.num_vertices - 1 = 4 := by decide
  have e0 : example_junction.edge_ends.getD 0 (0, 0) = (0, 1) := by decide
  have e1 : example_junction.edge_ends.getD 1 (0, 0) = (1, 2) := by decide
  have e2 : example_junction.edge_ends.getD 2 (0, 0) = (1, 3) := by decide
  have w2 : wt example_junction.ewrt 2 = 2 := by simp [wt, example_junction]
  simp only [remove_small_junctions_body, if_neg h3, h4, h1, h2, small_out_junctions,
    small_in_junctions, max_in_adjacent, List.foldl_cons, List.foldl_nil, e0, e1, e2, h5, h6,
    h7, w2]
  norm_num

theorem example_junction_body_two : remove_small_junctions_body example_junction 2 [] = [] := by
  have h1 : example_junction.in_edges 2 = [1] := by decide
  have h2 : example_junction.out_edges 2 = [3] := by decide
  have h3 : ¬ example_junction.degree 2 ≤ 0 := by decide
  have h4 : example_junction.vinf[2]? = some
      { gt := genotype.UNPHASED, as_vertex := false,
        lpos := { p32 := 200, ale := ['$'] }, rpos := { p32 := 300, ale := ['$'] } } := by
    decide
  have h5 : example_junction.rpos_is 1 200 = true := by decide
  have h7 : example_junction.num_vertices - 1 = 4 := by decide
  have e1 : example_junction.edge_ends.getD 1 (0, 0) = (1, 2) := by decide
  have e3 : example_junction.edge_ends.getD 3 (0, 0) = (2, 4) := by decide
  simp only [remove_small_junctions_body, if_neg h3, h4, h1, h2, small_out_junctions,
    small_in_junctions, max_in_adjacent, List.foldl_cons, List.foldl_nil, e1, e3, h5, h7]
  norm_num

theorem example_junction_body_three :
    remove_small_junctions_body example_junction 3 [] = [] := by
  have h1 : example_junction.in_edges 3 = [2] := by decide
  have h2 : example_junction.out_edges 3 = [4] := by decide
  have h3 : ¬ example_junction.degree 3 ≤ 0 := by decide
  have h4 : example_junction.vinf[3]? = some
      { gt := genotype.UNPHASED, as_vertex := false,
        lpos := { p32 := 400, ale := ['$'] }, rpos := { p32 := 500, ale := ['$'] } } := by
    decide
  have h5 : example_junction.rpos_is 1 400 = false := by decide
  have h7 : example_junction.num_vertices - 1 = 4 := by decide
  have e2 : example_junction.edge_ends.getD 2 (0, 0) = (1, 3) := by decide
  have e4 : example_junction.edge_ends.getD 4 (0, 0) = (3, 4) := by decide
  have w2 : wt example_junction.ewrt 2 = 2 := by simp [wt, example_junction]
  simp only [remove_small_junctions_body, if_neg h3, h4, h1, h2, small_out_junctions,
    small_in_junctions, max_in_adjacent, List.foldl_cons, List.foldl_nil, e2, e4, h5, h7, w2]
  norm_num

/-- C28: in `example_junction` the first exon (vertex 1, weight 200) has the junction
edge 2 of weight 2 to the third exon, which is not the sink and does not begin where the
first exon ends, and the second exon, which does, has the weight 200: both weights are
at least `2 * 2 * 2 + 18 = 26`. `remove_small_junctions` tests the largest weight `ws`
on the side of the edges coming in, which is `0`, in place of `wt`; it removes nothing
and returns false. -/
theorem remove_small_junctions_keeps_out_junction :
    (example_junction.edge_ends.getD 2 (0, 0) = (1, 3) ∧ wt example_junction.ewrt 2 = 2 ∧
      3 ≠ example_junction.num_vertices - 1 ∧ example_junction.lpos_is 3 200 = false ∧
      2 * wt example_junction.ewrt 2 * wt example_junction.ewrt 2 + 18 ≤
        wt example_junction.vwrt 1 ∧
      2 * wt example_junction.ewrt 2 * wt example_junction.ewrt 2 + 18 ≤
        max_out_adjacent example_junction 200 (example_junction.out_edges 1)) ∧
    remove_small_junctions example_junction = (example_junction, false) ∧
    2 ∈ (remove_small_junctions example_junction).1.edges := by
  have hrun : remove_small_junctions example_junction = (example_junction, false) := by
    have hv : internal_vertices example_junction = [1, 2, 3] := by decide
    simp only [remove_small_junctions, small_junctions, hv, List.foldl_cons, List.foldl_nil,
      example_junction_body_one, example_junction_body_two, example_junction_body_three]
  have w2 : wt example_junction.ewrt 2 = 2 := by simp [wt, example_junction]
  have w1 : wt example_junction.vwrt 1 = 200 := by simp [wt, example_junction]
  have wv2 : wt example_junction.vwrt 2 = 200 := by simp [wt, example_junction]
  have wv3 : wt example_junction.vwrt 3 = 200 := by simp [wt, example_junction]
  refine ⟨⟨by decide, w2, by decide, by decide, ?_, ?_⟩, hrun, ?_⟩
  · rw [w2, w1]
    norm_num
  · have h2 : example_junction.out_edges 1 = [1, 2] := by decide
    have h5 : example_junction.lpos_is 2 200 = true := by decide
    have h6 : example_junction.lpos_is 3 200 = false := by decide
    have h7 : example_junction.num_vertices - 1 = 4 := by decide
    have e1 : example_junction.edge_ends.getD 1 (0, 0) = (1, 2) := by decide
    have e2 : example_junction.edge_ends.getD 2 (0, 0) = (1, 3) := by decide
    simp only [max_out_adjacent, h2, List.foldl_cons, List.foldl_nil, e1, e2, h5, h6, h7, w2,
      wv2]
    norm_num
  · rw [hrun]
    decide

/-! ### `bundle::build_splice_graph` -/

theorem wt_put_wt (m : List ℚ) (d : Nat) (w : ℚ) (d' : Nat) :
    wt (put_wt m d w) d' = if d' = d then w else wt m d' := by
  unfold wt put_wt
  rw [List.getD_eq_getElem?_getD, List.getD_eq_getElem?_getD, List.getElem?_set]
  by_cases h : d = d'
  · subst h
    have hlt : d < (m ++ List.replicate (d + 1 - m.length) 0).length := by
      simp only [List.length_append, List.length_replicate]
      omega
    have hlt' : d < m.length + (d + 1 - m.length) := by omega
    simp [hlt']
  · rw [if_neg h, if_neg (fun h' => h h'.symm)]
    by_cases h2 : d' < m.length
    · rw [List.getElem?_append_left h2]
    · rw [List.getElem?_append_right (by omega)]
      rw [List.getElem?_eq_none (by omega : m.length ≤ d')]
      by_cases h3 : d' - m.length < d + 1 - m.length
      · rw [List.getElem?_replicate_of_lt h3]
        rfl
      · rw [List.getElem?_eq_none (by simp; omega)]

theorem add_pexon_vertices_some (mode : Int) (min_guaranteed_edge_weight : ℚ)
    (regional : List Bool) (pexons : List partial_exon) (i : Nat) (gr : splice_graph)
    (hlen : ∀ r ∈ pexons, 1 ≤ r.rpos.p32 - r.lpos.p32)
    (hreg : i + pexons.length ≤ regional.length) :
    ∃ gr', add_pexon_vertices mode min_guaranteed_edge_weight regional i pexons gr = some gr' ∧
      gr'.edge_ends = gr.edge_ends ∧ gr'.ewrt = gr.ewrt ∧ gr'.removed = gr.removed ∧
      gr'.vinf.length = gr.vinf.length + pexons.length := by
  induction pexons generalizing i gr with
  | nil => exact ⟨gr, rfl, rfl, rfl, rfl, rfl⟩
  | cons r rest ih =>
    simp only [List.length_cons] at hreg
    have h1 : r.rpos.p32 - r.lpos.p32 ≥ 1 := hlen r (List.mem_cons_self _ _)
    have h2 : i < regional.length := by omega
    simp only [add_pexon_vertices, not_not.mpr h1, if_false, List.getElem?_eq_getElem h2]
    obtain ⟨gr', hg, a1, a2, a3, a4⟩ := ih (i + 1) _
      (fun r' hr' => hlen r' (List.mem_cons_of_mem _ hr')) (by omega)
    refine ⟨gr', hg, a1, a2, a3, ?_⟩
    rw [a4]
    simp only [List.length_append, List.length_cons, List.length_nil]
    omega

/-- What `build_splice_graph` asks of an entry of `jset`: an entry with a negative index
is skipped, another one names two partial exons and has a count of at least 1. -/
theorem add_junction_edges_some (n : Nat) (jset : List ((Int × Int) × (Int × Char)))
    (gr : splice_graph)
    (hj : ∀ x ∈ jset, (x.1.1 < 0 ∨ x.1.2 < 0) ∨
      (x.1.1.toNat < n ∧ x.1.2.toNat < n ∧ 1 ≤ x.2.1)) :
    ∃ gr' extra, add_junction_edges n jset gr = some gr' ∧
      gr'.vinf = gr.vinf ∧ gr'.removed = gr.removed ∧
      gr'.edge_ends = gr.edge_ends ++ extra ∧ ∀ p ∈ extra, 1 ≤ p.1 ∧ p.2 ≤ n := by
  induction jset generalizing gr with
  | nil => exact ⟨gr, [], rfl, rfl, rfl, by simp, by simp⟩
  | cons x jset ih =>
    obtain ⟨⟨lpid, rpid⟩, ⟨c, s⟩⟩ := x
    have hx := hj _ (List.mem_cons_self _ _)
    simp only at hx
    have hrest := fun y hy => hj y (List.mem_cons_of_mem _ hy)
    simp only [add_junction_edges]
    by_cases hneg : lpid < 0 ∨ rpid < 0
    · rw [if_pos hneg]
      exact ih gr hrest
    · rw [if_neg hneg]
      rcases hx with hx | ⟨h1, h2, h3⟩
      · exact absurd hx hneg
      · rw [if_neg (not_not.mpr ⟨h1, h2⟩), if_neg (not_not.mpr h3)]
        obtain ⟨gr', extra, hg, a1, a2, a3, a4⟩ := ih
          ((gr.add_edge (lpid.toNat + 1) (rpid.toNat + 1)).1.set_edge_weight
            (gr.add_edge (lpid.toNat + 1) (rpid.toNat + 1)).2 c) hrest
        refine ⟨gr', (lpid.toNat + 1, rpid.toNat + 1) :: extra, hg, a1, a2, ?_, ?_⟩
        · rw [a3]
          simp [splice_graph.add_edge, splice_graph.set_edge_weight]
        · intro p hp
          rcases List.mem_cons.mp hp with rfl | hp
          · exact ⟨by simp, by simp; omega⟩
          · exact a4 p hp

theorem le_raised (x m : ℚ) : m ≤ (if x < m then m else x) := by
  split_ifs with h
  · exact le_refl _
  · exact not_lt.mp h

theorem le_start_edge_weight (mode : Int) (min_guaranteed_edge_weight : ℚ)
    (prev : Option partial_exon) (r : partial_exon) :
    min_guaranteed_edge_weight ≤ start_edge_weight mode min_guaranteed_edge_weight prev r := by
  unfold start_edge_weight
  exact le_raised _ _

theorem le_end_edge_weight (mode : Int) (min_guaranteed_edge_weight : ℚ)
    (next : Option partial_exon) (r : partial_exon) :
    min_guaranteed_edge_weight ≤ end_edge_weight mode min_guaranteed_edge_weight next r := by
  unfold end_edge_weight
  exact le_raised _ _

theorem add_edge_weighted (g : splice_graph) (s t : Nat) (w : ℚ) :
    ((g.add_edge s t).1.set_edge_weight (g.add_edge s t).2 w).vinf = g.vinf ∧
    ((g.add_edge s t).1.set_edge_weight (g.add_edge s t).2 w).removed = g.removed ∧
    ((g.add_edge s t).1.set_edge_weight (g.add_edge s t).2 w).edge_ends =
      g.edge_ends ++ [(s, t)] ∧
    ∀ d, wt ((g.add_edge s t).1.set_edge_weight (g.add_edge s t).2 w).ewrt d =
      if d = g.edge_ends.length then w else wt g.ewrt d := by
  refine ⟨rfl, rfl, rfl, fun d => ?_⟩
  simp only [splice_graph.set_edge_weight, splice_graph.add_edge]
  exact wt_put_wt _ _ _ _

/-- One round of the loop over the partial exons adds the boundary edges of the partial
exon at the end of the edge list, each with a weight of at least
`min_guaranteed_edge_weight`, and keeps the weights of the edges before. -/
theorem add_boundary_edges_body_spec (bt : boundary_types) (mode : Int)
    (min_guaranteed_edge_weight : ℚ) (pexons : List partial_exon) (g : splice_graph)
    (i : Nat) :
    (add_boundary_edges_body bt mode min_guaranteed_edge_weight pexons g i).vinf = g.vinf ∧
    (add_boundary_edges_body bt mode min_guaranteed_edge_weight pexons g i).removed =
      g.removed ∧
    (add_boundary_edges_body bt mode min_guaranteed_edge_weight pexons g i).edge_ends =
      g.edge_ends ++ boundary_edges_at bt pexons i ∧
    (∀ d, d < g.edge_ends.length →
      wt (add_boundary_edges_body bt mode min_guaranteed_edge_weight pexons g i).ewrt d =
        wt g.ewrt d) ∧
    ∀ d, g.edge_ends.length ≤ d →
      d < (add_boundary_edges_body bt mode min_guaranteed_edge_weight pexons g i).edge_ends.length →
      min_guaranteed_edge_weight ≤
        wt (add_boundary_edges_body bt mode min_guaranteed_edge_weight pexons g i).ewrt d := by
  unfold add_boundary_edges_body boundary_edges_at
  cases hr : pexons[i]? with
  | none =>
    exact ⟨rfl, rfl, by simp, fun _ _ => rfl, fun d h1 h2 => absurd h2 (not_lt.mpr h1)⟩
  | some r =>
    simp only
    by_cases hl : r.ltype = bt.START_BOUNDARY
    · obtain ⟨a1, a2, a3, a4⟩ := add_edge_weighted g 0 (i + 1)
        (start_edge_weight mode min_guaranteed_edge_weight
          (if 1 ≤ i then pexons[i - 1]? else none) r)
      by_cases hrt : r.rtype = bt.END_BOUNDARY
      · obtain ⟨b1, b2, b3, b4⟩ := add_edge_weighted
          ((g.add_edge 0 (i + 1)).1.set_edge_weight (g.add_edge 0 (i + 1)).2
            (start_edge_weight mode min_guaranteed_edge_weight
              (if 1 ≤ i then pexons[i - 1]? else none) r))
          (i + 1) (pexons.length + 1)
          (end_edge_weight mode min_guaranteed_edge_weight pexons[i + 1]? r)
        simp only [if_pos hl, if_pos hrt]
        refine ⟨b1.trans a1, b2.trans a2, ?_, ?_, ?_⟩
        · rw [b3, a3, List.append_assoc]
        · intro d hd
          rw [b4, a4, a3, if_neg, if_neg (by omega)]
          simp only [List.length_append, List.length_singleton]
          omega
        · intro d hd1 hd2
          rw [b3, a3] at hd2
          simp only [List.length_append, List.length_singleton] at hd2
          rw [b4, a3]
          simp only [List.length_append, List.length_singleton]
          by_cases hd : d = g.edge_ends.length + 1
          · rw [if_pos hd]
            exact le_end_edge_weight _ _ _ _
          · rw [if_neg hd, a4, if_pos (by omega)]
            exact le_start_edge_weight _ _ _ _
      · simp only [if_pos hl, if_neg hrt, List.append_nil]
        refine ⟨a1, a2, a3, ?_, ?_⟩
        · intro d hd
          rw [a4, if_neg (by omega)]
        · intro d hd1 hd2
          rw [a3] at hd2
          simp only [List.length_append, List.length_singleton] at hd2
          rw [a4, if_pos (by omega)]
          exact le_start_edge_weight _ _ _ _
    · by_cases hrt : r.rtype = bt.END_BOUNDARY
      · obtain ⟨b1, b2, b3, b4⟩ := add_edge_weighted g (i + 1) (pexons.length + 1)
          (end_edge_weight mode min_guaranteed_edge_weight pexons[i + 1]? r)
        simp only [if_neg hl, if_pos hrt, List.nil_append]
        refine ⟨b1, b2, b3, ?_, ?_⟩
        · intro d hd
          rw [b4, if_neg (by omega)]
        · intro d hd1 hd2
          rw [b3] at hd2
          simp only [List.length_append, List.length_singleton] at hd2
          rw [b4, if_pos (by omega)]
          exact le_end_edge_weight _ _ _ _
      · rw [if_neg hl, if_neg hrt, if_neg hl, if_neg hrt]
        exact ⟨rfl, rfl, by simp, fun _ _ => rfl, fun d h1 h2 => absurd h2 (not_lt.mpr h1)⟩

theorem add_boundary_edges_foldl (bt : boundary_types) (mode : Int)
    (min_guaranteed_edge_weight : ℚ) (pexons : List partial_exon) (l : List Nat)
    (g : splice_graph) :
    (l.foldl (add_boundary_edges_body bt mode min_guaranteed_edge_weight pexons) g).vinf =
      g.vinf ∧
    (l.foldl (add_boundary_edges_body bt mode min_guaranteed_edge_weight pexons) g).removed =
      g.removed ∧
    (l.foldl (add_boundary_edges_body bt mode min_guaranteed_edge_weight pexons) g).edge_ends =
      g.edge_ends ++ l.flatMap (boundary_edges_at bt pexons) ∧
    (∀ d, d < g.edge_ends.length →
      wt (l.foldl (add_boundary_edges_body bt mode min_guaranteed_edge_weight pexons)
        g).ewrt d = wt g.ewrt d) ∧
    ∀ d, g.edge_ends.length ≤ d →
      d < (l.foldl (add_boundary_edges_body bt mode min_guaranteed_edge_weight pexons)
        g).edge_ends.length →
      min_guaranteed_edge_weight ≤
        wt (l.foldl (add_boundary_edges_body bt mode min_guaranteed_edge_weight pexons)
          g).ewrt d := by
  induction l generalizing g with
  | nil =>
    exact ⟨rfl, rfl, by simp, fun _ _ => rfl, fun d h1 h2 => absurd h2 (not_lt.mpr h1)⟩
  | cons i l ih =>
    simp only [List.foldl_cons, List.flatMap_cons]
    obtain ⟨a1, a2, a3, a4, a5⟩ := add_boundary_edges_body_spec bt mode
      min_guaranteed_edge_weight pexons g i
    obtain ⟨b1, b2, b3, b4, b5⟩ := ih
      (add_boundary_edges_body bt mode min_guaranteed_edge_weight pexons g i)
    have hlen : g.edge_ends.length ≤ (add_boundary_edges_body bt mode
        min_guaranteed_edge_weight pexons g i).edge_ends.length := by
      rw [a3, List.length_append]
      omega
    refine ⟨b1.trans a1, b2.trans a2, ?_, ?_, ?_⟩
    · rw [b3, a3, List.append_assoc]
    · intro d hd
      rw [b4 d (by omega), a4 d hd]
    · intro d hd1 hd2
      by_cases hd : (add_boundary_edges_body bt mode min_guaranteed_edge_weight pexons g
          i).edge_ends.length ≤ d
      · exact b5 d hd hd2
      · rw [b4 d (by omega)]
        exact a5 d hd1 (by omega)

theorem edge_with_ends_iff (gr : splice_graph) (hrem : gr.removed = []) (d a b : Nat) :
    (d ∈ gr.edges ∧ edge_source gr d = a ∧ edge_target gr d = b) ↔
      gr.edge_ends[d]? = some (a, b) := by
  rw [mem_edges, hrem]
  unfold edge_source edge_target
  rw [List.getD_eq_getElem?_getD]
  constructor
  · rintro ⟨⟨hlt, _⟩, h1, h2⟩
    rw [List.getElem?_eq_getElem hlt] at h1 h2 ⊢
    simp only [Option.getD_some] at h1 h2
    rw [← h1, ← h2]
  · intro h
    have hlt : d < gr.edge_ends.length := by
      by_contra hge
      rw [List.getElem?_eq_none (by omega)] at h
      simp at h
    rw [h]
    exact ⟨⟨hlt, by simp⟩, rfl, rfl⟩

theorem mem_boundary_edges_at (bt : boundary_types) (pexons : List partial_exon) (i : Nat)
    (p : Nat × Nat) :
    p ∈ boundary_edges_at bt pexons i ↔ ∃ r, pexons[i]? = some r ∧
      ((p = (0, i + 1) ∧ r.ltype = bt.START_BOUNDARY) ∨
        (p = (i + 1, pexons.length + 1) ∧ r.rtype = bt.END_BOUNDARY)) := by
  unfold boundary_edges_at
  cases hr : pexons[i]? with
  | none => simp
  | some r =>
    simp only [List.mem_append, Option.some.injEq, exists_eq_left']
    by_cases h1 : r.ltype = bt.START_BOUNDARY <;> by_cases h2 : r.rtype = bt.END_BOUNDARY <;>
      simp [h1, h2]

/-- The graph that `build_splice_graph` returns on an input it accepts: the vertices are
the source, one for each partial exon, and the sink; the edges are those of the
junctions, which run between partial exons, and then the boundary edges of each partial
exon, each with a weight of at least `min_guaranteed_edge_weight`. -/
theorem build_splice_graph_edges (bt : boundary_types) (mode : Int)
    (min_guaranteed_edge_weight : ℚ) (lpos rpos : Int) (pexons : List partial_exon)
    (regional : List Bool) (jset : List ((Int × Int) × (Int × Char)))
    (hok : splice_graph_input_ok pexons regional jset) :
    ∃ gr J, build_splice_graph bt mode min_guaranteed_edge_weight lpos rpos pexons regional
        jset = some gr ∧
      gr.num_vertices = pexons.length + 2 ∧ gr.removed = [] ∧
      gr.edge_ends = J ++ (List.range pexons.length).flatMap (boundary_edges_at bt pexons) ∧
      (∀ p ∈ J, 1 ≤ p.1 ∧ p.2 ≤ pexons.length) ∧
      ∀ d, J.length ≤ d → d < gr.edge_ends.length →
        min_guaranteed_edge_weight ≤ wt gr.ewrt d := by
  obtain ⟨hlen, hreg, hj⟩ := hok
  unfold build_splice_graph
  obtain ⟨gr1, hg1, a1, _, a3, a4⟩ := add_pexon_vertices_some mode min_guaranteed_edge_weight
    regional pexons 0
    { vinf := [{ gt := genotype.UNPHASED, as_vertex := false,
                 lpos := { p32 := lpos, ale := ['$'] },
                 rpos := { p32 := lpos, ale := ['$'] } }],
      vwrt := [0], edge_ends := [], ewrt := [] } hlen (by omega)
  rw [hg1]
  obtain ⟨gr2, J, hg2, b1, b2, b3, b4⟩ := add_junction_edges_some pexons.length jset
    { gr1 with vinf := gr1.vinf ++ [{ gt := genotype.UNPHASED, as_vertex := false,
                                      lpos := { p32 := rpos, ale := ['$'] },
                                      rpos := { p32 := rpos, ale := ['$'] } }],
               vwrt := gr1.vwrt ++ [0] } hj
  simp only [hg2]
  obtain ⟨c1, c2, c3, _, c5⟩ := add_boundary_edges_foldl bt mode min_guaranteed_edge_weight
    pexons (List.range pexons.length) gr2
  simp only [a1, List.nil_append] at b3
  refine ⟨_, J, rfl, ?_, ?_, ?_, b4, ?_⟩
  · simp only [splice_graph.num_vertices, c1, b1, List.length_append, a4, List.length_cons,
      List.length_nil]
    omega
  · rw [c2, b2]
    exact a3
  · rw [c3, b3]
  · intro d hd1 hd2
    exact c5 d (by rw [b3]; exact hd1) hd2

theorem build_splice_graph_boundary (bt : boundary_types) (mode : Int)
    (min_guaranteed_edge_weight : ℚ) (lpos rpos : Int) (pexons : List partial_exon)
    (regional : List Bool) (jset : List ((Int × Int) × (Int × Char)))
    (hok : splice_graph_input_ok pexons regional jset) :
    ∃ gr, build_splice_graph bt mode min_guaranteed_edge_weight lpos rpos pexons regional
        jset = some gr ∧
      gr.num_vertices = pexons.length + 2 ∧
      ∀ i r, pexons[i]? = some r →
        ((∃ d, d ∈ gr.edges ∧ edge_source gr d = 0 ∧ edge_target gr d = i + 1) ↔
          r.ltype = bt.START_BOUNDARY) ∧
        ((∃ d, d ∈ gr.edges ∧ edge_source gr d = i + 1 ∧
            edge_target gr d = pexons.length + 1) ↔ r.rtype = bt.END_BOUNDARY) ∧
        ∀ d, d ∈ gr.edges →
          (edge_source gr d = 0 ∧ edge_target gr d = i + 1) ∨
            (edge_source gr d = i + 1 ∧ edge_target gr d = pexons.length + 1) →
          min_guaranteed_edge_weight ≤ wt gr.ewrt d := by
  obtain ⟨gr, J, hg, hn, hrem, hends, hJ, hw⟩ := build_splice_graph_edges bt mode
    min_guaranteed_edge_weight lpos rpos pexons regional jset hok
  refine ⟨gr, hg, hn, ?_⟩
  intro i r hr
  have hi : i < pexons.length := by
    by_contra hge
    rw [List.getElem?_eq_none (by omega)] at hr
    simp at hr
  have hmem : ∀ p : Nat × Nat, p.1 = 0 ∨ p.2 = pexons.length + 1 →
      (p ∈ gr.edge_ends ↔ ∃ j r', pexons[j]? = some r' ∧
        ((p = (0, j + 1) ∧ r'.ltype = bt.START_BOUNDARY) ∨
          (p = (j + 1, pexons.length + 1) ∧ r'.rtype = bt.END_BOUNDARY))) := by
    intro p hp
    rw [hends, List.mem_append, List.mem_flatMap]
    constructor
    · rintro (h | ⟨j, _, h⟩)
      · have := hJ p h
        omega
      · obtain ⟨r', h1, h2⟩ := (mem_boundary_edges_at bt pexons j p).mp h
        exact ⟨j, r', h1, h2⟩
    · rintro ⟨j, r', h1, h2⟩
      have hj : j < pexons.length := by
        by_contra hge
        rw [List.getElem?_eq_none (by omega)] at h1
        simp at h1
      exact Or.inr ⟨j, List.mem_range.mpr hj,
        (mem_boundary_edges_at bt pexons j p).mpr ⟨r', h1, h2⟩⟩
  have hex : ∀ a b : Nat, (∃ d, d ∈ gr.edges ∧ edge_source gr d = a ∧ edge_target gr d = b) ↔
      (a, b) ∈ gr.edge_ends := by
    intro a b
    rw [List.mem_iff_getElem?]
    constructor
    · rintro ⟨d, hd⟩
      exact ⟨d, (edge_with_ends_iff gr hrem d a b).mp hd⟩
    · rintro ⟨d, hd⟩
      exact ⟨d, (edge_with_ends_iff gr hrem d a b).mpr hd⟩
  refine ⟨?_, ?_, ?_⟩
  · rw [hex, hmem _ (Or.inl rfl)]
    constructor
    · rintro ⟨j, r', h1, h2 | h2⟩
      · have hji : j = i := by
          have := h2.1
          simp only [Prod.mk.injEq, true_and] at this
          omega
        subst hji
        rw [hr] at h1
        rw [Option.some.inj h1]
        exact h2.2
      · have := h2.1
        simp only [Prod.mk.injEq] at this
        omega
    · intro h
      exact ⟨i, r, hr, Or.inl ⟨rfl, h⟩⟩
  · rw [hex, hmem _ (Or.inr rfl)]
    constructor
    · rintro ⟨j, r', h1, h2 | h2⟩
      · have := h2.1
        simp only [Prod.mk.injEq] at this
        omega
      · have hji : j = i := by
          have := h2.1
          simp only [Prod.mk.injEq, and_true] at this
          omega
        subst hji
        rw [hr] at h1
        rw [Option.some.inj h1]
        exact h2.2
    · intro h
      exact ⟨i, r, hr, Or.inr ⟨rfl, h⟩⟩
  · intro d hd hends'
    have hdlt := ((mem_edges gr d).mp hd).1
    refine hw d ?_ hdlt
    by_contra hlt
    have hdJ : d < J.length := by omega
    have hp : gr.edge_ends[d]? = some (edge_source gr d, edge_target gr d) :=
      (edge_with_ends_iff gr hrem d _ _).mp ⟨hd, rfl, rfl⟩
    rw [hends, List.getElem?_append_left hdJ] at hp
    have := hJ _ (List.mem_iff_getElem?.mpr ⟨d, hp⟩)
    simp only at this
    rcases hends' with h | h
    · omega
    · omega

theorem example_pexons_ok :
    splice_graph_input_ok example_pexons [false, false] [((0, 1), (5, '+'))] := by
  refine ⟨?_, by decide, ?_⟩
  · intro r hr
    simp only [example_pexons, List.mem_cons, List.mem_singleton, List.not_mem_nil,
      or_false] at hr
    rcases hr with rfl | rfl <;> decide
  · intro x hx
    simp only [List.mem_singleton] at hx
    subst hx
    right
    decide

theorem build_junction_map_eq (hits : List hit) :
    build_junction_map hits =
      (splice_pairs hits).foldl (fun m ip => junction_map_add m ip.1 ip.2) [] := by
  unfold build_junction_map splice_pairs
  generalize hits.enum = l
  generalize ([] : List ((Int ×ₗ Int) × List Nat)) = m
  induction l generalizing m with
  | nil => rfl
  | cons ih l ihl =>
    simp only [List.foldl_cons, List.flatMap_cons, List.foldl_append, List.foldl_map]
    exact ihl _

theorem occurrences_append (ps qs : List (Nat × (Int ×ₗ Int))) (p : Int ×ₗ Int) :
    occurrences (ps ++ qs) p = occurrences ps p ++ occurrences qs p := by
  simp [occurrences]

theorem junction_map_add_eq (m : List ((Int ×ₗ Int) × List Nat)) (i : Nat) (q : Int ×ₗ Int)
    (v : List Nat) (h : map_find m q = if v = [] then none else some v) :
    junction_map_add m i q = omap_put m q (v ++ [i]) := by
  unfold junction_map_add
  rw [h]
  by_cases ho : v = []
  · simp [ho]
  · simp [ho]

/-- The map of `build_junctions` after the pairs `ps`: the keys ascend, and the vector
of a position holds the hit indices of its pairs; a position without a pair is not a
key. -/
theorem junction_map_foldl (ps : List (Nat × (Int ×ₗ Int))) :
    (((ps.foldl (fun m ip => junction_map_add m ip.1 ip.2) []).map Prod.fst).Pairwise
      (fun x y => x < y)) ∧
    ∀ p, map_find (ps.foldl (fun m ip => junction_map_add m ip.1 ip.2) []) p =
      if occurrences ps p = [] then none else some (occurrences ps p) := by
  induction ps using List.reverseRecOn with
  | nil =>
    refine ⟨by simp, fun p => ?_⟩
    simp [occurrences, map_find]
  | append_singleton ps x ih =>
    obtain ⟨i, q⟩ := x
    obtain ⟨hs, hf⟩ := ih
    simp only [List.foldl_append, List.foldl_cons, List.foldl_nil]
    have hadd := junction_map_add_eq (ps.foldl (fun m ip => junction_map_add m ip.1 ip.2) [])
      i q (occurrences ps q) (hf q)
    rw [hadd]
    refine ⟨omap_sorted_put _ _ _ hs, fun p => ?_⟩
    rw [omap_find_put, occurrences_append]
    by_cases hp : p = q
    · subst hp
      simp [occurrences]
    · rw [if_neg hp, hf p]
      have hqp : ¬ q = p := fun h => hp h.symm
      have : occurrences [(i, q)] p = [] := by
        simp [occurrences, hqp]
      rw [this, List.append_nil]

theorem filter_eq_of_nodup (l : List (Int ×ₗ Int)) (hnd : l.Nodup) (p : Int ×ₗ Int) :
    l.filter (fun q => decide (q = p)) = if p ∈ l then [p] else [] := by
  induction l with
  | nil => simp
  | cons a l ih =>
    have hnd' := List.nodup_cons.mp hnd
    by_cases ha : a = p
    · subst ha
      have : l.filter (fun q => decide (q = a)) = [] := by
        rw [ih hnd'.2, if_neg hnd'.1]
      simp [this]
    · have hpa : ¬ p = a := fun h => ha h.symm
      rw [List.filter_cons_of_neg (by simpa using ha), ih hnd'.2]
      simp [hpa]

theorem occurrences_splice_pairs (l : List (Nat × hit)) (hnd : ∀ ih ∈ l, ih.2.spos.Nodup)
    (p : Int ×ₗ Int) :
    occurrences (l.flatMap (fun ih => ih.2.spos.map (fun p => (ih.1, p)))) p =
      (l.filter (fun ih => decide (p ∈ ih.2.spos))).map (fun ih => ih.1) := by
  induction l with
  | nil => rfl
  | cons ih l ihl =>
    rw [List.flatMap_cons, occurrences_append,
      ihl (fun x hx => hnd x (List.mem_cons_of_mem _ hx))]
    have h1 : occurrences (ih.2.spos.map (fun p => (ih.1, p))) p =
        if p ∈ ih.2.spos then [ih.1] else [] := by
      unfold occurrences
      rw [List.filter_map, List.map_map]
      have : ((fun ip : Nat × (Int ×ₗ Int) => decide (ip.2 = p)) ∘
          fun p => (ih.1, p)) = fun q => decide (q = p) := rfl
      rw [this, filter_eq_of_nodup _ (hnd ih (List.mem_cons_self _ _))]
      by_cases hp : p ∈ ih.2.spos
      · simp [hp]
      · simp [hp]
    rw [h1]
    by_cases hp : p ∈ ih.2.spos
    · simp [hp]
    · simp [hp]

theorem mem_emit_junctions (min_splice_boundary_hits : Nat) (hits : List hit)
    (m : List ((Int ×ₗ Int) × List Nat)) (jc : junction) :
    jc ∈ emit_junctions min_splice_boundary_hits hits m ↔
      ∃ pv ∈ m, min_splice_boundary_hits ≤ pv.2.length ∧
        jc = { pos := pv.1, count := pv.2.length, strand := junction_strand hits pv.2 } := by
  induction m with
  | nil => simp [emit_junctions]
  | cons pv m ih =>
    obtain ⟨p, v⟩ := pv
    simp only [emit_junctions]
    by_cases hv : v.length < min_splice_boundary_hits
    · rw [if_pos hv, ih]
      constructor
      · rintro ⟨pv, h1, h2⟩
        exact ⟨pv, List.mem_cons_of_mem _ h1, h2⟩
      · rintro ⟨pv, h1, h2, h3⟩
        rcases List.mem_cons.mp h1 with rfl | h1
        · simp only at h2
          omega
        · exact ⟨pv, h1, h2, h3⟩
    · rw [if_neg hv, List.mem_cons, ih]
      constructor
      · rintro (h | ⟨pv, h1, h2⟩)
        · exact ⟨(p, v), List.mem_cons_self _ _, by simp only; omega, h⟩
        · exact ⟨pv, List.mem_cons_of_mem _ h1, h2⟩
      · rintro ⟨pv, h1, h2, h3⟩
        rcases List.mem_cons.mp h1 with rfl | h1
        · exact Or.inl h3
        · exact Or.inr ⟨pv, h1, h2, h3⟩

theorem emit_junctions_sublist (min_splice_boundary_hits : Nat) (hits : List hit)
    (m : List ((Int ×ₗ Int) × List Nat)) :
    ((emit_junctions min_splice_boundary_hits hits m).map (fun jc => jc.pos)).Sublist
      (m.map Prod.fst) := by
  induction m with
  | nil => simp [emit_junctions]
  | cons pv m ih =>
    obtain ⟨p, v⟩ := pv
    simp only [emit_junctions]
    by_cases hv : v.length < min_splice_boundary_hits
    · rw [if_pos hv]
      exact List.Sublist.cons _ ih
    · rw [if_neg hv]
      exact List.Sublist.cons₂ _ ih

theorem length_enum_filter (hits : List hit) (q : hit → Bool) :
    ((hits.enum.filter (fun ih => q ih.2)).map (fun ih => ih.1)).length =
      (hits.filter q).length := by
  have h := List.filter_map (p := q) Prod.snd hits.enum
  rw [List.enum_map_snd] at h
  rw [h, List.length_map, List.length_map]
  rfl

theorem countP_enum_filter (hits : List hit) (q : hit → Bool) (c : Char) :
    ((hits.enum.filter (fun ih => q ih.2)).map (fun ih => ih.1)).countP
        (fun k => decide ((hits[k]?).map (fun h => h.xs) = some c)) =
      (hits.filter q).countP (fun h => decide (h.xs = c)) := by
  have h := List.filter_map (p := q) Prod.snd hits.enum
  rw [List.enum_map_snd] at h
  rw [h, List.countP_map, List.countP_map]
  apply List.countP_congr
  rintro ⟨i, x⟩ hx
  have hmem : (i, x) ∈ hits.enum := (List.mem_filter.mp hx).1
  have hix : hits[i]? = some x := List.mk_mem_enum_iff_getElem?.mp hmem
  simp [hix]

theorem strand_chain (a b : Nat) (c : Char)
    (hc : c = if a = 0 ∧ b = 0 then '.' else if a ≥ 1 ∧ b ≥ 1 then '.'
      else if a > b then '+' else '-') :
    (c = '+' ↔ 0 < a ∧ b = 0) ∧ (c = '-' ↔ 0 < b ∧ a = 0) ∧
      (c ≠ '+' → c ≠ '-' → c = '.') := by
  have h1 : ('.' : Char) ≠ '+' := by decide
  have h2 : ('.' : Char) ≠ '-' := by decide
  have h3 : ('+' : Char) ≠ '-' := by decide
  by_cases h00 : a = 0 ∧ b = 0
  · rw [if_pos h00] at hc
    subst hc
    refine ⟨⟨fun h => absurd h h1, fun h => by omega⟩, ⟨fun h => absurd h h2, fun h => by omega⟩,
      fun _ _ => rfl⟩
  · rw [if_neg h00] at hc
    by_cases h11 : a ≥ 1 ∧ b ≥ 1
    · rw [if_pos h11] at hc
      subst hc
      refine ⟨⟨fun h => absurd h h1, fun h => by omega⟩,
        ⟨fun h => absurd h h2, fun h => by omega⟩, fun _ _ => rfl⟩
    · rw [if_neg h11] at hc
      by_cases hab : a > b
      · rw [if_pos hab] at hc
        subst hc
        refine ⟨⟨fun _ => by omega, fun _ => rfl⟩, ⟨fun h => absurd h h3, fun h => by omega⟩,
          fun h _ => absurd rfl h⟩
      · rw [if_neg hab] at hc
        subst hc
        refine ⟨⟨fun h => absurd h.symm h3, fun h => by omega⟩,
          ⟨fun _ => by omega, fun _ => rfl⟩, fun _ h => absurd rfl h⟩

/-- What `build_junctions` returns when no hit lists a splice position twice: one
junction for each position with at least `min_splice_boundary_hits` supporting hits, in
the order of the positions, with the number of supporting hits as count and the strand
that their `xs` tags give. -/
theorem build_junctions_spec (min_splice_boundary_hits : Nat) (hits : List hit)
    (hnd : ∀ h ∈ hits, h.spos.Nodup) :
    ((build_junctions min_splice_boundary_hits hits).map (fun jc => jc.pos)).Pairwise
      (fun x y => x < y) ∧
    (∀ p, p ∈ (build_junctions min_splice_boundary_hits hits).map (fun jc => jc.pos) ↔
      supporting_hits hits p ≠ [] ∧
        min_splice_boundary_hits ≤ (supporting_hits hits p).length) ∧
    ∀ jc ∈ build_junctions min_splice_boundary_hits hits,
      jc.count = (supporting_hits hits jc.pos).length ∧
      (jc.strand = '+' ↔ (∃ h ∈ supporting_hits hits jc.pos, h.xs = '+') ∧
        ¬ ∃ h ∈ supporting_hits hits jc.pos, h.xs = '-') ∧
      (jc.strand = '-' ↔ (∃ h ∈ supporting_hits hits jc.pos, h.xs = '-') ∧
        ¬ ∃ h ∈ supporting_hits hits jc.pos, h.xs = '+') ∧
      (jc.strand ≠ '+' → jc.strand ≠ '-' → jc.strand = '.') := by
  obtain ⟨hsorted, hfind⟩ := junction_map_foldl (splice_pairs hits)
  rw [← build_junction_map_eq] at hsorted hfind
  have hocc : ∀ p, occurrences (splice_pairs hits) p =
      (hits.enum.filter (fun ih => decide (p ∈ ih.2.spos))).map (fun ih => ih.1) := by
    intro p
    refine occurrences_splice_pairs hits.enum ?_ p
    rintro ⟨i, h⟩ hih
    exact hnd h (List.mem_iff_getElem?.mpr ⟨i, List.mk_mem_enum_iff_getElem?.mp hih⟩)
  have hlen : ∀ p, (occurrences (splice_pairs hits) p).length =
      (supporting_hits hits p).length := by
    intro p
    rw [hocc p]
    exact length_enum_filter hits (fun h => decide (p ∈ h.spos))
  have hcnt : ∀ p c, (occurrences (splice_pairs hits) p).countP
      (fun k => decide ((hits[k]?).map (fun h => h.xs) = some c)) =
      (supporting_hits hits p).countP (fun h => decide (h.xs = c)) := by
    intro p c
    rw [hocc p]
    exact countP_enum_filter hits (fun h => decide (p ∈ h.spos)) c
  have hval : ∀ pv ∈ build_junction_map hits,
      pv.2 = occurrences (splice_pairs hits) pv.1 ∧ pv.2 ≠ [] := by
    rintro ⟨p, v⟩ hpv
    have := omap_find_of_mem _ hsorted p v hpv
    rw [hfind p] at this
    by_cases ho : occurrences (splice_pairs hits) p = []
    · rw [if_pos ho] at this
      exact absurd this (by simp)
    · rw [if_neg ho] at this
      have hv := Option.some.inj this
      exact ⟨hv.symm, hv ▸ ho⟩
  have hpos : ((emit_junctions min_splice_boundary_hits hits
      (build_junction_map hits)).map (fun jc => jc.pos)).Pairwise (fun x y => x < y) :=
    hsorted.sublist (emit_junctions_sublist _ _ _)
  have hJ : build_junctions min_splice_boundary_hits hits =
      emit_junctions min_splice_boundary_hits hits (build_junction_map hits) := by
    unfold build_junctions
    apply List.Sorted.insertionSort_eq
    rw [List.pairwise_map] at hpos
    exact hpos.imp (fun h => le_of_lt h)
  rw [hJ]
  refine ⟨hpos, ?_, ?_⟩
  · intro p
    rw [List.mem_map]
    constructor
    · rintro ⟨jc, hjc, rfl⟩
      obtain ⟨pv, hpv, hmin, rfl⟩ := (mem_emit_junctions _ _ _ _).mp hjc
      obtain ⟨hv, hne⟩ := hval pv hpv
      simp only
      rw [← hlen, ← hv]
      refine ⟨?_, hmin⟩
      intro hnil
      have h0 := hlen pv.1
      rw [hnil, ← hv] at h0
      exact hne (List.length_eq_zero.mp h0)
    · rintro ⟨hne, hmin⟩
      have ho : occurrences (splice_pairs hits) p ≠ [] := by
        intro hnil
        have h0 := hlen p
        rw [hnil] at h0
        exact hne (List.length_eq_zero.mp h0.symm)
      have hf := hfind p
      rw [if_neg ho] at hf
      have hmem := mem_of_map_find _ p _ hf
      refine ⟨_, (mem_emit_junctions _ _ _ _).mpr ⟨_, hmem, ?_, rfl⟩, rfl⟩
      simp only
      rw [hlen]
      exact hmin
  · intro jc hjc
    obtain ⟨pv, hpv, hmin, rfl⟩ := (mem_emit_junctions _ _ _ _).mp hjc
    obtain ⟨hv, hne⟩ := hval pv hpv
    simp only
    obtain ⟨c1, c2, c3⟩ := strand_chain
      ((supporting_hits hits pv.1).countP (fun h => decide (h.xs = '+')))
      ((supporting_hits hits pv.1).countP (fun h => decide (h.xs = '-')))
      (junction_strand hits pv.2) (by
        unfold junction_strand
        rw [hv, hcnt, hcnt])
    refine ⟨by rw [hv, hlen], ?_, ?_, c3⟩
    · rw [c1, List.countP_pos_iff, List.countP_eq_zero]
      simp
    · rw [c2, List.countP_pos_iff, List.countP_eq_zero]
      simp

/-- C22: when no hit lists a splice position twice, `build_junctions` returns a list of
junctions in ascending order of their positions, one for each position that occurs in
`spos` of at least `min_splice_boundary_hits` hits (and of at least one) and none for
another position; the count of a junction is the number of hits that support it, its
strand is `+` exactly when some supporting hit has `xs` equal to `+` and none has `-`,
`-` exactly when some has `-` and none has `+`, and `.` otherwise. -/
theorem build_junctions_one_per_position (min_splice_boundary_hits : Nat) (hits : List hit)
    (hnd : ∀ h ∈ hits, h.spos.Nodup) :
    ((build_junctions min_splice_boundary_hits hits).map (fun jc => jc.pos)).Pairwise
      (fun x y => x < y) ∧
    (∀ p, p ∈ (build_junctions min_splice_boundary_hits hits).map (fun jc => jc.pos) ↔
      supporting_hits hits p ≠ [] ∧
        min_splice_boundary_hits ≤ (supporting_hits hits p).length) ∧
    ∀ jc ∈ build_junctions min_splice_boundary_hits hits,
      jc.count = (supporting_hits hits jc.pos).length ∧
      (jc.strand = '+' ↔ (∃ h ∈ supporting_hits hits jc.pos, h.xs = '+') ∧
        ¬ ∃ h ∈ supporting_hits hits jc.pos, h.xs = '-') ∧
      (jc.strand = '-' ↔ (∃ h ∈ supporting_hits hits jc.pos, h.xs = '-') ∧
        ¬ ∃ h ∈ supporting_hits hits jc.pos, h.xs = '+') ∧
      (jc.strand ≠ '+' → jc.strand ≠ '-' → jc.strand = '.') := by
  obtain ⟨h1, h2, h3⟩ := build_junctions_spec min_splice_boundary_hits hits hnd
  exact ⟨h1, h2, h3⟩

theorem example_spliced_hits_nodup : ∀ h ∈ example_spliced_hits, h.spos.Nodup := by
  intro h hh
  rw [example_spliced_hits, List.mem_replicate] at hh
  rw [hh.2]
  decide

theorem build_junctions_one_per_position_witness :
    (∀ h ∈ example_spliced_hits, h.spos.Nodup) ∧
    build_junctions 1 example_spliced_hits =
      [{ pos := toLex (150, 250), count := 10, strand := '+' }] ∧
    (supporting_hits example_spliced_hits (toLex (150, 250))).length = 10 ∧
    ∀ jc ∈ build_junctions 1 example_spliced_hits,
      jc.count = (supporting_hits example_spliced_hits jc.pos).length :=
  ⟨example_spliced_hits_nodup, by decide, by decide,
    fun jc hjc => ((build_junctions_one_per_position 1 example_spliced_hits
      example_spliced_hits_nodup).2.2 jc hjc).1⟩

/-! ### The hits of `assembler::assemble` -/

theorem add_hit_hits (bb b : bundle_base) (ht : hit) (h : bb.add_hit ht = some b) :
    b.hits = bb.hits ++ [ht] := by
  unfold bundle_base.add_hit at h
  by_cases h1 : ¬ ((if bb.tid = -1 then ht.tid else bb.tid) = ht.tid)
  · rw [if_pos h1] at h
    exact absurd h (by simp)
  · rw [if_neg h1] at h
    by_cases h2 : ¬ ((if bb.hits.length + 1 ≤ 1 then ht.strand else bb.strand) = ht.strand)
    · rw [if_pos h2] at h
      exact absurd h (by simp)
    · rw [if_neg h2] at h
      rw [← Option.some.inj h]

theorem assemble_add_hit_unstranded (library_type UNSTRANDED : Int)
    (uniquely_mapped_only : Bool) (ht : hit) (bb1 bb2 : bundle_base)
    (hlib : library_type = UNSTRANDED) (hpass : uniquely_mapped_only = false ∨ ht.nh = 1) :
    assemble_add_hit library_type UNSTRANDED uniquely_mapped_only ht bb1 bb2 =
      (add_hit_if (decide (ht.xs = '.' ∨ ht.xs = '+')) bb1 ht).bind fun b1 =>
        (add_hit_if (decide (ht.xs = '.' ∨ ht.xs = '-')) bb2 ht).bind fun b2 =>
          some (b1, b2) := by
  have h0 : ¬ (uniquely_mapped_only = true ∧ ht.nh ≠ 1) := by
    rintro ⟨h1, h2⟩
    rcases hpass with h | h
    · rw [h] at h1
      exact absurd h1 (by simp)
    · exact h2 h
  have hp : ('.' : Char) ≠ '+' := by decide
  have hm : ('.' : Char) ≠ '-' := by decide
  have hpm : ('+' : Char) ≠ '-' := by decide
  subst hlib
  simp only [assemble_add_hit, if_neg h0, ne_eq, not_true_eq_false, false_and, if_false,
    decide_False, true_and, add_hit_if, Option.some_bind, Bool.false_eq_true]
  by_cases h1 : ht.xs = '.'
  · simp only [h1, hp, hm, decide_True, decide_False, if_true, true_or, Bool.false_eq_true,
      if_false, Option.some_bind]
  · by_cases h2 : ht.xs = '+'
    · simp only [h2, hp.symm, hpm, decide_True, decide_False, if_true, or_true, or_false,
        Bool.false_eq_true, if_false, Option.some_bind]
    · by_cases h3 : ht.xs = '-'
      · simp only [h3, hm.symm, hpm.symm, decide_True, decide_False, if_true, or_true,
          or_false, Bool.false_eq_true, if_false, Option.some_bind]
      · simp only [h1, h2, h3, decide_False, or_false, Bool.false_eq_true, if_false,
          Option.some_bind]

theorem add_hit_if_hits (c : Bool) (bb b : bundle_base) (ht : hit)
    (h : add_hit_if c bb ht = some b) :
    b.hits = bb.hits ++ (if c = true then [ht] else []) := by
  unfold add_hit_if at h
  by_cases hc : c = true
  · rw [if_pos hc] at h
    rw [if_pos hc]
    exact add_hit_hits bb b ht h
  · rw [if_neg hc] at h
    rw [if_neg hc, ← Option.some.inj h, List.append_nil]

/-- C24: with `library_type = UNSTRANDED`, a hit that passes the filter on `nh` is given
to `bb1.add_hit` exactly when its `xs` is `.` or `+`, and to `bb2.add_hit` exactly when
its `xs` is `.` or `-`: whenever the statements return, the hits of `bb1` and of `bb2`
are the former ones followed by the hit in these cases, and the former ones alone
otherwise. -/
theorem assemble_unstranded_adds_by_xs (library_type UNSTRANDED : Int)
    (uniquely_mapped_only : Bool) (ht : hit) (bb1 bb2 : bundle_base)
    (hlib : library_type = UNSTRANDED) (hpass : uniquely_mapped_only = false ∨ ht.nh = 1) :
    assemble_add_hit library_type UNSTRANDED uniquely_mapped_only ht bb1 bb2 =
      ((add_hit_if (decide (ht.xs = '.' ∨ ht.xs = '+')) bb1 ht).bind fun b1 =>
        (add_hit_if (decide (ht.xs = '.' ∨ ht.xs = '-')) bb2 ht).bind fun b2 =>
          some (b1, b2)) ∧
    ∀ b1 b2, assemble_add_hit library_type UNSTRANDED uniquely_mapped_only ht bb1 bb2 =
        some (b1, b2) →
      b1.hits = bb1.hits ++ (if ht.xs = '.' ∨ ht.xs = '+' then [ht] else []) ∧
      b2.hits = bb2.hits ++ (if ht.xs = '.' ∨ ht.xs = '-' then [ht] else []) := by
  have heq := assemble_add_hit_unstranded library_type UNSTRANDED uniquely_mapped_only ht
    bb1 bb2 hlib hpass
  refine ⟨heq, ?_⟩
  intro b1 b2 h
  rw [heq] at h
  cases h1 : add_hit_if (decide (ht.xs = '.' ∨ ht.xs = '+')) bb1 ht with
  | none =>
    rw [h1] at h
    exact absurd h (by simp)
  | some a1 =>
    rw [h1, Option.some_bind] at h
    cases h2 : add_hit_if (decide (ht.xs = '.' ∨ ht.xs = '-')) bb2 ht with
    | none =>
      rw [h2] at h
      exact absurd h (by simp)
    | some a2 =>
      rw [h2, Option.some_bind] at h
      have hpair := Option.some.inj h
      simp only [Prod.mk.injEq] at hpair
      rw [← hpair.1, ← hpair.2]
      have e1 := add_hit_if_hits _ bb1 a1 ht h1
      have e2 := add_hit_if_hits _ bb2 a2 ht h2
      simp only [decide_eq_true_eq] at e1 e2
      exact ⟨e1, e2⟩

theorem assemble_unstranded_adds_by_xs_witness :
    ((0 : Int) = 0 ∧ ((false : Bool) = false ∨ ({ xs := '.' } : hit).nh = 1)) ∧
    assemble_add_hit 0 0 false { xs := '.' } {} {} =
      some ({ tid := 0, lpos := 0, hits := [{ xs := '.' }] },
        { tid := 0, lpos := 0, hits := [{ xs := '.' }] }) ∧
    ∀ b1 b2, assemble_add_hit 0 0 false { xs := '.' } {} {} = some (b1, b2) →
      b1.hits = ({} : bundle_base).hits ++
        (if ({ xs := '.' } : hit).xs = '.' ∨ ({ xs := '.' } : hit).xs = '+' then
          [{ xs := '.' }] else []) ∧
      b2.hits = ({} : bundle_base).hits ++
        (if ({ xs := '.' } : hit).xs = '.' ∨ ({ xs := '.' } : hit).xs = '-' then
          [{ xs := '.' }] else []) :=
  ⟨⟨rfl, Or.inl rfl⟩, by decide,
    (assemble_unstranded_adds_by_xs 0 0 false { xs := '.' } {} {} rfl (Or.inl rfl)).2⟩

/-- With `library_type = UNSTRANDED`, a hit with `xs` equal to `+` is added to `bb1`
and not to `bb2`. -/
theorem assemble_unstranded_plus_hit_misses_second_bundle :
    assemble_add_hit 0 0 false { xs := '+' } {} {} =
        some ({ tid := 0, lpos := 0, hits := [{ xs := '+' }] }, {}) ∧
      ({} : bundle_base).hits = [] := by
  constructor
  · decide
  · rfl

/-! ### The genotype of a fragment -/

theorem fragment_region_set_foldl (l : List Nat) (s : List Nat)
    (hs : s.Pairwise (fun a b => a < b)) :
    (l.foldl (fun vv x => set_insert x vv) s).Pairwise (fun a b => a < b) ∧
      ∀ v, v ∈ l.foldl (fun vv x => set_insert x vv) s ↔ v ∈ l ∨ v ∈ s := by
  induction l generalizing s with
  | nil => exact ⟨hs, fun v => by simp⟩
  | cons x l ih =>
    simp only [List.foldl_cons]
    obtain ⟨h1, h2⟩ := ih (set_insert x s) (set_insert_sorted x s hs)
    refine ⟨h1, fun v => ?_⟩
    rw [h2, mem_set_insert, List.mem_cons]
    tauto

theorem fragment_region_set_perm (v1 v2 : List Nat) :
    (fragment_region_set v1 v2).Perm (v1 ++ v2).dedup := by
  obtain ⟨h1, h2⟩ := fragment_region_set_foldl (v1 ++ v2) [] List.Pairwise.nil
  refine (List.perm_ext_iff_of_nodup (h1.imp (fun h => ne_of_lt h)) (List.nodup_dedup _)).mpr ?_
  intro v
  rw [h2, List.mem_dedup]
  simp

theorem region_gts_some (regions : List region) (vv : List Nat)
    (h : ∀ v ∈ vv, v < regions.length) :
    ∃ gts, region_gts regions vv = some gts ∧
      ∀ g, gts.count g =
        (vv.filter (fun v => decide ((regions[v]?).map (fun r => r.gt) = some g))).length := by
  induction vv with
  | nil => exact ⟨[], rfl, fun g => rfl⟩
  | cons v vv ih =>
    obtain ⟨gts, hg, hc⟩ := ih (fun x hx => h x (List.mem_cons_of_mem _ hx))
    have hv := h v (List.mem_cons_self _ _)
    refine ⟨regions[v].gt :: gts, ?_, fun g => ?_⟩
    · simp only [region_gts, List.getElem?_eq_getElem hv, hg]
    · rw [List.count_cons, hc g, List.filter_cons, List.getElem?_eq_getElem hv]
      by_cases hgg : regions[v].gt = g
      · simp [hgg]
      · simp [hgg]

theorem le_round_shift (n k : Nat) : n / 2 ^ k ≤ round_shift n k := by
  unfold round_shift
  split_ifs <;> omega

theorem round_shift_zero (n : Nat) : round_shift n 0 = n := by
  unfold round_shift
  have h1 : n % 2 ^ 0 = 0 := by simp [Nat.mod_one]
  have h2 : n / 2 ^ 0 = n := by simp
  rw [h1, h2, if_pos (by norm_num)]

theorem mul_int_zero (t : double) : (double.mul_int 0 t).val = 0 := by
  simp [double.mul_int, double.val]

/-- A product that needs at most 53 bits is not rounded. -/
theorem mul_int_exact (n : Int) (t : double)
    (h : (n * t.mantissa).natAbs < 2 ^ 53) : (double.mul_int n t).val = (n : ℚ) * t.val := by
  have hk : (n * t.mantissa).natAbs.size - 53 = 0 := by
    have := Nat.size_le.mpr h
    omega
  unfold double.mul_int double.val
  simp only [hk, round_shift_zero, Nat.cast_zero, add_zero]
  rw [Int.sign_mul_natAbs]
  push_cast
  ring

theorem mul_int_val_of_pos (n M : Nat) (e : Int) (h : 0 < n * M) :
    (double.mul_int (n : Int) { mantissa := (M : Int), exponent := e }).val =
      (round_shift (n * M) ((n * M).size - 53) : ℚ) *
        (2 : ℚ) ^ (e + (((n * M).size - 53 : Nat) : Int)) := by
  have hp : ((n : Int) * (M : Int)) = ((n * M : Nat) : Int) := by push_cast; rfl
  unfold double.mul_int double.val
  simp only [hp, Int.natAbs_ofNat]
  rw [Int.sign_eq_one_of_pos (by exact_mod_cast h)]
  push_cast
  ring

/-- The rounded product of an `int` count and a threshold of at least one half is at
least half the count: a half of a count is a `double`, and the rounding is monotone. -/
theorem half_le_mul_int (n : Nat) (t : double) (hn : n < 2147483648)
    (ht : 1 / 2 ≤ t.val) : (n : ℚ) ≤ 2 * (double.mul_int (n : Int) t).val := by
  obtain ⟨m, e⟩ := t
  have h2e : (0 : ℚ) < (2 : ℚ) ^ e := zpow_pos (by norm_num) e
  simp only [double.val] at ht
  have hm : 0 < m := by
    by_contra hcon
    have hle : (m : ℚ) ≤ 0 := by exact_mod_cast (not_lt.mp hcon)
    have : (m : ℚ) * (2 : ℚ) ^ e ≤ 0 := mul_nonpos_of_nonpos_of_nonneg hle h2e.le
    linarith
  obtain ⟨M, rfl⟩ := Int.eq_ofNat_of_zero_le hm.le
  have hM : 0 < M := by exact_mod_cast hm
  by_cases hn0 : n = 0
  · subst hn0
    simp [double.mul_int, double.val]
  have hnpos : 0 < n := Nat.pos_of_ne_zero hn0
  have hP : 0 < n * M := Nat.mul_pos hnpos hM
  rw [mul_int_val_of_pos n M e hP]
  have hkey : (n : ℚ) ≤ 2 * ((n * M : Nat) : ℚ) * (2 : ℚ) ^ e := by
    have : (1 : ℚ) ≤ 2 * ((M : ℚ) * (2 : ℚ) ^ e) := by
      have := ht
      push_cast at this
      linarith
    have hn' : (0 : ℚ) ≤ (n : ℚ) := Nat.cast_nonneg n
    have := mul_le_mul_of_nonneg_left this hn'
    push_cast
    linarith
  by_cases hk : (n * M).size - 53 = 0
  · rw [hk, round_shift_zero]
    simp only [Nat.cast_zero, add_zero]
    linarith
  · obtain ⟨k, hkk⟩ : ∃ k, (n * M).size - 53 = k + 1 := ⟨(n * M).size - 53 - 1, by omega⟩
    rw [hkk]
    have hsize : 52 + (k + 1) < (n * M).size := by omega
    have hbig : 2 ^ (52 + (k + 1)) ≤ n * M := Nat.lt_size.mp hsize
    have hq : 2 ^ 52 ≤ round_shift (n * M) (k + 1) := by
      refine le_trans ?_ (le_round_shift _ _)
      rw [Nat.le_div_iff_mul_le (by positivity)]
      rw [← pow_add]
      exact hbig
    by_cases hE : 0 ≤ e + ((k + 1 : Nat) : Int) + 1
    · have h1 : (1 : ℚ) ≤ 2 * (2 : ℚ) ^ (e + ((k + 1 : Nat) : Int)) := by
        have : (2 : ℚ) * (2 : ℚ) ^ (e + ((k + 1 : Nat) : Int)) =
            (2 : ℚ) ^ (e + ((k + 1 : Nat) : Int) + 1) := by
          rw [zpow_add₀ (by norm_num : (2 : ℚ) ≠ 0) _ 1]
          ring
        rw [this]
        exact one_le_zpow₀ (by norm_num) hE
      have h2 : (n : ℚ) ≤ (round_shift (n * M) (k + 1) : ℚ) := by
        have : n ≤ round_shift (n * M) (k + 1) := by
          have : n < 2 ^ 52 := by omega
          omega
        exact_mod_cast this
      have h3 : (0 : ℚ) ≤ (round_shift (n * M) (k + 1) : ℚ) := Nat.cast_nonneg _
      nlinarith
    · obtain ⟨j, hj⟩ : ∃ j : Nat, e = -((j : Int) + ((k + 1 : Nat) : Int) + 1) :=
        ⟨(-(e + ((k + 1 : Nat) : Int) + 1)).toNat, by omega⟩
      subst hj
      have hpow : ∀ a : Nat, (2 : ℚ) ^ (-(a : Int)) = 1 / (2 : ℚ) ^ a := by
        intro a
        rw [zpow_neg, zpow_natCast, one_div]
      have e1 : (2 : ℚ) ^ (-((j : Int) + ((k + 1 : Nat) : Int) + 1)) =
          1 / (2 : ℚ) ^ (j + (k + 1) + 1) := by
        have := hpow (j + (k + 1) + 1)
        push_cast at this ⊢
        exact this
      have e2 : (2 : ℚ) ^ (-((j : Int) + ((k + 1 : Nat) : Int) + 1) + ((k + 1 : Nat) : Int)) =
          1 / (2 : ℚ) ^ (j + 1) := by
        have := hpow (j + 1)
        have hh : -((j : Int) + ((k + 1 : Nat) : Int) + 1) + ((k + 1 : Nat) : Int) =
            -((j + 1 : Nat) : Int) := by push_cast; ring
        rw [hh]
        exact this
      rw [e1] at hkey
      rw [e2]
      have hP2 : n * 2 ^ j * 2 ^ (k + 1) ≤ n * M := by
        have h2pos : (0 : ℚ) < (2 : ℚ) ^ (j + (k + 1) + 1) := by positivity
        have : (n : ℚ) * (2 : ℚ) ^ (j + (k + 1) + 1) ≤ 2 * ((n * M : Nat) : ℚ) := by
          have := mul_le_mul_of_nonneg_right hkey h2pos.le
          rw [mul_assoc, one_div, inv_mul_cancel₀ h2pos.ne', mul_one] at this
          exact this
        have h3 : ((n * 2 ^ j * 2 ^ (k + 1) * 2 : Nat) : ℚ) ≤ ((2 * (n * M) : Nat) : ℚ) := by
          push_cast
          have e3 : (n : ℚ) * 2 ^ j * 2 ^ (k + 1) * 2 =
              (n : ℚ) * (2 : ℚ) ^ (j + (k + 1) + 1) := by
            rw [pow_add, pow_add]
            ring
          rw [e3]
          push_cast at this
          linarith
        have h4 : n * 2 ^ j * 2 ^ (k + 1) * 2 ≤ 2 * (n * M) := by exact_mod_cast h3
        omega
      have hq2 : n * 2 ^ j ≤ round_shift (n * M) (k + 1) := by
        refine le_trans ?_ (le_round_shift _ _)
        rw [Nat.le_div_iff_mul_le (by positivity)]
        exact hP2
      have hq3 : ((n * 2 ^ j : Nat) : ℚ) ≤ (round_shift (n * M) (k + 1) : ℚ) := by
        exact_mod_cast hq2
      push_cast at hq3
      have h2j : (0 : ℚ) < (2 : ℚ) ^ (j + 1) := by positivity
      rw [mul_one_div, ← mul_div_assoc, le_div_iff₀ h2j]
      rw [pow_succ]
      nlinarith

theorem fragment_gt_of_spec (a1 a2 : Nat) (t : double) :
    (fragment_gt_of a1 a2 t = genotype.ALLELE1 ↔
      (a1 : ℚ) > (double.mul_int ((a1 + a2 : Nat) : Int) t).val) ∧
    (fragment_gt_of a1 a2 t = genotype.ALLELE2 ↔
      (a2 : ℚ) > (double.mul_int ((a1 + a2 : Nat) : Int) t).val ∧
        ¬ (a1 : ℚ) > (double.mul_int ((a1 + a2 : Nat) : Int) t).val) ∧
    (fragment_gt_of a1 a2 t ≠ genotype.ALLELE1 → fragment_gt_of a1 a2 t ≠ genotype.ALLELE2 →
      fragment_gt_of a1 a2 t = genotype.UNPHASED) := by
  have hcomm : ((a2 : Int) + (a1 : Int)) = ((a1 + a2 : Nat) : Int) := by
    push_cast
    ring
  unfold fragment_gt_of
  rw [hcomm]
  by_cases h0 : a1 = 0 ∧ a2 = 0
  · rw [if_pos h0]
    obtain ⟨h1, h2⟩ := h0
    subst h1
    subst h2
    have hz : (double.mul_int (((0 + 0 : Nat) : Int)) t).val = 0 := mul_int_zero t
    rw [hz]
    simp
  · rw [if_neg h0]
    generalize (double.mul_int ((a1 + a2 : Nat) : Int) t).val = p
    by_cases h1 : (a1 : ℚ) > p
    · rw [if_pos h1]
      simp [h1]
    · rw [if_neg h1]
      by_cases h2 : (a2 : ℚ) > p
      · rw [if_pos h2]
        simp [h1, h2]
      · rw [if_neg h2]
        simp [h1, h2]

theorem fragment_gt_eq (regions : List region) (v1 v2 : List Nat) (t : double)
    (hv : ∀ v ∈ v1 ++ v2, v < regions.length) :
    fragment_gt regions v1 v2 t =
      some (fragment_gt_of (spanned_with_gt regions v1 v2 genotype.ALLELE1)
        (spanned_with_gt regions v1 v2 genotype.ALLELE2) t) := by
  have hperm := fragment_region_set_perm v1 v2
  obtain ⟨gts, hg, hc⟩ := region_gts_some regions (fragment_region_set v1 v2) (by
    intro v hvv
    have := (hperm.mem_iff).mp hvv
    exact hv v (List.mem_dedup.mp this))
  unfold fragment_gt spanned_with_gt
  rw [hg]
  simp only [hc]
  rw [(hperm.filter _).length_eq, (hperm.filter _).length_eq]

/-- Claim C23 (what the code does). The genotype of a fragment whose mates span regions
of the bundle, with `a1` and `a2` the numbers of distinct spanned regions of genotype
`ALLELE1` and `ALLELE2`, `t = major_gt_threshold` and `p` the product `(a1 + a2) * t` as
the code computes it, a `double` rounded to nearest: the genotype is `ALLELE1` exactly
when `a1 > p`, `ALLELE2` exactly when `a2 > p` and not `a1 > p`, and `UNPHASED` in every
other case. When `t` is at least one half (and the counts are `int`s) the two conditions
exclude each other, and the genotype is `ALLELE2` exactly when `a2 > p`. When the exact
product needs no more than 53 bits, `p` is the exact product `t * (a1 + a2)`. -/
theorem fragment_gt_by_threshold (regions : List region) (v1 v2 : List Nat) (t : double)
    (hv : ∀ v ∈ v1 ++ v2, v < regions.length) :
    ∃ g, fragment_gt regions v1 v2 t = some g ∧
      (g = genotype.ALLELE1 ↔
        (spanned_with_gt regions v1 v2 genotype.ALLELE1 : ℚ) >
          (double.mul_int ((spanned_with_gt regions v1 v2 genotype.ALLELE1 +
            spanned_with_gt regions v1 v2 genotype.ALLELE2 : Nat) : Int) t).val) ∧
      (g = genotype.ALLELE2 ↔
        (spanned_with_gt regions v1 v2 genotype.ALLELE2 : ℚ) >
          (double.mul_int ((spanned_with_gt regions v1 v2 genotype.ALLELE1 +
            spanned_with_gt regions v1 v2 genotype.ALLELE2 : Nat) : Int) t).val ∧
        ¬ (spanned_with_gt regions v1 v2 genotype.ALLELE1 : ℚ) >
          (double.mul_int ((spanned_with_gt regions v1 v2 genotype.ALLELE1 +
            spanned_with_gt regions v1 v2 genotype.ALLELE2 : Nat) : Int) t).val) ∧
      (g ≠ genotype.ALLELE1 → g ≠ genotype.ALLELE2 → g = genotype.UNPHASED) ∧
      (1 / 2 ≤ t.val →
        spanned_with_gt regions v1 v2 genotype.ALLELE1 +
          spanned_with_gt regions v1 v2 genotype.ALLELE2 < 2147483648 →
        (g = genotype.ALLELE2 ↔
          (spanned_with_gt regions v1 v2 genotype.ALLELE2 : ℚ) >
            (double.mul_int ((spanned_with_gt regions v1 v2 genotype.ALLELE1 +
              spanned_with_gt regions v1 v2 genotype.ALLELE2 : Nat) : Int) t).val)) ∧
      ((((spanned_with_gt regions v1 v2 genotype.ALLELE1 +
            spanned_with_gt regions v1 v2 genotype.ALLELE2 : Nat) : Int) *
          t.mantissa).natAbs < 2 ^ 53 →
        (double.mul_int ((spanned_with_gt regions v1 v2 genotype.ALLELE1 +
            spanned_with_gt regions v1 v2 genotype.ALLELE2 : Nat) : Int) t).val =
          t.val * ((spanned_with_gt regions v1 v2 genotype.ALLELE1 : ℚ) +
            (spanned_with_gt regions v1 v2 genotype.ALLELE2 : ℚ))) := by
  obtain ⟨h1, h2, h3⟩ := fragment_gt_of_spec (spanned_with_gt regions v1 v2 genotype.ALLELE1)
    (spanned_with_gt regions v1 v2 genotype.ALLELE2) t
  refine ⟨_, fragment_gt_eq regions v1 v2 t hv, h1, h2, h3, ?_, ?_⟩
  · intro ht hn
    rw [h2]
    constructor
    · exact fun h => h.1
    · intro h
      refine ⟨h, ?_⟩
      intro h'
      have hhalf := half_le_mul_int _ t hn ht
      have hc : ((spanned_with_gt regions v1 v2 genotype.ALLELE1 +
          spanned_with_gt regions v1 v2 genotype.ALLELE2 : Nat) : ℚ) =
          (spanned_with_gt regions v1 v2 genotype.ALLELE1 : ℚ) +
            (spanned_with_gt regions v1 v2 genotype.ALLELE2 : ℚ) := Nat.cast_add _ _
      rw [hc] at hhalf
      linarith
  · intro hx
    rw [mul_int_exact _ t hx]
    push_cast
    ring

/-- An instance of `fragment_gt_by_threshold`: a fragment over one region of each
allele, with the threshold `3 / 4`. -/
theorem fragment_gt_by_threshold_witness :
    (∀ v ∈ [0] ++ [1], v < example_allele_regions.length) ∧
    ∃ g, fragment_gt example_allele_regions [0] [1] { mantissa := 3, exponent := -2 } =
        some g ∧
      (g ≠ genotype.ALLELE1 → g ≠ genotype.ALLELE2 → g = genotype.UNPHASED) :=
  ⟨by decide,
    match fragment_gt_by_threshold example_allele_regions [0] [1]
      { mantissa := 3, exponent := -2 } (by decide) with
    | ⟨g, h1, _, _, h4, _⟩ => ⟨g, h1, h4⟩⟩

theorem example_threshold_product :
    (double.mul_int (((2 : Nat) : Int) + ((3 : Nat) : Int)) example_threshold).val = 3 := by
  have hs : (5 * 5404319552844595 : Nat).size = 55 := by
    apply le_antisymm
    · exact Nat.size_le.mpr (by norm_num)
    · exact Nat.lt_size.mpr (by norm_num)
  have hr : round_shift (5 * 5404319552844595) (55 - 53) = 6755399441055744 := by
    unfold round_shift
    norm_num
  have h := mul_int_val_of_pos 5 5404319552844595 (-53) (by norm_num)
  rw [hs, hr] at h
  have ht : example_threshold =
      { mantissa := ((5404319552844595 : Nat) : Int), exponent := -53 } := rfl
  have h5 : (((2 : Nat) : Int) + ((3 : Nat) : Int)) = ((5 : Nat) : Int) := rfl
  rw [ht, h5, h]
  norm_num

/-- With `major_gt_threshold = 0.6`, which as a `double` is
`5404319552844595 / 2 ^ 53`, a little less than `3 / 5`, and a fragment over three
regions of `ALLELE1` and two of `ALLELE2`: `a1 = 3` exceeds the exact product
`t * (a1 + a2)`, but the product is rounded to `3`, and the genotype is `UNPHASED`. -/
theorem fragment_gt_rounds_product :
    fragment_gt example_five_loci [0, 1, 2] [3, 4] example_threshold =
        some genotype.UNPHASED ∧
      (spanned_with_gt example_five_loci [0, 1, 2] [3, 4] genotype.ALLELE1 : ℚ) >
        example_threshold.val *
          ((spanned_with_gt example_five_loci [0, 1, 2] [3, 4] genotype.ALLELE1 : ℚ) +
            (spanned_with_gt example_five_loci [0, 1, 2] [3, 4] genotype.ALLELE2 : ℚ)) := by
  have h1 : spanned_with_gt example_five_loci [0, 1, 2] [3, 4] genotype.ALLELE1 = 3 := by
    decide
  have h2 : spanned_with_gt example_five_loci [0, 1, 2] [3, 4] genotype.ALLELE2 = 2 := by
    decide
  constructor
  · rw [fragment_gt_eq example_five_loci [0, 1, 2] [3, 4] example_threshold (by decide), h1,
      h2]
    unfold fragment_gt_of
    rw [example_threshold_product]
    norm_num
  · rw [h1, h2]
    simp only [double.val, example_threshold]
    norm_num

/-! ### The assertions of `hyper_set::transform` -/

theorem transform_row_none (pgr : directed_graph) (i2e_old : List edge_descriptor)
    (x2y : List (edge_descriptor × edge_descriptor)) (e2i_new : List (edge_descriptor × Int))
    (vv : List Int) (k : Int) (hk : k ∈ vv) (hbad : ¬ transform_entry_valid i2e_old x2y k)
    (acc : List Int × Bool) : transform_row pgr i2e_old x2y e2i_new vv acc = none := by
  induction vv generalizing acc with
  | nil => simp at hk
  | cons a vv ih =>
    obtain ⟨ve, keep⟩ := acc
    unfold transform_row
    by_cases ha : a = k
    · subst ha
      have h1 : a ≠ -1 := fun h => hbad (Or.inl h)
      rw [if_neg h1]
      by_cases h2 : 0 ≤ a ∧ a < (i2e_old.length : Int)
      · rw [if_neg (not_not.mpr h2)]
        cases h3 : i2e_old[a.toNat]? with
        | none => rfl
        | some e_old =>
          simp only
          by_cases h4 : e_old = null_edge
          · rw [if_pos h4]
          · rw [if_neg h4]
            cases h5 : map_find x2y e_old with
            | none => rfl
            | some e_new =>
              exact absurd (Or.inr ⟨h2.1, h2.2, e_old, h3, h4, e_new, h5⟩) hbad
      · rw [if_pos h2]
    · have hk' : k ∈ vv := by
        rcases List.mem_cons.mp hk with h | h
        · exact absurd h.symm ha
        · exact h
      by_cases h1 : a = -1
      · rw [if_pos h1]
        exact ih hk' _
      rw [if_neg h1]
      by_cases h2 : 0 ≤ a ∧ a < (i2e_old.length : Int)
      · rw [if_neg (not_not.mpr h2)]
        cases h3 : i2e_old[a.toNat]? with
        | none => rfl
        | some e_old =>
          simp only
          by_cases h4 : e_old = null_edge
          · rw [if_pos h4]
          · rw [if_neg h4]
            cases h5 : map_find x2y e_old with
            | none => rfl
            | some e_new =>
              simp only
              cases h6 : map_find e2i_new e_new with
              | none => exact ih hk' _
              | some idx =>
                simp only
                by_cases h7 : pgr.has_edge e_new = true
                · rw [if_pos h7]
                  exact ih hk' _
                · rw [if_neg h7]
                  exact ih hk' _
      · rw [if_pos h2]

theorem transform_loop_none (pgr : directed_graph) (i2e_old : List edge_descriptor)
    (x2y : List (edge_descriptor × edge_descriptor)) (e2i_new : List (edge_descriptor × Int))
    (ecnts : List Int) (rows : List (List Int)) (row : List Int) (hrow : row ∈ rows)
    (k : Int) (hk : k ∈ row) (hbad : ¬ transform_entry_valid i2e_old x2y k) (i : Nat)
    (acc : List (List Int) × List Int) :
    transform_loop pgr i2e_old x2y e2i_new ecnts i rows acc = none := by
  induction rows generalizing i acc with
  | nil => simp at hrow
  | cons vv rows ih =>
    obtain ⟨edges, ect⟩ := acc
    unfold transform_loop
    by_cases hvv : vv = row
    · subst hvv
      rw [transform_row_none pgr i2e_old x2y e2i_new vv k hk hbad]
    · have hrow' : row ∈ rows := by
        rcases List.mem_cons.mp hrow with h | h
        · exact absurd h.symm hvv
        · exact h
      cases hr : transform_row pgr i2e_old x2y e2i_new vv ([], true) with
      | none => rfl
      | some res =>
        obtain ⟨ve, keep⟩ := res
        simp only
        by_cases hkeep : keep = true
        · rw [if_pos hkeep]
          by_cases hl : vv.length ≠ ve.length
          · rw [if_pos hl]
          · rw [if_neg hl]
            cases hc : ecnts[i]? with
            | none => rfl
            | some c => exact ih hrow' _ _
        · rw [if_neg hkeep]
          exact ih hrow' _ _

/-- When `transform` fails: exactly when one of its assertions on the input does. -/
theorem transform_none_iff (pgr : directed_graph) (i2e_old : List edge_descriptor)
    (x2y : List (edge_descriptor × edge_descriptor)) (e2i_new : List (edge_descriptor × Int))
    (hs : hyper_set) :
    transform pgr i2e_old x2y e2i_new hs = none ↔
      hs.nodes ≠ [] ∨ hs.edges ≠ [] ∨ hs.edges_to_transform.length ≠ hs.ecnts.length ∨
        ∃ row ∈ hs.edges_to_transform, ∃ k ∈ row, ¬ transform_entry_valid i2e_old x2y k := by
  by_cases h1 : hs.nodes = []
  swap
  · have : hs.nodes.length ≠ 0 := fun h => h1 (List.length_eq_zero.mp h)
    simp [transform, this, h1]
  by_cases h2 : hs.edges = []
  swap
  · have : hs.edges.length ≠ 0 := fun h => h2 (List.length_eq_zero.mp h)
    simp [transform, h1, this, h2]
  by_cases h3 : hs.edges_to_transform.length = hs.ecnts.length
  swap
  · simp [transform, h1, h2, h3]
  by_cases h4 : ∃ row ∈ hs.edges_to_transform, ∃ k ∈ row, ¬ transform_entry_valid i2e_old x2y k
  · obtain ⟨row, hrow, k, hk, hbad⟩ := h4
    have hloop := transform_loop_none pgr i2e_old x2y e2i_new hs.ecnts hs.edges_to_transform
      row hrow k hk hbad 0 (hs.edges, [])
    rw [h2] at hloop
    constructor
    · intro _
      exact Or.inr (Or.inr (Or.inr ⟨row, hrow, k, hk, hbad⟩))
    · intro _
      unfold transform
      simp [h1, h2, h3, hloop]
  · have hv : ∀ row ∈ hs.edges_to_transform, ∀ k ∈ row, transform_entry_valid i2e_old x2y k := by
      intro row hrow k hk
      by_contra hbad
      exact h4 ⟨row, hrow, k, hk, hbad⟩
    have hloop := transform_loop_eq pgr i2e_old x2y e2i_new hs.ecnts hs.edges_to_transform hv
      [] hs.ecnts h3.symm rfl hs.edges []
    simp only [List.length_nil, h2, List.nil_append] at hloop
    constructor
    · intro hnone
      unfold transform at hnone
      simp [h1, h2, h3, hloop] at hnone
    · rintro (h | h | h | h)
      · exact absurd h1 h
      · exact absurd h2 h
      · exact absurd h3 h
      · exact absurd h h4

/-- C25: `transform` fails exactly when `nodes` is not empty, or `edges` is not empty, or
`edges_to_transform` and `ecnts` differ in size, or some entry `k` of a row of
`edges_to_transform` other than a gap is out of the range of `i2e_old`, or `i2e_old[k]`
is the null edge or has no entry in `x2y`; in every other case it returns, whatever the
target graph and `e2i_new` are. -/
theorem transform_fails_iff_assertion (pgr : directed_graph) (i2e_old : List edge_descriptor)
    (x2y : List (edge_descriptor × edge_descriptor)) (e2i_new : List (edge_descriptor × Int))
    (hs : hyper_set) :
    (transform pgr i2e_old x2y e2i_new hs = none ↔
      hs.nodes ≠ [] ∨ hs.edges ≠ [] ∨ hs.edges_to_transform.length ≠ hs.ecnts.length ∨
        ∃ row ∈ hs.edges_to_transform, ∃ k ∈ row, ¬ transform_entry_valid i2e_old x2y k) ∧
    (¬ (hs.nodes ≠ [] ∨ hs.edges ≠ [] ∨ hs.edges_to_transform.length ≠ hs.ecnts.length ∨
        ∃ row ∈ hs.edges_to_transform, ∃ k ∈ row, ¬ transform_entry_valid i2e_old x2y k) →
      ∃ hs', transform pgr i2e_old x2y e2i_new hs = some hs') := by
  have h := transform_none_iff pgr i2e_old x2y e2i_new hs
  refine ⟨h, fun hno => ?_⟩
  cases ht : transform pgr i2e_old x2y e2i_new hs with
  | none => exact absurd (h.mp ht) hno
  | some hs' => exact ⟨hs', rfl⟩

/-- In `example_stray_count` the maps `nodes`, `edges` and `edges_to_transform` have no
rows, so none of the conditions of the claim holds, and `transform` fails on the
assertion `edges_to_transform.size() == ecnts.size()`. -/
theorem transform_fails_on_stray_count :
    (example_stray_count.nodes = [] ∧ example_stray_count.edges = [] ∧
      ∀ row ∈ example_stray_count.edges_to_transform,
        ∀ k ∈ row, transform_entry_valid [] [] k) ∧
    transform { edge_list := [] } [] [] [] example_stray_count = none := by
  refine ⟨⟨rfl, rfl, ?_⟩, by decide⟩
  intro row hrow
  simp [example_stray_count] at hrow

/-! ### `gene::add_transcript` -/

theorem length_omap_put {κ β : Type} [LinearOrder κ] (m : List (κ × β)) (a : κ) (b : β)
    (h : a ∉ m.map Prod.fst) : (omap_put m a b).length = m.length + 1 := by
  induction m with
  | nil => simp [omap_put]
  | cons p m ih =>
    obtain ⟨k0, v0⟩ := p
    simp only [List.map_cons, List.mem_cons, not_or] at h
    unfold omap_put
    rw [if_neg h.1]
    by_cases h2 : a < k0
    · rw [if_pos h2]
      simp
    · rw [if_neg h2]
      simp [ih h.2]

theorem add_transcript_none_iff (g : gene) (t : transcript) :
    g.add_transcript t = none ↔ t.transcript_id ∈ g.t2i.map Prod.fst := by
  unfold gene.add_transcript
  rw [← not_iff_not, ← map_find_none_iff]
  by_cases h : map_find g.t2i t.transcript_id = none
  · simp [h]
  · simp [h]

theorem add_transcript_some (g : gene) (t : transcript)
    (h : t.transcript_id ∉ g.t2i.map Prod.fst) :
    g.add_transcript t = some
      { transcripts := g.transcripts ++ [t],
        t2i := omap_put g.t2i t.transcript_id (g.t2i.length : Int) } := by
  unfold gene.add_transcript
  rw [if_neg (not_not.mpr ((map_find_none_iff _ _).mpr h))]

theorem gene_indexed_add (g : gene) (t : transcript) (hg : gene_indexed g)
    (h : t.transcript_id ∉ g.t2i.map Prod.fst) :
    gene_indexed { transcripts := g.transcripts ++ [t],
                   t2i := omap_put g.t2i t.transcript_id (g.t2i.length : Int) } := by
  obtain ⟨hlen, hs, hidx, hkeys⟩ := hg
  refine ⟨?_, omap_sorted_put _ _ _ hs, ?_, ?_⟩
  · simp only [length_omap_put _ _ _ h, List.length_append, List.length_singleton, hlen]
  · intro i t' hi
    simp only at hi ⊢
    rw [omap_find_put]
    by_cases hlt : i < g.transcripts.length
    · rw [List.getElem?_append_left hlt] at hi
      have hne : t'.transcript_id ≠ t.transcript_id := by
        intro heq
        have := mem_of_map_find _ _ _ (hidx i t' hi)
        rw [heq] at this
        exact h (List.mem_map.mpr ⟨_, this, rfl⟩)
      rw [if_neg hne]
      exact hidx i t' hi
    · rw [List.getElem?_append_right (by omega)] at hi
      have hi0 : i - g.transcripts.length = 0 := by
        by_contra hne
        rw [List.getElem?_eq_none (by simp; omega)] at hi
        simp at hi
      rw [hi0] at hi
      simp only [List.getElem?_cons_zero, Option.some.injEq] at hi
      subst hi
      rw [if_pos rfl, hlen]
      congr 1
      omega
  · intro key hkey
    simp only at hkey ⊢
    rcases (mem_keys_omap_put _ _ _ _).mp hkey with rfl | hk
    · exact ⟨t, by simp, rfl⟩
    · obtain ⟨t', ht', hid⟩ := hkeys key hk
      exact ⟨t', List.mem_append_left _ ht', hid⟩

theorem add_transcripts_spec (v : List transcript) (g : gene) (hg : gene_indexed g) :
    (add_transcripts v g = none ↔
      ¬ ((v.map (fun t => t.transcript_id)).Nodup ∧
        ∀ t ∈ v, t.transcript_id ∉ g.t2i.map Prod.fst)) ∧
    ∀ g', add_transcripts v g = some g' →
      g'.transcripts = g.transcripts ++ v ∧ gene_indexed g' := by
  induction v generalizing g with
  | nil =>
    refine ⟨?_, ?_⟩
    · simp [add_transcripts]
    · intro g' h
      simp only [add_transcripts, Option.some.injEq] at h
      subst h
      exact ⟨by simp, hg⟩
  | cons t v ih =>
    by_cases hin : t.transcript_id ∈ g.t2i.map Prod.fst
    · have hnone := (add_transcript_none_iff g t).mpr hin
      simp only [add_transcripts, hnone]
      refine ⟨?_, fun g' h => absurd h (by simp)⟩
      simp only [true_iff]
      rintro ⟨_, h2⟩
      exact h2 t (List.mem_cons_self _ _) hin
    · have hsome := add_transcript_some g t hin
      have hg1 := gene_indexed_add g t hg hin
      obtain ⟨ih1, ih2⟩ := ih _ hg1
      simp only [add_transcripts, hsome]
      refine ⟨?_, ?_⟩
      · rw [ih1, not_iff_not]
        simp only [List.map_cons, List.nodup_cons]
        constructor
        · rintro ⟨h1, h2⟩
          refine ⟨⟨?_, h1⟩, fun t' ht' => ?_⟩
          · intro hmem
            obtain ⟨t', ht', hid⟩ := List.mem_map.mp hmem
            exact h2 t' ht' ((mem_keys_omap_put _ _ _ _).mpr (Or.inl hid))
          · rcases List.mem_cons.mp ht' with rfl | ht'
            · exact hin
            · intro hk
              exact h2 t' ht' ((mem_keys_omap_put _ _ _ _).mpr (Or.inr hk))
        · rintro ⟨⟨h1, h2⟩, h4⟩
          refine ⟨h2, fun t' ht' hk => ?_⟩
          rcases (mem_keys_omap_put _ _ _ _).mp hk with hid | hk
          · exact h1 (List.mem_map.mpr ⟨t', ht', hid⟩)
          · exact h4 t' (List.mem_cons_of_mem _ ht') hk
      · intro g' h
        obtain ⟨a1, a2⟩ := ih2 g' h
        refine ⟨?_, a2⟩
        rw [a1]
        simp

theorem gene_indexed_empty : gene_indexed { transcripts := [], t2i := [] } := by
  refine ⟨rfl, List.Pairwise.nil, ?_, ?_⟩
  · intro i t h
    simp at h
  · intro key h
    simp at h

theorem add_transcripts_from_empty (v : List transcript) (g' : gene)
    (h : add_transcripts v { transcripts := [], t2i := [] } = some g') :
    g'.transcripts = v ∧ (g'.t2i.map Prod.fst).Nodup ∧
      (g'.t2i.map Prod.fst).Perm (v.map (fun t => t.transcript_id)) ∧
      ∀ (i : Nat) (t : transcript), v[i]? = some t →
        map_find g'.t2i t.transcript_id = some (i : Int) := by
  obtain ⟨h1, h2⟩ := add_transcripts_spec v _ gene_indexed_empty
  obtain ⟨h3, hlen, hs, hidx, hkeys⟩ := h2 g' h
  have htr : g'.transcripts = v := by simpa using h3
  have hnd : (g'.t2i.map Prod.fst).Nodup :=
    hs.imp (fun hlt => ne_of_lt hlt)
  have hvd : (v.map (fun t => t.transcript_id)).Nodup := by
    by_contra hn
    have : add_transcripts v { transcripts := [], t2i := [] } = none :=
      h1.mpr (fun hc => hn hc.1)
    rw [this] at h
    exact absurd h (by simp)
  refine ⟨htr, hnd, ?_, ?_⟩
  · rw [List.perm_ext_iff_of_nodup hnd hvd]
    intro key
    constructor
    · intro hk
      obtain ⟨t, ht, hid⟩ := hkeys key hk
      rw [htr] at ht
      exact List.mem_map.mpr ⟨t, ht, hid⟩
    · intro hk
      obtain ⟨t, ht, hid⟩ := List.mem_map.mp hk
      obtain ⟨i, hi⟩ := List.mem_iff_getElem?.mp ht
      rw [← htr] at hi
      have := mem_of_map_find _ _ _ (hidx i t hi)
      rw [← hid]
      exact List.mem_map.mpr ⟨_, this, rfl⟩
  · intro i t hi
    rw [← htr] at hi
    exact hidx i t hi

theorem add_transcript_spec (g : gene) (t : transcript) :
    (g.add_transcript t = none ↔ t.transcript_id ∈ g.t2i.map Prod.fst) ∧
    (t.transcript_id ∉ g.t2i.map Prod.fst →
      ∃ g', g.add_transcript t = some g' ∧ g'.transcripts = g.transcripts ++ [t] ∧
        (∀ key, map_find g'.t2i key =
          if key = t.transcript_id then some (g.t2i.length : Int) else map_find g.t2i key) ∧
        (g.t2i.length = g.transcripts.length →
          g'.transcripts[g.t2i.length]? = some t)) := by
  refine ⟨add_transcript_none_iff g t, fun h => ⟨_, add_transcript_some g t h, rfl, ?_, ?_⟩⟩
  · intro key
    exact omap_find_put _ _ _ _
  · intro hlen
    simp only [hlen]
    rw [List.getElem?_append_right (le_refl _)]
    simp

/-- C27. `gene::add_transcript(const transcript&)` fails on its assertion exactly when
`t2i` already has the transcript's `transcript_id`. Otherwise it returns, appends the
transcript to `transcripts` and maps its id to `t2i.size()`, leaving the other keys as
they were; when `t2i` and `transcripts` have the same size this is the position at
which the transcript now stands. After any sequence `v` of successful calls from the
empty gene (the loop of `gene::assign`), `transcripts` is `v`, the keys of `t2i` are
distinct and are, up to order, the ids of the transcripts, and `t2i` maps the id of
`transcripts[i]` to `i`. -/
theorem add_transcript_indexes (g : gene) (t : transcript) (v : List transcript) :
    (g.add_transcript t = none ↔ t.transcript_id ∈ g.t2i.map Prod.fst) ∧
    (t.transcript_id ∉ g.t2i.map Prod.fst →
      ∃ g', g.add_transcript t = some g' ∧ g'.transcripts = g.transcripts ++ [t] ∧
        (∀ key, map_find g'.t2i key =
          if key = t.transcript_id then some (g.t2i.length : Int) else map_find g.t2i key) ∧
        (g.t2i.length = g.transcripts.length →
          g'.transcripts[g.t2i.length]? = some t)) ∧
    (∀ g', add_transcripts v { transcripts := [], t2i := [] } = some g' →
      g'.transcripts = v ∧ (g'.t2i.map Prod.fst).Nodup ∧
        (g'.t2i.map Prod.fst).Perm (v.map (fun t => t.transcript_id)) ∧
        ∀ (i : Nat) (t : transcript), v[i]? = some t →
          map_find g'.t2i t.transcript_id = some (i : Int)) :=
  ⟨(add_transcript_spec g t).1, (add_transcript_spec g t).2,
    fun g' h => add_transcripts_from_empty v g' h⟩

theorem add_transcript_indexes_witness :
    (gene.assign {} example_transcripts =
      some { transcripts := example_transcripts,
             t2i := [(['a'], 1), (['b'], 0), (['c'], 2)] }) ∧
    map_find [(['a'], (1 : Int)), (['b'], 0), (['c'], 2)] ['c'] = some 2 ∧
    ({ transcripts := example_transcripts,
       t2i := [(['a'], 1), (['b'], 0), (['c'], 2)] } : gene).add_transcript
      { transcript_id := ['a'], coverage := 5 } = none :=
  ⟨by decide,
    ((add_transcript_indexes {} { transcript_id := ['a'] } example_transcripts).2.2
      { transcripts := example_transcripts, t2i := [(['a'], 1), (['b'], 0), (['c'], 2)] }
      (by decide)).2.2.2 2 { transcript_id := ['c'], coverage := 2 } (by decide),
    by decide⟩

/-! ### The cleanliness flags of a fragment -/

/-- For a first mate that ends fifteen bases into the third region, after a splice from
the first, `build_fragments` uses `max_misalignment2` and sets `fr.b1 = false`. -/
theorem fragment_b1_uses_second_threshold :
    fragment_b1 example_plain_regions [0, 2] { pos := 150, rpos := 315, nm := 0 } =
      some false := by
  decide

/-- C31 (what the code does): for a second mate that spans two regions or more,
`fr.b2` is `false` exactly when `regions[first].rpos - h2.pos` exceeds
`max_misalignment1 + h2.nm`, whether or not its first two regions have consecutive
indices: the test `v2.size() >= 2 || v2[1] == v2.front() + 1` holds for every such
mate, so that the branch with `max_misalignment2` is never taken. With the first two
regions consecutive this is the flag of the specification. -/
theorem fragment_b2_uses_first_threshold (regions : List region) (v2 : List Nat) (h2 : hit)
    (r : region) (hlen : 2 ≤ v2.length) (hr : regions[v2.getD 0 0]? = some r) :
    fragment_b2 regions v2 h2 =
        some (decide (¬ (r.rpos.p32 - h2.pos > max_misalignment1 + h2.nm))) ∧
      (v2.getD 1 0 = v2.getD 0 0 + 1 →
        fragment_b2 regions v2 h2 = some (fragment_b2_spec r v2 h2)) := by
  have h1 : ¬ v2.length ≤ 1 := by omega
  have h2' : v2.length ≥ 2 ∨ v2.getD 1 0 = v2.getD 0 0 + 1 := Or.inl hlen
  have hb : fragment_b2 regions v2 h2 =
      some (decide (¬ (r.rpos.p32 - h2.pos > max_misalignment1 + h2.nm))) := by
    unfold fragment_b2
    rw [if_neg h1, if_pos h2', hr]
  refine ⟨hb, fun hc => ?_⟩
  rw [hb, fragment_b2_spec, if_neg h1, if_pos hc]

/-- The mate `example_spliced_mate` spans the regions `0` and `2`, which are not
consecutive, and `regions[0].rpos - h2.pos = 15 > max_misalignment2 + h2.nm = 10`: the
flag of the specification is `false`, and `build_fragments` sets `fr.b2 = true`. -/
theorem fragment_b2_uses_first_threshold_witness :
    fragment_b2 example_plain_regions [0, 2] example_spliced_mate = some true ∧
      fragment_b2_spec { lpos := { p32 := 100, ale := ['$'] },
                         rpos := { p32 := 200, ale := ['$'] },
                         ltype := 1, rtype := 4, gt := genotype.UNPHASED }
        [0, 2] example_spliced_mate = false :=
  ⟨(fragment_b2_uses_first_threshold example_plain_regions [0, 2] example_spliced_mate
      { lpos := { p32 := 100, ale := ['$'] }, rpos := { p32 := 200, ale := ['$'] },
        ltype := 1, rtype := 4, gt := genotype.UNPHASED } (by decide) (by decide)).1.trans
      (by decide),
    by decide⟩

/-! ### `bundle::build` -/

theorem build_eq (fuel : Nat) (bt : boundary_types) (min_guaranteed_edge_weight : ℚ)
    (lpos rpos : Int) (pexons : List partial_exon) (regional : List Bool)
    (jset : List ((Int × Int) × (Int × Char))) (m : List (List Int × Int)) (hs : hyper_set)
    (mode : Int) (revise : Bool) (gr : splice_graph) (hs' : hyper_set)
    (h : build fuel bt min_guaranteed_edge_weight lpos rpos pexons regional jset m hs mode
      revise = outcome.done (gr, hs')) :
    ∃ gr0, build_splice_graph bt mode min_guaranteed_edge_weight lpos rpos pexons regional
        jset = some gr0 ∧
      refine_splice_graph fuel gr0 = outcome.done gr ∧ hs' = build_hyper_set m hs := by
  unfold build at h
  cases hb : build_splice_graph bt mode min_guaranteed_edge_weight lpos rpos pexons regional
      jset with
  | none => simp [hb] at h
  | some gr0 =>
    simp only [hb] at h
    cases hr : refine_splice_graph fuel gr0 with
    | abort => simp [hr] at h
    | out_of_fuel => simp [hr] at h
    | done gr1 =>
      simp only [hr, outcome.done.injEq, Prod.mk.injEq] at h
      exact ⟨gr0, rfl, by rw [hr, h.1], h.2.symm⟩

theorem refine_while_removed_edges (fuel : Nat) (gr gr' : splice_graph)
    (h : refine_while fuel gr = outcome.done gr') : edges_removed_only gr gr' := by
  induction fuel generalizing gr with
  | zero => simp [refine_while] at h
  | succ fuel ih =>
    have hs := refine_for_shrinks (internal_vertices gr) gr false
    cases hfor : refine_for (internal_vertices gr) (gr, false) with
    | mk gr1 b =>
      rw [hfor] at hs
      simp only [refine_while, hfor] at h
      cases b with
      | false =>
        simp only [if_true, outcome.done.injEq] at h
        subst h
        exact hs.1
      | true =>
        simp only [Bool.true_eq_false, if_false] at h
        exact edges_removed_only_trans hs.1 (ih gr1 h)

/-- Claim C40. The argument `revise` of `bundle::build` has no effect. For every input
that passes the assertions of `build_splice_graph`, and every mode, there are the graph
`gr0` that `build_splice_graph(mode)` makes and the graph `gr` that
`refine_splice_graph` makes of it, and with fuel for the loop of `refine_splice_graph`
both `build(mode, true)` and `build(mode, false)` return `gr` and the hyper-set of
`build_hyper_set`; no call of `build` returns anything else. The graph `gr` is `gr0`
with edges removed only, so that no vertex has been marked empty, no edge added and no
weight changed, as the functions of `revise_splice_graph` would do. The source reads
`revise` only in a line that is a comment. -/
theorem build_ignores_revise (bt : boundary_types) (min_guaranteed_edge_weight : ℚ)
    (lpos rpos : Int) (pexons : List partial_exon) (regional : List Bool)
    (jset : List ((Int × Int) × (Int × Char))) (m : List (List Int × Int)) (hs : hyper_set)
    (mode : Int) (hok : splice_graph_input_ok pexons regional jset) :
    ∃ gr0 gr, build_splice_graph bt mode min_guaranteed_edge_weight lpos rpos pexons regional
        jset = some gr0 ∧
      (∀ fuel, gr0.edges.length < fuel →
        refine_splice_graph fuel gr0 = outcome.done gr ∧
        ∀ revise, build fuel bt min_guaranteed_edge_weight lpos rpos pexons regional jset m
          hs mode revise = outcome.done (gr, build_hyper_set m hs)) ∧
      edges_removed_only gr0 gr ∧ degree_ok gr ∧
      ∀ (fuel : Nat) (revise : Bool) (gr1 : splice_graph) (hs1 : hyper_set),
        build fuel bt min_guaranteed_edge_weight lpos rpos pexons regional jset m hs mode
          revise = outcome.done (gr1, hs1) →
        gr1 = gr ∧ hs1 = build_hyper_set m hs := by
  obtain ⟨gr0, hb, -⟩ := build_splice_graph_boundary bt mode min_guaranteed_edge_weight lpos
    rpos pexons regional jset hok
  obtain ⟨gr, h1, h2, -, h4⟩ := refine_while_done (gr0.edges.length + 1) gr0 (by omega)
  have hall : ∀ fuel, gr0.edges.length < fuel → refine_while fuel gr0 = outcome.done gr :=
    fun fuel hf => refine_while_mono _ gr0 gr h1 fuel (by omega)
  refine ⟨gr0, gr, hb, ?_, h2, degree_ok_of_fixed gr h4, ?_⟩
  · intro fuel hf
    refine ⟨hall fuel hf, fun revise => ?_⟩
    unfold build refine_splice_graph
    simp only [hb, hall fuel hf]
  · intro fuel revise gr1 hs1 h
    obtain ⟨gr0', q1, q2, q3⟩ := build_eq _ _ _ _ _ _ _ _ _ _ _ _ _ _ h
    rw [hb, Option.some.injEq] at q1
    subst q1
    have e1 : refine_while (fuel + gr0.edges.length + 1) gr0 = outcome.done gr1 :=
      refine_while_mono fuel gr0 gr1 q2 _ (by omega)
    have e2 := hall (fuel + gr0.edges.length + 1) (by omega)
    rw [e1, outcome.done.injEq] at e2
    exact ⟨e2, q3⟩

/-- An instance of `build_ignores_revise`: for the two partial exons of `example_pexons`
with one junction, `build` returns the same graph and hyper-set for both values of
`revise`. -/
theorem build_ignores_revise_witness :
    splice_graph_input_ok example_pexons [false, false] [((0, 1), (5, '+'))] ∧
    ∃ gr0 gr, build_splice_graph example_boundary_types 1 1 100 400 example_pexons
        [false, false] [((0, 1), (5, '+'))] = some gr0 ∧
      (∀ fuel, gr0.edges.length < fuel → ∀ revise,
        build fuel example_boundary_types 1 100 400 example_pexons [false, false]
          [((0, 1), (5, '+'))] [([0, 1], 3)] example_rows 1 revise =
            outcome.done (gr, build_hyper_set [([0, 1], 3)] example_rows)) ∧
      degree_ok gr :=
  ⟨example_pexons_ok,
    match build_ignores_revise example_boundary_types 1 100 400 example_pexons
      [false, false] [((0, 1), (5, '+'))] [([0, 1], 3)] example_rows 1 example_pexons_ok with
    | ⟨gr0, gr, h1, h2, _, h4, _⟩ => ⟨gr0, gr, h1, fun fuel hf => (h2 fuel hf).2, h4⟩⟩

/-! ### The refined graph is the largest with the degree property -/

theorem in_degree_pos_of_mem (gr : splice_graph) (d i : Nat) (hd : d ∈ gr.edges)
    (h : edge_target gr d = i) : 1 ≤ gr.in_degree i := by
  have : d ∈ gr.in_edges i := (mem_in_edges gr i d).mpr ⟨hd, h⟩
  exact List.length_pos_of_mem this

theorem out_degree_pos_of_mem (gr : splice_graph) (d i : Nat) (hd : d ∈ gr.edges)
    (h : edge_source gr d = i) : 1 ≤ gr.out_degree i := by
  have : d ∈ gr.out_edges i := (mem_out_edges gr i d).mpr ⟨hd, h⟩
  exact List.length_pos_of_mem this

/-- Clearing a vertex that lacks an edge in or an edge out removes no edge of a set
with the degree property. -/
theorem degree_closed_clear_vertex (gr h : splice_graph) (E : List Nat) (i : Nat)
    (hE : degree_closed gr E) (hrem : edges_removed_only gr h) (hsub : ∀ d ∈ E, d ∈ h.edges)
    (h0 : 0 < i) (h1 : i + 1 < h.num_vertices)
    (hbad : ¬ (1 ≤ h.in_degree i ∧ 1 ≤ h.out_degree i)) :
    ∀ d ∈ E, d ∈ (h.clear_vertex i).edges := by
  have hends : h.edge_ends = gr.edge_ends := hrem.2.2.1
  have hnum : h.num_vertices = gr.num_vertices := by
    simp only [splice_graph.num_vertices, hrem.1]
  have hnone : ¬ ∃ d ∈ E, edge_source gr d = i ∨ edge_target gr d = i := by
    intro hex
    obtain ⟨⟨d1, hd1, ht⟩, ⟨d2, hd2, hs⟩⟩ := hE.2 i h0 (by rw [← hnum]; exact h1) hex
    apply hbad
    constructor
    · exact in_degree_pos_of_mem h d1 i (hsub d1 hd1) (by simpa only [edge_target, hends] using ht)
    · exact out_degree_pos_of_mem h d2 i (hsub d2 hd2)
        (by simpa only [edge_source, hends] using hs)
  intro d hd
  rw [mem_edges_clear_vertex]
  refine ⟨hsub d hd, ?_, ?_⟩
  · intro hs
    exact hnone ⟨d, hd, Or.inl (by simpa only [edge_source, hends] using hs)⟩
  · intro ht
    exact hnone ⟨d, hd, Or.inr (by simpa only [edge_target, hends] using ht)⟩

theorem refine_for_keeps_closed (gr : splice_graph) (E : List Nat) (hE : degree_closed gr E)
    (l : List Nat) :
    ∀ (h : splice_graph) (b : Bool), edges_removed_only gr h →
      (∀ i ∈ l, 0 < i ∧ i + 1 < h.num_vertices) → (∀ d ∈ E, d ∈ h.edges) →
      ∀ d ∈ E, d ∈ (refine_for l (h, b)).1.edges := by
  induction l with
  | nil => exact fun h b _ _ hsub => hsub
  | cons i l ih =>
    intro h b hrem hl hsub
    have hl' : ∀ j ∈ l, 0 < j ∧ j + 1 < h.num_vertices :=
      fun j hj => hl j (List.mem_cons_of_mem _ hj)
    simp only [refine_for]
    by_cases hdeg : h.degree i = 0
    · rw [if_pos hdeg]
      exact ih h b hrem hl' hsub
    · rw [if_neg hdeg]
      by_cases hok : 1 ≤ h.in_degree i ∧ 1 ≤ h.out_degree i
      · rw [if_pos hok]
        exact ih h b hrem hl' hsub
      · rw [if_neg hok]
        obtain ⟨h0, h1⟩ := hl i (List.mem_cons_self _ _)
        exact ih (h.clear_vertex i) true
          (edges_removed_only_trans hrem (edges_removed_only_clear_vertex h i)) hl'
          (degree_closed_clear_vertex gr h E i hE hrem hsub h0 h1 hok)

theorem refine_while_keeps_closed (gr : splice_graph) (E : List Nat) (hE : degree_closed gr E)
    (fuel : Nat) :
    ∀ (h h' : splice_graph), edges_removed_only gr h → (∀ d ∈ E, d ∈ h.edges) →
      refine_while fuel h = outcome.done h' → ∀ d ∈ E, d ∈ h'.edges := by
  induction fuel with
  | zero =>
    intro h h' _ _ hw
    simp [refine_while] at hw
  | succ fuel ih =>
    intro h h' hrem hsub hw
    have hkeep := refine_for_keeps_closed gr E hE (internal_vertices h) h false hrem
      (fun i hi => (mem_internal_vertices h i).mp hi) hsub
    have hs := refine_for_shrinks (internal_vertices h) h false
    cases hfor : refine_for (internal_vertices h) (h, false) with
    | mk h1 b =>
      rw [hfor] at hkeep hs
      simp only [refine_while, hfor] at hw
      cases b with
      | false =>
        simp only [if_true, outcome.done.injEq] at hw
        subst hw
        exact hkeep
      | true =>
        simp only [Bool.true_eq_false, if_false] at hw
        exact ih h1 h' (edges_removed_only_trans hrem hs.1) hkeep hw

theorem cleared_from_keeps_closed (gr : splice_graph) (E : List Nat) (hE : degree_closed gr E)
    (h : splice_graph) (hc : cleared_from gr h) :
    edges_removed_only gr h ∧ ∀ d ∈ E, d ∈ h.edges := by
  induction hc with
  | start => exact ⟨edges_removed_only_refl gr, hE.1⟩
  | step h i _ h0 h1 _ hbad ih =>
    exact ⟨edges_removed_only_trans ih.1 (edges_removed_only_clear_vertex h i),
      degree_closed_clear_vertex gr h E i hE ih.1 ih.2 h0 h1 hbad⟩

/-- The edges of a graph with the degree property, reached from `gr` by removing edges,
are a set with the degree property. -/
theorem degree_closed_of_degree_ok (gr h : splice_graph) (hrem : edges_removed_only gr h)
    (hok : degree_ok h) : degree_closed gr h.edges := by
  have hends : h.edge_ends = gr.edge_ends := hrem.2.2.1
  have hnum : h.num_vertices = gr.num_vertices := by
    simp only [splice_graph.num_vertices, hrem.1]
  refine ⟨hrem.2.2.2.2, ?_⟩
  intro i h0 h1 hex
  have hdeg : 0 < h.degree i := by
    by_contra hz
    have hz0 : h.degree i = 0 := by omega
    rw [degree_eq_zero_iff] at hz0
    obtain ⟨d, hd, hst⟩ := hex
    have := hz0 d hd
    simp only [edge_source, edge_target, ← hends] at hst
    rcases hst with hs | ht
    · exact this.1 hs
    · exact this.2 ht
  obtain ⟨hin, hout⟩ := hok i h0 (by rw [hnum]; exact h1) hdeg
  constructor
  · obtain ⟨d, hd⟩ := List.exists_mem_of_length_pos hin
    rw [mem_in_edges] at hd
    exact ⟨d, hd.1, by simpa only [edge_target, hends] using hd.2⟩
  · obtain ⟨d, hd⟩ := List.exists_mem_of_length_pos hout
    rw [mem_out_edges] at hd
    exact ⟨d, hd.1, by simpa only [edge_source, hends] using hd.2⟩

theorem edges_eq_of_mem_iff (g h : splice_graph) (hends : g.edge_ends = h.edge_ends)
    (hmem : ∀ d, d ∈ g.edges ↔ d ∈ h.edges) : g.edges = h.edges := by
  unfold splice_graph.edges
  rw [hends]
  apply List.filter_congr
  intro d hd
  have hlt : d < h.edge_ends.length := List.mem_range.mp hd
  have := hmem d
  simp only [mem_edges, hends, hlt, true_and] at this
  simp only [decide_eq_decide]
  exact this

/-- C33. `bundle::refine_splice_graph` returns the largest sub-graph with the degree
property: it returns a graph `gr'` that has the degree property, and every set `E` of
edges of `gr` in which each internal vertex with an edge of `E` incident has an edge of
`E` coming in and one going out is contained in the edges of `gr'`. Consequently the
result does not depend on the order in which the vertices are cleared: every graph with
the degree property that is reached from `gr` by clearing, in any order, internal
vertices that lack an edge in or an edge out has the edges of `gr'`. -/
theorem refine_splice_graph_largest (gr : splice_graph) :
    ∃ gr', (∀ fuel, gr.edges.length < fuel → refine_splice_graph fuel gr = outcome.done gr') ∧
      edges_removed_only gr gr' ∧ degree_ok gr' ∧ degree_closed gr gr'.edges ∧
      (∀ E, degree_closed gr E → ∀ d ∈ E, d ∈ gr'.edges) ∧
      ∀ h, cleared_from gr h → degree_ok h →
        h.edges = gr'.edges ∧ h.vinf = gr'.vinf ∧ h.vwrt = gr'.vwrt ∧
          h.edge_ends = gr'.edge_ends ∧ h.ewrt = gr'.ewrt := by
  obtain ⟨gr', h1, h2, -, h4⟩ := refine_while_done (gr.edges.length + 1) gr (by omega)
  have hok : degree_ok gr' := degree_ok_of_fixed gr' h4
  have hclosed := degree_closed_of_degree_ok gr gr' h2 hok
  have hmax : ∀ E, degree_closed gr E → ∀ d ∈ E, d ∈ gr'.edges := fun E hE =>
    refine_while_keeps_closed gr E hE _ gr gr' (edges_removed_only_refl gr) hE.1 h1
  refine ⟨gr', fun fuel hfuel => refine_while_mono _ gr gr' h1 fuel (by omega), h2, hok,
    hclosed, hmax, ?_⟩
  intro h hc hhok
  obtain ⟨hrem, hsub⟩ := cleared_from_keeps_closed gr gr'.edges hclosed h hc
  have hhclosed := degree_closed_of_degree_ok gr h hrem hhok
  refine ⟨?_, hrem.1.trans h2.1.symm, hrem.2.1.trans h2.2.1.symm,
    hrem.2.2.1.trans h2.2.2.1.symm, hrem.2.2.2.1.trans h2.2.2.2.1.symm⟩
  exact edges_eq_of_mem_iff h gr' (hrem.2.2.1.trans h2.2.2.1.symm)
    (fun d => ⟨fun hd => hmax h.edges hhclosed d hd, fun hd => hsub d hd⟩)

/-! ### The termination of `hyper_set::insert_between` -/

theorem insert_between_scan_mono (x y e : Int) (k : Nat) (fuel : Nat) :
    ∀ (i : Nat) (st r : List Int × List (Int × List Nat)),
      insert_between_scan x y e k fuel i st = some r →
      ∀ fuel', fuel ≤ fuel' → insert_between_scan x y e k fuel' i st = some r := by
  induction fuel with
  | zero =>
    intro i st r h
    simp [insert_between_scan] at h
  | succ fuel ih =>
    intro i st r h fuel' hle
    obtain ⟨f', rfl⟩ : ∃ f', fuel' = f' + 1 := ⟨fuel' - 1, by omega⟩
    have hf : fuel ≤ f' := by omega
    obtain ⟨vv, m⟩ := st
    rw [insert_between_scan] at h ⊢
    by_cases h1 : i < vv.length
    · rw [if_pos h1] at h ⊢
      by_cases h2 : i = vv.length - 1
      · rw [if_pos h2] at h ⊢
        exact ih _ _ _ h f' hf
      · rw [if_neg h2] at h ⊢
        by_cases h3 : vv[i]? ≠ some x
        · rw [if_pos h3] at h ⊢
          exact ih _ _ _ h f' hf
        · rw [if_neg h3] at h ⊢
          by_cases h4 : vv[i + 1]? ≠ some y
          · rw [if_pos h4] at h ⊢
            exact ih _ _ _ h f' hf
          · rw [if_neg h4] at h ⊢
            by_cases h5 : e = -1
            · rw [if_pos h5] at h ⊢
              exact ih _ _ _ h f' hf
            · rw [if_neg h5] at h ⊢
              exact ih _ _ _ h f' hf
    · rw [if_neg h1] at h ⊢
      exact h

theorem insert_between_rows_mono (x y e : Int) (fuel fuel' : Nat) (hle : fuel ≤ fuel')
    (s : List Nat) :
    ∀ (st r : List (List Int) × List (Int × List Nat)),
      insert_between_rows x y e fuel s st = outcome.done r →
      insert_between_rows x y e fuel' s st = outcome.done r := by
  induction s with
  | nil => exact fun st r h => h
  | cons k s ih =>
    intro st r h
    obtain ⟨edges, m⟩ := st
    rw [insert_between_rows] at h ⊢
    cases hk : edges[k]? with
    | none => simp [hk] at h
    | some vv =>
      simp only [hk] at h ⊢
      by_cases h1 : 1 ≤ vv.length
      · simp only [h1, not_true_eq_false, if_false] at h ⊢
        cases hscan : insert_between_scan x y e k fuel 0 (vv, m) with
        | none => simp [hscan] at h
        | some r1 =>
          rw [insert_between_scan_mono x y e k fuel 0 (vv, m) r1 hscan fuel' hle]
          simp only [hscan] at h
          exact ih _ _ h
      · simp [h1] at h

theorem insert_between_mono (fuel fuel' : Nat) (hle : fuel ≤ fuel') (hs hs' : hyper_set)
    (x y e : Int) (h : insert_between fuel hs x y e = outcome.done hs') :
    insert_between fuel' hs x y e = outcome.done hs' := by
  unfold insert_between at h ⊢
  cases hfind : map_find hs.e2s x with
  | none => simpa [hfind] using h
  | some s =>
    simp only [hfind] at h ⊢
    cases hr : insert_between_rows x y e fuel s (hs.edges, hs.e2s) with
    | abort => simp [hr] at h
    | out_of_fuel => simp [hr] at h
    | done r =>
      rw [insert_between_rows_mono x y e fuel fuel' hle s _ r hr]
      simpa [hr] using h

theorem has_pair_iff_getElem (x y : Int) (row : List Int) :
    has_pair x y row ↔ ∃ p : Nat, row[p]? = some x ∧ row[p + 1]? = some y := by
  induction row with
  | nil => simp [has_pair]
  | cons a row ih =>
    cases row with
    | nil => simp [has_pair]
    | cons b rest =>
      rw [has_pair_cons_cons, ih]
      constructor
      · rintro (⟨h1, h2⟩ | ⟨p, hp1, hp2⟩)
        · exact ⟨0, by simp [h1], by simp [h2]⟩
        · exact ⟨p + 1, by simpa using hp1, by simpa using hp2⟩
      · rintro ⟨p, hp1, hp2⟩
        cases p with
        | zero =>
          left
          simp only [List.getElem?_cons_zero, Option.some.injEq, zero_add,
            List.getElem?_cons_succ] at hp1 hp2
          exact ⟨hp1, hp2⟩
        | succ p =>
          right
          exact ⟨p, by simpa using hp1, by simpa using hp2⟩

theorem getElem?_take_insert_drop (vv : List Int) (i : Nat) (e : Int) (hi : i + 1 < vv.length) :
    (vv.take (i + 1) ++ e :: vv.drop (i + 1))[i + 1]? = some e ∧
      (vv.take (i + 1) ++ e :: vv.drop (i + 1))[i + 1 + 1]? = vv[i + 1]? := by
  have hlen : (vv.take (i + 1)).length = i + 1 := by
    rw [List.length_take]
    omega
  constructor
  · rw [List.getElem?_append_right (by omega), hlen]
    simp
  · rw [List.getElem?_append_right (by omega), hlen]
    simp

/-- With `e = x` the scan of a row that holds `x` immediately followed by `y`, at or
after the index of the scan, does not end: it uses up every fuel. -/
theorem insert_between_scan_loops (x y : Int) (k : Nat) (fuel : Nat) :
    ∀ (i : Nat) (vv : List Int) (m : List (Int × List Nat)),
      (∃ p : Nat, i ≤ p ∧ vv[p]? = some x ∧ vv[p + 1]? = some y) →
      insert_between_scan x y x k fuel i (vv, m) = none := by
  induction fuel with
  | zero => intro i vv m _; rfl
  | succ fuel ih =>
    rintro i vv m ⟨p, hip, hp1, hp2⟩
    have hp2lt : p + 1 < vv.length := (List.getElem?_eq_some.mp hp2).1
    have h1 : i < vv.length := by omega
    have h2 : ¬ i = vv.length - 1 := by omega
    rw [insert_between_scan, if_pos h1, if_neg h2]
    by_cases h3 : vv[i]? ≠ some x
    · rw [if_pos h3]
      have hne : i ≠ p := fun h => h3 (h ▸ hp1)
      exact ih (i + 1) vv m ⟨p, by omega, hp1, hp2⟩
    · rw [if_neg h3]
      by_cases h4 : vv[i + 1]? ≠ some y
      · rw [if_pos h4]
        have hne : i ≠ p := fun h => h4 (h ▸ hp2)
        exact ih (i + 1) vv m ⟨p, by omega, hp1, hp2⟩
      · rw [if_neg h4]
        have hi1 : i + 1 < vv.length := by
          by_contra hc
          rw [List.getElem?_eq_none (by omega)] at h4
          simp at h4
        obtain ⟨g1, g2⟩ := getElem?_take_insert_drop vv i x hi1
        have hnext : ∃ p' : Nat, i + 1 ≤ p' ∧
            (vv.take (i + 1) ++ x :: vv.drop (i + 1))[p']? = some x ∧
            (vv.take (i + 1) ++ x :: vv.drop (i + 1))[p' + 1]? = some y :=
          ⟨i + 1, le_refl _, g1, by rw [g2]; exact not_not.mp h4⟩
        by_cases h5 : x = -1
        · rw [if_pos h5]
          exact ih _ _ _ hnext
        · rw [if_neg h5]
          exact ih _ _ _ hnext

/-- With `e = x` the loop over the rows listed under `x` does not end when one of them
holds `x` immediately followed by `y`. -/
theorem insert_between_rows_loops (x y : Int) (fuel : Nat) (s : List Nat) (hnd : s.Nodup) :
    ∀ (edges : List (List Int)) (m : List (Int × List Nat)),
      (∀ k ∈ s, ∃ row, edges[k]? = some row ∧ row ≠ []) →
      (∃ j ∈ s, ∃ row, edges[j]? = some row ∧ has_pair x y row) →
      insert_between_rows x y x fuel s (edges, m) = outcome.out_of_fuel := by
  induction s with
  | nil =>
    rintro edges m _ ⟨j, hj, _⟩
    exact absurd hj (List.not_mem_nil j)
  | cons k s ih =>
    rintro edges m hrows ⟨j, hj, row, hrow, hpair⟩
    have hk : k ∉ s := (List.nodup_cons.mp hnd).1
    obtain ⟨vv, hvv, hne⟩ := hrows k (List.mem_cons_self _ _)
    have hpos : 1 ≤ vv.length := List.length_pos.mpr hne
    rw [insert_between_rows]
    simp only [hvv, hpos, not_true_eq_false, if_false]
    cases hscan : insert_between_scan x y x k fuel 0 (vv, m) with
    | none => rfl
    | some r =>
      obtain ⟨vv1, m1⟩ := r
      simp only []
      have hjk : j ≠ k := by
        intro hjk
        subst hjk
        rw [hvv] at hrow
        simp only [Option.some.injEq] at hrow
        subst hrow
        obtain ⟨p, hp1, hp2⟩ := (has_pair_iff_getElem x y vv).mp hpair
        rw [insert_between_scan_loops x y j fuel 0 vv m ⟨p, Nat.zero_le _, hp1, hp2⟩] at hscan
        exact absurd hscan (by simp)
      have hjs : j ∈ s := (List.mem_cons.mp hj).resolve_left hjk
      apply ih (List.nodup_cons.mp hnd).2
      · intro k' hk'
        have hkk : k ≠ k' := fun h => hk (h ▸ hk')
        rw [List.getElem?_set_ne hkk]
        exact hrows k' (List.mem_cons_of_mem _ hk')
      · refine ⟨j, hjs, row, ?_, hpair⟩
        rw [List.getElem?_set_ne (fun h => hjk h.symm)]
        exact hrow

/-- The scan of a row that does not hold `x` immediately followed by `y` changes
nothing. -/
theorem insert_between_scan_no_pair (x y e : Int) (k : Nat) (vv : List Int)
    (m : List (Int × List Nat)) (hno : ¬ has_pair x y vv) (fuel : Nat) :
    ∀ i : Nat, i ≤ vv.length → vv.length + 1 ≤ fuel + i →
      insert_between_scan x y e k fuel i (vv, m) = some (vv, m) := by
  induction fuel with
  | zero =>
    intro i hle hi
    omega
  | succ fuel ih =>
    intro i hle hi
    rw [insert_between_scan]
    by_cases h1 : i < vv.length
    · rw [if_pos h1]
      have hnext := ih (i + 1) (by omega) (by omega)
      by_cases h2 : i = vv.length - 1
      · rw [if_pos h2]
        exact hnext
      · rw [if_neg h2]
        by_cases h3 : vv[i]? ≠ some x
        · rw [if_pos h3]
          exact hnext
        · rw [if_neg h3]
          by_cases h4 : vv[i + 1]? ≠ some y
          · rw [if_pos h4]
            exact hnext
          · exact absurd ((has_pair_iff_getElem x y vv).mpr
              ⟨i, not_not.mp h3, not_not.mp h4⟩) hno
    · rw [if_neg h1]

theorem set_eq_of_getElem? {α : Type} (l : List α) (k : Nat) (a : α) (h : l[k]? = some a) :
    l.set k a = l := by
  apply List.ext_getElem?
  intro i
  by_cases hki : k = i
  · subst hki
    rw [List.getElem?_set_self (List.getElem?_eq_some.mp h).1, h]
  · rw [List.getElem?_set_ne hki]

theorem insert_between_rows_no_pair (x y e : Int) (fuel : Nat) (s : List Nat)
    (edges : List (List Int)) (m : List (Int × List Nat))
    (hrows : ∀ k ∈ s, ∃ row, edges[k]? = some row ∧ row ≠ [] ∧ ¬ has_pair x y row ∧
      row.length + 1 ≤ fuel) :
    insert_between_rows x y e fuel s (edges, m) = outcome.done (edges, m) := by
  induction s with
  | nil => rfl
  | cons k s ih =>
    obtain ⟨vv, hvv, hne, hno, hfuel⟩ := hrows k (List.mem_cons_self _ _)
    have hpos : 1 ≤ vv.length := List.length_pos.mpr hne
    rw [insert_between_rows]
    simp only [hvv, hpos, not_true_eq_false, if_false,
      insert_between_scan_no_pair x y e k vv m hno fuel 0 (by omega) (by omega),
      set_eq_of_getElem? edges k vv hvv]
    exact ih (fun k' hk' => hrows k' (List.mem_cons_of_mem _ hk'))

theorem length_le_sum_lengths (rows : List (List Int)) (row : List Int) (h : row ∈ rows) :
    row.length ≤ (rows.map List.length).sum := by
  induction rows with
  | nil => exact absurd h (List.not_mem_nil _)
  | cons r rows ih =>
    simp only [List.map_cons, List.sum_cons]
    rcases List.mem_cons.mp h with rfl | h
    · omega
    · have := ih h
      omega

theorem insert_between_loops (fuel : Nat) (hs : hyper_set) (x y : Int)
    (hidx : index_lists_rows hs)
    (hpair : ∃ (i : Nat) (row : List Int), e2s_mem hs.e2s x i ∧ hs.edges[i]? = some row ∧
      has_pair x y row) :
    insert_between fuel hs x y x = outcome.out_of_fuel := by
  obtain ⟨i, row, ⟨s, hfind, his⟩, hrow, hp⟩ := hpair
  obtain ⟨hsorted, hrows⟩ := listed_rows_exist_of_index hs x hidx s hfind
  have hnd : s.Nodup := hsorted.imp (fun h => Nat.ne_of_lt h)
  unfold insert_between
  simp only [hfind]
  rw [insert_between_rows_loops x y fuel s hnd hs.edges hs.e2s hrows ⟨i, his, row, hrow, hp⟩]

theorem not_has_pair_of_not_listed (hs : hyper_set) (x y : Int) (hidx : index_lists_rows hs)
    (hx : x ≠ -1) (i : Nat) (row : List Int) (hrow : hs.edges[i]? = some row)
    (hno : ¬ e2s_mem hs.e2s x i) : ¬ has_pair x y row := by
  intro hp
  exact hno ((hidx.2 x i).mpr ⟨hx, row, hrow, mem_of_has_pair x y row hp⟩)

/-- The rows after a call of `insert_between` that returns, when `e ≠ x` or no row
listed under `x` holds `x` immediately followed by `y`. -/
theorem insert_between_done_rows (hs hs' : hyper_set) (x y e : Int) (fuel : Nat)
    (hidx : index_lists_rows hs)
    (hcase : e ≠ x ∨ ∀ (i : Nat) (row : List Int), e2s_mem hs.e2s x i →
      hs.edges[i]? = some row → ¬ has_pair x y row)
    (h : insert_between fuel hs x y e = outcome.done hs') :
    hs'.edges.length = hs.edges.length ∧
      ∀ (i : Nat) (row : List Int), hs.edges[i]? = some row →
        (e2s_mem hs.e2s x i → hs'.edges[i]? = some (insert_between_row_spec x y e row)) ∧
        (¬ e2s_mem hs.e2s x i → hs'.edges[i]? = some row) := by
  have hbig := insert_between_mono fuel (fuel + (2 * (hs.edges.map List.length).sum + 1))
    (by omega) hs hs' x y e h
  have hfuel : ∀ row ∈ hs.edges,
      2 * row.length + 1 ≤ fuel + (2 * (hs.edges.map List.length).sum + 1) := by
    intro row hrow
    have := length_le_sum_lengths hs.edges row hrow
    omega
  by_cases hex : e = x
  · have hno : ∀ (i : Nat) (row : List Int), e2s_mem hs.e2s x i →
        hs.edges[i]? = some row → ¬ has_pair x y row := hcase.resolve_left (fun hne => hne hex)
    have hsame : hs' = hs := by
      unfold insert_between at hbig
      cases hfind : map_find hs.e2s x with
      | none =>
        simp only [hfind, outcome.done.injEq] at hbig
        exact hbig.symm
      | some s =>
        obtain ⟨-, hrows⟩ := listed_rows_exist_of_index hs x hidx s hfind
        have hr := insert_between_rows_no_pair x y e
          (fuel + (2 * (hs.edges.map List.length).sum + 1)) s hs.edges hs.e2s
          (fun k hk => by
            obtain ⟨row, hrow, hne⟩ := hrows k hk
            have := hfuel row (List.mem_iff_getElem?.mpr ⟨_, hrow⟩)
            exact ⟨row, hrow, hne, hno k row ⟨s, hfind, hk⟩ hrow, by omega⟩)
        simp only [hfind, hr, outcome.done.injEq] at hbig
        exact hbig.symm
    subst hsame
    refine ⟨rfl, fun i row hrow => ⟨fun hl => ?_, fun _ => hrow⟩⟩
    rw [insert_between_row_spec_of_no_pair x y e row (hno i row hl hrow)]
    exact hrow
  · obtain ⟨hs'', h1, h2, h3, -⟩ := insert_between_eq
      (fuel + (2 * (hs.edges.map List.length).sum + 1)) hs x y e hex
      (listed_rows_exist_of_index hs x hidx) hfuel
    rw [hbig, outcome.done.injEq] at h1
    subst h1
    exact ⟨h2, h3⟩

/-- C38. For a hyper-set whose index lists, for each edge, the rows containing it:
`insert_between(x, y, e)` terminates if and only if `e ≠ x` or no row listed in
`e2s[x]` contains `x` immediately followed by `y`; in the other case it uses up every
fuel, the scan matching again and again the entry it has just inserted. Whenever it
terminates, every row is the old row with `e` inserted once at each adjacent pair
`(x, y)`, and for an edge `x` (not the gap `-1`) the length of every row has grown by
exactly the number of such pairs that the row contained. -/
theorem insert_between_terminates_iff (hs : hyper_set) (x y e : Int)
    (hidx : index_lists_rows hs) :
    ((∃ fuel hs', insert_between fuel hs x y e = outcome.done hs') ↔
      (e ≠ x ∨ ∀ (i : Nat) (row : List Int), e2s_mem hs.e2s x i →
        hs.edges[i]? = some row → ¬ has_pair x y row)) ∧
    (¬ (e ≠ x ∨ ∀ (i : Nat) (row : List Int), e2s_mem hs.e2s x i →
        hs.edges[i]? = some row → ¬ has_pair x y row) →
      ∀ fuel, insert_between fuel hs x y e = outcome.out_of_fuel) ∧
    (x ≠ -1 → ∀ fuel hs', insert_between fuel hs x y e = outcome.done hs' →
      hs'.edges.length = hs.edges.length ∧
      ∀ (i : Nat) (row : List Int), hs.edges[i]? = some row →
        hs'.edges[i]? = some (insert_between_row_spec x y e row) ∧
        (insert_between_row_spec x y e row).length = row.length + count_pairs x y row) := by
  have hloop : ¬ (e ≠ x ∨ ∀ (i : Nat) (row : List Int), e2s_mem hs.e2s x i →
        hs.edges[i]? = some row → ¬ has_pair x y row) →
      ∀ fuel, insert_between fuel hs x y e = outcome.out_of_fuel := by
    intro hnot fuel
    rw [not_or, not_not] at hnot
    obtain ⟨hex, hp⟩ := hnot
    subst hex
    apply insert_between_loops fuel hs e y hidx
    by_contra hc
    apply hp
    intro i row hl hrow hpair
    exact hc ⟨i, row, hl, hrow, hpair⟩
  have hiff : (∃ fuel hs', insert_between fuel hs x y e = outcome.done hs') ↔
      (e ≠ x ∨ ∀ (i : Nat) (row : List Int), e2s_mem hs.e2s x i →
        hs.edges[i]? = some row → ¬ has_pair x y row) := by
    constructor
    · rintro ⟨fuel, hs', h⟩
      by_contra hnot
      rw [hloop hnot fuel] at h
      exact absurd h (by simp)
    · intro hcase
      by_cases hex : e = x
      · have hno := hcase.resolve_left (fun hne => hne hex)
        refine ⟨(hs.edges.map List.length).sum + 1, hs, ?_⟩
        unfold insert_between
        cases hfind : map_find hs.e2s x with
        | none => rfl
        | some s =>
          obtain ⟨-, hrows⟩ := listed_rows_exist_of_index hs x hidx s hfind
          have hr := insert_between_rows_no_pair x y e
            ((hs.edges.map List.length).sum + 1) s hs.edges hs.e2s
            (fun k hk => by
              obtain ⟨row, hrow, hne⟩ := hrows k hk
              have := length_le_sum_lengths hs.edges row (List.mem_iff_getElem?.mpr ⟨_, hrow⟩)
              exact ⟨row, hrow, hne, hno k row ⟨s, hfind, hk⟩ hrow, by omega⟩)
          simp only [hr]
      · obtain ⟨hs', h1, -⟩ := insert_between_eq
          (2 * (hs.edges.map List.length).sum + 1) hs x y e hex
          (listed_rows_exist_of_index hs x hidx)
          (fun row hrow => by
            have := length_le_sum_lengths hs.edges row hrow
            omega)
        exact ⟨_, hs', h1⟩
  refine ⟨hiff, hloop, ?_⟩
  intro hx fuel hs' h
  have hcase := hiff.mp ⟨fuel, hs', h⟩
  obtain ⟨hlen, hrows⟩ := insert_between_done_rows hs hs' x y e fuel hidx hcase h
  refine ⟨hlen, fun i row hrow => ⟨?_, length_insert_between_row_spec x y e row⟩⟩
  by_cases hl : e2s_mem hs.e2s x i
  · exact (hrows i row hrow).1 hl
  · rw [insert_between_row_spec_of_no_pair x y e row
      (not_has_pair_of_not_listed hs x y hidx hx i row hrow hl)]
    exact (hrows i row hrow).2 hl

/-- In `example_rows` the rows `0` and `2` hold `2` immediately followed by `3`:
`insert_between(2, 3, 2)` does not terminate, and `insert_between(2, 3, 8)` does. -/
theorem insert_between_terminates_iff_witness :
    (∀ fuel, insert_between fuel (build_index example_rows) 2 3 2 = outcome.out_of_fuel) ∧
      ∃ fuel hs', insert_between fuel (build_index example_rows) 2 3 8 = outcome.done hs' :=
  ⟨(insert_between_terminates_iff (build_index example_rows) 2 3 2
      (index_lists_rows_build_index example_rows)).2.1
      (fun h => h.elim (fun hne => hne rfl)
        (fun hall => hall 0 [1, 2, 3] ⟨[0, 2], by decide, by decide⟩ (by decide)
          ((has_pair_cons_cons 2 3 1 2 [3]).mpr (Or.inr (by simp [has_pair]))))),
    (insert_between_terminates_iff (build_index example_rows) 2 3 8
      (index_lists_rows_build_index example_rows)).1.mpr (Or.inl (by decide))⟩

/-! ### `hyper_set::get_successors` and `hyper_set::get_predecessors` -/

theorem accumulated_step (o : Option Int) (c : Int) (n : Nat) :
    accumulated (some (int32 (o.getD 0 + c))) n (c * (n : Int)) =
      accumulated o (n + 1) (c * ((n + 1 : Nat) : Int)) := by
  unfold accumulated
  by_cases hn : n = 0
  · subst hn
    simp
  · simp only [hn, if_false, Nat.add_eq_zero, one_ne_zero, and_false, Option.getD_some,
      Option.some.injEq]
    rw [int32_add_int32]
    congr 1
    push_cast
    ring

theorem accumulated_step_none (c : Int) (hc : int_range c) (n : Nat) :
    accumulated (some c) n (c * (n : Int)) =
      accumulated none (n + 1) (c * ((n + 1 : Nat) : Int)) := by
  have h := accumulated_step none c n
  simp only [Option.getD_none, zero_add] at h
  rw [int32_of_range c hc] at h
  exact h

theorem accumulated_accumulated (o : Option Int) (n1 n2 : Nat) (t1 t2 : Int)
    (h1 : n1 = 0 → t1 = 0) (h2 : n2 = 0 → t2 = 0) :
    accumulated (accumulated o n1 t1) n2 t2 = accumulated o (n1 + n2) (t1 + t2) := by
  unfold accumulated
  by_cases hn1 : n1 = 0
  · by_cases hn2 : n2 = 0
    · simp [hn1, hn2]
    · simp [hn1, hn2, h1 hn1]
  · by_cases hn2 : n2 = 0
    · simp [hn1, hn2, h2 hn2]
    · simp only [hn1, hn2, if_false, Option.getD_some, Nat.add_eq_zero, and_self,
        Option.some.injEq]
      rw [int32_add_int32, Int.add_assoc]

theorem map_find_get_successors_scan_eq (e c b : Int) (hb : b ≠ -1) (hc : int_range c)
    (v : List Int) :
    ∀ s : List (Int × Int), map_find (get_successors_scan e c v s) b =
      accumulated (map_find s b) (count_pairs e b v) (c * (count_pairs e b v : Int)) := by
  induction v with
  | nil => intro s; simp [get_successors_scan, count_pairs, accumulated]
  | cons a v ih =>
    cases v with
    | nil => intro s; simp [get_successors_scan, count_pairs, accumulated]
    | cons k rest =>
      intro s
      rw [get_successors_scan_cons_cons, count_pairs_cons_cons]
      by_cases hae : a = e
      · simp only [hae, ne_eq, not_true_eq_false, if_false, true_and]
        by_cases hk : k = -1
        · have hkb : ¬ k = b := fun h => hb (h ▸ hk)
          simp only [hk, if_true]
          rw [hk] at ih hkb
          rw [if_neg hkb]
          exact ih s
        · simp only [hk, if_false]
          by_cases hkb : k = b
          · subst hkb
            rw [if_pos rfl]
            cases hm : map_find s k with
            | none =>
              simp only
              rw [ih, map_find_put, if_pos rfl]
              exact accumulated_step_none c hc (count_pairs e k (k :: rest))
            | some c0 =>
              simp only
              rw [ih, map_find_put, if_pos rfl]
              have := accumulated_step (some c0) c (count_pairs e k (k :: rest))
              simpa using this
          · rw [if_neg hkb]
            have hbk : ¬ b = k := fun h => hkb h.symm
            cases hm : map_find s k with
            | none =>
              simp only
              rw [ih, map_find_put, if_neg hbk]
            | some c0 =>
              simp only
              rw [ih, map_find_put, if_neg hbk]
      · have : ¬ (a = e ∧ k = b) := fun h => hae h.1
        simp only [ne_eq, hae, not_false_eq_true, if_true, this, if_false]
        exact ih s

theorem get_predecessors_scan_cons_cons (e c k a : Int) (v : List Int) (s : List (Int × Int)) :
    get_predecessors_scan e c (k :: a :: v) s =
      if a ≠ e then get_predecessors_scan e c (a :: v) s
      else if k = -1 then get_predecessors_scan e c (a :: v) s
      else
        match map_find s k with
        | none => get_predecessors_scan e c (a :: v) (map_put s k c)
        | some c0 => get_predecessors_scan e c (a :: v) (map_put s k (int32 (c0 + c))) :=
  rfl

theorem map_find_get_predecessors_scan_eq (e c a : Int) (ha : a ≠ -1) (hc : int_range c)
    (v : List Int) :
    ∀ s : List (Int × Int), map_find (get_predecessors_scan e c v s) a =
      accumulated (map_find s a) (count_pairs a e v) (c * (count_pairs a e v : Int)) := by
  induction v with
  | nil => intro s; simp [get_predecessors_scan, count_pairs, accumulated]
  | cons k v ih =>
    cases v with
    | nil => intro s; simp [get_predecessors_scan, count_pairs, accumulated]
    | cons x rest =>
      intro s
      rw [get_predecessors_scan_cons_cons, count_pairs_cons_cons]
      by_cases hxe : x = e
      · simp only [hxe, ne_eq, not_true_eq_false, if_false, and_true]
        rw [hxe] at ih
        by_cases hk : k = -1
        · have hka : ¬ k = a := fun h => ha (h ▸ hk)
          simp only [hk, if_true]
          rw [hk] at hka
          rw [if_neg hka]
          exact ih s
        · simp only [hk, if_false]
          by_cases hka : k = a
          · subst hka
            rw [if_pos rfl]
            cases hm : map_find s k with
            | none =>
              simp only
              rw [ih, map_find_put, if_pos rfl]
              exact accumulated_step_none c hc (count_pairs k e (e :: rest))
            | some c0 =>
              simp only
              rw [ih, map_find_put, if_pos rfl]
              have := accumulated_step (some c0) c (count_pairs k e (e :: rest))
              simpa using this
          · rw [if_neg hka]
            have hak : ¬ a = k := fun h => hka h.symm
            cases hm : map_find s k with
            | none =>
              simp only
              rw [ih, map_find_put, if_neg hak]
            | some c0 =>
              simp only
              rw [ih, map_find_put, if_neg hak]
      · have hnot : ¬ (k = a ∧ x = e) := fun h => hxe h.2
        rw [if_neg hnot, if_pos hxe]
        exact ih s

theorem pair_weight_eq_zero (hs : hyper_set) (a b : Int) (ss : List Nat)
    (h : pair_count hs a b ss = 0) : pair_weight hs a b ss = 0 := by
  induction ss with
  | nil => rfl
  | cons k ss ih =>
    simp only [pair_count, List.map_cons, List.sum_cons, Nat.add_eq_zero] at h
    simp only [pair_weight, List.map_cons, List.sum_cons]
    have h2 := ih h.2
    simp only [pair_weight] at h2
    rw [h.1, h2]
    simp

theorem map_find_get_successors_rows_eq (hs : hyper_set) (e b : Int) (hb : b ≠ -1)
    (hrange : ∀ c ∈ hs.ecnts, int_range c) (ss : List Nat) :
    ∀ (s succ : List (Int × Int)), get_successors_rows hs e ss s = some succ →
      map_find succ b =
        accumulated (map_find s b) (pair_count hs e b ss) (pair_weight hs e b ss) := by
  induction ss with
  | nil =>
    intro s succ h
    simp only [get_successors_rows, Option.some.injEq] at h
    subst h
    simp [accumulated, pair_count]
  | cons k ss ih =>
    intro s succ h
    rw [get_successors_rows] at h
    cases hv : hs.edges[k]? with
    | none => simp [hv] at h
    | some v =>
      cases hc : hs.ecnts[k]? with
      | none => simp [hv, hc] at h
      | some c =>
        simp only [hv, hc] at h
        rw [ih _ succ h,
          map_find_get_successors_scan_eq e c b hb (hrange c (List.getElem?_mem hc)) v s,
          accumulated_accumulated _ _ _ _ _ (fun h0 => by rw [h0]; simp)
            (pair_weight_eq_zero hs e b ss)]
        have hv' : hs.edges.getD k [] = v := by
          rw [List.getD_eq_getElem?_getD, hv]
          rfl
        have hc' : hs.ecnts.getD k 0 = c := by
          rw [List.getD_eq_getElem?_getD, hc]
          rfl
        simp only [pair_count, pair_weight, List.map_cons, List.sum_cons, hv', hc']

theorem map_find_get_predecessors_rows_eq (hs : hyper_set) (e a : Int) (ha : a ≠ -1)
    (hrange : ∀ c ∈ hs.ecnts, int_range c) (ss : List Nat) :
    ∀ (s pred : List (Int × Int)), get_predecessors_rows hs e ss s = some pred →
      map_find pred a =
        accumulated (map_find s a) (pair_count hs a e ss) (pair_weight hs a e ss) := by
  induction ss with
  | nil =>
    intro s pred h
    simp only [get_predecessors_rows, Option.some.injEq] at h
    subst h
    simp [accumulated, pair_count]
  | cons k ss ih =>
    intro s pred h
    rw [get_predecessors_rows] at h
    cases hv : hs.edges[k]? with
    | none => simp [hv] at h
    | some v =>
      cases hc : hs.ecnts[k]? with
      | none => simp [hv, hc] at h
      | some c =>
        simp only [hv, hc] at h
        rw [ih _ pred h,
          map_find_get_predecessors_scan_eq e c a ha (hrange c (List.getElem?_mem hc)) v s,
          accumulated_accumulated _ _ _ _ _ (fun h0 => by rw [h0]; simp)
            (pair_weight_eq_zero hs a e ss)]
        have hv' : hs.edges.getD k [] = v := by
          rw [List.getD_eq_getElem?_getD, hv]
          rfl
        have hc' : hs.ecnts.getD k 0 = c := by
          rw [List.getD_eq_getElem?_getD, hc]
          rfl
        simp only [pair_count, pair_weight, List.map_cons, List.sum_cons, hv', hc']

theorem get_predecessors_rows_some (hs : hyper_set) (e : Int) (ss : List Nat)
    (h : ∀ k ∈ ss, k < hs.edges.length ∧ k < hs.ecnts.length) :
    ∀ s : List (Int × Int), ∃ pred, get_predecessors_rows hs e ss s = some pred := by
  induction ss with
  | nil => exact fun s => ⟨s, rfl⟩
  | cons k ss ih =>
    intro s
    obtain ⟨h1, h2⟩ := h k (List.mem_cons_self _ _)
    rw [get_predecessors_rows, List.getElem?_eq_getElem h1, List.getElem?_eq_getElem h2]
    exact ih (fun k' hk' => h k' (List.mem_cons_of_mem _ hk')) _

theorem sum_map_eq_sum_range {M : Type} [AddCommMonoid M] (f : Nat → M) (ss : List Nat)
    (n : Nat) (hnd : ss.Nodup) (hsub : ∀ i ∈ ss, i < n) (hz : ∀ i, i < n → i ∉ ss → f i = 0) :
    (ss.map f).sum = ((List.range n).map f).sum := by
  rw [← List.sum_toFinset f hnd, ← List.sum_toFinset f (List.nodup_range n)]
  apply Finset.sum_subset
  · intro i hi
    rw [List.mem_toFinset] at hi ⊢
    exact List.mem_range.mpr (hsub i hi)
  · intro i hi hni
    rw [List.mem_toFinset] at hi hni
    exact hz i (List.mem_range.mp hi) hni

theorem mem_snd_of_has_pair (x y : Int) (row : List Int) (h : has_pair x y row) : y ∈ row :=
  List.mem_of_mem_tail (List.of_mem_zip h).2

theorem count_pairs_eq_zero (x y : Int) (row : List Int) (h : ¬ has_pair x y row) :
    count_pairs x y row = 0 := by
  by_contra hne
  exact h ((count_pairs_pos_iff x y row).mp (by omega))

/-- The sums over the rows listed under a key `u` are the sums over all rows, when the
rows that are not listed hold no pair `(a, b)`. -/
theorem pair_sums_of_listed (hs : hyper_set) (a b u : Int) (ss : List Nat)
    (hidx : index_lists_rows hs) (hfind : map_find hs.e2s u = some ss) (hune : u ≠ -1)
    (hu : ∀ row, has_pair a b row → u ∈ row) :
    pair_count hs a b ss = pair_count hs a b (List.range hs.edges.length) ∧
      pair_weight hs a b ss = pair_weight hs a b (List.range hs.edges.length) := by
  have hnd : ss.Nodup := (hidx.1 u ss hfind).imp (fun h => Nat.ne_of_lt h)
  have hsub : ∀ i ∈ ss, i < hs.edges.length := by
    intro i hi
    obtain ⟨-, row, hrow, -⟩ := (hidx.2 u i).mp ⟨ss, hfind, hi⟩
    exact (List.getElem?_eq_some.mp hrow).1
  have hz : ∀ i, i < hs.edges.length → i ∉ ss →
      count_pairs a b (hs.edges.getD i []) = 0 := by
    intro i hi hni
    apply count_pairs_eq_zero
    intro hp
    have hrow : hs.edges[i]? = some (hs.edges.getD i []) := by
      rw [List.getD_eq_getElem?_getD, List.getElem?_eq_getElem hi]
      rfl
    obtain ⟨s', hs', hmem⟩ := (hidx.2 u i).mpr ⟨hune, _, hrow, hu _ hp⟩
    rw [hfind] at hs'
    simp only [Option.some.injEq] at hs'
    exact hni (hs' ▸ hmem)
  constructor
  · exact sum_map_eq_sum_range _ ss _ hnd hsub hz
  · exact sum_map_eq_sum_range _ ss _ hnd hsub (fun i hi hni => by rw [hz i hi hni]; simp)

theorem pair_count_eq_zero_iff (hs : hyper_set) (a b : Int) :
    pair_count hs a b (List.range hs.edges.length) = 0 ↔
      ∀ row ∈ hs.edges, ¬ has_pair a b row := by
  simp only [pair_count, List.sum_eq_zero_iff, List.mem_map, List.mem_range,
    forall_exists_index, and_imp, forall_apply_eq_imp_iff₂]
  constructor
  · intro h row hrow hp
    obtain ⟨i, hi⟩ := List.mem_iff_getElem?.mp hrow
    have hlt : i < hs.edges.length := (List.getElem?_eq_some.mp hi).1
    have := h i hlt
    rw [List.getD_eq_getElem?_getD, hi] at this
    have hpos := (count_pairs_pos_iff a b row).mpr hp
    simp only [Option.getD_some] at this
    omega
  · intro h i hi
    apply count_pairs_eq_zero
    apply h
    rw [List.getD_eq_getElem?_getD, List.getElem?_eq_getElem hi]
    exact List.getElem_mem hi

/-- What `get_successors(a)` holds under the key `b`. -/
theorem get_successors_value (hs : hyper_set) (a b : Int) (hidx : index_lists_rows hs)
    (hcnt : hs.ecnts.length = hs.edges.length) (hrange : ∀ c ∈ hs.ecnts, int_range c)
    (ha : a ≠ -1) (hb : b ≠ -1) :
    ∃ succ, get_successors hs a = some succ ∧
      map_find succ b =
        if pair_count hs a b (List.range hs.edges.length) = 0 then none
        else some (int32 (pair_weight hs a b (List.range hs.edges.length))) := by
  unfold get_successors
  cases hfind : map_find hs.e2s a with
  | none =>
    refine ⟨[], rfl, ?_⟩
    have hno : ∀ row ∈ hs.edges, ¬ has_pair a b row := by
      intro row hrow hp
      obtain ⟨i, hi⟩ := List.mem_iff_getElem?.mp hrow
      obtain ⟨s, hs1, -⟩ := (hidx.2 a i).mpr ⟨ha, row, hi, mem_of_has_pair a b row hp⟩
      rw [hfind] at hs1
      exact absurd hs1 (by simp)
    rw [if_pos ((pair_count_eq_zero_iff hs a b).mpr hno)]
    rfl
  | some ss =>
    have hrows : ∀ k ∈ ss, k < hs.edges.length ∧ k < hs.ecnts.length := by
      intro k hk
      obtain ⟨-, row, hrow, -⟩ := (hidx.2 a k).mp ⟨ss, hfind, hk⟩
      have := (List.getElem?_eq_some.mp hrow).1
      exact ⟨this, by omega⟩
    obtain ⟨succ, hsucc⟩ := get_successors_rows_some hs a ss hrows []
    refine ⟨succ, hsucc, ?_⟩
    obtain ⟨h1, h2⟩ := pair_sums_of_listed hs a b a ss hidx hfind ha
      (fun row hp => mem_of_has_pair a b row hp)
    rw [map_find_get_successors_rows_eq hs a b hb hrange ss [] succ hsucc, h1, h2]
    simp [accumulated, map_find]

/-- What `get_predecessors(b)` holds under the key `a`. -/
theorem get_predecessors_value (hs : hyper_set) (a b : Int) (hidx : index_lists_rows hs)
    (hcnt : hs.ecnts.length = hs.edges.length) (hrange : ∀ c ∈ hs.ecnts, int_range c)
    (ha : a ≠ -1) (hb : b ≠ -1) :
    ∃ pred, get_predecessors hs b = some pred ∧
      map_find pred a =
        if pair_count hs a b (List.range hs.edges.length) = 0 then none
        else some (int32 (pair_weight hs a b (List.range hs.edges.length))) := by
  unfold get_predecessors
  cases hfind : map_find hs.e2s b with
  | none =>
    refine ⟨[], rfl, ?_⟩
    have hno : ∀ row ∈ hs.edges, ¬ has_pair a b row := by
      intro row hrow hp
      obtain ⟨i, hi⟩ := List.mem_iff_getElem?.mp hrow
      obtain ⟨s, hs1, -⟩ := (hidx.2 b i).mpr ⟨hb, row, hi, mem_snd_of_has_pair a b row hp⟩
      rw [hfind] at hs1
      exact absurd hs1 (by simp)
    rw [if_pos ((pair_count_eq_zero_iff hs a b).mpr hno)]
    rfl
  | some ss =>
    have hrows : ∀ k ∈ ss, k < hs.edges.length ∧ k < hs.ecnts.length := by
      intro k hk
      obtain ⟨-, row, hrow, -⟩ := (hidx.2 b k).mp ⟨ss, hfind, hk⟩
      have := (List.getElem?_eq_some.mp hrow).1
      exact ⟨this, by omega⟩
    obtain ⟨pred, hpred⟩ := get_predecessors_rows_some hs b ss hrows []
    refine ⟨pred, hpred, ?_⟩
    obtain ⟨h1, h2⟩ := pair_sums_of_listed hs a b b ss hidx hfind hb
      (fun row hp => mem_snd_of_has_pair a b row hp)
    rw [map_find_get_predecessors_rows_eq hs b a ha hrange ss [] pred hpred, h1, h2]
    simp [accumulated, map_find]

/-- Claim C39 (what the code does). For every hyper-set whose index lists, for each
edge, the rows containing it, with as many counts as rows, each an `int`, and all edges
`a`, `b` other than `-1`: `get_successors(a)` and `get_predecessors(b)` return,
`get_successors(a)` has the key `b` if and only if `get_predecessors(b)` has the key
`a`, which is the case exactly when some row holds `a` immediately followed by `b`, and
then both map to the same value: the sum over all rows of the count of the row times the
number of its places where `a` is immediately followed by `b`, reduced to the range of
`int` as the additions of `int`s reduce it, and so that sum itself whenever it lies in
the range of `int`. -/
theorem successors_predecessors_agree (hs : hyper_set) (a b : Int)
    (hidx : index_lists_rows hs) (hcnt : hs.ecnts.length = hs.edges.length)
    (hrange : ∀ c ∈ hs.ecnts, int_range c) (ha : a ≠ -1) (hb : b ≠ -1) :
    ∃ succ pred, get_successors hs a = some succ ∧ get_predecessors hs b = some pred ∧
      map_find succ b = map_find pred a ∧
      ((map_find succ b).isSome ↔ ∃ row ∈ hs.edges, has_pair a b row) ∧
      ((map_find pred a).isSome ↔ ∃ row ∈ hs.edges, has_pair a b row) ∧
      ((∃ row ∈ hs.edges, has_pair a b row) →
        map_find succ b = some (int32 (pair_weight hs a b (List.range hs.edges.length))) ∧
        map_find pred a = some (int32 (pair_weight hs a b (List.range hs.edges.length))) ∧
        (int_range (pair_weight hs a b (List.range hs.edges.length)) →
          map_find succ b = some (pair_weight hs a b (List.range hs.edges.length)) ∧
          map_find pred a = some (pair_weight hs a b (List.range hs.edges.length)))) := by
  obtain ⟨succ, h1, h2⟩ := get_successors_value hs a b hidx hcnt hrange ha hb
  obtain ⟨pred, h3, h4⟩ := get_predecessors_value hs a b hidx hcnt hrange ha hb
  have hz := pair_count_eq_zero_iff hs a b
  have hex : (∃ row ∈ hs.edges, has_pair a b row) ↔
      ¬ pair_count hs a b (List.range hs.edges.length) = 0 := by
    rw [hz]
    push_neg
    rfl
  refine ⟨succ, pred, h1, h3, by rw [h2, h4], ?_, ?_, ?_⟩
  · rw [h2, hex]
    by_cases h0 : pair_count hs a b (List.range hs.edges.length) = 0
    · simp [h0]
    · simp [h0]
  · rw [h4, hex]
    by_cases h0 : pair_count hs a b (List.range hs.edges.length) = 0
    · simp [h0]
    · simp [h0]
  · intro h
    have h0 := hex.mp h
    rw [h2, h4, if_neg h0]
    refine ⟨rfl, rfl, fun hr => ?_⟩
    rw [int32_of_range _ hr]
    exact ⟨rfl, rfl⟩

/-- In `example_rows`, `2` is immediately followed by `3` once in row `0`, of count `7`,
and twice in row `2`, of count `2`: `get_successors(2)` and `get_predecessors(3)` hold
`7 + 2 · 2 = 11` under the keys `3` and `2`. -/
theorem successors_predecessors_agree_witness :
    ∃ succ pred, get_successors (build_index example_rows) 2 = some succ ∧
      get_predecessors (build_index example_rows) 3 = some pred ∧
      map_find succ 3 = some 11 ∧ map_find pred 2 = some 11 := by
  obtain ⟨succ, pred, h1, h2, -, -, -, h6⟩ :=
    successors_predecessors_agree (build_index example_rows) 2 3
      (index_lists_rows_build_index example_rows) (by decide) (by decide) (by decide)
      (by decide)
  have hp : ∃ row ∈ (build_index example_rows).edges, has_pair 2 3 row :=
    ⟨[1, 2, 3], by decide, (has_pair_cons_cons 2 3 1 2 [3]).mpr (Or.inr (by simp [has_pair]))⟩
  have hw : pair_weight (build_index example_rows) 2 3
      (List.range (build_index example_rows).edges.length) = 11 := by decide
  obtain ⟨-, -, h9⟩ := h6 hp
  rw [hw] at h9
  obtain ⟨h7, h8⟩ := h9 (by decide)
  exact ⟨succ, pred, h1, h2, h7, h8⟩

/-- In `example_heavy_rows` both rows hold `1` immediately followed by `2`, with the
counts `2147483647` and `1`: `get_successors(1)` and `get_predecessors(2)` hold
`-2147483648`, and the sum of the counts is `2147483648`. -/
theorem successors_sum_wraps :
    get_successors (build_index example_heavy_rows) 1 = some [(2, -2147483648)] ∧
      get_predecessors (build_index example_heavy_rows) 2 = some [(1, -2147483648)] ∧
      pair_weight (build_index example_heavy_rows) 1 2
        (List.range (build_index example_heavy_rows).edges.length) = 2147483648 := by
  decide

/-! ### The vertex weights that `phaser::assign_gt` leaves at `-1` -/

/-- On `example_locus_regions`, with no junction and no partial exon in the two regions
without a variant, the exon of allele `A` gets the left type `START_BOUNDARY = 1` and
the exon of allele `C` the left type `16` of its region; on the right it is the exon of
allele `C` that gets `END_BOUNDARY = 2`. -/
theorem build_as_pexons_example :
    build_as_pexons example_boundary_types [] example_locus_regions [(0, 0, 0), (5, 5, 1), (5, 5, 1), (0, 0, 0)]
        ([[], [], [], []], []) =
      some ([[], [example_pexon_a], [example_pexon_c], []],
        [example_pexon_a, example_pexon_c]) := by
  decide

theorem as_pexon_ltype_congr (bt : boundary_types) (m1 : List Int) (regions : List region)
    (rp0 rp : List (List partial_exon)) (i : Nat) (r : region)
    (h : pexons_agree regions rp0 rp) :
    as_pexon_ltype bt m1 regions rp i r = as_pexon_ltype bt m1 regions rp0 i r := by
  unfold as_pexon_ltype
  by_cases h1 : r.lpos.p32 ∈ m1
  · rw [if_pos h1, if_pos h1]
  · rw [if_neg h1, if_neg h1]
    by_cases h2 : i ≥ 1 ∧ (regions[i - 1]?).map region.is_allelic = some true
    · rw [if_pos h2, if_pos h2]
    · rw [if_neg h2, if_neg h2]
      by_cases hi : i ≥ 1
      · have hk : rp[i - 1]? = rp0[i - 1]? := h (i - 1) (fun hh => h2 ⟨hi, hh⟩)
        rw [hk]
      · have c1 : ∀ P : Prop, ¬ (i ≥ 1 ∧ P) := fun P hP => hi hP.1
        rw [if_neg (c1 _), if_neg (c1 _), if_neg (c1 _), if_neg (c1 _)]

theorem as_pexon_rtype_congr (bt : boundary_types) (m2 : List Int) (regions : List region)
    (rp0 rp : List (List partial_exon)) (i : Nat) (r : region)
    (h : pexons_agree regions rp0 rp) :
    as_pexon_rtype bt m2 regions rp i r = as_pexon_rtype bt m2 regions rp0 i r := by
  unfold as_pexon_rtype
  by_cases h1 : r.rpos.p32 ∈ m2
  · rw [if_pos h1, if_pos h1]
  · rw [if_neg h1, if_neg h1]
    by_cases h2 : i + 1 < regions.length ∧ (regions[i + 1]?).map region.is_allelic = some true
    · rw [if_pos h2, if_pos h2]
    · rw [if_neg h2, if_neg h2]
      by_cases hi : i + 1 < regions.length
      · have hk : rp[i + 1]? = rp0[i + 1]? := h (i + 1) (fun hh => h2 ⟨hi, hh⟩)
        rw [hk]
      · have c1 : ∀ P : Prop, ¬ (i + 1 < regions.length ∧ P) := fun P hP => hi hP.1
        rw [if_neg (c1 _), if_neg (c1 _), if_neg (c1 _), if_neg (c1 _)]

theorem as_pexon_congr (bt : boundary_types) (m1 m2 : List Int) (regions : List region)
    (rp0 rp : List (List partial_exon)) (i : Nat) (r : region) (c : ℚ × ℚ × ℚ)
    (h : pexons_agree regions rp0 rp) :
    as_pexon bt m1 m2 regions rp i r c = as_pexon bt m1 m2 regions rp0 i r c := by
  unfold as_pexon
  rw [as_pexon_ltype_congr bt m1 regions rp0 rp i r h,
    as_pexon_rtype_congr bt m2 regions rp0 rp i r h]

/-- One round of the loop: for a region without a variant nothing changes; for an
allelic region the exon `as_pexon` is stored in `regions[i].pexons` and appended to
`pexons`. -/
theorem add_as_pexon_spec (bt : boundary_types) (m1 m2 : List Int) (regions : List region)
    (cov : List (ℚ × ℚ × ℚ)) (i : Nat) (st st' : List (List partial_exon) × List partial_exon)
    (h : add_as_pexon bt m1 m2 regions cov i st = some st') :
    ∃ r ps c, regions[i]? = some r ∧ st.1[i]? = some ps ∧ cov[i]? = some c ∧
      ((r.is_allelic = false ∧ st' = st) ∨
        (r.is_allelic = true ∧
          st' = (st.1.set i [as_pexon bt m1 m2 regions st.1 i r c],
            st.2 ++ [as_pexon bt m1 m2 regions st.1 i r c]))) := by
  unfold add_as_pexon at h
  cases hr : regions[i]? with
  | none => simp [hr] at h
  | some r =>
    cases hps : st.1[i]? with
    | none => simp [hr, hps] at h
    | some ps =>
      cases hc : cov[i]? with
      | none => simp [hr, hps, hc] at h
      | some c =>
        simp only [hr, hps, hc] at h
        refine ⟨r, ps, c, rfl, rfl, rfl, ?_⟩
        by_cases ha : r.is_allelic = true
        · rw [if_pos ha] at h
          by_cases h1 : ¬ (ps.length = 0)
          · rw [if_pos h1] at h
            exact absurd h (by simp)
          · rw [if_neg h1] at h
            by_cases h2 : as_pexon_ltype bt m1 regions st.1 i r = -1
            · rw [if_pos h2] at h
              exact absurd h (by simp)
            · rw [if_neg h2] at h
              by_cases h3 : as_pexon_rtype bt m2 regions st.1 i r = -1
              · rw [if_pos h3] at h
                exact absurd h (by simp)
              · rw [if_neg h3] at h
                by_cases h4 : c.1 = 0
                · rw [if_pos h4] at h
                  exact absurd h (by simp)
                · rw [if_neg h4, Option.some.injEq] at h
                  exact Or.inr ⟨ha, h.symm⟩
        · rw [if_neg ha, Option.some.injEq] at h
          exact Or.inl ⟨by simpa using ha, h.symm⟩

theorem add_as_pexons_spec (bt : boundary_types) (m1 m2 : List Int) (regions : List region)
    (cov : List (ℚ × ℚ × ℚ)) (rp0 : List (List partial_exon)) (l : List Nat) (hnd : l.Nodup) :
    ∀ st st' : List (List partial_exon) × List partial_exon,
      add_as_pexons bt m1 m2 regions cov l st = some st' → pexons_agree regions rp0 st.1 →
      pexons_agree regions rp0 st'.1 ∧ (∀ k : Nat, k ∉ l → st'.1[k]? = st.1[k]?) ∧
      (∀ p ∈ st.2, p ∈ st'.2) ∧
      ∀ i ∈ l, ∀ r, regions[i]? = some r → r.is_allelic = true →
        ∃ c, cov[i]? = some c ∧
          st'.1[i]? = some [as_pexon bt m1 m2 regions rp0 i r c] ∧
          as_pexon bt m1 m2 regions rp0 i r c ∈ st'.2 := by
  induction l with
  | nil =>
    intro st st' h hag
    simp only [add_as_pexons, Option.some.injEq] at h
    subst h
    exact ⟨hag, fun _ _ => rfl, fun _ hp => hp, fun i hi => absurd hi (List.not_mem_nil i)⟩
  | cons i l ih =>
    intro st st' h hag
    have hil : i ∉ l := (List.nodup_cons.mp hnd).1
    rw [add_as_pexons] at h
    cases h1 : add_as_pexon bt m1 m2 regions cov i st with
    | none => simp [h1] at h
    | some st1 =>
      simp only [h1] at h
      obtain ⟨r, ps, c, hr, hps, hc, hcase⟩ := add_as_pexon_spec bt m1 m2 regions cov i st st1 h1
      have hilt : i < st.1.length := (List.getElem?_eq_some.mp hps).1
      rcases hcase with ⟨hna, hst⟩ | ⟨ha, hst⟩
      · subst hst
        obtain ⟨q1, q2, q3, q4⟩ := ih (List.nodup_cons.mp hnd).2 st1 st' h hag
        refine ⟨q1, fun k hk => q2 k (fun hh => hk (List.mem_cons_of_mem _ hh)), q3, ?_⟩
        intro j hj r' hr' ha'
        rcases List.mem_cons.mp hj with rfl | hj
        · rw [hr] at hr'
          simp only [Option.some.injEq] at hr'
          subst hr'
          rw [hna] at ha'
          exact absurd ha' (by simp)
        · exact q4 j hj r' hr' ha'
      · have hpe := as_pexon_congr bt m1 m2 regions rp0 st.1 i r c hag
        rw [hpe] at hst
        have hag1 : pexons_agree regions rp0 st1.1 := by
          intro k hk
          have hki : i ≠ k := by
            intro hh
            subst hh
            rw [hr] at hk
            simp only [Option.map_some', ne_eq, Option.some.injEq] at hk
            exact hk ha
          rw [hst]
          simp only
          rw [List.getElem?_set_ne hki]
          exact hag k hk
        obtain ⟨q1, q2, q3, q4⟩ := ih (List.nodup_cons.mp hnd).2 st1 st' h hag1
        refine ⟨q1, ?_, ?_, ?_⟩
        · intro k hk
          have hki : i ≠ k := fun hh => hk (hh ▸ List.mem_cons_self _ _)
          rw [q2 k (fun hh => hk (List.mem_cons_of_mem _ hh)), hst]
          simp only
          rw [List.getElem?_set_ne hki]
        · intro p hp
          apply q3
          rw [hst]
          exact List.mem_append_left _ hp
        · intro j hj r' hr' ha'
          rcases List.mem_cons.mp hj with rfl | hj
          · rw [hr] at hr'
            simp only [Option.some.injEq] at hr'
            subst hr'
            refine ⟨c, hc, ?_, ?_⟩
            · rw [q2 j hil, hst]
              simp only
              rw [List.getElem?_set_self hilt]
            · apply q3
              rw [hst]
              simp
          · exact q4 j hj r' hr' ha'

theorem as_pexon_ltype_after_allele (bt : boundary_types) (m1 : List Int)
    (regions : List region) (rp : List (List partial_exon)) (i : Nat) (a b : region)
    (ha : regions[i]? = some a) (haa : a.is_allelic = true) :
    as_pexon_ltype bt m1 regions rp (i + 1) b = b.ltype := by
  unfold as_pexon_ltype
  by_cases h1 : b.lpos.p32 ∈ m1
  · rw [if_pos h1]
  · rw [if_neg h1, if_pos]
    refine ⟨by omega, ?_⟩
    rw [Nat.add_sub_cancel, ha]
    simp [haa]

theorem as_pexon_rtype_before_allele (bt : boundary_types) (m2 : List Int)
    (regions : List region) (rp : List (List partial_exon)) (i : Nat) (a b : region)
    (hb : regions[i + 1]? = some b) (hbb : b.is_allelic = true) :
    as_pexon_rtype bt m2 regions rp i a = a.rtype := by
  unfold as_pexon_rtype
  by_cases h1 : a.rpos.p32 ∈ m2
  · rw [if_pos h1]
  · rw [if_neg h1, if_pos]
    refine ⟨(List.getElem?_eq_some.mp hb).1, ?_⟩
    rw [hb]
    simp [hbb]

theorem as_pexon_ltype_start (bt : boundary_types) (m1 : List Int) (regions : List region)
    (rp : List (List partial_exon)) (i : Nat) (a : region) (h1 : a.lpos.p32 ∉ m1)
    (h : i = 0 ∨ empty_on_left regions rp i) :
    as_pexon_ltype bt m1 regions rp i a = bt.START_BOUNDARY := by
  unfold as_pexon_ltype
  rw [if_neg h1]
  rcases h with h0 | ⟨p, hi, hp, hpa, hemp⟩
  · subst h0
    have c1 : ∀ P : Prop, ¬ (0 ≥ 1 ∧ P) := fun P hP => absurd hP.1 (by omega)
    rw [if_neg (c1 _), if_neg (c1 _), if_neg (c1 _)]
  · rw [if_neg]
    · rcases hemp with he | ⟨ps, pe, hps, hlast, hty⟩
      · rw [if_pos]
        exact ⟨hi, by rw [he]; rfl⟩
      · by_cases h3 : i ≥ 1 ∧ (rp[i - 1]?).map List.length = some 0
        · rw [if_pos h3]
        · rw [if_neg h3, if_neg]
          rintro ⟨-, h4⟩
          rw [hps] at h4
          simp only [Option.some_bind, hlast, Option.map_some', Option.some.injEq,
            decide_eq_true_eq] at h4
          exact h4 hty
    · rintro ⟨-, h2⟩
      rw [hp] at h2
      simp [hpa] at h2

theorem as_pexon_rtype_end (bt : boundary_types) (m2 : List Int) (regions : List region)
    (rp : List (List partial_exon)) (i : Nat) (b : region) (h1 : b.rpos.p32 ∉ m2)
    (h : i + 1 = regions.length ∨ empty_on_right regions rp i) :
    as_pexon_rtype bt m2 regions rp i b = bt.END_BOUNDARY := by
  unfold as_pexon_rtype
  rw [if_neg h1]
  rcases h with h0 | ⟨p, hp, hpa, hemp⟩
  · have c1 : ∀ P : Prop, ¬ (i + 1 < regions.length ∧ P) :=
      fun P hP => absurd hP.1 (by omega)
    rw [if_neg (c1 _), if_neg (c1 _), if_neg (c1 _)]
  · have hi : i + 1 < regions.length := (List.getElem?_eq_some.mp hp).1
    rw [if_neg]
    · rcases hemp with he | ⟨ps, pe, hps, hfirst, hty⟩
      · rw [if_pos]
        exact ⟨hi, by rw [he]; rfl⟩
      · by_cases h3 : i + 1 < regions.length ∧ (rp[i + 1]?).map List.length = some 0
        · rw [if_pos h3]
        · rw [if_neg h3, if_neg]
          rintro ⟨-, h4⟩
          rw [hps] at h4
          simp only [Option.some_bind, hfirst, Option.map_some', Option.some.injEq,
            decide_eq_true_eq] at h4
          exact h4 hty
    · rintro ⟨-, h2⟩
      rw [hp] at h2
      simp [hpa] at h2

/-- C37 (what the code does). When the loop of `build_partial_exons` over the allelic
regions returns, every allelic region `regions[i]` has the one partial exon `as_pexon`,
whose types are chosen from the lists `regions[k].pexons` as they were before the loop.
For two allelic regions `a = regions[i]` and `b = regions[i + 1]` that follow each
other, as the parallel regions of a locus do: the exon of `b` has the left type of its
region and the exon of `a` the right type of its region; but the exon of `a` has the
left type `START_BOUNDARY` when the left end is not a junction site and the region
before `a` is missing, or is a region without a variant that has no partial exon or
ends in an `EMPTY_VERTEX`, and the exon of `b` has the right type `END_BOUNDARY` in the
mirrored case. The two exons then differ in type unless the type of the region is that
boundary type. -/
theorem parallel_alleles_boundary_types (bt : boundary_types) (junctions : List junction)
    (regions : List region) (cov : List (ℚ × ℚ × ℚ))
    (rp0 rp : List (List partial_exon)) (pexons0 pexons : List partial_exon)
    (h : build_as_pexons bt junctions regions cov (rp0, pexons0) = some (rp, pexons)) :
    (∀ (i : Nat) (r : region), regions[i]? = some r → r.is_allelic = true →
      ∃ c, cov[i]? = some c ∧
        rp[i]? = some [as_pexon bt (junctions.map (fun j => (ofLex j.pos).1))
          (junctions.map (fun j => (ofLex j.pos).2)) regions rp0 i r c] ∧
        as_pexon bt (junctions.map (fun j => (ofLex j.pos).1))
          (junctions.map (fun j => (ofLex j.pos).2)) regions rp0 i r c ∈ pexons) ∧
    ∀ (i : Nat) (a b : region), regions[i]? = some a → regions[i + 1]? = some b →
      a.is_allelic = true → b.is_allelic = true →
      as_pexon_ltype bt (junctions.map (fun j => (ofLex j.pos).1)) regions rp0 (i + 1) b =
        b.ltype ∧
      as_pexon_rtype bt (junctions.map (fun j => (ofLex j.pos).2)) regions rp0 i a =
        a.rtype ∧
      (a.lpos.p32 ∉ junctions.map (fun j => (ofLex j.pos).1) →
        i = 0 ∨ empty_on_left regions rp0 i →
        as_pexon_ltype bt (junctions.map (fun j => (ofLex j.pos).1)) regions rp0 i a =
          bt.START_BOUNDARY) ∧
      (b.rpos.p32 ∉ junctions.map (fun j => (ofLex j.pos).2) →
        i + 1 + 1 = regions.length ∨ empty_on_right regions rp0 (i + 1) →
        as_pexon_rtype bt (junctions.map (fun j => (ofLex j.pos).2)) regions rp0 (i + 1) b =
          bt.END_BOUNDARY) := by
  unfold build_as_pexons at h
  obtain ⟨-, -, -, q4⟩ := add_as_pexons_spec bt _ _ regions cov rp0
    (List.range regions.length) (List.nodup_range _) (rp0, pexons0) (rp, pexons) h
    (fun _ _ => rfl)
  refine ⟨?_, ?_⟩
  · intro i r hr ha
    exact q4 i (List.mem_range.mpr (List.getElem?_eq_some.mp hr).1) r hr ha
  · intro i a b ha hb haa hbb
    exact ⟨as_pexon_ltype_after_allele bt _ regions rp0 i a b ha haa,
      as_pexon_rtype_before_allele bt _ regions rp0 i a b hb hbb,
      fun h1 h2 => as_pexon_ltype_start bt _ regions rp0 i a h1 h2,
      fun h1 h2 => as_pexon_rtype_end bt _ regions rp0 (i + 1) b h1 h2⟩

/-- On `example_locus_regions` the two parallel regions `[130, 131)` of the alleles `A`
and `C` get partial exons with the left types `START_BOUNDARY = 1` and `16` and with the
right types `32` and `END_BOUNDARY = 2`. -/
theorem parallel_alleles_boundary_types_witness :
    build_as_pexons example_boundary_types [] example_locus_regions
        [(0, 0, 0), (5, 5, 1), (5, 5, 1), (0, 0, 0)] ([[], [], [], []], []) =
      some ([[], [example_pexon_a], [example_pexon_c], []],
        [example_pexon_a, example_pexon_c]) ∧
    as_pexon_ltype example_boundary_types [] example_locus_regions [[], [], [], []] 1
      example_region_a = 1 ∧
    as_pexon_ltype example_boundary_types [] example_locus_regions [[], [], [], []] 2
      example_region_c = 16 := by
  have h := (parallel_alleles_boundary_types example_boundary_types [] example_locus_regions
    [(0, 0, 0), (5, 5, 1), (5, 5, 1), (0, 0, 0)] [[], [], [], []]
    [[], [example_pexon_a], [example_pexon_c], []] [] [example_pexon_a, example_pexon_c]
    build_as_pexons_example).2 1 example_region_a example_region_c (by decide) (by decide)
    (by decide) (by decide)
  refine ⟨build_as_pexons_example, ?_, h.1⟩
  exact h.2.2.1 (by simp)
    (Or.inr ⟨example_region_left, by decide, by decide, by decide, Or.inl (by decide)⟩)

/-! ### The index `e2s` under the operations that edit rows -/

theorem map_ext_of_sorted {β : Type} (m1 m2 : List (Int × β)) (h1 : map_sorted m1)
    (h2 : map_sorted m2) (h : ∀ k, map_find m1 k = map_find m2 k) : m1 = m2 := by
  have hmem : ∀ (m m' : List (Int × β)), map_sorted m → map_sorted m' →
      (∀ k, map_find m k = map_find m' k) → ∀ p, p ∈ m → p ∈ m' := by
    intro m m' hm _ hf p hp
    obtain ⟨k, v⟩ := p
    have := map_find_of_mem_sorted m hm k v hp
    rw [hf k] at this
    exact mem_of_map_find m' k v this
  have hnd : ∀ m : List (Int × β), map_sorted m → m.Nodup := by
    intro m hm
    have hk : (m.map Prod.fst).Nodup := hm.imp (fun hlt => ne_of_lt hlt)
    exact List.Nodup.of_map _ hk
  have hperm : m1.Perm m2 := by
    rw [List.perm_ext_iff_of_nodup (hnd m1 h1) (hnd m2 h2)]
    intro p
    exact ⟨hmem m1 m2 h1 h2 h p, hmem m2 m1 h2 h1 (fun k => (h k).symm) p⟩
  have hs : ∀ m : List (Int × β), map_sorted m →
      m.Sorted (fun a b : Int × β => a.1 < b.1) := by
    intro m hm
    exact List.pairwise_map.mp hm
  haveI : IsAntisymm (Int × β) (fun a b => a.1 < b.1) :=
    ⟨fun a b hab hba => absurd hab (lt_asymm hba)⟩
  exact List.eq_of_perm_of_sorted hperm (hs m1 h1) (hs m2 h2)

theorem sorted_set_ext (s t : List Nat) (hs : s.Pairwise (fun a b => a < b))
    (ht : t.Pairwise (fun a b => a < b)) (h : ∀ i, i ∈ s ↔ i ∈ t) : s = t := by
  have hperm : s.Perm t := by
    rw [List.perm_ext_iff_of_nodup (hs.imp (fun hlt => ne_of_lt hlt))
      (ht.imp (fun hlt => ne_of_lt hlt))]
    exact h
  exact List.eq_of_perm_of_sorted hperm hs ht

/-- Two indexes that list the same rows hold the same sets. -/
theorem map_find_eq_of_mem_iff (m1 m2 : List (Int × List Nat)) (hs1 : e2s_sorted m1)
    (hs2 : e2s_sorted m2) (hn1 : e2s_nonempty m1) (hn2 : e2s_nonempty m2)
    (h : ∀ e i, e2s_mem m1 e i ↔ e2s_mem m2 e i) (e : Int) :
    map_find m1 e = map_find m2 e := by
  have key : ∀ (m m' : List (Int × List Nat)), e2s_sorted m → e2s_sorted m' →
      e2s_nonempty m → (∀ e i, e2s_mem m e i ↔ e2s_mem m' e i) →
      ∀ s, map_find m e = some s → map_find m' e = some s := by
    intro m m' hm hm' hn hiff s hfind
    obtain ⟨i, hi⟩ := List.exists_mem_of_ne_nil s (hn e s hfind)
    obtain ⟨s', hfind', -⟩ := (hiff e i).mp ⟨s, hfind, hi⟩
    rw [hfind']
    congr 1
    apply sorted_set_ext s' s (hm' e s' hfind') (hm e s hfind)
    intro j
    constructor
    · intro hj
      obtain ⟨s2, h2, hj2⟩ := (hiff e j).mpr ⟨s', hfind', hj⟩
      rw [hfind] at h2
      simp only [Option.some.injEq] at h2
      exact h2 ▸ hj2
    · intro hj
      obtain ⟨s2, h2, hj2⟩ := (hiff e j).mp ⟨s, hfind, hj⟩
      rw [hfind'] at h2
      simp only [Option.some.injEq] at h2
      exact h2 ▸ hj2
  cases h1 : map_find m1 e with
  | some s => exact (key m1 m2 hs1 hs2 hn1 h s h1).symm
  | none =>
    cases h2 : map_find m2 e with
    | none => rfl
    | some s =>
      have := key m2 m1 hs2 hs1 hn2 (fun e i => (h e i).symm) s h2
      rw [h1] at this
      exact absurd this (by simp)

theorem build_index_facts (hs : hyper_set) :
    map_sorted (build_index hs).e2s ∧ e2s_nonempty (build_index hs).e2s ∧
      index_lists_rows (build_index hs) := by
  refine ⟨?_, ?_, index_lists_rows_build_index hs⟩
  · exact map_sorted_build_index_loop hs.edges 0 [] List.Pairwise.nil
  · exact (e2s_keys_ok_build_index_loop hs.edges 0 []
      ⟨rfl, fun e s h => by simp [map_find] at h⟩).2

/-- A hyper-set is index-consistent exactly when the keys of `e2s` are in order, no set
of `e2s` is empty, and `e2s` lists for each edge the rows containing it. -/
theorem index_consistent_iff (hs : hyper_set) :
    index_consistent hs ↔
      map_sorted hs.e2s ∧ e2s_nonempty hs.e2s ∧ index_lists_rows hs := by
  obtain ⟨b1, b2, b3⟩ := build_index_facts hs
  constructor
  · intro h
    unfold index_consistent at h
    refine ⟨by rw [h]; exact b1, by rw [h]; exact b2, ?_⟩
    unfold index_lists_rows at b3 ⊢
    rw [h]
    exact b3
  · rintro ⟨h1, h2, h3⟩
    unfold index_consistent
    apply map_ext_of_sorted _ _ h1 b1
    intro e
    apply map_find_eq_of_mem_iff _ _ h3.1 b3.1 h2 b2
    intro e' i
    rw [h3.2 e' i, b3.2 e' i]
    rfl

theorem map_sorted_erase {β : Type} (m : List (Int × β)) (a : Int) (h : map_sorted m) :
    map_sorted (map_erase m a) := by
  induction m with
  | nil => simpa [map_erase] using h
  | cons p m ih =>
    obtain ⟨k, v⟩ := p
    unfold map_sorted at h ih ⊢
    simp only [List.map_cons, List.pairwise_cons] at h
    unfold map_erase
    by_cases hk : k = a
    · simp only [hk, if_true]
      exact ih h.2
    · simp only [hk, if_false, List.map_cons, List.pairwise_cons]
      refine ⟨?_, ih h.2⟩
      intro k' hk'
      apply h.1
      have hsub : ∀ (l : List (Int × β)) (x : Int), x ∈ (map_erase l a).map Prod.fst →
          x ∈ l.map Prod.fst := by
        intro l
        induction l with
        | nil => intro x hx; simp [map_erase] at hx
        | cons q l ihl =>
          intro x hx
          obtain ⟨k2, v2⟩ := q
          unfold map_erase at hx
          by_cases hk2 : k2 = a
          · simp only [hk2, if_true] at hx
            exact List.mem_cons_of_mem _ (ihl x hx)
          · simp only [hk2, if_false, List.map_cons, List.mem_cons] at hx
            rcases hx with rfl | hx
            · exact List.mem_cons_self _ _
            · exact List.mem_cons_of_mem _ (ihl x hx)
      exact hsub m k' hk'

theorem remove_row_spec_of_unlisted (hs : hyper_set) (e : Int) (hidx : index_lists_rows hs)
    (i : Nat) (row : List Int) (hrow : hs.edges[i]? = some row) (hno : ¬ e2s_mem hs.e2s e i) :
    remove_row_spec e row = row := by
  apply remove_row_spec_of_not_mem
  by_cases he : e = -1
  · exact Or.inr he
  · exact Or.inl (fun hmem => hno ((hidx.2 e i).mpr ⟨he, row, hrow, hmem⟩))

/-- The rows and the index after `remove(e)`. -/
theorem remove_eq (hs : hyper_set) (e : Int) (hidx : index_lists_rows hs) :
    ∃ hs', remove hs e = some hs' ∧ hs'.edges = hs.edges.map (remove_row_spec e) ∧
      (∀ e', map_find hs'.e2s e' = if e' = e then none else map_find hs.e2s e') ∧
      (map_sorted hs.e2s → map_sorted hs'.e2s) := by
  cases hfind : map_find hs.e2s e with
  | none =>
    refine ⟨hs, by simp [remove, hfind], ?_, ?_, fun h => h⟩
    · conv_lhs => rw [← List.map_id hs.edges]
      apply List.map_congr_left
      intro row hrow
      obtain ⟨i, hi⟩ := List.mem_iff_getElem?.mp hrow
      symm
      apply remove_row_spec_of_unlisted hs e hidx i row hi
      rintro ⟨s, hs1, -⟩
      rw [hfind] at hs1
      exact absurd hs1 (by simp)
    · intro e'
      by_cases he : e' = e
      · rw [if_pos he, he, hfind]
      · rw [if_neg he]
  | some s =>
    have hvalid : ∀ k ∈ s, ∃ row, hs.edges[k]? = some row ∧ row ≠ [] := by
      intro k hk
      obtain ⟨_, row, hrow, hmem⟩ := (hidx.2 e k).mp ⟨s, hfind, hk⟩
      exact ⟨row, hrow, List.ne_nil_of_mem hmem⟩
    obtain ⟨edges', fb', h1, -, h3⟩ := remove_rows_eq e s hs.edges [] hvalid
    have hrows : edges' = hs.edges.map (remove_row_spec e) := by
      apply List.ext_getElem?
      intro i
      rw [h3 i, List.getElem?_map]
      cases hrow : hs.edges[i]? with
      | none => rfl
      | some row =>
        by_cases hi : i ∈ s
        · simp [hi]
        · simp only [Option.map_some', hi, if_false, Option.some.injEq]
          symm
          apply remove_row_spec_of_unlisted hs e hidx i row hrow
          rintro ⟨s', hs1, hs2⟩
          rw [hfind] at hs1
          simp only [Option.some.injEq] at hs1
          exact hi (hs1 ▸ hs2)
    refine ⟨{ hs with edges := edges',
                      e2s := map_erase (map_put hs.e2s e (erase_all fb' s)) e }, ?_, hrows,
      ?_, ?_⟩
    · simp [remove, hfind, h1]
    · intro e'
      simp only [map_find_erase, map_find_put]
      by_cases he : e' = e
      · simp [he]
      · simp [he]
    · intro hsorted
      exact map_sorted_erase _ e (map_sorted_put _ e _ hsorted)

theorem mem_remove_row_spec (e k : Int) (row : List Int) (hk : k ≠ -1) :
    k ∈ remove_row_spec e row ↔ k ∈ row ∧ k ≠ e := by
  simp only [remove_row_spec, List.mem_map]
  constructor
  · rintro ⟨a, ha, hak⟩
    by_cases hae : a = e
    · rw [if_pos hae] at hak
      exact absurd hak.symm hk
    · rw [if_neg hae] at hak
      subst hak
      exact ⟨ha, hae⟩
  · rintro ⟨hmem, hne⟩
    exact ⟨k, hmem, if_neg hne⟩

/-- Index-consistency is kept by `remove(e)`. -/
theorem remove_index_consistent (hs : hyper_set) (e : Int) (h : index_consistent hs) :
    ∃ hs', remove hs e = some hs' ∧ index_consistent hs' := by
  obtain ⟨h1, h2, h3⟩ := (index_consistent_iff hs).mp h
  obtain ⟨hs', hr, hedges, hfind, hsorted⟩ := remove_eq hs e h3
  refine ⟨hs', hr, (index_consistent_iff hs').mpr ⟨hsorted h1, ?_, ?_, ?_⟩⟩
  · intro e' s hs1
    rw [hfind e'] at hs1
    by_cases he : e' = e
    · rw [if_pos he] at hs1
      exact absurd hs1 (by simp)
    · rw [if_neg he] at hs1
      exact h2 e' s hs1
  · intro e' s hs1
    rw [hfind e'] at hs1
    by_cases he : e' = e
    · rw [if_pos he] at hs1
      exact absurd hs1 (by simp)
    · rw [if_neg he] at hs1
      exact h3.1 e' s hs1
  · intro e' i
    have hmem : e2s_mem hs'.e2s e' i ↔ e' ≠ e ∧ e2s_mem hs.e2s e' i := by
      unfold e2s_mem
      rw [hfind e']
      by_cases he : e' = e
      · simp [he]
      · simp [he]
    rw [hmem, h3.2 e' i, hedges, List.getElem?_map]
    constructor
    · rintro ⟨hne, hk, row, hrow, hin⟩
      exact ⟨hk, remove_row_spec e row, by rw [hrow]; rfl,
        (mem_remove_row_spec e e' row hk).mpr ⟨hin, hne⟩⟩
    · rintro ⟨hk, row', hrow', hin⟩
      cases hrow : hs.edges[i]? with
      | none =>
        rw [hrow] at hrow'
        exact absurd hrow' (by simp)
      | some row =>
        rw [hrow] at hrow'
        simp only [Option.map_some', Option.some.injEq] at hrow'
        subst hrow'
        obtain ⟨q1, q2⟩ := (mem_remove_row_spec e e' row hk).mp hin
        exact ⟨q2, hk, row, rfl, q1⟩

theorem insert_between_scan_keeps (x y e : Int) (k : Nat)
    (P : List (Int × List Nat) → Prop) (hP : ∀ m, P m → e ≠ -1 → P (e2s_add m e k))
    (fuel : Nat) :
    ∀ (i : Nat) (st r : List Int × List (Int × List Nat)),
      insert_between_scan x y e k fuel i st = some r → P st.2 → P r.2 := by
  induction fuel with
  | zero =>
    intro i st r h
    simp [insert_between_scan] at h
  | succ fuel ih =>
    intro i st r h hst
    obtain ⟨vv, m⟩ := st
    rw [insert_between_scan] at h
    by_cases h1 : i < vv.length
    · rw [if_pos h1] at h
      by_cases h2 : i = vv.length - 1
      · rw [if_pos h2] at h
        exact ih _ _ _ h hst
      · rw [if_neg h2] at h
        by_cases h3 : vv[i]? ≠ some x
        · rw [if_pos h3] at h
          exact ih _ _ _ h hst
        · rw [if_neg h3] at h
          by_cases h4 : vv[i + 1]? ≠ some y
          · rw [if_pos h4] at h
            exact ih _ _ _ h hst
          · rw [if_neg h4] at h
            by_cases h5 : e = -1
            · rw [if_pos h5] at h
              exact ih _ _ _ h hst
            · rw [if_neg h5] at h
              exact ih _ _ _ h (hP m hst h5)
    · rw [if_neg h1, Option.some.injEq] at h
      rw [← h]
      exact hst

theorem insert_between_rows_keeps (x y e : Int) (fuel : Nat)
    (P : List (Int × List Nat) → Prop)
    (hP : ∀ (m : List (Int × List Nat)) (k : Nat), P m → e ≠ -1 → P (e2s_add m e k))
    (s : List Nat) :
    ∀ (st r : List (List Int) × List (Int × List Nat)),
      insert_between_rows x y e fuel s st = outcome.done r → P st.2 → P r.2 := by
  induction s with
  | nil =>
    intro st r h hst
    simp only [insert_between_rows, outcome.done.injEq] at h
    rw [← h]
    exact hst
  | cons k s ih =>
    intro st r h hst
    obtain ⟨edges, m⟩ := st
    rw [insert_between_rows] at h
    cases hk : edges[k]? with
    | none => simp [hk] at h
    | some vv =>
      simp only [hk] at h
      by_cases h1 : 1 ≤ vv.length
      · simp only [h1, not_true_eq_false, if_false] at h
        cases hscan : insert_between_scan x y e k fuel 0 (vv, m) with
        | none => simp [hscan] at h
        | some r1 =>
          simp only [hscan] at h
          exact ih _ _ h
            (insert_between_scan_keeps x y e k P (fun m' => hP m' k) fuel 0 (vv, m) r1 hscan hst)
      · simp [h1] at h

theorem insert_between_keeps (fuel : Nat) (hs hs' : hyper_set) (x y e : Int)
    (P : List (Int × List Nat) → Prop)
    (hP : ∀ (m : List (Int × List Nat)) (k : Nat), P m → e ≠ -1 → P (e2s_add m e k))
    (h : insert_between fuel hs x y e = outcome.done hs') (hst : P hs.e2s) : P hs'.e2s := by
  unfold insert_between at h
  cases hfind : map_find hs.e2s x with
  | none =>
    simp only [hfind, outcome.done.injEq] at h
    rw [← h]
    exact hst
  | some s =>
    simp only [hfind] at h
    cases hr : insert_between_rows x y e fuel s (hs.edges, hs.e2s) with
    | abort => simp [hr] at h
    | out_of_fuel => simp [hr] at h
    | done r =>
      obtain ⟨edges, m⟩ := r
      simp only [hr, outcome.done.injEq] at h
      rw [← h]
      exact insert_between_rows_keeps x y e fuel P hP s _ _ hr hst

theorem e2s_nonempty_add (m : List (Int × List Nat)) (e : Int) (k : Nat)
    (h : e2s_nonempty m) : e2s_nonempty (e2s_add m e k) := by
  intro e' s hs
  rw [map_find_e2s_add] at hs
  by_cases he : e' = e
  · rw [if_pos he, Option.some.injEq] at hs
    rw [← hs]
    exact set_insert_ne_nil k _
  · rw [if_neg he] at hs
    exact h e' s hs

theorem mem_insert_between_row_spec (x y e a : Int) (row : List Int) :
    a ∈ insert_between_row_spec x y e row ↔ a ∈ row ∨ (a = e ∧ has_pair x y row) := by
  induction row with
  | nil => simp [insert_between_row_spec, has_pair]
  | cons b row ih =>
    cases row with
    | nil => simp [insert_between_row_spec, has_pair]
    | cons c rest =>
      rw [insert_between_row_spec_cons_cons, has_pair_cons_cons]
      by_cases hbc : b = x ∧ c = y
      · rw [if_pos hbc]
        rw [List.mem_cons, List.mem_cons, ih, List.mem_cons (a := a) (b := b)]
        tauto
      · rw [if_neg hbc]
        rw [List.mem_cons, ih, List.mem_cons (a := a) (b := b)]
        tauto

/-- Index-consistency is kept by `insert_between(x, y, e)` with `e ≠ x`, for an edge
`e` or the gap `-1`. -/
theorem insert_between_index_consistent (fuel : Nat) (hs : hyper_set) (x y e : Int)
    (hex : e ≠ x) (h : index_consistent hs)
    (hfuel : ∀ row ∈ hs.edges, 2 * row.length + 1 ≤ fuel) :
    ∃ hs', insert_between fuel hs x y e = outcome.done hs' ∧ index_consistent hs' := by
  obtain ⟨h1, h2, h3⟩ := (index_consistent_iff hs).mp h
  obtain ⟨hs', hr, -, hrows, -, -, -, hmem, hsorted⟩ :=
    insert_between_eq fuel hs x y e hex (listed_rows_exist_of_index hs x h3) hfuel
  refine ⟨hs', hr, (index_consistent_iff hs').mpr ⟨?_, ?_, hsorted h3.1, ?_⟩⟩
  · exact insert_between_keeps fuel hs hs' x y e map_sorted
      (fun m k hm _ => map_sorted_e2s_add m e k hm) hr h1
  · exact insert_between_keeps fuel hs hs' x y e e2s_nonempty
      (fun m k hm _ => e2s_nonempty_add m e k hm) hr h2
  · intro e' i
    rw [hmem e' i, h3.2 e' i]
    constructor
    · rintro (⟨hk, row, hrow, hin⟩ | ⟨he', hne, hl, row, hrow, hp⟩)
      · by_cases hl : e2s_mem hs.e2s x i
        · exact ⟨hk, _, (hrows i row hrow).1 hl,
            (mem_insert_between_row_spec x y e e' row).mpr (Or.inl hin)⟩
        · exact ⟨hk, row, (hrows i row hrow).2 hl, hin⟩
      · exact ⟨he' ▸ hne, _, (hrows i row hrow).1 hl,
          (mem_insert_between_row_spec x y e e' row).mpr (Or.inr ⟨he', hp⟩)⟩
    · rintro ⟨hk, row', hrow', hin⟩
      have hlen : i < hs.edges.length := by
        have := (List.getElem?_eq_some.mp hrow').1
        obtain ⟨-, q, -⟩ := insert_between_eq fuel hs x y e hex
          (listed_rows_exist_of_index hs x h3) hfuel
        have hq : hs'.edges.length = hs.edges.length := by
          obtain ⟨hs'', hr'', hlen'', -⟩ := insert_between_eq fuel hs x y e hex
            (listed_rows_exist_of_index hs x h3) hfuel
          rw [hr, outcome.done.injEq] at hr''
          rw [hr'']
          exact hlen''
        omega
      have hrow : hs.edges[i]? = some hs.edges[i] := List.getElem?_eq_getElem hlen
      by_cases hl : e2s_mem hs.e2s x i
      · rw [(hrows i _ hrow).1 hl, Option.some.injEq] at hrow'
        rw [← hrow'] at hin
        rcases (mem_insert_between_row_spec x y e e' _).mp hin with hin | ⟨he', hp⟩
        · exact Or.inl ⟨hk, _, hrow, hin⟩
        · exact Or.inr ⟨he', he' ▸ hk, hl, _, hrow, hp⟩
      · rw [(hrows i _ hrow).2 hl, Option.some.injEq] at hrow'
        rw [← hrow'] at hin
        exact Or.inl ⟨hk, _, hrow, hin⟩

theorem set_erase_sorted (i : Nat) (s : List Nat) (h : s.Pairwise (fun a b => a < b)) :
    (set_erase i s).Pairwise (fun a b => a < b) := by
  have hsub : (set_erase i s).Sublist s := by
    induction s with
    | nil => exact List.Sublist.refl _
    | cons j s ih =>
      rw [set_erase]
      split
      · exact List.Sublist.cons _ (ih h.of_cons)
      · exact (ih h.of_cons).cons₂ _
  exact h.sublist hsub

theorem erase_all_sorted (fb s : List Nat) (h : s.Pairwise (fun a b => a < b)) :
    (erase_all fb s).Pairwise (fun a b => a < b) := by
  unfold erase_all
  induction fb generalizing s with
  | nil => exact h
  | cons k fb ih => exact ih _ (set_erase_sorted k s h)

/-- One round of the second loop of `replace`: the rows of `fb` are taken out of the set
stored under `u`, and the key goes when nothing is left. -/
theorem replace_unindex_step (fb : List Nat) (u : Int) (m : List (Int × List Nat))
    (h1 : map_sorted m) (h2 : e2s_sorted m) (h3 : e2s_nonempty m) :
    ∃ m1, (∀ v, replace_unindex fb (u :: v) m = replace_unindex fb v m1) ∧
      map_sorted m1 ∧ e2s_sorted m1 ∧ e2s_nonempty m1 ∧
      ∀ w i, e2s_mem m1 w i ↔ e2s_mem m w i ∧ (w = u → i ∉ fb) := by
  cases hfind : map_find m u with
  | none =>
    refine ⟨m, ?_, h1, h2, h3, ?_⟩
    · intro v
      rw [replace_unindex]
      simp only [hfind]
    · intro w i
      constructor
      · intro hm
        refine ⟨hm, ?_⟩
        intro hw
        obtain ⟨s, hs, _⟩ := hm
        rw [hw, hfind] at hs
        exact absurd hs (by simp)
      · exact fun h => h.1
  | some s =>
    by_cases hlen : (erase_all fb s).length = 0
    · refine ⟨map_erase m u, ?_, map_sorted_erase m u h1, ?_, ?_, ?_⟩
      · intro v
        rw [replace_unindex]
        simp only [hfind, hlen, if_true]
      · intro e' s' hs'
        rw [map_find_erase] at hs'
        by_cases he : e' = u
        · rw [if_pos he] at hs'
          exact absurd hs' (by simp)
        · rw [if_neg he] at hs'
          exact h2 e' s' hs'
      · intro e' s' hs'
        rw [map_find_erase] at hs'
        by_cases he : e' = u
        · rw [if_pos he] at hs'
          exact absurd hs' (by simp)
        · rw [if_neg he] at hs'
          exact h3 e' s' hs'
      · intro w i
        unfold e2s_mem
        rw [map_find_erase]
        by_cases hw : w = u
        · rw [if_pos hw, hw, hfind]
          constructor
          · rintro ⟨s', hs', -⟩
            exact absurd hs' (by simp)
          · rintro ⟨⟨s', hs', hi⟩, hfb⟩
            simp only [Option.some.injEq] at hs'
            subst hs'
            have : i ∈ erase_all fb s := (mem_erase_all fb s i).mpr ⟨hi, hfb rfl⟩
            rw [List.length_eq_zero.mp hlen] at this
            exact absurd this (List.not_mem_nil _)
        · rw [if_neg hw]
          exact ⟨fun h => ⟨h, fun h' => absurd h' hw⟩, fun h => h.1⟩
    · refine ⟨map_put m u (erase_all fb s), ?_, map_sorted_put m u _ h1, ?_, ?_, ?_⟩
      · intro v
        rw [replace_unindex]
        simp only [hfind, hlen, if_false]
      · intro e' s' hs'
        rw [map_find_put] at hs'
        by_cases he : e' = u
        · rw [if_pos he, Option.some.injEq] at hs'
          rw [← hs']
          exact erase_all_sorted fb s (h2 u s hfind)
        · rw [if_neg he] at hs'
          exact h2 e' s' hs'
      · intro e' s' hs'
        rw [map_find_put] at hs'
        by_cases he : e' = u
        · rw [if_pos he, Option.some.injEq] at hs'
          rw [← hs']
          exact fun h => hlen (by rw [h]; rfl)
        · rw [if_neg he] at hs'
          exact h3 e' s' hs'
      · intro w i
        unfold e2s_mem
        rw [map_find_put]
        by_cases hw : w = u
        · rw [if_pos hw, hw, hfind]
          constructor
          · rintro ⟨s', hs', hi⟩
            simp only [Option.some.injEq] at hs'
            subst hs'
            obtain ⟨q1, q2⟩ := (mem_erase_all fb s i).mp hi
            exact ⟨⟨s, rfl, q1⟩, fun _ => q2⟩
          · rintro ⟨⟨s', hs', hi⟩, hfb⟩
            simp only [Option.some.injEq] at hs'
            subst hs'
            exact ⟨_, rfl, (mem_erase_all fb s i).mpr ⟨hi, hfb rfl⟩⟩
        · rw [if_neg hw]
          exact ⟨fun h => ⟨h, fun h' => absurd h' hw⟩, fun h => h.1⟩

/-- The second loop of `replace`: under each element of `v` the rows of `fb` are no
longer listed, every other listing is kept. -/
theorem replace_unindex_spec (fb : List Nat) (v : List Int) :
    ∀ m : List (Int × List Nat), map_sorted m → e2s_sorted m → e2s_nonempty m →
      map_sorted (replace_unindex fb v m) ∧ e2s_sorted (replace_unindex fb v m) ∧
      e2s_nonempty (replace_unindex fb v m) ∧
      ∀ w i, e2s_mem (replace_unindex fb v m) w i ↔ e2s_mem m w i ∧ (w ∈ v → i ∉ fb) := by
  induction v with
  | nil =>
    intro m h1 h2 h3
    refine ⟨h1, h2, h3, ?_⟩
    intro w i
    simp [replace_unindex]
  | cons u v ih =>
    intro m h1 h2 h3
    obtain ⟨m1, hm1, q1, q2, q3, q4⟩ := replace_unindex_step fb u m h1 h2 h3
    rw [hm1 v]
    obtain ⟨r1, r2, r3, r4⟩ := ih m1 q1 q2 q3
    refine ⟨r1, r2, r3, ?_⟩
    intro w i
    rw [r4 w i, q4 w i, List.mem_cons]
    constructor
    · rintro ⟨⟨a, b⟩, c⟩
      exact ⟨a, fun h => h.elim b c⟩
    · rintro ⟨a, b⟩
      exact ⟨⟨a, fun h => b (Or.inl h)⟩, fun h => b (Or.inr h)⟩

theorem only_in_match_of_not_mem (seq row : List Int) (h : ∀ u ∈ seq, u ∉ row) :
    only_in_match seq row := by
  intro pre post hdec u hu
  exact absurd (by rw [hdec]; simp [hu]) (h u hu)

/-- The first loop of `replace`: the index keeps listing the rows, and under the
elements of `seq` it still lists the rows of `fb`, which no longer hold them. -/
theorem replace_rows_index (seq : List Int) (e : Int) (he : 0 ≤ e) (hes : e ∉ seq)
    (s : List Nat) :
    ∀ (edges : List (List Int)) (m : List (Int × List Nat)) (fb : List Nat)
      (edges' : List (List Int)) (m' : List (Int × List Nat)) (fb' : List Nat),
      replace_rows seq e s (edges, m, fb) = some (edges', m', fb') →
      (∀ row ∈ edges, only_in_match seq row) →
      map_sorted m → e2s_sorted m → e2s_nonempty m →
      (∀ w i, e2s_mem m w i ↔
        w ≠ -1 ∧ ((∃ row, edges[i]? = some row ∧ w ∈ row) ∨ (w ∈ seq ∧ i ∈ fb))) →
      (∀ i ∈ fb, ∀ row, edges[i]? = some row → ∀ u ∈ seq, u ∉ row) →
      map_sorted m' ∧ e2s_sorted m' ∧ e2s_nonempty m' ∧
      (∀ w i, e2s_mem m' w i ↔
        w ≠ -1 ∧ ((∃ row, edges'[i]? = some row ∧ w ∈ row) ∨ (w ∈ seq ∧ i ∈ fb'))) ∧
      (∀ i ∈ fb', ∀ row, edges'[i]? = some row → ∀ u ∈ seq, u ∉ row) := by
  induction s with
  | nil =>
    intro edges m fb edges' m' fb' hr hom h1 h2 h3 h4 h5
    rw [replace_rows] at hr
    simp only [Option.some.injEq, Prod.mk.injEq] at hr
    obtain ⟨rfl, rfl, rfl⟩ := hr
    exact ⟨h1, h2, h3, h4, h5⟩
  | cons k s ih =>
    intro edges m fb edges' m' fb' hr hom h1 h2 h3 h4 h5
    rw [replace_rows] at hr
    cases hvv : edges[k]? with
    | none =>
      simp only [hvv] at hr
      exact absurd hr (by simp)
    | some vv =>
      simp only [hvv] at hr
      cases hbv : consecutive_subset vv seq with
      | nil =>
        simp only [hbv, List.length_nil, le_refl, if_true] at hr
        exact ih edges m fb edges' m' fb' hr hom h1 h2 h3 h4 h5
      | cons b rest =>
        cases rest with
        | cons c rest' =>
          simp [hbv] at hr
        | nil =>
          simp only [hbv, List.length_cons, List.length_nil, Nat.zero_add,
            Nat.le_zero_eq, one_ne_zero, if_false, ne_eq, not_true_eq_false,
            List.getElem?_cons_zero] at hr
          have hklt : k < edges.length := (List.getElem?_eq_some.mp hvv).1
          have hbmem : b ∈ consecutive_subset vv seq := by rw [hbv]; simp
          have hne : seq ≠ [] := ((mem_consecutive_subset vv seq b).mp hbmem).1
          obtain ⟨pre, post, hdec⟩ : ∃ pre post, vv = pre ++ seq ++ post :=
            ⟨_, _, append_of_mem_consecutive_subset vv seq b hbmem⟩
          have hnew : (vv.set b e).take (b + 1) ++ (vv.set b e).drop (b + seq.length) =
              pre ++ e :: post := by
            have hrr : replace_row seq e vv =
                (vv.set b e).take (b + 1) ++ (vv.set b e).drop (b + seq.length) := by
              simp [replace_row, hbv]
            rw [← hrr, hdec]
            apply replace_row_of_append seq e pre post hne
            rw [← hdec, hbv]
            simp
          rw [hnew] at hr
          have hvvmem : vv ∈ edges := List.getElem?_mem hvv
          have hsplit := hom vv hvvmem pre post hdec
          have hfree : ∀ u ∈ seq, u ∉ pre ++ e :: post := by
            intro u hu hin
            rcases List.mem_append.mp hin with hin | hin
            · exact (hsplit u hu).1 hin
            · rcases List.mem_cons.mp hin with hin | hin
              · exact hes (hin ▸ hu)
              · exact (hsplit u hu).2 hin
          have hmemvv : ∀ w, w ∈ vv ↔ w ∈ pre ∨ w ∈ seq ∨ w ∈ post := by
            intro w
            rw [hdec]
            simp only [List.mem_append]
            tauto
          have hem1 : e ≠ -1 := by omega
          refine ih (edges.set k (pre ++ e :: post)) (e2s_add m e k) (fb ++ [k])
            edges' m' fb' hr ?_ (map_sorted_e2s_add m e k h1) (e2s_sorted_add m e k h2)
            (e2s_nonempty_add m e k h3) ?_ ?_
          · intro row hrow
            rcases List.mem_or_eq_of_mem_set hrow with hrow | hrow
            · exact hom row hrow
            · rw [hrow]
              exact only_in_match_of_not_mem seq _ hfree
          · intro w i
            rw [e2s_mem_add, h4 w i]
            by_cases hik : i = k
            · subst hik
              rw [List.getElem?_set_self hklt, hvv]
              simp only [Option.some.injEq, exists_eq_left', List.mem_append, List.mem_cons,
                List.mem_singleton, List.not_mem_nil, or_false, and_true, or_true]
              rw [hmemvv w]
              constructor
              · rintro (⟨hw, (hin | ⟨hws, -⟩)⟩ | rfl)
                · refine ⟨hw, ?_⟩
                  rcases hin with hin | hin | hin
                  · exact Or.inl (Or.inl hin)
                  · exact Or.inr hin
                  · exact Or.inl (Or.inr (Or.inr hin))
                · exact ⟨hw, Or.inr hws⟩
                · exact ⟨hem1, Or.inl (Or.inr (Or.inl rfl))⟩
              · rintro ⟨hw, ((hin | rfl | hin) | hws)⟩
                · exact Or.inl ⟨hw, Or.inl (Or.inl hin)⟩
                · exact Or.inr rfl
                · exact Or.inl ⟨hw, Or.inl (Or.inr (Or.inr hin))⟩
                · exact Or.inl ⟨hw, Or.inl (Or.inr (Or.inl hws))⟩
            · have hki : k ≠ i := fun h => hik h.symm
              rw [List.getElem?_set_ne hki]
              simp only [hik, and_false, or_false, List.mem_append, List.mem_singleton]
          · intro i hi row hrow
            by_cases hik : i = k
            · subst hik
              rw [List.getElem?_set_self hklt, Option.some.injEq] at hrow
              rw [← hrow]
              exact hfree
            · have hki : k ≠ i := fun h => hik h.symm
              rw [List.getElem?_set_ne hki] at hrow
              rcases List.mem_append.mp hi with hi | hi
              · exact h5 i hi row hrow
              · exact absurd (List.mem_singleton.mp hi) hik

theorem at_most_once_of_only_in_match (seq row : List Int) (hne : seq ≠ [])
    (h : only_in_match seq row) : at_most_once seq row := by
  have key : ∀ pre post pre' post' : List Int, row = pre ++ seq ++ post →
      row = pre' ++ seq ++ post' → ¬ pre.length < pre'.length := by
    intro pre post pre' post' h1 h2 hlt
    obtain ⟨u, rest, rfl⟩ := List.exists_cons_of_ne_nil hne
    have q1 : row[pre.length]? = some u := by
      rw [h1, List.append_assoc, List.getElem?_append_right (le_refl _)]
      simp
    have q2 : row[pre.length]? = pre'[pre.length]? := by
      rw [h2, List.append_assoc, List.getElem?_append_left hlt]
    rw [q2] at q1
    exact (h pre' post' h2 u (List.mem_cons_self _ _)).1 (List.getElem?_mem q1)
  intro pre post pre' post' h1 h2
  have := key pre post pre' post' h1 h2
  have := key pre' post' pre post h2 h1
  omega

theorem replace_index_consistent (hs : hyper_set) (seq : List Int) (e : Int)
    (h : index_consistent hs) (he : 0 ≤ e) (hes : e ∉ seq)
    (hom : ∀ row ∈ hs.edges, only_in_match seq row) :
    (∀ hs', replace hs seq e = some hs' → index_consistent hs') ∧
      ((∀ u ∈ seq, 0 ≤ u) → ∃ hs', replace hs seq e = some hs') := by
  obtain ⟨h1, h2, h3⟩ := (index_consistent_iff hs).mp h
  constructor
  · intro hs' hr
    unfold replace at hr
    by_cases hlen : seq.length = 0
    · rw [if_pos hlen, Option.some.injEq] at hr
      exact hr ▸ h
    · rw [if_neg hlen] at hr
      cases hgi : get_intersection hs seq with
      | none => simp [hgi] at hr
      | some s =>
        simp only [hgi] at hr
        cases hrr : replace_rows seq e s (hs.edges, hs.e2s, []) with
        | none => simp [hrr] at hr
        | some st =>
          obtain ⟨edges', m', fb'⟩ := st
          simp only [hrr, Option.some.injEq] at hr
          subst hr
          have hinit : ∀ w i, e2s_mem hs.e2s w i ↔
              w ≠ -1 ∧ ((∃ row, hs.edges[i]? = some row ∧ w ∈ row) ∨ (w ∈ seq ∧ i ∈ [])) := by
            intro w i
            rw [h3.2 w i]
            simp
          obtain ⟨q1, q2, q3, q4, q5⟩ := replace_rows_index seq e he hes s hs.edges hs.e2s []
            edges' m' fb' hrr hom h1 h3.1 h2 hinit
            (fun i hi => absurd hi (List.not_mem_nil _))
          obtain ⟨r1, r2, r3, r4⟩ := replace_unindex_spec fb' seq m' q1 q2 q3
          refine (index_consistent_iff _).mpr ⟨r1, r3, r2, ?_⟩
          intro w i
          show e2s_mem (replace_unindex fb' seq m') w i ↔
            w ≠ -1 ∧ ∃ row, edges'[i]? = some row ∧ w ∈ row
          rw [r4 w i, q4 w i]
          constructor
          · rintro ⟨⟨hw, (hrow | ⟨hws, hfb⟩)⟩, hnot⟩
            · exact ⟨hw, hrow⟩
            · exact absurd hfb (hnot hws)
          · rintro ⟨hw, row, hrow, hin⟩
            refine ⟨⟨hw, Or.inl ⟨row, hrow, hin⟩⟩, ?_⟩
            intro hws hfb
            exact q5 i hfb row hrow w hws hin
  · intro hnonneg
    by_cases hlen : seq.length = 0
    · exact ⟨hs, by simp [replace, hlen]⟩
    · have hne : seq ≠ [] := fun h => hlen (by rw [h]; rfl)
      obtain ⟨s, hs1, hs2, hs3, -⟩ := get_intersection_eq hs seq hne hnonneg h3.1
      have hrows : ∀ k ∈ s, ∃ row, hs.edges[k]? = some row ∧
          (consecutive_subset row seq).length ≤ 1 := by
        intro k hk
        obtain ⟨u, _, hmem⟩ := hs3 k hk
        obtain ⟨_, row, hrow, _⟩ := (h3.2 u k).mp hmem
        exact ⟨row, hrow, length_consecutive_subset_le_one seq row
          (at_most_once_of_only_in_match seq row hne (hom row (List.getElem?_mem hrow)))⟩
      obtain ⟨edges', m', fb', q1, -, -⟩ :=
        replace_rows_eq seq e s hs2 hs.edges hs.e2s [] hrows
      exact ⟨{ hs with edges := edges', e2s := replace_unindex fb' seq m' },
        by simp [replace, hlen, hs1, q1]⟩

theorem remove_pair_index_consistent (fuel : Nat) (hs : hyper_set) (x y : Int)
    (h : index_consistent hs) (hfuel : ∀ row ∈ hs.edges, 2 * row.length + 1 ≤ fuel) :
    ∃ hs', remove_pair fuel hs x y = outcome.done hs' ∧ index_consistent hs' := by
  by_cases hx : x = -1
  · obtain ⟨h1, h2, h3⟩ := (index_consistent_iff hs).mp h
    have hnone : map_find hs.e2s x = none := by
      cases hf : map_find hs.e2s x with
      | none => rfl
      | some s =>
        obtain ⟨i, hi⟩ := List.exists_mem_of_ne_nil s (h2 x s hf)
        exact absurd hx ((h3.2 x i).mp ⟨s, hf, hi⟩).1
    exact ⟨hs, by simp [remove_pair, insert_between, hnone], h⟩
  · exact insert_between_index_consistent fuel hs x y (-1) (fun h' => hx h'.symm) h hfuel

theorem index_consistent_build_index (hs : hyper_set) : index_consistent (build_index hs) :=
  (index_consistent_iff _).mpr (build_index_facts hs)

/-- Claim C32. Call a hyper-set index-consistent when `e2s` equals what `build_index`
computes from the current rows. For every index-consistent hyper-set: `remove(e)`
returns an index-consistent hyper-set; so do `remove_pair(x, y)` and
`insert_between(x, y, e)` with `e ≠ x`, once the fuel covers the scan of each row; and
for `e ≥ 0` that is not an element of `seq`, when no element of `seq` occurs in a row
outside an occurrence of `seq`, every hyper-set that `replace(seq, e)` returns is
index-consistent, and it returns one when the elements of `seq` are non-negative. -/
theorem index_consistency_preserved (hs : hyper_set) (h : index_consistent hs) :
    (∀ e, ∃ hs', remove hs e = some hs' ∧ index_consistent hs') ∧
    (∀ fuel x y, (∀ row ∈ hs.edges, 2 * row.length + 1 ≤ fuel) →
      ∃ hs', remove_pair fuel hs x y = outcome.done hs' ∧ index_consistent hs') ∧
    (∀ fuel x y e, e ≠ x → (∀ row ∈ hs.edges, 2 * row.length + 1 ≤ fuel) →
      ∃ hs', insert_between fuel hs x y e = outcome.done hs' ∧ index_consistent hs') ∧
    (∀ seq e, 0 ≤ e → e ∉ seq → (∀ row ∈ hs.edges, only_in_match seq row) →
      (∀ hs', replace hs seq e = some hs' → index_consistent hs') ∧
      ((∀ u ∈ seq, 0 ≤ u) →
        ∃ hs', replace hs seq e = some hs' ∧ index_consistent hs')) := by
  refine ⟨fun e => remove_index_consistent hs e h,
    fun fuel x y hfuel => remove_pair_index_consistent fuel hs x y h hfuel,
    fun fuel x y e hex hfuel => insert_between_index_consistent fuel hs x y e hex h hfuel,
    ?_⟩
  intro seq e he hes hom
  obtain ⟨q1, q2⟩ := replace_index_consistent hs seq e h he hes hom
  refine ⟨q1, fun hnn => ?_⟩
  obtain ⟨hs', hr⟩ := q2 hnn
  exact ⟨hs', hr, q1 hs' hr⟩

/-- An instance of `index_consistency_preserved`: the index built from the example rows
is consistent, and stays so when edge `2` is removed and when `9` is inserted between
`1` and `2`. -/
theorem index_consistency_preserved_witness :
    index_consistent (build_index example_rows) ∧
      (∃ hs', remove (build_index example_rows) 2 = some hs' ∧ index_consistent hs') ∧
      ∃ hs', insert_between 9 (build_index example_rows) 1 2 9 = outcome.done hs' ∧
        index_consistent hs' :=
  ⟨index_consistent_build_index example_rows,
    (index_consistency_preserved (build_index example_rows)
      (index_consistent_build_index example_rows)).1 2,
    (index_consistency_preserved (build_index example_rows)
      (index_consistent_build_index example_rows)).2.2.1 9 1 2 9 (by decide) (by decide)⟩

/-! ### `bundle::keep_surviving_edges` -/

theorem heaviest_edge_mem (gr : splice_graph) (l : List Nat) (d : Nat)
    (h : heaviest_edge gr l = some d) : d ∈ l := by
  induction l generalizing d with
  | nil => simp [heaviest_edge] at h
  | cons a l ih =>
    rw [heaviest_edge] at h
    cases hr : heaviest_edge gr l with
    | none =>
      simp only [hr, Option.some.injEq] at h
      exact h ▸ List.mem_cons_self _ _
    | some d1 =>
      simp only [hr] at h
      by_cases hw : wt gr.ewrt a < wt gr.ewrt d1
      · rw [if_pos hw, Option.some.injEq] at h
        subst h
        exact List.mem_cons_of_mem _ (ih d1 hr)
      · rw [if_neg hw, Option.some.injEq] at h
        exact h ▸ List.mem_cons_self _ _

theorem heaviest_edge_some (gr : splice_graph) (l : List Nat) (h : l ≠ []) :
    ∃ d, heaviest_edge gr l = some d := by
  cases l with
  | nil => exact absurd rfl h
  | cons a l =>
    rw [heaviest_edge]
    cases heaviest_edge gr l with
    | none => exact ⟨a, rfl⟩
    | some d1 =>
      by_cases hw : wt gr.ewrt a < wt gr.ewrt d1
      · exact ⟨d1, by simp [hw]⟩
      · exact ⟨a, by simp [hw]⟩

theorem weights_ascending_of_sorted (l : List (ℚ × Nat)) (h : l.Sorted pde_le) :
    weights_ascending l = true := by
  induction l with
  | nil => rfl
  | cons a l ih =>
    cases l with
    | nil => rfl
    | cons b rest =>
      have hab : pde_le a b := List.rel_of_sorted_cons h b (List.mem_cons_self _ _)
      have hle : a.1 ≤ b.1 := by
        rcases hab with h1 | ⟨h1, -⟩
        · exact le_of_lt h1
        · exact le_of_eq h1
      simp only [weights_ascending, Bool.and_eq_true, decide_eq_true_eq]
      exact ⟨hle, ih h.of_cons⟩

theorem sorted_maximal_edges_pairs (l : List (ℚ × Nat)) :
    (l.insertionSort pde_le).Sorted pde_le := by
  haveI : IsTotal (ℚ × Nat) pde_le := ⟨by
    intro a b
    unfold pde_le
    rcases lt_trichotomy a.1 b.1 with h | h | h
    · exact Or.inl (Or.inl h)
    · rcases le_total a.2 b.2 with h2 | h2
      · exact Or.inl (Or.inr ⟨h, h2⟩)
      · exact Or.inr (Or.inr ⟨h.symm, h2⟩)
    · exact Or.inr (Or.inl h)⟩
  haveI : IsTrans (ℚ × Nat) pde_le := ⟨by
    intro a b c hab hbc
    unfold pde_le at *
    rcases hab with h1 | ⟨h1, h2⟩
    · rcases hbc with h3 | ⟨h3, -⟩
      · exact Or.inl (lt_trans h1 h3)
      · exact Or.inl (h3 ▸ h1)
    · rcases hbc with h3 | ⟨h3, h4⟩
      · exact Or.inl (h1 ▸ h3)
      · exact Or.inr ⟨h1.trans h3, le_trans h2 h4⟩⟩
  exact List.sorted_insertionSort pde_le l

theorem maximal_edges_loop_some (gr : splice_graph) (vv : List Nat)
    (hends : ends_are_vertices gr) (hvv : numbers_components gr vv) (l : List (ℚ × Nat))
    (hl : ∀ p ∈ l, p.2 ∈ gr.edges ∧ edge_target gr p.2 ≠ gr.num_vertices - 1) :
    ∀ x sc, (∀ d ∈ x, d ∈ gr.edges) →
      ∃ me, maximal_edges_loop gr vv l (x, sc) = some me ∧ ∀ d ∈ me, d ∈ gr.edges := by
  induction l with
  | nil => exact fun x sc hx => ⟨x, rfl, hx⟩
  | cons p l ih =>
    intro x sc hx
    obtain ⟨w, e⟩ := p
    have ih1 := ih (fun q hq => hl q (List.mem_cons_of_mem _ hq))
    obtain ⟨he, ht⟩ := hl (w, e) (List.mem_cons_self _ _)
    rw [maximal_edges_loop]
    by_cases h1 : wt gr.ewrt e < 3 / 2
    · rw [if_pos h1]
      exact ⟨x, rfl, hx⟩
    · rw [if_neg h1]
      by_cases h2 : (gr.edge_ends.getD e (0, 0)).1 = 0
      · rw [if_pos h2]
        exact ih1 x sc hx
      · rw [if_neg h2]
        by_cases h3 : (gr.edge_ends.getD e (0, 0)).2 = gr.num_vertices
        · rw [if_pos h3]
          exact ih1 x sc hx
        · rw [if_neg h3]
          obtain ⟨hs, htl⟩ := hends e he
          have hlen := hvv.1
          have hc := hvv.2 e he h2 ht
          obtain ⟨c1, hs1⟩ : ∃ c1, vv[(gr.edge_ends.getD e (0, 0)).1]? = some c1 :=
            ⟨_, List.getElem?_eq_getElem (by rw [hlen]; exact hs)⟩
          have hs2 : vv[(gr.edge_ends.getD e (0, 0)).2]? = some c1 := by
            rw [← hs1]
            exact hc.symm
          simp only [hs1, hs2, ne_eq, not_true_eq_false, if_false]
          split
          · exact ih1 x sc hx
          · apply ih1
            intro d hd
            rcases List.mem_append.mp hd with hd | hd
            · exact hx d hd
            · rw [List.mem_singleton.mp hd]
              exact he

theorem compute_maximal_edges_some (gr : splice_graph) (vv : List Nat)
    (hends : ends_are_vertices gr) (hvv : numbers_components gr vv) :
    ∃ me, compute_maximal_edges gr vv = some me ∧ ∀ d ∈ me, d ∈ gr.edges := by
  unfold compute_maximal_edges
  rw [weights_ascending_of_sorted _ (sorted_maximal_edges_pairs _)]
  simp only [Bool.true_eq_false, if_false]
  apply maximal_edges_loop_some gr vv hends hvv _ _ [] [] (fun d hd => absurd hd (List.not_mem_nil _))
  intro p hp
  rw [List.mem_reverse, (List.perm_insertionSort pde_le _).mem_iff] at hp
  unfold maximal_edges_pairs at hp
  obtain ⟨e, he, rfl⟩ := List.mem_map.mp hp
  obtain ⟨h1, h2⟩ := List.mem_filter.mp he
  simp only [ne_eq, decide_eq_true_eq] at h2
  exact ⟨h1, h2.2⟩

theorem survivors_ok_insert (gr : splice_graph) (se sv1 sv2 : List Nat) (ee : Nat)
    (h : survivors_ok gr (se, sv1, sv2)) (hee : ee ∈ gr.edges) :
    survivors_ok gr (set_insert ee se, set_insert (gr.edge_ends.getD ee (0, 0)).2 sv1,
      set_insert (gr.edge_ends.getD ee (0, 0)).1 sv2) := by
  obtain ⟨h1, h2, h3⟩ := h
  refine ⟨?_, ?_, ?_⟩
  · intro d hd
    rcases (mem_set_insert ee d se).mp hd with hd | hd
    · exact hd ▸ hee
    · exact h1 d hd
  · intro v
    show v ∈ set_insert _ sv1 ↔ ∃ d ∈ set_insert ee se, edge_target gr d = v
    rw [mem_set_insert, h2 v]
    constructor
    · rintro (hv | ⟨d, hd, hdv⟩)
      · exact ⟨ee, (mem_set_insert ee ee se).mpr (Or.inl rfl), hv.symm⟩
      · exact ⟨d, (mem_set_insert ee d se).mpr (Or.inr hd), hdv⟩
    · rintro ⟨d, hd, hdv⟩
      rcases (mem_set_insert ee d se).mp hd with hd | hd
      · subst hd
        exact Or.inl hdv.symm
      · exact Or.inr ⟨d, hd, hdv⟩
  · intro v
    show v ∈ set_insert _ sv2 ↔ ∃ d ∈ set_insert ee se, edge_source gr d = v
    rw [mem_set_insert, h3 v]
    constructor
    · rintro (hv | ⟨d, hd, hdv⟩)
      · exact ⟨ee, (mem_set_insert ee ee se).mpr (Or.inl rfl), hv.symm⟩
      · exact ⟨d, (mem_set_insert ee d se).mpr (Or.inr hd), hdv⟩
    · rintro ⟨d, hd, hdv⟩
      rcases (mem_set_insert ee d se).mp hd with hd | hd
      · subst hd
        exact Or.inl hdv.symm
      · exact Or.inr ⟨d, hd, hdv⟩

theorem survivors_ok_surviving_edges (gr : splice_graph) (w0 : ℚ) (l : List Nat)
    (hl : ∀ d ∈ l, d ∈ gr.edges) :
    ∀ st, survivors_ok gr st → survivors_ok gr (surviving_edges gr w0 l st) := by
  induction l with
  | nil => exact fun st h => h
  | cons e l ih =>
    rintro ⟨se, sv1, sv2⟩ h
    rw [surviving_edges]
    have ih1 := ih (fun d hd => hl d (List.mem_cons_of_mem _ hd))
    split
    · exact ih1 _ h
    · exact ih1 _ (survivors_ok_insert gr se sv1 sv2 e h (hl e (List.mem_cons_self _ _)))

theorem survivors_ok_add_maximal_edges (gr : splice_graph) (l : List Nat)
    (hl : ∀ d ∈ l, d ∈ gr.edges) :
    ∀ st, survivors_ok gr st → survivors_ok gr (add_maximal_edges gr l st) := by
  induction l with
  | nil => exact fun st h => h
  | cons e l ih =>
    rintro ⟨se, sv1, sv2⟩ h
    rw [add_maximal_edges]
    exact ih (fun d hd => hl d (List.mem_cons_of_mem _ hd)) _
      (survivors_ok_insert gr se sv1 sv2 e h (hl e (List.mem_cons_self _ _)))

theorem edges_left_insert (gr : splice_graph) (se : List Nat) (ee : Nat) (hee : ee ∈ gr.edges)
    (hnot : ee ∉ se) : edges_left gr (set_insert ee se) < edges_left gr se := by
  unfold edges_left
  have h : gr.edges.filter (fun d => decide (d ∉ set_insert ee se)) =
      (gr.edges.filter (fun d => decide (d ∉ se))).filter (fun d => decide (d ≠ ee)) := by
    rw [List.filter_filter]
    apply List.filter_congr
    intro d _
    simp only [mem_set_insert, not_or, ne_eq, Bool.decide_and, Bool.and_comm]
  rw [h]
  apply List.length_filter_lt_length_iff_exists.mpr
  exact ⟨ee, List.mem_filter.mpr ⟨hee, by simpa using hnot⟩, by simp⟩

theorem edges_left_le (gr : splice_graph) (se : List Nat) :
    edges_left gr se ≤ gr.edges.length :=
  List.length_filter_le _ _

/-- The first `if` of the patch: either nothing changes and the vertex needs no edge in,
or the heaviest edge into the vertex, which was not kept, is kept from now on. -/
theorem patch_in_spec (gr : splice_graph) (hdeg : degree_ok gr)
    (hsink : gr.out_edges (gr.num_vertices - 1) = []) (hends : ends_are_vertices gr)
    (s : Nat) (hs : ∃ e ∈ gr.edges, edge_source gr e = s)
    (se sv1 sv2 : List Nat) (b : Bool) (h : survivors_ok gr (se, sv1, sv2)) :
    ∃ se1 sv11 sv21 b1, patch_in gr s (se, sv1, sv2, b) = some (se1, sv11, sv21, b1) ∧
      survivors_ok gr (se1, sv11, sv21) ∧ (∀ d ∈ se, d ∈ se1) ∧
      (((se1, sv11, sv21, b1) = (se, sv1, sv2, b) ∧ (s ∈ sv1 ∨ s = 0)) ∨
        (b1 = true ∧ edges_left gr se1 < edges_left gr se)) := by
  rw [patch_in]
  by_cases hc : s ∉ sv1 ∧ s ≠ 0
  · rw [if_pos hc]
    obtain ⟨e, he, hes⟩ := hs
    have hout : 1 ≤ gr.out_degree s := out_degree_pos_of_mem gr e s he hes
    have hne : s ≠ gr.num_vertices - 1 := by
      intro hcon
      have : e ∈ gr.out_edges (gr.num_vertices - 1) :=
        (mem_out_edges gr _ e).mpr ⟨he, hes.trans hcon⟩
      rw [hsink] at this
      exact absurd this (List.not_mem_nil _)
    have hlt : s < gr.num_vertices := hes ▸ (hends e he).1
    have hin : 1 ≤ gr.in_degree s :=
      (hdeg s (by omega) (by omega) (by unfold splice_graph.degree; omega)).1
    have hnil : gr.in_edges s ≠ [] := by
      intro hcon
      unfold splice_graph.in_degree at hin
      rw [hcon] at hin
      simp at hin
    obtain ⟨ee, hee⟩ := heaviest_edge_some gr _ hnil
    have hmem := (mem_in_edges gr s ee).mp (heaviest_edge_mem gr _ ee hee)
    have hnot : ee ∉ se := fun hcon => hc.1 ((h.2.1 s).mpr ⟨ee, hcon, hmem.2⟩)
    have hins := survivors_ok_insert gr se sv1 sv2 ee h hmem.1
    rw [hmem.2] at hins
    refine ⟨set_insert ee se, set_insert s sv1,
      set_insert (gr.edge_ends.getD ee (0, 0)).1 sv2, true, ?_, hins, ?_, Or.inr ⟨rfl, ?_⟩⟩
    · simp only [splice_graph.max_in_edge, hee, hnot, if_false]
    · exact fun d hd => (mem_set_insert ee d se).mpr (Or.inr hd)
    · exact edges_left_insert gr se ee hmem.1 hnot
  · rw [if_neg hc]
    refine ⟨se, sv1, sv2, b, rfl, h, fun d hd => hd, Or.inl ⟨rfl, ?_⟩⟩
    by_cases h1 : s ∈ sv1
    · exact Or.inl h1
    · by_cases h2 : s = 0
      · exact Or.inr h2
      · exact absurd ⟨h1, h2⟩ hc

/-- The second `if` of the patch, for the target of the edge. -/
theorem patch_out_spec (gr : splice_graph) (hdeg : degree_ok gr)
    (hsrc : gr.in_edges 0 = []) (hends : ends_are_vertices gr)
    (t : Nat) (ht : ∃ e ∈ gr.edges, edge_target gr e = t)
    (se sv1 sv2 : List Nat) (b : Bool) (h : survivors_ok gr (se, sv1, sv2)) :
    ∃ se1 sv11 sv21 b1, patch_out gr t (se, sv1, sv2, b) = some (se1, sv11, sv21, b1) ∧
      survivors_ok gr (se1, sv11, sv21) ∧ (∀ d ∈ se, d ∈ se1) ∧
      (((se1, sv11, sv21, b1) = (se, sv1, sv2, b) ∧ (t ∈ sv2 ∨ t = gr.num_vertices - 1)) ∨
        (b1 = true ∧ edges_left gr se1 < edges_left gr se)) := by
  rw [patch_out]
  by_cases hc : t ∉ sv2 ∧ t ≠ gr.num_vertices - 1
  · rw [if_pos hc]
    obtain ⟨e, he, het⟩ := ht
    have hin : 1 ≤ gr.in_degree t := in_degree_pos_of_mem gr e t he het
    have hne : t ≠ 0 := by
      intro hcon
      have : e ∈ gr.in_edges 0 := (mem_in_edges gr _ e).mpr ⟨he, het.trans hcon⟩
      rw [hsrc] at this
      exact absurd this (List.not_mem_nil _)
    have hlt : t < gr.num_vertices := het ▸ (hends e he).2
    have hout : 1 ≤ gr.out_degree t :=
      (hdeg t (by omega) (by omega) (by unfold splice_graph.degree; omega)).2
    have hnil : gr.out_edges t ≠ [] := by
      intro hcon
      unfold splice_graph.out_degree at hout
      rw [hcon] at hout
      simp at hout
    obtain ⟨ee, hee⟩ := heaviest_edge_some gr _ hnil
    have hmem := (mem_out_edges gr t ee).mp (heaviest_edge_mem gr _ ee hee)
    have hnot : ee ∉ se := fun hcon => hc.1 ((h.2.2 t).mpr ⟨ee, hcon, hmem.2⟩)
    have hins := survivors_ok_insert gr se sv1 sv2 ee h hmem.1
    rw [hmem.2] at hins
    refine ⟨set_insert ee se, set_insert (gr.edge_ends.getD ee (0, 0)).2 sv1,
      set_insert t sv2, true, ?_, hins, ?_, Or.inr ⟨rfl, ?_⟩⟩
    · simp only [splice_graph.max_out_edge, hee, hnot, if_false]
    · exact fun d hd => (mem_set_insert ee d se).mpr (Or.inr hd)
    · exact edges_left_insert gr se ee hmem.1 hnot
  · rw [if_neg hc]
    refine ⟨se, sv1, sv2, b, rfl, h, fun d hd => hd, Or.inl ⟨rfl, ?_⟩⟩
    by_cases h1 : t ∈ sv2
    · exact Or.inl h1
    · by_cases h2 : t = gr.num_vertices - 1
      · exact Or.inr h2
      · exact absurd ⟨h1, h2⟩ hc

/-- The body of the loop over `se`: no assertion fails; either nothing changes and the
edge needs no patch, or `b` is set and one more edge of the graph is kept. -/
theorem patch_body_spec (gr : splice_graph) (hdeg : degree_ok gr)
    (hsrc : gr.in_edges 0 = []) (hsink : gr.out_edges (gr.num_vertices - 1) = [])
    (hends : ends_are_vertices gr) (e : Nat) (he : e ∈ gr.edges)
    (se sv1 sv2 : List Nat) (b : Bool) (h : survivors_ok gr (se, sv1, sv2)) :
    ∃ se1 sv11 sv21 b1, patch_body gr e (se, sv1, sv2, b) = some (se1, sv11, sv21, b1) ∧
      survivors_ok gr (se1, sv11, sv21) ∧
      (((se1, sv11, sv21, b1) = (se, sv1, sv2, b) ∧ patched gr sv1 sv2 e) ∨
        (b1 = true ∧ edges_left gr se1 < edges_left gr se)) := by
  obtain ⟨se1, sv11, sv21, b1, q1, q2, -, q4⟩ := patch_in_spec gr hdeg hsink hends
    (gr.edge_ends.getD e (0, 0)).1 ⟨e, he, rfl⟩ se sv1 sv2 b h
  obtain ⟨se2, sv12, sv22, b2, r1, r2, -, r4⟩ := patch_out_spec gr hdeg hsrc hends
    (gr.edge_ends.getD e (0, 0)).2 ⟨e, he, rfl⟩ se1 sv11 sv21 b1 q2
  refine ⟨se2, sv12, sv22, b2, ?_, r2, ?_⟩
  · rw [patch_body]
    simp only [q1, r1]
  · rcases q4 with ⟨qeq, qp⟩ | ⟨qb, qlt⟩
    · simp only [Prod.mk.injEq] at qeq
      obtain ⟨rfl, rfl, rfl, rfl⟩ := qeq
      rcases r4 with ⟨req, rp⟩ | ⟨rb, rlt⟩
      · exact Or.inl ⟨req, qp, rp⟩
      · exact Or.inr ⟨rb, rlt⟩
    · rcases r4 with ⟨req, -⟩ | ⟨rb, rlt⟩
      · simp only [Prod.mk.injEq] at req
        obtain ⟨rfl, rfl, rfl, rfl⟩ := req
        exact Or.inr ⟨qb, qlt⟩
      · exact Or.inr ⟨rb, lt_trans rlt qlt⟩

theorem patch_for_spec (gr : splice_graph) (hdeg : degree_ok gr)
    (hsrc : gr.in_edges 0 = []) (hsink : gr.out_edges (gr.num_vertices - 1) = [])
    (hends : ends_are_vertices gr) (l : List Nat) (hl : ∀ e ∈ l, e ∈ gr.edges)
    (se sv1 sv2 : List Nat) (h : survivors_ok gr (se, sv1, sv2)) :
    ∃ se1 sv11 sv21 b1, patch_for gr l (se, sv1, sv2, false) = some (se1, sv11, sv21, b1) ∧
      survivors_ok gr (se1, sv11, sv21) ∧
      (((se1, sv11, sv21, b1) = (se, sv1, sv2, false) ∧ ∀ e ∈ l, patched gr sv1 sv2 e) ∨
        (b1 = true ∧ edges_left gr se1 < edges_left gr se)) := by
  induction l with
  | nil =>
    exact ⟨se, sv1, sv2, false, rfl, h, Or.inl ⟨rfl, fun e he => absurd he (List.not_mem_nil _)⟩⟩
  | cons e l ih =>
    obtain ⟨se1, sv11, sv21, b1, q1, q2, q3⟩ := patch_body_spec gr hdeg hsrc hsink hends e
      (hl e (List.mem_cons_self _ _)) se sv1 sv2 false h
    rw [patch_for]
    simp only [q1]
    rcases q3 with ⟨qeq, qp⟩ | ⟨qb, qlt⟩
    · simp only [Prod.mk.injEq] at qeq
      obtain ⟨rfl, rfl, rfl, rfl⟩ := qeq
      simp only [Bool.false_eq_true, if_false]
      obtain ⟨se2, sv12, sv22, b2, r1, r2, r3⟩ :=
        ih (fun e' he' => hl e' (List.mem_cons_of_mem _ he'))
      refine ⟨se2, sv12, sv22, b2, r1, r2, ?_⟩
      rcases r3 with ⟨req, rp⟩ | hr
      · refine Or.inl ⟨req, ?_⟩
        intro e' he'
        rcases List.mem_cons.mp he' with he' | he'
        · exact he' ▸ qp
        · exact rp e' he'
      · exact Or.inr hr
    · subst qb
      simp only [if_true]
      exact ⟨se1, sv11, sv21, true, rfl, q2, Or.inr ⟨rfl, qlt⟩⟩

/-- The patch loop ends within as many rounds as there are edges outside `se`, plus
one, without a failed assertion, and then no kept edge needs a patch. -/
theorem patch_while_spec (gr : splice_graph) (hdeg : degree_ok gr)
    (hsrc : gr.in_edges 0 = []) (hsink : gr.out_edges (gr.num_vertices - 1) = [])
    (hends : ends_are_vertices gr) (n : Nat) :
    ∀ se sv1 sv2, survivors_ok gr (se, sv1, sv2) → edges_left gr se ≤ n →
      ∃ se1 sv11 sv21,
        (∀ fuel, n < fuel → patch_while gr fuel (se, sv1, sv2) = outcome.done (se1, sv11, sv21)) ∧
        survivors_ok gr (se1, sv11, sv21) ∧ ∀ e ∈ se1, patched gr sv11 sv21 e := by
  induction n with
  | zero =>
    intro se sv1 sv2 h hn
    obtain ⟨se1, sv11, sv21, b1, q1, q2, q3⟩ := patch_for_spec gr hdeg hsrc hsink hends se
      h.1 se sv1 sv2 h
    rcases q3 with ⟨qeq, qp⟩ | ⟨-, qlt⟩
    · simp only [Prod.mk.injEq] at qeq
      obtain ⟨rfl, rfl, rfl, rfl⟩ := qeq
      refine ⟨se1, sv11, sv21, ?_, h, qp⟩
      intro fuel hfuel
      obtain ⟨k, rfl⟩ : ∃ k, fuel = k + 1 := ⟨fuel - 1, by omega⟩
      rw [patch_while]
      simp only [q1, if_true]
    · omega
  | succ n ih =>
    intro se sv1 sv2 h hn
    obtain ⟨se1, sv11, sv21, b1, q1, q2, q3⟩ := patch_for_spec gr hdeg hsrc hsink hends se
      h.1 se sv1 sv2 h
    rcases q3 with ⟨qeq, qp⟩ | ⟨qb, qlt⟩
    · simp only [Prod.mk.injEq] at qeq
      obtain ⟨rfl, rfl, rfl, rfl⟩ := qeq
      refine ⟨se1, sv11, sv21, ?_, h, qp⟩
      intro fuel hfuel
      obtain ⟨k, rfl⟩ : ∃ k, fuel = k + 1 := ⟨fuel - 1, by omega⟩
      rw [patch_while]
      simp only [q1, if_true]
    · subst qb
      obtain ⟨se2, sv12, sv22, r1, r2, r3⟩ := ih se1 sv11 sv21 q2 (by omega)
      refine ⟨se2, sv12, sv22, ?_, r2, r3⟩
      intro fuel hfuel
      obtain ⟨k, rfl⟩ : ∃ k, fuel = k + 1 := ⟨fuel - 1, by omega⟩
      rw [patch_while]
      simp only [q1, Bool.true_eq_false, if_false]
      exact r1 k (by omega)

theorem remove_edges_fields (l : List Nat) :
    ∀ gr : splice_graph,
      (l.foldl (fun g e => g.remove_edge e) gr).vinf = gr.vinf ∧
      (l.foldl (fun g e => g.remove_edge e) gr).vwrt = gr.vwrt ∧
      (l.foldl (fun g e => g.remove_edge e) gr).edge_ends = gr.edge_ends ∧
      (l.foldl (fun g e => g.remove_edge e) gr).ewrt = gr.ewrt ∧
      ∀ d, d ∈ (l.foldl (fun g e => g.remove_edge e) gr).removed ↔ d ∈ l ∨ d ∈ gr.removed := by
  induction l with
  | nil =>
    intro gr
    simp
  | cons e l ih =>
    intro gr
    obtain ⟨h1, h2, h3, h4, h5⟩ := ih (gr.remove_edge e)
    rw [List.foldl_cons]
    refine ⟨h1, h2, h3, h4, ?_⟩
    intro d
    rw [h5 d]
    simp only [splice_graph.remove_edge, List.mem_cons]
    tauto

/-- What `keep_surviving_edges` does under the degree property: the patch loop ends, the
kept edges are the edges of the graph after it, and the degree property holds again. -/
theorem keep_surviving_edges_spec (gr : splice_graph) (min_surviving_edge_weight : ℚ)
    (vv : List Nat) (hdeg : degree_ok gr) (hsrc : gr.in_edges 0 = [])
    (hsink : gr.out_edges (gr.num_vertices - 1) = []) (hends : ends_are_vertices gr)
    (hvv : numbers_components gr vv) :
    ∃ gr' b, (∀ fuel, gr.edges.length < fuel →
        keep_surviving_edges fuel min_surviving_edge_weight vv gr = outcome.done (gr', b)) ∧
      edges_removed_only gr gr' ∧ degree_ok gr' := by
  obtain ⟨me, hme, hmem⟩ := compute_maximal_edges_some gr vv hends hvv
  have hinit : survivors_ok gr ([], [], []) := by
    refine ⟨fun d hd => absurd hd (List.not_mem_nil _), fun v => ?_, fun v => ?_⟩ <;> simp
  have h0 := survivors_ok_add_maximal_edges gr me hmem _
    (survivors_ok_surviving_edges gr min_surviving_edge_weight gr.edges (fun d hd => hd) _ hinit)
  rcases hst : add_maximal_edges gr me
    (surviving_edges gr min_surviving_edge_weight gr.edges ([], [], [])) with ⟨se0, sv10, sv20⟩
  rw [hst] at h0
  obtain ⟨se1, sv11, sv21, q1, q2, q3⟩ := patch_while_spec gr hdeg hsrc hsink hends
    gr.edges.length se0 sv10 sv20 h0 (edges_left_le gr se0)
  obtain ⟨f1, f2, f3, f4, f5⟩ := remove_edges_fields
    (gr.edges.filter (fun e => decide (e ∉ se1))) gr
  have hmem1 : ∀ d, d ∈ ((gr.edges.filter (fun e => decide (e ∉ se1))).foldl
      (fun g e => g.remove_edge e) gr).edges ↔ d ∈ se1 := by
    intro d
    rw [mem_edges, f3, f5 d]
    constructor
    · rintro ⟨hlt, hnot⟩
      by_contra hcon
      have hr : d ∉ gr.removed := fun h => hnot (Or.inr h)
      exact hnot (Or.inl (List.mem_filter.mpr
        ⟨(mem_edges gr d).mpr ⟨hlt, hr⟩, by simpa using hcon⟩))
    · intro hd
      obtain ⟨hlt, hr⟩ := (mem_edges gr d).mp (q2.1 d hd)
      refine ⟨hlt, ?_⟩
      rintro (h | h)
      · have := (List.mem_filter.mp h).2
        simp only [decide_eq_true_eq] at this
        exact this hd
      · exact hr h
  refine ⟨_, decide (1 ≤ (gr.edges.filter (fun e => decide (e ∉ se1))).length), ?_,
    ⟨f1, f2, f3, f4, fun d hd => q2.1 d ((hmem1 d).mp hd)⟩, ?_⟩
  · intro fuel hfuel
    unfold keep_surviving_edges
    simp only [hme, hst, q1 fuel hfuel]
  · intro i h1 h2 h3
    have hnv : ((gr.edges.filter (fun e => decide (e ∉ se1))).foldl
        (fun g e => g.remove_edge e) gr).num_vertices = gr.num_vertices := by
      unfold splice_graph.num_vertices
      rw [f1]
    rw [hnv] at h2
    have hne : ((gr.edges.filter (fun e => decide (e ∉ se1))).foldl
        (fun g e => g.remove_edge e) gr).degree i ≠ 0 := by omega
    rw [Ne, degree_eq_zero_iff] at hne
    push_neg at hne
    obtain ⟨d, hd, hinc⟩ := hne
    rw [f3] at hinc
    have hp := q3 d ((hmem1 d).mp hd)
    have hin_of : ∀ d1, d1 ∈ se1 → edge_target gr d1 = i →
        1 ≤ ((gr.edges.filter (fun e => decide (e ∉ se1))).foldl
          (fun g e => g.remove_edge e) gr).in_degree i := by
      intro d1 hd1 ht
      apply in_degree_pos_of_mem _ d1 i ((hmem1 d1).mpr hd1)
      unfold edge_target
      rw [f3]
      exact ht
    have hout_of : ∀ d1, d1 ∈ se1 → edge_source gr d1 = i →
        1 ≤ ((gr.edges.filter (fun e => decide (e ∉ se1))).foldl
          (fun g e => g.remove_edge e) gr).out_degree i := by
      intro d1 hd1 ht
      apply out_degree_pos_of_mem _ d1 i ((hmem1 d1).mpr hd1)
      unfold edge_source
      rw [f3]
      exact ht
    by_cases hsd : (gr.edge_ends.getD d (0, 0)).1 = i
    · refine ⟨?_, hout_of d ((hmem1 d).mp hd) hsd⟩
      rcases hp.1 with hq | hq
      · have hq1 : i ∈ sv11 := by
          have : edge_source gr d = i := hsd
          rw [← this]
          exact hq
        obtain ⟨d1, hd1, ht1⟩ := (q2.2.1 i).mp hq1
        exact hin_of d1 hd1 ht1
      · have : edge_source gr d = i := hsd
        omega
    · have htd : edge_target gr d = i := hinc hsd
      refine ⟨hin_of d ((hmem1 d).mp hd) htd, ?_⟩
      rcases hp.2 with hq | hq
      · rw [htd] at hq
        obtain ⟨d1, hd1, ht1⟩ := (q2.2.2 i).mp hq
        exact hout_of d1 hd1 ht1
      · omega

/-- Claim C36. If before `keep_surviving_edges` every internal vertex with degree `> 0`
has an edge in and an edge out, no edge enters the source and none leaves the sink (in a
graph whose edges join its vertices and with `vv` numbering the components), then
`keep_surviving_edges` returns for every fuel above the number of edges, so no assertion
fails and the patch loop ends; it only removes edges; the degree property holds
afterwards; and `refine_splice_graph` on the result returns the same graph. -/
theorem keep_surviving_edges_keeps_degree_property (gr : splice_graph)
    (min_surviving_edge_weight : ℚ) (vv : List Nat) (hdeg : degree_ok gr)
    (hsrc : gr.in_edges 0 = []) (hsink : gr.out_edges (gr.num_vertices - 1) = [])
    (hends : ends_are_vertices gr) (hvv : numbers_components gr vv) :
    ∃ gr' b, (∀ fuel, gr.edges.length < fuel →
        keep_surviving_edges fuel min_surviving_edge_weight vv gr = outcome.done (gr', b)) ∧
      edges_removed_only gr gr' ∧ degree_ok gr' ∧
      ∀ fuel, 0 < fuel → refine_splice_graph fuel gr' = outcome.done gr' := by
  obtain ⟨gr', b, h1, h2, h3⟩ := keep_surviving_edges_spec gr min_surviving_edge_weight vv
    hdeg hsrc hsink hends hvv
  exact ⟨gr', b, h1, h2, h3, fun fuel hfuel => refine_while_of_ok fuel gr' hfuel h3⟩

theorem example_intron_ends : ends_are_vertices example_intron := by
  unfold ends_are_vertices
  decide

theorem example_intron_components : numbers_components example_intron [0, 1, 1, 1, 2] := by
  unfold numbers_components
  decide

/-- An instance of `keep_surviving_edges_keeps_degree_property`: in `example_intron` the
three exons are one component; with the threshold `3/2` the two edges of weight 1 are
removed and the middle exon is left without edges. -/
theorem keep_surviving_edges_keeps_degree_property_witness :
    degree_ok example_intron ∧
      ∃ gr' b, keep_surviving_edges 6 (3 / 2) [0, 1, 1, 1, 2] example_intron =
          outcome.done (gr', b) ∧
        edges_removed_only example_intron gr' ∧ degree_ok gr' ∧
        refine_splice_graph 1 gr' = outcome.done gr' := by
  have h := keep_surviving_edges_keeps_degree_property example_intron (3 / 2) [0, 1, 1, 1, 2]
    ((degree_ok_iff example_intron).mpr (by decide)) (by decide) (by decide)
    example_intron_ends example_intron_components
  obtain ⟨gr', b, h1, h2, h3, h4⟩ := h
  exact ⟨(degree_ok_iff example_intron).mpr (by decide),
    gr', b, h1 6 (by decide), h2, h3, h4 1 (by decide)⟩

end Altai
